import Mathlib

/-!
# RMDB storage engine: a shallow embedding

Definitions are transcribed from the C++ sources (`src/src/...`); each
definition names the function it embeds.  Stateful code is written as
explicit state passing; a call that throws returns the state it had at the
point of the throw together with the error.
-/

namespace RMDB

/-! ## Common types (`defs.h`) -/

/-- Record identifier of `defs.h`: page number and slot number. -/
structure Rid where
  page_no : Int
  slot_no : Int
deriving DecidableEq, Repr

/-- Decidable equality of results, so that closed statements about a run
can be evaluated. -/
instance instDecidableEqExcept {ε α : Type} [DecidableEq ε] [DecidableEq α] :
    DecidableEq (Except ε α) :=
  fun a b => match a, b with
  | Except.ok x, Except.ok y =>
    if h : x = y then isTrue (by rw [h]) else isFalse (by intro hh; cases hh; exact h rfl)
  | Except.error x, Except.error y =>
    if h : x = y then isTrue (by rw [h]) else isFalse (by intro hh; cases hh; exact h rfl)
  | Except.ok _, Except.error _ => isFalse (by intro hh; cases hh)
  | Except.error _, Except.ok _ => isFalse (by intro hh; cases hh)

/-! ## Lock manager (`transaction/concurrency/lock_manager.cpp`) -/

/-- Lock modes as they are named in `lock_manager.cpp`
(`S_IX` is the SIX mode, `EXLUCSIVE` keeps the source spelling). -/
inductive LockMode where
  | SHARED
  | EXLUCSIVE
  | INTENTION_SHARED
  | INTENTION_EXCLUSIVE
  | S_IX
deriving DecidableEq, Repr, Fintype

/-- Transaction states used by the lock and transaction managers. -/
inductive TransactionState where
  | DEFAULT
  | GROWING
  | SHRINKING
  | COMMITTED
  | ABORTED
deriving DecidableEq, Repr

/-- Reasons carried by `TransactionAbortException`. -/
inductive AbortReason where
  | LOCK_ON_SHIRINKING
  | UPGRADE_CONFLICT
  | DEADLOCK_PREVENTION
deriving DecidableEq, Repr

/-- The two kinds of lockable object. -/
inductive LockDataType where
  | TABLE
  | RECORD
deriving DecidableEq, Repr

/-- Modelled from the spec: the key of the lock table (its class lives in
`txn_defs.h`, which is not part of the sources at hand).  A TABLE object is
keyed by the file id, a RECORD object by the file id and the Rid; a table
key carries the Rid `(-1, -1)`. -/
structure LockDataId where
  fd : Int
  rid : Rid
  type : LockDataType
deriving DecidableEq, Repr

/-- The key built by `LockDataId(tab_fd, LockDataType::TABLE)`. -/
def LockDataId.ofTable (tab_fd : Int) : LockDataId :=
  ⟨tab_fd, ⟨-1, -1⟩, LockDataType.TABLE⟩

/-- The key built by `LockDataId(tab_fd, rid, LockDataType::RECORD)`. -/
def LockDataId.ofRecord (tab_fd : Int) (rid : Rid) : LockDataId :=
  ⟨tab_fd, rid, LockDataType.RECORD⟩

/-- One entry of a request queue: `LockRequest(txn_id, lock_mode)`. -/
structure LockRequest where
  txn_id : Int
  lock_mode : LockMode
deriving DecidableEq, Repr

/-- The `request_queue_` of a `LockRequestQueue`. -/
abbrev RequestQueue := List LockRequest

/-- The `lock_table_` map, kept as an association list in insertion order. -/
abbrev LockTable := List (LockDataId × RequestQueue)

/-- The kind of a write-set entry (`WType`). -/
inductive WType where
  | INSERT_TUPLE
  | DELETE_TUPLE
  | UPDATE_TUPLE
deriving DecidableEq, Repr

/-- A write-set entry: kind, table name, rid and the stored record image. -/
structure WriteRecord where
  wtype : WType
  tab_name : String
  rid : Rid
  record : List Nat
deriving DecidableEq, Repr

/-- The fields of `Transaction` that the managers read and write. -/
structure Transaction where
  txn_id : Int
  state : TransactionState
  lock_set : List LockDataId
  write_set : List WriteRecord
deriving DecidableEq, Repr

/-- `lock_table_.find(lock_id)`: the queue stored under a key, if any. -/
def LockTable.find (lt : LockTable) (lock_id : LockDataId) : Option RequestQueue :=
  match lt with
  | [] => none
  | (k, q) :: rest => if k = lock_id then some q else LockTable.find rest lock_id

/-- Store `q` under a key that is already present (`lock_table_[lock_id] = q`). -/
def LockTable.assign (lt : LockTable) (lock_id : LockDataId) (q : RequestQueue) : LockTable :=
  match lt with
  | [] => []
  | (k, old) :: rest =>
    if k = lock_id then (k, q) :: LockTable.assign rest lock_id q
    else (k, old) :: LockTable.assign rest lock_id q

/-- Insert a fresh key (`lock_table_.insert({lock_id, queue})`). -/
def LockTable.insertNew (lt : LockTable) (lock_id : LockDataId) (q : RequestQueue) : LockTable :=
  lt ++ [(lock_id, q)]

/-- Remove a key (`lock_table_.erase(lock_id)`). -/
def LockTable.eraseKey (lt : LockTable) (lock_id : LockDataId) : LockTable :=
  match lt with
  | [] => []
  | (k, q) :: rest =>
    if k = lock_id then LockTable.eraseKey rest lock_id
    else (k, q) :: LockTable.eraseKey rest lock_id

/-- `txn->append_lock_set(lock_id)`: insertion into the unordered set. -/
def Transaction.append_lock_set (txn : Transaction) (lock_id : LockDataId) : Transaction :=
  if lock_id ∈ txn.lock_set then txn
  else { txn with lock_set := txn.lock_set ++ [lock_id] }

/-- The second loop of every lock function: find the first request of
`tid`, rewrite its mode with `f` and stop; `none` when `tid` has no request
(`append_flag` stays true). -/
def rewriteOwn (tid : Int) (f : LockMode → LockMode) : RequestQueue → Option RequestQueue
  | [] => none
  | r :: rest =>
    if r.txn_id = tid then some ({ r with lock_mode := f r.lock_mode } :: rest)
    else (rewriteOwn tid f rest).map (fun q => r :: q)

/-- State after a lock-manager call together with what the call returned
or threw. -/
structure LockOutcome where
  result : Except AbortReason Bool
  table : LockTable
  txn : Transaction

/-- The common body of the six lock functions of `lock_manager.cpp`:
`conflicts` is the test of the first loop on a request of another
transaction, `upgrade` the rewrite of the second loop, `mode` the mode of a
newly appended request. -/
def lockWith (conflicts : LockMode → Bool) (upgrade : LockMode → LockMode) (mode : LockMode)
    (lt : LockTable) (txn : Transaction) (lock_id : LockDataId) : LockOutcome :=
  if txn.state = TransactionState.SHRINKING then
    ⟨Except.error AbortReason.LOCK_ON_SHIRINKING, lt, txn⟩
  else
    match lt.find lock_id with
    | none =>
      ⟨Except.ok true, lt.insertNew lock_id [⟨txn.txn_id, mode⟩], txn.append_lock_set lock_id⟩
    | some lock_reqs =>
      if lock_reqs.any (fun r => decide (r.txn_id ≠ txn.txn_id) && conflicts r.lock_mode) then
        ⟨Except.error AbortReason.DEADLOCK_PREVENTION, lt, txn⟩
      else
        match rewriteOwn txn.txn_id upgrade lock_reqs with
        | some q => ⟨Except.ok true, lt.assign lock_id q, txn⟩
        | none =>
          ⟨Except.ok true, lt.assign lock_id (lock_reqs ++ [⟨txn.txn_id, mode⟩]),
            txn.append_lock_set lock_id⟩

/-- `LockManager::lock_shared_on_record`. -/
def lock_shared_on_record (lt : LockTable) (txn : Transaction) (rid : Rid) (tab_fd : Int) :
    LockOutcome :=
  lockWith (fun m => decide (m = LockMode.EXLUCSIVE)) (fun m => m) LockMode.SHARED
    lt txn (LockDataId.ofRecord tab_fd rid)

/-- `LockManager::lock_exclusive_on_record`. -/
def lock_exclusive_on_record (lt : LockTable) (txn : Transaction) (rid : Rid) (tab_fd : Int) :
    LockOutcome :=
  lockWith (fun _ => true)
    (fun m => if m = LockMode.SHARED then LockMode.EXLUCSIVE else m) LockMode.EXLUCSIVE
    lt txn (LockDataId.ofRecord tab_fd rid)

/-- `LockManager::lock_shared_on_table`. -/
def lock_shared_on_table (lt : LockTable) (txn : Transaction) (tab_fd : Int) : LockOutcome :=
  lockWith
    (fun m => decide (m = LockMode.EXLUCSIVE ∨ m = LockMode.INTENTION_EXCLUSIVE ∨ m = LockMode.S_IX))
    (fun m => if m = LockMode.INTENTION_SHARED then LockMode.SHARED
              else if m = LockMode.INTENTION_EXCLUSIVE then LockMode.S_IX else m)
    LockMode.SHARED lt txn (LockDataId.ofTable tab_fd)

/-- `LockManager::lock_exclusive_on_table`. -/
def lock_exclusive_on_table (lt : LockTable) (txn : Transaction) (tab_fd : Int) : LockOutcome :=
  lockWith (fun _ => true) (fun _ => LockMode.EXLUCSIVE) LockMode.EXLUCSIVE
    lt txn (LockDataId.ofTable tab_fd)

/-- `LockManager::lock_IS_on_table`. -/
def lock_IS_on_table (lt : LockTable) (txn : Transaction) (tab_fd : Int) : LockOutcome :=
  lockWith (fun m => decide (m = LockMode.EXLUCSIVE)) (fun m => m) LockMode.INTENTION_SHARED
    lt txn (LockDataId.ofTable tab_fd)

/-- `LockManager::lock_IX_on_table`. -/
def lock_IX_on_table (lt : LockTable) (txn : Transaction) (tab_fd : Int) : LockOutcome :=
  lockWith
    (fun m => decide (m = LockMode.EXLUCSIVE ∨ m = LockMode.S_IX ∨ m = LockMode.SHARED))
    (fun m => if m = LockMode.INTENTION_SHARED then LockMode.INTENTION_EXCLUSIVE
              else if m = LockMode.SHARED then LockMode.S_IX else m)
    LockMode.INTENTION_EXCLUSIVE lt txn (LockDataId.ofTable tab_fd)

/-- The loop of `unlock`: erase the first request of `tid` and stop. -/
def eraseOwn (tid : Int) : RequestQueue → RequestQueue
  | [] => []
  | r :: rest => if r.txn_id = tid then rest else r :: eraseOwn tid rest

/-- `LockManager::unlock`: always returns true. -/
def unlock (lt : LockTable) (txn : Transaction) (lock_data_id : LockDataId) : LockTable :=
  match lt.find lock_data_id with
  | none => lt
  | some lock_reqs =>
    let q := eraseOwn txn.txn_id lock_reqs
    if q.isEmpty then lt.eraseKey lock_data_id else lt.assign lock_data_id q

/-- The lock-manager calls that request a lock. -/
inductive LockCall where
  | shared_on_record (rid : Rid) (tab_fd : Int)
  | exclusive_on_record (rid : Rid) (tab_fd : Int)
  | shared_on_table (tab_fd : Int)
  | exclusive_on_table (tab_fd : Int)
  | IS_on_table (tab_fd : Int)
  | IX_on_table (tab_fd : Int)
deriving DecidableEq, Repr

/-- Run a lock request against the lock manager. -/
def LockCall.run (c : LockCall) (lt : LockTable) (txn : Transaction) : LockOutcome :=
  match c with
  | LockCall.shared_on_record rid fd => lock_shared_on_record lt txn rid fd
  | LockCall.exclusive_on_record rid fd => lock_exclusive_on_record lt txn rid fd
  | LockCall.shared_on_table fd => lock_shared_on_table lt txn fd
  | LockCall.exclusive_on_table fd => lock_exclusive_on_table lt txn fd
  | LockCall.IS_on_table fd => lock_IS_on_table lt txn fd
  | LockCall.IX_on_table fd => lock_IX_on_table lt txn fd

/-- The mode a lock request asks for. -/
def LockCall.mode : LockCall → LockMode
  | LockCall.shared_on_record _ _ => LockMode.SHARED
  | LockCall.exclusive_on_record _ _ => LockMode.EXLUCSIVE
  | LockCall.shared_on_table _ => LockMode.SHARED
  | LockCall.exclusive_on_table _ => LockMode.EXLUCSIVE
  | LockCall.IS_on_table _ => LockMode.INTENTION_SHARED
  | LockCall.IX_on_table _ => LockMode.INTENTION_EXCLUSIVE

/-- The object a lock request names. -/
def LockCall.target : LockCall → LockDataId
  | LockCall.shared_on_record rid fd => LockDataId.ofRecord fd rid
  | LockCall.exclusive_on_record rid fd => LockDataId.ofRecord fd rid
  | LockCall.shared_on_table fd => LockDataId.ofTable fd
  | LockCall.exclusive_on_table fd => LockDataId.ofTable fd
  | LockCall.IS_on_table fd => LockDataId.ofTable fd
  | LockCall.IX_on_table fd => LockDataId.ofTable fd

/-- Lock tables that can be built from the empty table by lock requests
and unlock calls of arbitrary transactions. -/
inductive LockReachable : LockTable → Prop where
  | empty : LockReachable []
  | lock (lt : LockTable) (txn : Transaction) (c : LockCall) :
      LockReachable lt → LockReachable (c.run lt txn).table
  | unlock (lt : LockTable) (txn : Transaction) (id : LockDataId) :
      LockReachable lt → LockReachable (unlock lt txn id)

/-- The standard hierarchical compatibility matrix as the specification
words it: the compatible pairs are IS-IS, IS-IX, IS-S, IS-SIX, IX-IX and
S-S (in either order). -/
def compatible : LockMode → LockMode → Bool
  | LockMode.INTENTION_SHARED, LockMode.INTENTION_SHARED => true
  | LockMode.INTENTION_SHARED, LockMode.INTENTION_EXCLUSIVE => true
  | LockMode.INTENTION_EXCLUSIVE, LockMode.INTENTION_SHARED => true
  | LockMode.INTENTION_SHARED, LockMode.SHARED => true
  | LockMode.SHARED, LockMode.INTENTION_SHARED => true
  | LockMode.INTENTION_SHARED, LockMode.S_IX => true
  | LockMode.S_IX, LockMode.INTENTION_SHARED => true
  | LockMode.INTENTION_EXCLUSIVE, LockMode.INTENTION_EXCLUSIVE => true
  | LockMode.SHARED, LockMode.SHARED => true
  | _, _ => false

/-- Number of requests a transaction has in a queue. -/
def requestsOf (tid : Int) (q : RequestQueue) : Nat :=
  q.countP (fun r => decide (r.txn_id = tid))

/-- Two requests of different transactions in one queue are compatible. -/
def PairwiseCompatible (q : RequestQueue) : Prop :=
  ∀ a ∈ q, ∀ b ∈ q, a.txn_id ≠ b.txn_id → compatible a.lock_mode b.lock_mode = true

/-- Some request of another transaction in the queue stored under `id` has
a mode that is incompatible with `m`. -/
def ConflictsWithOther (lt : LockTable) (id : LockDataId) (tid : Int) (m : LockMode) : Prop :=
  ∃ q r, lt.find id = some q ∧ r ∈ q ∧ r.txn_id ≠ tid ∧ compatible m r.lock_mode = false

/-! ### Invariants of the lock table -/

/-- Modes that may occur in the queue of an object of the given kind:
record queues only ever hold SHARED and EXLUCSIVE requests. -/
def modeAllowed (t : LockDataType) (m : LockMode) : Bool :=
  decide (t = LockDataType.RECORD → (m = LockMode.SHARED ∨ m = LockMode.EXLUCSIVE))

/-- Invariant of one request queue. -/
def QueueInv (id : LockDataId) (q : RequestQueue) : Prop :=
  (q.map LockRequest.txn_id).Nodup ∧ PairwiseCompatible q ∧
    ∀ r ∈ q, modeAllowed id.type r.lock_mode = true

/-- Invariant of the lock table: every stored queue satisfies `QueueInv`. -/
def LockTableInv (lt : LockTable) : Prop :=
  ∀ e ∈ lt, QueueInv e.1 e.2

/-- What the three parameters of `lockWith` must satisfy, relative to the
kind of object, for the table invariant to be kept. -/
structure ModeRules (t : LockDataType) (conflicts : LockMode → Bool)
    (upgrade : LockMode → LockMode) (mode : LockMode) : Prop where
  fresh : ∀ o, modeAllowed t o = true → conflicts o = false → compatible mode o = true
  keep : ∀ own o, modeAllowed t own = true → modeAllowed t o = true → compatible own o = true →
    conflicts o = false → compatible (upgrade own) o = true
  allowed_mode : modeAllowed t mode = true
  allowed_upgrade : ∀ own, modeAllowed t own = true → modeAllowed t (upgrade own) = true
  sound : ∀ o, conflicts o = true → compatible mode o = false
  complete : ∀ o, modeAllowed t o = true → compatible mode o = false → conflicts o = true

/-! ## B+tree index (`index/ix_index_handle.h`, `index/ix_index_handle.cpp`)

Keys are those of an index on one INT column, so `ix_compare` is the
integer comparison.  A node handle of the source is a pointer into a pinned
page of the buffer pool; here a node is named by its page number and every
access goes to the page table of the index file.  Counts and slot indices
are natural numbers, page numbers are integers (`INVALID_PAGE_ID = -1`). -/

/-- `ix_compare` for a key made of one `TYPE_INT` column. -/
def ix_compare (a b : Int) : Int :=
  if a < b then -1 else if a > b then 1 else 0

/-- `INVALID_PAGE_ID`, also used as `IX_NO_PAGE`. -/
def INVALID_PAGE_ID : Int := -1

/-- `IX_LEAF_HEADER_PAGE`: page 1 of an index file. -/
def IX_LEAF_HEADER_PAGE : Int := 1

/-- The fields of `IxFileHdr` that the tree operations use. -/
structure IxFileHdr where
  num_pages_ : Nat
  root_page_ : Int
  btree_order_ : Nat
  first_leaf_ : Int
  last_leaf_ : Int
deriving DecidableEq, Repr

/-- One page of the index file: the `IxPageHdr` fields, the key array and
the rid array (both of fixed capacity, so slots at and beyond `num_key` keep
whatever was written there last). -/
structure IxNode where
  is_leaf : Bool
  num_key : Nat
  parent : Int
  prev_leaf : Int
  next_leaf : Int
  keys : List Int
  rids : List Rid
deriving DecidableEq, Repr

/-- An open index: the file header and the pages of the file, indexed by
page number. -/
structure IxIndexHandle where
  file_hdr_ : IxFileHdr
  pages : List IxNode
deriving DecidableEq, Repr

/-- What a tree operation can throw; `AssertionFailed` and `PageNotExist`
end the process in the source, `OutOfFuel` belongs to the model only. -/
inductive IxError where
  | InternalError
  | IndexInsertDuplicatedError
  | AssertionFailed
  | PageNotExist
  | OutOfFuel
deriving DecidableEq, Repr

namespace IxNode

/-- `get_size`. -/
def get_size (n : IxNode) : Nat := n.num_key

/-- `get_num_vals`. -/
def get_num_vals (n : IxNode) : Nat := if n.is_leaf then n.num_key else n.num_key + 1

/-- `get_key`. -/
def get_key (n : IxNode) (i : Nat) : Int := n.keys.getD i 0

/-- `get_rid`. -/
def get_rid (n : IxNode) (i : Nat) : Rid := n.rids.getD i ⟨0, 0⟩

/-- `set_key`. -/
def set_key (n : IxNode) (i : Nat) (k : Int) : IxNode := { n with keys := n.keys.set i k }

/-- `set_rid`. -/
def set_rid (n : IxNode) (i : Nat) (r : Rid) : IxNode := { n with rids := n.rids.set i r }

/-- `key_swap`. -/
def key_swap (n : IxNode) (a b : Nat) : IxNode :=
  let ka := n.get_key a
  let kb := n.get_key b
  (n.set_key a kb).set_key b ka

/-- `rid_swap`. -/
def rid_swap (n : IxNode) (a b : Nat) : IxNode :=
  let ra := n.get_rid a
  let rb := n.get_rid b
  (n.set_rid a rb).set_rid b ra

/-- `is_root_page`. -/
def is_root_page (n : IxNode) : Bool := n.parent == INVALID_PAGE_ID

/-- The `while (r - l > 1)` loop shared by `lower_bound`, `binary_search`
and `upper_bound`; `goLeft k` is the test that moves `l` up to `mid`. -/
def bsearchLoop (n : IxNode) (goLeft : Int → Bool) : Nat → Int → Int → Int
  | 0, _, r => r
  | fuel + 1, l, r =>
    if r - l > 1 then
      let mid := l + (r - l) / 2
      if goLeft (n.get_key mid.toNat) then bsearchLoop n goLeft fuel mid r
      else bsearchLoop n goLeft fuel l mid
    else r

/-- `IxNodeHandle::lower_bound`: first index whose key is `>= target`. -/
def lower_bound (n : IxNode) (target : Int) : Nat :=
  (bsearchLoop n (fun k => ix_compare k target < 0) (n.num_key + 1) (-1) n.num_key).toNat

/-- `IxNodeHandle::upper_bound`: first index whose key is `> target`. -/
def upper_bound (n : IxNode) (target : Int) : Nat :=
  (bsearchLoop n (fun k => ix_compare k target ≤ 0) (n.num_key + 1) (-1) n.num_key).toNat

/-- `IxNodeHandle::binary_search`: index of `target`, or `-1`. -/
def binary_search (n : IxNode) (target : Int) : Int :=
  let r := n.lower_bound target
  if r = n.get_size ∨ ix_compare (n.get_key r) target ≠ 0 then -1 else r

/-- `IxNodeHandle::leaf_lookup`. -/
def leaf_lookup (n : IxNode) (key : Int) : Except IxError (Option Rid) :=
  if !n.is_leaf then Except.error IxError.AssertionFailed
  else
    let pos := n.lower_bound key
    if pos = n.get_size then Except.ok none
    else if ix_compare (n.get_key pos) key ≠ 0 then Except.ok none
    else Except.ok (some (n.get_rid pos))

/-- `IxNodeHandle::internal_lookup`. -/
def internal_lookup (n : IxNode) (key : Int) : Except IxError Int :=
  let pos := n.lower_bound key
  if pos = n.get_size then Except.ok (n.get_rid pos).page_no
  else
    let tmp := ix_compare key (n.get_key pos)
    if tmp = 0 then Except.ok (n.get_rid (pos + 1)).page_no
    else if tmp < 0 then Except.ok (n.get_rid pos).page_no
    else Except.error IxError.AssertionFailed

/-- `IxNodeHandle::father_lookup`. -/
def father_lookup (n : IxNode) (key : Int) : Except IxError Nat :=
  let pos := n.lower_bound key
  if pos = n.get_size then Except.ok pos
  else
    let tmp := ix_compare key (n.get_key pos)
    if tmp = 0 then Except.ok (pos + 1)
    else if tmp < 0 then Except.ok pos
    else Except.error IxError.AssertionFailed

/-- The loop `for (i = hi - 1; i >= lo; i--) swap(i, i + n)`. -/
def shiftUp (swap : IxNode → Nat → Nat → IxNode) (node : IxNode) (lo hi n : Nat) : IxNode :=
  ((List.range' lo (hi - lo)).reverse).foldl (fun nd i => swap nd i (i + n)) node

/-- The loop `for (i = lo; i < hi; i++) swap(i, i - n)`. -/
def shiftDown (swap : IxNode → Nat → Nat → IxNode) (node : IxNode) (lo hi n : Nat) : IxNode :=
  (List.range' lo (hi - lo)).foldl (fun nd i => swap nd i (i - n)) node

/-- The loop `for (i = pos; i < pos + n; i++) set(i, src[i - pos])`. -/
def writeKeys (node : IxNode) (pos : Nat) (src : List Int) : IxNode :=
  (List.range src.length).foldl (fun nd i => nd.set_key (pos + i) (src.getD i 0)) node

/-- The loop `for (i = pos; i < pos + n; i++) set_rid(i, src[i - pos])`. -/
def writeRids (node : IxNode) (pos : Nat) (src : List Rid) : IxNode :=
  (List.range src.length).foldl (fun nd i => nd.set_rid (pos + i) (src.getD i ⟨0, 0⟩)) node

/-- `IxNodeHandle::insert_pairs`: `key` and `rid` are the `n` keys and `n`
rids read from the source arrays. -/
def insert_pairs (order : Nat) (node : IxNode) (key_pos rid_pos : Nat) (key : List Int)
    (rid : List Rid) (n : Nat) : Except IxError IxNode :=
  if key_pos > node.get_size then Except.error IxError.InternalError
  else if rid_pos > node.get_num_vals then Except.error IxError.InternalError
  else if node.is_leaf && decide (node.get_size + n > order + 1) then
    Except.error IxError.InternalError
  else if node.get_size + n > order + 1 - 1 then Except.error IxError.InternalError
  else
    let n1 := shiftUp key_swap node key_pos node.get_size n
    let n2 := shiftUp rid_swap n1 rid_pos n1.get_num_vals n
    let n3 := writeKeys n2 key_pos (key.take n)
    let n4 := writeRids n3 rid_pos (rid.take n)
    Except.ok { n4 with num_key := n4.num_key + n }

/-- `IxNodeHandle::insert_pair`. -/
def insert_pair (order : Nat) (node : IxNode) (key_pos rid_pos : Nat) (key : Int) (rid : Rid) :
    Except IxError IxNode :=
  insert_pairs order node key_pos rid_pos [key] [rid] 1

/-- `IxNodeHandle::insert`: returns the node and its new number of keys. -/
def insert (node : IxNode) (key : Int) (value : Rid) : Except IxError (IxNode × Nat) :=
  let pos := node.lower_bound key
  if pos ≠ node.num_key ∧ ix_compare key (node.get_key pos) = 0 then
    Except.error IxError.IndexInsertDuplicatedError
  else
    let n1 := ((List.range' (pos + 1) (node.get_size - pos)).reverse).foldl
      (fun nd i => nd.key_swap (i - 1) i) node
    let n2 := n1.set_key pos key
    let n3 :=
      if n2.is_leaf then
        (((List.range' (pos + 1) (n2.num_key - pos)).reverse).foldl
          (fun nd i => nd.rid_swap (i - 1) i) n2).set_rid pos value
      else
        (((List.range' (pos + 2) (n2.num_key + 1 - (pos + 1))).reverse).foldl
          (fun nd i => nd.rid_swap (i - 1) i) n2).set_rid (pos + 1) value
    Except.ok ({ n3 with num_key := n3.num_key + 1 }, n3.num_key + 1)

/-- `IxNodeHandle::erase_pair`. -/
def erase_pair (node : IxNode) (pos : Nat) : IxNode :=
  if pos ≥ node.get_size then node
  else
    let n1 := node.set_key pos 0
    let n2 := shiftDown key_swap n1 (pos + 1) n1.get_size 1
    let n3 :=
      if n2.is_leaf then shiftDown rid_swap n2 (pos + 1) n2.get_num_vals 1
      else shiftDown rid_swap n2 (pos + 2) n2.get_num_vals 1
    { n3 with num_key := n3.num_key - 1 }

/-- `IxNodeHandle::remove`: returns the node and its new number of keys. -/
def remove (node : IxNode) (key : Int) : Except IxError (IxNode × Nat) :=
  let pos := node.lower_bound key
  if pos = node.num_key then Except.error IxError.InternalError
  else if ix_compare key (node.get_key pos) ≠ 0 then Except.error IxError.InternalError
  else
    let n1 := node.erase_pair pos
    Except.ok (n1, n1.num_key)

end IxNode

/-- A computation on an open index: it yields a value or an error together
with the state of the index at that point. -/
def IxM (α : Type) : Type := IxIndexHandle → Except IxError α × IxIndexHandle

namespace IxM

/-- Return a value, leave the index as it is. -/
def pure {α : Type} (a : α) : IxM α := fun s => (Except.ok a, s)

/-- Run `x`, then `f` on its value; an error of `x` ends the computation
with the state reached. -/
def bind {α β : Type} (x : IxM α) (f : α → IxM β) : IxM β := fun s =>
  match x s with
  | (Except.ok a, s1) => f a s1
  | (Except.error e, s1) => (Except.error e, s1)

instance : Monad IxM where
  pure := IxM.pure
  bind := IxM.bind

/-- Throw. -/
def throw {α : Type} (e : IxError) : IxM α := fun s => (Except.error e, s)

/-- Lift a node-level result. -/
def lift {α : Type} (r : Except IxError α) : IxM α := fun s => (r, s)

/-- The file header. -/
def getHdr : IxM IxFileHdr := fun s => (Except.ok s.file_hdr_, s)

/-- Overwrite the file header. -/
def setHdr (h : IxFileHdr) : IxM Unit := fun s => (Except.ok (), { s with file_hdr_ := h })

end IxM

namespace IxIndexHandle

/-- `fetch_node`: the page must exist in the file. -/
def fetch_node (page_no : Int) : IxM IxNode := fun s =>
  if page_no < 0 then (Except.error IxError.PageNotExist, s)
  else
    match s.pages.get? page_no.toNat with
    | some n => (Except.ok n, s)
    | none => (Except.error IxError.PageNotExist, s)

/-- Write back the page a node handle points to. -/
def store_node (page_no : Int) (n : IxNode) : IxM Unit := fun s =>
  if page_no < 0 then (Except.error IxError.PageNotExist, s)
  else (Except.ok (), { s with pages := s.pages.set page_no.toNat n })

/-- A page as `BufferPoolManager::new_page` hands it out: all bytes zero. -/
def blankNode (order : Nat) : IxNode :=
  ⟨false, 0, 0, 0, 0, List.replicate (order + 2) 0, List.replicate (order + 2) ⟨0, 0⟩⟩

/-- `BufferPoolManager::new_page` on the index file: the disk manager hands
out the next page number of the file. -/
def new_page : IxM Int := fun s =>
  (Except.ok (s.pages.length : Int),
    { s with pages := s.pages ++ [blankNode s.file_hdr_.btree_order_] })

/-- `create_node`. -/
def create_node : IxM Int := do
  let h ← IxM.getHdr
  IxM.setHdr { h with num_pages_ := h.num_pages_ + 1 }
  new_page

/-- `maintain_child`. -/
def maintain_child (node_no : Int) (child_idx : Nat) : IxM Unit := do
  let node ← fetch_node node_no
  if !node.is_leaf then
    let child_page_no := (node.get_rid child_idx).page_no
    let child ← fetch_node child_page_no
    store_node child_page_no { child with parent := node_no }
  else
    pure ()

/-- Run `body` for every index of the list, in order. -/
def forEach (l : List Nat) (body : Nat → IxM Unit) : IxM Unit :=
  match l with
  | [] => pure ()
  | i :: rest => do
    body i
    forEach rest body

/-- The `while (!curr_node->is_leaf)` loop of `find_leaf_page`. -/
def find_leaf_loop (key : Int) : Nat → Int → IxM Int
  | 0, _ => IxM.throw IxError.OutOfFuel
  | fuel + 1, curr => do
    let node ← fetch_node curr
    if node.is_leaf then pure curr
    else
      let child_page_no ← IxM.lift (node.internal_lookup key)
      find_leaf_loop key fuel child_page_no

/-- `find_leaf_page`: the page number of the leaf the key belongs to. -/
def find_leaf_page (key : Int) : IxM Int := do
  let h ← IxM.getHdr
  fun s => find_leaf_loop key (s.pages.length + 1) h.root_page_ s

/-- `get_value`: `some rid` when the key is found (the source returns true
and appends the rid to `result`), `none` when it returns false. -/
def get_value (key : Int) : IxM (Option Rid) := do
  let leaf_no ← find_leaf_page key
  let leaf ← fetch_node leaf_no
  IxM.lift (leaf.leaf_lookup key)

/-- `is_key_exists`. -/
def is_key_exists (key : Int) : IxM Bool := do
  let r ← get_value key
  pure r.isSome

/-- `split`: returns the page number of the new right sibling. -/
def split (node_no : Int) : IxM Int := do
  let new_no ← create_node
  let node ← fetch_node node_no
  let r := node.get_num_vals / 2
  let l := node.get_num_vals - r
  let new0 ← fetch_node new_no
  store_node new_no { new0 with num_key := 0 }
  if node.is_leaf then
    let h ← IxM.getHdr
    if node_no = h.last_leaf_ then IxM.setHdr { h with last_leaf_ := new_no }
    let new1 ← fetch_node new_no
    store_node new_no
      { new1 with is_leaf := true, next_leaf := node.next_leaf, prev_leaf := node_no }
    let node1 ← fetch_node node_no
    store_node node_no { node1 with next_leaf := new_no }
    let h1 ← IxM.getHdr
    if new_no ≠ h1.last_leaf_ then
      let new2 ← fetch_node new_no
      let nxt ← fetch_node new2.next_leaf
      store_node new2.next_leaf { nxt with prev_leaf := new_no }
    let src ← fetch_node node_no
    let new3 ← fetch_node new_no
    let new4 ← IxM.lift (IxNode.insert_pairs h1.btree_order_ new3 0 0
      (src.keys.drop l) (src.rids.drop l) r)
    store_node new_no new4
  else
    let h1 ← IxM.getHdr
    let new1 ← fetch_node new_no
    let new2 := { new1 with is_leaf := false }
    let new3 ← IxM.lift (IxNode.insert_pairs h1.btree_order_ new2 0 0
      (node.keys.drop (node.get_size - r)) (node.rids.drop (node.get_num_vals - r)) r)
    store_node new_no new3
  let node2 ← fetch_node node_no
  store_node node_no { node2 with num_key := if node2.is_leaf then l else l - 1 }
  let newN ← fetch_node new_no
  if !newN.is_leaf then
    forEach (List.range (newN.get_num_vals - 1)) (fun i => maintain_child new_no i)
  pure new_no

/-- `insert_into_parent`; `fuel` bounds the recursion up the tree. -/
def insert_into_parent : Nat → Int → Int → Int → IxM Unit
  | 0, _, _, _ => IxM.throw IxError.OutOfFuel
  | fuel + 1, old_no, key, new_no => do
    let new0 ← fetch_node new_no
    if !new0.is_leaf then
      let shifted := (List.range' 1 new0.num_key).foldl (fun nd i => nd.key_swap i (i - 1)) new0
      store_node new_no { shifted with num_key := shifted.num_key - 1 }
    let old0 ← fetch_node old_no
    let parent_no ←
      if old0.is_root_page then do
        let p ← new_page
        let pn ← fetch_node p
        store_node p { pn with is_leaf := false, num_key := 0, parent := INVALID_PAGE_ID }
        let h ← IxM.getHdr
        IxM.setHdr { h with num_pages_ := h.num_pages_ + 1, root_page_ := p }
        let pn1 ← fetch_node p
        store_node p (pn1.set_rid 0 ⟨old_no, 0⟩)
        pure p
      else
        let _ ← fetch_node old0.parent
        pure old0.parent
    let old1 ← fetch_node old_no
    if old1.is_root_page then store_node old_no { old1 with parent := parent_no }
    let old2 ← fetch_node old_no
    let new1 ← fetch_node new_no
    store_node new_no { new1 with parent := old2.parent }
    let par ← fetch_node parent_no
    let (par1, _) ← IxM.lift (par.insert key ⟨new_no, 0⟩)
    store_node parent_no par1
    if par1.is_leaf then IxM.throw IxError.AssertionFailed
    let h ← IxM.getHdr
    if par1.get_num_vals > h.btree_order_ then
      let new_node_ ← split parent_no
      let nn ← fetch_node new_node_
      let h2 ← IxM.getHdr
      if nn.is_leaf && decide (old_no = h2.last_leaf_) then
        IxM.setHdr { h2 with last_leaf_ := new_node_ }
      insert_into_parent fuel parent_no (nn.get_key 0) new_node_

/-- `maintain_parent`; `fuel` bounds the walk up to the root. -/
def maintain_parent_loop (old_key new_key : Int) : Nat → Int → Int → IxM Unit
  | 0, _, _ => IxM.throw IxError.OutOfFuel
  | fuel + 1, tmp_page_no, tmp_parent_no => do
    let h ← IxM.getHdr
    if tmp_page_no ≠ h.root_page_ then
      let curr ← fetch_node tmp_parent_no
      let pos := curr.binary_search old_key
      if pos ≠ -1 then
        store_node tmp_parent_no (curr.set_key pos.toNat new_key)
      else
        maintain_parent_loop old_key new_key fuel tmp_parent_no curr.parent
    else
      pure ()

/-- `maintain_parent`. -/
def maintain_parent (node_no : Int) (old_key new_key : Int) : IxM Unit := do
  let node ← fetch_node node_no
  fun s => maintain_parent_loop old_key new_key (s.pages.length + 1) node_no node.parent s

/-- `insert_entry`: returns the page number of the leaf the key went to. -/
def insert_entry (key : Int) (value : Rid) : IxM Int := do
  let leaf_no ← find_leaf_page key
  let leaf ← fetch_node leaf_no
  let is_ins_first := decide (ix_compare key (leaf.get_key 0) < 0)
  let old_key := leaf.get_key 0
  let (leaf1, num_keys) ← IxM.lift (leaf.insert key value)
  store_node leaf_no leaf1
  if is_ins_first then maintain_parent leaf_no old_key (leaf1.get_key 0)
  let h ← IxM.getHdr
  if num_keys > h.btree_order_ then
    let new_node ← split leaf_no
    let h1 ← IxM.getHdr
    if leaf_no = h1.last_leaf_ then IxM.setHdr { h1 with last_leaf_ := new_node }
    let nn ← fetch_node new_node
    fun s => insert_into_parent (s.pages.length + 1) leaf_no (nn.get_key 0) new_node s
  pure leaf_no

/-- The search `for (i = 0; i < parent->get_num_vals(); i++)` for the child
slot that holds `page_no`; `none` stands for `pos = -1`. -/
def find_child_slot (parent : IxNode) (page_no : Int) : Option Nat :=
  (List.range parent.get_num_vals).find? (fun i => (parent.get_rid i).page_no == page_no)

/-- `get_prev_node`: `none` is the null pointer. -/
def get_prev_node (node_no : Int) : IxM (Option Int) := do
  let node ← fetch_node node_no
  if node.is_leaf then
    let _ ← fetch_node node.prev_leaf
    if node.prev_leaf = IX_LEAF_HEADER_PAGE then pure none
    else pure (some node.prev_leaf)
  else
    let parent ← fetch_node node.parent
    let pos : Option Nat ←
      if node.get_size = 0 then pure (find_child_slot parent node_no)
      else do
        let p ← IxM.lift (parent.father_lookup (node.get_key 0))
        pure (some p)
    match pos with
    | some 0 => pure none
    | some (p + 1) =>
      let _ ← fetch_node (parent.get_rid p).page_no
      pure (some (parent.get_rid p).page_no)
    | none => IxM.throw IxError.PageNotExist

/-- `get_next_node`: `none` is the null pointer. -/
def get_next_node (node_no : Int) : IxM (Option Int) := do
  let node ← fetch_node node_no
  let h ← IxM.getHdr
  if node.is_leaf then
    if node_no = h.last_leaf_ then pure none
    else
      let _ ← fetch_node node.next_leaf
      pure (some node.next_leaf)
  else
    let parent ← fetch_node node.parent
    let pos : Option Nat ←
      if node.get_size > 0 then do
        let p ← IxM.lift (parent.father_lookup (node.get_key 0))
        pure (some p)
      else pure (find_child_slot parent node_no)
    match pos with
    | none =>
      -- pos = -1: the assertion holds and rid slot 0 is fetched
      let _ ← fetch_node (parent.get_rid 0).page_no
      pure (some (parent.get_rid 0).page_no)
    | some p =>
      if p > parent.get_num_vals - 1 then IxM.throw IxError.AssertionFailed
      else if p = parent.get_num_vals - 1 then pure none
      else
        let _ ← fetch_node (parent.get_rid (p + 1)).page_no
        pure (some (parent.get_rid (p + 1)).page_no)

/-- `adjust_root`. -/
def adjust_root (old_root_no : Int) : IxM Bool := do
  let old_root ← fetch_node old_root_no
  if !old_root.is_leaf && decide (old_root.num_key = 0) then
    let child_no := (old_root.get_rid 0).page_no
    let child ← fetch_node child_no
    let h ← IxM.getHdr
    IxM.setHdr { h with root_page_ := child_no }
    store_node child_no { child with parent := INVALID_PAGE_ID }
    pure true
  else
    pure false

/-- `redistribute`. -/
def redistribute (neighbor_no node_no parent_no : Int) (index : Nat) : IxM Unit := do
  let h ← IxM.getHdr
  let order := h.btree_order_
  let neighbor ← fetch_node neighbor_no
  let node ← fetch_node node_no
  let parent ← fetch_node parent_no
  let MOVE_PAIR_NUMS := (neighbor.get_num_vals + node.get_num_vals) / 2 - node.get_num_vals
  if index = 0 then
    if neighbor.is_leaf then
      let pos := parent.lower_bound (neighbor.get_key 0)
      if ¬ (pos < parent.get_size) then IxM.throw IxError.AssertionFailed
      let node1 ← IxM.lift (IxNode.insert_pairs order node node.get_size node.get_num_vals
        neighbor.keys neighbor.rids MOVE_PAIR_NUMS)
      store_node node_no node1
      let nb0 ← fetch_node neighbor_no
      let nb1 := IxNode.shiftDown IxNode.key_swap nb0 MOVE_PAIR_NUMS nb0.get_size MOVE_PAIR_NUMS
      let nb2 := IxNode.shiftDown IxNode.rid_swap nb1 MOVE_PAIR_NUMS nb1.get_num_vals MOVE_PAIR_NUMS
      store_node neighbor_no nb2
      let par ← fetch_node parent_no
      store_node parent_no (par.set_key pos (nb2.get_key 0))
    else
      let pos : Option Nat :=
        if node.get_size > 0 then some (parent.upper_bound (node.get_key (node.get_size - 1)))
        else find_child_slot parent node_no
      match pos with
      | none => IxM.throw IxError.AssertionFailed
      | some pos =>
        if ¬ (pos < parent.get_size) then IxM.throw IxError.AssertionFailed
        let node1 ← IxM.lift (IxNode.insert_pair order node node.get_size node.get_num_vals
          (parent.get_key pos) (neighbor.get_rid 0))
        store_node node_no node1
        let nbA ← fetch_node neighbor_no
        let node2 ← IxM.lift (IxNode.insert_pairs order node1 node1.get_size node1.get_num_vals
          nbA.keys (nbA.rids.drop 1) (MOVE_PAIR_NUMS - 1))
        store_node node_no node2
        let nb0 ← fetch_node neighbor_no
        let par ← fetch_node parent_no
        store_node parent_no (par.set_key pos (nb0.get_key (MOVE_PAIR_NUMS - 1)))
        let nbB ← fetch_node neighbor_no
        let nb1 := IxNode.shiftDown IxNode.key_swap nbB MOVE_PAIR_NUMS nbB.get_size MOVE_PAIR_NUMS
        let nb2 := IxNode.shiftDown IxNode.rid_swap nb1 MOVE_PAIR_NUMS nb1.get_num_vals
          MOVE_PAIR_NUMS
        store_node neighbor_no nb2
    let nbC ← fetch_node neighbor_no
    store_node neighbor_no { nbC with num_key := nbC.num_key - MOVE_PAIR_NUMS }
    let nodeC ← fetch_node node_no
    forEach (List.range MOVE_PAIR_NUMS)
      (fun i => maintain_child node_no (nodeC.get_num_vals - 1 - i))
  else
    if node.is_leaf then
      let pos := parent.lower_bound (node.get_key 0)
      if ¬ (pos < parent.get_size) then IxM.throw IxError.AssertionFailed
      let node1 ← IxM.lift (IxNode.insert_pairs order node 0 0
        (neighbor.keys.drop (neighbor.get_size - MOVE_PAIR_NUMS))
        (neighbor.rids.drop (neighbor.get_num_vals - MOVE_PAIR_NUMS)) MOVE_PAIR_NUMS)
      store_node node_no node1
      let par ← fetch_node parent_no
      store_node parent_no (par.set_key pos (node1.get_key 0))
    else
      let pos := parent.upper_bound (neighbor.get_key (neighbor.get_size - 1))
      if ¬ (pos < parent.get_size) then IxM.throw IxError.AssertionFailed
      let n1 := IxNode.shiftUp IxNode.key_swap node 0 node.get_size MOVE_PAIR_NUMS
      let n2 := IxNode.shiftUp IxNode.rid_swap n1 0 n1.get_num_vals MOVE_PAIR_NUMS
      let n3 := n2.set_key (MOVE_PAIR_NUMS - 1) (parent.get_key pos)
      let n4 := n3.set_rid (MOVE_PAIR_NUMS - 1) (neighbor.get_rid (neighbor.get_num_vals - 1))
      let begin_k := neighbor.get_size - (MOVE_PAIR_NUMS - 1)
      let n5 := (List.range' begin_k (neighbor.get_size - begin_k)).foldl
        (fun nd i => nd.set_key (i - begin_k) (neighbor.get_key i)) n4
      let begin_r := neighbor.get_num_vals - MOVE_PAIR_NUMS
      let n6 := (List.range' begin_r (neighbor.get_num_vals - 1 - begin_r)).foldl
        (fun nd i => nd.set_rid (i - begin_r) (neighbor.get_rid i)) n5
      store_node node_no { n6 with num_key := n6.get_size + MOVE_PAIR_NUMS }
      let par ← fetch_node parent_no
      let nb0 ← fetch_node neighbor_no
      store_node parent_no (par.set_key pos (nb0.get_key (nb0.get_size - MOVE_PAIR_NUMS)))
    let nbC ← fetch_node neighbor_no
    store_node neighbor_no { nbC with num_key := nbC.num_key - MOVE_PAIR_NUMS }
    forEach (List.range MOVE_PAIR_NUMS) (fun i => maintain_child node_no i)

/-- `coalesce` after the swap of its first lines: `left_no` is the left
node and `right_no` the right node that is merged into it; `recur` is the
call back into `coalesce_or_redistribute` on the parent. -/
def coalesce (recur : Int → IxM Bool) (left_no right_no parent_no : Int) : IxM Unit := do
  let h ← IxM.getHdr
  let order := h.btree_order_
  let parent_node ← fetch_node parent_no
  let left_node ← fetch_node left_no
  let right_node ← fetch_node right_no
  let pos : Option Nat :=
    if left_node.get_size > 0 then
      some (parent_node.upper_bound (left_node.get_key (left_node.get_size - 1)))
    else find_child_slot parent_node left_no
  if !right_node.is_leaf then
    let pkey := match pos with
      | some p => parent_node.get_key p
      | none => 0
    let l1 ← IxM.lift (IxNode.insert_pair order left_node left_node.get_size
      left_node.get_num_vals pkey (right_node.get_rid 0))
    store_node left_no l1
    let l2 ← IxM.lift (IxNode.insert_pairs order l1 l1.get_size l1.get_num_vals
      right_node.keys (right_node.rids.drop 1) right_node.get_size)
    store_node left_no l2
  else
    let l1 ← IxM.lift (IxNode.insert_pairs order left_node left_node.get_size
      left_node.get_num_vals right_node.keys right_node.rids right_node.get_size)
    store_node left_no l1
  let par ← fetch_node parent_no
  match pos with
  | some p => store_node parent_no (par.erase_pair p)
  | none => pure ()
  if right_node.is_leaf then
    let h1 ← IxM.getHdr
    if right_no = h1.last_leaf_ then
      IxM.setHdr { h1 with last_leaf_ := left_no }
      let l ← fetch_node left_no
      store_node left_no { l with next_leaf := INVALID_PAGE_ID }
    else
      let l ← fetch_node left_no
      store_node left_no { l with next_leaf := right_node.next_leaf }
      let rn ← fetch_node right_node.next_leaf
      store_node right_node.next_leaf { rn with prev_leaf := left_no }
  let lF ← fetch_node left_no
  let rF ← fetch_node right_no
  forEach ((List.range' (lF.get_num_vals - rF.get_num_vals) rF.get_num_vals).reverse)
    (fun i => maintain_child left_no i)
  let _ ← recur parent_no
  pure ()

/-- The test `check_node != nullptr && is_need_redistribute(check_node)` of
`coalesce_or_redistribute`. -/
def is_need_redistribute (node_no : Int) (check : Option Int) : IxM Bool :=
  match check with
  | none => pure false
  | some c => do
    let h ← IxM.getHdr
    let cn ← fetch_node c
    let nd ← fetch_node node_no
    pure (decide (cn.get_num_vals + nd.get_num_vals ≥ ((h.btree_order_ + 1) / 2) * 2))

/-- The test `node->get_parent_page_no() == check_node->get_parent_page_no()`. -/
def same_parent (node_no : Int) (check : Option Int) : IxM Bool :=
  match check with
  | none => pure false
  | some c => do
    let cn ← fetch_node c
    let nd ← fetch_node node_no
    pure (decide (nd.parent = cn.parent))

/-- `coalesce_or_redistribute`; `fuel` bounds the recursion up the tree. -/
def coalesce_or_redistribute : Nat → Int → IxM Bool
  | 0, _ => IxM.throw IxError.OutOfFuel
  | fuel + 1, node_no => do
    let node ← fetch_node node_no
    if node.is_root_page then adjust_root node_no
    else
      let h ← IxM.getHdr
      let order := h.btree_order_
      let num_vals := node.get_num_vals
      if num_vals ≥ (order + 1) / 2 ∧ num_vals < order + 1 then pure false
      else
        let _ ← fetch_node node.parent
        let parent_no := node.parent
        let prev_node ← get_prev_node node_no
        let next_node ← get_next_node node_no
        let prevNeed ← is_need_redistribute node_no prev_node
        let prevSame ← same_parent node_no prev_node
        let nextNeed ← is_need_redistribute node_no next_node
        let nextSame ← same_parent node_no next_node
        match prev_node, next_node with
        | some p, some q =>
          if prevNeed && prevSame then redistribute p node_no parent_no 1
          else if nextNeed && nextSame then redistribute q node_no parent_no 0
          else if !prevNeed && prevSame then
            coalesce (coalesce_or_redistribute fuel) p node_no parent_no
          else if !nextNeed && nextSame then
            coalesce (coalesce_or_redistribute fuel) node_no q parent_no
          else IxM.throw IxError.AssertionFailed
        | some p, none =>
          if prevNeed && prevSame then redistribute p node_no parent_no 1
          else if !prevNeed && prevSame then
            coalesce (coalesce_or_redistribute fuel) p node_no parent_no
          else IxM.throw IxError.AssertionFailed
        | none, some q =>
          if nextNeed && nextSame then redistribute q node_no parent_no 0
          else if !nextNeed && nextSame then
            coalesce (coalesce_or_redistribute fuel) node_no q parent_no
          else IxM.throw IxError.AssertionFailed
        | none, none => IxM.throw IxError.AssertionFailed
        pure true

/-- `delete_entry`: an `InternalError` raised inside is caught and the call
returns false; the call returns false on the normal path as well. -/
def delete_entry (key : Int) (_value : Rid) : IxM Bool := fun s0 =>
  let body : IxM Unit := do
    let to_del_no ← find_leaf_page key
    let to_del ← fetch_node to_del_no
    let is_del_first := decide (ix_compare key (to_del.get_key 0) = 0)
    let old_key := to_del.get_key 0
    let (n1, _) ← IxM.lift (to_del.remove key)
    store_node to_del_no n1
    if is_del_first then maintain_parent to_del_no old_key (n1.get_key 0)
    let _ ← fun s => coalesce_or_redistribute (s.pages.length + 1) to_del_no s
    pure ()
  match body s0 with
  | (Except.ok _, s1) => (Except.ok false, s1)
  | (Except.error IxError.InternalError, s1) => (Except.ok false, s1)
  | (Except.error e, s1) => (Except.error e, s1)

/-- Modelled from the spec: the index file as `create_index` leaves it (the
code that builds it, `ix_manager.h`, is not among the sources).  Page 0 is
the file header page, page 1 the leaf header page, page 2 the root, an empty
leaf that is both first and last leaf. -/
def empty (order : Nat) : IxIndexHandle :=
  { file_hdr_ := ⟨3, 2, order, 2, 2⟩,
    pages :=
      [ blankNode order,
        { blankNode order with is_leaf := true, parent := INVALID_PAGE_ID,
                               prev_leaf := 2, next_leaf := 2 },
        { blankNode order with is_leaf := true, parent := INVALID_PAGE_ID,
                               prev_leaf := IX_LEAF_HEADER_PAGE,
                               next_leaf := IX_LEAF_HEADER_PAGE } ] }

end IxIndexHandle

/-! ### The tree that the pages of an index hold -/

/-- The swap of two slots of an array, as `key_swap` and `rid_swap` do it. -/
def lswap {α : Type} (d : α) (l : List α) (a b : Nat) : List α :=
  (l.set a (l.getD b d)).set b (l.getD a d)

/-- Upward shift of array slots: for `i = lo + cnt - 1` down to `lo`, swap
slots `i` and `i + n`. -/
def lshiftUp {α : Type} (d : α) (l : List α) (lo cnt n : Nat) : List α :=
  ((List.range' lo cnt).reverse).foldl (fun l i => lswap d l i (i + n)) l

/-- Downward shift of array slots: for `i = lo` up to `lo + cnt - 1`, swap
slots `i` and `i - n`. -/
def lshiftDown {α : Type} (d : α) (l : List α) (lo cnt n : Nat) : List α :=
  (List.range' lo cnt).foldl (fun l i => lswap d l i (i - n)) l

/-- The loop `for (i = 0; i < src.size; i++) a[pos + i] = src[i]`. -/
def lwrite {α : Type} (d : α) (l : List α) (pos : Nat) (src : List α) : List α :=
  (List.range src.length).foldl (fun l i => l.set (pos + i) (src.getD i d)) l

namespace IxNode

/-- The header fields other than `num_key` and the capacities of the
arrays are the same in both pages. -/
def SameMeta (n n' : IxNode) : Prop :=
  n'.is_leaf = n.is_leaf ∧ n'.parent = n.parent ∧ n'.prev_leaf = n.prev_leaf ∧
    n'.next_leaf = n.next_leaf ∧ n'.keys.length = n.keys.length ∧
    n'.rids.length = n.rids.length

/-- The two pages agree in everything but the leaf links. -/
def Same (a b : IxNode) : Prop :=
  a.is_leaf = b.is_leaf ∧ a.num_key = b.num_key ∧ a.parent = b.parent ∧ a.keys = b.keys ∧
    a.rids = b.rids

/-- The keys in use: slots `[0, num_key)` of the key array. -/
def liveKeys (n : IxNode) : List Int := n.keys.take n.num_key

/-- The rids in use: slots `[0, get_num_vals)` of the rid array. -/
def liveRids (n : IxNode) : List Rid := n.rids.take n.get_num_vals

/-- The child page in rid slot `i` of an internal node. -/
def child (n : IxNode) (i : Nat) : Int := (n.get_rid i).page_no

/-- The child pages of an internal node, left to right. -/
def children (n : IxNode) : List Int := (List.range n.get_num_vals).map n.child

/-- The entries of a leaf, in slot order. -/
def leafEntries (n : IxNode) : List (Int × Rid) :=
  (List.range n.num_key).map (fun i => (n.get_key i, n.get_rid i))

/-- Keys in slots `[0, num_key)` strictly increase. -/
def KeysSorted (n : IxNode) : Prop :=
  ∀ i j, i < j → j < n.num_key → n.get_key i < n.get_key j

/-- The arrays of the page have their capacity of `order + 2` slots and the
page holds at most `order + 1` values. -/
def NodeOK (order : Nat) (n : IxNode) : Prop :=
  n.keys.length = order + 2 ∧ n.rids.length = order + 2 ∧ n.get_num_vals ≤ order + 1

/-- Occupancy of a page that is not the root: between `(order + 1) / 2` and
`order` values. -/
def Occ (order : Nat) (n : IxNode) : Prop :=
  (order + 1) / 2 ≤ n.get_num_vals ∧ n.get_num_vals ≤ order

/-- The lower bound of child `i`: the separator to its left, and for child
0 the lower bound of the node. -/
def lob (n : IxNode) (i : Nat) (lo : Option Int) : Option Int :=
  if i = 0 then lo else some (n.get_key (i - 1))

/-- The upper bound of child `i`: the separator to its right, and for the
last child the upper bound of the node. -/
def hib (n : IxNode) (i : Nat) (hi : Option Int) : Option Int :=
  if i < n.num_key then some (n.get_key i) else hi

end IxNode

/-- The key lies below an upper bound (`none` is no bound). -/
def ltHi (k : Int) : Option Int → Prop
  | none => True
  | some h => k < h

/-- The key lies at or above a lower bound (`none` is no bound). -/
def geLo (k : Int) : Option Int → Prop
  | none => True
  | some l => l ≤ k

namespace IxIndexHandle

/-- The page with a page number, if the file has it. -/
def getP (s : IxIndexHandle) (p : Int) : Option IxNode :=
  if p < 0 then none else s.pages.get? p.toNat

/-- The state after `store_node p n`. -/
def put (s : IxIndexHandle) (p : Int) (n : IxNode) : IxIndexHandle :=
  { s with pages := s.pages.set p.toNat n }

/-- The state after `new_page`. -/
def grow (s : IxIndexHandle) : IxIndexHandle :=
  { s with pages := s.pages ++ [blankNode s.file_hdr_.btree_order_] }

/-- Page `p` is the root of a subtree of height `h` whose keys lie below
`hi` and whose least key is `lo` (when `lo` is given): a leaf is a page
other than the two header pages and holds strictly increasing keys; every
child of an internal node points back to the node, is the root of a subtree
of height `h - 1` between the separators next to it and, when `strict` is
set, is occupied as a page other than the root must be. -/
def Sub (s : IxIndexHandle) (order : Nat) (strict : Bool) :
    Nat → Int → Option Int → Option Int → Prop
  | 0, p, lo, hi =>
    ∃ n, s.getP p = some n ∧ n.is_leaf = true ∧ n.NodeOK order ∧ n.KeysSorted ∧
      (∀ j, j < n.num_key → ltHi (n.get_key j) hi) ∧
      (∀ K, lo = some K → 0 < n.num_key ∧ n.get_key 0 = K) ∧ 2 ≤ p
  | h + 1, p, lo, hi =>
    ∃ n, s.getP p = some n ∧ n.is_leaf = false ∧ n.NodeOK order ∧
      ∀ i, i ≤ n.num_key → ∃ c, s.getP (n.child i) = some c ∧ c.parent = p ∧
        (strict = true → c.Occ order) ∧
        Sub s order strict h (n.child i) (n.lob i lo) (n.hib i hi)

/-- A walk over the subtree of a page: `gl` gives what a leaf contributes,
`gi` what an internal node contributes before its children; `fuel` bounds
the depth. -/
def walk {α : Type} (s : IxIndexHandle) (gl gi : Int → IxNode → List α) :
    Nat → Int → List α
  | 0, _ => []
  | fuel + 1, p =>
    match s.getP p with
    | none => []
    | some n =>
      if n.is_leaf then gl p n
      else gi p n ++ n.children.flatMap (walk s gl gi fuel)

/-- The entries of the leaves of a subtree, left to right. -/
def entriesOf (s : IxIndexHandle) (fuel : Nat) (p : Int) : List (Int × Rid) :=
  walk s (fun _ n => n.leafEntries) (fun _ _ => []) fuel p

/-- The leaf pages of a subtree, left to right. -/
def leavesOf (s : IxIndexHandle) (fuel : Nat) (p : Int) : List Int :=
  walk s (fun p _ => [p]) (fun _ _ => []) fuel p

/-- The pages of a subtree, every node before its children. -/
def pagesOf (s : IxIndexHandle) (fuel : Nat) (p : Int) : List Int :=
  walk s (fun p _ => [p]) (fun p _ => [p]) fuel p

/-- The entries of the tree, left to right. -/
def allEntries (s : IxIndexHandle) : List (Int × Rid) :=
  s.entriesOf (s.pages.length + 1) s.file_hdr_.root_page_

/-- The leaf pages of the tree, left to right. -/
def allLeaves (s : IxIndexHandle) : List Int :=
  s.leavesOf (s.pages.length + 1) s.file_hdr_.root_page_

/-- The pages of the tree. -/
def allPages (s : IxIndexHandle) : List Int :=
  s.pagesOf (s.pages.length + 1) s.file_hdr_.root_page_

/-- Page `q` of `s` is still there in `t`, the same but for its leaf
links. -/
def SameAt (t s : IxIndexHandle) (q : Int) : Prop :=
  ∀ b, s.getP q = some b → ∃ a, t.getP q = some a ∧ a.Same b

/-- What is asked of an ancestor of the node in focus, and of the node in
focus when it is at rest (`n` is the content of the page): the root has no
parent, at most `order` values and, if it is an internal node, at least one
key; every other node points to the next ancestor and is occupied as it
must be. -/
def UpOK (order : Nat) (fr : List (Int × Nat)) (n : IxNode) : Prop :=
  match fr with
  | [] => n.parent = INVALID_PAGE_ID ∧ n.get_num_vals ≤ order ∧ (n.is_leaf = false → 1 ≤ n.num_key)
  | (B, _) :: _ => n.parent = B ∧ n.Occ order

/-- The parent pointer of the node in focus (with page contents `n`):
the parent is the first of the ancestors, and the root has none. -/
def UpW (fr : List (Int × Nat)) (n : IxNode) : Prop :=
  match fr with
  | [] => n.parent = INVALID_PAGE_ID
  | (B, _) :: _ => n.parent = B

/-- The tree around the node in focus.  `fr` lists the ancestors of page
`p`, the parent first, each with the child slot that leads down to `p`; the
subtree of height `h` at `p` is to hold keys from `lo` up to `hi`.  Every
other child of an ancestor is the root of a proper subtree. -/
def InCtx (s : IxIndexHandle) (order : Nat) :
    List (Int × Nat) → Nat → Int → Option Int → Option Int → Prop
  | [], _, p, lo, hi => s.file_hdr_.root_page_ = p ∧ lo = none ∧ hi = none
  | (A, i) :: fr, h, p, lo, hi =>
    ∃ n loA hiA, s.getP A = some n ∧ n.is_leaf = false ∧ n.NodeOK order ∧ i ≤ n.num_key ∧
      n.child i = p ∧ lo = n.lob i loA ∧ hi = n.hib i hiA ∧
      (∀ j, j ≤ n.num_key → j ≠ i → ∃ c, s.getP (n.child j) = some c ∧ c.parent = A ∧
        c.Occ order ∧ Sub s order true h (n.child j) (n.lob j loA) (n.hib j hiA)) ∧
      UpOK order fr n ∧ InCtx s order fr (h + 1) A loA hiA

/-- The pages that the context of the node in focus is made of: the
ancestors and the subtrees of the other children of the ancestors. -/
def ctxPages (s : IxIndexHandle) : List (Int × Nat) → Nat → List Int
  | [], _ => []
  | (A, i) :: fr, h =>
    A :: (match s.getP A with
          | none => []
          | some n =>
            (n.children.take i ++ n.children.drop (i + 1)).flatMap (s.pagesOf (h + 1))) ++
      ctxPages s fr (h + 1)

/-- What the leaves to the left of the node in focus contribute to a walk. -/
def ctxL {α : Type} (s : IxIndexHandle) (gl : Int → IxNode → List α) :
    List (Int × Nat) → Nat → List α
  | [], _ => []
  | (A, i) :: fr, h =>
    ctxL s gl fr (h + 1) ++
      (match s.getP A with
       | none => []
       | some n => (n.children.take i).flatMap (walk s gl (fun _ _ => []) (h + 1)))

/-- What the leaves to the right of the node in focus contribute to a walk. -/
def ctxR {α : Type} (s : IxIndexHandle) (gl : Int → IxNode → List α) :
    List (Int × Nat) → Nat → List α
  | [], _ => []
  | (A, i) :: fr, h =>
    (match s.getP A with
     | none => []
     | some n => (n.children.drop (i + 1)).flatMap (walk s gl (fun _ _ => []) (h + 1))) ++
      ctxR s gl fr (h + 1)

/-- The leaf links along a list of leaf pages: the first page has `prev`
as its `prev_leaf`, every page has the page after it as its `next_leaf` and
the page before it as its `prev_leaf`; the `next_leaf` of the last page is
`nxt` if that is given. -/
def Chain (s : IxIndexHandle) : Int → List Int → Option Int → Prop
  | _, [], _ => True
  | prev, p :: rest, nxt =>
    (∃ n, s.getP p = some n ∧ n.prev_leaf = prev ∧
      ∀ q, (rest.head?.or nxt) = some q → n.next_leaf = q) ∧
    Chain s p rest nxt

/-- The walk along the leaf list: from page `p` through `next_leaf` up to
the page that the file header names as the last leaf. -/
def leafWalk (s : IxIndexHandle) : Nat → Int → Option (List Int)
  | 0, _ => none
  | fuel + 1, p =>
    match s.getP p with
    | none => none
    | some n =>
      if p = s.file_hdr_.last_leaf_ then some [p]
      else (leafWalk s fuel n.next_leaf).map (fun l => p :: l)

/-- The keys in use of a page; nothing for a page that the file lacks. -/
def keysAt (s : IxIndexHandle) (p : Int) : List Int :=
  match s.getP p with
  | none => []
  | some n => n.liveKeys

/-- The invariant of the index: the pages below the root form a B+tree of
height `h` over the whole key range, the root has no parent and, if it is
an internal node, at least one key, it holds at most `order` values, and the
leaf links run through the leaves of the tree from `first_leaf_` to
`last_leaf_`. -/
def TreeInv (s : IxIndexHandle) (order h : Nat) : Prop :=
  s.file_hdr_.btree_order_ = order ∧
  Sub s order true h s.file_hdr_.root_page_ none none ∧
  (∃ n, s.getP s.file_hdr_.root_page_ = some n ∧ UpOK order [] n) ∧
  h + 2 ≤ s.pages.length ∧
  Chain s IX_LEAF_HEADER_PAGE (s.leavesOf (h + 1) s.file_hdr_.root_page_) none ∧
  (s.leavesOf (h + 1) s.file_hdr_.root_page_).head? = some s.file_hdr_.first_leaf_ ∧
  (s.leavesOf (h + 1) s.file_hdr_.root_page_).getLast? = some s.file_hdr_.last_leaf_

/-- The ancestors of page `p` (whose parent pointer is `par`), the parent
first, up to the root: none of them is a leaf and none holds the key `x`. -/
def AncFree (s : IxIndexHandle) (x : Int) : List (Int × Nat) → Int → Int → Prop
  | [], p, _ => p = s.file_hdr_.root_page_
  | (A, _) :: fr, p, par =>
    p ≠ s.file_hdr_.root_page_ ∧ par = A ∧
      ∃ a, s.getP A = some a ∧ a.is_leaf = false ∧ a.binary_search x = -1 ∧
        AncFree s x fr A a.parent

/-- The indexes that `insert_entry` and `delete_entry` calls make of the
empty index of an order; a call that throws leaves the index as it was at
the throw. -/
inductive Reachable (order : Nat) : IxIndexHandle → Prop
  | init : Reachable order (empty order)
  | insert (s : IxIndexHandle) (k : Int) (r : Rid) :
      Reachable order s → Reachable order (insert_entry k r s).2
  | delete (s : IxIndexHandle) (k : Int) (r : Rid) :
      Reachable order s → Reachable order (delete_entry k r s).2

end IxIndexHandle

/-- The rid stored with a key in a list of entries. -/
def lookup (k : Int) (es : List (Int × Rid)) : Option Rid :=
  (es.find? (fun e => decide (e.1 = k))).map (fun e => e.2)

/-! ## Write-ahead log (`recovery/log_manager.h`, `recovery/log_manager.cpp`)

Records are kept as values; their byte layout is not needed here.  The log
buffer holds the records appended since the last flush together with the
byte offset `offset_`; the log file is the list of records flushed so far. -/

/-- Modelled from the spec: `INVALID_LSN` of the missing `log_defs.h`. -/
def INVALID_LSN : Int := -1

/-- Modelled from the spec: `INVALID_TXN_ID` of the missing `log_defs.h`. -/
def INVALID_TXN_ID : Int := -1

/-- Modelled from the spec: the common header is 20 bytes. -/
def LOG_HEADER_SIZE : Nat := 20

/-- Reduction of an integer to the range of a two's-complement `int`
(`lsn_t` is a 32-bit `int`; the LSN counter is a `std::atomic<lsn_t>`). -/
def wrap32 (x : Int) : Int := (x + 2147483648) % 4294967296 - 2147483648

/-- `LogType`. -/
inductive LogType where
  | UPDATE
  | INSERT
  | DELETE
  | begin
  | commit
  | ABORT
  | IX_INSERT
  | IX_DELETE
deriving DecidableEq, Repr

/-- A log record: the header fields of `LogRecord` and the payload fields
of the insert, delete and update records (`value` is `insert_value_`,
`delete_value_` or `update_value_`; `old_value` is used by UPDATE only). -/
structure LogRecord where
  log_type_ : LogType
  lsn_ : Int
  log_tot_len_ : Nat
  log_tid_ : Int
  prev_lsn_ : Int
  value : List Nat
  old_value : List Nat
  rid_ : Rid
  table_name_ : String
deriving DecidableEq, Repr

/-- `BeginLogRecord(txn_id)`. -/
def BeginLogRecord (txn_id : Int) : LogRecord :=
  ⟨LogType.begin, INVALID_LSN, LOG_HEADER_SIZE, txn_id, INVALID_LSN, [], [], ⟨0, 0⟩, ""⟩

/-- `CommitLogRecord(txn_id)`. -/
def CommitLogRecord (txn_id : Int) : LogRecord :=
  ⟨LogType.commit, INVALID_LSN, LOG_HEADER_SIZE, txn_id, INVALID_LSN, [], [], ⟨0, 0⟩, ""⟩

/-- `AbortLogRecord(txn_id)`. -/
def AbortLogRecord (txn_id : Int) : LogRecord :=
  ⟨LogType.ABORT, INVALID_LSN, LOG_HEADER_SIZE, txn_id, INVALID_LSN, [], [], ⟨0, 0⟩, ""⟩

/-- `InsertLogRecord(txn_id, insert_value, rid, table_name)`. -/
def InsertLogRecord (txn_id : Int) (insert_value : List Nat) (rid : Rid) (table_name : String) :
    LogRecord :=
  ⟨LogType.INSERT, INVALID_LSN,
    LOG_HEADER_SIZE + 4 + insert_value.length + 8 + (8 + table_name.length),
    txn_id, INVALID_LSN, insert_value, [], rid, table_name⟩

/-- `DeleteLogRecord(txn_id, delete_value, rid, table_name)`. -/
def DeleteLogRecord (txn_id : Int) (delete_value : List Nat) (rid : Rid) (table_name : String) :
    LogRecord :=
  ⟨LogType.DELETE, INVALID_LSN,
    LOG_HEADER_SIZE + 4 + delete_value.length + 8 + (8 + table_name.length),
    txn_id, INVALID_LSN, delete_value, [], rid, table_name⟩

/-- `UpdateLogRecord(txn_id, update_value, old_value, rid, table_name)`. -/
def UpdateLogRecord (txn_id : Int) (update_value old_value : List Nat) (rid : Rid)
    (table_name : String) : LogRecord :=
  ⟨LogType.UPDATE, INVALID_LSN,
    LOG_HEADER_SIZE + 4 + update_value.length + old_value.length + 4 + 8 +
      (8 + table_name.length),
    txn_id, INVALID_LSN, update_value, old_value, rid, table_name⟩

/-- The log manager: the LSN counter, the last persisted LSN, the log
buffer (records and byte offset), its capacity `LOG_BUFFER_SIZE` (a
constant of the missing `log_defs.h`, kept as a field) and the log file. -/
structure LogManager where
  global_lsn_ : Int
  persist_lsn_ : Int
  buffer_ : List LogRecord
  offset_ : Nat
  LOG_BUFFER_SIZE : Nat
  disk_log : List LogRecord
deriving DecidableEq, Repr

namespace LogManager

/-- `LogBuffer::is_full`. -/
def is_full (lm : LogManager) (append_size : Nat) : Bool :=
  decide (lm.offset_ + append_size > lm.LOG_BUFFER_SIZE)

/-- `flush_log_to_disk`: the buffer is appended to the log file,
`persist_lsn_` becomes `global_lsn_ - 1` and the buffer is reset. -/
def flush_log_to_disk (lm : LogManager) : LogManager :=
  { lm with disk_log := lm.disk_log ++ lm.buffer_,
            persist_lsn_ := wrap32 (lm.global_lsn_ - 1),
            buffer_ := [],
            offset_ := 0 }

/-- `add_log_to_buffer`. -/
def add_log_to_buffer (lm : LogManager) (log_record : LogRecord) : LogManager :=
  let lm1 := if lm.is_full log_record.log_tot_len_ then lm.flush_log_to_disk else lm
  { lm1 with buffer_ := lm1.buffer_ ++ [log_record],
             offset_ := lm1.offset_ + log_record.log_tot_len_ }

/-- The body shared by the six `add_*_log_record` functions: the record
gets `get_new_lsn()` (the counter is post-incremented) and goes to the
buffer. -/
def add_record (lm : LogManager) (r : LogRecord) : LogManager :=
  let lsn := lm.global_lsn_
  let lm1 := { lm with global_lsn_ := wrap32 (lm.global_lsn_ + 1) }
  lm1.add_log_to_buffer { r with lsn_ := lsn }

/-- `add_begin_log_record`. -/
def add_begin_log_record (lm : LogManager) (txn_id : Int) : LogManager :=
  lm.add_record (BeginLogRecord txn_id)

/-- `add_commit_log_record`. -/
def add_commit_log_record (lm : LogManager) (txn_id : Int) : LogManager :=
  lm.add_record (CommitLogRecord txn_id)

/-- `add_abort_log_record`. -/
def add_abort_log_record (lm : LogManager) (txn_id : Int) : LogManager :=
  lm.add_record (AbortLogRecord txn_id)

/-- `add_insert_log_record`. -/
def add_insert_log_record (lm : LogManager) (txn_id : Int) (insert_value : List Nat) (rid : Rid)
    (table_name : String) : LogManager :=
  lm.add_record (InsertLogRecord txn_id insert_value rid table_name)

/-- `add_delete_log_record`. -/
def add_delete_log_record (lm : LogManager) (txn_id : Int) (delete_value : List Nat) (rid : Rid)
    (table_name : String) : LogManager :=
  lm.add_record (DeleteLogRecord txn_id delete_value rid table_name)

/-- `add_update_log_record`. -/
def add_update_log_record (lm : LogManager) (txn_id : Int) (update_value old_value : List Nat)
    (rid : Rid) (table_name : String) : LogManager :=
  lm.add_record (UpdateLogRecord txn_id update_value old_value rid table_name)

/-- Every record of the log, file first, then buffer. -/
def records (lm : LogManager) : List LogRecord := lm.disk_log ++ lm.buffer_

end LogManager

/-! ## Record heap files (`record/rm_file_handle.cpp`) -/

/-- A heap page: the frame's `page_lsn`, the page header's `num_records`,
the occupancy bitmap and the slot array (record bytes). -/
structure RmPage where
  page_lsn : Int
  num_records : Int
  bitmap : List Bool
  slots : List (List Nat)
deriving DecidableEq, Repr

/-- The fields of `RmFileHdr` that the operations use. -/
structure RmFileHdr where
  record_size : Nat
  num_pages : Nat
  num_records_per_page : Nat
deriving DecidableEq, Repr

/-- An open heap file: file descriptor, header, the pages by page number
(page 0 is the file header page) and the hint set of pages with a free
slot.  Modelled from the spec: the hint set is declared in the missing
`rm_file_handle.h`; it is kept as a duplicate-free list whose head is
`*free_pageno_set.begin()`. -/
structure RmFileHandle where
  fd_ : Int
  file_hdr_ : RmFileHdr
  pages : List RmPage
  free_pageno_set : List Int
deriving DecidableEq, Repr

/-- What heap, transaction and recovery code can throw or die of. -/
inductive DbError where
  | TransactionAbort (reason : AbortReason)
  | AssertionFailed
  | PageNotExist
  | TableNotFound
  | Index (e : IxError)
  | Exit
deriving DecidableEq, Repr

/-- What a heap operation with a context reads and writes besides the
file: `lock_mgr_`, `log_mgr_` and `txn_`. -/
structure Context where
  lock_table_ : LockTable
  log_mgr_ : LogManager
  txn_ : Transaction
deriving DecidableEq

namespace RmPage

/-- `Bitmap::is_set`. -/
def is_set (p : RmPage) (slot_no : Int) : Bool :=
  if slot_no < 0 then false else p.bitmap.getD slot_no.toNat false

/-- `get_slot`: the bytes stored in a slot. -/
def get_slot (p : RmPage) (slot_no : Int) : List Nat :=
  if slot_no < 0 then [] else p.slots.getD slot_no.toNat []

/-- `memcpy` into a slot. -/
def set_slot (p : RmPage) (slot_no : Int) (buf : List Nat) : RmPage :=
  if slot_no < 0 then p else { p with slots := p.slots.set slot_no.toNat buf }

/-- `Bitmap::set` and `Bitmap::reset`. -/
def set_bit (p : RmPage) (slot_no : Int) (b : Bool) : RmPage :=
  if slot_no < 0 then p else { p with bitmap := p.bitmap.set slot_no.toNat b }

/-- `Bitmap::first_bit(0, bitmap, n)`: the first clear bit, `n` if none. -/
def first_free (p : RmPage) (n : Nat) : Nat :=
  match (List.range n).find? (fun i => !(p.bitmap.getD i false)) with
  | some i => i
  | none => n

end RmPage

namespace RmFileHandle

/-- A page as `BufferPoolManager::new_page` hands it out: zero bytes and
`page_lsn = INVALID_LSN`. -/
def blankPage (h : RmFileHdr) : RmPage :=
  ⟨INVALID_LSN, 0, List.replicate h.num_records_per_page false,
    List.replicate h.num_records_per_page (List.replicate h.record_size 0)⟩

/-- `fetch_page_handle`. -/
def fetch_page_handle (fh : RmFileHandle) (page_no : Int) : Except DbError RmPage :=
  if page_no < 0 then Except.error DbError.PageNotExist
  else
    match fh.pages.get? page_no.toNat with
    | some p => Except.ok p
    | none => Except.error DbError.PageNotExist

/-- Write a page back through its handle. -/
def store_page (fh : RmFileHandle) (page_no : Int) (p : RmPage) : RmFileHandle :=
  if page_no < 0 then fh else { fh with pages := fh.pages.set page_no.toNat p }

/-- `free_pageno_set.insert`. -/
def hint_insert (fh : RmFileHandle) (page_no : Int) : RmFileHandle :=
  if page_no ∈ fh.free_pageno_set then fh
  else { fh with free_pageno_set := fh.free_pageno_set ++ [page_no] }

/-- `free_pageno_set.erase`. -/
def hint_erase (fh : RmFileHandle) (page_no : Int) : RmFileHandle :=
  { fh with free_pageno_set := fh.free_pageno_set.filter (fun p => p ≠ page_no) }

/-- `create_new_page_handle`: returns the page number of the new page. -/
def create_new_page_handle (fh : RmFileHandle) : Int × RmFileHandle :=
  ((fh.pages.length : Int),
    { fh with pages := fh.pages ++ [blankPage fh.file_hdr_],
              file_hdr_ := { fh.file_hdr_ with num_pages := fh.file_hdr_.num_pages + 1 } })

/-- `create_page_handle`: the page number of a page to insert into. -/
def create_page_handle (fh : RmFileHandle) : Except DbError (Int × RmFileHandle) :=
  match fh.free_pageno_set with
  | [] =>
    let (p, fh1) := fh.create_new_page_handle
    Except.ok (p, fh1.hint_insert p)
  | p :: _ =>
    match fh.fetch_page_handle p with
    | Except.ok _ => Except.ok (p, fh)
    | Except.error e => Except.error e

/-- `get_record(rid, nullptr)`: the slot bytes (the bitmap is not looked at). -/
def get_record (fh : RmFileHandle) (rid : Rid) : Except DbError (List Nat) :=
  match fh.fetch_page_handle rid.page_no with
  | Except.ok p => Except.ok (p.get_slot rid.slot_no)
  | Except.error e => Except.error e

/-- `insert_record(Rid&, char*)`: insertion at a given position, used by
rollback and recovery. -/
def insert_record_at (fh : RmFileHandle) (rid : Rid) (buf : List Nat) :
    Except DbError RmFileHandle :=
  match fh.fetch_page_handle rid.page_no with
  | Except.error e => Except.error e
  | Except.ok p =>
    if p.is_set rid.slot_no then Except.error DbError.AssertionFailed
    else
      let p1 := (p.set_slot rid.slot_no (buf.take fh.file_hdr_.record_size)).set_bit rid.slot_no true
      let p2 := { p1 with num_records := p1.num_records + 1 }
      let fh1 := fh.store_page rid.page_no p2
      Except.ok (if p2.num_records = fh.file_hdr_.num_records_per_page
        then fh1.hint_erase rid.page_no else fh1)

/-- `allocpage`: the loop `while (rid.page_no >= num_pages)`; the fuel is
the number of pages that can be missing. -/
def allocpage_loop (rid : Rid) : Nat → RmFileHandle → RmFileHandle
  | 0, fh => fh
  | fuel + 1, fh =>
    if rid.page_no ≥ fh.file_hdr_.num_pages then
      let (p, fh1) := fh.create_new_page_handle
      allocpage_loop rid fuel (fh1.hint_insert p)
    else fh

/-- `allocpage`. -/
def allocpage (fh : RmFileHandle) (rid : Rid) : RmFileHandle :=
  allocpage_loop rid (rid.page_no + 1 - fh.file_hdr_.num_pages).toNat fh

/-- `delete_record(rid, nullptr)`. -/
def delete_record (fh : RmFileHandle) (rid : Rid) : Except DbError RmFileHandle :=
  match fh.fetch_page_handle rid.page_no with
  | Except.error e => Except.error e
  | Except.ok p =>
    if p.is_set rid.slot_no then
      let p1 := p.set_bit rid.slot_no false
      let p2 := { p1 with num_records := p1.num_records - 1 }
      Except.ok ((fh.store_page rid.page_no p2).hint_insert rid.page_no)
    else Except.error DbError.AssertionFailed

/-- `update_record(rid, buf, nullptr)`. -/
def update_record (fh : RmFileHandle) (rid : Rid) (buf : List Nat) :
    Except DbError RmFileHandle :=
  match fh.fetch_page_handle rid.page_no with
  | Except.error e => Except.error e
  | Except.ok p =>
    if p.is_set rid.slot_no then
      Except.ok (fh.store_page rid.page_no
        (p.set_slot rid.slot_no (buf.take fh.file_hdr_.record_size)))
    else Except.error DbError.AssertionFailed

/-- Lift a lock-manager call into the heap code: the exception of a
rejected request propagates. -/
def withLock (o : LockOutcome) (log : LogManager) : Except DbError Context :=
  match o.result with
  | Except.ok _ => Except.ok ⟨o.table, log, o.txn⟩
  | Except.error r => Except.error (DbError.TransactionAbort r)

/-- `txn->append_write_record`. -/
def append_write_record (txn : Transaction) (w : WriteRecord) : Transaction :=
  { txn with write_set := txn.write_set ++ [w] }

/-- `insert_record(buf, context)` with a context; `tab_name` is
`disk_manager_->get_file_name(fd_)`. -/
def insert_record (fh : RmFileHandle) (tab_name : String) (buf : List Nat) (ctx : Context) :
    Except DbError (Rid × RmFileHandle × Context) :=
  match fh.create_page_handle with
  | Except.error e => Except.error e
  | Except.ok (ret_page_no, fh1) =>
    match fh1.fetch_page_handle ret_page_no with
    | Except.error e => Except.error e
    | Except.ok page =>
      let free_slot_no : Int := page.first_free fh1.file_hdr_.num_records_per_page
      let ret : Rid := ⟨ret_page_no, free_slot_no⟩
      match withLock (lock_exclusive_on_record ctx.lock_table_ ctx.txn_ ret fh1.fd_)
          ctx.log_mgr_ with
      | Except.error e => Except.error e
      | Except.ok ctx1 =>
        let rec_ := buf.take fh1.file_hdr_.record_size
        let p1 := (page.set_slot free_slot_no rec_).set_bit free_slot_no true
        let p2 := { p1 with num_records := p1.num_records + 1 }
        let fh2 := fh1.store_page ret_page_no p2
        let fh3 := if p2.num_records = fh1.file_hdr_.num_records_per_page
          then fh2.hint_erase ret_page_no else fh2
        let txn1 := append_write_record ctx1.txn_ ⟨WType.INSERT_TUPLE, tab_name, ret, rec_⟩
        let log1 := ctx1.log_mgr_.add_insert_log_record txn1.txn_id rec_ ret tab_name
        Except.ok (ret, fh3, ⟨ctx1.lock_table_, log1, txn1⟩)

/-- `delete_record(rid, context)` with a context. -/
def delete_record_ctx (fh : RmFileHandle) (tab_name : String) (rid : Rid) (ctx : Context) :
    Except DbError (RmFileHandle × Context) :=
  match fh.fetch_page_handle rid.page_no with
  | Except.error e => Except.error e
  | Except.ok p =>
    if p.is_set rid.slot_no then
      match withLock (lock_shared_on_record ctx.lock_table_ ctx.txn_ rid fh.fd_) ctx.log_mgr_ with
      | Except.error e => Except.error e
      | Except.ok ctx1 =>
        let rec_ := p.get_slot rid.slot_no
        match withLock (lock_exclusive_on_record ctx1.lock_table_ ctx1.txn_ rid fh.fd_)
            ctx1.log_mgr_ with
        | Except.error e => Except.error e
        | Except.ok ctx2 =>
          let txn1 := append_write_record ctx2.txn_ ⟨WType.DELETE_TUPLE, tab_name, rid, rec_⟩
          let log1 := ctx2.log_mgr_.add_delete_log_record txn1.txn_id rec_ rid tab_name
          let p1 := p.set_bit rid.slot_no false
          let p2 := { p1 with num_records := p1.num_records - 1 }
          Except.ok ((fh.store_page rid.page_no p2).hint_insert rid.page_no,
            ⟨ctx2.lock_table_, log1, txn1⟩)
    else Except.error DbError.AssertionFailed

/-- `update_record(rid, buf, context)` with a context. -/
def update_record_ctx (fh : RmFileHandle) (tab_name : String) (rid : Rid) (buf : List Nat)
    (ctx : Context) : Except DbError (RmFileHandle × Context) :=
  match fh.fetch_page_handle rid.page_no with
  | Except.error e => Except.error e
  | Except.ok p =>
    if p.is_set rid.slot_no then
      match withLock (lock_shared_on_record ctx.lock_table_ ctx.txn_ rid fh.fd_) ctx.log_mgr_ with
      | Except.error e => Except.error e
      | Except.ok ctx1 =>
        let old_rec := p.get_slot rid.slot_no
        match withLock (lock_exclusive_on_record ctx1.lock_table_ ctx1.txn_ rid fh.fd_)
            ctx1.log_mgr_ with
        | Except.error e => Except.error e
        | Except.ok ctx2 =>
          let txn1 := append_write_record ctx2.txn_ ⟨WType.UPDATE_TUPLE, tab_name, rid, old_rec⟩
          let update_record := buf.take fh.file_hdr_.record_size
          let log1 := ctx2.log_mgr_.add_update_log_record txn1.txn_id update_record old_rec rid
            tab_name
          Except.ok (fh.store_page rid.page_no (p.set_slot rid.slot_no update_record),
            ⟨ctx2.lock_table_, log1, txn1⟩)
    else Except.error DbError.AssertionFailed

end RmFileHandle

/-! ## Catalog handles (`system/sm_manager.h`) -/

/-- The part of `IndexMeta` that rollback uses, for an index on one INT
column: the index file name (`get_index_name`) and the byte offset of the
column in the record. -/
structure IndexMeta where
  index_name : String
  col_offset : Nat
deriving DecidableEq, Repr

/-- The handles of `SmManager` that transaction and recovery code reach:
the heap files `fhs_` by table name, the index list of every table
(`db_.tabs_[name].indexes`) and the index handles `ihs_` by index name. -/
structure SmManager where
  fhs_ : List (String × RmFileHandle)
  tab_indexes : List (String × List IndexMeta)
  ihs_ : List (String × IxIndexHandle)
deriving DecidableEq, Repr

/-- Lookup in a name-keyed map. -/
def mapFind {α : Type} (m : List (String × α)) (name : String) : Option α :=
  match m with
  | [] => none
  | (k, v) :: rest => if k = name then some v else mapFind rest name

/-- Replace the value stored under a name. -/
def mapStore {α : Type} (m : List (String × α)) (name : String) (v : α) : List (String × α) :=
  match m with
  | [] => []
  | (k, old) :: rest =>
    if k = name then (k, v) :: mapStore rest name v else (k, old) :: mapStore rest name v

/-- The four bytes of an INT column read as a two's-complement `int`. -/
def decodeInt32 (bytes : List Nat) : Int :=
  let u : Nat := bytes.getD 0 0 + 256 * bytes.getD 1 0 + 65536 * bytes.getD 2 0 +
    16777216 * bytes.getD 3 0
  if u ≥ 2147483648 then (u : Int) - 4294967296 else (u : Int)

/-- The key of a record for an index: the `memcpy` loop over the index
columns, here the one INT column. -/
def indexKey (im : IndexMeta) (record : List Nat) : Int :=
  decodeInt32 (record.drop im.col_offset)

namespace SmManager

/-- The heap file of a table. -/
def file (sm : SmManager) (tab_name : String) : Except DbError RmFileHandle :=
  match mapFind sm.fhs_ tab_name with
  | some fh => Except.ok fh
  | none => Except.error DbError.TableNotFound

/-- The indexes of a table (`get_table_meta(name).indexes`). -/
def indexes (sm : SmManager) (tab_name : String) : Except DbError (List IndexMeta) :=
  match mapFind sm.tab_indexes tab_name with
  | some l => Except.ok l
  | none => Except.error DbError.TableNotFound

/-- Run an index operation on the handle `ihs_.at(index_name)`. -/
def onIndex {α : Type} (sm : SmManager) (index_name : String) (op : IxM α) :
    Except DbError (α × SmManager) :=
  match mapFind sm.ihs_ index_name with
  | none => Except.error DbError.TableNotFound
  | some ih =>
    match op ih with
    | (Except.ok a, ih1) => Except.ok (a, { sm with ihs_ := mapStore sm.ihs_ index_name ih1 })
    | (Except.error e, _) => Except.error (DbError.Index e)

end SmManager

/-! ## Transaction manager (`transaction/transaction_manager.cpp`) -/

/-- The loop `for (iter : lock_set) lock_manager_->unlock(txn, *iter)`. -/
def unlock_all (lt : LockTable) (txn : Transaction) : List LockDataId → LockTable
  | [] => lt
  | id :: rest => unlock_all (unlock lt txn id) txn rest

/-- `TransactionManager::begin` for a new transaction with the id handed
out by `get_next_txn_id`. -/
def TransactionManager.begin (txn_id : Int) (log : LogManager) : Transaction × LogManager :=
  (⟨txn_id, TransactionState.GROWING, [], []⟩, log.add_begin_log_record txn_id)

/-- `TransactionManager::commit`. -/
def TransactionManager.commit (lt : LockTable) (log : LogManager) (txn : Transaction) :
    LockTable × LogManager × Transaction :=
  let txn1 := { txn with state := TransactionState.SHRINKING }
  let lt1 := unlock_all lt txn1 txn1.lock_set
  let txn2 := { txn1 with write_set := [], lock_set := [] }
  let log1 := log.add_commit_log_record txn2.txn_id
  let log2 := log1.flush_log_to_disk
  (lt1, log2, { txn2 with state := TransactionState.COMMITTED })

/-- The state of recovery: the heap files, the undo set and the log
manager (compensation records go to its buffer). -/
structure RecoveryState where
  sm : SmManager
  undo_list : List Int
  log : LogManager
deriving DecidableEq, Repr

namespace RecoveryManager

/-- `analyze` with `parseLog`: the records of the log file in order; the
LSN counter is set to their number and `persist_lsn_` to one less.  A
record with `log_tot_len_ = 0` ends the process (`exit(1)`), an index record
fails the assertion. -/
def analyze (log : LogManager) : Except DbError (List LogRecord × LogManager) :=
  if log.disk_log.any (fun r => decide (r.log_tot_len_ = 0)) then
    Except.error DbError.Exit
  else if log.disk_log.any
      (fun r => decide (r.log_type_ = LogType.IX_INSERT ∨ r.log_type_ = LogType.IX_DELETE)) then
    Except.error DbError.AssertionFailed
  else
    Except.ok (log.disk_log,
      { log with global_lsn_ := wrap32 log.disk_log.length,
                 persist_lsn_ := wrap32 ((log.disk_log.length : Int) - 1) })

/-- `is_record_stroed`. -/
def is_record_stroed (sm : SmManager) (file_name : String) (page_no : Int) (now_lsn : Int) :
    Except DbError Bool :=
  match sm.file file_name with
  | Except.error e => Except.error e
  | Except.ok fh =>
    if page_no ≥ fh.file_hdr_.num_pages then Except.ok false
    else
      match fh.fetch_page_handle page_no with
      | Except.error e => Except.error e
      | Except.ok p => Except.ok (decide (p.page_lsn ≥ now_lsn))

/-- `undo_list.insert`. -/
def undo_insert (l : List Int) (tid : Int) : List Int := if tid ∈ l then l else l ++ [tid]

/-- `undo_list.erase`. -/
def undo_erase (l : List Int) (tid : Int) : List Int := l.filter (fun t => t ≠ tid)

/-- Store a changed heap file back under its table name. -/
def putFile (st : RecoveryState) (name : String) (fh : RmFileHandle) : RecoveryState :=
  { st with sm := { st.sm with fhs_ := mapStore st.sm.fhs_ name fh } }

/-- `RedoLog`. -/
def RedoLog (st : RecoveryState) (log_record : LogRecord) (now_lsn : Int) :
    Except DbError RecoveryState :=
  match log_record.log_type_ with
  | LogType.begin => Except.ok { st with undo_list := undo_insert st.undo_list log_record.log_tid_ }
  | LogType.commit => Except.ok { st with undo_list := undo_erase st.undo_list log_record.log_tid_ }
  | LogType.ABORT => Except.ok { st with undo_list := undo_erase st.undo_list log_record.log_tid_ }
  | LogType.DELETE =>
    match is_record_stroed st.sm log_record.table_name_ log_record.rid_.page_no now_lsn with
    | Except.error e => Except.error e
    | Except.ok true => Except.ok st
    | Except.ok false =>
      match st.sm.file log_record.table_name_ with
      | Except.error e => Except.error e
      | Except.ok fh =>
        match fh.delete_record log_record.rid_ with
        | Except.error e => Except.error e
        | Except.ok fh1 => Except.ok (putFile st log_record.table_name_ fh1)
  | LogType.IX_DELETE => Except.ok st
  | LogType.INSERT =>
    match is_record_stroed st.sm log_record.table_name_ log_record.rid_.page_no now_lsn with
    | Except.error e => Except.error e
    | Except.ok true => Except.ok st
    | Except.ok false =>
      match st.sm.file log_record.table_name_ with
      | Except.error e => Except.error e
      | Except.ok fh =>
        match (fh.allocpage log_record.rid_).insert_record_at log_record.rid_ log_record.value with
        | Except.error e => Except.error e
        | Except.ok fh1 => Except.ok (putFile st log_record.table_name_ fh1)
  | LogType.IX_INSERT => Except.ok st
  | LogType.UPDATE =>
    match is_record_stroed st.sm log_record.table_name_ log_record.rid_.page_no now_lsn with
    | Except.error e => Except.error e
    | Except.ok true => Except.ok st
    | Except.ok false =>
      match st.sm.file log_record.table_name_ with
      | Except.error e => Except.error e
      | Except.ok fh =>
        match (fh.allocpage log_record.rid_).update_record log_record.rid_ log_record.value with
        | Except.error e => Except.error e
        | Except.ok fh1 => Except.ok (putFile st log_record.table_name_ fh1)

/-- `redo`: `RedoLog` on every record in log order, with its position as
`now_lsn`. -/
def redo_loop : List LogRecord → Int → RecoveryState → Except DbError RecoveryState
  | [], _, st => Except.ok st
  | r :: rest, i, st =>
    match RedoLog st r i with
    | Except.error e => Except.error e
    | Except.ok st1 => redo_loop rest (i + 1) st1

/-- `redo`. -/
def redo (read_log_records : List LogRecord) (st : RecoveryState) : Except DbError RecoveryState :=
  redo_loop read_log_records 0 st

/-- `UndoLog` (the branches compiled without `ENABLE_LSN`). -/
def UndoLog (st : RecoveryState) (log_record : LogRecord) : Except DbError RecoveryState :=
  match log_record.log_type_ with
  | LogType.begin =>
    if log_record.log_tid_ ∈ st.undo_list then
      Except.ok { st with log := st.log.add_abort_log_record log_record.log_tid_,
                          undo_list := undo_erase st.undo_list log_record.log_tid_ }
    else Except.ok st
  | LogType.commit =>
    if log_record.log_tid_ ∈ st.undo_list then Except.error DbError.AssertionFailed
    else Except.ok st
  | LogType.ABORT =>
    if log_record.log_tid_ ∈ st.undo_list then Except.error DbError.AssertionFailed
    else Except.ok st
  | LogType.DELETE =>
    if log_record.log_tid_ ∈ st.undo_list then
      let log1 := st.log.add_insert_log_record log_record.log_tid_ log_record.value
        log_record.rid_ log_record.table_name_
      match st.sm.file log_record.table_name_ with
      | Except.error e => Except.error e
      | Except.ok fh =>
        match fh.insert_record_at log_record.rid_ log_record.value with
        | Except.error e => Except.error e
        | Except.ok fh1 => Except.ok (putFile { st with log := log1 } log_record.table_name_ fh1)
    else Except.ok st
  | LogType.INSERT =>
    if log_record.log_tid_ ∈ st.undo_list then
      let log1 := st.log.add_delete_log_record log_record.log_tid_ log_record.value
        log_record.rid_ log_record.table_name_
      match st.sm.file log_record.table_name_ with
      | Except.error e => Except.error e
      | Except.ok fh =>
        match fh.delete_record log_record.rid_ with
        | Except.error e => Except.error e
        | Except.ok fh1 => Except.ok (putFile { st with log := log1 } log_record.table_name_ fh1)
    else Except.ok st
  | LogType.UPDATE =>
    if log_record.log_tid_ ∈ st.undo_list then
      let log1 := st.log.add_update_log_record log_record.log_tid_ log_record.old_value
        log_record.value log_record.rid_ log_record.table_name_
      match st.sm.file log_record.table_name_ with
      | Except.error e => Except.error e
      | Except.ok fh =>
        match fh.update_record log_record.rid_ log_record.old_value with
        | Except.error e => Except.error e
        | Except.ok fh1 => Except.ok (putFile { st with log := log1 } log_record.table_name_ fh1)
    else Except.ok st
  | LogType.IX_INSERT => Except.error DbError.AssertionFailed
  | LogType.IX_DELETE => Except.error DbError.AssertionFailed

/-- The first loop of `undo`; the argument is the log from its last record
to its first. -/
def undo_loop : List LogRecord → RecoveryState → Except DbError RecoveryState
  | [], st => Except.ok st
  | r :: rest, st =>
    if st.undo_list.isEmpty then Except.ok st
    else
      match UndoLog st r with
      | Except.error e => Except.error e
      | Except.ok st1 => undo_loop rest st1

end RecoveryManager

/-! ### Reachable lock states of one transaction, log invariant -/

/-- The lock table and the transaction object `T` as they can be after
`begin`: `T` issues lock requests and heap writes, other transactions issue
lock requests and unlock calls. -/
inductive TxnLockReachable : LockTable → Transaction → Prop where
  | start (tid : Int) : TxnLockReachable [] ⟨tid, TransactionState.GROWING, [], []⟩
  | own (lt : LockTable) (T : Transaction) (c : LockCall) :
      TxnLockReachable lt T → TxnLockReachable (c.run lt T).table (c.run lt T).txn
  | other_lock (lt : LockTable) (T other : Transaction) (c : LockCall) :
      other.txn_id ≠ T.txn_id → TxnLockReachable lt T →
      TxnLockReachable (c.run lt other).table T
  | other_unlock (lt : LockTable) (T other : Transaction) (id : LockDataId) :
      other.txn_id ≠ T.txn_id → TxnLockReachable lt T → TxnLockReachable (unlock lt other id) T
  | write (lt : LockTable) (T : Transaction) (w : WriteRecord) :
      TxnLockReachable lt T → TxnLockReachable lt (RmFileHandle.append_write_record T w)

/-- Every queue that holds a request of `T` is stored under a key of
`T`'s lock set. -/
def LockSetCovers (lt : LockTable) (T : Transaction) : Prop :=
  ∀ e ∈ lt, (∃ r ∈ e.2, r.txn_id = T.txn_id) → e.1 ∈ T.lock_set

/-- Every record of the log carries an LSN that `get_new_lsn` has issued
and the counter has not wrapped around. -/
def LogInv (lm : LogManager) : Prop :=
  (∀ r ∈ lm.records, r.lsn_ < lm.global_lsn_) ∧ 0 ≤ lm.global_lsn_ ∧ lm.global_lsn_ < 2147483647

/-! ### Heap operations of a transaction and what a slot holds -/

namespace RmFileHandle

/-- The occupancy bit of a slot; false where the page does not exist. -/
def occupied (fh : RmFileHandle) (rid : Rid) : Bool :=
  match fh.fetch_page_handle rid.page_no with
  | Except.ok p => p.is_set rid.slot_no
  | Except.error _ => false

/-- The record bytes of a slot; empty where the page does not exist. -/
def bytes (fh : RmFileHandle) (rid : Rid) : List Nat :=
  match fh.fetch_page_handle rid.page_no with
  | Except.ok p => p.get_slot rid.slot_no
  | Except.error _ => []

/-- The rid names a slot of an existing page. -/
def slotExists (fh : RmFileHandle) (rid : Rid) : Prop :=
  ∃ p, fh.fetch_page_handle rid.page_no = Except.ok p ∧ 0 ≤ rid.slot_no ∧
    rid.slot_no.toNat < p.bitmap.length ∧ rid.slot_no.toNat < p.slots.length

end RmFileHandle

namespace SmManager

/-- The occupancy bit of a slot of a table; false where table or page do
not exist. -/
def occupied (sm : SmManager) (tab_name : String) (rid : Rid) : Bool :=
  match mapFind sm.fhs_ tab_name with
  | some fh => fh.occupied rid
  | none => false

/-- The record bytes of a slot of a table. -/
def bytes (sm : SmManager) (tab_name : String) (rid : Rid) : List Nat :=
  match mapFind sm.fhs_ tab_name with
  | some fh => fh.bytes rid
  | none => []

end SmManager

/-- A heap operation issued under a transaction's context. -/
inductive HeapOp where
  | insert (tab_name : String) (buf : List Nat)
  | update (tab_name : String) (rid : Rid) (buf : List Nat)
  | delete (tab_name : String) (rid : Rid)
deriving DecidableEq, Repr

/-- Run one heap operation on the table's file with the context. -/
def HeapOp.run (op : HeapOp) (sm : SmManager) (ctx : Context) :
    Except DbError (SmManager × Context) :=
  match op with
  | HeapOp.insert tab buf =>
    match sm.file tab with
    | Except.error e => Except.error e
    | Except.ok fh =>
      match fh.insert_record tab buf ctx with
      | Except.error e => Except.error e
      | Except.ok (_, fh1, ctx1) => Except.ok ({ sm with fhs_ := mapStore sm.fhs_ tab fh1 }, ctx1)
  | HeapOp.update tab rid buf =>
    match sm.file tab with
    | Except.error e => Except.error e
    | Except.ok fh =>
      match fh.update_record_ctx tab rid buf ctx with
      | Except.error e => Except.error e
      | Except.ok (fh1, ctx1) => Except.ok ({ sm with fhs_ := mapStore sm.fhs_ tab fh1 }, ctx1)
  | HeapOp.delete tab rid =>
    match sm.file tab with
    | Except.error e => Except.error e
    | Except.ok fh =>
      match fh.delete_record_ctx tab rid ctx with
      | Except.error e => Except.error e
      | Except.ok (fh1, ctx1) => Except.ok ({ sm with fhs_ := mapStore sm.fhs_ tab fh1 }, ctx1)

/-- Run a sequence of heap operations; the first failure ends the run. -/
def runHeapOps : List HeapOp → SmManager → Context → Except DbError (SmManager × Context)
  | [], sm, ctx => Except.ok (sm, ctx)
  | op :: rest, sm, ctx =>
    match op.run sm ctx with
    | Except.error e => Except.error e
    | Except.ok (sm1, ctx1) => runHeapOps rest sm1 ctx1

/-- Heap file `b` differs from heap file `a` at most in the slot `rid`:
records keep their size, and every other slot of `a` still exists in `b`
with the same occupancy bit and, where occupied, the same bytes. -/
def SameElsewhere (a b : RmFileHandle) (rid : Rid) : Prop :=
  b.file_hdr_.record_size = a.file_hdr_.record_size ∧
  ∀ r, r ≠ rid → (a.slotExists r → b.slotExists r) ∧ b.occupied r = a.occupied r ∧
    (a.occupied r = true → b.bytes r = a.bytes r)

namespace LogRecord

/-- The record is an INSERT, DELETE or UPDATE record. -/
def isMutation (r : LogRecord) : Bool :=
  decide (r.log_type_ = LogType.INSERT ∨ r.log_type_ = LogType.DELETE ∨
    r.log_type_ = LogType.UPDATE)

/-- The record is an INSERT, DELETE or UPDATE record on the slot `rid` of
table `tab`. -/
def touches (r : LogRecord) (tab : String) (rid : Rid) : Bool :=
  r.isMutation && decide (r.table_name_ = tab ∧ r.rid_ = rid)

/-- The record is the BEGIN record of transaction `tid`. -/
def isBeginOf (r : LogRecord) (tid : Int) : Bool :=
  decide (r.log_type_ = LogType.begin ∧ r.log_tid_ = tid)

end LogRecord

/-- Isolation of the transactions in `losers`: once one of them has a
record on a slot, every later record on that slot is its own (it holds the
exclusive lock on the record until it ends, and it has not ended). -/
def isolated (losers : List Int) : List LogRecord → Bool
  | [] => true
  | r :: rest =>
    (!(r.isMutation && decide (r.log_tid_ ∈ losers)) ||
      rest.all (fun r' => !(r'.touches r.table_name_ r.rid_) ||
        decide (r'.log_tid_ = r.log_tid_))) &&
    isolated losers rest

/-- No BEGIN record of a transaction of `losers` comes after one of its
INSERT, DELETE or UPDATE records. -/
def beginFirst (losers : List Int) : List LogRecord → Bool
  | [] => true
  | r :: rest =>
    (!(r.isMutation && decide (r.log_tid_ ∈ losers)) ||
      rest.all (fun r' => !(r'.isBeginOf r.log_tid_))) &&
    beginFirst losers rest

namespace RmFileHandle

/-- The pages of the file are laid out by the file header: the bitmap and
the slot array have `num_records_per_page` entries, and `page_lsn` is
`INVALID_LSN` (nothing sets it in a build without `ENABLE_LSN`). -/
def Shape (fh : RmFileHandle) : Prop :=
  ∀ p ∈ fh.pages, p.page_lsn = INVALID_LSN ∧
    p.bitmap.length = fh.file_hdr_.num_records_per_page ∧
    p.slots.length = fh.file_hdr_.num_records_per_page

end RmFileHandle

/-- Every heap file that `fhs_` hands out is laid out by its header. -/
def SmManager.HeapShape (sm : SmManager) : Prop :=
  ∀ tab fh, mapFind sm.fhs_ tab = some fh → fh.Shape

/-- The INSERT records of the log name slots of a page: the slot number is
below `num_records_per_page` of the table's file. -/
def ValidSlots (sm : SmManager) (records : List LogRecord) : Prop :=
  ∀ r ∈ records, r.log_type_ = LogType.INSERT →
    ∀ fh, mapFind sm.fhs_ r.table_name_ = some fh →
      0 ≤ r.rid_.slot_no ∧ r.rid_.slot_no < fh.file_hdr_.num_records_per_page

namespace RecoveryManager

/-- The heap-file call of `RedoLog` for an INSERT, DELETE or UPDATE
record. -/
def redoFile (r : LogRecord) (fh : RmFileHandle) : Except DbError RmFileHandle :=
  match r.log_type_ with
  | LogType.INSERT => (fh.allocpage r.rid_).insert_record_at r.rid_ r.value
  | LogType.DELETE => fh.delete_record r.rid_
  | LogType.UPDATE => (fh.allocpage r.rid_).update_record r.rid_ r.value
  | _ => Except.ok fh

/-- The heap-file call of `UndoLog` for an INSERT, DELETE or UPDATE
record. -/
def undoFile (r : LogRecord) (fh : RmFileHandle) : Except DbError RmFileHandle :=
  match r.log_type_ with
  | LogType.INSERT => fh.delete_record r.rid_
  | LogType.DELETE => fh.insert_record_at r.rid_ r.value
  | LogType.UPDATE => fh.update_record r.rid_ r.old_value
  | _ => Except.ok fh

/-- The undo set that `RedoLog` builds while it goes through the records:
a BEGIN record inserts its transaction, a COMMIT or ABORT record erases it. -/
def undoListFrom (l : List Int) : List LogRecord → List Int
  | [] => l
  | r :: rest =>
    match r.log_type_ with
    | LogType.begin => undoListFrom (undo_insert l r.log_tid_) rest
    | LogType.commit => undoListFrom (undo_erase l r.log_tid_) rest
    | LogType.ABORT => undoListFrom (undo_erase l r.log_tid_) rest
    | _ => undoListFrom l rest

/-- The undo set after the redo of a log: its losers. -/
def undoListOf (records : List LogRecord) : List Int := undoListFrom [] records

/-- The first two phases of `recover`: `analyze`, then `redo`. -/
def redoPhase (sm : SmManager) (log : LogManager) : Except DbError RecoveryState :=
  match analyze log with
  | Except.error e => Except.error e
  | Except.ok (records, log1) => redo records ⟨sm, [], log1⟩

/-- The compensation record that `UndoLog` writes for an INSERT, DELETE or
UPDATE record. -/
def undoRecord (r : LogRecord) : LogRecord :=
  match r.log_type_ with
  | LogType.INSERT => DeleteLogRecord r.log_tid_ r.value r.rid_ r.table_name_
  | LogType.DELETE => InsertLogRecord r.log_tid_ r.value r.rid_ r.table_name_
  | _ => UpdateLogRecord r.log_tid_ r.old_value r.value r.rid_ r.table_name_

end RecoveryManager

/-- What the undo of a record leaves in its slot: the slot of an INSERT is
free, the slot of an UPDATE holds the old value of the record, the slot of a
DELETE holds the deleted value (at most `record_size` bytes are copied). -/
def UndoImage (fh : RmFileHandle) (r : LogRecord) : Prop :=
  match r.log_type_ with
  | LogType.INSERT => fh.occupied r.rid_ = false
  | LogType.UPDATE => fh.occupied r.rid_ = true ∧
      fh.bytes r.rid_ = r.old_value.take fh.file_hdr_.record_size
  | LogType.DELETE => fh.occupied r.rid_ = true ∧
      fh.bytes r.rid_ = r.value.take fh.file_hdr_.record_size
  | _ => True

/-- The first INSERT, DELETE or UPDATE record on a slot that belongs to a
transaction of `losers`. -/
def firstLoserRecord (losers : List Int) (records : List LogRecord) (tab : String) (rid : Rid) :
    Option LogRecord :=
  records.find? (fun r => r.touches tab rid && decide (r.log_tid_ ∈ losers))

/-- The state of undo when it has gone back through the records `suf`,
against the heap `S` that redo had built before it applied `suf`: the
tables are the same, slots of `S` still exist, a slot on which all of `suf`
belongs to `losers` has the occupancy it has in `S`, and a slot holds the
undo image of the first loser record on it; the undo set holds the losers
whose BEGIN is not in `suf`; the log has grown by `extra`, with an ABORT
record for every loser whose BEGIN is in `suf`. -/
def UndoInv (losers : List Int) (log0 : LogManager) (suf : List LogRecord) (S : SmManager)
    (v : RecoveryState) : Prop :=
  (∀ tab, mapFind S.fhs_ tab = none → mapFind v.sm.fhs_ tab = none) ∧
  (∀ tab fS, mapFind S.fhs_ tab = some fS → ∃ fV, mapFind v.sm.fhs_ tab = some fV ∧
    fV.file_hdr_.record_size = fS.file_hdr_.record_size ∧
    ∀ rid, (fS.slotExists rid → fV.slotExists rid) ∧
      ((∀ r ∈ suf, r.touches tab rid = true → r.log_tid_ ∈ losers) →
        fV.occupied rid = fS.occupied rid) ∧
      (∀ r, firstLoserRecord losers suf tab rid = some r → UndoImage fV r)) ∧
  (∀ x, x ∈ v.undo_list ↔ x ∈ losers ∧ ∀ r ∈ suf, r.isBeginOf x = false) ∧
  ∃ extra, v.log.records = log0.records ++ extra ∧
    ∀ x ∈ losers, (∃ r ∈ suf, r.isBeginOf x = true) →
      ∃ lsn, { AbortLogRecord x with lsn_ := lsn } ∈ extra

/-- An example heap: table "t" with records of 4 bytes, two slots per
page, and the row `[2,0,0,0]` at rid (1,0). -/
def exampleHeap : SmManager :=
  ⟨[("t", ⟨3, ⟨4, 2, 2⟩,
      [⟨INVALID_LSN, 0, [false, false], [[0, 0, 0, 0], [0, 0, 0, 0]]⟩,
       ⟨INVALID_LSN, 1, [true, false], [[2, 0, 0, 0], [0, 0, 0, 0]]⟩], [1]⟩)],
    [("t", [])], []⟩

/-- An example log file written on `exampleHeap`: transaction 1 updated
the row at rid (1,0) to `[12,0,0,0]` and inserted `[7,0,0,0]` at rid (1,1)
and did not end; transaction 2 inserted `[9,0,0,0]` at rid (2,0) and
committed. -/
def exampleLog : LogManager :=
  ⟨0, -1, [], 0, 4096,
    [{ BeginLogRecord 1 with lsn_ := 0 },
     { UpdateLogRecord 1 [12, 0, 0, 0] [2, 0, 0, 0] ⟨1, 0⟩ "t" with lsn_ := 1 },
     { BeginLogRecord 2 with lsn_ := 2 },
     { InsertLogRecord 2 [9, 0, 0, 0] ⟨2, 0⟩ "t" with lsn_ := 3 },
     { CommitLogRecord 2 with lsn_ := 4 },
     { InsertLogRecord 1 [7, 0, 0, 0] ⟨1, 1⟩ "t" with lsn_ := 5 }]⟩

/-! ### The second `update_record` overload and the heap scan (`record/rm_scan.cpp`) -/

namespace RmFileHandle

/-- `update_record(rid, buf, is_add_lock, context)` with a context: the
record is read through `get_record(rid, context)`, which asks for the
shared lock; the exclusive lock and the call of `add_update_log_record`
are both under `if(is_add_lock)`. -/
def update_record_is_add_lock (fh : RmFileHandle) (tab_name : String) (rid : Rid)
    (buf : List Nat) (is_add_lock : Bool) (ctx : Context) :
    Except DbError (RmFileHandle × Context) :=
  match fh.fetch_page_handle rid.page_no with
  | Except.error e => Except.error e
  | Except.ok p =>
    if p.is_set rid.slot_no then
      match withLock (lock_shared_on_record ctx.lock_table_ ctx.txn_ rid fh.fd_) ctx.log_mgr_ with
      | Except.error e => Except.error e
      | Except.ok ctx1 =>
        let old_rec := p.get_slot rid.slot_no
        match (if is_add_lock then
            withLock (lock_exclusive_on_record ctx1.lock_table_ ctx1.txn_ rid fh.fd_)
              ctx1.log_mgr_
          else Except.ok ctx1) with
        | Except.error e => Except.error e
        | Except.ok ctx2 =>
          let txn1 := append_write_record ctx2.txn_ ⟨WType.UPDATE_TUPLE, tab_name, rid, old_rec⟩
          let update_record := buf.take fh.file_hdr_.record_size
          let log1 :=
            if is_add_lock then
              ctx2.log_mgr_.add_update_log_record txn1.txn_id update_record old_rec rid tab_name
            else ctx2.log_mgr_
          Except.ok (fh.store_page rid.page_no (p.set_slot rid.slot_no update_record),
            ⟨ctx2.lock_table_, log1, txn1⟩)
    else Except.error DbError.AssertionFailed

/-- `delete_record(rid, is_add_lock, context)` with a context: only the
exclusive lock is under `if(is_add_lock)`. -/
def delete_record_is_add_lock (fh : RmFileHandle) (tab_name : String) (rid : Rid)
    (is_add_lock : Bool) (ctx : Context) : Except DbError (RmFileHandle × Context) :=
  match fh.fetch_page_handle rid.page_no with
  | Except.error e => Except.error e
  | Except.ok p =>
    if p.is_set rid.slot_no then
      match withLock (lock_shared_on_record ctx.lock_table_ ctx.txn_ rid fh.fd_) ctx.log_mgr_ with
      | Except.error e => Except.error e
      | Except.ok ctx1 =>
        let rec_ := p.get_slot rid.slot_no
        match (if is_add_lock then
            withLock (lock_exclusive_on_record ctx1.lock_table_ ctx1.txn_ rid fh.fd_)
              ctx1.log_mgr_
          else Except.ok ctx1) with
        | Except.error e => Except.error e
        | Except.ok ctx2 =>
          let txn1 := append_write_record ctx2.txn_ ⟨WType.DELETE_TUPLE, tab_name, rid, rec_⟩
          let log1 := ctx2.log_mgr_.add_delete_log_record txn1.txn_id rec_ rid tab_name
          let p1 := p.set_bit rid.slot_no false
          let p2 := { p1 with num_records := p1.num_records - 1 }
          Except.ok ((fh.store_page rid.page_no p2).hint_insert rid.page_no,
            ⟨ctx2.lock_table_, log1, txn1⟩)
    else Except.error DbError.AssertionFailed

/-- The `num_records` of the page header of a page; 0 where the file has no
such page. -/
def numRecordsAt (fh : RmFileHandle) (page_no : Int) : Int :=
  match fh.fetch_page_handle page_no with
  | Except.ok p => p.num_records
  | Except.error _ => 0

/-- The pages of the file are laid out by the file header: a page holds at
least one slot, and bitmap and slot array have `num_records_per_page`
entries. -/
def Sized (fh : RmFileHandle) : Prop :=
  0 < fh.file_hdr_.num_records_per_page ∧
  ∀ p ∈ fh.pages, p.bitmap.length = fh.file_hdr_.num_records_per_page ∧
    p.slots.length = fh.file_hdr_.num_records_per_page

/-- Every page number of the hint set names a page of the file with a
clear bitmap bit. -/
def HintsFree (fh : RmFileHandle) : Prop :=
  ∀ pn ∈ fh.free_pageno_set, ∃ p, fh.fetch_page_handle pn = Except.ok p ∧ false ∈ p.bitmap

end RmFileHandle

/-- Modelled from the spec: `Bitmap::next_bit(1, bitmap, max_n, curr)` of the
missing `bitmap.h`: the first set bit after position `curr`, `max_n` if
there is none. -/
def RmPage.next_bit (p : RmPage) (max_n : Nat) (curr : Int) : Nat :=
  match (List.range max_n).find?
      (fun (i : Nat) => decide (curr < (i : Int)) && p.bitmap.getD i false) with
  | some i => i
  | none => max_n

/-- The page numbers `lo, lo + 1, ..., hi - 1` of a `for` loop. -/
def pageRange (lo hi : Int) : List Int :=
  (List.range (hi - lo).toNat).map (fun (i : Nat) => lo + (i : Int))

namespace RmScan

/-- The loop over the pages that `RmScan::RmScan` and `RmScan::next` share:
on every page the first set bit after `tmp_slot_no` is looked for, and
`tmp_slot_no` is -1 from the second page on; `none` when the loop ends with
`is_all_empty` still true. -/
def scan_loop (fh : RmFileHandle) : List Int → Int → Except DbError (Option Rid)
  | [], _ => Except.ok none
  | page_no :: rest, tmp_slot_no =>
    match fh.fetch_page_handle page_no with
    | Except.error e => Except.error e
    | Except.ok p =>
      let ind := p.next_bit fh.file_hdr_.num_records_per_page tmp_slot_no
      if ind = fh.file_hdr_.num_records_per_page then scan_loop fh rest (-1)
      else Except.ok (some ⟨page_no, ind⟩)

/-- `RmScan::RmScan`: the position `rid_` after construction.  When no slot
is occupied only `rid_.page_no` is written; the slot number, which the
source leaves unset and never reads, is 0 here. -/
def init (fh : RmFileHandle) : Except DbError Rid :=
  match scan_loop fh (pageRange 1 fh.file_hdr_.num_pages) (-1) with
  | Except.error e => Except.error e
  | Except.ok (some rid) => Except.ok rid
  | Except.ok none => Except.ok ⟨INVALID_PAGE_ID, 0⟩

/-- `RmScan::next`. -/
def next (fh : RmFileHandle) (rid_ : Rid) : Except DbError Rid :=
  if rid_.page_no = INVALID_PAGE_ID then Except.error DbError.AssertionFailed
  else
    match scan_loop fh (pageRange rid_.page_no fh.file_hdr_.num_pages) rid_.slot_no with
    | Except.error e => Except.error e
    | Except.ok (some rid) => Except.ok rid
    | Except.ok none => Except.ok { rid_ with page_no := INVALID_PAGE_ID }

/-- `RmScan::is_end`. -/
def is_end (rid_ : Rid) : Bool := rid_.page_no == INVALID_PAGE_ID

/-- The loop `while (!scan.is_end()) { visit scan.rid(); scan.next(); }` of
a caller: the Rids visited; `fuel` bounds the number of rounds. -/
def drive (fh : RmFileHandle) : Nat → Rid → Except DbError (List Rid)
  | 0, _ => Except.error DbError.Exit
  | fuel + 1, rid_ =>
    if is_end rid_ then Except.ok []
    else
      match next fh rid_ with
      | Except.error e => Except.error e
      | Except.ok rid1 =>
        match drive fh fuel rid1 with
        | Except.error e => Except.error e
        | Except.ok l => Except.ok (rid_ :: l)

/-- A scan from construction to the end: the Rids it visits, in order. -/
def run (fh : RmFileHandle) : Except DbError (List Rid) :=
  match init fh with
  | Except.error e => Except.error e
  | Except.ok rid0 =>
    drive fh (fh.file_hdr_.num_pages * fh.file_hdr_.num_records_per_page + 1) rid0

end RmScan

/-- The occupied slots of a page, lowest first. -/
def RmPage.setSlots (p : RmPage) (n : Nat) : List Nat :=
  (List.range n).filter (fun s => p.bitmap.getD s false)

/-- The Rids of the occupied slots of one page, lowest slot first; nothing
for a page that the file lacks. -/
def RmFileHandle.pageRids (fh : RmFileHandle) (pn : Int) : List Rid :=
  match fh.fetch_page_handle pn with
  | Except.ok p => (p.setSlots fh.file_hdr_.num_records_per_page).map
      (fun (s : Nat) => (⟨pn, (s : Int)⟩ : Rid))
  | Except.error _ => []

/-- The Rids `(p, s)` with `1 <= p < num_pages` whose bitmap bit is set, by
page number and then by slot number. -/
def RmFileHandle.occupiedRids (fh : RmFileHandle) : List Rid :=
  (pageRange 1 fh.file_hdr_.num_pages).flatMap fh.pageRids

/-- The order of Rids: by page number, then by slot number. -/
def Rid.lt (a b : Rid) : Prop :=
  a.page_no < b.page_no ∨ (a.page_no = b.page_no ∧ a.slot_no < b.slot_no)

instance Rid.decLt (a b : Rid) : Decidable (Rid.lt a b) := by
  unfold Rid.lt
  exact inferInstance

/-- An example heap file: records of 4 bytes, two slots per page, and the
row `[2,0,0,0]` at rid (1,0). -/
def exampleFile : RmFileHandle :=
  ⟨3, ⟨4, 2, 2⟩,
    [⟨INVALID_LSN, 0, [false, false], [[0, 0, 0, 0], [0, 0, 0, 0]]⟩,
     ⟨INVALID_LSN, 1, [true, false], [[2, 0, 0, 0], [0, 0, 0, 0]]⟩], [1]⟩

/-- An example context: transaction 1 after its BEGIN record, no locks. -/
def exampleContext : Context :=
  ⟨[], ⟨1, 0, [{ BeginLogRecord 1 with lsn_ := 0 }], 20, 4096, []⟩,
    ⟨1, TransactionState.GROWING, [], []⟩⟩

/-! ## The rebuilding of the indexes after undo (`system/sm_manager.cpp`,
`recovery/log_recovery.cpp`) -/

/-- `ihs_.erase(index_name)`. -/
def mapErase {α : Type} (m : List (String × α)) (name : String) : List (String × α) :=
  m.filter (fun e => decide (e.1 ≠ name))

namespace SmManager

/-- `tab.is_index(col_names)`: the table has an index on the columns, which
the index name stands for. -/
def is_index (sm : SmManager) (tab_name : String) (index_name : String) : Bool :=
  match mapFind sm.tab_indexes tab_name with
  | some l => l.any (fun m => decide (m.index_name = index_name))
  | none => false

/-- `SmManager::drop_index(tab_name, cols, context)`: nothing when the table
has no such index; else the handle `ihs_.at(index_name)` is closed and
erased and the index leaves the list of the table.  The index file and its
pages in the buffer pool, which the index handles of this model do not
have, are left out: at recovery no index page is pinned, so the assertion
on `unpin_page` in the loop over the pages holds. -/
def drop_index (sm : SmManager) (tab_name : String) (im : IndexMeta) : Except DbError SmManager :=
  if !sm.is_index tab_name im.index_name then Except.ok sm
  else
    match mapFind sm.ihs_ im.index_name with
    | none => Except.error DbError.TableNotFound
    | some _ =>
      match mapFind sm.tab_indexes tab_name with
      | none => Except.error DbError.TableNotFound
      | some l =>
        Except.ok { sm with
          ihs_ := mapErase sm.ihs_ im.index_name,
          tab_indexes := mapStore sm.tab_indexes tab_name
            (l.eraseP (fun m => decide (m.index_name = im.index_name))) }

/-- The `for` loop of `create_index` over an `RmScan` of the heap file:
`get_now_record()` asserts that the slot is occupied, the key is the
`memcpy` of the index columns, and an exception of `insert_entry` leaves the
function; `fuel` bounds the number of rounds. -/
def create_index_loop (fh : RmFileHandle) (im : IndexMeta) :
    Nat → Rid → IxIndexHandle → Except DbError IxIndexHandle
  | 0, _, _ => Except.error DbError.Exit
  | fuel + 1, rid_, ih =>
    if RmScan.is_end rid_ then Except.ok ih
    else
      match fh.fetch_page_handle rid_.page_no with
      | Except.error e => Except.error e
      | Except.ok p =>
        if !p.is_set rid_.slot_no then Except.error DbError.AssertionFailed
        else
          match IxIndexHandle.insert_entry (indexKey im (p.get_slot rid_.slot_no)) rid_ ih with
          | (Except.error e, _) => Except.error (DbError.Index e)
          | (Except.ok _, ih1) =>
            match RmScan.next fh rid_ with
            | Except.error e => Except.error e
            | Except.ok rid1 => create_index_loop fh im fuel rid1 ih1

/-- `SmManager::create_index(tab_name, col_names, context)`: nothing when
the table has the index; else a new index file is created and opened, every
record of the heap file is entered with its rid, and the handle and the
index are added to `ihs_` and to the list of the table.  Modelled from the
spec: the new file of `ix_manager_->create_index` (`ix_manager.h` is not
among the sources) is the empty tree, whose order is derived from the page
size and the key length and is passed here as `order`. -/
def create_index (sm : SmManager) (tab_name : String) (im : IndexMeta) (order : Nat) :
    Except DbError SmManager :=
  match mapFind sm.tab_indexes tab_name with
  | none => Except.error DbError.TableNotFound
  | some l =>
    if sm.is_index tab_name im.index_name then Except.ok sm
    else
      match sm.file tab_name with
      | Except.error e => Except.error e
      | Except.ok fh =>
        match RmScan.init fh with
        | Except.error e => Except.error e
        | Except.ok rid0 =>
          match create_index_loop fh im
              (fh.file_hdr_.num_pages * fh.file_hdr_.num_records_per_page + 1) rid0
              (IxIndexHandle.empty order) with
          | Except.error e => Except.error e
          | Except.ok ih =>
            if (mapFind sm.ihs_ im.index_name).isSome then Except.error DbError.AssertionFailed
            else
              Except.ok { sm with
                ihs_ := sm.ihs_ ++ [(im.index_name, ih)],
                tab_indexes := mapStore sm.tab_indexes tab_name (l ++ [im]) }

end SmManager

namespace RecoveryManager

/-- The loop of `undo` over the copy `tmp_indexes` of the indexes of one
table: `drop_index`, then `create_index` on the same columns, for which the
new index file has the order of the dropped one. -/
def rebuild_table (tab_name : String) : List IndexMeta → SmManager → Except DbError SmManager
  | [], sm => Except.ok sm
  | im :: rest, sm =>
    match mapFind sm.ihs_ im.index_name with
    | none => Except.error DbError.TableNotFound
    | some ih =>
      match sm.drop_index tab_name im with
      | Except.error e => Except.error e
      | Except.ok sm1 =>
        match sm1.create_index tab_name im ih.file_hdr_.btree_order_ with
        | Except.error e => Except.error e
        | Except.ok sm2 => rebuild_table tab_name rest sm2

/-- The loop of `undo` over the tables of `db_.tabs_`. -/
def rebuild_loop : List String → SmManager → Except DbError SmManager
  | [], sm => Except.ok sm
  | tab_name :: rest, sm =>
    match mapFind sm.tab_indexes tab_name with
    | none => rebuild_loop rest sm
    | some tmp_indexes =>
      match rebuild_table tab_name tmp_indexes sm with
      | Except.error e => Except.error e
      | Except.ok sm1 => rebuild_loop rest sm1

/-- The last loop of `undo`: every index of every table is dropped and
created again from the heap file. -/
def rebuild_indexes (sm : SmManager) : Except DbError SmManager :=
  rebuild_loop (sm.tab_indexes.map Prod.fst) sm

/-- `undo`: the records are undone from the last to the first, then the
indexes are rebuilt. -/
def undo (read_log_records : List LogRecord) (st : RecoveryState) : Except DbError RecoveryState :=
  match undo_loop read_log_records.reverse st with
  | Except.error e => Except.error e
  | Except.ok st1 =>
    match rebuild_indexes st1.sm with
    | Except.error e => Except.error e
    | Except.ok sm1 => Except.ok { st1 with sm := sm1 }

/-- Crash recovery as the server runs it: `analyze`, `redo`, `undo`. -/
def recover (sm : SmManager) (log : LogManager) : Except DbError RecoveryState :=
  match analyze log with
  | Except.error e => Except.error e
  | Except.ok (records, log1) =>
    match redo records ⟨sm, [], log1⟩ with
    | Except.error e => Except.error e
    | Except.ok st1 => undo records st1

end RecoveryManager

/-! ## LRU replacer (`replacer/lru_replacer.cpp`) -/

/-- The replacer: `LRUlist_` with its front at the head of the list, and
the keys of `LRUhash_`.  The iterator that `LRUhash_` keeps for a frame
points at the list node holding that frame id, so erasing through it is
erasing the frame id from the list. -/
structure LRUReplacer where
  LRUlist_ : List Int
  LRUhash_ : List Int
  max_size_ : Nat
deriving DecidableEq, Repr

namespace LRUReplacer

/-- `LRUReplacer::LRUReplacer(num_pages)`. -/
def create (num_pages : Nat) : LRUReplacer := ⟨[], [], num_pages⟩

/-- `LRUReplacer::victim`: `none` is the return value false. -/
def victim (r : LRUReplacer) : Option Int × LRUReplacer :=
  match r.LRUlist_.getLast? with
  | none => (none, r)
  | some frame_id =>
    (some frame_id,
      { r with LRUlist_ := r.LRUlist_.dropLast,
               LRUhash_ := r.LRUhash_.filter (fun f => f ≠ frame_id) })

/-- `LRUReplacer::pin`. -/
def pin (r : LRUReplacer) (frame_id : Int) : LRUReplacer :=
  if frame_id ∈ r.LRUhash_ then
    if r.LRUlist_.isEmpty then r
    else
      { r with LRUlist_ := r.LRUlist_.erase frame_id,
               LRUhash_ := r.LRUhash_.filter (fun f => f ≠ frame_id) }
  else r

/-- `LRUReplacer::unpin`. -/
def unpin (r : LRUReplacer) (frame_id : Int) : LRUReplacer :=
  if frame_id ∈ r.LRUhash_ then r
  else { r with LRUlist_ := frame_id :: r.LRUlist_, LRUhash_ := frame_id :: r.LRUhash_ }

end LRUReplacer

/-- A call on the replacer. -/
inductive ReplacerCall where
  | pin (frame_id : Int)
  | unpin (frame_id : Int)
  | victim
deriving DecidableEq, Repr

/-- Run one call on the replacer. -/
def ReplacerCall.run (c : ReplacerCall) (r : LRUReplacer) : LRUReplacer :=
  match c with
  | ReplacerCall.pin f => r.pin f
  | ReplacerCall.unpin f => r.unpin f
  | ReplacerCall.victim => r.victim.2

/-- Run a sequence of calls on the replacer. -/
def runReplacerCalls : List ReplacerCall → LRUReplacer → LRUReplacer
  | [], r => r
  | c :: rest, r => runReplacerCalls rest (c.run r)

/-- The entry with the least entry time among the held frames. -/
def oldestHeld : List (Int × Nat) → Option (Int × Nat)
  | [] => none
  | e :: rest =>
    match oldestHeld rest with
    | none => some e
    | some m => if e.2 ≤ m.2 then some e else some m

/-- The held frames as the specification words them, each with the time of
its entry.  `now` is the number of calls made so far: an unpin of a frame
that is not held lets it enter at time `now`, a pin removes the frame, and
a victim call removes the held frame with the least entry time. -/
def heldStep (held : List (Int × Nat)) (now : Nat) : ReplacerCall → List (Int × Nat)
  | ReplacerCall.unpin f =>
    if held.any (fun e => decide (e.1 = f)) then held else (f, now) :: held
  | ReplacerCall.pin f => held.filter (fun e => decide (e.1 ≠ f))
  | ReplacerCall.victim =>
    match oldestHeld held with
    | none => held
    | some m => held.filter (fun e => decide (e.1 ≠ m.1))

/-- The held frames after a sequence of calls that starts at time `now`. -/
def heldAfter : List ReplacerCall → Nat → List (Int × Nat) → List (Int × Nat)
  | [], _, held => held
  | c :: rest, now, held => heldAfter rest (now + 1) (heldStep held now c)

/-! ## Buffer pool (`storage/buffer_pool_manager.cpp`) -/

/-- Modelled from the spec: `PageId` of the missing `page.h`, a file
descriptor and a page number. -/
structure PageId where
  fd : Int
  page_no : Int
deriving DecidableEq, Repr

/-- Modelled from the spec: `PAGE_SIZE` of the missing `config.h`. -/
def PAGE_SIZE : Nat := 4096

/-- Modelled from the spec: a frame, `Page` of the missing `page.h`: the
page id, the data bytes, the dirty flag, the pin count and the page LSN
(which the source keeps inside the data bytes; it is a field here). -/
structure Page where
  id_ : PageId
  data_ : List Nat
  is_dirty_ : Bool
  pin_count_ : Int
  page_lsn : Int
deriving DecidableEq, Repr

/-- A frame as the constructor of the pool leaves it. -/
def Page.fresh : Page := ⟨⟨-1, INVALID_PAGE_ID⟩, List.replicate PAGE_SIZE 0, false, 0, 0⟩

/-- One `write_page` of the disk manager as the model observes it: what was
written where, with the page LSN of the frame and the `persist_lsn_` of the
log manager at the moment of the write. -/
structure WriteEvent where
  id : PageId
  data : List Nat
  page_lsn : Int
  persist_lsn : Int
deriving DecidableEq, Repr

/-- Modelled from the spec: the disk manager (`disk_manager.h` is not among
the sources): the bytes of the pages on disk, the next page number of every
file, and the writes made so far. -/
structure DiskManager where
  pages : List (PageId × List Nat)
  fd2pageno : List (Int × Int)
  writes : List WriteEvent
deriving DecidableEq, Repr

namespace DiskManager

/-- Modelled from the spec: `write_page`. -/
def write_page (d : DiskManager) (id : PageId) (data : List Nat) (page_lsn persist_lsn : Int) :
    DiskManager :=
  { d with pages := (d.pages.filter (fun e => decide (e.1 ≠ id))) ++ [(id, data)],
           writes := d.writes ++ [⟨id, data, page_lsn, persist_lsn⟩] }

/-- Modelled from the spec: `read_page`; a page never written reads as
zero bytes. -/
def read_page (d : DiskManager) (id : PageId) : List Nat :=
  match d.pages.find? (fun e => decide (e.1 = id)) with
  | some e => e.2
  | none => List.replicate PAGE_SIZE 0

/-- Modelled from the spec: `allocate_page`, the next page number of the
file. -/
def allocate_page (d : DiskManager) (fd : Int) : Int × DiskManager :=
  match d.fd2pageno.find? (fun e => decide (e.1 = fd)) with
  | some e =>
    (e.2, { d with fd2pageno :=
      (d.fd2pageno.filter (fun x => decide (x.1 ≠ fd))) ++ [(fd, e.2 + 1)] })
  | none => (0, { d with fd2pageno := d.fd2pageno ++ [(fd, 1)] })

end DiskManager

/-- The buffer pool.  `ENABLE_LSN` says whether the build defines the macro
of that name: without it an `assert(0)` stands in front of every flush of
the log that a page write asks for. -/
structure BufferPoolManager where
  pool_size_ : Nat
  pages_ : List Page
  page_table_ : List (PageId × Int)
  free_list_ : List Int
  replacer_ : LRUReplacer
  disk_manager_ : DiskManager
  log_manager_ : LogManager
  ENABLE_LSN : Bool
deriving DecidableEq, Repr

namespace BufferPoolManager

/-- `BufferPoolManager(pool_size, disk_manager, log_manager)`: every frame
is in the free list. -/
def create (pool_size : Nat) (disk_manager : DiskManager) (log_manager : LogManager)
    (enable_lsn : Bool) : BufferPoolManager :=
  ⟨pool_size, List.replicate pool_size Page.fresh, [],
    (List.range pool_size).map (fun (i : Nat) => (i : Int)),
    LRUReplacer.create pool_size, disk_manager, log_manager, enable_lsn⟩

/-- `pages_[frame_id]`. -/
def frame (bp : BufferPoolManager) (frame_id : Int) : Page :=
  if frame_id < 0 then Page.fresh else bp.pages_.getD frame_id.toNat Page.fresh

/-- Write through the reference `pages_[frame_id]`. -/
def setFrame (bp : BufferPoolManager) (frame_id : Int) (p : Page) : BufferPoolManager :=
  if frame_id < 0 then bp else { bp with pages_ := bp.pages_.set frame_id.toNat p }

/-- `page_table_.find(page_id)`. -/
def lookup (bp : BufferPoolManager) (page_id : PageId) : Option Int :=
  (bp.page_table_.find? (fun e => decide (e.1 = page_id))).map (fun e => e.2)

/-- `page_table_[page_id] = frame_id`. -/
def tableStore (t : List (PageId × Int)) (page_id : PageId) (frame_id : Int) :
    List (PageId × Int) :=
  (t.filter (fun e => decide (e.1 ≠ page_id))) ++ [(page_id, frame_id)]

/-- `page_table_.erase(page_id)`. -/
def tableErase (t : List (PageId × Int)) (page_id : PageId) : List (PageId × Int) :=
  t.filter (fun e => decide (e.1 ≠ page_id))

/-- `find_victim_page`: `none` is the return value false. -/
def find_victim_page (bp : BufferPoolManager) : Option Int × BufferPoolManager :=
  match bp.free_list_ with
  | frame_id :: rest => (some frame_id, { bp with free_list_ := rest })
  | [] =>
    let (v, r) := bp.replacer_.victim
    (v, { bp with replacer_ := r })

/-- The lines that `update_page`, `flush_page` and `flush_all_pages` share:
the log is flushed when the page LSN is beyond `persist_lsn_` (in a build
without `ENABLE_LSN` the assertion in front of the flush fails), then the
frame is written to disk under `id`. -/
def write_back (bp : BufferPoolManager) (page : Page) (id : PageId) :
    Except DbError BufferPoolManager :=
  if page.page_lsn > bp.log_manager_.persist_lsn_ then
    if bp.ENABLE_LSN then
      let log := bp.log_manager_.flush_log_to_disk
      let disk := bp.disk_manager_.write_page id page.data_ page.page_lsn log.persist_lsn_
      Except.ok { bp with log_manager_ := log, disk_manager_ := disk }
    else Except.error DbError.AssertionFailed
  else
    let disk :=
      bp.disk_manager_.write_page id page.data_ page.page_lsn bp.log_manager_.persist_lsn_
    Except.ok { bp with disk_manager_ := disk }

/-- `update_page(pages_ + frame_id, new_page_id, frame_id)`. -/
def update_page (bp : BufferPoolManager) (frame_id : Int) (new_page_id : PageId) :
    Except DbError BufferPoolManager :=
  let page := bp.frame frame_id
  match (if page.is_dirty_ then bp.write_back page page.id_ else Except.ok bp) with
  | Except.error e => Except.error e
  | Except.ok bp1 =>
    if new_page_id.page_no = INVALID_PAGE_ID then Except.error DbError.AssertionFailed
    else
      let table := tableErase (tableStore bp1.page_table_ new_page_id frame_id) page.id_
      let bp2 := { bp1 with page_table_ := table }
      Except.ok (bp2.setFrame frame_id
        { page with id_ := new_page_id, data_ := List.replicate PAGE_SIZE 0, is_dirty_ := false,
                    page_lsn := INVALID_LSN })

/-- `fetch_page`: the frame that holds the page, `none` for `nullptr`. -/
def fetch_page (bp : BufferPoolManager) (page_id : PageId) :
    Except DbError (Option Int × BufferPoolManager) :=
  match bp.lookup page_id with
  | none =>
    match bp.find_victim_page with
    | (none, bp1) => Except.ok (none, bp1)
    | (some frame_id, bp1) =>
      match bp1.update_page frame_id page_id with
      | Except.error e => Except.error e
      | Except.ok bp2 =>
        let fpage := bp2.frame frame_id
        let bp3 := bp2.setFrame frame_id
          { fpage with data_ := bp2.disk_manager_.read_page page_id, pin_count_ := 1 }
        Except.ok (some frame_id, { bp3 with replacer_ := bp3.replacer_.pin frame_id })
  | some frame_id =>
    let p := bp.frame frame_id
    let bp1 := bp.setFrame frame_id { p with pin_count_ := p.pin_count_ + 1 }
    Except.ok (some frame_id, { bp1 with replacer_ := bp1.replacer_.pin frame_id })

/-- `unpin_page`. -/
def unpin_page (bp : BufferPoolManager) (page_id : PageId) (is_dirty : Bool) :
    Except DbError (Bool × BufferPoolManager) :=
  match bp.lookup page_id with
  | some frame_id =>
    let up_page := bp.frame frame_id
    if up_page.pin_count_ = 0 then Except.ok (false, bp)
    else if up_page.pin_count_ > 0 then
      let p1 := { up_page with pin_count_ := up_page.pin_count_ - 1 }
      let bp1 := bp.setFrame frame_id p1
      let bp2 := if p1.pin_count_ = 0 then
        { bp1 with replacer_ := bp1.replacer_.unpin frame_id } else bp1
      let bp3 := if is_dirty then bp2.setFrame frame_id { p1 with is_dirty_ := is_dirty } else bp2
      Except.ok (true, bp3)
    else Except.error DbError.AssertionFailed
  | none => Except.ok (false, bp)

/-- `flush_page`. -/
def flush_page (bp : BufferPoolManager) (page_id : PageId) :
    Except DbError (Bool × BufferPoolManager) :=
  match bp.lookup page_id with
  | none => Except.ok (false, bp)
  | some frame_id =>
    if page_id.page_no = INVALID_PAGE_ID then Except.error DbError.AssertionFailed
    else
      match bp.write_back (bp.frame frame_id) page_id with
      | Except.error e => Except.error e
      | Except.ok bp1 =>
        Except.ok (true, bp1.setFrame frame_id { bp1.frame frame_id with is_dirty_ := false })

/-- `new_page` for the file `fd`: the id of the new page and its frame,
`none` for `nullptr`. -/
def new_page (bp : BufferPoolManager) (fd : Int) :
    Except DbError (Option (PageId × Int) × BufferPoolManager) :=
  match bp.find_victim_page with
  | (none, bp1) => Except.ok (none, bp1)
  | (some frame_id, bp1) =>
    let (page_no, disk1) := bp1.disk_manager_.allocate_page fd
    let bp2 := { bp1 with disk_manager_ := disk1 }
    match bp2.update_page frame_id ⟨fd, page_no⟩ with
    | Except.error e => Except.error e
    | Except.ok bp3 =>
      let bp4 := bp3.setFrame frame_id
        { bp3.frame frame_id with is_dirty_ := true, pin_count_ := 1 }
      Except.ok (some (⟨fd, page_no⟩, frame_id),
        { bp4 with replacer_ := bp4.replacer_.pin frame_id })

/-- `delete_page`.  Modelled from the spec: `reset_page_id` of the missing
`page.h` sets the page number of the frame to `INVALID_PAGE_ID`, and
`deallocate_page` of the disk manager does nothing. -/
def delete_page (bp : BufferPoolManager) (page_id : PageId) :
    Except DbError (Bool × BufferPoolManager) :=
  match bp.lookup page_id with
  | none => Except.ok (true, bp)
  | some frame_id =>
    let p := bp.frame frame_id
    if p.pin_count_ > 0 then Except.ok (false, bp)
    else if p.pin_count_ ≠ 0 then Except.error DbError.AssertionFailed
    else
      let bp1 := bp.setFrame frame_id
        { p with page_lsn := INVALID_LSN, data_ := List.replicate PAGE_SIZE 0,
                 id_ := { p.id_ with page_no := INVALID_PAGE_ID }, is_dirty_ := false }
      Except.ok (true,
        { bp1 with page_table_ := tableErase bp1.page_table_ page_id,
                   replacer_ := bp1.replacer_.pin frame_id,
                   free_list_ := bp1.free_list_ ++ [frame_id] })

/-- The body of the loop of `flush_all_pages` for frame `i`. -/
def flush_frame (fd : Int) (bp : BufferPoolManager) (i : Nat) :
    Except DbError BufferPoolManager :=
  let page := bp.frame i
  if page.id_.fd = fd ∧ page.id_.page_no ≠ INVALID_PAGE_ID then
    match bp.write_back page page.id_ with
    | Except.error e => Except.error e
    | Except.ok bp1 => Except.ok (bp1.setFrame i { bp1.frame i with is_dirty_ := false })
  else Except.ok bp

/-- The loop `for (i = 0; i < pool_size_; ++i)` of `flush_all_pages` over
the frames still to visit. -/
def flush_loop (fd : Int) : List Nat → BufferPoolManager → Except DbError BufferPoolManager
  | [], bp => Except.ok bp
  | i :: rest, bp =>
    match flush_frame fd bp i with
    | Except.error e => Except.error e
    | Except.ok bp1 => flush_loop fd rest bp1

/-- `flush_all_pages`. -/
def flush_all_pages (bp : BufferPoolManager) (fd : Int) : Except DbError BufferPoolManager :=
  flush_loop fd (List.range bp.pool_size_) bp

end BufferPoolManager

/-- A call on the buffer pool. -/
inductive BufferPoolCall where
  | fetch_page (page_id : PageId)
  | new_page (fd : Int)
  | unpin_page (page_id : PageId) (is_dirty : Bool)
  | flush_page (page_id : PageId)
  | flush_all_pages (fd : Int)
  | delete_page (page_id : PageId)
deriving DecidableEq, Repr

/-- Run one call on the buffer pool and keep the pool. -/
def BufferPoolCall.run (c : BufferPoolCall) (bp : BufferPoolManager) :
    Except DbError BufferPoolManager :=
  match c with
  | BufferPoolCall.fetch_page id => (bp.fetch_page id).map (fun r => r.2)
  | BufferPoolCall.new_page fd => (bp.new_page fd).map (fun r => r.2)
  | BufferPoolCall.unpin_page id d => (bp.unpin_page id d).map (fun r => r.2)
  | BufferPoolCall.flush_page id => (bp.flush_page id).map (fun r => r.2)
  | BufferPoolCall.flush_all_pages fd => bp.flush_all_pages fd
  | BufferPoolCall.delete_page id => (bp.delete_page id).map (fun r => r.2)

/-- The pools that calls make of the initial pool.  Between two calls a
holder of a pin may write the data, the dirty flag (`mark_dirty`) and the
page LSN of a frame. -/
inductive PoolReachable : BufferPoolManager → Prop where
  | init (pool_size : Nat) (disk_manager : DiskManager) (log_manager : LogManager)
      (enable_lsn : Bool) :
      PoolReachable (BufferPoolManager.create pool_size disk_manager log_manager enable_lsn)
  | call (bp bp1 : BufferPoolManager) (c : BufferPoolCall) :
      PoolReachable bp → c.run bp = Except.ok bp1 → PoolReachable bp1
  | client (bp : BufferPoolManager) (frame_id : Int) (data : List Nat) (dirty : Bool)
      (lsn : Int) :
      PoolReachable bp →
      PoolReachable (bp.setFrame frame_id
        { bp.frame frame_id with data_ := data, is_dirty_ := dirty, page_lsn := lsn })
  | log (bp : BufferPoolManager) (log_manager : LogManager) :
      PoolReachable bp → PoolReachable { bp with log_manager_ := log_manager }

/-- The frame is in the replacer. -/
def BufferPoolManager.inReplacer (bp : BufferPoolManager) (f : Int) : Prop :=
  f ∈ bp.replacer_.LRUlist_

/-- The frame is in the free list. -/
def BufferPoolManager.inFreeList (bp : BufferPoolManager) (f : Int) : Prop :=
  f ∈ bp.free_list_

/-- The invariant of the pool: frame ids are below `pool_size_`; a page
table entry names the frame that holds the page; a frame of the free list
holds no page and is clean; the replacer and the free list hold no frame
twice and share no frame; and the frames with pin count 0 are those of the
replacer and the free list. -/
def PoolInv (bp : BufferPoolManager) : Prop :=
  bp.pages_.length = bp.pool_size_ ∧
  (∀ id f, bp.lookup id = some f →
    0 ≤ f ∧ f < bp.pool_size_ ∧ (bp.frame f).id_ = id ∧ id.page_no ≠ INVALID_PAGE_ID) ∧
  (∀ f ∈ bp.free_list_, 0 ≤ f ∧ f < bp.pool_size_ ∧
    (bp.frame f).id_.page_no = INVALID_PAGE_ID) ∧
  bp.free_list_.Nodup ∧
  bp.replacer_.LRUlist_.Nodup ∧ bp.replacer_.LRUhash_ = bp.replacer_.LRUlist_ ∧
  (∀ f ∈ bp.replacer_.LRUlist_, 0 ≤ f ∧ f < bp.pool_size_) ∧
  (∀ f : Int, 0 ≤ f → f < bp.pool_size_ →
    0 ≤ (bp.frame f).pin_count_ ∧
    ((bp.frame f).pin_count_ = 0 ↔ (bp.inReplacer f ∨ bp.inFreeList f))) ∧
  (∀ f, ¬ (bp.inReplacer f ∧ bp.inFreeList f))

/-- The replacer `r` holds the frames `held`, most recent entry first, and
every entry time is before `now`. -/
def LruRel (r : LRUReplacer) (held : List (Int × Nat)) (now : Nat) : Prop :=
  r.LRUlist_ = held.map Prod.fst ∧ r.LRUhash_ = r.LRUlist_ ∧ (held.map Prod.fst).Nodup ∧
  held.Pairwise (fun a b => b.2 < a.2) ∧ ∀ e ∈ held, e.2 < now

/-- Run a sequence of calls on the buffer pool; the first failed assertion
ends the run. -/
def runPoolCalls : List BufferPoolCall → BufferPoolManager →
    Except DbError BufferPoolManager
  | [], bp => Except.ok bp
  | c :: rest, bp =>
    match c.run bp with
    | Except.error e => Except.error e
    | Except.ok bp1 => runPoolCalls rest bp1

/-- The pool after a sequence of calls (the pool itself when the run
fails). -/
def poolAfter (cs : List BufferPoolCall) (bp : BufferPoolManager) : BufferPoolManager :=
  match runPoolCalls cs bp with
  | Except.ok bp1 => bp1
  | Except.error _ => bp

/-- A pool of two frames over an empty disk, with a log manager that has
issued the LSNs 0 to 4 and persisted those up to 1. -/
def examplePool : BufferPoolManager :=
  BufferPoolManager.create 2 ⟨[], [], []⟩ ⟨5, 1, [], 0, 4096, []⟩ true

/-- The example pool after page 0 of file 3 was fetched. -/
def examplePoolOne : BufferPoolManager :=
  poolAfter [BufferPoolCall.fetch_page ⟨3, 0⟩] examplePool

/-- The example pool with both frames pinned: pages 0 and 1 of file 3 were
fetched. -/
def examplePoolFull : BufferPoolManager :=
  poolAfter [BufferPoolCall.fetch_page ⟨3, 0⟩, BufferPoolCall.fetch_page ⟨3, 1⟩] examplePool

/-- The example pool after page 0 of file 3 was fetched and its holder has
written the frame: new bytes, dirty, page LSN 3. -/
def examplePoolDirty : BufferPoolManager :=
  examplePoolOne.setFrame 0
    { examplePoolOne.frame 0 with data_ := List.replicate PAGE_SIZE 7, is_dirty_ := true,
                                  page_lsn := 3 }

/-- The writes that a step from `bp` to `bp1` added to the disk. -/
def newWrites (bp bp1 : BufferPoolManager) : List WriteEvent :=
  bp1.disk_manager_.writes.drop bp.disk_manager_.writes.length

/-- The step from `bp` to `bp1` added writes to the disk, each of the bytes
of a frame of `bp` and each made when `persist_lsn_` had reached the page
LSN of that frame. -/
def WalWrites (bp bp1 : BufferPoolManager) : Prop :=
  ∃ ws, bp1.disk_manager_.writes = bp.disk_manager_.writes ++ ws ∧
    ∀ w ∈ ws, w.page_lsn ≤ w.persist_lsn ∧
      ∃ f : Int, 0 ≤ f ∧ f < bp.pool_size_ ∧ w.page_lsn = (bp.frame f).page_lsn ∧
        w.data = (bp.frame f).data_

/-- The step from `bp` to `bp1` kept the size of the pool, the LSN counter
and the bytes and the page LSN of every frame. -/
def SameBytes (bp bp1 : BufferPoolManager) : Prop :=
  bp1.pool_size_ = bp.pool_size_ ∧ bp1.pages_.length = bp.pages_.length ∧
  bp1.ENABLE_LSN = bp.ENABLE_LSN ∧
  bp1.log_manager_.global_lsn_ = bp.log_manager_.global_lsn_ ∧
  ∀ g, (bp1.frame g).page_lsn = (bp.frame g).page_lsn ∧ (bp1.frame g).data_ = (bp.frame g).data_

/-! ## Byte layout of the log records (`recovery/log_manager.h`) and
`parseLog` (`recovery/log_recovery.cpp`) -/

/-- `memcpy(dest + off, src, src.size())` on a buffer that is long enough. -/
def memcpy (dest : List Nat) (off : Nat) (src : List Nat) : List Nat :=
  dest.take off ++ src ++ dest.drop (off + src.length)

/-- The four bytes of a 32-bit integer in memory, least significant
first. -/
def encodeInt32 (x : Int) : List Nat :=
  let u : Nat := (x % 4294967296).toNat
  [u % 256, u / 256 % 256, u / 65536 % 256, u / 16777216 % 256]

/-- Four bytes read as a `uint32_t`. -/
def decodeUInt32 (bytes : List Nat) : Nat :=
  bytes.getD 0 0 + 256 * bytes.getD 1 0 + 65536 * bytes.getD 2 0 + 16777216 * bytes.getD 3 0

/-- The eight bytes of a `size_t` in memory, least significant first. -/
def encodeSize (n : Nat) : List Nat :=
  (List.range 8).map (fun (i : Nat) => n / 256 ^ i % 256)

/-- Eight bytes read as a `size_t`. -/
def decodeSize (bytes : List Nat) : Nat :=
  ((List.range 8).map (fun (i : Nat) => bytes.getD i 0 * 256 ^ i)).sum

/-- The value of a `LogType` enumerator. -/
def LogType.toInt : LogType → Int
  | LogType.UPDATE => 0
  | LogType.INSERT => 1
  | LogType.DELETE => 2
  | LogType.begin => 3
  | LogType.commit => 4
  | LogType.ABORT => 5
  | LogType.IX_INSERT => 6
  | LogType.IX_DELETE => 7

/-- The enumerator with a given value, if there is one. -/
def LogType.ofInt (x : Int) : Option LogType :=
  if x = 0 then some LogType.UPDATE
  else if x = 1 then some LogType.INSERT
  else if x = 2 then some LogType.DELETE
  else if x = 3 then some LogType.begin
  else if x = 4 then some LogType.commit
  else if x = 5 then some LogType.ABORT
  else if x = 6 then some LogType.IX_INSERT
  else if x = 7 then some LogType.IX_DELETE
  else none

/-- Modelled from the spec: the offsets of the missing `log_defs.h`; the
header is type, lsn, total length, transaction id and previous lsn, four
bytes each. -/
def OFFSET_LOG_TYPE : Nat := 0

/-- Modelled from the spec: see `OFFSET_LOG_TYPE`. -/
def OFFSET_LSN : Nat := 4

/-- Modelled from the spec: see `OFFSET_LOG_TYPE`. -/
def OFFSET_LOG_TOT_LEN : Nat := 8

/-- Modelled from the spec: see `OFFSET_LOG_TYPE`. -/
def OFFSET_LOG_TID : Nat := 12

/-- Modelled from the spec: see `OFFSET_LOG_TYPE`. -/
def OFFSET_PREV_LSN : Nat := 16

/-- Modelled from the spec: see `OFFSET_LOG_TYPE`. -/
def OFFSET_LOG_DATA : Nat := 20

/-- The bytes of a `Rid` in memory: `page_no`, then `slot_no`. -/
def encodeRid (rid : Rid) : List Nat := encodeInt32 rid.page_no ++ encodeInt32 rid.slot_no

/-- `*reinterpret_cast<const Rid*>(src)`. -/
def decodeRid (src : List Nat) : Rid := ⟨decodeInt32 src, decodeInt32 (src.drop 4)⟩

/-- The bytes of the table name: one byte per character. -/
def nameBytes (table_name : String) : List Nat := table_name.toList.map Char.toNat

/-- The table name made of `n` bytes of `src`. -/
def nameOfBytes (src : List Nat) (n : Nat) : String := String.mk ((src.take n).map Char.ofNat)

namespace LogRecord

/-- `LogRecord::serialize`: the header. -/
def serialize_header (r : LogRecord) (dest : List Nat) : List Nat :=
  let d1 := memcpy dest OFFSET_LOG_TYPE (encodeInt32 r.log_type_.toInt)
  let d2 := memcpy d1 OFFSET_LSN (encodeInt32 r.lsn_)
  let d3 := memcpy d2 OFFSET_LOG_TOT_LEN (encodeInt32 r.log_tot_len_)
  let d4 := memcpy d3 OFFSET_LOG_TID (encodeInt32 r.log_tid_)
  memcpy d4 OFFSET_PREV_LSN (encodeInt32 r.prev_lsn_)

/-- `InsertLogRecord::serialize` and `DeleteLogRecord::serialize` after the
header: size and bytes of the record image, the rid, size and bytes of the
table name. -/
def serialize_image (r : LogRecord) (dest : List Nat) : List Nat :=
  let offset := OFFSET_LOG_DATA
  let d1 := memcpy dest offset (encodeInt32 r.value.length)
  let offset := offset + 4
  let d2 := memcpy d1 offset r.value
  let offset := offset + r.value.length
  let d3 := memcpy d2 offset (encodeRid r.rid_)
  let offset := offset + 8
  let d4 := memcpy d3 offset (encodeSize r.table_name_.length)
  let offset := offset + 8
  memcpy d4 offset (nameBytes r.table_name_)

/-- `UpdateLogRecord::serialize` after the header: the old image, the new
image, the rid and the table name. -/
def serialize_images (r : LogRecord) (dest : List Nat) : List Nat :=
  let offset := OFFSET_LOG_DATA
  let d1 := memcpy dest offset (encodeInt32 r.old_value.length)
  let offset := offset + 4
  let d2 := memcpy d1 offset r.old_value
  let offset := offset + r.old_value.length
  let d3 := memcpy d2 offset (encodeInt32 r.value.length)
  let offset := offset + 4
  let d4 := memcpy d3 offset r.value
  let offset := offset + r.value.length
  let d5 := memcpy d4 offset (encodeRid r.rid_)
  let offset := offset + 8
  let d6 := memcpy d5 offset (encodeSize r.table_name_.length)
  let offset := offset + 8
  memcpy d6 offset (nameBytes r.table_name_)

/-- The virtual `serialize(dest)` of the record classes. -/
def serialize (r : LogRecord) (dest : List Nat) : List Nat :=
  match r.log_type_ with
  | LogType.INSERT => r.serialize_image (r.serialize_header dest)
  | LogType.DELETE => r.serialize_image (r.serialize_header dest)
  | LogType.UPDATE => r.serialize_images (r.serialize_header dest)
  | _ => r.serialize_header dest

/-- The bytes that `serialize` writes into a buffer of `log_tot_len_`
bytes, as `add_log_to_buffer` reserves it. -/
def bytes (r : LogRecord) : List Nat :=
  r.serialize (List.replicate r.log_tot_len_ 0)

/-- `LogRecord::deserialize`: the header fields; the type is `none` when
the integer is the value of no enumerator. -/
def deserialize_header (src : List Nat) : Option LogType × Int × Nat × Int × Int :=
  (LogType.ofInt (decodeInt32 (src.drop OFFSET_LOG_TYPE)),
    decodeInt32 (src.drop OFFSET_LSN),
    decodeUInt32 (src.drop OFFSET_LOG_TOT_LEN),
    decodeInt32 (src.drop OFFSET_LOG_TID),
    decodeInt32 (src.drop OFFSET_PREV_LSN))

/-- Modelled from the spec: `RmRecord::Deserialize` of the missing
`rm_defs.h`: the size, then that many bytes. -/
def deserialize_value (src : List Nat) : List Nat :=
  (src.drop 4).take (decodeInt32 src).toNat

/-- `BeginLogRecord::deserialize`, `CommitLogRecord::deserialize` and
`AbortLogRecord::deserialize`. -/
def deserialize_plain (t : LogType) (src : List Nat) : LogRecord :=
  let h := deserialize_header src
  ⟨t, h.2.1, h.2.2.1, h.2.2.2.1, h.2.2.2.2, [], [], ⟨0, 0⟩, ""⟩

/-- `InsertLogRecord::deserialize` and `DeleteLogRecord::deserialize`. -/
def deserialize_image (t : LogType) (src : List Nat) : LogRecord :=
  let h := deserialize_header src
  let value := deserialize_value (src.drop OFFSET_LOG_DATA)
  let offset := OFFSET_LOG_DATA + value.length + 4
  let rid := decodeRid (src.drop offset)
  let offset := offset + 8
  let table_name_size := decodeSize (src.drop offset)
  let offset := offset + 8
  ⟨t, h.2.1, h.2.2.1, h.2.2.2.1, h.2.2.2.2, value, [], rid,
    nameOfBytes (src.drop offset) table_name_size⟩

/-- `UpdateLogRecord::deserialize`. -/
def deserialize_images (src : List Nat) : LogRecord :=
  let h := deserialize_header src
  let old_value := deserialize_value (src.drop OFFSET_LOG_DATA)
  let offset := OFFSET_LOG_DATA + old_value.length + 4
  let update_value := deserialize_value (src.drop offset)
  let offset := offset + (update_value.length + 4)
  let rid := decodeRid (src.drop offset)
  let offset := offset + 8
  let table_name_size := decodeSize (src.drop offset)
  let offset := offset + 8
  ⟨LogType.UPDATE, h.2.1, h.2.2.1, h.2.2.2.1, h.2.2.2.2, update_value, old_value, rid,
    nameOfBytes (src.drop offset) table_name_size⟩

/-- A record as one of the six constructors and the log manager make it:
the total length is the one the constructor computes, the fields that the
record class does not have are those of the value model, and every number
fits its C++ type. -/
def Encodable (r : LogRecord) : Prop :=
  (match r.log_type_ with
    | LogType.begin => r = { BeginLogRecord r.log_tid_ with lsn_ := r.lsn_,
                                                             prev_lsn_ := r.prev_lsn_ }
    | LogType.commit => r = { CommitLogRecord r.log_tid_ with lsn_ := r.lsn_,
                                                               prev_lsn_ := r.prev_lsn_ }
    | LogType.ABORT => r = { AbortLogRecord r.log_tid_ with lsn_ := r.lsn_,
                                                             prev_lsn_ := r.prev_lsn_ }
    | LogType.INSERT =>
      r = { InsertLogRecord r.log_tid_ r.value r.rid_ r.table_name_ with
            lsn_ := r.lsn_, prev_lsn_ := r.prev_lsn_ }
    | LogType.DELETE =>
      r = { DeleteLogRecord r.log_tid_ r.value r.rid_ r.table_name_ with
            lsn_ := r.lsn_, prev_lsn_ := r.prev_lsn_ }
    | LogType.UPDATE =>
      r = { UpdateLogRecord r.log_tid_ r.value r.old_value r.rid_ r.table_name_ with
            lsn_ := r.lsn_, prev_lsn_ := r.prev_lsn_ }
    | _ => False) ∧
  -2147483648 ≤ r.lsn_ ∧ r.lsn_ < 2147483648 ∧
  -2147483648 ≤ r.log_tid_ ∧ r.log_tid_ < 2147483648 ∧
  -2147483648 ≤ r.prev_lsn_ ∧ r.prev_lsn_ < 2147483648 ∧
  -2147483648 ≤ r.rid_.page_no ∧ r.rid_.page_no < 2147483648 ∧
  -2147483648 ≤ r.rid_.slot_no ∧ r.rid_.slot_no < 2147483648 ∧
  r.log_tot_len_ < 2147483648

/-- The common header as the specification words it: type, lsn, total
length, transaction id and previous lsn. -/
def header (r : LogRecord) : List Nat :=
  encodeInt32 r.log_type_.toInt ++ encodeInt32 r.lsn_ ++ encodeInt32 r.log_tot_len_ ++
    encodeInt32 r.log_tid_ ++ encodeInt32 r.prev_lsn_

/-- A length-prefixed record image. -/
def image (value : List Nat) : List Nat := encodeInt32 value.length ++ value

/-- The record layout as the specification words it: the header, then for
INSERT and DELETE the record image, the rid and the length-prefixed table
name, for UPDATE the before-image and the after-image in front of the rid
and the table name. -/
def layout (r : LogRecord) : List Nat :=
  match r.log_type_ with
  | LogType.INSERT =>
    r.header ++ image r.value ++ encodeRid r.rid_ ++
      (encodeSize r.table_name_.length ++ nameBytes r.table_name_)
  | LogType.DELETE =>
    r.header ++ image r.value ++ encodeRid r.rid_ ++
      (encodeSize r.table_name_.length ++ nameBytes r.table_name_)
  | LogType.UPDATE =>
    r.header ++ image r.old_value ++ image r.value ++ encodeRid r.rid_ ++
      (encodeSize r.table_name_.length ++ nameBytes r.table_name_)
  | _ => r.header

end LogRecord

/-- The log file that holds the records `rs`: the buffers of the records
one after the other. -/
def logFile (rs : List LogRecord) : List Nat := rs.flatMap (fun r => r.bytes)

namespace RecoveryManager

/-- The loop of `parseLog` over the bytes `buffer_` of a log file of
`file_size` bytes: `offset` is the position of the next record, `acc` is
`read_log_records`.  `exit(1)` is `DbError.Exit`; the fuel bounds the
number of rounds. -/
def parseLog_loop (buffer_ : List Nat) (file_size : Nat) :
    Nat → Nat → List LogRecord → Except DbError (List LogRecord)
  | 0, _, _ => Except.error DbError.Exit
  | fuel + 1, offset, acc =>
    if file_size = 0 then Except.ok acc
    else
      let src := buffer_.drop offset
      let new_log := LogRecord.deserialize_header src
      if new_log.2.2.1 = 0 then Except.error DbError.Exit
      else
        match new_log.1 with
        | some LogType.begin =>
          let rec_ := LogRecord.deserialize_plain LogType.begin src
          if offset + rec_.log_tot_len_ ≥ file_size then Except.ok (acc ++ [rec_])
          else parseLog_loop buffer_ file_size fuel (offset + rec_.log_tot_len_) (acc ++ [rec_])
        | some LogType.commit =>
          let rec_ := LogRecord.deserialize_plain LogType.commit src
          if offset + rec_.log_tot_len_ ≥ file_size then Except.ok (acc ++ [rec_])
          else parseLog_loop buffer_ file_size fuel (offset + rec_.log_tot_len_) (acc ++ [rec_])
        | some LogType.ABORT =>
          let rec_ := LogRecord.deserialize_plain LogType.ABORT src
          if offset + rec_.log_tot_len_ ≥ file_size then Except.ok (acc ++ [rec_])
          else parseLog_loop buffer_ file_size fuel (offset + rec_.log_tot_len_) (acc ++ [rec_])
        | some LogType.DELETE =>
          let rec_ := LogRecord.deserialize_image LogType.DELETE src
          if offset + rec_.log_tot_len_ ≥ file_size then Except.ok (acc ++ [rec_])
          else parseLog_loop buffer_ file_size fuel (offset + rec_.log_tot_len_) (acc ++ [rec_])
        | some LogType.INSERT =>
          let rec_ := LogRecord.deserialize_image LogType.INSERT src
          if offset + rec_.log_tot_len_ ≥ file_size then Except.ok (acc ++ [rec_])
          else parseLog_loop buffer_ file_size fuel (offset + rec_.log_tot_len_) (acc ++ [rec_])
        | some LogType.UPDATE =>
          let rec_ := LogRecord.deserialize_images src
          if offset + rec_.log_tot_len_ ≥ file_size then Except.ok (acc ++ [rec_])
          else parseLog_loop buffer_ file_size fuel (offset + rec_.log_tot_len_) (acc ++ [rec_])
        | _ => Except.error DbError.AssertionFailed

/-- `parseLog` on the bytes of the log file (`analyze` reads the whole
file into `buffer_`): the records read. -/
def parseLog (buffer_ : List Nat) : Except DbError (List LogRecord) :=
  parseLog_loop buffer_ buffer_.length (buffer_.length + 1) 0 []

end RecoveryManager

/-- A log file of three records: a BEGIN, an INSERT of four bytes into
table `t` and a COMMIT of transaction 1. -/
def exampleLogRecords : List LogRecord :=
  [{ BeginLogRecord 1 with lsn_ := 0 },
   { InsertLogRecord 1 [2, 0, 0, 0] ⟨1, 0⟩ "t" with lsn_ := 1, prev_lsn_ := 0 },
   { CommitLogRecord 1 with lsn_ := 2, prev_lsn_ := 1 }]

/-! ## Executors: columns, values and conditions (`defs.h`,
`common/common.h`, `system/sm_meta.h`, `execution/executor_abstract.h`) -/

/-- `ColType` of `defs.h`. -/
inductive ColType where
  | TYPE_INT
  | TYPE_FLOAT
  | TYPE_STRING
  | TYPE_DATETIME
  | TYPE_BIGINT
  | TYPE_UNUSE
deriving DecidableEq, Repr

/-- `AgreType` of `defs.h`. -/
inductive AgreType where
  | AGRE_TYPE_MAX
  | AGRE_TYPE_MIN
  | AGRE_TYPE_SUM
  | AGRE_TYPE_COUNT
  | AGRE_TYPE_COUNT_ALL
deriving DecidableEq, Repr

/-- `CompOp` of `common.h`. -/
inductive CompOp where
  | OP_EQ
  | OP_NE
  | OP_LT
  | OP_GT
  | OP_LE
  | OP_GE
deriving DecidableEq, Repr

/-- `SetOp` of `common.h`. -/
inductive SetOp where
  | OP_ASSIGN
  | OP_PLUS
  | OP_MINUS
  | OP_INVALID
deriving DecidableEq, Repr

/-- `ColMeta` of `sm_meta.h`.  The `int` fields `len` and `offset` hold
byte counts and are natural numbers here. -/
structure ColMeta where
  tab_name : String
  name : String
  type : ColType
  len : Nat
  offset : Nat
  index : Bool
deriving DecidableEq, Repr

/-- The value-initialised `ColMeta()`: empty names, and zero in every other
field, which for the type is `TYPE_INT`. -/
def ColMeta.zero : ColMeta := ⟨"", "", ColType.TYPE_INT, 0, 0, false⟩

/-- `TabCol` of `common.h`. -/
structure TabCol where
  tab_name : String
  col_name : String
deriving DecidableEq, Repr

/-- `Value` of `common.h`.  Strings are lists of character codes, the float
member is kept as its four bytes, and `raw` is `none` for a null pointer.
The members of the union are separate fields: the code reads only the member
that the type of the value names. -/
structure Value where
  type : ColType
  int_val : Int
  float_val : List Nat
  bigint_val : Int
  str_val : List Nat
  datetime_val : List Nat
  raw : Option (List Nat)
deriving DecidableEq, Repr

/-- `Condition` of `common.h`. -/
structure Condition where
  lhs_col : TabCol
  op : CompOp
  is_rhs_val : Bool
  rhs_col : TabCol
  rhs_val : Value
deriving DecidableEq, Repr

/-- What executor code can throw or die of: the exceptions of `errors.h`
that it raises, a failed `assert`, a read of an indeterminate value or
through a null pointer (`Undefined`), the `std::out_of_range` of
`vector::at`, an error of the heap or lock layer,
and the end of the fuel of a modelled loop. -/
inductive ExecError where
  | ColumnNotFound
  | InvalidValue
  | Internal
  | IncompatibleType
  | IndexInsertDuplicated
  | StringOverflow
  | AssertionFailed
  | Undefined
  | OutOfRange
  | Db (e : DbError)
  | OutOfFuel
deriving DecidableEq, Repr

/-- A value of a given type with every other member empty. -/
def Value.blank (t : ColType) : Value := ⟨t, 0, [0, 0, 0, 0], 0, [], [], none⟩

/-- `Value::set_int`. -/
def Value.ofInt (x : Int) : Value := { Value.blank ColType.TYPE_INT with int_val := x }

/-- `Value::set_bigint`. -/
def Value.ofBigint (x : Int) : Value := { Value.blank ColType.TYPE_BIGINT with bigint_val := x }

/-- A buffer of `n` zero bytes (`memset(p, 0, n)`). -/
def zeroBytes (n : Nat) : List Nat := List.replicate n 0

/-- The eight bytes of a `long long` in memory, least significant first. -/
def encodeInt64 (x : Int) : List Nat :=
  let u : Nat := (x % 18446744073709551616).toNat
  (List.range 8).map (fun (i : Nat) => u / 256 ^ i % 256)

/-- Eight bytes read as a two's-complement `long long`. -/
def decodeInt64 (bytes : List Nat) : Int :=
  let u : Nat := ((List.range 8).map (fun (i : Nat) => bytes.getD i 0 * 256 ^ i)).sum
  if u ≥ 9223372036854775808 then (u : Int) - 18446744073709551616 else (u : Int)

/-- The value of the four bytes of a `float` (IEEE 754 binary32) in units
of 2^-149, with plus and minus 2^277 for the infinities; `none` for a
NaN. -/
def decodeFloat (bytes : List Nat) : Option Int :=
  let u : Nat := decodeUInt32 bytes
  let s : Nat := u / 2147483648 % 2
  let e : Nat := u / 8388608 % 256
  let m : Nat := u % 8388608
  if e = 255 then
    if m = 0 then some (if s = 1 then -(2 ^ 277 : Int) else (2 ^ 277 : Int)) else none
  else
    let mag : Nat := if e = 0 then m else (8388608 + m) * 2 ^ (e - 1)
    some (if s = 1 then -(mag : Int) else (mag : Int))

/-- The comparison `fa < fb` of two floats: false when either is a NaN. -/
def floatLt (a b : List Nat) : Bool :=
  match decodeFloat a, decodeFloat b with
  | some x, some y => decide (x < y)
  | _, _ => false

/-- The four bytes of the float with sign bit `s`, exponent field `e` and
fraction field `m`. -/
def floatBits (s e m : Nat) : List Nat :=
  encodeInt32 ((s * 2147483648 + e * 8388608 + m : Nat) : Int)

/-- The float nearest to `n` units of 2^-149 (ties to even) with sign bit
`s`, for `n > 0`. -/
def roundFloat (s n : Nat) : List Nat :=
  let b : Nat := Nat.log2 n + 1
  if b ≤ 24 then
    if n < 8388608 then floatBits s 0 n else floatBits s 1 (n - 8388608)
  else
    let shift : Nat := b - 24
    let q : Nat := n / 2 ^ shift
    let r : Nat := n % 2 ^ shift
    let half : Nat := 2 ^ (shift - 1)
    let q1 : Nat := if r > half ∨ (r = half ∧ q % 2 = 1) then q + 1 else q
    let e : Nat := if q1 = 16777216 then shift + 2 else shift + 1
    let m : Nat := if q1 = 16777216 then 0 else q1 - 8388608
    if e ≥ 255 then floatBits s 255 0 else floatBits s e m

/-- The float sum `a + b` (IEEE 754 binary32, round to nearest even); a NaN
result is the default NaN `0x7fc00000`. -/
def floatAdd (a b : List Nat) : List Nat :=
  let sa : Nat := decodeUInt32 a / 2147483648 % 2
  let sb : Nat := decodeUInt32 b / 2147483648 % 2
  match decodeFloat a, decodeFloat b with
  | some x, some y =>
    if x.natAbs = 2 ^ 277 ∧ y.natAbs = 2 ^ 277 then
      if sa = sb then floatBits sa 255 0 else floatBits 0 255 4194304
    else if x.natAbs = 2 ^ 277 then floatBits sa 255 0
    else if y.natAbs = 2 ^ 277 then floatBits sb 255 0
    else if x + y = 0 then
      if x = 0 ∧ y = 0 ∧ sa = 1 ∧ sb = 1 then floatBits 1 0 0 else floatBits 0 0 0
    else roundFloat (if x + y < 0 then 1 else 0) (x + y).natAbs
  | _, _ => floatBits 0 255 4194304

/-- The sign of `memcmp(a, b, n)`: the bytes are compared as unsigned
characters; -1, 0 or 1.  The source compares inside the records; a byte past
the end of a buffer reads as 0 here. -/
def memcmp : List Nat → List Nat → Nat → Int
  | _, _, 0 => 0
  | a, b, n + 1 =>
    if a.headD 0 < b.headD 0 then -1
    else if a.headD 0 > b.headD 0 then 1
    else memcmp a.tail b.tail n

/-- `ix_compare(a, b, type, col_len)` of `ix_index_handle.h`, on the bytes
at `a` and `b`. -/
def ix_compare_raw (a b : List Nat) (type : ColType) (col_len : Nat) : Except ExecError Int :=
  match type with
  | ColType.TYPE_INT =>
    let ia := decodeInt32 a
    let ib := decodeInt32 b
    Except.ok (if ia < ib then -1 else if ia > ib then 1 else 0)
  | ColType.TYPE_BIGINT =>
    let biga := decodeInt64 a
    let bigb := decodeInt64 b
    Except.ok (if biga < bigb then -1 else if biga > bigb then 1 else 0)
  | ColType.TYPE_FLOAT =>
    Except.ok (if floatLt a b then -1 else if floatLt b a then 1 else 0)
  | ColType.TYPE_STRING => Except.ok (memcmp a b col_len)
  | ColType.TYPE_DATETIME => Except.ok (memcmp a b col_len)
  | ColType.TYPE_UNUSE => Except.error ExecError.Internal

/-! ### `SmManager::check_datetime_` -/

/-- `strlen(s.c_str())`: the number of characters before the first NUL. -/
def strlen (s : List Nat) : Nat := (s.takeWhile (fun c => c != 0)).length

/-- `a < b` on `std::string`: lexicographic on the character codes, a proper
prefix first. -/
def strLt : List Nat → List Nat → Bool
  | [], [] => false
  | [], _ :: _ => true
  | _ :: _, [] => false
  | x :: a, y :: b => if x < y then true else if y < x then false else strLt a b

/-- The character codes of a string literal. -/
def lit (s : String) : List Nat := s.toList.map Char.toNat

/-- The test `s[i] < '0' || s[i] > '9'` negated. -/
def isDigitAt (s : List Nat) (i : Nat) : Bool := decide (48 ≤ s.getD i 0 ∧ s.getD i 0 ≤ 57)

/-- `std::stoi` of the two digits at positions `i` and `i + 1`. -/
def stoi2 (s : List Nat) (i : Nat) : Nat := (s.getD i 0 - 48) * 10 + (s.getD (i + 1) 0 - 48)

/-- `SmManager::check_datetime_`. -/
def check_datetime_ (s : List Nat) : Bool :=
  if strlen s ≠ 19 then false
  else if strLt s (lit "1000-01-01 00:00:00") || strLt (lit "9999-12-31 23:59:59") s then false
  else if !(isDigitAt s 0 && isDigitAt s 1 && isDigitAt s 2 && isDigitAt s 3) then false
  else if s.getD 4 0 ≠ 45 then false
  else if !(isDigitAt s 5 && isDigitAt s 6) then false
  else if s.getD 7 0 ≠ 45 then false
  else if !(isDigitAt s 8 && isDigitAt s 9) then false
  else if s.getD 10 0 ≠ 32 then false
  else if !(isDigitAt s 11 && isDigitAt s 12) then false
  else if s.getD 13 0 ≠ 58 then false
  else if !(isDigitAt s 14 && isDigitAt s 15) then false
  else if s.getD 16 0 ≠ 58 then false
  else if !(isDigitAt s 17 && isDigitAt s 18) then false
  else if stoi2 s 5 < 1 ∨ stoi2 s 5 > 12 then false
  else if stoi2 s 8 < 1 ∨ stoi2 s 8 > 31 then false
  else if stoi2 s 5 = 2 ∧ stoi2 s 8 = 30 then false
  else if stoi2 s 11 > 23 then false
  else if stoi2 s 14 > 59 then false
  else if stoi2 s 17 > 59 then false
  else true

/-! ### `Value::init_raw` and `Value::get_val_from_raw` -/

/-- `Value::init_raw(len)`. -/
def Value.init_raw (v : Value) (len : Nat) : Except ExecError Value :=
  if v.raw ≠ none then Except.error ExecError.AssertionFailed
  else
    match v.type with
    | ColType.TYPE_INT =>
      if len ≠ 4 then Except.error ExecError.AssertionFailed
      else Except.ok { v with raw := some (encodeInt32 v.int_val) }
    | ColType.TYPE_BIGINT =>
      if len ≠ 8 then Except.error ExecError.AssertionFailed
      else Except.ok { v with raw := some (encodeInt64 v.bigint_val) }
    | ColType.TYPE_FLOAT =>
      if len ≠ 4 then Except.error ExecError.AssertionFailed
      else Except.ok { v with raw := some (v.float_val.takeD 4 0) }
    | ColType.TYPE_STRING =>
      if len < v.str_val.length then Except.error ExecError.StringOverflow
      else Except.ok { v with raw := some (memcpy (zeroBytes len) 0 v.str_val) }
    | ColType.TYPE_DATETIME =>
      if len ≠ strlen v.datetime_val then Except.error ExecError.AssertionFailed
      else Except.ok { v with raw := some (memcpy (zeroBytes len) 0 v.datetime_val) }
    | ColType.TYPE_UNUSE => Except.ok { v with raw := some (zeroBytes len) }

/-- `Value::get_val_from_raw(val, len)`. -/
def Value.get_val_from_raw (v : Value) (val : List Nat) (len : Nat) : Except ExecError Value :=
  match v.type with
  | ColType.TYPE_INT =>
    if len ≠ 4 then Except.error ExecError.AssertionFailed
    else Except.ok { v with int_val := decodeInt32 val }
  | ColType.TYPE_BIGINT =>
    if len ≠ 8 then Except.error ExecError.AssertionFailed
    else Except.ok { v with bigint_val := decodeInt64 val }
  | ColType.TYPE_FLOAT =>
    if len ≠ 4 then Except.error ExecError.AssertionFailed
    else Except.ok { v with float_val := val.takeD 4 0 }
  | ColType.TYPE_STRING => Except.ok { v with str_val := val.take len }
  | ColType.TYPE_DATETIME => Except.ok { v with datetime_val := val.take len }
  | ColType.TYPE_UNUSE => Except.ok v

/-- `Value::operator==`. -/
def Value.eq (a b : Value) : Except ExecError Bool :=
  if a.type ≠ b.type then Except.error ExecError.AssertionFailed
  else
    match a.type with
    | ColType.TYPE_INT => Except.ok (decide (a.int_val = b.int_val))
    | ColType.TYPE_FLOAT =>
      Except.ok (match decodeFloat a.float_val, decodeFloat b.float_val with
        | some x, some y => decide (x = y)
        | _, _ => false)
    | ColType.TYPE_BIGINT => Except.ok (decide (a.bigint_val = b.bigint_val))
    | ColType.TYPE_DATETIME => Except.ok (decide (a.datetime_val = b.datetime_val))
    | ColType.TYPE_STRING => Except.ok (decide (a.str_val = b.str_val))
    | ColType.TYPE_UNUSE => Except.error ExecError.AssertionFailed

/-! ### `AbstractExecutor` -/

/-- `AbstractExecutor::get_hash_key`. -/
def get_hash_key (tab_name col_name : String) : String := tab_name ++ "$" ++ col_name

/-- `AbstractExecutor::init_hash_cols`: the map `hash_cols_` as an
association list in which the first pair of a key is the one stored last. -/
def init_hash_cols_from : List ColMeta → Nat → List (String × Nat) → List (String × Nat)
  | [], _, m => m
  | c :: rest, i, m => init_hash_cols_from rest (i + 1) ((get_hash_key c.tab_name c.name, i) :: m)

/-- `AbstractExecutor::init_hash_cols` on the columns `cols()`. -/
def init_hash_cols (cols : List ColMeta) : List (String × Nat) := init_hash_cols_from cols 0 []

/-- `AbstractExecutor::get_col` of an executor whose columns are `cols`. -/
def get_col (cols : List ColMeta) (target : TabCol) : Except ExecError (Nat × ColMeta) :=
  match (init_hash_cols cols).lookup (get_hash_key target.tab_name target.col_name) with
  | none => Except.error ExecError.ColumnNotFound
  | some i =>
    match cols.get? i with
    | some c => Except.ok (i, c)
    | none => Except.error ExecError.Undefined

/-- `get_col_offset` as the executors override it: the first column with
the table and column name of the target, `ColMeta()` if there is none. -/
def get_col_offset (cols : List ColMeta) (target : TabCol) : ColMeta :=
  match cols.find? (fun c => decide (c.tab_name = target.tab_name ∧ c.name = target.col_name)) with
  | some c => c
  | none => ColMeta.zero

/-- `AbstractExecutor::eval_cond(prev_, cond, rec)` for an executor `prev_`
whose columns are `cols`. -/
def eval_cond (cols : List ColMeta) (cond : Condition) (rec : List Nat) : Except ExecError Bool :=
  match get_col cols cond.lhs_col with
  | Except.error e => Except.error e
  | Except.ok (_, lhs_col) =>
    let lhs := rec.drop lhs_col.offset
    let rhs_side : Except ExecError (ColType × List Nat) :=
      if cond.is_rhs_val then
        match cond.rhs_val.raw with
        | some data => Except.ok (cond.rhs_val.type, data)
        | none => Except.error ExecError.Undefined
      else
        match get_col cols cond.rhs_col with
        | Except.error e => Except.error e
        | Except.ok (_, rhs_col) => Except.ok (rhs_col.type, rec.drop rhs_col.offset)
    match rhs_side with
    | Except.error e => Except.error e
    | Except.ok (rhs_type, rhs) =>
      if rhs_type ≠ lhs_col.type then Except.error ExecError.AssertionFailed
      else if cond.is_rhs_val ∧ rhs_type = ColType.TYPE_DATETIME ∧
          check_datetime_ cond.rhs_val.datetime_val = false then
        Except.error ExecError.InvalidValue
      else
        match ix_compare_raw lhs rhs rhs_type lhs_col.len with
        | Except.error e => Except.error e
        | Except.ok cmp =>
          match cond.op with
          | CompOp.OP_EQ => Except.ok (decide (cmp = 0))
          | CompOp.OP_NE => Except.ok (decide (cmp ≠ 0))
          | CompOp.OP_LT => Except.ok (decide (cmp < 0))
          | CompOp.OP_GT => Except.ok (decide (cmp > 0))
          | CompOp.OP_LE => Except.ok (decide (cmp ≤ 0))
          | CompOp.OP_GE => Except.ok (decide (cmp ≥ 0))

/-- `AbstractExecutor::eval_conds`. -/
def eval_conds (cols : List ColMeta) : List Condition → List Nat → Except ExecError Bool
  | [], _ => Except.ok true
  | cond :: rest, rec =>
    match eval_cond cols cond rec with
    | Except.error e => Except.error e
    | Except.ok false => Except.ok false
    | Except.ok true => eval_conds cols rest rec

/-- A child executor as its parent sees it through `AbstractExecutor`: its
columns, its tuple length, the records it yields after `beginTuple()` and
the position of its cursor. -/
structure Child where
  cols : List ColMeta
  len : Nat
  tuples : List (List Nat)
  pos : Nat
deriving DecidableEq, Repr

namespace Child

/-- A child before `beginTuple()`. -/
def ofTuples (cols : List ColMeta) (len : Nat) (tuples : List (List Nat)) : Child :=
  ⟨cols, len, tuples, 0⟩

/-- The child's `beginTuple()`: back to the first record. -/
def beginTuple (c : Child) : Child := { c with pos := 0 }

/-- The child's `is_end()`. -/
def is_end (c : Child) : Bool := decide (c.tuples.length ≤ c.pos)

/-- The child's `nextTuple()`; it asserts `!is_end()`. -/
def nextTuple (c : Child) : Except ExecError Child :=
  if c.is_end then Except.error ExecError.AssertionFailed
  else Except.ok { c with pos := c.pos + 1 }

/-- The child's `Next()`: the record under the cursor; it asserts
`!is_end()`. -/
def Next (c : Child) : Except ExecError (List Nat) :=
  match c.tuples.get? c.pos with
  | some r => Except.ok r
  | none => Except.error ExecError.AssertionFailed

/-- The loop `for (c.beginTuple(); !c.is_end(); c.nextTuple()) visit
c.Next()` from the current position: the records visited and the child at
the end. -/
def drain : Nat → Child → Except ExecError (List (List Nat) × Child)
  | 0, _ => Except.error ExecError.OutOfFuel
  | fuel + 1, c =>
    if c.is_end then Except.ok ([], c)
    else
      match c.Next with
      | Except.error e => Except.error e
      | Except.ok r =>
        match c.nextTuple with
        | Except.error e => Except.error e
        | Except.ok c1 =>
          match drain fuel c1 with
          | Except.error e => Except.error e
          | Except.ok (l, c2) => Except.ok (r :: l, c2)

end Child

/-- The loop `for (e.beginTuple(); !e.is_end(); e.nextTuple()) out.push(
e.Next())` of a consumer, after `beginTuple()`: the records produced;
`fuel` bounds the number of rounds. -/
def drainExecutor {σ : Type} (is_end : σ → Bool) (Next : σ → Except ExecError (List Nat))
    (nextTuple : σ → Except ExecError σ) : Nat → σ → Except ExecError (List (List Nat))
  | 0, _ => Except.error ExecError.OutOfFuel
  | fuel + 1, s =>
    if is_end s then Except.ok []
    else
      match Next s with
      | Except.error e => Except.error e
      | Except.ok r =>
        match nextTuple s with
        | Except.error e => Except.error e
        | Except.ok s1 =>
          match drainExecutor is_end Next nextTuple fuel s1 with
          | Except.error e => Except.error e
          | Except.ok l => Except.ok (r :: l)

/-! ## `AgreValue` (`common/common.h`) and `AggregationExecutor`
(`execution/executor_aggregation.h`) -/

/-- `std::numeric_limits<int>::min()`. -/
def INT_MIN : Int := -2147483648

/-- `std::numeric_limits<int>::max()`. -/
def INT_MAX : Int := 2147483647

/-- The bytes of `std::numeric_limits<float>::lowest()`, `0xff7fffff`. -/
def FLOAT_LOWEST : List Nat := [255, 255, 127, 255]

/-- The bytes of `std::numeric_limits<float>::max()`, `0x7f7fffff`. -/
def FLOAT_MAX : List Nat := [255, 255, 127, 127]

/-- `AgreValue` of `common.h`: `str_val` is `none` for a null pointer, and
the members of the union are separate fields. -/
structure AgreValue where
  agre_type : AgreType
  type : ColType
  int_val : Int
  float_val : List Nat
  str_val : Option (List Nat)
  str_len : Nat
deriving DecidableEq, Repr

namespace AgreValue

/-- A default-constructed `AgreValue`: `str_val` is null; the other members,
which the source leaves indeterminate and writes before it reads them, are
zero. -/
def fresh : AgreValue :=
  ⟨AgreType.AGRE_TYPE_COUNT_ALL, ColType.TYPE_UNUSE, 0, [0, 0, 0, 0], none, 0⟩

/-- `AgreValue::init_agre_raw(value_type, agre_type_, len)`. -/
def init_agre_raw (v : AgreValue) (value_type : ColType) (agre_type_ : AgreType) (len : Nat) :
    Except ExecError AgreValue :=
  let v1 : AgreValue := { v with type := value_type, agre_type := agre_type_ }
  if value_type ≠ ColType.TYPE_INT ∧ value_type ≠ ColType.TYPE_FLOAT ∧
      value_type ≠ ColType.TYPE_STRING then
    Except.error ExecError.AssertionFailed
  else
    let v2 : AgreValue := if value_type = ColType.TYPE_STRING then { v1 with str_len := len } else v1
    match agre_type_ with
    | AgreType.AGRE_TYPE_MAX =>
      if value_type = ColType.TYPE_INT then
        if len ≠ 4 then Except.error ExecError.AssertionFailed
        else Except.ok { v2 with int_val := INT_MIN }
      else if value_type = ColType.TYPE_FLOAT then
        if len ≠ 4 then Except.error ExecError.AssertionFailed
        else Except.ok { v2 with float_val := FLOAT_LOWEST }
      else Except.ok { v2 with str_val := some (List.replicate len 0) }
    | AgreType.AGRE_TYPE_MIN =>
      if value_type = ColType.TYPE_INT then
        if len ≠ 4 then Except.error ExecError.AssertionFailed
        else Except.ok { v2 with int_val := INT_MAX }
      else if value_type = ColType.TYPE_FLOAT then
        if len ≠ 4 then Except.error ExecError.AssertionFailed
        else Except.ok { v2 with float_val := FLOAT_MAX }
      else Except.ok { v2 with str_val := some (List.replicate len 255) }
    | AgreType.AGRE_TYPE_SUM =>
      if value_type = ColType.TYPE_INT then
        if len ≠ 4 then Except.error ExecError.AssertionFailed
        else Except.ok { v2 with int_val := 0 }
      else if value_type = ColType.TYPE_FLOAT then
        if len ≠ 4 then Except.error ExecError.AssertionFailed
        else Except.ok { v2 with float_val := [0, 0, 0, 0] }
      else Except.error ExecError.AssertionFailed
    | AgreType.AGRE_TYPE_COUNT => Except.ok v2
    | AgreType.AGRE_TYPE_COUNT_ALL => Except.ok v2

/-- `AgreValue::add_value(value, len)`; the `int` sum wraps to 32 bits. -/
def add_value (v : AgreValue) (value : List Nat) (len : Nat) : Except ExecError AgreValue :=
  match v.agre_type with
  | AgreType.AGRE_TYPE_MAX =>
    if v.type = ColType.TYPE_INT then
      if len ≠ 4 then Except.error ExecError.AssertionFailed
      else
        let value_ := decodeInt32 value
        Except.ok (if value_ > v.int_val then { v with int_val := value_ } else v)
    else if v.type = ColType.TYPE_FLOAT then
      if len ≠ 4 then Except.error ExecError.AssertionFailed
      else
        let value_ := value.takeD 4 0
        Except.ok (if floatLt v.float_val value_ then { v with float_val := value_ } else v)
    else if v.type = ColType.TYPE_STRING then
      match v.str_val with
      | none => Except.error ExecError.Undefined
      | some s =>
        Except.ok (if memcmp value s len > 0 then
          { v with str_val := some (memcpy s 0 (value.take len)) } else v)
    else Except.ok v
  | AgreType.AGRE_TYPE_MIN =>
    if v.type = ColType.TYPE_INT then
      if len ≠ 4 then Except.error ExecError.AssertionFailed
      else
        let value_ := decodeInt32 value
        Except.ok (if value_ < v.int_val then { v with int_val := value_ } else v)
    else if v.type = ColType.TYPE_FLOAT then
      if len ≠ 4 then Except.error ExecError.AssertionFailed
      else
        let value_ := value.takeD 4 0
        Except.ok (if floatLt value_ v.float_val then { v with float_val := value_ } else v)
    else if v.type = ColType.TYPE_STRING then
      match v.str_val with
      | none => Except.error ExecError.Undefined
      | some s =>
        Except.ok (if memcmp value s len < 0 then
          { v with str_val := some (memcpy s 0 (value.take len)) } else v)
    else Except.ok v
  | AgreType.AGRE_TYPE_SUM =>
    if v.type = ColType.TYPE_INT then
      if len ≠ 4 then Except.error ExecError.AssertionFailed
      else Except.ok { v with int_val := wrap32 (v.int_val + decodeInt32 value) }
    else if v.type = ColType.TYPE_FLOAT then
      if len ≠ 4 then Except.error ExecError.AssertionFailed
      else Except.ok { v with float_val := floatAdd v.float_val (value.takeD 4 0) }
    else if v.type = ColType.TYPE_STRING then Except.error ExecError.AssertionFailed
    else Except.ok v
  | AgreType.AGRE_TYPE_COUNT => Except.ok v
  | AgreType.AGRE_TYPE_COUNT_ALL => Except.ok v

/-- `AgreValue::get_value()`: the bytes of the record it returns;
`Undefined` where it returns `nullptr`, which the caller reads through. -/
def get_value (v : AgreValue) : Except ExecError (List Nat) :=
  if v.agre_type = AgreType.AGRE_TYPE_MAX ∨ v.agre_type = AgreType.AGRE_TYPE_MIN ∨
      v.agre_type = AgreType.AGRE_TYPE_SUM then
    if v.type = ColType.TYPE_INT then Except.ok (encodeInt32 v.int_val)
    else if v.type = ColType.TYPE_FLOAT then Except.ok (v.float_val.takeD 4 0)
    else if v.type = ColType.TYPE_STRING then
      if v.agre_type = AgreType.AGRE_TYPE_SUM then Except.error ExecError.AssertionFailed
      else
        match v.str_val with
        | none => Except.error ExecError.Undefined
        | some s => Except.ok (memcpy (zeroBytes v.str_len) 0 (s.take v.str_len))
    else Except.error ExecError.Undefined
  else Except.error ExecError.Undefined

end AgreValue

/-- `AggregationExecutor`: the child, the aggregated columns `cols_`, the
output columns `ans_`, the running values, the output length, the row
counter and the end flag. -/
structure AggregationExecutor where
  prev_ : Child
  cols_ : List ColMeta
  ans_ : List ColMeta
  agre_values_ : List AgreValue
  len_ : Nat
  all_count : Int
  end_flag : Bool
deriving DecidableEq, Repr

namespace AggregationExecutor

/-- `AggregationExecutor::get_col_meta`: the offset, length and type of the
first column with the target's names; `Undefined` when there is none, where
the source returns these fields indeterminate and the constructor reads
them. -/
def get_col_meta (col_metas : List ColMeta) (target : TabCol) : Except ExecError ColMeta :=
  match col_metas.find?
      (fun c => decide (target.tab_name = c.tab_name ∧ target.col_name = c.name)) with
  | some c => Except.ok ⟨target.tab_name, target.col_name, c.type, c.len, c.offset, false⟩
  | none => Except.error ExecError.Undefined

/-- The first loop of the constructor from index `i` on, with `ans_offset`
so far: the columns `cols_`, the output columns `ans_` and the final
`ans_offset`. -/
def ctor_cols (prev_cols : List ColMeta) :
    List AgreType → List TabCol → Nat → Except ExecError (List ColMeta × List ColMeta × Nat)
  | t :: agre_types, target :: target_cols, ans_offset =>
    let col : Except ExecError ColMeta :=
      if t ≠ AgreType.AGRE_TYPE_COUNT_ALL then get_col_meta prev_cols target
      else Except.ok ColMeta.zero
    match col with
    | Except.error e => Except.error e
    | Except.ok c =>
      let ans_col_ : ColMeta :=
        if t = AgreType.AGRE_TYPE_COUNT ∨ t = AgreType.AGRE_TYPE_COUNT_ALL then
          ⟨"", "", ColType.TYPE_INT, 4, ans_offset, false⟩
        else ⟨"", "", c.type, c.len, ans_offset, false⟩
      match ctor_cols prev_cols agre_types target_cols (ans_offset + ans_col_.len) with
      | Except.error e => Except.error e
      | Except.ok (cols, ans, len) => Except.ok (c :: cols, ans_col_ :: ans, len)
  | _, _, ans_offset => Except.ok ([], [], ans_offset)

/-- The second loop of the constructor: `init_agre_raw` on every value. -/
def ctor_values : List AgreType → List ColMeta → Except ExecError (List AgreValue)
  | t :: agre_types, c :: cols =>
    let v : Except ExecError AgreValue :=
      if t ≠ AgreType.AGRE_TYPE_COUNT_ALL then AgreValue.fresh.init_agre_raw c.type t c.len
      else AgreValue.fresh.init_agre_raw ColType.TYPE_INT t 4
    match v with
    | Except.error e => Except.error e
    | Except.ok v1 =>
      match ctor_values agre_types cols with
      | Except.error e => Except.error e
      | Except.ok vs => Except.ok (v1 :: vs)
  | _, _ => Except.ok []

/-- `AggregationExecutor::AggregationExecutor`.  Both loops run over the
indexes of `agre_cols` and read `agre_types` and `target_cols` at them:
shorter vectors are read out of bounds. -/
def create (prev : Child) (agre_types : List AgreType) (agre_cols target_cols : List TabCol) :
    Except ExecError AggregationExecutor :=
  if agre_types.length < agre_cols.length ∨ target_cols.length < agre_cols.length then
    Except.error ExecError.Undefined
  else
    match ctor_cols prev.cols (agre_types.take agre_cols.length)
        (target_cols.take agre_cols.length) 0 with
    | Except.error e => Except.error e
    | Except.ok (cols, ans, len) =>
      match ctor_values (agre_types.take agre_cols.length) cols with
      | Except.error e => Except.error e
      | Except.ok vs => Except.ok ⟨prev, cols, ans, vs, len, 0, false⟩

/-- The inner loop of `beginTuple` over the aggregates, for one tuple. -/
def add_values (Tuple : List Nat) : List ColMeta → List AgreValue → Except ExecError (List AgreValue)
  | c :: cols, v :: vals =>
    let v1 : Except ExecError AgreValue :=
      if v.agre_type ≠ AgreType.AGRE_TYPE_COUNT_ALL ∧ v.agre_type ≠ AgreType.AGRE_TYPE_COUNT then
        v.add_value (Tuple.drop c.offset) c.len
      else Except.ok v
    match v1 with
    | Except.error e => Except.error e
    | Except.ok v2 =>
      match add_values Tuple cols vals with
      | Except.error e => Except.error e
      | Except.ok vs => Except.ok (v2 :: vs)
  | [], vals => Except.ok vals
  | _ :: _, [] => Except.error ExecError.Undefined

/-- The loop of `beginTuple` from the child's current position; the `int`
counter wraps to 32 bits. -/
def beginTuple_loop : Nat → AggregationExecutor → Except ExecError AggregationExecutor
  | 0, _ => Except.error ExecError.OutOfFuel
  | fuel + 1, ex =>
    if ex.prev_.is_end then Except.ok ex
    else
      match ex.prev_.Next with
      | Except.error e => Except.error e
      | Except.ok Tuple =>
        match add_values Tuple ex.cols_ ex.agre_values_ with
        | Except.error e => Except.error e
        | Except.ok vals =>
          match ex.prev_.nextTuple with
          | Except.error e => Except.error e
          | Except.ok prev1 =>
            beginTuple_loop fuel
              { ex with prev_ := prev1, all_count := wrap32 (ex.all_count + 1),
                        agre_values_ := vals }

/-- `AggregationExecutor::beginTuple`. -/
def beginTuple (ex : AggregationExecutor) : Except ExecError AggregationExecutor :=
  beginTuple_loop (ex.prev_.tuples.length + 1) { ex with prev_ := ex.prev_.beginTuple }

/-- `AggregationExecutor::nextTuple`. -/
def nextTuple (ex : AggregationExecutor) : AggregationExecutor :=
  if !ex.end_flag then { ex with end_flag := true } else ex

/-- `AggregationExecutor::is_end`. -/
def is_end (ex : AggregationExecutor) : Bool := ex.end_flag

/-- The loop of `Next` from output column `i` on, with the record `ret`
and `curr_offset` so far. -/
def Next_loop (all_count : Int) :
    List ColMeta → List AgreValue → List Nat → Nat → Except ExecError (List Nat)
  | a :: ans, v :: vals, ret, curr_offset =>
    if v.agre_type = AgreType.AGRE_TYPE_COUNT_ALL ∨ v.agre_type = AgreType.AGRE_TYPE_COUNT then
      Next_loop all_count ans vals
        (memcpy ret curr_offset ((encodeInt32 all_count).take a.len)) (curr_offset + a.len)
    else
      match v.get_value with
      | Except.error e => Except.error e
      | Except.ok agre_rec =>
        Next_loop all_count ans vals
          (memcpy ret curr_offset (agre_rec.take a.len)) (curr_offset + a.len)
  | [], _, ret, _ => Except.ok ret
  | _ :: _, [], _, _ => Except.error ExecError.Undefined

/-- `AggregationExecutor::Next`. -/
def Next (ex : AggregationExecutor) : Except ExecError (List Nat) :=
  Next_loop ex.all_count ex.ans_ ex.agre_values_ (zeroBytes ex.len_) 0

/-- A consumer's run of the executor: `beginTuple()`, then `Next()` and
`nextTuple()` until `is_end()`. -/
def run (ex : AggregationExecutor) (fuel : Nat) : Except ExecError (List (List Nat)) :=
  match ex.beginTuple with
  | Except.error e => Except.error e
  | Except.ok ex1 =>
    drainExecutor is_end Next (fun s => Except.ok s.nextTuple) fuel ex1

end AggregationExecutor

/-- The values of the INT column at `offset` in the records of a child. -/
def intColumn (tuples : List (List Nat)) (offset : Nat) : List Int :=
  tuples.map (fun t => decodeInt32 (t.drop offset))

/-- The sum of the values, every partial sum wrapped to 32 bits. -/
def wrapSum (vals : List Int) : Int := vals.foldl (fun acc x => wrap32 (acc + x)) 0

/-- An example child over the table `t(a INT)` with the rows -5, 7, 7, 9. -/
def exampleIntChild : Child :=
  Child.ofTuples [⟨"t", "a", ColType.TYPE_INT, 4, 0, false⟩] 4
    [encodeInt32 (-5), encodeInt32 7, encodeInt32 7, encodeInt32 9]

/-- An example child over the table `t(b BIGINT)` with one row. -/
def exampleBigintChild : Child :=
  Child.ofTuples [⟨"t", "b", ColType.TYPE_BIGINT, 8, 0, false⟩] 8 [encodeInt64 1]

/-- The aggregates the constructor accepts: `COUNT(*)`, or an aggregate
over a column of the child that is INT or FLOAT with four bytes, or STRING
and then not `SUM`. -/
def AgreSupported (prev_cols : List ColMeta) (t : AgreType) (target : TabCol) : Prop :=
  t = AgreType.AGRE_TYPE_COUNT_ALL ∨
  ∃ c, AggregationExecutor.get_col_meta prev_cols target = Except.ok c ∧
    ((c.type = ColType.TYPE_INT ∧ c.len = 4) ∨ (c.type = ColType.TYPE_FLOAT ∧ c.len = 4) ∨
     (c.type = ColType.TYPE_STRING ∧ t ≠ AgreType.AGRE_TYPE_SUM))

/-- What the constructor establishes for an aggregated column `c`, its
output column `a` and its running value `v`, and the loop of `beginTuple`
keeps. -/
def SlotOK (c a : ColMeta) (v : AgreValue) : Prop :=
  ((v.agre_type = AgreType.AGRE_TYPE_COUNT ∨ v.agre_type = AgreType.AGRE_TYPE_COUNT_ALL) ∧
    a.len = 4 ∧ a.type = ColType.TYPE_INT) ∨
  ((v.agre_type = AgreType.AGRE_TYPE_MAX ∨ v.agre_type = AgreType.AGRE_TYPE_MIN ∨
      v.agre_type = AgreType.AGRE_TYPE_SUM) ∧ a.len = c.len ∧ a.type = c.type ∧ v.type = c.type ∧
    ((v.type = ColType.TYPE_INT ∧ c.len = 4) ∨ (v.type = ColType.TYPE_FLOAT ∧ c.len = 4) ∨
     (v.type = ColType.TYPE_STRING ∧ v.agre_type ≠ AgreType.AGRE_TYPE_SUM ∧ v.str_len = c.len ∧
       ∃ s, v.str_val = some s ∧ s.length = c.len)))

/-- `SlotOK` along the three vectors `cols_`, `ans_` and `agre_values_`. -/
inductive AgreInv : List ColMeta → List ColMeta → List AgreValue → Prop where
  | nil : AgreInv [] [] []
  | cons {c a : ColMeta} {v : AgreValue} {cs as : List ColMeta} {vs : List AgreValue} :
      SlotOK c a v → AgreInv cs as vs → AgreInv (c :: cs) (a :: as) (v :: vs)

/-- What one tuple does to one running value in `beginTuple`. -/
def stepValue (Tuple : List Nat) (c : ColMeta) (v : AgreValue) : AgreValue :=
  if v.agre_type ≠ AgreType.AGRE_TYPE_COUNT_ALL ∧ v.agre_type ≠ AgreType.AGRE_TYPE_COUNT then
    match v.add_value (Tuple.drop c.offset) c.len with
    | Except.ok v1 => v1
    | Except.error _ => v
  else v

/-- The bytes that `Next` copies into the slot of output column `a`. -/
def slotBytes (all_count : Int) (a : ColMeta) (v : AgreValue) : List Nat :=
  if v.agre_type = AgreType.AGRE_TYPE_COUNT_ALL ∨ v.agre_type = AgreType.AGRE_TYPE_COUNT then
    (encodeInt32 all_count).take a.len
  else
    match v.get_value with
    | Except.ok agre_rec => agre_rec.take a.len
    | Except.error _ => []

/-- The bytes of `len` at `offset` in a record. -/
def slotAt (record : List Nat) (offset len : Nat) : List Nat := (record.drop offset).take len

/-- The prefix sums of the column lengths: the offset of column `i` in a
record that holds the columns back to back. -/
def prefixOffset (cols : List ColMeta) (i : Nat) : Nat := ((cols.take i).map ColMeta.len).sum

/-- The value a running INT aggregate starts from. -/
def initInt (t : AgreType) : Int :=
  match t with
  | AgreType.AGRE_TYPE_MAX => INT_MIN
  | AgreType.AGRE_TYPE_MIN => INT_MAX
  | _ => 0

/-- What one value `x` does to a running INT aggregate `acc`. -/
def intStep (t : AgreType) (acc x : Int) : Int :=
  match t with
  | AgreType.AGRE_TYPE_MAX => if x > acc then x else acc
  | AgreType.AGRE_TYPE_MIN => if x < acc then x else acc
  | AgreType.AGRE_TYPE_SUM => wrap32 (acc + x)
  | _ => acc

/-- Every element of every record is a byte. -/
def AllBytes (tuples : List (List Nat)) : Prop := ∀ r ∈ tuples, ∀ b ∈ r, b < 256

/-- The aggregates of `SELECT MAX(a) AS m, COUNT(*) AS c, SUM(a) AS s`. -/
def exampleAgreTypes : List AgreType :=
  [AgreType.AGRE_TYPE_MAX, AgreType.AGRE_TYPE_COUNT_ALL, AgreType.AGRE_TYPE_SUM]

/-- The output names of the example aggregates. -/
def exampleAgreCols : List TabCol := [⟨"t", "m"⟩, ⟨"", "c"⟩, ⟨"t", "s"⟩]

/-- The aggregated columns of the example aggregates. -/
def exampleTargetCols : List TabCol := [⟨"t", "a"⟩, ⟨"", ""⟩, ⟨"t", "a"⟩]

/-! ## `ProjectionExecutor` (`execution/executor_projection.h`) -/

/-- `ProjectionExecutor`: the child, the output columns `cols_`, the output
length `len_` and, for every output column, the index `sel_idxs_` of the
child column it copies. -/
structure ProjectionExecutor where
  prev_ : Child
  cols_ : List ColMeta
  len_ : Nat
  sel_idxs_ : List Nat
deriving DecidableEq, Repr

namespace ProjectionExecutor

/-- The loop of the constructor over the selected columns, with
`curr_offset` so far: the indexes `sel_idxs_`, the columns `cols_` and the
final `curr_offset`. -/
def ctor_loop (prev_cols : List ColMeta) :
    List TabCol → Nat → Except ExecError (List Nat × List ColMeta × Nat)
  | [], curr_offset => Except.ok ([], [], curr_offset)
  | sel_col :: rest, curr_offset =>
    match get_col prev_cols sel_col with
    | Except.error e => Except.error e
    | Except.ok (idx, pos) =>
      let col : ColMeta := { pos with offset := curr_offset }
      match ctor_loop prev_cols rest (curr_offset + col.len) with
      | Except.error e => Except.error e
      | Except.ok (idxs, cols, len) => Except.ok (idx :: idxs, col :: cols, len)

/-- `ProjectionExecutor::ProjectionExecutor`. -/
def create (prev : Child) (sel_cols : List TabCol) : Except ExecError ProjectionExecutor :=
  match ctor_loop prev.cols sel_cols 0 with
  | Except.error e => Except.error e
  | Except.ok (idxs, cols, len) => Except.ok ⟨prev, cols, len, idxs⟩

/-- The loop of `project` from output column `proj_idx` on, with the record
`ret` so far. -/
def project_loop (before_prev_cols : List ColMeta) (before_prev_record : List Nat) :
    List Nat → List ColMeta → List Nat → Except ExecError (List Nat)
  | prev_idx :: idxs, after :: rest, ret =>
    match before_prev_cols.get? prev_idx with
    | none => Except.error ExecError.Undefined
    | some before =>
      if before.len ≠ after.len then Except.error ExecError.AssertionFailed
      else
        project_loop before_prev_cols before_prev_record idxs rest
          (memcpy ret after.offset (slotAt before_prev_record before.offset after.len))
  | _, [], ret => Except.ok ret
  | [], _ :: _, _ => Except.error ExecError.Undefined

/-- `ProjectionExecutor::project`. -/
def project (ex : ProjectionExecutor) (before_prev_cols : List ColMeta)
    (before_prev_record : List Nat) (after_prev_cols : List ColMeta) :
    Except ExecError (List Nat) :=
  project_loop before_prev_cols before_prev_record ex.sel_idxs_ after_prev_cols
    (zeroBytes ex.len_)

/-- `ProjectionExecutor::beginTuple`. -/
def beginTuple (ex : ProjectionExecutor) : ProjectionExecutor :=
  { ex with prev_ := ex.prev_.beginTuple }

/-- `ProjectionExecutor::is_end`. -/
def is_end (ex : ProjectionExecutor) : Bool := ex.prev_.is_end

/-- `ProjectionExecutor::nextTuple`. -/
def nextTuple (ex : ProjectionExecutor) : Except ExecError ProjectionExecutor :=
  if ex.is_end then Except.error ExecError.AssertionFailed
  else
    match ex.prev_.nextTuple with
    | Except.error e => Except.error e
    | Except.ok prev1 => Except.ok { ex with prev_ := prev1 }

/-- `ProjectionExecutor::Next`. -/
def Next (ex : ProjectionExecutor) : Except ExecError (List Nat) :=
  if ex.is_end then Except.error ExecError.AssertionFailed
  else
    match ex.prev_.Next with
    | Except.error e => Except.error e
    | Except.ok prev_rec => ex.project ex.prev_.cols prev_rec ex.cols_

/-- A consumer's run of the executor: `beginTuple()`, then `Next()` and
`nextTuple()` until `is_end()`. -/
def run (ex : ProjectionExecutor) (fuel : Nat) : Except ExecError (List (List Nat)) :=
  drainExecutor is_end Next nextTuple fuel ex.beginTuple

/-- The projection executor as the child of another executor: its columns,
its tuple length and the records `out` that it yields. -/
def asChild (ex : ProjectionExecutor) (out : List (List Nat)) : Child :=
  Child.ofTuples ex.cols_ ex.len_ out

end ProjectionExecutor

/-- Every column of `cols` lies inside every record of `tuples`. -/
def ColsFit (cols : List ColMeta) (tuples : List (List Nat)) : Prop :=
  ∀ r ∈ tuples, ∀ c ∈ cols, c.offset + c.len ≤ r.length

/-- What the constructor of the projection establishes from `curr_offset`
on: every output column is the child column at its index in `sel_idxs_`,
moved to the running offset. -/
inductive ProjRel (prev_cols : List ColMeta) : List Nat → List ColMeta → Nat → Prop where
  | nil (off : Nat) : ProjRel prev_cols [] [] off
  | cons {idx : Nat} {b : ColMeta} {idxs : List Nat} {cols : List ColMeta} (off : Nat) :
      prev_cols[idx]? = some b → ProjRel prev_cols idxs cols (off + b.len) →
      ProjRel prev_cols (idx :: idxs) ({ b with offset := off } :: cols) off

/-- The record that a projection with the indexes `idxs` makes of the
child record `r`: the selected columns back to back. -/
def projectRecord (prev_cols : List ColMeta) (idxs : List Nat) (r : List Nat) : List Nat :=
  (idxs.map (fun idx =>
    match prev_cols[idx]? with
    | some b => slotAt r b.offset b.len
    | none => [])).flatten

/-- An example child over the table `t(a INT, s CHAR(2))` with two rows. -/
def exampleTwoColChild : Child :=
  Child.ofTuples [⟨"t", "a", ColType.TYPE_INT, 4, 0, false⟩,
      ⟨"t", "s", ColType.TYPE_STRING, 2, 4, false⟩] 6
    [encodeInt32 1 ++ [97, 98], encodeInt32 2 ++ [99, 100]]

/-! ## `SortExecutor` (`execution/execution_sort.h`) -/

/-- `SortExecutor`: the child, the order columns `cols_`, the descending
flags, the limit as the `size_t` it is stored in, the materialised tuples
and the position `now_ptr`. -/
structure SortExecutor where
  prev_ : Child
  cols_ : List ColMeta
  is_descs_ : List Bool
  limit_cnt_ : Nat
  sorted_tuples : List (List Nat)
  now_ptr : Nat
deriving DecidableEq, Repr

/-- Modelled from the spec: `std::stable_sort` of the C++ library puts an
element before those that the comparator does not put before it and keeps
the order of equivalent elements; here one step of a stable insertion sort,
which puts `x`, that stood before all of the sorted list, before the first
element that the comparator does not put before `x`. -/
def ordered_insert {α : Type} (comp : α → α → Except ExecError Bool) (x : α) :
    List α → Except ExecError (List α)
  | [] => Except.ok [x]
  | y :: l =>
    match comp y x with
    | Except.error e => Except.error e
    | Except.ok false => Except.ok (x :: y :: l)
    | Except.ok true =>
      match ordered_insert comp x l with
      | Except.error e => Except.error e
      | Except.ok l1 => Except.ok (y :: l1)

/-- Modelled from the spec: `std::stable_sort(first, last, comp)`, as a
stable insertion sort; an exception of the comparator ends it. -/
def stable_sort {α : Type} (comp : α → α → Except ExecError Bool) :
    List α → Except ExecError (List α)
  | [] => Except.ok []
  | x :: l =>
    match stable_sort comp l with
    | Except.error e => Except.error e
    | Except.ok s => ordered_insert comp x s

namespace SortExecutor

/-- `SortExecutor::SortExecutor`: `limit_cnt` is an `int` and is stored in
a `size_t` of 64 bits. -/
def create (prev : Child) (order_cols : List TabCol) (is_descs : List Bool) (limit_cnt : Int) :
    SortExecutor :=
  ⟨prev, order_cols.map (get_col_offset prev.cols), is_descs,
    (limit_cnt % 18446744073709551616).toNat, [], 0⟩

/-- The comparator of `beginTuple`: the loop over the order columns from
`iter` on, with the flags from `is_descs_[iter - begin]` on; the value
returned is `is_r1_prev`. -/
def compare_loop : List ColMeta → List Bool → List Nat → List Nat → Except ExecError Bool
  | [], _, _, _ => Except.ok false
  | iter :: cols, descs, r1, r2 =>
    match ix_compare_raw (r1.drop iter.offset) (r2.drop iter.offset) iter.type iter.len with
    | Except.error e => Except.error e
    | Except.ok cmp_r1_r2 =>
      if cmp_r1_r2 < 0 then
        match descs.head? with
        | none => Except.error ExecError.Undefined
        | some d => Except.ok (xor d true)
      else if cmp_r1_r2 > 0 then
        match descs.head? with
        | none => Except.error ExecError.Undefined
        | some d => Except.ok (xor d false)
      else compare_loop cols descs.tail r1 r2

/-- `SortExecutor::beginTuple`: the tuples of the child are appended to
`sorted_tuples`, which are then sorted. -/
def beginTuple (ex : SortExecutor) : Except ExecError SortExecutor :=
  match Child.drain (ex.prev_.tuples.length + 1) ex.prev_.beginTuple with
  | Except.error e => Except.error e
  | Except.ok (l, prev1) =>
    match stable_sort (compare_loop ex.cols_ ex.is_descs_) (ex.sorted_tuples ++ l) with
    | Except.error e => Except.error e
    | Except.ok s => Except.ok { ex with prev_ := prev1, sorted_tuples := s, now_ptr := 0 }

/-- `SortExecutor::nextTuple`. -/
def nextTuple (ex : SortExecutor) : SortExecutor :=
  { ex with now_ptr := (ex.now_ptr + 1) % 18446744073709551616 }

/-- `SortExecutor::Next`: `sorted_tuples.at(now_ptr)`; the record is moved
out of the vector, which a consumer's loop does not read at that position
again. -/
def Next (ex : SortExecutor) : Except ExecError (List Nat) :=
  match ex.sorted_tuples.get? ex.now_ptr with
  | some r => Except.ok r
  | none => Except.error ExecError.OutOfRange

/-- `SortExecutor::is_end`: `limit_cnt_ >= 0` compares a `size_t`. -/
def is_end (ex : SortExecutor) : Bool :=
  decide (ex.now_ptr ≥ ex.sorted_tuples.length) ||
    (decide (ex.limit_cnt_ ≥ 0) && decide (ex.now_ptr ≥ ex.limit_cnt_))

/-- A consumer's run of the executor: `beginTuple()`, then `Next()` and
`nextTuple()` until `is_end()`. -/
def run (ex : SortExecutor) (fuel : Nat) : Except ExecError (List (List Nat)) :=
  match ex.beginTuple with
  | Except.error e => Except.error e
  | Except.ok ex1 => drainExecutor is_end Next (fun s => Except.ok s.nextTuple) fuel ex1

end SortExecutor

/-! ### The order of the sort in the words of the specification -/

/-- The bytes of a column in a record. -/
def colBytes (c : ColMeta) (r : List Nat) : List Nat := (r.drop c.offset).takeD c.len 0

/-- The value of column `c` is smaller in `a` than in `b`: as integers for
an INT column, as byte strings otherwise. -/
def colValueLt (c : ColMeta) (a b : List Nat) : Prop :=
  if c.type = ColType.TYPE_INT then
    decodeInt32 (a.drop c.offset) < decodeInt32 (b.drop c.offset)
  else strLt (colBytes c a) (colBytes c b) = true

/-- The value of column `c` is the same in `a` and in `b`. -/
def colValueEq (c : ColMeta) (a b : List Nat) : Prop :=
  if c.type = ColType.TYPE_INT then
    decodeInt32 (a.drop c.offset) = decodeInt32 (b.drop c.offset)
  else colBytes c a = colBytes c b

instance colValueEq.dec (c : ColMeta) (a b : List Nat) : Decidable (colValueEq c a b) := by
  unfold colValueEq
  exact inferInstance

instance colValueLt.dec (c : ColMeta) (a b : List Nat) : Decidable (colValueLt c a b) := by
  unfold colValueLt
  exact inferInstance

/-- On the first order column on which `a` and `b` differ, `a` comes before
`b`: its value is smaller for an ascending column and larger for a
descending one. -/
def OrderedAt : List ColMeta → List Bool → List Nat → List Nat → Prop
  | c :: cols, d :: descs, a, b =>
    if colValueEq c a b then OrderedAt cols descs a b
    else if d = true then colValueLt c b a else colValueLt c a b
  | _, _, _, _ => True

/-- The records `a` and `b` agree on every order column. -/
def agreeOn (cols : List ColMeta) (a b : List Nat) : Bool :=
  cols.all (fun c => decide (colValueEq c a b))

/-- The number of tuples a sort with `limit_cnt` yields of `n`. -/
def limitCount (n : Nat) (limit_cnt : Int) : Nat :=
  if limit_cnt ≥ 0 then min n limit_cnt.toNat else n

/-- An example child over the table `t(a INT, s CHAR(2))` with four rows:
(2,"ab"), (1,"zz"), (2,"aa"), (1,"ab"). -/
def exampleSortChild : Child :=
  Child.ofTuples [⟨"t", "a", ColType.TYPE_INT, 4, 0, false⟩,
      ⟨"t", "s", ColType.TYPE_STRING, 2, 4, false⟩] 6
    [encodeInt32 2 ++ [97, 98], encodeInt32 1 ++ [122, 122], encodeInt32 2 ++ [97, 97],
     encodeInt32 1 ++ [97, 98]]

/-- The sign of an `int` comparison result as an `Ordering`. -/
def ordOfInt (x : Int) : Ordering :=
  if x < 0 then Ordering.lt else if x > 0 then Ordering.gt else Ordering.eq

/-- The result of `ix_compare` on column `c` of two records, as an
`Ordering`. -/
def colOrd (c : ColMeta) (a b : List Nat) : Ordering :=
  match ix_compare_raw (a.drop c.offset) (b.drop c.offset) c.type c.len with
  | Except.ok x => ordOfInt x
  | Except.error _ => Ordering.eq

/-- The comparison of two records that the comparator of the sort makes:
column by column, swapped on a descending column. -/
def recordOrd : List ColMeta → List Bool → List Nat → List Nat → Ordering
  | c :: cols, d :: descs, a, b =>
    (if d = true then (colOrd c a b).swap else colOrd c a b).then (recordOrd cols descs a b)
  | _, _, _, _ => Ordering.eq

/-- The relation by which the sorted vector is ordered: the comparator does
not put the second record before the first. -/
def SortLe (cols : List ColMeta) (descs : List Bool) (a b : List Nat) : Prop :=
  recordOrd cols descs b a ≠ Ordering.lt

instance SortLe.dec (cols : List ColMeta) (descs : List Bool) : DecidableRel (SortLe cols descs) :=
  fun a b => by
    unfold SortLe
    exact inferInstance

/-- A column whose values the sort claim covers: INT or a byte string. -/
def SortableCol (c : ColMeta) : Prop :=
  c.type = ColType.TYPE_INT ∨ c.type = ColType.TYPE_STRING

/-! ## `SeqScanExecutor` (`execution/executor_seq_scan.h`) -/

/-- Modelled from the spec: `RmFileHandle::is_record(rid)` of the missing
`rm_file_handle.h`: the bitmap bit of the slot is set. -/
def RmFileHandle.is_record (fh : RmFileHandle) (rid : Rid) : Bool :=
  match fh.fetch_page_handle rid.page_no with
  | Except.ok p => p.is_set rid.slot_no
  | Except.error _ => false

/-- `RmScan::get_now_record(is_add_lock)` at the position `rid_`: the shared
record lock is asked for under `is_add_lock`, `is_record(rid_)` is asserted,
and the bytes of the slot are copied out of the buffered page. -/
def RmScan.get_now_record (fh : RmFileHandle) (rid_ : Rid) (is_add_lock : Bool) (ctx : Context) :
    Except DbError (List Nat × Context) :=
  if RmScan.is_end rid_ then Except.error DbError.AssertionFailed
  else
    match (if is_add_lock then
        RmFileHandle.withLock (lock_shared_on_record ctx.lock_table_ ctx.txn_ rid_ fh.fd_)
          ctx.log_mgr_
      else Except.ok ctx) with
    | Except.error e => Except.error e
    | Except.ok ctx1 =>
      if fh.is_record rid_ then
        match fh.fetch_page_handle rid_.page_no with
        | Except.error e => Except.error e
        | Except.ok p => Except.ok (p.get_slot rid_.slot_no, ctx1)
      else Except.error DbError.AssertionFailed

/-- `SeqScanExecutor`: the members of the class; `scan_` is the position of
its `RmScan`, `none` for the null pointer before `beginTuple()`, and
`record_buffer` is `none` for a null pointer.  The heap file `fh_` and the
context are part of the state. -/
structure SeqScanExecutor where
  tab_name_ : String
  conds_ : List Condition
  fh_ : RmFileHandle
  cols_ : List ColMeta
  len_ : Nat
  fed_conds_ : List Condition
  rid_ : Rid
  scan_ : Option Rid
  record_buffer : Option (List Nat)
  context_ : Context

namespace SeqScanExecutor

/-- `SeqScanExecutor::SeqScanExecutor`: `fh` is `sm_manager->fhs_[tab_name]`
and `cols` is `sm_manager->db_.get_table(tab_name).cols`; `cols_.back()` of
an empty vector is undefined.  The member `rid_`, which the constructor
leaves unset, is (0, 0) here. -/
def create (tab_name : String) (fh : RmFileHandle) (cols : List ColMeta)
    (conds : List Condition) (context : Context) : Except ExecError SeqScanExecutor :=
  match cols.getLast? with
  | none => Except.error ExecError.Undefined
  | some back =>
    Except.ok ⟨tab_name, conds, fh, cols, back.offset + back.len, conds, ⟨0, 0⟩, none, none,
      context⟩

/-- `SeqScanExecutor::check_runtime_conds`. -/
def check_runtime_conds (ex : SeqScanExecutor) : Except ExecError Unit :=
  if ex.fed_conds_.all (fun cond => decide (cond.lhs_col.tab_name = ex.tab_name_) &&
      (cond.is_rhs_val || decide (cond.rhs_col.tab_name = ex.tab_name_))) then Except.ok ()
  else Except.error ExecError.AssertionFailed

/-- The loop that `beginTuple` and `nextTuple` share, from the position
`scan` of the `RmScan`: until the scan is at its end, the record under it
is read into `record_buffer` and the loop is left if the record satisfies
`fed_conds_`, else the scan moves on; `fuel` bounds the number of rounds. -/
def seek_loop : Nat → SeqScanExecutor → Rid → Except ExecError SeqScanExecutor
  | 0, _, _ => Except.error ExecError.OutOfFuel
  | fuel + 1, ex, scan =>
    if RmScan.is_end scan then Except.ok { ex with scan_ := some scan }
    else
      match RmScan.get_now_record ex.fh_ scan false ex.context_ with
      | Except.error e => Except.error (ExecError.Db e)
      | Except.ok (rec, ctx1) =>
        let ex1 : SeqScanExecutor :=
          { ex with rid_ := scan, record_buffer := some rec, context_ := ctx1, scan_ := some scan }
        match eval_conds ex.cols_ ex.fed_conds_ rec with
        | Except.error e => Except.error e
        | Except.ok true => Except.ok ex1
        | Except.ok false =>
          match RmScan.next ex.fh_ scan with
          | Except.error e => Except.error (ExecError.Db e)
          | Except.ok scan1 => seek_loop fuel ex1 scan1

/-- The number of rounds that bounds a scan of the file: one more than the
number of its slots. -/
def scanFuel (fh : RmFileHandle) : Nat :=
  fh.file_hdr_.num_pages * fh.file_hdr_.num_records_per_page + 1

/-- `SeqScanExecutor::beginTuple`. -/
def beginTuple (ex : SeqScanExecutor) : Except ExecError SeqScanExecutor :=
  match ex.check_runtime_conds with
  | Except.error e => Except.error e
  | Except.ok _ =>
    match RmFileHandle.withLock
        (lock_shared_on_table ex.context_.lock_table_ ex.context_.txn_ ex.fh_.fd_)
        ex.context_.log_mgr_ with
    | Except.error e => Except.error (ExecError.Db e)
    | Except.ok ctx1 =>
      match RmScan.init ex.fh_ with
      | Except.error e => Except.error (ExecError.Db e)
      | Except.ok scan => seek_loop (scanFuel ex.fh_) { ex with context_ := ctx1 } scan

/-- `SeqScanExecutor::is_end`: `scan_->is_end()`, undefined through the null
pointer before `beginTuple()`. -/
def is_end (ex : SeqScanExecutor) : Except ExecError Bool :=
  match ex.scan_ with
  | none => Except.error ExecError.Undefined
  | some scan => Except.ok (RmScan.is_end scan)

/-- `SeqScanExecutor::nextTuple`. -/
def nextTuple (ex : SeqScanExecutor) : Except ExecError SeqScanExecutor :=
  match ex.check_runtime_conds with
  | Except.error e => Except.error e
  | Except.ok _ =>
    match ex.is_end with
    | Except.error e => Except.error e
    | Except.ok true => Except.error ExecError.AssertionFailed
    | Except.ok false =>
      match ex.scan_ with
      | none => Except.error ExecError.Undefined
      | some scan =>
        match RmScan.next ex.fh_ scan with
        | Except.error e => Except.error (ExecError.Db e)
        | Except.ok scan1 => seek_loop (scanFuel ex.fh_) ex scan1

/-- `SeqScanExecutor::Next`: the record is moved out of `record_buffer`; a
null pointer returned to the consumer is undefined when it is read. -/
def Next (ex : SeqScanExecutor) : Except ExecError (List Nat × SeqScanExecutor) :=
  match ex.is_end with
  | Except.error e => Except.error e
  | Except.ok true => Except.error ExecError.AssertionFailed
  | Except.ok false =>
    match ex.record_buffer with
    | none => Except.error ExecError.Undefined
    | some rec => Except.ok (rec, { ex with record_buffer := none })

/-- The loop `for (; !e.is_end(); e.nextTuple()) out.push(e.Next())` of a
consumer; `fuel` bounds the number of rounds. -/
def run_loop : Nat → SeqScanExecutor → Except ExecError (List (List Nat))
  | 0, _ => Except.error ExecError.OutOfFuel
  | fuel + 1, ex =>
    match ex.is_end with
    | Except.error e => Except.error e
    | Except.ok true => Except.ok []
    | Except.ok false =>
      match ex.Next with
      | Except.error e => Except.error e
      | Except.ok (rec, ex1) =>
        match ex1.nextTuple with
        | Except.error e => Except.error e
        | Except.ok ex2 =>
          match run_loop fuel ex2 with
          | Except.error e => Except.error e
          | Except.ok l => Except.ok (rec :: l)

/-- A consumer's run of the executor: `beginTuple()`, then `Next()` and
`nextTuple()` until `is_end()`. -/
def run (ex : SeqScanExecutor) : Except ExecError (List (List Nat)) :=
  match ex.beginTuple with
  | Except.error e => Except.error e
  | Except.ok ex1 => run_loop (scanFuel ex.fh_) ex1

end SeqScanExecutor

/-- A condition over the columns `cols`: its left column is found and has a
type that `ix_compare` knows, and its right side is a value of that type
with its raw bytes set (and a valid text if it is a DATETIME) or a column
of `cols` of that type. -/
def CondOver (cols : List ColMeta) (cond : Condition) : Prop :=
  ∃ (i : Nat) (lhs : ColMeta), get_col cols cond.lhs_col = Except.ok (i, lhs) ∧
    lhs.type ≠ ColType.TYPE_UNUSE ∧
    if cond.is_rhs_val = true then
      cond.rhs_val.raw ≠ none ∧ cond.rhs_val.type = lhs.type ∧
        (lhs.type = ColType.TYPE_DATETIME → check_datetime_ cond.rhs_val.datetime_val = true)
    else ∃ (j : Nat) (rhs : ColMeta), get_col cols cond.rhs_col = Except.ok (j, rhs) ∧
      rhs.type = lhs.type

/-- The record satisfies every condition of the list. -/
def satisfies (cols : List ColMeta) (conds : List Condition) (rec : List Nat) : Bool :=
  conds.all (fun cond => decide (eval_cond cols cond rec = Except.ok true))

/-- An example heap file for the table `t(a INT, s CHAR(2))`: three slots
per page, rows (1,"ab") at (1,0), (5,"zz") at (1,2) and (3,"cd") at (2,1). -/
def exampleScanFile : RmFileHandle :=
  ⟨3, ⟨6, 3, 3⟩,
    [⟨INVALID_LSN, 0, [false, false, false], [[], [], []]⟩,
     ⟨INVALID_LSN, 2, [true, false, true],
       [encodeInt32 1 ++ [97, 98], [0, 0, 0, 0, 0, 0], encodeInt32 5 ++ [122, 122]]⟩,
     ⟨INVALID_LSN, 1, [false, true, false],
       [[0, 0, 0, 0, 0, 0], encodeInt32 3 ++ [99, 100], [0, 0, 0, 0, 0, 0]]⟩], [1, 2]⟩

/-- The columns of the example table `t(a INT, s CHAR(2))`. -/
def exampleScanCols : List ColMeta :=
  [⟨"t", "a", ColType.TYPE_INT, 4, 0, false⟩, ⟨"t", "s", ColType.TYPE_STRING, 2, 4, false⟩]

/-- The condition `t.a > 2` with the raw bytes of the value set. -/
def exampleScanCond : Condition :=
  ⟨⟨"t", "a"⟩, CompOp.OP_GT, true, ⟨"", ""⟩,
    { Value.ofInt 2 with raw := some (encodeInt32 2) }⟩

/-! ## `NestedLoopJoinExecutor` and `BlockNestedLoopJoinExecutor`
(`execution/executor_nestedloop_join.h`,
`execution/executor_block_nestedloop_join.h`) -/

/-- `merge_record` of the join executors: a record of `len_` bytes into
which the two records are copied one after the other; copying past its end
is undefined. -/
def merge_record (len_ : Nat) (outer_record inner_record : List Nat) :
    Except ExecError (List Nat) :=
  if outer_record.length + inner_record.length ≤ len_ then
    Except.ok (memcpy (memcpy (zeroBytes len_) 0 outer_record) outer_record.length inner_record)
  else Except.error ExecError.Undefined

/-- The columns of a join: those of the left child, then those of the right
child with their offsets moved by the tuple length of the left child. -/
def join_cols (left right : Child) : List ColMeta :=
  left.cols ++ right.cols.map (fun col => { col with offset := col.offset + left.len })

/-- The cursor of a join on a child executor whose `Next()` is
`return std::move(record_buffer)`, as that of the scan, projection, sort and
join executors of the source: the child buffers the record of its position,
`Next()` hands it out and leaves a null pointer in the buffer, and
`beginTuple()` and `nextTuple()` buffer the record of the new position.
`moved` says that the record of the position was handed out. -/
structure MovingChild where
  child : Child
  moved : Bool
deriving DecidableEq, Repr

namespace MovingChild

/-- The child's `beginTuple()`. -/
def beginTuple (c : MovingChild) : MovingChild := ⟨c.child.beginTuple, false⟩

/-- The child's `is_end()`. -/
def is_end (c : MovingChild) : Bool := c.child.is_end

/-- The child's `nextTuple()`. -/
def nextTuple (c : MovingChild) : Except ExecError MovingChild :=
  match c.child.nextTuple with
  | Except.error e => Except.error e
  | Except.ok c1 => Except.ok ⟨c1, false⟩

/-- The child's `Next()`: the record of the position, or the null pointer
(`none`) when an earlier `Next()` at this position has moved it out. -/
def Next (c : MovingChild) : Except ExecError (Option (List Nat) × MovingChild) :=
  match c.child.Next with
  | Except.error e => Except.error e
  | Except.ok r => if c.moved then Except.ok (none, c) else Except.ok (some r, { c with moved := true })

end MovingChild

/-- `NestedLoopJoinExecutor`: the two children, the length and the columns
of the joined records, the merged record (`none` for a null pointer) and
the conditions. -/
structure NestedLoopJoinExecutor where
  outer_ : MovingChild
  inner_ : MovingChild
  len_ : Nat
  cols_ : List ColMeta
  merged_rec : Option (List Nat)
  fed_conds_ : List Condition
deriving DecidableEq, Repr

namespace NestedLoopJoinExecutor

/-- `NestedLoopJoinExecutor::NestedLoopJoinExecutor`. -/
def create (left right : Child) (conds : List Condition) : NestedLoopJoinExecutor :=
  ⟨⟨left, false⟩, ⟨right, false⟩, left.len + right.len, join_cols left right, none, conds⟩

/-- `NestedLoopJoinExecutor::is_end`. -/
def is_end (ex : NestedLoopJoinExecutor) : Bool := ex.outer_.is_end

/-- The three statements `outer_rec = outer_->Next()`,
`inner_rec = inner_->Next()` and `merged_rec = merge_record(outer_rec,
inner_rec)` with the test `eval_conds(this, fed_conds_, merged_rec)` that
follows them: `merge_record` reads `outer_record->data` and
`inner_record->data`, which is undefined through a null pointer. -/
def merge_now (ex : NestedLoopJoinExecutor) : Except ExecError (NestedLoopJoinExecutor × Bool) :=
  match ex.outer_.Next with
  | Except.error e => Except.error e
  | Except.ok (outer_rec, outer1) =>
    match ex.inner_.Next with
    | Except.error e => Except.error e
    | Except.ok (inner_rec, inner1) =>
      match outer_rec, inner_rec with
      | some o, some i =>
        match merge_record ex.len_ o i with
        | Except.error e => Except.error e
        | Except.ok m =>
          match eval_conds ex.cols_ ex.fed_conds_ m with
          | Except.error e => Except.error e
          | Except.ok b =>
            Except.ok ({ ex with outer_ := outer1, inner_ := inner1, merged_rec := some m }, b)
      | _, _ => Except.error ExecError.Undefined

/-- The `for` loop of `beginTuple` over the inner child, entered with
`break_enable` false: the value returned with the state is `break_enable`. -/
def begin_inner_loop : Nat → NestedLoopJoinExecutor →
    Except ExecError (NestedLoopJoinExecutor × Bool)
  | 0, _ => Except.error ExecError.OutOfFuel
  | fuel + 1, ex =>
    if ex.inner_.is_end then Except.ok (ex, false)
    else
      match ex.merge_now with
      | Except.error e => Except.error e
      | Except.ok (ex1, true) => Except.ok (ex1, true)
      | Except.ok (ex1, false) =>
        match ex1.inner_.nextTuple with
        | Except.error e => Except.error e
        | Except.ok inner1 => begin_inner_loop fuel { ex1 with inner_ := inner1 }

/-- The `while(true)` loop of `beginTuple`. -/
def begin_loop : Nat → NestedLoopJoinExecutor → Except ExecError NestedLoopJoinExecutor
  | 0, _ => Except.error ExecError.OutOfFuel
  | fuel + 1, ex =>
    let break_enable := ex.is_end
    let ex1 := { ex with inner_ := ex.inner_.beginTuple }
    if break_enable then Except.ok ex1
    else
      match begin_inner_loop (ex1.inner_.child.tuples.length + 1) ex1 with
      | Except.error e => Except.error e
      | Except.ok (ex2, true) => Except.ok ex2
      | Except.ok (ex2, false) =>
        match ex2.outer_.nextTuple with
        | Except.error e => Except.error e
        | Except.ok outer1 =>
          begin_loop fuel { ex2 with outer_ := outer1, inner_ := ex2.inner_.beginTuple }

/-- `NestedLoopJoinExecutor::beginTuple`; the rounds of its loop are bounded
by the number of outer tuples. -/
def beginTuple (ex : NestedLoopJoinExecutor) : Except ExecError NestedLoopJoinExecutor :=
  begin_loop (ex.outer_.child.tuples.length + 1) { ex with outer_ := ex.outer_.beginTuple }

/-- The move of the cursors at the head of the loop of `nextTuple`: the
next inner tuple, else the next outer tuple with the first inner tuple; the
value returned with the state is true when the loop is left by the `break`
at the end of the outer child. -/
def move_next (ex : NestedLoopJoinExecutor) : Except ExecError (NestedLoopJoinExecutor × Bool) :=
  match ex.inner_.nextTuple with
  | Except.error e => Except.error e
  | Except.ok inner1 =>
    let ex1 := { ex with inner_ := inner1 }
    if ex1.inner_.is_end then
      match ex1.outer_.nextTuple with
      | Except.error e => Except.error e
      | Except.ok outer1 =>
        let ex2 := { ex1 with outer_ := outer1 }
        if ex2.is_end then Except.ok (ex2, true)
        else Except.ok ({ ex2 with inner_ := ex2.inner_.beginTuple }, false)
    else Except.ok (ex1, false)

/-- The `while(!is_end())` loop of `nextTuple`. -/
def next_loop : Nat → NestedLoopJoinExecutor → Except ExecError NestedLoopJoinExecutor
  | 0, _ => Except.error ExecError.OutOfFuel
  | fuel + 1, ex =>
    if ex.is_end then Except.ok ex
    else
      match ex.move_next with
      | Except.error e => Except.error e
      | Except.ok (ex3, true) => Except.ok ex3
      | Except.ok (ex3, false) =>
        match ex3.merge_now with
        | Except.error e => Except.error e
        | Except.ok (ex4, true) => Except.ok ex4
        | Except.ok (ex4, false) => next_loop fuel ex4

/-- `NestedLoopJoinExecutor::nextTuple`; the rounds of its loop are bounded
by the number of pairs. -/
def nextTuple (ex : NestedLoopJoinExecutor) : Except ExecError NestedLoopJoinExecutor :=
  next_loop (ex.outer_.child.tuples.length * ex.inner_.child.tuples.length + 1) ex

/-- `NestedLoopJoinExecutor::Next`: the merged record is moved out, which a
consumer's loop does not read again before `nextTuple()`. -/
def Next (ex : NestedLoopJoinExecutor) : Except ExecError (List Nat) :=
  match ex.merged_rec with
  | some r => Except.ok r
  | none => Except.error ExecError.Undefined

/-- A consumer's run of the executor: `beginTuple()`, then `Next()` and
`nextTuple()` until `is_end()`. -/
def run (ex : NestedLoopJoinExecutor) (fuel : Nat) : Except ExecError (List (List Nat)) :=
  match ex.beginTuple with
  | Except.error e => Except.error e
  | Except.ok ex1 => drainExecutor is_end Next nextTuple fuel ex1

end NestedLoopJoinExecutor

/-- `BUFFER_JOIN_SIZE`. -/
def BUFFER_JOIN_SIZE : Nat := 64 * 1024 * 1024

/-- A record written into slot `i` of the join buffer, the bytes at
`buffer_join + i * outer_len_`; the buffer is the list of the slots written
so far, and the slots are written from the first on. -/
def store_slot (buffer : List (List Nat)) (i : Nat) (rec : List Nat) : List (List Nat) :=
  buffer.take i ++ rec :: buffer.drop (i + 1)

/-- `BlockNestedLoopJoinExecutor`: the members of the class; the buffer is
the list of its record slots, `buffer_stored_cnt` is `none` while it is
unset, and the records are `none` for a null pointer. -/
structure BlockNestedLoopJoinExecutor where
  outer_ : Child
  inner_ : Child
  len_ : Nat
  outer_len_ : Nat
  cols_ : List ColMeta
  merged_rec : Option (List Nat)
  fed_conds_ : List Condition
  buffer_inner_ : Option (List Nat)
  buffer_join : List (List Nat)
  is_end_ : Bool
  buffer_join_ptr : Nat
  buffer_stored_cnt : Option Nat
deriving DecidableEq, Repr

namespace BlockNestedLoopJoinExecutor

/-- `BlockNestedLoopJoinExecutor::BlockNestedLoopJoinExecutor`. -/
def create (left right : Child) (conds : List Condition) : BlockNestedLoopJoinExecutor :=
  ⟨left, right, left.len + right.len, left.len, join_cols left right, none, conds, none, [],
    false, 0, none⟩

/-- `BlockNestedLoopJoinExecutor::is_end`. -/
def is_end (ex : BlockNestedLoopJoinExecutor) : Bool := ex.is_end_

/-- The `while(true)` loop of `prefetch`: the outer child, the buffer and
`now_strored_recnum`; reading `outer_len_` bytes of a shorter record is
undefined. -/
def prefetch_loop (outer_len_ max_stored_recnum : Nat) :
    Nat → Child → List (List Nat) → Nat → Except ExecError (Child × List (List Nat) × Nat)
  | 0, _, _, _ => Except.error ExecError.OutOfFuel
  | fuel + 1, outer, buffer, now_strored_recnum =>
    if outer.is_end || decide (now_strored_recnum ≥ max_stored_recnum) then
      Except.ok (outer, buffer, now_strored_recnum)
    else
      match outer.Next with
      | Except.error e => Except.error e
      | Except.ok rec =>
        if rec.length < outer_len_ then Except.error ExecError.Undefined
        else
          match outer.nextTuple with
          | Except.error e => Except.error e
          | Except.ok outer1 =>
            prefetch_loop outer_len_ max_stored_recnum fuel outer1
              (store_slot buffer now_strored_recnum (rec.take outer_len_))
              (now_strored_recnum + 1)

/-- `BlockNestedLoopJoinExecutor::prefetch`: the division by an
`outer_len_` of zero is undefined. -/
def prefetch (ex : BlockNestedLoopJoinExecutor) :
    Except ExecError (Bool × BlockNestedLoopJoinExecutor) :=
  if ex.outer_len_ = 0 then Except.error ExecError.Undefined
  else
    let max_stored_recnum := BUFFER_JOIN_SIZE / ex.outer_len_
    if ex.outer_.is_end then Except.ok (false, ex)
    else
      match prefetch_loop ex.outer_len_ max_stored_recnum (ex.outer_.tuples.length + 1)
          ex.outer_ ex.buffer_join 0 with
      | Except.error e => Except.error e
      | Except.ok (outer1, buffer, now_strored_recnum) =>
        Except.ok (true, { ex with outer_ := outer1, buffer_join := buffer,
                                   buffer_stored_cnt := some now_strored_recnum })

/-- The assertion `buffer_join_ptr >= 0 && buffer_join_ptr <
buffer_stored_cnt`. -/
def assert_ptr (ex : BlockNestedLoopJoinExecutor) : Except ExecError Unit :=
  match ex.buffer_stored_cnt with
  | none => Except.error ExecError.Undefined
  | some cnt =>
    if ex.buffer_join_ptr < cnt then Except.ok () else Except.error ExecError.AssertionFailed

/-- The merged record of the buffered outer record at `buffer_join_ptr` and
the buffered inner record, and whether it satisfies the conditions. -/
def merge_now (ex : BlockNestedLoopJoinExecutor) :
    Except ExecError (BlockNestedLoopJoinExecutor × Bool) :=
  match ex.buffer_join.get? ex.buffer_join_ptr with
  | none => Except.error ExecError.Undefined
  | some outer_buff_rec_ =>
    match ex.buffer_inner_ with
    | none => Except.error ExecError.Undefined
    | some inner_rec =>
      match merge_record ex.len_ outer_buff_rec_ inner_rec with
      | Except.error e => Except.error e
      | Except.ok m =>
        match eval_conds ex.cols_ ex.fed_conds_ m with
        | Except.error e => Except.error e
        | Except.ok b => Except.ok ({ ex with merged_rec := some m }, b)

/-- The move to the next pair that `beginTuple` and `nextTuple` share: the
next buffered outer record, else the next inner record with the first
buffered outer record, else the next block of outer records with the first
inner record, else the end. -/
def advance (ex : BlockNestedLoopJoinExecutor) : Except ExecError BlockNestedLoopJoinExecutor :=
  let ex1 := { ex with buffer_join_ptr := ex.buffer_join_ptr + 1 }
  match ex1.buffer_stored_cnt with
  | none => Except.error ExecError.Undefined
  | some cnt =>
    if ex1.buffer_join_ptr ≥ cnt then
      let ex2 := { ex1 with buffer_join_ptr := 0 }
      match ex2.inner_.nextTuple with
      | Except.error e => Except.error e
      | Except.ok inner1 =>
        let ex3 := { ex2 with inner_ := inner1 }
        if ex3.inner_.is_end then
          match ex3.prefetch with
          | Except.error e => Except.error e
          | Except.ok (false, ex4) => Except.ok { ex4 with is_end_ := true }
          | Except.ok (true, ex4) =>
            let ex5 := { ex4 with inner_ := ex4.inner_.beginTuple }
            match ex5.inner_.Next with
            | Except.error e => Except.error e
            | Except.ok r => Except.ok { ex5 with buffer_inner_ := some r }
        else
          match ex3.inner_.Next with
          | Except.error e => Except.error e
          | Except.ok r => Except.ok { ex3 with buffer_inner_ := some r }
    else Except.ok ex1

/-- The `while(true)` loop of `beginTuple`. -/
def begin_loop : Nat → BlockNestedLoopJoinExecutor → Except ExecError BlockNestedLoopJoinExecutor
  | 0, _ => Except.error ExecError.OutOfFuel
  | fuel + 1, ex =>
    if ex.is_end then Except.ok ex
    else
      match ex.assert_ptr with
      | Except.error e => Except.error e
      | Except.ok _ =>
        match ex.merge_now with
        | Except.error e => Except.error e
        | Except.ok (ex1, true) => Except.ok ex1
        | Except.ok (ex1, false) =>
          match ex1.advance with
          | Except.error e => Except.error e
          | Except.ok ex2 => begin_loop fuel ex2

/-- `BlockNestedLoopJoinExecutor::beginTuple`; the rounds of its loop are
bounded by the number of pairs. -/
def beginTuple (ex : BlockNestedLoopJoinExecutor) :
    Except ExecError BlockNestedLoopJoinExecutor :=
  let ex1 := { ex with outer_ := ex.outer_.beginTuple }
  match ex1.prefetch with
  | Except.error e => Except.error e
  | Except.ok (b, ex2) =>
    let ex3 := { ex2 with is_end_ := !b, inner_ := ex2.inner_.beginTuple }
    if ex3.inner_.is_end then Except.ok { ex3 with is_end_ := true }
    else
      match ex3.inner_.Next with
      | Except.error e => Except.error e
      | Except.ok r =>
        begin_loop (ex3.outer_.tuples.length * ex3.inner_.tuples.length + 1)
          { ex3 with buffer_inner_ := some r }

/-- The `while(true)` loop of `nextTuple`. -/
def next_loop : Nat → BlockNestedLoopJoinExecutor → Except ExecError BlockNestedLoopJoinExecutor
  | 0, _ => Except.error ExecError.OutOfFuel
  | fuel + 1, ex =>
    if ex.is_end then Except.ok ex
    else if ex.inner_.is_end then Except.error ExecError.AssertionFailed
    else
      match ex.advance with
      | Except.error e => Except.error e
      | Except.ok ex1 =>
        match ex1.assert_ptr with
        | Except.error e => Except.error e
        | Except.ok _ =>
          if ex1.is_end then Except.ok ex1
          else
            match ex1.merge_now with
            | Except.error e => Except.error e
            | Except.ok (ex2, true) => Except.ok ex2
            | Except.ok (ex2, false) => next_loop fuel ex2

/-- `BlockNestedLoopJoinExecutor::nextTuple`; the rounds of its loop are
bounded by the number of pairs. -/
def nextTuple (ex : BlockNestedLoopJoinExecutor) : Except ExecError BlockNestedLoopJoinExecutor :=
  next_loop (ex.outer_.tuples.length * ex.inner_.tuples.length + 1) ex

/-- `BlockNestedLoopJoinExecutor::Next`: the merged record is moved out,
which a consumer's loop does not read again before `nextTuple()`. -/
def Next (ex : BlockNestedLoopJoinExecutor) : Except ExecError (List Nat) :=
  match ex.merged_rec with
  | some r => Except.ok r
  | none => Except.error ExecError.Undefined

/-- A consumer's run of the executor: `beginTuple()`, then `Next()` and
`nextTuple()` until `is_end()`. -/
def run (ex : BlockNestedLoopJoinExecutor) (fuel : Nat) : Except ExecError (List (List Nat)) :=
  match ex.beginTuple with
  | Except.error e => Except.error e
  | Except.ok ex1 => drainExecutor is_end Next nextTuple fuel ex1

end BlockNestedLoopJoinExecutor

/-! ### The pairs of a join in the words of the specification -/

/-- The pairs of a nested-loop join before the conditions: outer tuple by
outer tuple, each with every inner tuple. -/
def nljPairs (outer inner : List (List Nat)) : List (List Nat) :=
  outer.flatMap (fun o => inner.map (fun i => o ++ i))

/-- The pairs of one block of outer tuples: inner tuple by inner tuple,
each with every outer tuple of the block. -/
def blockPairs (block inner : List (List Nat)) : List (List Nat) :=
  inner.flatMap (fun i => block.map (fun o => o ++ i))

/-- The pairs of a block nested-loop join with blocks of `k` outer tuples
before the conditions: block by block; `fuel` bounds the number of blocks. -/
def bnljPairs (k : Nat) (inner : List (List Nat)) : Nat → List (List Nat) → List (List Nat)
  | 0, _ => []
  | _, [] => []
  | fuel + 1, o :: rest =>
    blockPairs ((o :: rest).take k) inner ++ bnljPairs k inner fuel ((o :: rest).drop k)

/-- The members of a nested-loop join that its loops leave as they are. -/
def NljOf (O I : List (List Nat)) (len : Nat) (cols : List ColMeta) (conds : List Condition)
    (ex : NestedLoopJoinExecutor) : Prop :=
  ex.outer_.child.tuples = O ∧ ex.inner_.child.tuples = I ∧ ex.len_ = len ∧ ex.cols_ = cols ∧
    ex.fed_conds_ = conds

/-- The cursors of a nested-loop join over the inner child `[i]` stand at
the first of the remaining candidates `R`. -/
def NestedLoopJoinExecutor.SingleAt (O : List (List Nat)) (i : List Nat) (sat : List Nat → Bool)
    (ex : NestedLoopJoinExecutor) (R : List (List Nat)) : Prop :=
  (ex.outer_.is_end = true ∧ R = []) ∨
  ∃ o O2, O.drop ex.outer_.child.pos = o :: O2 ∧ R = (o ++ i) :: O2.map (fun x => x ++ i) ∧
    ex.merged_rec = some (o ++ i) ∧ sat (o ++ i) = true ∧ ex.inner_.child.pos = 0

/-- The members of a block nested-loop join that its loops leave as they
are. -/
def BnljOf (O I : List (List Nat)) (len : Nat) (cols : List ColMeta) (conds : List Condition)
    (outer_len : Nat) (ex : BlockNestedLoopJoinExecutor) : Prop :=
  ex.outer_.tuples = O ∧ ex.inner_.tuples = I ∧ ex.len_ = len ∧ ex.cols_ = cols ∧
    ex.fed_conds_ = conds ∧ ex.outer_len_ = outer_len

/-- The state of a block nested-loop join stands at the first of the pairs
`R` that remain: at its end when none remains, else at a buffered outer
tuple and the buffered inner tuple, with the later tuples of the buffer,
then the later inner tuples with the whole buffer, then the blocks of the
outer tuples not yet fetched to come. -/
def BnljAt (O I : List (List Nat)) (k : Nat) (ex : BlockNestedLoopJoinExecutor)
    (R : List (List Nat)) : Prop :=
  (ex.is_end_ = true ∧ R = []) ∨
  (ex.is_end_ = false ∧
    ∃ (blk : List (List Nat)) (o : List Nat) (blk2 : List (List Nat)) (i : List Nat)
      (I2 : List (List Nat)),
      ex.buffer_stored_cnt = some (blk.length + 1 + blk2.length) ∧
      ex.buffer_join.take (blk.length + 1 + blk2.length) = blk ++ o :: blk2 ∧
      (∀ x ∈ blk ++ o :: blk2, x ∈ O) ∧
      ex.buffer_join_ptr = blk.length ∧ ex.buffer_inner_ = some i ∧
      I.drop ex.inner_.pos = i :: I2 ∧ ex.outer_.pos ≤ O.length ∧
      R = (o :: blk2).map (fun x => x ++ i) ++ blockPairs (blk ++ o :: blk2) I2 ++
        bnljPairs k I O.length (O.drop ex.outer_.pos))

/-- An example outer child over `t(a INT)` with the rows 1, 2, 3. -/
def exampleOuterChild : Child :=
  Child.ofTuples [⟨"t", "a", ColType.TYPE_INT, 4, 0, false⟩] 4
    [encodeInt32 1, encodeInt32 2, encodeInt32 3]

/-- An example inner child over `u(b INT)` with the rows 2, 3, 1, 3. -/
def exampleInnerChild : Child :=
  Child.ofTuples [⟨"u", "b", ColType.TYPE_INT, 4, 0, false⟩] 4
    [encodeInt32 2, encodeInt32 3, encodeInt32 1, encodeInt32 3]

/-- The condition `t.a <= u.b`. -/
def exampleJoinCond : Condition :=
  ⟨⟨"t", "a"⟩, CompOp.OP_LE, false, ⟨"u", "b"⟩, Value.blank ColType.TYPE_INT⟩

/-! ## `Value::operator<` (`common/common.h`) and the form of a DATETIME -/

/-- `Value::operator<`: the assertion is `this->type != v.type`. -/
def Value.lt (a b : Value) : Except ExecError Bool :=
  if ¬ (a.type ≠ b.type) then Except.error ExecError.AssertionFailed
  else
    match a.type with
    | ColType.TYPE_INT => Except.ok (decide (a.int_val < b.int_val))
    | ColType.TYPE_FLOAT => Except.ok (floatLt a.float_val b.float_val)
    | ColType.TYPE_BIGINT => Except.ok (decide (a.bigint_val < b.bigint_val))
    | ColType.TYPE_DATETIME => Except.ok (strLt a.datetime_val b.datetime_val)
    | ColType.TYPE_STRING => Except.ok (strLt a.str_val b.str_val)
    | ColType.TYPE_UNUSE => Except.error ExecError.AssertionFailed

/-- The typed order of the payloads of two values of one type, in the words
of the specification: signed integer order for INT and BIGINT,
lexicographic order for STRING and DATETIME. -/
def payloadLt (a b : Value) : Bool :=
  match a.type with
  | ColType.TYPE_INT => decide (a.int_val < b.int_val)
  | ColType.TYPE_BIGINT => decide (a.bigint_val < b.bigint_val)
  | ColType.TYPE_DATETIME => strLt a.datetime_val b.datetime_val
  | ColType.TYPE_STRING => strLt a.str_val b.str_val
  | _ => false

/-- The number that the decimal digits at the positions `i`, ..., `i + n - 1`
of a string denote. -/
def digitsAt (s : List Nat) (i : Nat) : Nat → Nat
  | 0 => 0
  | n + 1 => digitsAt s i n * 10 + (s.getD (i + n) 0 - 48)

/-- The form of a DATETIME in the words of the specification: 19 characters
`DDDD-DD-DD DD:DD:DD` with the year in 1000..9999, the month in 1..12, the
day in 1..31, the hour in 0..23, minute and second in 0..59, and not the
30th of month 02. -/
def DatetimeForm (s : List Nat) : Prop :=
  s.length = 19 ∧
  (∀ i ∈ [0, 1, 2, 3, 5, 6, 8, 9, 11, 12, 14, 15, 17, 18], 48 ≤ s.getD i 0 ∧ s.getD i 0 ≤ 57) ∧
  s.getD 4 0 = 45 ∧ s.getD 7 0 = 45 ∧ s.getD 10 0 = 32 ∧ s.getD 13 0 = 58 ∧ s.getD 16 0 = 58 ∧
  1000 ≤ digitsAt s 0 4 ∧ digitsAt s 0 4 ≤ 9999 ∧
  1 ≤ digitsAt s 5 2 ∧ digitsAt s 5 2 ≤ 12 ∧
  1 ≤ digitsAt s 8 2 ∧ digitsAt s 8 2 ≤ 31 ∧
  digitsAt s 11 2 ≤ 23 ∧ digitsAt s 14 2 ≤ 59 ∧ digitsAt s 17 2 ≤ 59 ∧
  ¬ (digitsAt s 5 2 = 2 ∧ digitsAt s 8 2 = 30)

/-! ## A committed run and recovery on its heap -/

/-- A run of one transaction: `TransactionManager::begin`, heap operations
under its context, `TransactionManager::commit`; the heap with the effects
of the operations and the log manager after the flush of the commit. -/
def runThenCommit (txn_id : Int) (ops : List HeapOp) (sm : SmManager) (lt : LockTable)
    (log : LogManager) : Except DbError (SmManager × LogManager) :=
  match runHeapOps ops sm ⟨lt, (TransactionManager.begin txn_id log).2,
      (TransactionManager.begin txn_id log).1⟩ with
  | Except.error e => Except.error e
  | Except.ok (sm1, ctx1) =>
    Except.ok (sm1, (TransactionManager.commit ctx1.lock_table_ ctx1.log_mgr_ ctx1.txn_).2.1)

/-- Recovery on the heap and the log that a committed run leaves. -/
def recoverAfterRun (txn_id : Int) (ops : List HeapOp) (sm : SmManager) (lt : LockTable)
    (log : LogManager) : Except DbError RecoveryState :=
  match runThenCommit txn_id ops sm lt log with
  | Except.error e => Except.error e
  | Except.ok (sm1, log1) => RecoveryManager.recover sm1 log1

/-- A log manager with an empty log file and an empty buffer. -/
def emptyLog : LogManager := ⟨0, -1, [], 0, 4096, []⟩

/-! ## The lattice of lock modes in the words of the specification -/

/-- The order IS < {IX, S} < SIX < X of the lock modes. -/
def lockLe (a b : LockMode) : Bool :=
  decide (a = b) || decide (a = LockMode.INTENTION_SHARED) || decide (b = LockMode.EXLUCSIVE) ||
    (decide (b = LockMode.S_IX) &&
      (decide (a = LockMode.INTENTION_EXCLUSIVE) || decide (a = LockMode.SHARED)))

/-- The least upper bound of two lock modes in that order. -/
def lockLub (a b : LockMode) : LockMode :=
  if a = b then a
  else if a = LockMode.INTENTION_SHARED then b
  else if b = LockMode.INTENTION_SHARED then a
  else if a = LockMode.EXLUCSIVE ∨ b = LockMode.EXLUCSIVE then LockMode.EXLUCSIVE
  else LockMode.S_IX

/-! ## `Analyze::check_column` (`analyze/analyze.cpp`) -/

/-- The exceptions of `check_column`. -/
inductive AnalyzeError where
  | AmbiguousColumn
  | ColumnNotFound
deriving DecidableEq, Repr

/-- The loop of `check_column` over `all_cols` for a target without a table
name; `tab_name` is the local variable of that name. -/
def check_column_loop : List ColMeta → String → String → Except AnalyzeError String
  | [], _, tab_name => Except.ok tab_name
  | col :: rest, col_name, tab_name =>
    if col.name = col_name then
      if tab_name ≠ "" then Except.error AnalyzeError.AmbiguousColumn
      else check_column_loop rest col_name col.tab_name
    else check_column_loop rest col_name tab_name

/-- `Analyze::check_column`. -/
def check_column (all_cols : List ColMeta) (target : TabCol) : Except AnalyzeError TabCol :=
  if target.tab_name = "" then
    match check_column_loop all_cols target.col_name "" with
    | Except.error e => Except.error e
    | Except.ok tab_name =>
      if tab_name = "" then Except.error AnalyzeError.ColumnNotFound
      else Except.ok { target with tab_name := tab_name }
  else if all_cols.any (fun col => decide (target.tab_name = col.tab_name) &&
      decide (col.name = target.col_name)) then Except.ok target
  else Except.error AnalyzeError.ColumnNotFound

/-! ## A log file with a wrong total length -/

/-- The bytes of one INSERT record of 45 bytes whose header field
`log_tot_len_` has been overwritten with 1000: the extent of the record
runs past the end of the file. -/
def corruptLog : List Nat :=
  memcpy (InsertLogRecord 1 [2, 0, 0, 0] ⟨1, 0⟩ "t").layout OFFSET_LOG_TOT_LEN (encodeInt32 1000)

/-! ## `RmScan` with the buffer pool in view (`record/rm_scan.cpp`,
`record/rm_scan.h`) -/

/-- The pin count of a page: that of the frame that holds it, 0 for a page
that is not in the pool. -/
def BufferPoolManager.pinCount (bp : BufferPoolManager) (id : PageId) : Int :=
  match bp.lookup id with
  | some frame_id => (bp.frame frame_id).pin_count_
  | none => 0

/-- The members of an `RmScan` that the pin discipline depends on: the
position `rid_` and `page_buffer.page`, the frame of the buffered page
(`none` for `nullptr`). -/
structure PinnedScan where
  rid_ : Rid
  page_buffer : Option Int
deriving DecidableEq, Repr

namespace PinnedScan

/-- `file_handle_->fetch_page_handle(page_no)`: the page is fetched from
the pool, which pins it; the handle holds the frame and shows the content
of the page.  A handle on `nullptr` (no frame could be found) is not
usable. -/
def fetch_page_handle (fh : RmFileHandle) (bp : BufferPoolManager) (page_no : Int) :
    Except DbError ((Int × RmPage) × BufferPoolManager) :=
  match fh.fetch_page_handle page_no with
  | Except.error e => Except.error e
  | Except.ok p =>
    match bp.fetch_page ⟨fh.fd_, page_no⟩ with
    | Except.error e => Except.error e
    | Except.ok (none, _) => Except.error DbError.AssertionFailed
    | Except.ok (some frame_id, bp1) => Except.ok ((frame_id, p), bp1)

/-- The loop of `RmScan::RmScan`: every page is fetched, searched for its
first occupied slot, and unpinned by the `unpin_page_guard` when the round
ends, also on `break`. -/
def ctor_loop (fh : RmFileHandle) :
    List Int → BufferPoolManager → Except DbError (Option Rid × BufferPoolManager)
  | [], bp => Except.ok (none, bp)
  | page_no :: rest, bp =>
    match fetch_page_handle fh bp page_no with
    | Except.error e => Except.error e
    | Except.ok ((_, tmp_page_hd), bp1) =>
      let ind := tmp_page_hd.next_bit fh.file_hdr_.num_records_per_page (-1)
      match bp1.unpin_page ⟨fh.fd_, page_no⟩ false with
      | Except.error e => Except.error e
      | Except.ok (_, bp2) =>
        if ind = fh.file_hdr_.num_records_per_page then ctor_loop fh rest bp2
        else Except.ok (some ⟨page_no, ind⟩, bp2)

/-- `RmScan::RmScan`: after the loop the page of the first record is
fetched into `page_buffer`; with no record `page_buffer.page` stays
`nullptr`. -/
def create (fh : RmFileHandle) (bp : BufferPoolManager) :
    Except DbError (PinnedScan × BufferPoolManager) :=
  match ctor_loop fh (pageRange 1 fh.file_hdr_.num_pages) bp with
  | Except.error e => Except.error e
  | Except.ok (none, bp1) => Except.ok (⟨⟨INVALID_PAGE_ID, 0⟩, none⟩, bp1)
  | Except.ok (some rid, bp1) =>
    match fetch_page_handle fh bp1 rid.page_no with
    | Except.error e => Except.error e
    | Except.ok ((frame_id, _), bp2) => Except.ok (⟨rid, some frame_id⟩, bp2)

/-- `RmScan::update_page_buffer(page_no)`: the buffered page is unpinned
when it is another page than `page_no`; the page `page_no` is fetched when
it is not the buffered one and not `INVALID_PAGE_ID`.  The member
`page_buffer` is assigned only by the fetch. -/
def update_page_buffer (fh : RmFileHandle) (s : PinnedScan) (bp : BufferPoolManager)
    (page_no : Int) : Except DbError (PinnedScan × BufferPoolManager) :=
  let first : Except DbError BufferPoolManager :=
    match s.page_buffer with
    | some frame_id =>
      if page_no ≠ (bp.frame frame_id).id_.page_no then
        match bp.unpin_page (bp.frame frame_id).id_ false with
        | Except.error e => Except.error e
        | Except.ok (_, bp1) => Except.ok bp1
      else Except.ok bp
    | none => Except.ok bp
  match first with
  | Except.error e => Except.error e
  | Except.ok bp1 =>
    let differs : Bool :=
      match s.page_buffer with
      | some frame_id => decide (page_no ≠ (bp1.frame frame_id).id_.page_no)
      | none => true
    if differs ∧ page_no ≠ INVALID_PAGE_ID then
      match fetch_page_handle fh bp1 page_no with
      | Except.error e => Except.error e
      | Except.ok ((frame_id, _), bp2) => Except.ok ({ s with page_buffer := some frame_id }, bp2)
    else Except.ok (s, bp1)

/-- The loop of `RmScan::next` over the pages from `rid_.page_no` on:
`none` when it ends with `is_all_empty` still true. -/
def next_loop (fh : RmFileHandle) :
    List Int → Int → PinnedScan → BufferPoolManager →
      Except DbError (Option Rid × PinnedScan × BufferPoolManager)
  | [], _, s, bp => Except.ok (none, s, bp)
  | page_no :: rest, tmp_slot_no, s, bp =>
    match update_page_buffer fh s bp page_no with
    | Except.error e => Except.error e
    | Except.ok (s1, bp1) =>
      match fh.fetch_page_handle page_no with
      | Except.error e => Except.error e
      | Except.ok page =>
        let ind := page.next_bit fh.file_hdr_.num_records_per_page tmp_slot_no
        if ind = fh.file_hdr_.num_records_per_page then next_loop fh rest (-1) s1 bp1
        else Except.ok (some ⟨page_no, ind⟩, s1, bp1)

/-- `RmScan::next`. -/
def next (fh : RmFileHandle) (s : PinnedScan) (bp : BufferPoolManager) :
    Except DbError (PinnedScan × BufferPoolManager) :=
  if s.rid_.page_no = INVALID_PAGE_ID then Except.error DbError.AssertionFailed
  else
    match next_loop fh (pageRange s.rid_.page_no fh.file_hdr_.num_pages) s.rid_.slot_no s bp with
    | Except.error e => Except.error e
    | Except.ok (some rid, s1, bp1) => Except.ok ({ s1 with rid_ := rid }, bp1)
    | Except.ok (none, s1, bp1) =>
      let s2 : PinnedScan := { s1 with rid_ := { s1.rid_ with page_no := INVALID_PAGE_ID } }
      update_page_buffer fh s2 bp1 s2.rid_.page_no

/-- `RmScan::is_end`. -/
def is_end (s : PinnedScan) : Bool := s.rid_.page_no == INVALID_PAGE_ID

/-- `RmScan::~RmScan`: `update_page_buffer(INVALID_PAGE_ID)`. -/
def destroy (fh : RmFileHandle) (s : PinnedScan) (bp : BufferPoolManager) :
    Except DbError BufferPoolManager :=
  match update_page_buffer fh s bp INVALID_PAGE_ID with
  | Except.error e => Except.error e
  | Except.ok (_, bp1) => Except.ok bp1

/-- The loop `while (!scan.is_end()) scan.next();` of a caller; `fuel`
bounds the number of rounds. -/
def drive (fh : RmFileHandle) :
    Nat → PinnedScan → BufferPoolManager → Except DbError (PinnedScan × BufferPoolManager)
  | 0, _, _ => Except.error DbError.Exit
  | fuel + 1, s, bp =>
    if s.is_end then Except.ok (s, bp)
    else
      match next fh s bp with
      | Except.error e => Except.error e
      | Except.ok (s1, bp1) => drive fh fuel s1 bp1

/-- A scan from its construction over the loop to its destruction: the
buffer pool it leaves. -/
def run (fh : RmFileHandle) (bp : BufferPoolManager) : Except DbError BufferPoolManager :=
  match create fh bp with
  | Except.error e => Except.error e
  | Except.ok (s, bp1) =>
    match drive fh (fh.file_hdr_.num_pages * fh.file_hdr_.num_records_per_page + 1) s bp1 with
    | Except.error e => Except.error e
    | Except.ok (s1, bp2) => destroy fh s1 bp2

end PinnedScan

/-- The example pool in which page 1 of file 3 is pinned once by a holder
other than the scan (for example by a scan of the same file that stands on
this page). -/
def examplePoolHeld : BufferPoolManager :=
  poolAfter [BufferPoolCall.fetch_page ⟨3, 1⟩] examplePool

/-! ## `UpdateExecutor` (`execution/executor_update.h`) -/

/-- `SetClause` of `common.h`. -/
structure SetClause where
  lhs : TabCol
  rhs : Value
  set_op : SetOp
deriving DecidableEq, Repr

/-- `IndexMeta` of `sm_meta.h` as the executors use it: the columns of the
index, and the name of the index file that `get_index_name(tab_name, cols)`
gives (`ix_manager.h` is not among the sources).  `col_num` and
`col_tot_len` are the number of the columns and the sum of their lengths. -/
structure IndexMetaCols where
  index_name : String
  cols : List ColMeta
deriving DecidableEq, Repr

/-- `TabMeta` of `sm_meta.h`. -/
structure TabMeta where
  name : String
  cols : List ColMeta
  indexes : List IndexMetaCols
deriving DecidableEq, Repr

/-- `TabMeta::get_col(col_name)`: `cols.begin() + cols_hash.at(col_name)`;
`init_hash` stores the position of every column under its name, a later
column of the same name over an earlier one. -/
def TabMeta.get_col (tab : TabMeta) (col_name : String) : Except ExecError ColMeta :=
  match tab.cols.reverse.find? (fun c => decide (c.name = col_name)) with
  | some c => Except.ok c
  | none => Except.error ExecError.OutOfRange

/-- The key of a record for an index: the `memcpy` loop over the index
columns. -/
def IndexMetaCols.key (index : IndexMetaCols) (data : List Nat) : List Nat :=
  index.cols.flatMap (fun c => (data.drop c.offset).take c.len)

/-- The float `-b`: the sign bit flipped. -/
def floatNeg (b : List Nat) : List Nat :=
  encodeInt32 (((decodeUInt32 b + 2147483648) % 4294967296 : Nat) : Int)

/-- The float difference `a - b`. -/
def floatSub (a b : List Nat) : List Nat := floatAdd a (floatNeg b)

/-- `RmFileHandle::get_record(rid, is_add_lock, context)` with a context:
the shared lock on the record when `is_add_lock`, then the slot bytes. -/
def RmFileHandle.get_record_is_add_lock (fh : RmFileHandle) (rid : Rid) (is_add_lock : Bool)
    (ctx : Context) : Except DbError (List Nat × Context) :=
  match (if is_add_lock then
      RmFileHandle.withLock (lock_shared_on_record ctx.lock_table_ ctx.txn_ rid fh.fd_)
        ctx.log_mgr_
    else Except.ok ctx) with
  | Except.error e => Except.error e
  | Except.ok ctx1 =>
    match fh.get_record rid with
    | Except.error e => Except.error e
    | Except.ok data => Except.ok (data, ctx1)

/-- `ihs_.at(index_name)->is_key_exists(key, txn)`: a lookup, which leaves
the index as it is. -/
def SmManager.is_key_exists (sm : SmManager) (index_name : String) (key : Int) :
    Except ExecError Bool :=
  match mapFind sm.ihs_ index_name with
  | none => Except.error ExecError.OutOfRange
  | some ih =>
    match (IxIndexHandle.is_key_exists key ih).1 with
    | Except.ok b => Except.ok b
    | Except.error e => Except.error (ExecError.Db (DbError.Index e))

/-- `UpdateExecutor`: the members that `Next` reads.  The heap file `fh_`
and the index handles are those of the `SmManager` the executor was made
with. -/
structure UpdateExecutor where
  tab_ : TabMeta
  rids_ : List Rid
  tab_name_ : String
  set_clauses_ : List SetClause
deriving DecidableEq, Repr

namespace UpdateExecutor

/-- The first loop of `Next` over the set clauses: an INT literal for a
BIGINT column becomes a BIGINT value. -/
def widen_set_clauses (tab : TabMeta) : List SetClause → Except ExecError (List SetClause)
  | [] => Except.ok []
  | set_clause :: rest =>
    match tab.get_col set_clause.lhs.col_name with
    | Except.error e => Except.error e
    | Except.ok lhs_col =>
      let sc1 : SetClause :=
        if lhs_col.type = ColType.TYPE_BIGINT ∧ set_clause.rhs.type = ColType.TYPE_INT then
          { set_clause with
            rhs := { set_clause.rhs with type := ColType.TYPE_BIGINT,
                                         bigint_val := set_clause.rhs.int_val } }
        else set_clause
      match widen_set_clauses tab rest with
      | Except.error e => Except.error e
      | Except.ok l => Except.ok (sc1 :: l)

/-- `update_rhs_val(update_record, lhs_col, rhs, set_op)`: `rhs` is a copy
of the value of the set clause; for `+=` and `-=` it is replaced by the sum
or difference with the column of the record (every operator other than
`OP_ASSIGN` and `OP_PLUS` subtracts), its bytes are made by `init_raw` when
it has none, and they are copied into the record. -/
def update_rhs_val (update_record : List Nat) (lhs_col : ColMeta) (rhs : Value) (set_op : SetOp) :
    Except ExecError (List Nat) :=
  let des := update_record.drop lhs_col.offset
  let rhs1 : Except ExecError Value :=
    if set_op ≠ SetOp.OP_ASSIGN then
      if lhs_col.type ≠ rhs.type then Except.error ExecError.AssertionFailed
      else
        match lhs_col.type with
        | ColType.TYPE_INT =>
          if set_op = SetOp.OP_PLUS then
            Except.ok { rhs with type := ColType.TYPE_INT,
                                 int_val := wrap32 (decodeInt32 des + rhs.int_val) }
          else
            Except.ok { rhs with type := ColType.TYPE_INT,
                                 int_val := wrap32 (decodeInt32 des - rhs.int_val) }
        | ColType.TYPE_FLOAT =>
          if set_op = SetOp.OP_PLUS then
            Except.ok { rhs with type := ColType.TYPE_FLOAT,
                                 float_val := floatAdd (des.takeD 4 0) rhs.float_val }
          else
            Except.ok { rhs with type := ColType.TYPE_FLOAT,
                                 float_val := floatSub (des.takeD 4 0) rhs.float_val }
        | ColType.TYPE_BIGINT =>
          if set_op = SetOp.OP_PLUS then
            Except.ok { rhs with type := ColType.TYPE_BIGINT,
                                 bigint_val := decodeInt64 (encodeInt64 (decodeInt64 des + rhs.bigint_val)) }
          else
            Except.ok { rhs with type := ColType.TYPE_BIGINT,
                                 bigint_val := decodeInt64 (encodeInt64 (decodeInt64 des - rhs.bigint_val)) }
        | _ => Except.error ExecError.AssertionFailed
    else Except.ok rhs
  match rhs1 with
  | Except.error e => Except.error e
  | Except.ok rhs2 =>
    match (if rhs2.raw = none then rhs2.init_raw lhs_col.len else Except.ok rhs2) with
    | Except.error e => Except.error e
    | Except.ok rhs3 =>
      match rhs3.raw with
      | none => Except.error ExecError.Undefined
      | some raw => Except.ok (memcpy update_record lhs_col.offset (raw.takeD lhs_col.len 0))

/-- The loop over the set clauses for one record: the clauses are members
of the executor, so the DATETIME conversion of a clause stays for the next
record.  Returns the clauses and the record. -/
def apply_set_clauses (tab : TabMeta) :
    List SetClause → List Nat → Except ExecError (List SetClause × List Nat)
  | [], update_record => Except.ok ([], update_record)
  | set_clause :: rest, update_record =>
    match tab.get_col set_clause.lhs.col_name with
    | Except.error e => Except.error e
    | Except.ok lhs_col =>
      let converted : Except ExecError SetClause :=
        if lhs_col.type = ColType.TYPE_DATETIME then
          let rhs1 := { set_clause.rhs with datetime_val := set_clause.rhs.str_val }
          if check_datetime_ rhs1.datetime_val = false then Except.error ExecError.InvalidValue
          else Except.ok { set_clause with rhs := { rhs1 with type := ColType.TYPE_DATETIME } }
        else Except.ok set_clause
      match converted with
      | Except.error e => Except.error e
      | Except.ok sc1 =>
        if lhs_col.type ≠ sc1.rhs.type then Except.error ExecError.IncompatibleType
        else
          match update_rhs_val update_record lhs_col sc1.rhs sc1.set_op with
          | Except.error e => Except.error e
          | Except.ok rec1 =>
            match apply_set_clauses tab rest rec1 with
            | Except.error e => Except.error e
            | Except.ok (l, rec2) => Except.ok (sc1 :: l, rec2)

/-- The loop over `rids_` that collects `update_records`: the record is
read (with the shared record lock when `add_lock`) and the set clauses are
applied to a copy. -/
def collect_update_records (tab : TabMeta) (fh : RmFileHandle) (add_lock : Bool) :
    List Rid → List SetClause → Context → Except ExecError (List (List Nat) × Context)
  | [], _, ctx => Except.ok ([], ctx)
  | rid :: rest, set_clauses, ctx =>
    match fh.get_record_is_add_lock rid add_lock ctx with
    | Except.error e => Except.error (ExecError.Db e)
    | Except.ok (data, ctx1) =>
      match apply_set_clauses tab set_clauses data with
      | Except.error e => Except.error e
      | Except.ok (set_clauses1, update_record) =>
        match collect_update_records tab fh add_lock rest set_clauses1 ctx1 with
        | Except.error e => Except.error e
        | Except.ok (l, ctx2) => Except.ok (update_record :: l, ctx2)

/-- The indexes of the table that have a column named by a set clause
(`ix_metas`). -/
def find_ix_metas (tab : TabMeta) (set_clauses : List SetClause) : List IndexMetaCols :=
  tab.indexes.filter (fun ix_meta =>
    set_clauses.any (fun set_clause =>
      ix_meta.cols.any (fun col_ => decide (set_clause.lhs.col_name = col_.name))))

/-- The inner loop of the uniqueness check for one post-image over
`ix_metas`: `is_failed` and the map `vis`, which is declared in front of
both loops and is keyed by the key bytes alone. -/
def check_record (sm : SmManager) (update_record : List Nat) :
    List IndexMetaCols → Bool → List (List Nat) → Except ExecError (Bool × List (List Nat))
  | [], is_failed, vis => Except.ok (is_failed, vis)
  | index :: rest, is_failed, vis =>
    let tmp := index.key update_record
    match sm.is_key_exists index.index_name (decodeInt32 tmp) with
    | Except.error e => Except.error e
    | Except.ok found =>
      check_record sm update_record rest (is_failed || (found || decide (tmp ∈ vis)))
        (if tmp ∈ vis then vis else vis ++ [tmp])

/-- The uniqueness check over `update_records`:
`InternalError("Error: update duplicated indexes.")` after the first
post-image for which `is_failed` is set. -/
def check_unique (sm : SmManager) (ix_metas : List IndexMetaCols) :
    List (List Nat) → List (List Nat) → Except ExecError Unit
  | [], _ => Except.ok ()
  | update_record :: rest, vis =>
    match check_record sm update_record ix_metas false vis with
    | Except.error e => Except.error e
    | Except.ok (is_failed, vis1) =>
      if is_failed then Except.error ExecError.Internal
      else check_unique sm ix_metas rest vis1

/-- The inner loop of the last phase for one row: in every affected index
the entry of the old key is deleted and the entry of the new key is
inserted. -/
def update_indexes (old_data update_record : List Nat) (rid : Rid) :
    List IndexMetaCols → SmManager → Except ExecError SmManager
  | [], sm => Except.ok sm
  | index :: rest, sm =>
    let key := index.key update_record
    let old_key := index.key old_data
    match sm.onIndex index.index_name (IxIndexHandle.delete_entry (decodeInt32 old_key) rid) with
    | Except.error e => Except.error (ExecError.Db e)
    | Except.ok (_, sm1) =>
      match sm1.onIndex index.index_name (IxIndexHandle.insert_entry (decodeInt32 key) rid) with
      | Except.error e => Except.error (ExecError.Db e)
      | Except.ok (_, sm2) => update_indexes old_data update_record rid rest sm2

/-- The last loop of `Next`: the heap record and the affected indexes of
every row are updated. -/
def apply_updates (tab_name : String) (add_lock : Bool) (ix_metas : List IndexMetaCols) :
    List (Rid × List Nat) → SmManager → Context → Except ExecError (SmManager × Context)
  | [], sm, ctx => Except.ok (sm, ctx)
  | (rid, update_record) :: rest, sm, ctx =>
    match sm.file tab_name with
    | Except.error e => Except.error (ExecError.Db e)
    | Except.ok fh =>
      match fh.get_record_is_add_lock rid add_lock ctx with
      | Except.error e => Except.error (ExecError.Db e)
      | Except.ok (old_data, ctx1) =>
        match fh.update_record_is_add_lock tab_name rid update_record add_lock ctx1 with
        | Except.error e => Except.error (ExecError.Db e)
        | Except.ok (fh1, ctx2) =>
          let sm1 := { sm with fhs_ := mapStore sm.fhs_ tab_name fh1 }
          match update_indexes old_data update_record rid ix_metas sm1 with
          | Except.error e => Except.error e
          | Except.ok sm2 => apply_updates tab_name add_lock ix_metas rest sm2 ctx2

/-- The part of `Next` in front of the last loop: the table lock (IX for
one rid, X for more than one, none for none), the post-images and the
uniqueness check.  Nothing here writes to the heap file or to an index. -/
def prepare (ex : UpdateExecutor) (sm : SmManager) (ctx : Context) :
    Except ExecError (Bool × List IndexMetaCols × List (List Nat) × Context) :=
  match sm.file ex.tab_name_ with
  | Except.error e => Except.error (ExecError.Db e)
  | Except.ok fh =>
    let locked : Except DbError (Bool × Context) :=
      if ex.rids_.length = 1 then
        match RmFileHandle.withLock (lock_IX_on_table ctx.lock_table_ ctx.txn_ fh.fd_)
            ctx.log_mgr_ with
        | Except.error e => Except.error e
        | Except.ok ctx1 => Except.ok (true, ctx1)
      else if ex.rids_.length > 1 then
        match RmFileHandle.withLock (lock_exclusive_on_table ctx.lock_table_ ctx.txn_ fh.fd_)
            ctx.log_mgr_ with
        | Except.error e => Except.error e
        | Except.ok ctx1 => Except.ok (false, ctx1)
      else Except.ok (true, ctx)
    match locked with
    | Except.error e => Except.error (ExecError.Db e)
    | Except.ok (add_lock, ctx1) =>
      match widen_set_clauses ex.tab_ ex.set_clauses_ with
      | Except.error e => Except.error e
      | Except.ok set_clauses =>
        match collect_update_records ex.tab_ fh add_lock ex.rids_ set_clauses ctx1 with
        | Except.error e => Except.error e
        | Except.ok (update_records, ctx2) =>
          let ix_metas := find_ix_metas ex.tab_ set_clauses
          match check_unique sm ix_metas update_records [] with
          | Except.error e => Except.error e
          | Except.ok _ => Except.ok (add_lock, ix_metas, update_records, ctx2)

/-- `UpdateExecutor::Next`. -/
def Next (ex : UpdateExecutor) (sm : SmManager) (ctx : Context) :
    Except ExecError (SmManager × Context) :=
  match ex.prepare sm ctx with
  | Except.error e => Except.error e
  | Except.ok (add_lock, ix_metas, update_records, ctx1) =>
    apply_updates ex.tab_name_ add_lock ix_metas (ex.rids_.zip update_records) sm ctx1

end UpdateExecutor

/-- An example table `t (a INT, b INT)` with one index on `a` and one on
`b`. -/
def exampleUpdTab : TabMeta :=
  ⟨"t",
    [⟨"t", "a", ColType.TYPE_INT, 4, 0, true⟩, ⟨"t", "b", ColType.TYPE_INT, 4, 4, true⟩],
    [⟨"t_a", [⟨"t", "a", ColType.TYPE_INT, 4, 0, true⟩]⟩,
     ⟨"t_b", [⟨"t", "b", ColType.TYPE_INT, 4, 4, true⟩]⟩]⟩

/-- The example table with the one row `(1, 2)` at rid (1,0): the heap
file and the two indexes, each with the entry of the row. -/
def exampleUpdHeap : SmManager :=
  ⟨[("t", ⟨3, ⟨8, 2, 2⟩,
      [⟨INVALID_LSN, 0, [false, false], [[0, 0, 0, 0, 0, 0, 0, 0], [0, 0, 0, 0, 0, 0, 0, 0]]⟩,
       ⟨INVALID_LSN, 1, [true, false], [[1, 0, 0, 0, 2, 0, 0, 0], [0, 0, 0, 0, 0, 0, 0, 0]]⟩],
      [1]⟩)],
    [("t", [⟨"t_a", 0⟩, ⟨"t_b", 4⟩])],
    [("t_a", (IxIndexHandle.insert_entry 1 ⟨1, 0⟩ (IxIndexHandle.empty 4)).2),
     ("t_b", (IxIndexHandle.insert_entry 2 ⟨1, 0⟩ (IxIndexHandle.empty 4)).2)]⟩

/-- The clause `SET col = v` for an INT literal. -/
def setInt (col : String) (v : Int) : SetClause := ⟨⟨"t", col⟩, Value.ofInt v, SetOp.OP_ASSIGN⟩

/-- The clause `SET col = col + v` for an INT literal. -/
def setIntPlus (col : String) (v : Int) : SetClause := ⟨⟨"t", col⟩, Value.ofInt v, SetOp.OP_PLUS⟩

/-! ## `SmManager::insert_rec` (`system/sm_manager.cpp`) -/

/-- `IxIndexHandle::binary_search(key, context)`: the `Iid` (page number,
slot number) of the key in its leaf, `(-1, -1)` when the leaf does not hold
it. -/
def IxIndexHandle.binary_search (key : Int) : IxM (Int × Int) := do
  let leaf_no ← IxIndexHandle.find_leaf_page key
  let leaf ← IxIndexHandle.fetch_node leaf_no
  let target_slot_ := leaf.binary_search key
  if target_slot_ = -1 then pure (-1, -1) else pure (leaf_no, target_slot_)

namespace SmManager

/-- `ihs_.at(index_name)->get_value(key, ...)`: the rid stored under the
key, if the index holds the key. -/
def get_value (sm : SmManager) (index_name : String) (key : Int) :
    Except ExecError (Option Rid) :=
  match mapFind sm.ihs_ index_name with
  | none => Except.error ExecError.OutOfRange
  | some ih =>
    match (IxIndexHandle.get_value key ih).1 with
    | Except.ok r => Except.ok r
    | Except.error e => Except.error (ExecError.Db (DbError.Index e))

end SmManager

/-- The hash table `std::unordered_map<Value, std::vector<RmRecord>,
ValueHash>`: the keys in the order of their first insertion, each with its
records in the order of insertion. -/
abbrev HashTable : Type := List (Value × List (List Nat))

namespace HashTable

/-- `hash_table.find(v)`: the records stored under a key equal to `v`.
`ValueHash` asserts that the type of `v` is a known one; the keys are
compared with `Value::operator==`, which asserts that the types agree (the
source compares only the keys of the bucket of `v`; here every key is
compared). -/
def find : HashTable → Value → Except ExecError (Option (List (List Nat)))
  | [], v =>
    if v.type = ColType.TYPE_UNUSE then Except.error ExecError.AssertionFailed
    else Except.ok none
  | (k, recs) :: rest, v =>
    if v.type = ColType.TYPE_UNUSE then Except.error ExecError.AssertionFailed
    else
      match k.eq v with
      | Except.error e => Except.error e
      | Except.ok true => Except.ok (some recs)
      | Except.ok false => find rest v

/-- `hash_table[v].emplace_back(rec)`. -/
def push : HashTable → Value → List Nat → Except ExecError HashTable
  | [], v, rec =>
    if v.type = ColType.TYPE_UNUSE then Except.error ExecError.AssertionFailed
    else Except.ok [(v, [rec])]
  | (k, recs) :: rest, v, rec =>
    if v.type = ColType.TYPE_UNUSE then Except.error ExecError.AssertionFailed
    else
      match k.eq v with
      | Except.error e => Except.error e
      | Except.ok true => Except.ok ((k, recs ++ [rec]) :: rest)
      | Except.ok false =>
        match push rest v rec with
        | Except.error e => Except.error e
        | Except.ok rest1 => Except.ok ((k, recs) :: rest1)

end HashTable

/-- The key of a record: `Value v; v.type = meta.type;
v.get_val_from_raw(rec->data + meta.offset, meta.len)`. -/
def hashKey (col : ColMeta) (rec : List Nat) : Except ExecError Value :=
  (Value.blank col.type).get_val_from_raw (rec.drop col.offset) col.len

/-- `HashJoinExecutor`: the members of the class; the records are `none`
for a null pointer. -/
structure HashJoinExecutor where
  hash_ : Child
  unhash_ : Child
  len_ : Nat
  merged_rec : Option (List Nat)
  cols_ : List ColMeta
  fed_conds_ : List Condition
  hash_table : HashTable
  hash_col_ : TabCol
  unhash_col_ : TabCol
  now_join_ptr : Int
  now_value : Value
  hash_col_meta : ColMeta
  unhash_col_meta : ColMeta
  now_unhash_rec : Option (List Nat)
deriving DecidableEq, Repr

namespace HashJoinExecutor

/-- The loop of `init_hash_table` over the records of the build child. -/
def fill_table (col : ColMeta) : List (List Nat) → HashTable → Except ExecError HashTable
  | [], t => Except.ok t
  | rec :: rest, t =>
    match hashKey col rec with
    | Except.error e => Except.error e
    | Except.ok v =>
      match t.push v rec with
      | Except.error e => Except.error e
      | Except.ok t1 => fill_table col rest t1

/-- `init_hash_table`: the build child is read from its first record to
its end. -/
def init_hash_table (ex : HashJoinExecutor) : Except ExecError HashJoinExecutor :=
  if ex.hash_col_meta.type = ColType.TYPE_UNUSE then Except.ok ex
  else
    match Child.drain (ex.hash_.tuples.length + 1) ex.hash_.beginTuple with
    | Except.error e => Except.error e
    | Except.ok (recs, hash1) =>
      match fill_table ex.hash_col_meta recs ex.hash_table with
      | Except.error e => Except.error e
      | Except.ok t => Except.ok { ex with hash_ := hash1, hash_table := t }

/-- `HashJoinExecutor::HashJoinExecutor`: the child that has the column
`hash_col` is the build side, the columns of the probe side follow those of
the build side, and the hash table is built. -/
def create (left right : Child) (conds : List Condition) (hash_col unhash_col : TabCol) :
    Except ExecError HashJoinExecutor :=
  let is_left_hash : Bool :=
    left.cols.any (fun c => decide (c.tab_name = hash_col.tab_name ∧ c.name = hash_col.col_name))
  let hash_ := if is_left_hash then left else right
  let unhash_ := if is_left_hash then right else left
  init_hash_table
    ⟨hash_, unhash_, hash_.len + unhash_.len, none, join_cols hash_ unhash_, conds, [],
      hash_col, unhash_col, -1, Value.blank ColType.TYPE_INT,
      get_col_offset hash_.cols hash_col, get_col_offset unhash_.cols unhash_col, none⟩

/-- `HashJoinExecutor::is_end`. -/
def is_end (ex : HashJoinExecutor) : Bool := ex.unhash_.is_end

/-- The `for` loop over the records of one key from position `idx` on: the
position of the first record whose merge with the probe record satisfies
the conditions, if there is one. -/
def scan_bucket (u : List Nat) :
    List (List Nat) → Nat → HashJoinExecutor → Except ExecError (HashJoinExecutor × Option Nat)
  | [], _, ex => Except.ok (ex, none)
  | b :: rest, idx, ex =>
    match merge_record ex.len_ b u with
    | Except.error e => Except.error e
    | Except.ok m =>
      let ex1 := { ex with merged_rec := some m }
      match eval_conds ex1.cols_ ex1.fed_conds_ m with
      | Except.error e => Except.error e
      | Except.ok true => Except.ok (ex1, some idx)
      | Except.ok false => scan_bucket u rest (idx + 1) ex1

/-- The `while(!unhash_->is_end())` loop that `beginTuple` and `nextTuple`
share. -/
def probe_loop : Nat → HashJoinExecutor → Except ExecError HashJoinExecutor
  | 0, _ => Except.error ExecError.OutOfFuel
  | fuel + 1, ex =>
    if ex.unhash_.is_end then Except.ok ex
    else
      match ex.unhash_.Next with
      | Except.error e => Except.error e
      | Except.ok u =>
        let ex1 := { ex with now_unhash_rec := some u }
        match hashKey ex1.unhash_col_meta u with
        | Except.error e => Except.error e
        | Except.ok v =>
          match ex1.hash_table.find v with
          | Except.error e => Except.error e
          | Except.ok found =>
            match scan_bucket u (found.getD []) 0 ex1 with
            | Except.error e => Except.error e
            | Except.ok (ex2, some idx) =>
              Except.ok { ex2 with now_join_ptr := (idx : Int), now_value := v }
            | Except.ok (ex2, none) =>
              match ex2.unhash_.nextTuple with
              | Except.error e => Except.error e
              | Except.ok unhash1 => probe_loop fuel { ex2 with unhash_ := unhash1 }

/-- `HashJoinExecutor::beginTuple`; the rounds of its loop are bounded by
the number of probe records. -/
def beginTuple (ex : HashJoinExecutor) : Except ExecError HashJoinExecutor :=
  probe_loop (ex.unhash_.tuples.length + 1) { ex with unhash_ := ex.unhash_.beginTuple }

/-- `HashJoinExecutor::nextTuple`: the rest of the records of `now_value`
is searched, then the probe child moves on and the shared loop runs.  An
iterator beyond the end of the records of the key is undefined. -/
def nextTuple (ex : HashJoinExecutor) : Except ExecError HashJoinExecutor :=
  let ptr := ex.now_join_ptr + 1
  match ex.hash_table.find ex.now_value with
  | Except.error e => Except.error e
  | Except.ok found =>
    let bucket := found.getD []
    if ptr < 0 ∨ (bucket.length : Int) < ptr then Except.error ExecError.Undefined
    else
      match ex.now_unhash_rec with
      | none => Except.error ExecError.Undefined
      | some u =>
        match scan_bucket u (bucket.drop ptr.toNat) ptr.toNat { ex with now_join_ptr := ptr } with
        | Except.error e => Except.error e
        | Except.ok (ex1, some idx) => Except.ok { ex1 with now_join_ptr := (idx : Int) }
        | Except.ok (ex1, none) =>
          match ex1.unhash_.nextTuple with
          | Except.error e => Except.error e
          | Except.ok unhash1 =>
            probe_loop (ex1.unhash_.tuples.length + 1) { ex1 with unhash_ := unhash1 }

/-- `HashJoinExecutor::Next`: the merged record is moved out, which a
consumer's loop does not read again before `nextTuple()`. -/
def Next (ex : HashJoinExecutor) : Except ExecError (List Nat) :=
  match ex.merged_rec with
  | some r => Except.ok r
  | none => Except.error ExecError.Undefined

/-- A consumer's run of the executor: `beginTuple()`, then `Next()` and
`nextTuple()` until `is_end()`. -/
def run (ex : HashJoinExecutor) (fuel : Nat) : Except ExecError (List (List Nat)) :=
  match ex.beginTuple with
  | Except.error e => Except.error e
  | Except.ok ex1 => drainExecutor is_end Next nextTuple fuel ex1

end HashJoinExecutor

/-- The tree of order 4 after the keys of the list were inserted into the
empty index, each with the rid `(key, 0)`. -/
def treeOfKeys (keys : List Int) : IxIndexHandle :=
  keys.foldl (fun s k => (IxIndexHandle.insert_entry k ⟨k, 0⟩ s).2) (IxIndexHandle.empty 4)

/-- What is compared of one page: the kind of the node, its number of keys,
its parent and leaf links and its keys and rids in use. -/
structure NodeShape where
  is_leaf : Bool
  num_key : Nat
  parent : Int
  prev_leaf : Int
  next_leaf : Int
  keys : List Int
  rids : List Rid
deriving DecidableEq, Repr

/-- The shape of one page. -/
def IxNode.shape (n : IxNode) : NodeShape :=
  ⟨n.is_leaf, n.num_key, n.parent, n.prev_leaf, n.next_leaf, n.liveKeys, n.liveRids⟩

/-- What is compared of a tree: the file header and the shape of every
page. -/
structure TreeShape where
  hdr : IxFileHdr
  nodes : List NodeShape
deriving DecidableEq, Repr

/-- The shape of a tree. -/
def IxIndexHandle.shape (s : IxIndexHandle) : TreeShape :=
  ⟨s.file_hdr_, s.pages.map IxNode.shape⟩

/-- The tree of order 4 with the keys 10 to 50: the leaves `10, 20, 30`
(page 2) and `40, 50` (page 3) under the root with the key 40 (page 4). -/
def exampleTwoLevelTree : IxIndexHandle := treeOfKeys [10, 20, 30, 40, 50]

/-! ## `IxScan` (`index/ix_scan.h`, `index/ix_scan.cpp`) and
`IndexScanExecutor` (`execution/executor_index_scan.h`) -/

/-- `ix_compare(a, b, col_types, col_lens)` of `ix_index_handle.h`: the
columns of the key are compared in turn, the first difference decides. -/
def ix_compare_cols (a b : List Nat) : List ColType → List Nat → Except ExecError Int
  | [], _ => Except.ok 0
  | t :: ts, lens =>
    match ix_compare_raw a b t (lens.headD 0) with
    | Except.error e => Except.error e
    | Except.ok res =>
      if res ≠ 0 then Except.ok res
      else ix_compare_cols (a.drop (lens.headD 0)) (b.drop (lens.headD 0)) ts lens.tail

/-- The INT columns of a key, read one after the other. -/
def keyInts : List ColMeta → List Nat → List Int
  | [], _ => []
  | c :: cs, key => decodeInt32 key :: keyInts cs (key.drop c.len)

/-- The integer that stands for a key of INT columns in the tree: the first
column as it is, every further column appended as a digit in base `2^32`
(shifted by `2^31`, so that it is not negative).  Two such integers compare
as `ix_compare` compares the key bytes column by column; with one column
the integer is the value of the column. -/
def ixKeyOfInts : List Int → Int
  | [] => 0
  | a :: rest => rest.foldl (fun acc b => acc * 4294967296 + (b + 2147483648)) a

/-- The key bytes of an index on INT columns as the tree holds them. -/
def ixKeyOfBytes (cols : List ColMeta) (key : List Nat) : Int :=
  ixKeyOfInts (keyInts cols key)

/-- Modelled from the spec: `Iid` of the missing `ix_defs.h`: the page
number and the slot number of a position in the leaves, compared field by
field. -/
structure Iid where
  page_no : Int
  slot_no : Int
deriving DecidableEq, Repr

namespace IxIndexHandle

/-- `IxIndexHandle::lower_bound`: `find_leaf_page` and the `lower_bound` of
the leaf; a position at the end of a leaf that is not the last one is the
first position of the next leaf. -/
def lower_bound (key : Int) : IxM Iid := do
  let leaf_no ← find_leaf_page key
  let leaf ← fetch_node leaf_no
  let target_slot_ := leaf.lower_bound key
  let h ← IxM.getHdr
  if target_slot_ = leaf.get_size then
    if leaf_no ≠ h.last_leaf_ then pure ⟨leaf.next_leaf, 0⟩
    else pure ⟨leaf_no, (leaf.get_size : Int)⟩
  else pure ⟨leaf_no, (target_slot_ : Int)⟩

/-- `IxIndexHandle::upper_bound`. -/
def upper_bound (key : Int) : IxM Iid := do
  let leaf_no ← find_leaf_page key
  let leaf ← fetch_node leaf_no
  let target_slot_ := leaf.upper_bound key
  let h ← IxM.getHdr
  if target_slot_ = leaf.get_size then
    if leaf_no ≠ h.last_leaf_ then pure ⟨leaf.next_leaf, 0⟩
    else pure ⟨leaf_no, (leaf.get_size : Int)⟩
  else pure ⟨leaf_no, (target_slot_ : Int)⟩

end IxIndexHandle

/-- An error of the index layer as the executor sees it. -/
def ixResult {α : Type} (r : Except IxError α) : Except ExecError α :=
  match r with
  | Except.ok a => Except.ok a
  | Except.error e => Except.error (ExecError.Db (DbError.Index e))

/-- `IxScan`: the position `iid_`, the end `end_`, and the page number of
the node that `node_buffer` points to (`none` for the null pointer).  The
node itself is read from the pages of the index; the pins of the buffer
pool are left out. -/
structure IxScan where
  iid_ : Iid
  end_ : Iid
  node_buffer : Option Int
deriving DecidableEq, Repr

namespace IxScan

/-- `IxScan::IxScan`. -/
def create (ih : IxIndexHandle) (lower upper : Iid) : Except ExecError IxScan :=
  if lower.page_no ≠ -1 then
    match ixResult (IxIndexHandle.fetch_node lower.page_no ih).1 with
    | Except.error e => Except.error e
    | Except.ok _ => Except.ok ⟨lower, upper, some lower.page_no⟩
  else Except.ok ⟨lower, upper, none⟩

/-- `IxScan::is_end`. -/
def is_end (sc : IxScan) : Bool := decide (sc.iid_ = sc.end_)

/-- `IxScan::update_node_buffer`. -/
def update_node_buffer (ih : IxIndexHandle) (sc : IxScan) (page_no : Int) :
    Except ExecError IxScan :=
  let nb1 : Option Int :=
    if sc.node_buffer ≠ none ∧ sc.node_buffer ≠ some page_no then none else sc.node_buffer
  if (nb1 = none ∨ nb1 ≠ some page_no) ∧ page_no ≠ INVALID_PAGE_ID then
    match ixResult (IxIndexHandle.fetch_node page_no ih).1 with
    | Except.error e => Except.error e
    | Except.ok _ => Except.ok { sc with node_buffer := some page_no }
  else Except.ok { sc with node_buffer := nb1 }

/-- The node behind `node_buffer`; reading through the null pointer is
undefined. -/
def node (ih : IxIndexHandle) (sc : IxScan) : Except ExecError IxNode :=
  match sc.node_buffer with
  | none => Except.error ExecError.Undefined
  | some p => ixResult (IxIndexHandle.fetch_node p ih).1

/-- `IxScan::rid`: `*node_buffer->get_rid(iid_.slot_no)`, whatever the slot
holds. -/
def rid (ih : IxIndexHandle) (sc : IxScan) : Except ExecError Rid :=
  match sc.node ih with
  | Except.error e => Except.error e
  | Except.ok n => Except.ok (n.get_rid sc.iid_.slot_no.toNat)

/-- `IxScan::next`, with its three assertions. -/
def next (ih : IxIndexHandle) (sc : IxScan) : Except ExecError IxScan :=
  if sc.is_end then Except.error ExecError.AssertionFailed
  else
    match sc.update_node_buffer ih sc.iid_.page_no with
    | Except.error e => Except.error e
    | Except.ok sc1 =>
      match sc1.node ih with
      | Except.error e => Except.error e
      | Except.ok n =>
        if !n.is_leaf then Except.error ExecError.AssertionFailed
        else if ¬ (sc1.iid_.slot_no < (n.get_num_vals : Int)) then
          Except.error ExecError.AssertionFailed
        else
          let slot_no := sc1.iid_.slot_no + 1
          let moved : Except ExecError IxScan :=
            if sc1.iid_.page_no ≠ ih.file_hdr_.last_leaf_ ∧ slot_no = (n.get_num_vals : Int) then
              update_node_buffer ih { sc1 with iid_ := ⟨n.next_leaf, 0⟩ } n.next_leaf
            else Except.ok { sc1 with iid_ := ⟨sc1.iid_.page_no, slot_no⟩ }
          match moved with
          | Except.error e => Except.error e
          | Except.ok sc2 =>
            if sc2.is_end then sc2.update_node_buffer ih INVALID_PAGE_ID else Except.ok sc2

end IxScan

/-- `IndexScanExecutor`: the members of the class; `ix_scan_` and
`record_buffer` are `none` for a null pointer.  The heap file `fh_`, the
index `ih_` and the context are part of the state. -/
structure IndexScanExecutor where
  tab_name_ : String
  tab_ : TabMeta
  conds_ : List Condition
  fh_ : RmFileHandle
  cols_ : List ColMeta
  len_ : Nat
  fed_conds_ : List Condition
  other_conds_ : List Condition
  ih_ : IxIndexHandle
  index_col_names_ : List String
  index_meta_ : IndexMetaCols
  ix_scan_ : Option IxScan
  rid_ : Rid
  is_range_query : Bool
  range_cond_lss : List Condition
  is_lss : Bool
  range_cond_gtr : List Condition
  is_gtr : Bool
  record_buffer : Option (List Nat)
  is_single_read : Bool
  context_ : Context

namespace IndexScanExecutor

/-- One round of the loop of the constructor that sorts the conditions into
`fed_conds_`, the two range conditions and `other_conds_`. -/
def classify_cond (ex : IndexScanExecutor) (i : Nat) : Except ExecError IndexScanExecutor :=
  match ex.conds_.get? i, ex.index_col_names_.get? i with
  | some c, some name =>
    if !ex.is_range_query && c.is_rhs_val && decide (c.lhs_col.col_name = name) &&
        decide (c.op ≠ CompOp.OP_NE) then
      if c.op = CompOp.OP_EQ then Except.ok { ex with fed_conds_ := ex.fed_conds_ ++ [c] }
      else if c.op = CompOp.OP_LE ∨ c.op = CompOp.OP_LT then
        Except.ok { ex with range_cond_lss := ex.range_cond_lss ++ [c], is_lss := true,
                            is_range_query := true }
      else
        Except.ok { ex with range_cond_gtr := ex.range_cond_gtr ++ [c], is_gtr := true,
                            is_range_query := true }
    else if ex.is_range_query && !(ex.is_lss && ex.is_gtr) && c.is_rhs_val &&
        decide (c.op ≠ CompOp.OP_NE) then
      if ex.is_lss && !ex.is_gtr then
        match ex.range_cond_lss.head? with
        | none => Except.error ExecError.Undefined
        | some c0 =>
          if c.lhs_col.col_name = c0.lhs_col.col_name ∧
              (c.op = CompOp.OP_GE ∨ c.op = CompOp.OP_GT) then
            Except.ok { ex with range_cond_gtr := ex.range_cond_gtr ++ [c], is_gtr := true }
          else Except.ok ex
      else if ex.is_gtr && !ex.is_lss then
        match ex.range_cond_gtr.head? with
        | none => Except.error ExecError.Undefined
        | some c0 =>
          if c.lhs_col.col_name = c0.lhs_col.col_name ∧
              (c.op = CompOp.OP_LE ∨ c.op = CompOp.OP_LT) then
            Except.ok { ex with range_cond_lss := ex.range_cond_lss ++ [c], is_lss := true }
          else Except.ok ex
      else Except.ok ex
    else Except.ok { ex with other_conds_ := ex.other_conds_ ++ [c] }
  | _, _ => Except.ok ex

/-- The loop of the constructor over `i < min(conds_.size(), index_col_names.size())`. -/
def classify_loop : List Nat → IndexScanExecutor → Except ExecError IndexScanExecutor
  | [], ex => Except.ok ex
  | i :: rest, ex =>
    match ex.classify_cond i with
    | Except.error e => Except.error e
    | Except.ok ex1 => classify_loop rest ex1

/-- `IndexScanExecutor::IndexScanExecutor`: `tab` is
`sm_manager->db_.get_table(tab_name)`, `fh` is `sm_manager->fhs_.at(tab_name)`,
`index_meta` is `*(tab_.get_index_meta(index_col_names))` and `ih` is the
open index of that name in `sm_manager->ihs_`; `cols_.back()` of an empty
vector is undefined.  The member `rid_`, which the constructor leaves unset,
is (0, 0) here. -/
def create (tab_name : String) (tab : TabMeta) (fh : RmFileHandle) (ih : IxIndexHandle)
    (index_meta : IndexMetaCols) (conds : List Condition) (index_col_names : List String)
    (context : Context) : Except ExecError IndexScanExecutor :=
  match tab.cols.getLast? with
  | none => Except.error ExecError.Undefined
  | some back =>
    match classify_loop (List.range (min conds.length index_col_names.length))
        ⟨tab_name, tab, conds, fh, tab.cols, back.offset + back.len, [], [], ih, index_col_names,
          index_meta, none, ⟨0, 0⟩, false, [], false, [], false, none, false, context⟩ with
    | Except.error e => Except.error e
    | Except.ok ex =>
      Except.ok { ex with is_single_read := decide (ex.fed_conds_.length = index_col_names.length) }

/-- The first `len` bytes at a pointer to `bytes`; bytes past the end of
the buffer, which the source would read or leave uninitialised, are zero
here. -/
def bytesAt (bytes : List Nat) (len : Nat) : List Nat := (bytes ++ zeroBytes len).take len

/-- `get_type_min(col)`: the `col.len` bytes of the least value of the type
of the column. -/
def get_type_min (col : ColMeta) : List Nat :=
  match col.type with
  | ColType.TYPE_INT => bytesAt (encodeInt32 (-2147483648)) col.len
  | ColType.TYPE_FLOAT => bytesAt [255, 255, 127, 255] col.len
  | ColType.TYPE_BIGINT => bytesAt (encodeInt64 (-9223372036854775808)) col.len
  | ColType.TYPE_STRING => List.replicate col.len 0
  | ColType.TYPE_DATETIME => bytesAt (lit "1000-01-01 00:00:00") col.len
  | ColType.TYPE_UNUSE => zeroBytes col.len

/-- `get_type_max(col)`. -/
def get_type_max (col : ColMeta) : List Nat :=
  match col.type with
  | ColType.TYPE_INT => bytesAt (encodeInt32 2147483647) col.len
  | ColType.TYPE_FLOAT => bytesAt [255, 255, 127, 127] col.len
  | ColType.TYPE_BIGINT => bytesAt (encodeInt64 9223372036854775807) col.len
  | ColType.TYPE_STRING => List.replicate col.len 255
  | ColType.TYPE_DATETIME => bytesAt (lit "9999-12-31 23:59:59") col.len
  | ColType.TYPE_UNUSE => zeroBytes col.len

/-- The `col_meta_->len` bytes of `cond.rhs_val.raw->data` that `beginTuple`
copies into a key for the column `cond.lhs_col.col_name`. -/
def cond_key_part (tab : TabMeta) (cond : Condition) : Except ExecError (List Nat) :=
  match tab.get_col cond.lhs_col.col_name with
  | Except.error e => Except.error e
  | Except.ok col_meta_ =>
    match cond.rhs_val.raw with
    | none => Except.error ExecError.Undefined
    | some data => Except.ok (bytesAt data col_meta_.len)

/-- The first loop of `beginTuple`: the bytes of the equality conditions,
which go to both keys. -/
def fed_key : TabMeta → List Condition → Except ExecError (List Nat)
  | _, [] => Except.ok []
  | tab, c :: rest =>
    match cond_key_part tab c with
    | Except.error e => Except.error e
    | Except.ok part =>
      match fed_key tab rest with
      | Except.error e => Except.error e
      | Except.ok more => Except.ok (part ++ more)

/-- The part of `min_key` and of `max_key` for the column of the range
conditions. -/
def range_key (ex : IndexScanExecutor) : Except ExecError (List Nat × List Nat) :=
  if ex.is_range_query then
    if ex.is_lss && !ex.is_gtr then
      match ex.range_cond_lss.head? with
      | none => Except.error ExecError.Undefined
      | some lss =>
        match ex.tab_.get_col lss.lhs_col.col_name, cond_key_part ex.tab_ lss with
        | Except.ok col_meta_, Except.ok hi => Except.ok (get_type_min col_meta_, hi)
        | Except.error e, _ => Except.error e
        | _, Except.error e => Except.error e
    else if !ex.is_lss && ex.is_gtr then
      match ex.range_cond_gtr.head? with
      | none => Except.error ExecError.Undefined
      | some gtr =>
        match ex.tab_.get_col gtr.lhs_col.col_name, cond_key_part ex.tab_ gtr with
        | Except.ok col_meta_, Except.ok lo => Except.ok (lo, get_type_max col_meta_)
        | Except.error e, _ => Except.error e
        | _, Except.error e => Except.error e
    else if ex.is_lss && ex.is_gtr then
      match ex.range_cond_gtr.head?, ex.range_cond_lss.head? with
      | some gtr, some lss =>
        match ex.tab_.get_col gtr.lhs_col.col_name with
        | Except.error e => Except.error e
        | Except.ok col_meta_ =>
          match gtr.rhs_val.raw, lss.rhs_val.raw with
          | some lo, some hi => Except.ok (bytesAt lo col_meta_.len, bytesAt hi col_meta_.len)
          | _, _ => Except.error ExecError.Undefined
      | _, _ => Except.error ExecError.Undefined
    else Except.error ExecError.AssertionFailed
  else Except.ok ([], [])

/-- The last loop of `beginTuple`: the least and the greatest value of
every index column from position `i` on. -/
def rest_key (ex : IndexScanExecutor) : List Nat → Except ExecError (List Nat × List Nat)
  | [] => Except.ok ([], [])
  | i :: rest =>
    match ex.index_meta_.cols.get? i with
    | none => Except.error ExecError.Undefined
    | some c =>
      match ex.tab_.get_col c.name with
      | Except.error e => Except.error e
      | Except.ok col_meta_ =>
        match rest_key ex rest with
        | Except.error e => Except.error e
        | Except.ok (lo, hi) => Except.ok (get_type_min col_meta_ ++ lo, get_type_max col_meta_ ++ hi)

/-- The keys `min_key` and `max_key` that `beginTuple` builds. -/
def scan_keys (ex : IndexScanExecutor) : Except ExecError (List Nat × List Nat) :=
  match fed_key ex.tab_ ex.fed_conds_ with
  | Except.error e => Except.error e
  | Except.ok fed =>
    match ex.range_key with
    | Except.error e => Except.error e
    | Except.ok (rlo, rhi) =>
      let start := ex.fed_conds_.length + (if ex.is_range_query then 1 else 0)
      match ex.rest_key ((List.range ex.index_col_names_.length).drop start) with
      | Except.error e => Except.error e
      | Except.ok (lo, hi) => Except.ok (fed ++ rlo ++ lo, fed ++ rhi ++ hi)

/-- The loop that `beginTuple` and `nextTuple` share, from the position
`sc` of the `IxScan`: until the scan is at its end, the record of the rid
under it is read into `record_buffer` and the loop is left if the record
satisfies `conds_`, else the scan moves on; `fuel` bounds the number of
rounds. -/
def seek_loop : Nat → IndexScanExecutor → IxScan → Except ExecError IndexScanExecutor
  | 0, _, _ => Except.error ExecError.OutOfFuel
  | fuel + 1, ex, sc =>
    if sc.is_end then Except.ok { ex with ix_scan_ := some sc }
    else
      match sc.rid ex.ih_ with
      | Except.error e => Except.error e
      | Except.ok rid =>
        match ex.fh_.get_record_is_add_lock rid false ex.context_ with
        | Except.error e => Except.error (ExecError.Db e)
        | Except.ok (rec, ctx1) =>
          let ex1 : IndexScanExecutor :=
            { ex with rid_ := rid, record_buffer := some rec, context_ := ctx1,
                      ix_scan_ := some sc }
          match eval_conds ex.cols_ ex.conds_ rec with
          | Except.error e => Except.error e
          | Except.ok true => Except.ok ex1
          | Except.ok false =>
            match sc.next ex.ih_ with
            | Except.error e => Except.error e
            | Except.ok sc1 => seek_loop fuel ex1 sc1

/-- The number of rounds that bounds a scan of the index: one more than the
number of its slots. -/
def scanFuel (ih : IxIndexHandle) : Nat := ih.pages.length * (ih.file_hdr_.btree_order_ + 2) + 1

/-- `IndexScanExecutor::beginTuple`. -/
def beginTuple (ex : IndexScanExecutor) : Except ExecError IndexScanExecutor :=
  match RmFileHandle.withLock
      (lock_shared_on_table ex.context_.lock_table_ ex.context_.txn_ ex.fh_.fd_)
      ex.context_.log_mgr_ with
  | Except.error e => Except.error (ExecError.Db e)
  | Except.ok ctx1 =>
    match ex.scan_keys with
    | Except.error e => Except.error e
    | Except.ok (min_key, max_key) =>
      match ixResult (IxIndexHandle.lower_bound (ixKeyOfBytes ex.index_meta_.cols min_key) ex.ih_).1,
          ixResult (IxIndexHandle.upper_bound (ixKeyOfBytes ex.index_meta_.cols max_key) ex.ih_).1 with
      | Except.ok pos_min, Except.ok pos_max =>
        match IxScan.create ex.ih_ pos_min pos_max with
        | Except.error e => Except.error e
        | Except.ok sc => seek_loop (scanFuel ex.ih_) { ex with context_ := ctx1 } sc
      | Except.error e, _ => Except.error e
      | _, Except.error e => Except.error e

/-- `IndexScanExecutor::is_end`: `ix_scan_->is_end()`, undefined through the
null pointer before `beginTuple()`. -/
def is_end (ex : IndexScanExecutor) : Except ExecError Bool :=
  match ex.ix_scan_ with
  | none => Except.error ExecError.Undefined
  | some sc => Except.ok sc.is_end

/-- `IndexScanExecutor::nextTuple`: `ix_scan_->next()`, then the loop. -/
def nextTuple (ex : IndexScanExecutor) : Except ExecError IndexScanExecutor :=
  match ex.ix_scan_ with
  | none => Except.error ExecError.Undefined
  | some sc =>
    match sc.next ex.ih_ with
    | Except.error e => Except.error e
    | Except.ok sc1 => seek_loop (scanFuel ex.ih_) ex sc1

/-- `IndexScanExecutor::Next`: the record is moved out of
`record_buffer`. -/
def Next (ex : IndexScanExecutor) : Except ExecError (List Nat × IndexScanExecutor) :=
  match ex.is_end with
  | Except.error e => Except.error e
  | Except.ok true => Except.error ExecError.AssertionFailed
  | Except.ok false =>
    match ex.record_buffer with
    | none => Except.error ExecError.Undefined
    | some rec => Except.ok (rec, { ex with record_buffer := none })

/-- The loop `for (; !e.is_end(); e.nextTuple()) out.push(e.Next())` of a
consumer; `fuel` bounds the number of rounds. -/
def run_loop : Nat → IndexScanExecutor → Except ExecError (List (List Nat))
  | 0, _ => Except.error ExecError.OutOfFuel
  | fuel + 1, ex =>
    match ex.is_end with
    | Except.error e => Except.error e
    | Except.ok true => Except.ok []
    | Except.ok false =>
      match ex.Next with
      | Except.error e => Except.error e
      | Except.ok (rec, ex1) =>
        match ex1.nextTuple with
        | Except.error e => Except.error e
        | Except.ok ex2 =>
          match run_loop fuel ex2 with
          | Except.error e => Except.error e
          | Except.ok l => Except.ok (rec :: l)

/-- A consumer's run of the executor: `beginTuple()`, then `Next()` and
`nextTuple()` until `is_end()`. -/
def run (ex : IndexScanExecutor) : Except ExecError (List (List Nat)) :=
  match ex.beginTuple with
  | Except.error e => Except.error e
  | Except.ok ex1 => run_loop (scanFuel ex.ih_) ex1

end IndexScanExecutor

/-- The columns of the example table `t(a INT, b INT)`. -/
def exampleIxCols : List ColMeta :=
  [⟨"t", "a", ColType.TYPE_INT, 4, 0, true⟩, ⟨"t", "b", ColType.TYPE_INT, 4, 4, true⟩]

/-- The example table `t(a INT, b INT)` with an index on `(a, b)`. -/
def exampleIxTab : TabMeta := ⟨"t", exampleIxCols, [⟨"t_a_b", exampleIxCols⟩]⟩

/-- The heap file of the example table: two slots per page, the rows (4, 0)
at (1, 0) and (6, 0) at (1, 1). -/
def exampleIxFile : RmFileHandle :=
  ⟨3, ⟨8, 2, 2⟩,
    [⟨INVALID_LSN, 0, [false, false], [zeroBytes 8, zeroBytes 8]⟩,
     ⟨INVALID_LSN, 2, [true, true], [encodeInt32 4 ++ encodeInt32 0, encodeInt32 6 ++ encodeInt32 0]⟩],
    []⟩

/-- The index of the example table: one entry for each of the two rows,
inserted into the empty index of order 4. -/
def exampleIxIndex : IxIndexHandle :=
  (IxIndexHandle.insert_entry (ixKeyOfBytes exampleIxCols (encodeInt32 6 ++ encodeInt32 0)) ⟨1, 1⟩
    (IxIndexHandle.insert_entry (ixKeyOfBytes exampleIxCols (encodeInt32 4 ++ encodeInt32 0)) ⟨1, 0⟩
      (IxIndexHandle.empty 4)).2).2

/-- The condition `t.a op x` with the raw bytes of the value set. -/
def condA (op : CompOp) (x : Int) : Condition :=
  ⟨⟨"t", "a"⟩, op, true, ⟨"", ""⟩, { Value.ofInt x with raw := some (encodeInt32 x) }⟩

/-- The run of an `IndexScanExecutor` over the example table. -/
def exampleIndexScan (conds : List Condition) : Except ExecError (List (List Nat)) :=
  match IndexScanExecutor.create "t" exampleIxTab exampleIxFile exampleIxIndex
      ⟨"t_a_b", exampleIxCols⟩ conds ["a", "b"] exampleContext with
  | Except.error e => Except.error e
  | Except.ok ex => ex.run

/-- The run of a `SeqScanExecutor` over the example table. -/
def exampleSeqScan (conds : List Condition) : Except ExecError (List (List Nat)) :=
  match SeqScanExecutor.create "t" exampleIxFile exampleIxCols conds exampleContext with
  | Except.error e => Except.error e
  | Except.ok ex => ex.run

/-! ### An example heap with an index for recovery -/

/-- The heap `exampleHeap` with an index `t_a` of order 4 on the INT column
at offset 0 of table "t"; the index file on disk is out of date: it holds
the key 5 and not the key 2 of the row at rid (1,0). -/
def exampleIndexedHeap : SmManager :=
  { exampleHeap with tab_indexes := [("t", [⟨"t_a", 0⟩])],
                     ihs_ := [("t_a", treeOfKeys [5])] }

/-- What the index `index_name` of a catalog returns for the keys:
`get_value` on each. -/
def SmManager.lookups (sm : SmManager) (index_name : String) (keys : List Int) :
    List (Option (Option Rid)) :=
  keys.map (fun k =>
    match mapFind sm.ihs_ index_name with
    | none => none
    | some ih =>
      match IxIndexHandle.get_value k ih with
      | (Except.ok r, _) => some r
      | (Except.error _, _) => none)

/-! ### The abort scenario of the specification -/

theorem compatible_symm (a b : LockMode) : compatible a b = compatible b a := by
  cases a <;> cases b <;> rfl

theorem LockTable.find_some_mem {lt : LockTable} {id : LockDataId} {q : RequestQueue}
    (h : lt.find id = some q) : (id, q) ∈ lt := by
  induction lt with
  | nil => simp [LockTable.find] at h
  | cons e rest ih =>
    obtain ⟨k, q0⟩ := e
    simp only [LockTable.find] at h
    split at h
    · rename_i hk
      simp only [Option.some.injEq] at h
      subst hk; subst h
      exact List.mem_cons_self _ _
    · exact List.mem_cons_of_mem _ (ih h)

theorem LockTable.mem_assign {lt : LockTable} {id : LockDataId} {q : RequestQueue}
    {e : LockDataId × RequestQueue} (h : e ∈ lt.assign id q) : e ∈ lt ∨ e = (id, q) := by
  induction lt with
  | nil => simp [LockTable.assign] at h
  | cons e0 rest ih =>
    obtain ⟨k, q0⟩ := e0
    simp only [LockTable.assign] at h
    split at h
    · rename_i hk
      rcases List.mem_cons.1 h with h1 | h1
      · right; rw [h1, hk]
      · rcases ih h1 with h2 | h2
        · left; exact List.mem_cons_of_mem _ h2
        · right; exact h2
    · rcases List.mem_cons.1 h with h1 | h1
      · left; rw [h1]; exact List.mem_cons_self _ _
      · rcases ih h1 with h2 | h2
        · left; exact List.mem_cons_of_mem _ h2
        · right; exact h2

theorem LockTable.mem_eraseKey {lt : LockTable} {id : LockDataId}
    {e : LockDataId × RequestQueue} (h : e ∈ lt.eraseKey id) : e ∈ lt ∧ e.1 ≠ id := by
  induction lt with
  | nil => simp [LockTable.eraseKey] at h
  | cons e0 rest ih =>
    obtain ⟨k, q0⟩ := e0
    simp only [LockTable.eraseKey] at h
    split at h
    · exact ⟨List.mem_cons_of_mem _ (ih h).1, (ih h).2⟩
    · rename_i hk
      rcases List.mem_cons.1 h with h1 | h1
      · rw [h1]; exact ⟨List.mem_cons_self _ _, hk⟩
      · exact ⟨List.mem_cons_of_mem _ (ih h1).1, (ih h1).2⟩

theorem rewriteOwn_some {tid : Int} {f : LockMode → LockMode} {q q' : RequestQueue}
    (h : rewriteOwn tid f q = some q') :
    ∃ pre r post, q = pre ++ r :: post ∧ r.txn_id = tid ∧ (∀ x ∈ pre, x.txn_id ≠ tid) ∧
      q' = pre ++ { r with lock_mode := f r.lock_mode } :: post := by
  induction q generalizing q' with
  | nil => simp [rewriteOwn] at h
  | cons r rest ih =>
    simp only [rewriteOwn] at h
    split at h
    · rename_i hr
      simp only [Option.some.injEq] at h
      exact ⟨[], r, rest, rfl, hr, by simp, by simp [h]⟩
    · rename_i hr
      cases hq : rewriteOwn tid f rest with
      | none => rw [hq] at h; simp at h
      | some q1 =>
        rw [hq] at h
        simp only [Option.map_some', Option.some.injEq] at h
        obtain ⟨pre, r1, post, h1, h2, h3, h4⟩ := ih hq
        refine ⟨r :: pre, r1, post, by simp [h1], h2, ?_, by simp [← h, h4]⟩
        intro x hx
        rcases List.mem_cons.1 hx with hx | hx
        · rw [hx]; exact hr
        · exact h3 x hx

theorem rewriteOwn_none {tid : Int} {f : LockMode → LockMode} {q : RequestQueue}
    (h : rewriteOwn tid f q = none) : ∀ x ∈ q, x.txn_id ≠ tid := by
  induction q with
  | nil => simp
  | cons r rest ih =>
    simp only [rewriteOwn] at h
    split at h
    · simp at h
    · rename_i hr
      cases hq : rewriteOwn tid f rest with
      | none =>
        intro x hx
        rcases List.mem_cons.1 hx with hx | hx
        · rw [hx]; exact hr
        · exact ih hq x hx
      | some q1 => rw [hq] at h; simp at h

theorem eraseOwn_sublist (tid : Int) (q : RequestQueue) : (eraseOwn tid q).Sublist q := by
  induction q with
  | nil => exact List.Sublist.refl _
  | cons r rest ih =>
    simp only [eraseOwn]
    split
    · exact List.sublist_cons_self _ _
    · exact List.Sublist.cons₂ _ ih

theorem QueueInv.sublist {id : LockDataId} {q q' : RequestQueue} (hs : q'.Sublist q)
    (h : QueueInv id q) : QueueInv id q' := by
  obtain ⟨h1, h2, h3⟩ := h
  refine ⟨List.Nodup.sublist (List.Sublist.map _ hs) h1, ?_, ?_⟩
  · intro a ha b hb hab
    exact h2 a (hs.subset ha) b (hs.subset hb) hab
  · intro r hr
    exact h3 r (hs.subset hr)

theorem any_false_no_conflict {q : RequestQueue} {tid : Int} {conflicts : LockMode → Bool}
    (h : ¬ (q.any (fun r => decide (r.txn_id ≠ tid) && conflicts r.lock_mode) = true))
    {r : LockRequest} (hr : r ∈ q) (hne : r.txn_id ≠ tid) : conflicts r.lock_mode = false := by
  by_contra hc
  apply h
  rw [List.any_eq_true]
  exact ⟨r, hr, by simp [hne, Bool.not_eq_false _ ▸ hc]⟩

theorem lockWith_inv {conflicts : LockMode → Bool} {upgrade : LockMode → LockMode}
    {mode : LockMode} {lock_id : LockDataId}
    (R : ModeRules lock_id.type conflicts upgrade mode) (lt : LockTable) (txn : Transaction)
    (h : LockTableInv lt) : LockTableInv (lockWith conflicts upgrade mode lt txn lock_id).table := by
  unfold lockWith
  split
  · exact h
  · split
    · -- fresh queue
      intro e he
      simp only [LockTable.insertNew, List.mem_append, List.mem_singleton] at he
      rcases he with he | he
      · exact h e he
      · subst he
        refine ⟨by simp, ?_, ?_⟩
        · intro a ha b hb hab
          simp only [List.mem_singleton] at ha hb
          subst ha; subst hb
          exact absurd rfl hab
        · intro r hr
          simp only [List.mem_singleton] at hr
          subst hr
          exact R.allowed_mode
    · rename_i lock_reqs hfind
      have hq := h _ (LockTable.find_some_mem hfind)
      obtain ⟨hq1, hq2, hq3⟩ := hq
      split
      · exact h
      · rename_i hany
        split
        · rename_i q' hrw
          obtain ⟨pre, r, post, e1, e2, e3, e4⟩ := rewriteOwn_some hrw
          intro e he
          rcases LockTable.mem_assign he with he | he
          · exact h e he
          · subst he
            have hmem : ∀ x, x ∈ q' → x = { r with lock_mode := upgrade r.lock_mode } ∨
                (x ∈ lock_reqs ∧ x.txn_id ≠ txn.txn_id) := by
              intro x hx
              rw [e4] at hx
              rcases List.mem_append.1 hx with hx | hx
              · right
                exact ⟨by rw [e1]; exact List.mem_append_left _ hx, e3 x hx⟩
              · rcases List.mem_cons.1 hx with hx | hx
                · left; exact hx
                · right
                  have hxq : x ∈ lock_reqs := by
                    rw [e1]; exact List.mem_append_right _ (List.mem_cons_of_mem _ hx)
                  refine ⟨hxq, ?_⟩
                  intro hxt
                  rw [e1] at hq1
                  simp only [List.map_append, List.map_cons] at hq1
                  have := (List.nodup_append.1 hq1).2.1
                  rw [List.nodup_cons] at this
                  apply this.1
                  rw [e2, ← hxt]
                  exact List.mem_map_of_mem _ hx
            have hrq : r ∈ lock_reqs := by
              rw [e1]; exact List.mem_append_right _ (List.mem_cons_self _ _)
            refine ⟨?_, ?_, ?_⟩
            · have : q'.map LockRequest.txn_id = lock_reqs.map LockRequest.txn_id := by
                rw [e4, e1]; simp
              rw [this]; exact hq1
            · intro a ha b hb hab
              rcases hmem a ha with ha1 | ⟨ha1, ha2⟩ <;> rcases hmem b hb with hb1 | ⟨hb1, hb2⟩
              · subst ha1; subst hb1; exact absurd rfl hab
              · subst ha1
                apply R.keep _ _ (hq3 r hrq) (hq3 b hb1)
                · exact hq2 r hrq b hb1 (by rw [e2]; exact fun hh => hb2 hh.symm)
                · exact any_false_no_conflict hany hb1 hb2
              · subst hb1
                rw [compatible_symm]
                apply R.keep _ _ (hq3 r hrq) (hq3 a ha1)
                · exact hq2 r hrq a ha1 (by rw [e2]; exact fun hh => ha2 hh.symm)
                · exact any_false_no_conflict hany ha1 ha2
              · exact hq2 a ha1 b hb1 hab
            · intro x hx
              rcases hmem x hx with hx1 | ⟨hx1, _⟩
              · subst hx1
                exact R.allowed_upgrade _ (hq3 r hrq)
              · exact hq3 x hx1
        · rename_i hrw
          have hno := rewriteOwn_none hrw
          intro e he
          rcases LockTable.mem_assign he with he | he
          · exact h e he
          · subst he
            refine ⟨?_, ?_, ?_⟩
            · simp only [List.map_append, List.map_cons, List.map_nil]
              rw [List.nodup_append]
              refine ⟨hq1, by simp, ?_⟩
              intro a ha1 ha2
              simp only [List.mem_singleton] at ha2
              obtain ⟨x, hx, hxa⟩ := List.mem_map.1 ha1
              exact hno x hx (by rw [hxa, ha2])
            · intro a ha b hb hab
              simp only [List.mem_append, List.mem_singleton] at ha hb
              rcases ha with ha | ha <;> rcases hb with hb | hb
              · exact hq2 a ha b hb hab
              · subst hb
                rw [compatible_symm]
                exact R.fresh _ (hq3 a ha) (any_false_no_conflict hany ha (hno a ha))
              · subst ha
                exact R.fresh _ (hq3 b hb) (any_false_no_conflict hany hb (hno b hb))
              · subst ha; subst hb; exact absurd rfl hab
            · intro x hx
              simp only [List.mem_append, List.mem_singleton] at hx
              rcases hx with hx | hx
              · exact hq3 x hx
              · subst hx; exact R.allowed_mode

theorem lockWith_error {conflicts : LockMode → Bool} {upgrade : LockMode → LockMode}
    {mode : LockMode} {lock_id : LockDataId}
    (R : ModeRules lock_id.type conflicts upgrade mode) (lt : LockTable) (txn : Transaction)
    (e : AbortReason) (h : (lockWith conflicts upgrade mode lt txn lock_id).result = Except.error e) :
    (txn.state = TransactionState.SHRINKING ∧ e = AbortReason.LOCK_ON_SHIRINKING) ∨
    (txn.state ≠ TransactionState.SHRINKING ∧ e = AbortReason.DEADLOCK_PREVENTION ∧
      ConflictsWithOther lt lock_id txn.txn_id mode) := by
  unfold lockWith at h
  split at h
  · rename_i hs
    left
    simp only [Except.error.injEq] at h
    exact ⟨hs, h.symm⟩
  · rename_i hs
    right
    split at h
    · simp at h
    · rename_i lock_reqs hfind
      split at h
      · rename_i hany
        simp only [Except.error.injEq] at h
        refine ⟨hs, h.symm, ?_⟩
        rw [List.any_eq_true] at hany
        obtain ⟨r, hr, hc⟩ := hany
        simp only [ne_eq, Bool.and_eq_true, decide_eq_true_eq] at hc
        exact ⟨lock_reqs, r, hfind, hr, hc.1, R.sound _ hc.2⟩
      · split at h <;> simp at h

theorem lockWith_conflict {conflicts : LockMode → Bool} {upgrade : LockMode → LockMode}
    {mode : LockMode} {lock_id : LockDataId}
    (R : ModeRules lock_id.type conflicts upgrade mode) (lt : LockTable) (txn : Transaction)
    (hinv : LockTableInv lt) (hs : txn.state ≠ TransactionState.SHRINKING)
    (hc : ConflictsWithOther lt lock_id txn.txn_id mode) :
    lockWith conflicts upgrade mode lt txn lock_id =
      ⟨Except.error AbortReason.DEADLOCK_PREVENTION, lt, txn⟩ := by
  obtain ⟨q, r, hfind, hr, hne, hcomp⟩ := hc
  have hq := hinv _ (LockTable.find_some_mem hfind)
  unfold lockWith
  rw [if_neg hs, hfind]
  simp only
  rw [if_pos]
  rw [List.any_eq_true]
  exact ⟨r, hr, by simp [hne, R.complete _ (hq.2.2 r hr) hcomp]⟩

theorem rules_shared_on_record :
    ModeRules LockDataType.RECORD (fun m => decide (m = LockMode.EXLUCSIVE))
      (fun m => m) LockMode.SHARED := by
  constructor <;> decide

theorem rules_exclusive_on_record :
    ModeRules LockDataType.RECORD (fun _ => true)
      (fun m => if m = LockMode.SHARED then LockMode.EXLUCSIVE else m) LockMode.EXLUCSIVE := by
  constructor <;> decide

theorem rules_shared_on_table :
    ModeRules LockDataType.TABLE
      (fun m => decide (m = LockMode.EXLUCSIVE ∨ m = LockMode.INTENTION_EXCLUSIVE ∨ m = LockMode.S_IX))
      (fun m => if m = LockMode.INTENTION_SHARED then LockMode.SHARED
                else if m = LockMode.INTENTION_EXCLUSIVE then LockMode.S_IX else m)
      LockMode.SHARED := by
  constructor <;> decide

theorem rules_exclusive_on_table :
    ModeRules LockDataType.TABLE (fun _ => true) (fun _ => LockMode.EXLUCSIVE)
      LockMode.EXLUCSIVE := by
  constructor <;> decide

theorem rules_IS_on_table :
    ModeRules LockDataType.TABLE (fun m => decide (m = LockMode.EXLUCSIVE))
      (fun m => m) LockMode.INTENTION_SHARED := by
  constructor <;> decide

theorem rules_IX_on_table :
    ModeRules LockDataType.TABLE
      (fun m => decide (m = LockMode.EXLUCSIVE ∨ m = LockMode.S_IX ∨ m = LockMode.SHARED))
      (fun m => if m = LockMode.INTENTION_SHARED then LockMode.INTENTION_EXCLUSIVE
                else if m = LockMode.SHARED then LockMode.S_IX else m)
      LockMode.INTENTION_EXCLUSIVE := by
  constructor <;> decide

theorem unlock_inv (lt : LockTable) (txn : Transaction) (id : LockDataId)
    (h : LockTableInv lt) : LockTableInv (unlock lt txn id) := by
  unfold unlock
  split
  · exact h
  · rename_i lock_reqs hfind
    have hq := h _ (LockTable.find_some_mem hfind)
    simp only
    split
    · intro e he
      exact h e (LockTable.mem_eraseKey he).1
    · intro e he
      rcases LockTable.mem_assign he with he | he
      · exact h e he
      · subst he
        exact QueueInv.sublist (eraseOwn_sublist _ _) hq

theorem LockCall.run_eq (c : LockCall) (lt : LockTable) (txn : Transaction) :
    ∃ conflicts upgrade, ModeRules c.target.type conflicts upgrade c.mode ∧
      c.run lt txn = lockWith conflicts upgrade c.mode lt txn c.target := by
  cases c with
  | shared_on_record rid fd => exact ⟨_, _, rules_shared_on_record, rfl⟩
  | exclusive_on_record rid fd => exact ⟨_, _, rules_exclusive_on_record, rfl⟩
  | shared_on_table fd => exact ⟨_, _, rules_shared_on_table, rfl⟩
  | exclusive_on_table fd => exact ⟨_, _, rules_exclusive_on_table, rfl⟩
  | IS_on_table fd => exact ⟨_, _, rules_IS_on_table, rfl⟩
  | IX_on_table fd => exact ⟨_, _, rules_IX_on_table, rfl⟩

theorem LockReachable.inv {lt : LockTable} (h : LockReachable lt) : LockTableInv lt := by
  induction h with
  | empty => intro e he; simp at he
  | lock lt txn c _ ih =>
    obtain ⟨conflicts, upgrade, R, hrun⟩ := c.run_eq lt txn
    rw [hrun]
    exact lockWith_inv R lt txn ih
  | unlock lt txn id _ ih => exact unlock_inv lt txn id ih

theorem requestsOf_le_one {q : RequestQueue} (h : (q.map LockRequest.txn_id).Nodup) (tid : Int) :
    requestsOf tid q ≤ 1 := by
  induction q with
  | nil => simp [requestsOf]
  | cons r rest ih =>
    simp only [List.map_cons, List.nodup_cons] at h
    have ih1 := ih h.2
    unfold requestsOf at ih1 ⊢
    by_cases hr : r.txn_id = tid
    · have : List.countP (fun r => decide (r.txn_id = tid)) rest = 0 := by
        rw [List.countP_eq_zero]
        intro x hx
        simp only [decide_eq_true_eq]
        intro hxt
        apply h.1
        rw [hr, ← hxt]
        exact List.mem_map_of_mem _ hx
      rw [List.countP_cons_of_pos _ _ (by simpa using hr), this]
    · rw [List.countP_cons_of_neg _ _ (by simpa using hr)]
      exact ih1

/-- C9 (amended): in every reachable lock table each queue holds at most
one request per transaction and requests of different transactions in one
queue are pairwise compatible; a lock request is rejected either because
the requester is SHRINKING (reason LOCK_ON_SHIRINKING) or, for a requester
that is not SHRINKING, with reason DEADLOCK_PREVENTION and only when the
requested mode is incompatible with the mode of a request of another
transaction in the queue of the named object. -/
theorem lock_table_compatibility (lt : LockTable) (h : LockReachable lt) :
    (∀ id q, lt.find id = some q →
      (∀ tid, requestsOf tid q ≤ 1) ∧ PairwiseCompatible q) ∧
    (∀ (txn : Transaction) (c : LockCall) (e : AbortReason),
      (c.run lt txn).result = Except.error e →
        (txn.state = TransactionState.SHRINKING ∧ e = AbortReason.LOCK_ON_SHIRINKING) ∨
        (txn.state ≠ TransactionState.SHRINKING ∧ e = AbortReason.DEADLOCK_PREVENTION ∧
          ConflictsWithOther lt c.target txn.txn_id c.mode)) := by
  constructor
  · intro id q hfind
    have hq := h.inv _ (LockTable.find_some_mem hfind)
    exact ⟨requestsOf_le_one hq.1, hq.2.1⟩
  · intro txn c e he
    obtain ⟨conflicts, upgrade, R, hrun⟩ := c.run_eq lt txn
    rw [hrun] at he
    exact lockWith_error R lt txn e he

/-- Witness for C9: the table reached after transaction 1 took S and
transaction 2 took IS on table 5. -/
theorem lock_table_compatibility_witness :
    LockReachable [(LockDataId.ofTable 5, [⟨1, LockMode.SHARED⟩, ⟨2, LockMode.INTENTION_SHARED⟩])] ∧
    ((∀ id q, LockTable.find
        [(LockDataId.ofTable 5, [⟨1, LockMode.SHARED⟩, ⟨2, LockMode.INTENTION_SHARED⟩])] id = some q →
      (∀ tid, requestsOf tid q ≤ 1) ∧ PairwiseCompatible q) ∧
    (∀ (txn : Transaction) (c : LockCall) (e : AbortReason),
      (c.run [(LockDataId.ofTable 5, [⟨1, LockMode.SHARED⟩, ⟨2, LockMode.INTENTION_SHARED⟩])]
          txn).result = Except.error e →
        (txn.state = TransactionState.SHRINKING ∧ e = AbortReason.LOCK_ON_SHIRINKING) ∨
        (txn.state ≠ TransactionState.SHRINKING ∧ e = AbortReason.DEADLOCK_PREVENTION ∧
          ConflictsWithOther
            [(LockDataId.ofTable 5, [⟨1, LockMode.SHARED⟩, ⟨2, LockMode.INTENTION_SHARED⟩])]
            c.target txn.txn_id c.mode))) :=
  have hr : LockReachable
      [(LockDataId.ofTable 5, [⟨1, LockMode.SHARED⟩, ⟨2, LockMode.INTENTION_SHARED⟩])] :=
    LockReachable.lock _ ⟨2, TransactionState.GROWING, [], []⟩ (LockCall.IS_on_table 5)
      (LockReachable.lock [] ⟨1, TransactionState.GROWING, [], []⟩ (LockCall.shared_on_table 5)
        LockReachable.empty)
  ⟨hr, lock_table_compatibility _ hr⟩

/-- C9 as stated fails: a SHRINKING transaction asking for S on table 5 of
the empty lock table is rejected although no other transaction holds any
request at all. -/
theorem lock_rejected_without_conflict :
    LockReachable [] ∧
    ((LockCall.shared_on_table 5).run [] ⟨7, TransactionState.SHRINKING, [], []⟩).result
      = Except.error AbortReason.LOCK_ON_SHIRINKING ∧
    ¬ ConflictsWithOther [] (LockCall.shared_on_table 5).target 7
        (LockCall.shared_on_table 5).mode := by
  refine ⟨LockReachable.empty, rfl, ?_⟩
  rintro ⟨q, r, hfind, _⟩
  simp [LockTable.find] at hfind

/-- C10: in a reachable lock table, a lock request of a GROWING transaction
on an object whose queue holds a request of another transaction with a mode
incompatible with the requested one throws TransactionAbortException with
reason DEADLOCK_PREVENTION, and leaves the lock table and the requesting
transaction (its lock set included) exactly as they were. -/
theorem lock_conflict_no_wait (lt : LockTable) (h : LockReachable lt) (t2 : Transaction)
    (c : LockCall) (hg : t2.state = TransactionState.GROWING)
    (hc : ConflictsWithOther lt c.target t2.txn_id c.mode) :
    (c.run lt t2).result = Except.error AbortReason.DEADLOCK_PREVENTION ∧
    (c.run lt t2).table = lt ∧ (c.run lt t2).txn = t2 ∧
    (c.run lt t2).txn.lock_set = t2.lock_set := by
  obtain ⟨conflicts, upgrade, R, hrun⟩ := c.run_eq lt t2
  have hs : t2.state ≠ TransactionState.SHRINKING := by rw [hg]; decide
  rw [hrun, lockWith_conflict R lt t2 h.inv hs hc]
  exact ⟨rfl, rfl, rfl, rfl⟩

/-- Witness for C10, the scenario of the specification: transaction 1 holds
S on table 5 and transaction 2 requests X on it. -/
theorem lock_conflict_no_wait_witness :
    ((LockCall.exclusive_on_table 5).run [(LockDataId.ofTable 5, [⟨1, LockMode.SHARED⟩])]
        ⟨2, TransactionState.GROWING, [], []⟩).result
      = Except.error AbortReason.DEADLOCK_PREVENTION ∧
    ((LockCall.exclusive_on_table 5).run [(LockDataId.ofTable 5, [⟨1, LockMode.SHARED⟩])]
        ⟨2, TransactionState.GROWING, [], []⟩).table
      = [(LockDataId.ofTable 5, [⟨1, LockMode.SHARED⟩])] ∧
    ((LockCall.exclusive_on_table 5).run [(LockDataId.ofTable 5, [⟨1, LockMode.SHARED⟩])]
        ⟨2, TransactionState.GROWING, [], []⟩).txn = ⟨2, TransactionState.GROWING, [], []⟩ ∧
    ((LockCall.exclusive_on_table 5).run [(LockDataId.ofTable 5, [⟨1, LockMode.SHARED⟩])]
        ⟨2, TransactionState.GROWING, [], []⟩).txn.lock_set = [] :=
  lock_conflict_no_wait [(LockDataId.ofTable 5, [⟨1, LockMode.SHARED⟩])]
    (LockReachable.lock [] ⟨1, TransactionState.GROWING, [], []⟩ (LockCall.shared_on_table 5)
      LockReachable.empty)
    ⟨2, TransactionState.GROWING, [], []⟩ (LockCall.exclusive_on_table 5) rfl
    ⟨[⟨1, LockMode.SHARED⟩], ⟨1, LockMode.SHARED⟩, by decide, by decide, by decide, by decide⟩

/-! ## Theorems: commit -/

/-- The shapes a call of `lockWith` can end in. -/
theorem lockWith_cases (conflicts : LockMode → Bool) (upgrade : LockMode → LockMode)
    (mode : LockMode) (lt : LockTable) (txn : Transaction) (lock_id : LockDataId) :
    ((lockWith conflicts upgrade mode lt txn lock_id).table = lt ∧
      (lockWith conflicts upgrade mode lt txn lock_id).txn = txn) ∨
    (lt.find lock_id = none ∧
      (lockWith conflicts upgrade mode lt txn lock_id).table
        = lt.insertNew lock_id [⟨txn.txn_id, mode⟩] ∧
      (lockWith conflicts upgrade mode lt txn lock_id).txn = txn.append_lock_set lock_id) ∨
    (∃ q q', lt.find lock_id = some q ∧ rewriteOwn txn.txn_id upgrade q = some q' ∧
      (lockWith conflicts upgrade mode lt txn lock_id).table = lt.assign lock_id q' ∧
      (lockWith conflicts upgrade mode lt txn lock_id).txn = txn) ∨
    (∃ q, lt.find lock_id = some q ∧ rewriteOwn txn.txn_id upgrade q = none ∧
      (lockWith conflicts upgrade mode lt txn lock_id).table
        = lt.assign lock_id (q ++ [⟨txn.txn_id, mode⟩]) ∧
      (lockWith conflicts upgrade mode lt txn lock_id).txn = txn.append_lock_set lock_id) := by
  unfold lockWith
  split
  · left; exact ⟨rfl, rfl⟩
  · split
    · rename_i hfind
      right; left; exact ⟨hfind, rfl, rfl⟩
    · rename_i q hfind
      split
      · left; exact ⟨rfl, rfl⟩
      · split
        · rename_i q' hrw
          right; right; left; exact ⟨q, q', hfind, hrw, rfl, rfl⟩
        · rename_i hrw
          right; right; right; exact ⟨q, hfind, hrw, rfl, rfl⟩

theorem append_lock_set_mem (txn : Transaction) (id : LockDataId) :
    id ∈ (txn.append_lock_set id).lock_set := by
  unfold Transaction.append_lock_set
  split
  · assumption
  · simp

theorem append_lock_set_subset (txn : Transaction) (id x : LockDataId)
    (h : x ∈ txn.lock_set) : x ∈ (txn.append_lock_set id).lock_set := by
  unfold Transaction.append_lock_set
  split
  · exact h
  · simp [h]

theorem append_lock_set_txn_id (txn : Transaction) (id : LockDataId) :
    (txn.append_lock_set id).txn_id = txn.txn_id := by
  unfold Transaction.append_lock_set
  split <;> rfl

theorem rewriteOwn_ids {tid : Int} {f : LockMode → LockMode} {q q' : RequestQueue}
    (h : rewriteOwn tid f q = some q') :
    q'.map LockRequest.txn_id = q.map LockRequest.txn_id := by
  obtain ⟨pre, r, post, e1, _, _, e4⟩ := rewriteOwn_some h
  rw [e4, e1]; simp

theorem has_request_iff_ids (q : RequestQueue) (tid : Int) :
    (∃ r ∈ q, r.txn_id = tid) ↔ tid ∈ q.map LockRequest.txn_id := by
  simp [List.mem_map]

theorem lockWith_own_covers (conflicts : LockMode → Bool) (upgrade : LockMode → LockMode)
    (mode : LockMode) (lt : LockTable) (T : Transaction) (lock_id : LockDataId)
    (h : LockSetCovers lt T) :
    LockSetCovers (lockWith conflicts upgrade mode lt T lock_id).table
      (lockWith conflicts upgrade mode lt T lock_id).txn := by
  rcases lockWith_cases conflicts upgrade mode lt T lock_id with
    ⟨h1, h2⟩ | ⟨_, h1, h2⟩ | ⟨q, q', hf, hrw, h1, h2⟩ | ⟨q, hf, _, h1, h2⟩
  · rw [h1, h2]; exact h
  · rw [h1, h2]
    intro e he hr
    rw [append_lock_set_txn_id] at hr
    simp only [LockTable.insertNew, List.mem_append, List.mem_singleton] at he
    rcases he with he | he
    · exact append_lock_set_subset _ _ _ (h e he hr)
    · subst he; exact append_lock_set_mem _ _
  · rw [h1, h2]
    intro e he hr
    rcases LockTable.mem_assign he with he | he
    · exact h e he hr
    · subst he
      apply h _ (LockTable.find_some_mem hf)
      rw [has_request_iff_ids] at hr ⊢
      rw [← rewriteOwn_ids hrw]; exact hr
  · rw [h1, h2]
    intro e he hr
    rw [append_lock_set_txn_id] at hr
    rcases LockTable.mem_assign he with he | he
    · exact append_lock_set_subset _ _ _ (h e he hr)
    · subst he; exact append_lock_set_mem _ _

theorem lockWith_other_covers (conflicts : LockMode → Bool) (upgrade : LockMode → LockMode)
    (mode : LockMode) (lt : LockTable) (T other : Transaction) (lock_id : LockDataId)
    (hne : other.txn_id ≠ T.txn_id) (h : LockSetCovers lt T) :
    LockSetCovers (lockWith conflicts upgrade mode lt other lock_id).table T := by
  rcases lockWith_cases conflicts upgrade mode lt other lock_id with
    ⟨h1, _⟩ | ⟨_, h1, _⟩ | ⟨q, q', hf, hrw, h1, _⟩ | ⟨q, hf, _, h1, _⟩
  · rw [h1]; exact h
  · rw [h1]
    intro e he hr
    simp only [LockTable.insertNew, List.mem_append, List.mem_singleton] at he
    rcases he with he | he
    · exact h e he hr
    · subst he
      obtain ⟨r, hr1, hr2⟩ := hr
      simp only [List.mem_singleton] at hr1
      subst hr1
      exact absurd hr2 hne
  · rw [h1]
    intro e he hr
    rcases LockTable.mem_assign he with he | he
    · exact h e he hr
    · subst he
      apply h _ (LockTable.find_some_mem hf)
      rw [has_request_iff_ids] at hr ⊢
      rw [← rewriteOwn_ids hrw]; exact hr
  · rw [h1]
    intro e he hr
    rcases LockTable.mem_assign he with he | he
    · exact h e he hr
    · subst he
      apply h _ (LockTable.find_some_mem hf)
      obtain ⟨r, hr1, hr2⟩ := hr
      simp only [List.mem_append, List.mem_singleton] at hr1
      rcases hr1 with hr1 | hr1
      · exact ⟨r, hr1, hr2⟩
      · subst hr1; exact absurd hr2 hne

theorem unlock_covers (lt : LockTable) (T other : Transaction) (id : LockDataId)
    (h : LockSetCovers lt T) : LockSetCovers (unlock lt other id) T := by
  unfold unlock
  split
  · exact h
  · rename_i q hf
    simp only
    split
    · intro e he hr
      exact h e (LockTable.mem_eraseKey he).1 hr
    · intro e he hr
      rcases LockTable.mem_assign he with he | he
      · exact h e he hr
      · subst he
        apply h _ (LockTable.find_some_mem hf)
        obtain ⟨r, hr1, hr2⟩ := hr
        exact ⟨r, (eraseOwn_sublist _ _).subset hr1, hr2⟩

theorem LockCall.run_lockWith (c : LockCall) (lt : LockTable) (txn : Transaction) :
    ∃ conflicts upgrade, c.run lt txn = lockWith conflicts upgrade c.mode lt txn c.target := by
  obtain ⟨a, b, _, h⟩ := c.run_eq lt txn
  exact ⟨a, b, h⟩

theorem LockCall.run_txn_id (c : LockCall) (lt : LockTable) (txn : Transaction) :
    (c.run lt txn).txn.txn_id = txn.txn_id := by
  obtain ⟨a, b, h⟩ := c.run_lockWith lt txn
  rw [h]
  rcases lockWith_cases a b c.mode lt txn c.target with
    ⟨_, h2⟩ | ⟨_, _, h2⟩ | ⟨_, _, _, _, _, h2⟩ | ⟨_, _, _, _, h2⟩ <;> rw [h2]
  · exact append_lock_set_txn_id _ _
  · exact append_lock_set_txn_id _ _

theorem TxnLockReachable.covers {lt : LockTable} {T : Transaction}
    (h : TxnLockReachable lt T) : LockSetCovers lt T := by
  induction h with
  | start tid => intro e he; simp at he
  | own lt T c _ ih =>
    obtain ⟨a, b, hrun⟩ := c.run_lockWith lt T
    rw [hrun]; exact lockWith_own_covers a b _ lt T _ ih
  | other_lock lt T other c hne _ ih =>
    obtain ⟨a, b, hrun⟩ := c.run_lockWith lt other
    rw [hrun]; exact lockWith_other_covers a b _ lt T other _ hne ih
  | other_unlock lt T other id _ _ ih => exact unlock_covers lt T other id ih
  | write lt T w _ ih => exact ih

theorem TxnLockReachable.reachable {lt : LockTable} {T : Transaction}
    (h : TxnLockReachable lt T) : LockReachable lt := by
  induction h with
  | start tid => exact LockReachable.empty
  | own lt T c _ ih => exact LockReachable.lock lt T c ih
  | other_lock lt T other c _ _ ih => exact LockReachable.lock lt other c ih
  | other_unlock lt T other id _ _ ih => exact LockReachable.unlock lt other id ih
  | write lt T w _ ih => exact ih

theorem eraseOwn_no_request {tid : Int} {q : RequestQueue}
    (h : (q.map LockRequest.txn_id).Nodup) : ∀ r ∈ eraseOwn tid q, r.txn_id ≠ tid := by
  induction q with
  | nil => simp [eraseOwn]
  | cons a rest ih =>
    simp only [List.map_cons, List.nodup_cons] at h
    simp only [eraseOwn]
    split
    · rename_i ha
      intro r hr hrt
      apply h.1
      rw [ha, ← hrt]
      exact List.mem_map_of_mem _ hr
    · rename_i ha
      intro r hr
      rcases List.mem_cons.1 hr with hr | hr
      · rw [hr]; exact ha
      · exact ih h.2 r hr

/-- After `unlock lt T id` no queue stored under `id` holds a request of
`T`, and queues stored under other keys are as before. -/
theorem unlock_entries (lt : LockTable) (T : Transaction) (id : LockDataId)
    (hinv : LockTableInv lt) :
    ∀ e ∈ unlock lt T id,
      (e.1 = id ∧ ∀ r ∈ e.2, r.txn_id ≠ T.txn_id) ∨ (e.1 ≠ id ∧ e ∈ lt) := by
  unfold unlock
  split
  · rename_i hf
    intro e he
    right
    refine ⟨?_, he⟩
    intro hid
    have : ∀ (l : LockTable), e ∈ l → l.find e.1 ≠ none := by
      intro l
      induction l with
      | nil => simp
      | cons x rest ih =>
        intro hm
        obtain ⟨k, q0⟩ := x
        simp only [LockTable.find]
        split
        · simp
        · rename_i hk
          rcases List.mem_cons.1 hm with hm | hm
          · rw [hm] at hk; exact absurd rfl hk
          · exact ih hm
    exact this lt he (by rw [hid]; exact hf)
  · rename_i q hf
    have hq := hinv _ (LockTable.find_some_mem hf)
    simp only
    split
    · intro e he
      right
      exact ⟨(LockTable.mem_eraseKey he).2, (LockTable.mem_eraseKey he).1⟩
    · intro e he
      have key : ∀ (l : LockTable) (q1 : RequestQueue), e ∈ l.assign id q1 →
          (e = (id, q1)) ∨ (e.1 ≠ id ∧ e ∈ l) := by
        intro l q1
        induction l with
        | nil => simp [LockTable.assign]
        | cons x rest ih =>
          obtain ⟨k, q0⟩ := x
          simp only [LockTable.assign]
          split
          · rename_i hk
            intro hm
            rcases List.mem_cons.1 hm with hm | hm
            · left; rw [hm, hk]
            · rcases ih hm with h1 | h1
              · left; exact h1
              · right; exact ⟨h1.1, List.mem_cons_of_mem _ h1.2⟩
          · rename_i hk
            intro hm
            rcases List.mem_cons.1 hm with hm | hm
            · right; rw [hm]; exact ⟨hk, List.mem_cons_self _ _⟩
            · rcases ih hm with h1 | h1
              · left; exact h1
              · right; exact ⟨h1.1, List.mem_cons_of_mem _ h1.2⟩
      rcases key lt _ he with h1 | h1
      · left
        subst h1
        exact ⟨rfl, eraseOwn_no_request hq.1⟩
      · right; exact h1

theorem unlock_all_no_request (T : Transaction) (ids : List LockDataId) :
    ∀ (lt : LockTable), LockTableInv lt →
      (∀ e ∈ lt, (∃ r ∈ e.2, r.txn_id = T.txn_id) → e.1 ∈ ids) →
      ∀ e ∈ unlock_all lt T ids, ∀ r ∈ e.2, r.txn_id ≠ T.txn_id := by
  induction ids with
  | nil =>
    intro lt _ hcov e he r hr hrt
    have := hcov e he ⟨r, hr, hrt⟩
    simp at this
  | cons id rest ih =>
    intro lt hinv hcov
    simp only [unlock_all]
    apply ih (unlock lt T id) (unlock_inv lt T id hinv)
    intro e he hex
    rcases unlock_entries lt T id hinv e he with ⟨_, h2⟩ | ⟨h1, h2⟩
    · obtain ⟨r, hr, hrt⟩ := hex
      exact absurd hrt (h2 r hr)
    · have := hcov e h2 hex
      rcases List.mem_cons.1 this with h3 | h3
      · exact absurd h3 h1
      · exact h3

theorem wrap32_id {x : Int} (h1 : -2147483648 ≤ x) (h2 : x < 2147483648) : wrap32 x = x := by
  unfold wrap32
  omega

theorem commit_log (log : LogManager) (tid : Int) (hlog : LogInv log) :
    ((log.add_commit_log_record tid).flush_log_to_disk).disk_log
        = log.records ++ [{ CommitLogRecord tid with lsn_ := log.global_lsn_ }] ∧
    ((log.add_commit_log_record tid).flush_log_to_disk).buffer_ = [] ∧
    ((log.add_commit_log_record tid).flush_log_to_disk).offset_ = 0 ∧
    ((log.add_commit_log_record tid).flush_log_to_disk).global_lsn_ = log.global_lsn_ + 1 ∧
    ((log.add_commit_log_record tid).flush_log_to_disk).persist_lsn_ = log.global_lsn_ := by
  obtain ⟨_, h0, h1⟩ := hlog
  have hw : wrap32 (log.global_lsn_ + 1) = log.global_lsn_ + 1 := wrap32_id (by omega) (by omega)
  unfold LogManager.add_commit_log_record LogManager.add_record LogManager.add_log_to_buffer
  simp only [LogManager.flush_log_to_disk, LogManager.is_full, LogManager.records]
  rw [hw]
  have hw2 : wrap32 (log.global_lsn_ + 1 - 1) = log.global_lsn_ := by
    rw [Int.add_sub_cancel]; exact wrap32_id (by omega) (by omega)
  refine ⟨?_, trivial, trivial, ?_, ?_⟩
  · split <;> simp
  · split <;> rfl
  · split <;> simp only [hw2]

/-- C8: when `commit(T)` returns for a transaction whose lock requests
were made through the lock manager, and the log holds only LSNs issued by
the counter (which has not wrapped), then T is COMMITTED, no queue of the
lock table holds a request of T, T's lock set and write set are empty, the
log file is the former log followed by a COMMIT record of T as its last
record, the log buffer is empty, `persist_lsn = global_lsn - 1`, and every
record of the log, the COMMIT record and T's earlier records included, has
`lsn <= persist_lsn`. -/
theorem commit_postconditions (lt : LockTable) (log : LogManager) (T : Transaction)
    (hreach : TxnLockReachable lt T) (hlog : LogInv log) :
    (TransactionManager.commit lt log T).2.2.state = TransactionState.COMMITTED ∧
    (∀ id q, (TransactionManager.commit lt log T).1.find id = some q →
      ∀ r ∈ q, r.txn_id ≠ T.txn_id) ∧
    (TransactionManager.commit lt log T).2.2.lock_set = [] ∧
    (TransactionManager.commit lt log T).2.2.write_set = [] ∧
    (TransactionManager.commit lt log T).2.1.disk_log
      = log.records ++ [{ CommitLogRecord T.txn_id with lsn_ := log.global_lsn_ }] ∧
    (TransactionManager.commit lt log T).2.1.buffer_ = [] ∧
    (TransactionManager.commit lt log T).2.1.offset_ = 0 ∧
    (TransactionManager.commit lt log T).2.1.persist_lsn_
      = (TransactionManager.commit lt log T).2.1.global_lsn_ - 1 ∧
    (∀ r ∈ (TransactionManager.commit lt log T).2.1.records,
      r.lsn_ ≤ (TransactionManager.commit lt log T).2.1.persist_lsn_) := by
  obtain ⟨hd, hb, ho, hg, hp⟩ := commit_log log T.txn_id hlog
  have hcommit : TransactionManager.commit lt log T =
      (unlock_all lt { T with state := TransactionState.SHRINKING } T.lock_set,
       (log.add_commit_log_record T.txn_id).flush_log_to_disk,
       { T with state := TransactionState.COMMITTED, write_set := [], lock_set := [] }) := rfl
  rw [hcommit]
  refine ⟨rfl, ?_, rfl, rfl, hd, hb, ho, ?_, ?_⟩
  · intro id q hf r hr
    exact unlock_all_no_request { T with state := TransactionState.SHRINKING } T.lock_set lt
      hreach.reachable.inv hreach.covers _ (LockTable.find_some_mem hf) r hr
  · simp only [hg, hp]; omega
  · intro r hr
    simp only [LogManager.records, hd, hb, hp, List.append_nil, List.mem_append,
      List.mem_singleton] at hr ⊢
    rcases hr with hr | hr
    · exact le_of_lt (hlog.1 r (by simpa [LogManager.records] using hr))
    · subst hr; exact le_refl _

/-- Witness for C8: transaction 1 holds S on table 5 and has written one
record to the log buffer. -/
theorem commit_postconditions_witness :
    (TransactionManager.commit [(LockDataId.ofTable 5, [⟨1, LockMode.SHARED⟩])]
      ⟨1, -1, [{ BeginLogRecord 1 with lsn_ := 0 }], 20, 4096, []⟩
      ⟨1, TransactionState.GROWING, [LockDataId.ofTable 5], []⟩).2.2.state
        = TransactionState.COMMITTED ∧
    (TransactionManager.commit [(LockDataId.ofTable 5, [⟨1, LockMode.SHARED⟩])]
      ⟨1, -1, [{ BeginLogRecord 1 with lsn_ := 0 }], 20, 4096, []⟩
      ⟨1, TransactionState.GROWING, [LockDataId.ofTable 5], []⟩).1 = [] ∧
    (TransactionManager.commit [(LockDataId.ofTable 5, [⟨1, LockMode.SHARED⟩])]
      ⟨1, -1, [{ BeginLogRecord 1 with lsn_ := 0 }], 20, 4096, []⟩
      ⟨1, TransactionState.GROWING, [LockDataId.ofTable 5], []⟩).2.1.persist_lsn_ = 1 :=
  have h := commit_postconditions [(LockDataId.ofTable 5, [⟨1, LockMode.SHARED⟩])]
    ⟨1, -1, [{ BeginLogRecord 1 with lsn_ := 0 }], 20, 4096, []⟩
    ⟨1, TransactionState.GROWING, [LockDataId.ofTable 5], []⟩
    (TxnLockReachable.own [] ⟨1, TransactionState.GROWING, [], []⟩ (LockCall.shared_on_table 5)
      (TxnLockReachable.start 1))
    ⟨by decide, by decide, by decide⟩
  ⟨h.1, by decide, by decide⟩

/-! ## Theorems: B+tree, duplicate insertion -/

section BTreeDuplicate
open IxIndexHandle

theorem IxM.bind_apply {α β : Type} (x : IxM α) (f : α → IxM β) (s : IxIndexHandle) :
    (x >>= f) s = match x s with
      | (Except.ok a, s1) => f a s1
      | (Except.error e, s1) => (Except.error e, s1) := rfl

theorem IxM.pure_apply {α : Type} (a : α) (s : IxIndexHandle) :
    (Pure.pure a : IxM α) s = (Except.ok a, s) := rfl

theorem fetch_node_state (p : Int) (s : IxIndexHandle) : (fetch_node p s).2 = s := by
  unfold fetch_node
  split
  · rfl
  · split <;> rfl

theorem find_leaf_loop_state (key : Int) (fuel : Nat) (p : Int) (s : IxIndexHandle) :
    (find_leaf_loop key fuel p s).2 = s := by
  induction fuel generalizing p with
  | zero => rfl
  | succ n ih =>
    unfold find_leaf_loop
    rw [IxM.bind_apply]
    have h1 := fetch_node_state p s
    revert h1
    generalize fetch_node p s = r
    obtain ⟨v, s1⟩ := r
    intro h1
    simp only at h1
    subst h1
    cases v with
    | error e => rfl
    | ok node =>
      try simp only
      split
      · rfl
      · rw [IxM.bind_apply]
        unfold IxM.lift
        cases node.internal_lookup key with
        | error e => rfl
        | ok c => exact ih c

theorem find_leaf_page_state (key : Int) (s : IxIndexHandle) :
    (find_leaf_page key s).2 = s := by
  unfold find_leaf_page
  rw [IxM.bind_apply]
  unfold IxM.getHdr
  simp only
  exact find_leaf_loop_state _ _ _ _

theorem ix_compare_eq_zero (a b : Int) : ix_compare a b = 0 ↔ a = b := by
  unfold ix_compare
  constructor
  · intro h
    split at h
    · simp at h
    · split at h
      · simp at h
      · omega
  · intro h
    subst h
    simp

/-- C4: when `get_value` finds key `k`, `insert_entry(k, r)` raises
IndexInsertDuplicatedError for every rid `r` and leaves the whole index
(every page with its keys, rids, num_key, parent and leaf links, and the
file header) unchanged. -/
theorem insert_entry_duplicate (t : IxIndexHandle) (k : Int) (r rid : Rid)
    (h : (get_value k t).1 = Except.ok (some rid)) :
    insert_entry k r t = (Except.error IxError.IndexInsertDuplicatedError, t) := by
  unfold get_value at h
  unfold insert_entry
  rw [IxM.bind_apply] at h ⊢
  have h1 := find_leaf_page_state k t
  revert h h1
  generalize find_leaf_page k t = res
  obtain ⟨v, s1⟩ := res
  intro h h1
  simp only at h1
  subst h1
  cases v with
  | error e => simp at h
  | ok leaf_no =>
    simp only at h ⊢
    rw [IxM.bind_apply] at h ⊢
    have h2 := fetch_node_state leaf_no s1
    revert h h2
    generalize fetch_node leaf_no s1 = res2
    obtain ⟨v2, s2⟩ := res2
    intro h h2
    simp only at h2
    subst h2
    cases v2 with
    | error e => simp at h
    | ok leaf =>
      simp only at h ⊢
      unfold IxM.lift at h
      simp only at h
      have hins : leaf.insert k r = Except.error IxError.IndexInsertDuplicatedError := by
        unfold IxNode.leaf_lookup at h
        unfold IxNode.insert
        split at h
        · simp at h
        · simp only at h
          split at h
          · simp at h
          · rename_i hpos
            split at h
            · simp at h
            · rename_i hcmp
              simp only [ne_eq, not_not] at hcmp
              rw [ix_compare_eq_zero] at hcmp
              simp only
              rw [if_pos]
              refine ⟨?_, ?_⟩
              · exact hpos
              · rw [ix_compare_eq_zero]; exact hcmp.symm
      rw [IxM.bind_apply]
      unfold IxM.lift
      simp only [hins]

/-- Witness for C4. -/
theorem insert_entry_duplicate_witness :
    insert_entry 5 ⟨9, 9⟩ (insert_entry 5 ⟨1, 0⟩ (IxIndexHandle.empty 4)).2 =
      (Except.error IxError.IndexInsertDuplicatedError,
        (insert_entry 5 ⟨1, 0⟩ (IxIndexHandle.empty 4)).2) :=
  insert_entry_duplicate _ 5 ⟨9, 9⟩ ⟨1, 0⟩ (by decide!)

end BTreeDuplicate

/-! ## Theorems: recovery -/

section RecoveryRedo
open RecoveryManager

/-- C5 (failing input): transaction 1 inserted the record `[7,0,0,0]` at
rid (1,0) of table "t" and committed; the log file holds BEGIN, INSERT and
COMMIT, and the dirty heap page was written to disk before the crash, so
the heap file already holds the record.  `page_lsn` of the page is
`INVALID_LSN`, as no heap operation ever sets it.  Redo re-applies the
INSERT to the occupied slot and recovery dies on the assertion of
`insert_record(Rid&, char*)`. -/
theorem recover_fails_on_flushed_page :
    recover
      ⟨[("t", ⟨3, ⟨4, 2, 2⟩,
          [⟨INVALID_LSN, 0, [false, false], [[0, 0, 0, 0], [0, 0, 0, 0]]⟩,
           ⟨INVALID_LSN, 1, [true, false], [[7, 0, 0, 0], [0, 0, 0, 0]]⟩], [1]⟩)],
        [("t", [])], []⟩
      ⟨0, -1, [], 0, 4096,
        [{ BeginLogRecord 1 with lsn_ := 0 },
         { InsertLogRecord 1 [7, 0, 0, 0] ⟨1, 0⟩ "t" with lsn_ := 1 },
         { CommitLogRecord 1 with lsn_ := 2 }]⟩
      = Except.error DbError.AssertionFailed := by
  decide!

/-- The same log replayed against the heap file as it was before the
insert reached the disk: recovery completes and the record is present. -/
theorem recover_succeeds_on_unflushed_page :
    (recover
      ⟨[("t", ⟨3, ⟨4, 2, 2⟩,
          [⟨INVALID_LSN, 0, [false, false], [[0, 0, 0, 0], [0, 0, 0, 0]]⟩,
           ⟨INVALID_LSN, 0, [false, false], [[0, 0, 0, 0], [0, 0, 0, 0]]⟩], [1]⟩)],
        [("t", [])], []⟩
      ⟨0, -1, [], 0, 4096,
        [{ BeginLogRecord 1 with lsn_ := 0 },
         { InsertLogRecord 1 [7, 0, 0, 0] ⟨1, 0⟩ "t" with lsn_ := 1 },
         { CommitLogRecord 1 with lsn_ := 2 }]⟩).map
      (fun st => (st.sm.fhs_, st.undo_list))
      = Except.ok
        ([("t", ⟨3, ⟨4, 2, 2⟩,
          [⟨INVALID_LSN, 0, [false, false], [[0, 0, 0, 0], [0, 0, 0, 0]]⟩,
           ⟨INVALID_LSN, 1, [true, false], [[7, 0, 0, 0], [0, 0, 0, 0]]⟩], [1]⟩)], []) := by
  decide!

end RecoveryRedo

/-! ## Theorems: abort -/

/-! page level -/
namespace RmPage

theorem is_set_true_iff (p : RmPage) (s : Int) :
    p.is_set s = true ↔ 0 ≤ s ∧ s.toNat < p.bitmap.length ∧ p.bitmap.getD s.toNat false = true := by
  unfold is_set
  split
  · constructor
    · intro h; simp at h
    · intro h; omega
  · rename_i hs
    constructor
    · intro h
      refine ⟨by omega, ?_, h⟩
      by_contra hlt
      rw [List.getD_eq_default _ _ (by omega)] at h
      simp at h
    · intro h; exact h.2.2

theorem set_bit_neg (p : RmPage) (s : Int) (b : Bool) (hs : s < 0) : p.set_bit s b = p := by
  simp [set_bit, hs]

theorem set_bit_nonneg (p : RmPage) (s : Int) (b : Bool) (hs : ¬ s < 0) :
    p.set_bit s b = { p with bitmap := p.bitmap.set s.toNat b } := by
  simp [set_bit, hs]

theorem set_slot_neg (p : RmPage) (s : Int) (buf : List Nat) (hs : s < 0) :
    p.set_slot s buf = p := by
  simp [set_slot, hs]

theorem set_slot_nonneg (p : RmPage) (s : Int) (buf : List Nat) (hs : ¬ s < 0) :
    p.set_slot s buf = { p with slots := p.slots.set s.toNat buf } := by
  simp [set_slot, hs]

theorem getD_set {α : Type} (l : List α) (i j : Nat) (a d : α) :
    (l.set i a).getD j d = if j = i ∧ i < l.length then a else l.getD j d := by
  by_cases hji : j = i
  · subst hji
    by_cases hlt : j < l.length
    · simp [List.getD_eq_getElem?_getD, hlt]
    · rw [List.set_eq_of_length_le (by omega)]
      simp [hlt]
  · have : i ≠ j := fun h => hji h.symm
    simp [List.getD_eq_getElem?_getD, List.getElem?_set_ne this, hji]

theorem is_set_set_bit (p : RmPage) (s s' : Int) (b : Bool) :
    (p.set_bit s b).is_set s' =
      if 0 ≤ s ∧ s' = s ∧ s.toNat < p.bitmap.length then b else p.is_set s' := by
  by_cases hs : s < 0
  · rw [set_bit_neg p s b hs, if_neg (by omega)]
  · rw [set_bit_nonneg p s b hs]
    by_cases hs' : s' < 0
    · rw [if_neg (by omega)]
      simp [is_set, hs']
    · simp only [is_set, hs', if_false, getD_set]
      by_cases heq : s' = s
      · subst heq
        have h0 : 0 ≤ s' := by omega
        by_cases hlt : s'.toNat < p.bitmap.length
        · simp [hlt, h0]
        · simp [hlt]
      · rw [if_neg (by intro h; omega), if_neg (by intro h; omega)]

theorem get_slot_set_bit (p : RmPage) (s s' : Int) (b : Bool) :
    (p.set_bit s b).get_slot s' = p.get_slot s' := by
  by_cases hs : s < 0
  · rw [set_bit_neg p s b hs]
  · rw [set_bit_nonneg p s b hs]; rfl

theorem is_set_set_slot (p : RmPage) (s s' : Int) (buf : List Nat) :
    (p.set_slot s buf).is_set s' = p.is_set s' := by
  by_cases hs : s < 0
  · rw [set_slot_neg p s buf hs]
  · rw [set_slot_nonneg p s buf hs]; rfl

theorem get_slot_set_slot (p : RmPage) (s s' : Int) (buf : List Nat) :
    (p.set_slot s buf).get_slot s' =
      if 0 ≤ s ∧ s' = s ∧ s.toNat < p.slots.length then buf else p.get_slot s' := by
  by_cases hs : s < 0
  · rw [set_slot_neg p s buf hs, if_neg (by omega)]
  · rw [set_slot_nonneg p s buf hs]
    by_cases hs' : s' < 0
    · rw [if_neg (by omega)]
      simp [get_slot, hs']
    · simp only [get_slot, hs', if_false, getD_set]
      by_cases heq : s' = s
      · subst heq
        have h0 : 0 ≤ s' := by omega
        by_cases hlt : s'.toNat < p.slots.length
        · simp [hlt, h0]
        · simp [hlt]
      · rw [if_neg (by intro h; omega), if_neg (by intro h; omega)]

theorem bitmap_length_set_bit (p : RmPage) (s : Int) (b : Bool) :
    (p.set_bit s b).bitmap.length = p.bitmap.length := by
  unfold set_bit; split <;> simp

theorem slots_set_bit (p : RmPage) (s : Int) (b : Bool) :
    (p.set_bit s b).slots = p.slots := by
  unfold set_bit; split <;> rfl

theorem bitmap_set_slot (p : RmPage) (s : Int) (buf : List Nat) :
    (p.set_slot s buf).bitmap = p.bitmap := by
  unfold set_slot; split <;> rfl

theorem slots_length_set_slot (p : RmPage) (s : Int) (buf : List Nat) :
    (p.set_slot s buf).slots.length = p.slots.length := by
  unfold set_slot; split <;> simp

end RmPage

namespace RmFileHandle

theorem fetch_ok_iff (fh : RmFileHandle) (pn : Int) (p : RmPage) :
    fh.fetch_page_handle pn = Except.ok p ↔ 0 ≤ pn ∧ fh.pages.get? pn.toNat = some p := by
  unfold fetch_page_handle
  split
  · constructor
    · intro h; simp at h
    · intro h; omega
  · rename_i hpn
    split
    · rename_i q hq
      constructor
      · intro h
        simp only [Except.ok.injEq] at h
        subst h
        exact ⟨by omega, hq⟩
      · intro h
        rw [hq] at h
        simp only [Option.some.injEq] at h
        rw [h.2]
    · rename_i hq
      constructor
      · intro h; simp at h
      · intro h; rw [hq] at h; have h2 := h.2; simp at h2

theorem fetch_store_page (fh : RmFileHandle) (pn pn' : Int) (p q : RmPage)
    (h : fh.fetch_page_handle pn = Except.ok q) :
    (fh.store_page pn p).fetch_page_handle pn' =
      if pn' = pn then Except.ok p else fh.fetch_page_handle pn' := by
  rw [fetch_ok_iff] at h
  obtain ⟨h0, h1⟩ := h
  have hlen : pn.toNat < fh.pages.length := by
    rw [List.get?_eq_some] at h1
    exact h1.1
  unfold store_page
  rw [if_neg (by omega)]
  by_cases heq : pn' = pn
  · subst heq
    rw [if_pos rfl, fetch_ok_iff]
    refine ⟨h0, ?_⟩
    simp [hlen]
  · rw [if_neg heq]
    unfold fetch_page_handle
    by_cases hn : pn' < 0
    · simp [hn]
    · simp only [hn, if_false]
      have : pn.toNat ≠ pn'.toNat := by omega
      simp [List.getElem?_set_ne this]

theorem fetch_hint_insert (fh : RmFileHandle) (pn pn' : Int) :
    (fh.hint_insert pn).fetch_page_handle pn' = fh.fetch_page_handle pn' := by
  unfold hint_insert
  split <;> rfl

theorem fetch_hint_erase (fh : RmFileHandle) (pn pn' : Int) :
    (fh.hint_erase pn).fetch_page_handle pn' = fh.fetch_page_handle pn' := rfl

theorem hdr_store_page (fh : RmFileHandle) (pn : Int) (p : RmPage) :
    (fh.store_page pn p).file_hdr_ = fh.file_hdr_ := by
  unfold store_page; split <;> rfl

theorem hdr_hint_insert (fh : RmFileHandle) (pn : Int) :
    (fh.hint_insert pn).file_hdr_ = fh.file_hdr_ := by
  unfold hint_insert; split <;> rfl

theorem hdr_hint_erase (fh : RmFileHandle) (pn : Int) :
    (fh.hint_erase pn).file_hdr_ = fh.file_hdr_ := rfl

theorem occupied_eq {f : RmFileHandle} {rid : Rid} {p : RmPage}
    (h : f.fetch_page_handle rid.page_no = Except.ok p) : f.occupied rid = p.is_set rid.slot_no := by
  unfold occupied; rw [h]

theorem bytes_eq {f : RmFileHandle} {rid : Rid} {p : RmPage}
    (h : f.fetch_page_handle rid.page_no = Except.ok p) : f.bytes rid = p.get_slot rid.slot_no := by
  unfold bytes; rw [h]

theorem occupied_true {f : RmFileHandle} {rid : Rid} (h : f.occupied rid = true) :
    ∃ p, f.fetch_page_handle rid.page_no = Except.ok p ∧ p.is_set rid.slot_no = true := by
  unfold occupied at h
  split at h
  · rename_i p hp; exact ⟨p, hp, h⟩
  · simp at h

theorem slotExists_fetch {f : RmFileHandle} {rid : Rid} (h : f.slotExists rid) :
    ∃ p, f.fetch_page_handle rid.page_no = Except.ok p ∧ 0 ≤ rid.slot_no ∧
      rid.slot_no.toNat < p.bitmap.length ∧ rid.slot_no.toNat < p.slots.length := h

theorem rid_ne {r rid : Rid} (h : r ≠ rid) (hp : r.page_no = rid.page_no) :
    r.slot_no ≠ rid.slot_no := by
  intro hs
  apply h
  cases r; cases rid
  simp only at hp hs
  subst hp; subst hs; rfl

/-- Replacing the page of `rid` by a page that differs only in slot `rid`. -/
theorem edit_page (f f1 : RmFileHandle) (rid : Rid) (p p' : RmPage)
    (hp : f.fetch_page_handle rid.page_no = Except.ok p)
    (hf1 : ∀ pn', f1.fetch_page_handle pn' =
      if pn' = rid.page_no then Except.ok p' else f.fetch_page_handle pn')
    (hrs : f1.file_hdr_.record_size = f.file_hdr_.record_size)
    (hbl : p'.bitmap.length = p.bitmap.length) (hsl : p'.slots.length = p.slots.length)
    (hbit : ∀ s, s ≠ rid.slot_no → p'.is_set s = p.is_set s)
    (hslot : ∀ s, s ≠ rid.slot_no → p'.get_slot s = p.get_slot s) :
    SameElsewhere f f1 rid ∧ f1.occupied rid = p'.is_set rid.slot_no ∧
      f1.bytes rid = p'.get_slot rid.slot_no ∧ (f.slotExists rid → f1.slotExists rid) ∧
      (∀ r, r ≠ rid → f1.bytes r = f.bytes r) := by
  have hfr : f1.fetch_page_handle rid.page_no = Except.ok p' := by rw [hf1, if_pos rfl]
  have hex : ∀ r, f.slotExists r → f1.slotExists r := by
    intro r hr
    obtain ⟨q, hq, h0, h1, h2⟩ := hr
    by_cases hpn : r.page_no = rid.page_no
    · rw [hpn, hp] at hq
      simp only [Except.ok.injEq] at hq
      subst hq
      exact ⟨p', by rw [hf1, if_pos hpn], h0, by omega, by omega⟩
    · exact ⟨q, by rw [hf1, if_neg hpn]; exact hq, h0, h1, h2⟩
  have hocc : ∀ r, r ≠ rid → f1.occupied r = f.occupied r := by
    intro r hr
    by_cases hpn : r.page_no = rid.page_no
    · have e1 : f1.fetch_page_handle r.page_no = Except.ok p' := by rw [hf1, if_pos hpn]
      have e0 : f.fetch_page_handle r.page_no = Except.ok p := by rw [hpn]; exact hp
      rw [occupied_eq e1, occupied_eq e0]
      exact hbit _ (rid_ne hr hpn)
    · unfold occupied
      rw [hf1, if_neg hpn]
  have hby : ∀ r, r ≠ rid → f1.bytes r = f.bytes r := by
    intro r hr
    by_cases hpn : r.page_no = rid.page_no
    · have e1 : f1.fetch_page_handle r.page_no = Except.ok p' := by rw [hf1, if_pos hpn]
      have e0 : f.fetch_page_handle r.page_no = Except.ok p := by rw [hpn]; exact hp
      rw [bytes_eq e1, bytes_eq e0]
      exact hslot _ (rid_ne hr hpn)
    · unfold bytes
      rw [hf1, if_neg hpn]
  refine ⟨⟨hrs, ?_⟩, occupied_eq hfr, bytes_eq hfr, hex rid, hby⟩
  intro r hr
  exact ⟨hex r, hocc r hr, fun _ => hby r hr⟩

theorem fetch_store_hint_insert (f : RmFileHandle) (pn : Int) (p p' : RmPage)
    (hp : f.fetch_page_handle pn = Except.ok p) (pn' : Int) :
    ((f.store_page pn p').hint_insert pn).fetch_page_handle pn' =
      if pn' = pn then Except.ok p' else f.fetch_page_handle pn' := by
  rw [fetch_hint_insert, fetch_store_page f pn pn' p' p hp]

theorem delete_record_ok {f : RmFileHandle} {rid : Rid} (h : f.occupied rid = true) :
    ∃ f1, f.delete_record rid = Except.ok f1 ∧ SameElsewhere f f1 rid ∧
      f1.occupied rid = false ∧ (f.slotExists rid → f1.slotExists rid) ∧
      (∀ r, r ≠ rid → f1.bytes r = f.bytes r) := by
  obtain ⟨p, hp, hset⟩ := occupied_true h
  have hb := (RmPage.is_set_true_iff p rid.slot_no).1 hset
  unfold delete_record
  rw [hp]
  simp only [hset, if_true]
  refine ⟨_, rfl, ?_⟩
  have key := edit_page f _ rid p
    { p.set_bit rid.slot_no false with
      num_records := (p.set_bit rid.slot_no false).num_records - 1 } hp
    (fetch_store_hint_insert f rid.page_no p _ hp)
    (by rw [hdr_hint_insert, hdr_store_page])
    (RmPage.bitmap_length_set_bit p rid.slot_no false)
    (by rw [show ({ p.set_bit rid.slot_no false with
      num_records := (p.set_bit rid.slot_no false).num_records - 1 } : RmPage).slots
        = (p.set_bit rid.slot_no false).slots from rfl, RmPage.slots_set_bit])
    (by
      intro s hs
      show (p.set_bit rid.slot_no false).is_set s = p.is_set s
      rw [RmPage.is_set_set_bit, if_neg (by intro hc; exact hs hc.2.1)])
    (by
      intro s _
      show (p.set_bit rid.slot_no false).get_slot s = p.get_slot s
      rw [RmPage.get_slot_set_bit])
  obtain ⟨k1, k2, _, k4, k5⟩ := key
  refine ⟨k1, ?_, k4, k5⟩
  rw [k2]
  show (p.set_bit rid.slot_no false).is_set rid.slot_no = false
  rw [RmPage.is_set_set_bit, if_pos ⟨hb.1, rfl, hb.2.1⟩]

theorem insert_record_at_ok {f : RmFileHandle} {rid : Rid} (buf : List Nat)
    (h : f.occupied rid = false) (hex : f.slotExists rid) :
    ∃ f1, f.insert_record_at rid buf = Except.ok f1 ∧ SameElsewhere f f1 rid ∧
      f1.occupied rid = true ∧ f1.slotExists rid ∧
      f1.bytes rid = buf.take f.file_hdr_.record_size ∧
      (∀ r, r ≠ rid → f1.bytes r = f.bytes r) := by
  obtain ⟨p, hp, h0, hbl, hsl⟩ := hex
  have hset : p.is_set rid.slot_no = false := by rw [← occupied_eq hp]; exact h
  have hfetch : ∀ (g : RmFileHandle), (∀ pn', g.fetch_page_handle pn' =
      (f.store_page rid.page_no
        { (p.set_slot rid.slot_no (buf.take f.file_hdr_.record_size)).set_bit rid.slot_no true with
          num_records := ((p.set_slot rid.slot_no
            (buf.take f.file_hdr_.record_size)).set_bit rid.slot_no true).num_records + 1
        }).fetch_page_handle pn') →
      g.file_hdr_.record_size = f.file_hdr_.record_size →
      SameElsewhere f g rid ∧ g.occupied rid = true ∧ g.slotExists rid ∧
      g.bytes rid = buf.take f.file_hdr_.record_size ∧
      (∀ r, r ≠ rid → g.bytes r = f.bytes r) := by
    intro g hg hrs
    have key := edit_page f g rid p
      { (p.set_slot rid.slot_no (buf.take f.file_hdr_.record_size)).set_bit rid.slot_no true with
          num_records := ((p.set_slot rid.slot_no
            (buf.take f.file_hdr_.record_size)).set_bit rid.slot_no true).num_records + 1 } hp
      (by intro pn'; rw [hg, fetch_store_page f rid.page_no pn' _ p hp])
      hrs
      (by
        show ((p.set_slot rid.slot_no _).set_bit rid.slot_no true).bitmap.length = _
        rw [RmPage.bitmap_length_set_bit, RmPage.bitmap_set_slot])
      (by
        show ((p.set_slot rid.slot_no _).set_bit rid.slot_no true).slots.length = _
        rw [RmPage.slots_set_bit, RmPage.slots_length_set_slot])
      (by
        intro s hs
        show ((p.set_slot rid.slot_no _).set_bit rid.slot_no true).is_set s = p.is_set s
        rw [RmPage.is_set_set_bit, if_neg (by intro hc; exact hs hc.2.1),
          RmPage.is_set_set_slot])
      (by
        intro s hs
        show ((p.set_slot rid.slot_no _).set_bit rid.slot_no true).get_slot s = p.get_slot s
        rw [RmPage.get_slot_set_bit, RmPage.get_slot_set_slot,
          if_neg (by intro hc; exact hs hc.2.1)])
    obtain ⟨k1, k2, k3, k4, k5⟩ := key
    refine ⟨k1, ?_, k4 ⟨p, hp, h0, hbl, hsl⟩, ?_, k5⟩
    · rw [k2]
      show ((p.set_slot rid.slot_no _).set_bit rid.slot_no true).is_set rid.slot_no = true
      rw [RmPage.is_set_set_bit, if_pos ⟨h0, rfl, by rw [RmPage.bitmap_set_slot]; exact hbl⟩]
    · rw [k3]
      show ((p.set_slot rid.slot_no _).set_bit rid.slot_no true).get_slot rid.slot_no = _
      rw [RmPage.get_slot_set_bit, RmPage.get_slot_set_slot, if_pos ⟨h0, rfl, hsl⟩]
  unfold insert_record_at
  rw [hp]
  simp only [hset, Bool.false_eq_true, if_false]
  refine ⟨_, rfl, ?_⟩
  split
  · apply hfetch
    · intro pn'; rw [fetch_hint_erase]
    · rw [hdr_hint_erase, hdr_store_page]
  · apply hfetch
    · intro pn'; rfl
    · rw [hdr_store_page]

theorem update_record_ok {f : RmFileHandle} {rid : Rid} (buf : List Nat)
    (h : f.occupied rid = true) (hex : f.slotExists rid) :
    ∃ f1, f.update_record rid buf = Except.ok f1 ∧ SameElsewhere f f1 rid ∧
      f1.occupied rid = true ∧ f1.slotExists rid ∧
      f1.bytes rid = buf.take f.file_hdr_.record_size ∧
      (∀ r, r ≠ rid → f1.bytes r = f.bytes r) := by
  obtain ⟨p, hp, h0, hbl, hsl⟩ := hex
  have hset : p.is_set rid.slot_no = true := by rw [← occupied_eq hp]; exact h
  unfold update_record
  rw [hp]
  simp only [hset, if_true]
  refine ⟨_, rfl, ?_⟩
  have key := edit_page f _ rid p (p.set_slot rid.slot_no (buf.take f.file_hdr_.record_size)) hp
    (fun pn' => fetch_store_page f rid.page_no pn' _ p hp)
    (by rw [hdr_store_page])
    (by rw [RmPage.bitmap_set_slot])
    (RmPage.slots_length_set_slot _ _ _)
    (fun s _ => RmPage.is_set_set_slot _ _ _ _)
    (by
      intro s hs
      rw [RmPage.get_slot_set_slot, if_neg (by intro hc; exact hs hc.2.1)])
  obtain ⟨k1, k2, k3, k4, k5⟩ := key
  refine ⟨k1, ?_, k4 ⟨p, hp, h0, hbl, hsl⟩, ?_, k5⟩
  · rw [k2, RmPage.is_set_set_slot]; exact hset
  · rw [k3, RmPage.get_slot_set_slot, if_pos ⟨h0, rfl, hsl⟩]

end RmFileHandle

theorem first_free_spec (p : RmPage) (n : Nat) (hlen : p.bitmap.length = n) (hf : false ∈ p.bitmap) :
    p.first_free n < n ∧ p.bitmap.getD (p.first_free n) false = false := by
  unfold RmPage.first_free
  split
  · rename_i i hi
    have h1 := List.find?_some hi
    have h2 := List.mem_of_find?_eq_some hi
    simp only [List.mem_range] at h2
    simp only [Bool.not_eq_eq_eq_not, Bool.not_true] at h1
    exact ⟨h2, h1⟩
  · rename_i hnone
    exfalso
    rw [List.find?_eq_none] at hnone
    obtain ⟨i, hi, hget⟩ := List.getElem_of_mem hf
    have := hnone i (by simp only [List.mem_range]; omega)
    simp [List.getD_eq_getElem?_getD, hi, hget] at this

namespace RmFileHandle

end RmFileHandle

namespace RmFileHandle

end RmFileHandle

namespace RmFileHandle

theorem blankPage_is_set (h : RmFileHdr) (s : Int) : (blankPage h).is_set s = false := by
  unfold RmPage.is_set blankPage
  split
  · rfl
  · simp only
    by_cases hlt : s.toNat < (List.replicate h.num_records_per_page false).length
    · rw [List.getD_eq_getElem _ _ hlt]; simp
    · rw [List.getD_eq_default _ _ (by omega)]

end RmFileHandle

theorem LockCall.run_write_set (c : LockCall) (lt : LockTable) (txn : Transaction) :
    (c.run lt txn).txn.write_set = txn.write_set := by
  obtain ⟨a, b, h⟩ := c.run_lockWith lt txn
  rw [h]
  rcases lockWith_cases a b c.mode lt txn c.target with
    ⟨_, h2⟩ | ⟨_, _, h2⟩ | ⟨_, _, _, _, _, h2⟩ | ⟨_, _, _, _, h2⟩ <;> rw [h2]
  · unfold Transaction.append_lock_set; split <;> rfl
  · unfold Transaction.append_lock_set; split <;> rfl

namespace RmFileHandle

theorem withLock_ok {o : LockOutcome} {log : LogManager} {ctx1 : Context}
    (h : withLock o log = Except.ok ctx1) :
    ctx1.lock_table_ = o.table ∧ ctx1.log_mgr_ = log ∧ ctx1.txn_ = o.txn := by
  unfold withLock at h
  split at h
  · simp only [Except.ok.injEq] at h
    subst h
    exact ⟨rfl, rfl, rfl⟩
  · simp at h

/-- What one lock request of the context's transaction does to the context. -/
theorem withLock_run {c : LockCall} {ctx ctx1 : Context} {log : LogManager}
    (h : withLock (c.run ctx.lock_table_ ctx.txn_) log = Except.ok ctx1) :
    ctx1.txn_.write_set = ctx.txn_.write_set ∧ ctx1.txn_.txn_id = ctx.txn_.txn_id ∧
      (TxnLockReachable ctx.lock_table_ ctx.txn_ →
        TxnLockReachable ctx1.lock_table_ ctx1.txn_) := by
  obtain ⟨h1, _, h3⟩ := withLock_ok h
  rw [h1, h3]
  exact ⟨LockCall.run_write_set _ _ _, LockCall.run_txn_id _ _ _,
    fun hr => TxnLockReachable.own _ _ c hr⟩

end RmFileHandle

theorem mapFind_mapStore {α : Type} (m : List (String × α)) (k k' : String) (v : α) :
    mapFind (mapStore m k v) k' =
      if k' = k then (mapFind m k').map (fun _ => v) else mapFind m k' := by
  induction m with
  | nil => simp [mapStore, mapFind]
  | cons e rest ih =>
    obtain ⟨a, b⟩ := e
    unfold mapStore
    by_cases hak : a = k
    · rw [if_pos hak]
      unfold mapFind
      by_cases hak' : a = k'
      · rw [if_pos hak', if_pos hak']
        rw [if_pos (by rw [← hak', hak])]
        rfl
      · rw [if_neg hak', if_neg hak']
        exact ih
    · rw [if_neg hak]
      unfold mapFind
      by_cases hak' : a = k'
      · rw [if_pos hak', if_pos hak']
        rw [if_neg (by rw [← hak']; exact hak)]
      · rw [if_neg hak', if_neg hak']
        exact ih

namespace RmFileHandle

end RmFileHandle

theorem SmManager.file_ok {sm : SmManager} {tab : String} {f : RmFileHandle} :
    sm.file tab = Except.ok f ↔ mapFind sm.fhs_ tab = some f := by
  unfold SmManager.file
  split
  · rename_i g hg
    rw [hg]
    simp
  · rename_i hg
    rw [hg]
    simp

theorem LogManager.add_record_records (lm : LogManager) (r : LogRecord) :
    (lm.add_record r).records = lm.records ++ [{ r with lsn_ := lm.global_lsn_ }] := by
  unfold LogManager.add_record LogManager.add_log_to_buffer LogManager.records
  simp only
  split
  · simp [LogManager.flush_log_to_disk]
  · simp

theorem RmPage.page_lsn_set_bit (p : RmPage) (s : Int) (b : Bool) :
    (p.set_bit s b).page_lsn = p.page_lsn := by
  unfold RmPage.set_bit; split <;> rfl

theorem RmPage.page_lsn_set_slot (p : RmPage) (s : Int) (buf : List Nat) :
    (p.set_slot s buf).page_lsn = p.page_lsn := by
  unfold RmPage.set_slot; split <;> rfl

namespace RmFileHandle

theorem delete_record_inv {f f1 : RmFileHandle} {rid : Rid}
    (h : f.delete_record rid = Except.ok f1) : f.occupied rid = true := by
  unfold delete_record at h
  split at h
  · simp at h
  · rename_i p hp
    split at h
    · rename_i hset; rw [occupied_eq hp]; exact hset
    · simp at h

theorem update_record_inv {f f1 : RmFileHandle} {rid : Rid} {buf : List Nat}
    (h : f.update_record rid buf = Except.ok f1) : f.occupied rid = true := by
  unfold update_record at h
  split at h
  · simp at h
  · rename_i p hp
    split at h
    · rename_i hset; rw [occupied_eq hp]; exact hset
    · simp at h

theorem insert_record_at_inv {f f1 : RmFileHandle} {rid : Rid} {buf : List Nat}
    (h : f.insert_record_at rid buf = Except.ok f1) :
    f.occupied rid = false ∧ ∃ p, f.fetch_page_handle rid.page_no = Except.ok p := by
  unfold insert_record_at at h
  split at h
  · simp at h
  · rename_i p hp
    split at h
    · simp at h
    · rename_i hset
      simp only [Bool.not_eq_true] at hset
      exact ⟨by rw [occupied_eq hp]; exact hset, p, hp⟩

theorem Shape_page {f : RmFileHandle} (hs : f.Shape) {pn : Int} {p : RmPage}
    (hp : f.fetch_page_handle pn = Except.ok p) :
    p.page_lsn = INVALID_LSN ∧ p.bitmap.length = f.file_hdr_.num_records_per_page ∧
      p.slots.length = f.file_hdr_.num_records_per_page := by
  rw [fetch_ok_iff] at hp
  exact hs p (List.get?_mem hp.2)

theorem Shape_slotExists {f : RmFileHandle} (hs : f.Shape) {rid : Rid}
    (h : f.occupied rid = true) : f.slotExists rid := by
  obtain ⟨p, hp, hset⟩ := occupied_true h
  have hb := (RmPage.is_set_true_iff p rid.slot_no).1 hset
  have hw := Shape_page hs hp
  exact ⟨p, hp, hb.1, hb.2.1, by omega⟩

/-- A file with the same header fields whose pages are those of `f` with
one page replaced by a page of the same layout. -/
theorem Shape_of_pages {f g : RmFileHandle} (hs : f.Shape)
    (hh : g.file_hdr_.num_records_per_page = f.file_hdr_.num_records_per_page)
    (hp : ∀ q ∈ g.pages, q ∈ f.pages ∨ (q.page_lsn = INVALID_LSN ∧
      q.bitmap.length = f.file_hdr_.num_records_per_page ∧
      q.slots.length = f.file_hdr_.num_records_per_page)) : g.Shape := by
  intro q hq
  rw [hh]
  rcases hp q hq with h | h
  · exact hs q h
  · exact h

theorem pages_store_page (f : RmFileHandle) (pn : Int) (p : RmPage) :
    ∀ q ∈ (f.store_page pn p).pages, q ∈ f.pages ∨ q = p := by
  intro q hq
  unfold store_page at hq
  split at hq
  · left; exact hq
  · exact List.mem_or_eq_of_mem_set hq

theorem pages_hint_insert (f : RmFileHandle) (pn : Int) :
    (f.hint_insert pn).pages = f.pages := by
  unfold hint_insert; split <;> rfl

theorem Shape_delete_record {f f1 : RmFileHandle} {rid : Rid} (hs : f.Shape)
    (h : f.delete_record rid = Except.ok f1) :
    f1.Shape ∧ f1.file_hdr_ = f.file_hdr_ := by
  unfold delete_record at h
  split at h
  · simp at h
  · rename_i p hp
    split at h
    · simp only [Except.ok.injEq] at h
      subst h
      have hw := Shape_page hs hp
      have hh : ((f.store_page rid.page_no { p.set_bit rid.slot_no false with
          num_records := (p.set_bit rid.slot_no false).num_records - 1 }).hint_insert
            rid.page_no).file_hdr_ = f.file_hdr_ := by
        rw [hdr_hint_insert, hdr_store_page]
      refine ⟨Shape_of_pages hs (by rw [hh]) ?_, hh⟩
      intro q hq
      rw [pages_hint_insert] at hq
      rcases pages_store_page _ _ _ q hq with h1 | h1
      · left; exact h1
      · right
        subst h1
        refine ⟨?_, ?_, ?_⟩
        · show (p.set_bit rid.slot_no false).page_lsn = _
          rw [RmPage.page_lsn_set_bit]; exact hw.1
        · show (p.set_bit rid.slot_no false).bitmap.length = _
          rw [RmPage.bitmap_length_set_bit]; exact hw.2.1
        · show (p.set_bit rid.slot_no false).slots.length = _
          rw [RmPage.slots_set_bit]; exact hw.2.2
    · simp at h

theorem Shape_update_record {f f1 : RmFileHandle} {rid : Rid} {buf : List Nat} (hs : f.Shape)
    (h : f.update_record rid buf = Except.ok f1) :
    f1.Shape ∧ f1.file_hdr_ = f.file_hdr_ := by
  unfold update_record at h
  split at h
  · simp at h
  · rename_i p hp
    split at h
    · simp only [Except.ok.injEq] at h
      subst h
      have hw := Shape_page hs hp
      have hh := hdr_store_page f rid.page_no
        (p.set_slot rid.slot_no (buf.take f.file_hdr_.record_size))
      refine ⟨Shape_of_pages hs (by rw [hh]) ?_, hh⟩
      intro q hq
      rcases pages_store_page _ _ _ q hq with h1 | h1
      · left; exact h1
      · right
        subst h1
        refine ⟨?_, ?_, ?_⟩
        · rw [RmPage.page_lsn_set_slot]; exact hw.1
        · rw [RmPage.bitmap_set_slot]; exact hw.2.1
        · rw [RmPage.slots_length_set_slot]; exact hw.2.2
    · simp at h

theorem Shape_insert_record_at {f f1 : RmFileHandle} {rid : Rid} {buf : List Nat} (hs : f.Shape)
    (h : f.insert_record_at rid buf = Except.ok f1) :
    f1.Shape ∧ f1.file_hdr_ = f.file_hdr_ := by
  unfold insert_record_at at h
  split at h
  · simp at h
  · rename_i p hp
    split at h
    · simp at h
    · simp only [Except.ok.injEq] at h
      have hw := Shape_page hs hp
      have hpage : ∀ q, q = ({ (p.set_slot rid.slot_no
            (buf.take f.file_hdr_.record_size)).set_bit rid.slot_no true with
          num_records := ((p.set_slot rid.slot_no
            (buf.take f.file_hdr_.record_size)).set_bit rid.slot_no true).num_records + 1 }
            : RmPage) →
          (q.page_lsn = INVALID_LSN ∧
            q.bitmap.length = f.file_hdr_.num_records_per_page ∧
            q.slots.length = f.file_hdr_.num_records_per_page) := by
        intro q hq
        subst hq
        refine ⟨?_, ?_, ?_⟩
        · show ((p.set_slot rid.slot_no _).set_bit rid.slot_no true).page_lsn = _
          rw [RmPage.page_lsn_set_bit, RmPage.page_lsn_set_slot]; exact hw.1
        · show ((p.set_slot rid.slot_no _).set_bit rid.slot_no true).bitmap.length = _
          rw [RmPage.bitmap_length_set_bit, RmPage.bitmap_set_slot]; exact hw.2.1
        · show ((p.set_slot rid.slot_no _).set_bit rid.slot_no true).slots.length = _
          rw [RmPage.slots_set_bit, RmPage.slots_length_set_slot]; exact hw.2.2
      split at h
      · subst h
        have hh : ∀ (g : RmFileHandle), (g.hint_erase rid.page_no).file_hdr_ = g.file_hdr_ :=
          fun _ => rfl
        refine ⟨Shape_of_pages hs (by rw [hh, hdr_store_page]) ?_,
          by rw [hh, hdr_store_page]⟩
        intro q hq
        have hq' : q ∈ (f.store_page rid.page_no _).pages := hq
        rcases pages_store_page _ _ _ q hq' with h1 | h1
        · left; exact h1
        · right; exact hpage q h1
      · subst h
        refine ⟨Shape_of_pages hs (by rw [hdr_store_page]) ?_, hdr_store_page _ _ _⟩
        intro q hq
        rcases pages_store_page _ _ _ q hq with h1 | h1
        · left; exact h1
        · right; exact hpage q h1

/-- What appending a blank page leaves as it was. -/
theorem append_blank_views (f g : RmFileHandle) (hs : f.Shape)
    (hpages : g.pages = f.pages ++ [blankPage f.file_hdr_])
    (hnpp : g.file_hdr_.num_records_per_page = f.file_hdr_.num_records_per_page) :
    g.Shape ∧ (∀ rid, g.occupied rid = f.occupied rid) ∧
      (∀ rid, f.slotExists rid → g.slotExists rid) := by
  have hmono : ∀ pn' q, f.fetch_page_handle pn' = Except.ok q →
      g.fetch_page_handle pn' = Except.ok q := by
    intro pn' q hq
    rw [fetch_ok_iff] at hq ⊢
    refine ⟨hq.1, ?_⟩
    rw [hpages]
    have hlt : pn'.toNat < f.pages.length := (List.get?_eq_some.1 hq.2).1
    rw [List.get?_eq_getElem?] at hq ⊢
    rw [List.getElem?_append_left hlt]
    exact hq.2
  have hnew : ∀ pn' q, g.fetch_page_handle pn' = Except.ok q →
      f.fetch_page_handle pn' = Except.ok q ∨
        ((∀ e, f.fetch_page_handle pn' ≠ Except.ok e) ∧ q = blankPage f.file_hdr_) := by
    intro pn' q hq
    rw [fetch_ok_iff] at hq
    rw [hpages, List.get?_eq_getElem?] at hq
    by_cases hlt : pn'.toNat < f.pages.length
    · left
      rw [fetch_ok_iff, List.get?_eq_getElem?]
      rw [List.getElem?_append_left hlt] at hq
      exact hq
    · right
      constructor
      · intro e he
        rw [fetch_ok_iff] at he
        exact hlt (List.get?_eq_some.1 he.2).1
      · rw [List.getElem?_append_right (by omega)] at hq
        have h2 := hq.2
        cases hk : pn'.toNat - f.pages.length with
        | zero => rw [hk] at h2; simp at h2; exact h2.symm
        | succ k => rw [hk] at h2; simp at h2
  refine ⟨?_, ?_, ?_⟩
  · apply Shape_of_pages hs hnpp
    intro q hq
    rw [hpages] at hq
    rcases List.mem_append.1 hq with h1 | h1
    · left; exact h1
    · right
      simp only [List.mem_singleton] at h1
      subst h1
      unfold blankPage
      simp
  · intro r
    unfold occupied
    cases hq : g.fetch_page_handle r.page_no with
    | error e =>
      cases hq0 : f.fetch_page_handle r.page_no with
      | error e0 => rfl
      | ok q0 => rw [hmono _ _ hq0] at hq; simp at hq
    | ok q =>
      rcases hnew _ _ hq with h1 | ⟨h1, h2⟩
      · rw [h1]
      · cases hq0 : f.fetch_page_handle r.page_no with
        | error e0 => simp only; rw [h2]; exact blankPage_is_set _ _
        | ok q0 => exact absurd hq0 (h1 q0)
  · intro r hr
    obtain ⟨q, hq, h0, h1, h2⟩ := hr
    exact ⟨q, hmono _ _ hq, h0, h1, h2⟩

theorem allocpage_loop_spec (rid : Rid) (fuel : Nat) :
    ∀ (f : RmFileHandle), f.Shape →
      (allocpage_loop rid fuel f).Shape ∧
      (allocpage_loop rid fuel f).file_hdr_.record_size = f.file_hdr_.record_size ∧
      (allocpage_loop rid fuel f).file_hdr_.num_records_per_page
        = f.file_hdr_.num_records_per_page ∧
      (∀ r, (allocpage_loop rid fuel f).occupied r = f.occupied r) ∧
      (∀ r, f.slotExists r → (allocpage_loop rid fuel f).slotExists r) := by
  induction fuel with
  | zero =>
    intro f hs
    exact ⟨hs, rfl, rfl, fun _ => rfl, fun _ h => h⟩
  | succ n ih =>
    intro f hs
    unfold allocpage_loop
    split
    · simp only [create_new_page_handle]
      have hg := append_blank_views f
        (({ f with pages := f.pages ++ [blankPage f.file_hdr_],
                   file_hdr_ := { f.file_hdr_ with num_pages := f.file_hdr_.num_pages + 1 } }
            : RmFileHandle).hint_insert (f.pages.length : Int)) hs
        (by rw [pages_hint_insert]) (by rw [hdr_hint_insert])
      obtain ⟨g1, g2, g3⟩ := hg
      obtain ⟨i1, i2, i3, i4, i5⟩ := ih _ g1
      refine ⟨i1, ?_, ?_, ?_, ?_⟩
      · rw [i2, hdr_hint_insert]
      · rw [i3, hdr_hint_insert]
      · intro r; rw [i4, g2]
      · intro r hr; exact i5 r (g3 r hr)
    · exact ⟨hs, rfl, rfl, fun _ => rfl, fun _ h => h⟩

theorem allocpage_spec (f : RmFileHandle) (rid : Rid) (hs : f.Shape) :
    (f.allocpage rid).Shape ∧
      (f.allocpage rid).file_hdr_.record_size = f.file_hdr_.record_size ∧
      (f.allocpage rid).file_hdr_.num_records_per_page = f.file_hdr_.num_records_per_page ∧
      (∀ r, (f.allocpage rid).occupied r = f.occupied r) ∧
      (∀ r, f.slotExists r → (f.allocpage rid).slotExists r) :=
  allocpage_loop_spec rid _ f hs

end RmFileHandle

namespace RecoveryManager

/-- What the heap-file call of `RedoLog` does to the views of the file. -/
theorem redoFile_spec {r : LogRecord} {f f1 : RmFileHandle} (hs : f.Shape)
    (hm : r.isMutation = true)
    (hv : r.log_type_ = LogType.INSERT →
      0 ≤ r.rid_.slot_no ∧ r.rid_.slot_no < f.file_hdr_.num_records_per_page)
    (h : redoFile r f = Except.ok f1) :
    f1.Shape ∧ f1.file_hdr_.record_size = f.file_hdr_.record_size ∧
      f1.file_hdr_.num_records_per_page = f.file_hdr_.num_records_per_page ∧
      (∀ rid, f.slotExists rid → f1.slotExists rid) ∧
      (∀ rid, rid ≠ r.rid_ → f1.occupied rid = f.occupied rid) ∧
      f1.slotExists r.rid_ ∧
      (r.log_type_ = LogType.INSERT → f.occupied r.rid_ = false ∧ f1.occupied r.rid_ = true) ∧
      (r.log_type_ = LogType.DELETE → f.occupied r.rid_ = true ∧ f1.occupied r.rid_ = false) ∧
      (r.log_type_ = LogType.UPDATE → f.occupied r.rid_ = true ∧ f1.occupied r.rid_ = true) := by
  unfold redoFile at h
  unfold LogRecord.isMutation at hm
  simp only [decide_eq_true_eq] at hm
  cases ht : r.log_type_ with
  | INSERT =>
    rw [ht] at h
    simp only at h
    obtain ⟨a1, a2, a3, a4, a5⟩ := RmFileHandle.allocpage_spec f r.rid_ hs
    obtain ⟨hocc, p, hp⟩ := RmFileHandle.insert_record_at_inv h
    have hw := RmFileHandle.Shape_page a1 hp
    have hvv := hv ht
    have hex : (f.allocpage r.rid_).slotExists r.rid_ :=
      ⟨p, hp, hvv.1, by rw [hw.2.1, a3]; omega, by rw [hw.2.2, a3]; omega⟩
    obtain ⟨s1, s2⟩ := RmFileHandle.Shape_insert_record_at a1 h
    obtain ⟨g, hg, i1, i2, i3, _, _⟩ := RmFileHandle.insert_record_at_ok r.value hocc hex
    rw [h] at hg
    simp only [Except.ok.injEq] at hg
    subst hg
    refine ⟨s1, by rw [s2, a2], by rw [s2, a3], fun rid hr => ?_, fun rid hr => ?_, i3,
      fun _ => ⟨by rw [← a4]; exact hocc, i2⟩, by simp, by simp⟩
    · by_cases hrid : rid = r.rid_
      · rw [hrid]; exact i3
      · exact (i1.2 rid hrid).1 (a5 rid hr)
    · rw [(i1.2 rid hr).2.1, a4]
  | DELETE =>
    rw [ht] at h
    simp only at h
    have hocc := RmFileHandle.delete_record_inv h
    obtain ⟨s1, s2⟩ := RmFileHandle.Shape_delete_record hs h
    obtain ⟨g, hg, d1, d2, d3, _⟩ := RmFileHandle.delete_record_ok hocc
    rw [h] at hg
    simp only [Except.ok.injEq] at hg
    subst hg
    have hex := RmFileHandle.Shape_slotExists hs hocc
    refine ⟨s1, by rw [s2], by rw [s2], fun rid hr => ?_, fun rid hr => (d1.2 rid hr).2.1,
      d3 hex, by simp, fun _ => ⟨hocc, d2⟩, by simp⟩
    by_cases hrid : rid = r.rid_
    · rw [hrid]; exact d3 hex
    · exact (d1.2 rid hrid).1 hr
  | UPDATE =>
    rw [ht] at h
    simp only at h
    obtain ⟨a1, a2, a3, a4, a5⟩ := RmFileHandle.allocpage_spec f r.rid_ hs
    have hocc := RmFileHandle.update_record_inv h
    have hex := RmFileHandle.Shape_slotExists a1 hocc
    obtain ⟨s1, s2⟩ := RmFileHandle.Shape_update_record a1 h
    obtain ⟨g, hg, u1, u2, u3, _, _⟩ := RmFileHandle.update_record_ok r.value hocc hex
    rw [h] at hg
    simp only [Except.ok.injEq] at hg
    subst hg
    refine ⟨s1, by rw [s2, a2], by rw [s2, a3], fun rid hr => ?_, fun rid hr => ?_, u3,
      by simp, by simp, fun _ => ⟨by rw [← a4]; exact hocc, u2⟩⟩
    · by_cases hrid : rid = r.rid_
      · rw [hrid]; exact u3
      · exact (u1.2 rid hrid).1 (a5 rid hr)
    · rw [(u1.2 rid hr).2.1, a4]
  | begin => rw [ht] at hm; simp at hm
  | commit => rw [ht] at hm; simp at hm
  | ABORT => rw [ht] at hm; simp at hm
  | IX_INSERT => rw [ht] at hm; simp at hm
  | IX_DELETE => rw [ht] at hm; simp at hm

/-- What the heap-file call of `UndoLog` does on a file whose slot has the
occupancy that the redo of the record left. -/
theorem undoFile_spec {r : LogRecord} {g : RmFileHandle}
    (hm : r.isMutation = true) (hex : g.slotExists r.rid_)
    (hocc : g.occupied r.rid_ = decide (r.log_type_ ≠ LogType.DELETE)) :
    ∃ g1, undoFile r g = Except.ok g1 ∧
      g1.file_hdr_.record_size = g.file_hdr_.record_size ∧
      (∀ rid, g.slotExists rid → g1.slotExists rid) ∧
      (∀ rid, rid ≠ r.rid_ → g1.occupied rid = g.occupied rid ∧ g1.bytes rid = g.bytes rid) ∧
      UndoImage g1 r ∧
      g1.occupied r.rid_ = decide (r.log_type_ ≠ LogType.INSERT) := by
  unfold undoFile UndoImage
  unfold LogRecord.isMutation at hm
  simp only [decide_eq_true_eq] at hm
  cases ht : r.log_type_ with
  | INSERT =>
    rw [ht] at hocc
    simp only [ne_eq, reduceCtorEq, not_false_eq_true, decide_True] at hocc
    obtain ⟨g1, hg, d1, d2, d3, d4⟩ := RmFileHandle.delete_record_ok hocc
    refine ⟨g1, hg, d1.1, fun rid hr => ?_, fun rid hr => ⟨(d1.2 rid hr).2.1, d4 rid hr⟩,
      d2, by simp [d2]⟩
    by_cases hrid : rid = r.rid_
    · rw [hrid]; exact d3 hex
    · exact (d1.2 rid hrid).1 hr
  | DELETE =>
    rw [ht] at hocc
    simp only [ne_eq, not_true_eq_false, decide_False] at hocc
    obtain ⟨g1, hg, i1, i2, i3, i4, i5⟩ := RmFileHandle.insert_record_at_ok r.value hocc hex
    refine ⟨g1, hg, i1.1, fun rid hr => ?_, fun rid hr => ⟨(i1.2 rid hr).2.1, i5 rid hr⟩,
      ⟨i2, by rw [i4, i1.1]⟩, by simp [i2]⟩
    by_cases hrid : rid = r.rid_
    · rw [hrid]; exact i3
    · exact (i1.2 rid hrid).1 hr
  | UPDATE =>
    rw [ht] at hocc
    simp only [ne_eq, reduceCtorEq, not_false_eq_true, decide_True] at hocc
    obtain ⟨g1, hg, u1, u2, u3, u4, u5⟩ := RmFileHandle.update_record_ok r.old_value hocc hex
    refine ⟨g1, hg, u1.1, fun rid hr => ?_, fun rid hr => ⟨(u1.2 rid hr).2.1, u5 rid hr⟩,
      ⟨u2, by rw [u4, u1.1]⟩, by simp [u2]⟩
    by_cases hrid : rid = r.rid_
    · rw [hrid]; exact u3
    · exact (u1.2 rid hrid).1 hr
  | begin => rw [ht] at hm; simp at hm
  | commit => rw [ht] at hm; simp at hm
  | ABORT => rw [ht] at hm; simp at hm
  | IX_INSERT => rw [ht] at hm; simp at hm
  | IX_DELETE => rw [ht] at hm; simp at hm

theorem is_record_stroed_shape {sm : SmManager} {tab : String} {pn i : Int} {b : Bool}
    (hs : sm.HeapShape) (hi : 0 ≤ i) (h : is_record_stroed sm tab pn i = Except.ok b) :
    b = false := by
  unfold is_record_stroed at h
  split at h
  · simp at h
  · rename_i fh hfile
    split at h
    · simp only [Except.ok.injEq] at h; exact h.symm
    · split at h
      · simp at h
      · rename_i p hp
        have hw := RmFileHandle.Shape_page (hs tab fh (SmManager.file_ok.1 hfile)) hp
        simp only [Except.ok.injEq] at h
        rw [← h, hw.1]
        unfold INVALID_LSN
        simp only [ge_iff_le, decide_eq_false_iff_not, not_le]
        omega

/-- `RedoLog` on an INSERT, DELETE or UPDATE record, on pages that carry no
LSN. -/
theorem RedoLog_mutation {st st1 : RecoveryState} {r : LogRecord} {i : Int}
    (hm : r.isMutation = true) (hs : st.sm.HeapShape) (hi : 0 ≤ i)
    (h : RedoLog st r i = Except.ok st1) :
    ∃ f f1, mapFind st.sm.fhs_ r.table_name_ = some f ∧ redoFile r f = Except.ok f1 ∧
      st1 = putFile st r.table_name_ f1 := by
  unfold LogRecord.isMutation at hm
  simp only [decide_eq_true_eq] at hm
  unfold RedoLog at h
  unfold redoFile
  cases ht : r.log_type_ with
  | INSERT =>
    rw [ht] at h
    simp only at h ⊢
    cases hst : is_record_stroed st.sm r.table_name_ r.rid_.page_no i with
    | error e => rw [hst] at h; simp at h
    | ok b =>
      have hb := is_record_stroed_shape hs hi hst
      subst hb
      rw [hst] at h
      simp only at h
      cases hfile : st.sm.file r.table_name_ with
      | error e => rw [hfile] at h; simp at h
      | ok f =>
        rw [hfile] at h
        simp only at h
        cases hop : (f.allocpage r.rid_).insert_record_at r.rid_ r.value with
        | error e => rw [hop] at h; simp at h
        | ok f1 =>
          rw [hop] at h
          simp only [Except.ok.injEq] at h
          exact ⟨f, f1, SmManager.file_ok.1 hfile, hop, h.symm⟩
  | DELETE =>
    rw [ht] at h
    simp only at h ⊢
    cases hst : is_record_stroed st.sm r.table_name_ r.rid_.page_no i with
    | error e => rw [hst] at h; simp at h
    | ok b =>
      have hb := is_record_stroed_shape hs hi hst
      subst hb
      rw [hst] at h
      simp only at h
      cases hfile : st.sm.file r.table_name_ with
      | error e => rw [hfile] at h; simp at h
      | ok f =>
        rw [hfile] at h
        simp only at h
        cases hop : f.delete_record r.rid_ with
        | error e => rw [hop] at h; simp at h
        | ok f1 =>
          rw [hop] at h
          simp only [Except.ok.injEq] at h
          exact ⟨f, f1, SmManager.file_ok.1 hfile, hop, h.symm⟩
  | UPDATE =>
    rw [ht] at h
    simp only at h ⊢
    cases hst : is_record_stroed st.sm r.table_name_ r.rid_.page_no i with
    | error e => rw [hst] at h; simp at h
    | ok b =>
      have hb := is_record_stroed_shape hs hi hst
      subst hb
      rw [hst] at h
      simp only at h
      cases hfile : st.sm.file r.table_name_ with
      | error e => rw [hfile] at h; simp at h
      | ok f =>
        rw [hfile] at h
        simp only at h
        cases hop : (f.allocpage r.rid_).update_record r.rid_ r.value with
        | error e => rw [hop] at h; simp at h
        | ok f1 =>
          rw [hop] at h
          simp only [Except.ok.injEq] at h
          exact ⟨f, f1, SmManager.file_ok.1 hfile, hop, h.symm⟩
  | begin => rw [ht] at hm; simp at hm
  | commit => rw [ht] at hm; simp at hm
  | ABORT => rw [ht] at hm; simp at hm
  | IX_INSERT => rw [ht] at hm; simp at hm
  | IX_DELETE => rw [ht] at hm; simp at hm

/-- `RedoLog` on a record that is no INSERT, DELETE or UPDATE record. -/
theorem RedoLog_control {st st1 : RecoveryState} {r : LogRecord} {i : Int}
    (hm : r.isMutation = false) (h : RedoLog st r i = Except.ok st1) :
    st1.sm = st.sm ∧ st1.log = st.log ∧
      (∀ x, x ∈ st1.undo_list → x ∈ st.undo_list ∨ r.isBeginOf x = true) ∧
      (∀ x, r.isBeginOf x = true → x ∈ st1.undo_list) ∧
      (∀ x, x ∈ st.undo_list →
        ¬ (r.log_tid_ = x ∧ (r.log_type_ = LogType.commit ∨ r.log_type_ = LogType.ABORT)) →
        x ∈ st1.undo_list) ∧
      (∀ x, r.log_tid_ = x → (r.log_type_ = LogType.commit ∨ r.log_type_ = LogType.ABORT) →
        x ∉ st1.undo_list) := by
  unfold LogRecord.isMutation at hm
  simp only [decide_eq_false_iff_not, not_or] at hm
  unfold RedoLog at h
  unfold LogRecord.isBeginOf
  cases ht : r.log_type_ with
  | INSERT => exact absurd ht hm.1
  | DELETE => exact absurd ht hm.2.1
  | UPDATE => exact absurd ht hm.2.2
  | begin =>
    rw [ht] at h
    simp only [Except.ok.injEq] at h
    subst h
    simp only [true_and, decide_eq_true_eq, reduceCtorEq, or_self, and_false,
      not_false_eq_true, forall_const, false_implies, implies_true, and_true]
    unfold undo_insert
    refine ⟨?_, ?_, ?_⟩
    · intro x hx
      split at hx
      · left; exact hx
      · rcases List.mem_append.1 hx with h1 | h1
        · left; exact h1
        · right; simp only [List.mem_singleton] at h1; exact h1.symm
    · intro x hx
      subst hx
      split
      · assumption
      · simp
    · intro x hx
      split
      · exact hx
      · exact List.mem_append_left _ hx
  | commit =>
    rw [ht] at h
    simp only [Except.ok.injEq] at h
    subst h
    refine ⟨rfl, rfl, ?_, ?_, ?_, ?_⟩
    · intro x hx
      left
      exact (List.mem_filter.1 hx).1
    · intro x hx
      simp at hx
    · intro x hx hne
      refine List.mem_filter.2 ⟨hx, ?_⟩
      simp only [ne_eq, decide_not, Bool.not_eq_eq_eq_not, Bool.not_true,
        decide_eq_false_iff_not]
      intro hxe
      exact hne ⟨hxe.symm, by simp⟩
    · intro x hx _ hmem
      have h2 := (List.mem_filter.1 hmem).2
      simp only [ne_eq, decide_not, Bool.not_eq_eq_eq_not, Bool.not_true,
        decide_eq_false_iff_not] at h2
      exact h2 hx.symm
  | ABORT =>
    rw [ht] at h
    simp only [Except.ok.injEq] at h
    subst h
    refine ⟨rfl, rfl, ?_, ?_, ?_, ?_⟩
    · intro x hx
      left
      exact (List.mem_filter.1 hx).1
    · intro x hx
      simp at hx
    · intro x hx hne
      refine List.mem_filter.2 ⟨hx, ?_⟩
      simp only [ne_eq, decide_not, Bool.not_eq_eq_eq_not, Bool.not_true,
        decide_eq_false_iff_not]
      intro hxe
      exact hne ⟨hxe.symm, by simp⟩
    · intro x hx _ hmem
      have h2 := (List.mem_filter.1 hmem).2
      simp only [ne_eq, decide_not, Bool.not_eq_eq_eq_not, Bool.not_true,
        decide_eq_false_iff_not] at h2
      exact h2 hx.symm
  | IX_INSERT =>
    rw [ht] at h
    simp only [Except.ok.injEq] at h
    subst h
    simp
  | IX_DELETE =>
    rw [ht] at h
    simp only [Except.ok.injEq] at h
    subst h
    simp

theorem UndoLog_mutation_in {st : RecoveryState} {r : LogRecord}
    (hm : r.isMutation = true) (hin : r.log_tid_ ∈ st.undo_list) :
    UndoLog st r =
      match st.sm.file r.table_name_ with
      | Except.error e => Except.error e
      | Except.ok fh =>
        match undoFile r fh with
        | Except.error e => Except.error e
        | Except.ok fh1 =>
          Except.ok (putFile { st with log := st.log.add_record (undoRecord r) }
            r.table_name_ fh1) := by
  unfold LogRecord.isMutation at hm
  simp only [decide_eq_true_eq] at hm
  unfold UndoLog undoFile undoRecord
  cases ht : r.log_type_ with
  | INSERT => simp only [hin, if_true]; rfl
  | DELETE => simp only [hin, if_true]; rfl
  | UPDATE => simp only [hin, if_true]; rfl
  | begin => rw [ht] at hm; simp at hm
  | commit => rw [ht] at hm; simp at hm
  | ABORT => rw [ht] at hm; simp at hm
  | IX_INSERT => rw [ht] at hm; simp at hm
  | IX_DELETE => rw [ht] at hm; simp at hm

theorem UndoLog_out {st : RecoveryState} {r : LogRecord}
    (hix : r.log_type_ ≠ LogType.IX_INSERT ∧ r.log_type_ ≠ LogType.IX_DELETE)
    (hout : r.log_tid_ ∉ st.undo_list) : UndoLog st r = Except.ok st := by
  unfold UndoLog
  cases ht : r.log_type_ with
  | INSERT => simp only [hout, if_false]
  | DELETE => simp only [hout, if_false]
  | UPDATE => simp only [hout, if_false]
  | begin => simp only [hout, if_false]
  | commit => simp only [hout, if_false]
  | ABORT => simp only [hout, if_false]
  | IX_INSERT => exact absurd ht hix.1
  | IX_DELETE => exact absurd ht hix.2

theorem UndoLog_begin_in {st : RecoveryState} {r : LogRecord}
    (ht : r.log_type_ = LogType.begin) (hin : r.log_tid_ ∈ st.undo_list) :
    UndoLog st r = Except.ok { st with log := st.log.add_record (AbortLogRecord r.log_tid_),
                                       undo_list := undo_erase st.undo_list r.log_tid_ } := by
  unfold UndoLog
  rw [ht]
  simp only [hin, if_true]
  rfl

theorem undo_loop_isEmpty (l : List LogRecord) (st : RecoveryState)
    (h : st.undo_list.isEmpty = true) : undo_loop l st = Except.ok st := by
  cases l with
  | nil => rfl
  | cons r rest => unfold undo_loop; rw [if_pos h]

theorem undo_loop_cons (r : LogRecord) (rest : List LogRecord) (st : RecoveryState) :
    undo_loop (r :: rest) st =
      if st.undo_list.isEmpty then Except.ok st
      else
        match UndoLog st r with
        | Except.error e => Except.error e
        | Except.ok st1 => undo_loop rest st1 := rfl

theorem undo_loop_append (a b : List LogRecord) (st : RecoveryState) :
    undo_loop (a ++ b) st =
      match undo_loop a st with
      | Except.error e => Except.error e
      | Except.ok st1 => undo_loop b st1 := by
  induction a generalizing st with
  | nil => rfl
  | cons r rest ih =>
    simp only [List.cons_append]
    rw [undo_loop_cons, undo_loop_cons]
    by_cases he : st.undo_list.isEmpty = true
    · simp only [he, if_true]
      exact (undo_loop_isEmpty b st he).symm
    · simp only [he, if_false]
      cases hu : UndoLog st r with
      | error e => rfl
      | ok st1 => exact ih st1

theorem undo_loop_single (r : LogRecord) (st : RecoveryState) :
    undo_loop [r] st =
      if st.undo_list.isEmpty then Except.ok st else UndoLog st r := by
  unfold undo_loop
  split
  · rfl
  · cases UndoLog st r with
    | error e => rfl
    | ok st1 => rfl

end RecoveryManager

theorem LogRecord.touches_iff (r : LogRecord) (tab : String) (rid : Rid) :
    r.touches tab rid = true ↔ r.isMutation = true ∧ r.table_name_ = tab ∧ r.rid_ = rid := by
  unfold LogRecord.touches
  simp

theorem LogRecord.isBeginOf_iff (r : LogRecord) (x : Int) :
    r.isBeginOf x = true ↔ r.log_type_ = LogType.begin ∧ r.log_tid_ = x := by
  unfold LogRecord.isBeginOf
  simp

theorem LogRecord.isBeginOf_mutation {r : LogRecord} (hm : r.isMutation = true) (x : Int) :
    r.isBeginOf x = false := by
  unfold LogRecord.isMutation at hm
  unfold LogRecord.isBeginOf
  simp only [decide_eq_true_eq] at hm
  simp only [decide_eq_false_iff_not, not_and]
  intro h
  rw [h] at hm
  simp at hm

theorem isolated_cons (L : List Int) (r : LogRecord) (rest : List LogRecord) :
    isolated L (r :: rest) = true ↔
      (r.isMutation = true → r.log_tid_ ∈ L → ∀ r' ∈ rest,
        r'.touches r.table_name_ r.rid_ = true → r'.log_tid_ = r.log_tid_) ∧
      isolated L rest = true := by
  simp only [isolated, Bool.and_eq_true, Bool.or_eq_true, Bool.not_eq_true', Bool.and_eq_false_imp,
    decide_eq_false_iff_not, List.all_eq_true, decide_eq_true_eq]
  constructor
  · rintro ⟨h1, h2⟩
    refine ⟨?_, h2⟩
    intro hm hL r' hr' ht
    rcases h1 with h1 | h1
    · exact absurd hL (h1 hm)
    · rcases h1 r' hr' with h3 | h3
      · rw [ht] at h3; simp at h3
      · exact h3
  · rintro ⟨h1, h2⟩
    refine ⟨?_, h2⟩
    by_cases hm : r.isMutation = true
    · by_cases hL : r.log_tid_ ∈ L
      · right
        intro r' hr'
        by_cases ht : r'.touches r.table_name_ r.rid_ = true
        · right; exact h1 hm hL r' hr' ht
        · left; simpa using ht
      · left; intro _; exact hL
    · left; intro h; exact absurd h hm

theorem beginFirst_cons (L : List Int) (r : LogRecord) (rest : List LogRecord) :
    beginFirst L (r :: rest) = true ↔
      (r.isMutation = true → r.log_tid_ ∈ L → ∀ r' ∈ rest, r'.isBeginOf r.log_tid_ = false) ∧
      beginFirst L rest = true := by
  simp only [beginFirst, Bool.and_eq_true, Bool.or_eq_true, Bool.not_eq_true', Bool.and_eq_false_imp,
    decide_eq_false_iff_not, List.all_eq_true]
  constructor
  · rintro ⟨h1, h2⟩
    refine ⟨?_, h2⟩
    intro hm hL r' hr'
    rcases h1 with h1 | h1
    · exact absurd hL (h1 hm)
    · exact h1 r' hr'
  · rintro ⟨h1, h2⟩
    refine ⟨?_, h2⟩
    by_cases hm : r.isMutation = true
    · by_cases hL : r.log_tid_ ∈ L
      · right; exact h1 hm hL
      · left; intro _; exact hL
    · left; intro h; exact absurd h hm

theorem firstLoserRecord_cons (L : List Int) (r0 : LogRecord) (rest : List LogRecord)
    (tab : String) (rid : Rid) :
    firstLoserRecord L (r0 :: rest) tab rid =
      if r0.touches tab rid = true ∧ r0.log_tid_ ∈ L then some r0
      else firstLoserRecord L rest tab rid := by
  unfold firstLoserRecord
  rw [List.find?_cons]
  by_cases h : r0.touches tab rid = true ∧ r0.log_tid_ ∈ L
  · rw [if_pos h]
    simp [h.1, h.2]
  · rw [if_neg h]
    have : (r0.touches tab rid && decide (r0.log_tid_ ∈ L)) = false := by
      simp only [Bool.and_eq_false_imp, decide_eq_false_iff_not]
      intro h1 h2; exact h ⟨h1, h2⟩
    rw [this]

theorem firstLoserRecord_some {L : List Int} {l : List LogRecord} {tab : String} {rid : Rid}
    {r : LogRecord} (h : firstLoserRecord L l tab rid = some r) :
    r.touches tab rid = true ∧ r.log_tid_ ∈ L ∧ r ∈ l := by
  unfold firstLoserRecord at h
  have h1 := List.find?_some h
  simp only [Bool.and_eq_true, decide_eq_true_eq] at h1
  exact ⟨h1.1, h1.2, List.mem_of_find?_eq_some h⟩

theorem UndoImage_frame {g g1 : RmFileHandle} {r : LogRecord} (h : UndoImage g r)
    (hrs : g1.file_hdr_.record_size = g.file_hdr_.record_size)
    (hocc : g1.occupied r.rid_ = g.occupied r.rid_) (hby : g1.bytes r.rid_ = g.bytes r.rid_) :
    UndoImage g1 r := by
  unfold UndoImage at h ⊢
  cases ht : r.log_type_ with
  | INSERT => rw [ht] at h; simp only at h ⊢; rw [hocc]; exact h
  | DELETE => rw [ht] at h; simp only at h ⊢; rw [hocc, hby, hrs]; exact h
  | UPDATE => rw [ht] at h; simp only at h ⊢; rw [hocc, hby, hrs]; exact h
  | begin => trivial
  | commit => trivial
  | ABORT => trivial
  | IX_INSERT => trivial
  | IX_DELETE => trivial

namespace RecoveryManager

/-- The heap part of `UndoInv` across a record that changes the heap neither
in redo nor in undo. -/
theorem undo_heap_skip (L : List Int) (r0 : LogRecord) (rest : List LogRecord)
    (S : SmManager) (vsm : SmManager) (hm : r0.isMutation = false)
    (h2 : ∀ tab fS, mapFind S.fhs_ tab = some fS → ∃ fV, mapFind vsm.fhs_ tab = some fV ∧
      fV.file_hdr_.record_size = fS.file_hdr_.record_size ∧
      ∀ rid, (fS.slotExists rid → fV.slotExists rid) ∧
        ((∀ r ∈ rest, r.touches tab rid = true → r.log_tid_ ∈ L) →
          fV.occupied rid = fS.occupied rid) ∧
        (∀ r, firstLoserRecord L rest tab rid = some r → UndoImage fV r)) :
    ∀ tab fS, mapFind S.fhs_ tab = some fS → ∃ fV, mapFind vsm.fhs_ tab = some fV ∧
      fV.file_hdr_.record_size = fS.file_hdr_.record_size ∧
      ∀ rid, (fS.slotExists rid → fV.slotExists rid) ∧
        ((∀ r ∈ r0 :: rest, r.touches tab rid = true → r.log_tid_ ∈ L) →
          fV.occupied rid = fS.occupied rid) ∧
        (∀ r, firstLoserRecord L (r0 :: rest) tab rid = some r → UndoImage fV r) := by
  intro tab fS hfS
  obtain ⟨fV, hfV, hrs, hrel⟩ := h2 tab fS hfS
  refine ⟨fV, hfV, hrs, ?_⟩
  intro rid
  have ht : ¬ (r0.touches tab rid = true ∧ r0.log_tid_ ∈ L) := by
    intro h
    have := ((LogRecord.touches_iff _ _ _).1 h.1).1
    rw [hm] at this
    simp at this
  refine ⟨(hrel rid).1, ?_, ?_⟩
  · intro hP
    exact (hrel rid).2.1 (fun r hr => hP r (List.mem_cons_of_mem _ hr))
  · intro r hr
    rw [firstLoserRecord_cons, if_neg ht] at hr
    exact (hrel rid).2.2 r hr

/-- One record of the log, redone on the way forward and undone on the way
back. -/
theorem undo_step (L : List Int) (log0 : LogManager) (r0 : LogRecord) (rest : List LogRecord)
    (st_a st_b v_b : RecoveryState) (i : Int)
    (hs : st_a.sm.HeapShape) (hi : 0 ≤ i)
    (hix : r0.log_type_ ≠ LogType.IX_INSERT ∧ r0.log_type_ ≠ LogType.IX_DELETE)
    (hv : r0.log_type_ = LogType.INSERT →
      ∀ fh, mapFind st_a.sm.fhs_ r0.table_name_ = some fh →
        0 ≤ r0.rid_.slot_no ∧ r0.rid_.slot_no < fh.file_hdr_.num_records_per_page)
    (hiso : r0.isMutation = true → r0.log_tid_ ∈ L → ∀ r' ∈ rest,
      r'.touches r0.table_name_ r0.rid_ = true → r'.log_tid_ = r0.log_tid_)
    (hbf : r0.isMutation = true → r0.log_tid_ ∈ L → ∀ r' ∈ rest,
      r'.isBeginOf r0.log_tid_ = false)
    (hend : (r0.log_type_ = LogType.commit ∨ r0.log_type_ = LogType.ABORT) →
      r0.log_tid_ ∈ L → ∃ r' ∈ rest, r'.isBeginOf r0.log_tid_ = true)
    (hredo : RedoLog st_a r0 i = Except.ok st_b)
    (hinv : UndoInv L log0 rest st_b.sm v_b) :
    ∃ v_a, undo_loop [r0] v_b = Except.ok v_a ∧ UndoInv L log0 (r0 :: rest) st_a.sm v_a := by
  unfold UndoInv at hinv ⊢
  obtain ⟨h1, h2, h3, extra, h4, h5⟩ := hinv
  by_cases hm : r0.isMutation = true
  · -- an INSERT, DELETE or UPDATE record
    obtain ⟨f, f1, hf, hrf, hstb⟩ := RedoLog_mutation hm hs hi hredo
    have hSb : st_b.sm.fhs_ = mapStore st_a.sm.fhs_ r0.table_name_ f1 := by rw [hstb]; rfl
    obtain ⟨_, s2, _, s4, s5, s6, s7, s8, s9⟩ :=
      redoFile_spec (hs _ f hf) hm (fun ht => hv ht f hf) hrf
    have hfb : mapFind st_b.sm.fhs_ r0.table_name_ = some f1 := by
      rw [hSb, mapFind_mapStore, if_pos rfl, hf]; rfl
    obtain ⟨fV, hfV, hrs, hrel⟩ := h2 _ f1 hfb
    have hnb : ∀ x, r0.isBeginOf x = false := LogRecord.isBeginOf_mutation hm
    have hmut := hm
    unfold LogRecord.isMutation at hmut
    simp only [decide_eq_true_eq] at hmut
    -- the control part is the same whether the record is undone or not
    have hctl : ∀ x, x ∈ v_b.undo_list ↔ x ∈ L ∧ ∀ r ∈ r0 :: rest, r.isBeginOf x = false := by
      intro x
      rw [h3 x]
      constructor
      · rintro ⟨a, b⟩
        refine ⟨a, ?_⟩
        intro r hr
        rcases List.mem_cons.1 hr with h | h
        · rw [h]; exact hnb x
        · exact b r h
      · rintro ⟨a, b⟩
        exact ⟨a, fun r hr => b r (List.mem_cons_of_mem _ hr)⟩
    have hab : ∀ x ∈ L, (∃ r ∈ r0 :: rest, r.isBeginOf x = true) →
        ∃ lsn, { AbortLogRecord x with lsn_ := lsn } ∈ extra := by
      intro x hx hb
      obtain ⟨r, hr, hrb⟩ := hb
      rcases List.mem_cons.1 hr with h | h
      · rw [h, hnb x] at hrb; simp at hrb
      · exact h5 x hx ⟨r, h, hrb⟩
    -- other tables
    have hother : ∀ (vfhs : List (String × RmFileHandle)),
        (∀ tab, tab ≠ r0.table_name_ → mapFind vfhs tab = mapFind v_b.sm.fhs_ tab) →
        ∀ tab fS, tab ≠ r0.table_name_ → mapFind st_a.sm.fhs_ tab = some fS →
        ∃ fV, mapFind vfhs tab = some fV ∧
          fV.file_hdr_.record_size = fS.file_hdr_.record_size ∧
          ∀ rid, (fS.slotExists rid → fV.slotExists rid) ∧
            ((∀ r ∈ r0 :: rest, r.touches tab rid = true → r.log_tid_ ∈ L) →
              fV.occupied rid = fS.occupied rid) ∧
            (∀ r, firstLoserRecord L (r0 :: rest) tab rid = some r → UndoImage fV r) := by
      intro vfhs hvf tab fS ht hfS
      have hfSb : mapFind st_b.sm.fhs_ tab = some fS := by
        rw [hSb, mapFind_mapStore, if_neg ht]; exact hfS
      obtain ⟨fW, hfW, hrsW, hrelW⟩ := h2 tab fS hfSb
      refine ⟨fW, by rw [hvf tab ht]; exact hfW, hrsW, ?_⟩
      intro rid
      have hnt : ¬ (r0.touches tab rid = true ∧ r0.log_tid_ ∈ L) := by
        intro h
        exact ht ((LogRecord.touches_iff _ _ _).1 h.1).2.1.symm
      refine ⟨(hrelW rid).1, ?_, ?_⟩
      · intro hP
        exact (hrelW rid).2.1 (fun r hr => hP r (List.mem_cons_of_mem _ hr))
      · intro r hr
        rw [firstLoserRecord_cons, if_neg hnt] at hr
        exact (hrelW rid).2.2 r hr
    by_cases hL : r0.log_tid_ ∈ L
    · -- of a loser: undone
      have hin : r0.log_tid_ ∈ v_b.undo_list := (h3 _).2 ⟨hL, hbf hm hL⟩
      have hne : ¬ (v_b.undo_list.isEmpty = true) := by
        intro he
        rw [List.isEmpty_iff] at he
        rw [he] at hin
        simp at hin
      have hP : ∀ r ∈ rest, r.touches r0.table_name_ r0.rid_ = true → r.log_tid_ ∈ L := by
        intro r hr ht
        rw [hiso hm hL r hr ht]; exact hL
      have hocc : fV.occupied r0.rid_ = f1.occupied r0.rid_ := (hrel r0.rid_).2.1 hP
      have hocc' : fV.occupied r0.rid_ = decide (r0.log_type_ ≠ LogType.DELETE) := by
        rw [hocc]
        rcases hmut with ht | ht | ht
        · rw [(s7 ht).2, ht]; simp
        · rw [(s8 ht).2, ht]; simp
        · rw [(s9 ht).2, ht]; simp
      obtain ⟨g1, hg, u1, u2, u3, u4, u5⟩ := undoFile_spec hm ((hrel r0.rid_).1 s6) hocc'
      have hfocc : g1.occupied r0.rid_ = f.occupied r0.rid_ := by
        rw [u5]
        rcases hmut with ht | ht | ht
        · rw [(s7 ht).1, ht]; simp
        · rw [(s8 ht).1, ht]; simp
        · rw [(s9 ht).1, ht]; simp
      refine ⟨putFile { v_b with log := v_b.log.add_record (undoRecord r0) } r0.table_name_ g1,
        ?_, ?_, ?_, hctl, ?_⟩
      · rw [undo_loop_single, if_neg hne, UndoLog_mutation_in hm hin, SmManager.file_ok.2 hfV]
        simp only [hg]
      · intro tab hnone
        show mapFind (mapStore v_b.sm.fhs_ r0.table_name_ g1) tab = none
        rw [mapFind_mapStore]
        by_cases ht : tab = r0.table_name_
        · rw [ht, hf] at hnone; simp at hnone
        · rw [if_neg ht]
          apply h1
          rw [hSb, mapFind_mapStore, if_neg ht]; exact hnone
      · intro tab fS hfS
        by_cases ht : tab = r0.table_name_
        · subst ht
          rw [hf] at hfS
          simp only [Option.some.injEq] at hfS
          subst hfS
          refine ⟨g1, ?_, by rw [u1, hrs, s2], ?_⟩
          · show mapFind (mapStore v_b.sm.fhs_ r0.table_name_ g1) r0.table_name_ = some g1
            rw [mapFind_mapStore, if_pos rfl, hfV]; rfl
          · intro rid
            refine ⟨fun h => u2 rid ((hrel rid).1 (s4 rid h)), ?_, ?_⟩
            · intro hP'
              by_cases hrid : rid = r0.rid_
              · rw [hrid]; exact hfocc
              · rw [(u3 rid hrid).1,
                  (hrel rid).2.1 (fun r hr => hP' r (List.mem_cons_of_mem _ hr)), s5 rid hrid]
            · intro r hr
              rw [firstLoserRecord_cons] at hr
              by_cases hrid : rid = r0.rid_
              · rw [if_pos ⟨(LogRecord.touches_iff _ _ _).2 ⟨hm, rfl, hrid.symm⟩, hL⟩] at hr
                simp only [Option.some.injEq] at hr
                rw [← hr]; exact u4
              · rw [if_neg (by
                  intro h
                  exact hrid ((LogRecord.touches_iff _ _ _).1 h.1).2.2.symm)] at hr
                have hr2 := (LogRecord.touches_iff _ _ _).1 (firstLoserRecord_some hr).1
                have hne2 : r.rid_ ≠ r0.rid_ := by rw [hr2.2.2]; exact hrid
                exact UndoImage_frame ((hrel rid).2.2 r hr) u1 (u3 _ hne2).1 (u3 _ hne2).2
        · exact hother (mapStore v_b.sm.fhs_ r0.table_name_ g1)
            (fun t htn => by rw [mapFind_mapStore, if_neg htn]) tab fS ht hfS
      · refine ⟨extra ++ [{ undoRecord r0 with lsn_ := v_b.log.global_lsn_ }], ?_, ?_⟩
        · show (v_b.log.add_record (undoRecord r0)).records = _
          rw [LogManager.add_record_records, h4, List.append_assoc]
        · intro x hx hb
          obtain ⟨lsn, hl⟩ := hab x hx hb
          exact ⟨lsn, List.mem_append_left _ hl⟩
    · -- of a transaction that is no loser: left alone
      have hout : r0.log_tid_ ∉ v_b.undo_list := fun h => hL ((h3 _).1 h).1
      refine ⟨v_b, ?_, ?_, ?_, hctl, extra, h4, hab⟩
      · rw [undo_loop_single]
        split
        · rfl
        · exact UndoLog_out hix hout
      · intro tab hnone
        by_cases ht : tab = r0.table_name_
        · rw [ht, hf] at hnone; simp at hnone
        · apply h1
          rw [hSb, mapFind_mapStore, if_neg ht]; exact hnone
      · intro tab fS hfS
        by_cases ht : tab = r0.table_name_
        · subst ht
          rw [hf] at hfS
          simp only [Option.some.injEq] at hfS
          subst hfS
          refine ⟨fV, hfV, by rw [hrs, s2], ?_⟩
          intro rid
          refine ⟨fun h => (hrel rid).1 (s4 rid h), ?_, ?_⟩
          · intro hP'
            by_cases hrid : rid = r0.rid_
            · exfalso
              exact hL (hP' r0 (List.mem_cons_self _ _)
                ((LogRecord.touches_iff _ _ _).2 ⟨hm, rfl, hrid.symm⟩))
            · rw [(hrel rid).2.1 (fun r hr => hP' r (List.mem_cons_of_mem _ hr)), s5 rid hrid]
          · intro r hr
            rw [firstLoserRecord_cons, if_neg (fun h => hL h.2)] at hr
            exact (hrel rid).2.2 r hr
        · exact hother v_b.sm.fhs_ (fun _ _ => rfl) tab fS ht hfS
  · -- a BEGIN, COMMIT or ABORT record
    have hm' : r0.isMutation = false := by simpa using hm
    obtain ⟨c1, _, _⟩ := RedoLog_control hm' hredo
    rw [c1] at h1 h2
    have hheap := undo_heap_skip L r0 rest st_a.sm v_b.sm hm' h2
    have htype : r0.log_type_ = LogType.begin ∨ r0.log_type_ = LogType.commit ∨
        r0.log_type_ = LogType.ABORT := by
      unfold LogRecord.isMutation at hm'
      simp only [decide_eq_false_iff_not, not_or] at hm'
      cases ht : r0.log_type_ with
      | INSERT => exact absurd ht hm'.1
      | DELETE => exact absurd ht hm'.2.1
      | UPDATE => exact absurd ht hm'.2.2
      | begin => simp
      | commit => simp
      | ABORT => simp
      | IX_INSERT => exact absurd ht hix.1
      | IX_DELETE => exact absurd ht hix.2
    by_cases hb : r0.log_type_ = LogType.begin ∧ r0.log_tid_ ∈ v_b.undo_list
    · -- the BEGIN of a loser: ABORT is logged, the loser leaves the undo set
      have hne : ¬ (v_b.undo_list.isEmpty = true) := by
        intro he
        rw [List.isEmpty_iff] at he
        rw [he] at hb
        simp at hb
      refine ⟨{ v_b with log := v_b.log.add_record (AbortLogRecord r0.log_tid_),
                          undo_list := undo_erase v_b.undo_list r0.log_tid_ }, ?_, h1, hheap,
        ?_, ?_⟩
      · rw [undo_loop_single, if_neg hne, UndoLog_begin_in hb.1 hb.2]
      · intro x
        show x ∈ undo_erase v_b.undo_list r0.log_tid_ ↔ _
        unfold undo_erase
        simp only [ne_eq, decide_not, List.mem_filter, Bool.not_eq_eq_eq_not, Bool.not_true,
          decide_eq_false_iff_not, List.mem_cons, forall_eq_or_imp]
        rw [h3 x]
        constructor
        · rintro ⟨⟨a, b⟩, c⟩
          refine ⟨a, ?_, b⟩
          unfold LogRecord.isBeginOf
          simp only [decide_eq_false_iff_not, not_and]
          intro _ h; exact c h.symm
        · rintro ⟨a, b, c⟩
          refine ⟨⟨a, c⟩, ?_⟩
          intro hx
          unfold LogRecord.isBeginOf at b
          simp only [decide_eq_false_iff_not, not_and] at b
          exact b hb.1 hx.symm
      · refine ⟨extra ++ [{ AbortLogRecord r0.log_tid_ with lsn_ := v_b.log.global_lsn_ }],
          ?_, ?_⟩
        · show (v_b.log.add_record (AbortLogRecord r0.log_tid_)).records = _
          rw [LogManager.add_record_records, h4, List.append_assoc]
        · intro x hx hbx
          obtain ⟨r, hr, hrb⟩ := hbx
          rcases List.mem_cons.1 hr with h | h
          · rw [h] at hrb
            have := ((LogRecord.isBeginOf_iff _ _).1 hrb).2
            rw [← this]
            exact ⟨_, List.mem_append_right _ (List.mem_singleton.2 rfl)⟩
          · obtain ⟨lsn, hl⟩ := h5 x hx ⟨r, h, hrb⟩
            exact ⟨lsn, List.mem_append_left _ hl⟩
    · -- any other control record changes nothing
      have hout : r0.log_tid_ ∉ v_b.undo_list := by
        intro hin
        rcases htype with ht | ht | ht
        · exact hb ⟨ht, hin⟩
        · obtain ⟨r', hr', hrb⟩ := hend (Or.inl ht) ((h3 _).1 hin).1
          rw [((h3 _).1 hin).2 r' hr'] at hrb
          simp at hrb
        · obtain ⟨r', hr', hrb⟩ := hend (Or.inr ht) ((h3 _).1 hin).1
          rw [((h3 _).1 hin).2 r' hr'] at hrb
          simp at hrb
      refine ⟨v_b, ?_, h1, hheap, ?_, extra, h4, ?_⟩
      · rw [undo_loop_single]
        split
        · rfl
        · exact UndoLog_out hix hout
      · intro x
        rw [h3 x]
        constructor
        · rintro ⟨a, b⟩
          refine ⟨a, ?_⟩
          intro r hr
          rcases List.mem_cons.1 hr with h | h
          · rw [h]
            by_contra hc
            simp only [Bool.not_eq_false] at hc
            have hc2 := (LogRecord.isBeginOf_iff _ _).1 hc
            apply hout
            rw [hc2.2]
            exact (h3 x).2 ⟨a, b⟩
          · exact b r h
        · rintro ⟨a, b⟩
          exact ⟨a, fun r hr => b r (List.mem_cons_of_mem _ hr)⟩
      · intro x hx hbx
        obtain ⟨r, hr, hrb⟩ := hbx
        rcases List.mem_cons.1 hr with h | h
        · rw [h] at hrb
          have hc2 := (LogRecord.isBeginOf_iff _ _).1 hrb
          have hnot : x ∉ v_b.undo_list := by rw [← hc2.2]; exact hout
          rw [h3 x] at hnot
          simp only [not_and, not_forall, Bool.not_eq_false] at hnot
          obtain ⟨r', hr', hrb'⟩ := hnot hx
          exact h5 x hx ⟨r', hr', hrb'⟩
        · exact h5 x hx ⟨r, h, hrb⟩

end RecoveryManager

namespace RecoveryManager

theorem putFile_lists (st : RecoveryState) (tab : String) (f : RmFileHandle) :
    (putFile st tab f).undo_list = st.undo_list ∧ (putFile st tab f).log = st.log :=
  ⟨rfl, rfl⟩

/-- `RedoLog` on an INSERT, DELETE or UPDATE record leaves undo set and log
alone. -/
theorem RedoLog_lists {st st1 : RecoveryState} {r : LogRecord} {i : Int}
    (hm : r.isMutation = true) (h : RedoLog st r i = Except.ok st1) :
    st1.undo_list = st.undo_list ∧ st1.log = st.log := by
  unfold LogRecord.isMutation at hm
  simp only [decide_eq_true_eq] at hm
  unfold RedoLog at h
  cases ht : r.log_type_ with
  | INSERT =>
    rw [ht] at h
    simp only at h
    split at h
    · simp at h
    · simp only [Except.ok.injEq] at h; subst h; exact ⟨rfl, rfl⟩
    · split at h
      · simp at h
      · split at h
        · simp at h
        · simp only [Except.ok.injEq] at h; subst h; exact ⟨rfl, rfl⟩
  | DELETE =>
    rw [ht] at h
    simp only at h
    split at h
    · simp at h
    · simp only [Except.ok.injEq] at h; subst h; exact ⟨rfl, rfl⟩
    · split at h
      · simp at h
      · split at h
        · simp at h
        · simp only [Except.ok.injEq] at h; subst h; exact ⟨rfl, rfl⟩
  | UPDATE =>
    rw [ht] at h
    simp only at h
    split at h
    · simp at h
    · simp only [Except.ok.injEq] at h; subst h; exact ⟨rfl, rfl⟩
    · split at h
      · simp at h
      · split at h
        · simp at h
        · simp only [Except.ok.injEq] at h; subst h; exact ⟨rfl, rfl⟩
  | begin => rw [ht] at hm; simp at hm
  | commit => rw [ht] at hm; simp at hm
  | ABORT => rw [ht] at hm; simp at hm
  | IX_INSERT => rw [ht] at hm; simp at hm
  | IX_DELETE => rw [ht] at hm; simp at hm

theorem redo_loop_cons {r : LogRecord} {rest : List LogRecord} {i : Int}
    {st st' : RecoveryState} (h : redo_loop (r :: rest) i st = Except.ok st') :
    ∃ st1, RedoLog st r i = Except.ok st1 ∧ redo_loop rest (i + 1) st1 = Except.ok st' := by
  rw [redo_loop] at h
  split at h
  · simp at h
  · rename_i st1 h1
    exact ⟨st1, h1, h⟩

/-- Redo leaves the log alone, and a transaction is in the undo set after
redo only if it was there before or has a BEGIN record. -/
theorem redo_loop_lists (suf : List LogRecord) :
    ∀ (i : Int) (st st' : RecoveryState), redo_loop suf i st = Except.ok st' →
      st'.log = st.log ∧
      (∀ x, x ∈ st'.undo_list → x ∈ st.undo_list ∨ ∃ r ∈ suf, r.isBeginOf x = true) ∧
      (∀ x, (x ∈ st.undo_list ∨ ∃ r ∈ suf, r.isBeginOf x = true) →
        (∀ r ∈ suf, r.log_tid_ = x →
          r.log_type_ ≠ LogType.commit ∧ r.log_type_ ≠ LogType.ABORT) →
        x ∈ st'.undo_list) := by
  induction suf with
  | nil =>
    intro i st st' h
    simp only [redo_loop, Except.ok.injEq] at h
    subst h
    refine ⟨rfl, fun x hx => Or.inl hx, ?_⟩
    intro x hx _
    rcases hx with hx | ⟨r, hr, _⟩
    · exact hx
    · simp at hr
  | cons r0 rest ih =>
    intro i st st' h
    obtain ⟨st1, h1, h2⟩ := redo_loop_cons h
    obtain ⟨i1, i2, i3⟩ := ih (i + 1) st1 st' h2
    by_cases hm : r0.isMutation = true
    · obtain ⟨l1, l2⟩ := RedoLog_lists hm h1
      have hnb : ∀ x, r0.isBeginOf x = false := LogRecord.isBeginOf_mutation hm
      refine ⟨by rw [i1, l2], ?_, ?_⟩
      · intro x hx
        rcases i2 x hx with h3 | ⟨r, hr, hb⟩
        · left; rw [← l1]; exact h3
        · right; exact ⟨r, List.mem_cons_of_mem _ hr, hb⟩
      · intro x hx hnc
        apply i3 x
        · rcases hx with hx | ⟨r, hr, hb⟩
          · left; rw [l1]; exact hx
          · rcases List.mem_cons.1 hr with h3 | h3
            · rw [h3, hnb x] at hb; simp at hb
            · right; exact ⟨r, h3, hb⟩
        · intro r hr; exact hnc r (List.mem_cons_of_mem _ hr)
    · have hm' : r0.isMutation = false := by simpa using hm
      obtain ⟨_, c2, c3, c4, c5, _⟩ := RedoLog_control hm' h1
      refine ⟨by rw [i1, c2], ?_, ?_⟩
      · intro x hx
        rcases i2 x hx with h3 | ⟨r, hr, hb⟩
        · rcases c3 x h3 with h4 | h4
          · left; exact h4
          · right; exact ⟨r0, List.mem_cons_self _ _, h4⟩
        · right; exact ⟨r, List.mem_cons_of_mem _ hr, hb⟩
      · intro x hx hnc
        apply i3 x
        · rcases hx with hx | ⟨r, hr, hb⟩
          · left
            apply c5 x hx
            rintro ⟨e1, e2⟩
            have := hnc r0 (List.mem_cons_self _ _) e1
            rcases e2 with e2 | e2
            · exact this.1 e2
            · exact this.2 e2
          · rcases List.mem_cons.1 hr with h3 | h3
            · left; rw [h3] at hb; exact c4 x hb
            · right; exact ⟨r, h3, hb⟩
        · intro r hr; exact hnc r (List.mem_cons_of_mem _ hr)

theorem redo_loop_undoList (suf : List LogRecord) :
    ∀ (i : Int) (st st' : RecoveryState), redo_loop suf i st = Except.ok st' →
      st'.undo_list = undoListFrom st.undo_list suf := by
  induction suf with
  | nil =>
    intro i st st' h
    simp only [redo_loop, Except.ok.injEq] at h
    subst h; rfl
  | cons r0 rest ih =>
    intro i st st' h
    obtain ⟨st1, h1, h2⟩ := redo_loop_cons h
    rw [ih (i + 1) st1 st' h2]
    by_cases hm : r0.isMutation = true
    · obtain ⟨l1, _⟩ := RedoLog_lists hm h1
      rw [l1]
      unfold LogRecord.isMutation at hm
      simp only [decide_eq_true_eq] at hm
      rw [undoListFrom]
      rcases hm with ht | ht | ht <;> rw [ht]
    · unfold LogRecord.isMutation at hm
      simp only [decide_eq_true_eq, not_or] at hm
      unfold RedoLog at h1
      rw [undoListFrom]
      cases ht : r0.log_type_ with
      | INSERT => exact absurd ht hm.1
      | DELETE => exact absurd ht hm.2.1
      | UPDATE => exact absurd ht hm.2.2
      | begin => rw [ht] at h1; simp only [Except.ok.injEq] at h1; subst h1; rfl
      | commit => rw [ht] at h1; simp only [Except.ok.injEq] at h1; subst h1; rfl
      | ABORT => rw [ht] at h1; simp only [Except.ok.injEq] at h1; subst h1; rfl
      | IX_INSERT => rw [ht] at h1; simp only [Except.ok.injEq] at h1; subst h1; rfl
      | IX_DELETE => rw [ht] at h1; simp only [Except.ok.injEq] at h1; subst h1; rfl

theorem store_HeapShape {sm0 : SmManager} {tab : String} {f1 : RmFileHandle}
    (hwf : sm0.HeapShape) (h1 : f1.Shape) :
    SmManager.HeapShape { sm0 with fhs_ := mapStore sm0.fhs_ tab f1 } := by
  intro t f hf
  simp only [mapFind_mapStore] at hf
  by_cases ht : t = tab
  · simp only [ht, if_true] at hf
    cases hm : mapFind sm0.fhs_ tab with
    | none => rw [hm] at hf; simp at hf
    | some g => rw [hm] at hf; simp at hf; rw [← hf]; exact h1
  · simp only [ht, if_false] at hf
    exact hwf t f hf

/-- Undo after redo: the undo of the records `suf`, started from the state
that redo reached through them, succeeds and relates to the heap from which
redo went through `suf`. -/
theorem undo_after_redo (L : List Int) (suf : List LogRecord) :
    ∀ (i : Int) (st_a st_n : RecoveryState), st_a.sm.HeapShape → 0 ≤ i →
      (∀ r ∈ suf, r.log_type_ ≠ LogType.IX_INSERT ∧ r.log_type_ ≠ LogType.IX_DELETE) →
      ValidSlots st_a.sm suf → isolated L suf = true → beginFirst L suf = true →
      redo_loop suf i st_a = Except.ok st_n → st_n.undo_list = L →
      (∃ v, undo_loop suf.reverse st_n = Except.ok v ∧ UndoInv L st_n.log suf st_a.sm v) ∧
      ∀ r ∈ suf, r.isMutation = true → ∃ f, mapFind st_a.sm.fhs_ r.table_name_ = some f := by
  induction suf with
  | nil =>
    intro i st_a st_n _ _ _ _ _ _ h hL
    simp only [redo_loop, Except.ok.injEq] at h
    subst h
    refine ⟨⟨st_a, rfl, ?_⟩, fun r hr => by simp at hr⟩
    unfold UndoInv
    refine ⟨fun _ h => h, ?_, ?_, [], by simp, ?_⟩
    · intro tab fS hfS
      refine ⟨fS, hfS, rfl, ?_⟩
      intro rid
      refine ⟨fun h => h, fun _ => rfl, ?_⟩
      intro r hr
      simp [firstLoserRecord] at hr
    · intro x
      rw [hL]
      simp
    · intro x _ hb
      obtain ⟨r, hr, _⟩ := hb
      simp at hr
  | cons r0 rest ih =>
    intro i st_a st_n hs hi hix hv hiso hbf h hL
    obtain ⟨st_b, h1, h2⟩ := redo_loop_cons h
    obtain ⟨iso1, iso2⟩ := (isolated_cons L r0 rest).1 hiso
    obtain ⟨bf1, bf2⟩ := (beginFirst_cons L r0 rest).1 hbf
    have hix0 := hix r0 (List.mem_cons_self _ _)
    -- the heap after the redo of `r0`
    have hsb : st_b.sm.HeapShape ∧ ValidSlots st_b.sm rest := by
      by_cases hm : r0.isMutation = true
      · obtain ⟨f, f1, hf, hrf, hstb⟩ := RedoLog_mutation hm hs hi h1
        obtain ⟨s1, _, s3, _⟩ := redoFile_spec (hs _ f hf) hm
          (fun ht => hv r0 (List.mem_cons_self _ _) ht f hf) hrf
        rw [hstb]
        refine ⟨store_HeapShape hs s1, ?_⟩
        intro r hr ht fh hfh
        have hfh' : mapFind (mapStore st_a.sm.fhs_ r0.table_name_ f1) r.table_name_ = some fh :=
          hfh
        rw [mapFind_mapStore] at hfh'
        by_cases htab : r.table_name_ = r0.table_name_
        · rw [if_pos htab, htab, hf] at hfh'
          simp only [Option.map_some', Option.some.injEq] at hfh'
          rw [← hfh', s3]
          exact hv r (List.mem_cons_of_mem _ hr) ht f (by rw [htab]; exact hf)
        · rw [if_neg htab] at hfh'
          exact hv r (List.mem_cons_of_mem _ hr) ht fh hfh'
      · have hm' : r0.isMutation = false := by simpa using hm
        obtain ⟨c1, _⟩ := RedoLog_control hm' h1
        rw [c1]
        exact ⟨hs, fun r hr => hv r (List.mem_cons_of_mem _ hr)⟩
    obtain ⟨⟨v_b, hub, hinvb⟩, htabs⟩ := ih (i + 1) st_b st_n hsb.1 (by omega)
      (fun r hr => hix r (List.mem_cons_of_mem _ hr)) hsb.2 iso2 bf2 h2 hL
    have hend : (r0.log_type_ = LogType.commit ∨ r0.log_type_ = LogType.ABORT) →
        r0.log_tid_ ∈ L → ∃ r' ∈ rest, r'.isBeginOf r0.log_tid_ = true := by
      intro ht hin
      have hm' : r0.isMutation = false := by
        unfold LogRecord.isMutation
        rcases ht with ht | ht <;> rw [ht] <;> simp
      obtain ⟨_, _, _, _, _, c6⟩ := RedoLog_control hm' h1
      have hnot := c6 r0.log_tid_ rfl ht
      rw [← hL] at hin
      rcases (redo_loop_lists rest (i + 1) st_b st_n h2).2.1 _ hin with h3 | h3
      · exact absurd h3 hnot
      · exact h3
    obtain ⟨v_a, hua, hinva⟩ := undo_step L st_n.log r0 rest st_a st_b v_b i hs hi hix0
      (hv r0 (List.mem_cons_self _ _)) iso1 bf1 hend h1 hinvb
    refine ⟨⟨v_a, ?_, hinva⟩, ?_⟩
    · rw [List.reverse_cons, undo_loop_append, hub]
      exact hua
    · intro r hr hmr
      by_cases hm : r0.isMutation = true
      · obtain ⟨f, f1, hf, _, hstb⟩ := RedoLog_mutation hm hs hi h1
        rcases List.mem_cons.1 hr with h3 | h3
        · rw [h3]; exact ⟨f, hf⟩
        · obtain ⟨g, hg⟩ := htabs r h3 hmr
          rw [hstb] at hg
          have hg' : mapFind (mapStore st_a.sm.fhs_ r0.table_name_ f1) r.table_name_ = some g :=
            hg
          rw [mapFind_mapStore] at hg'
          by_cases htab : r.table_name_ = r0.table_name_
          · rw [htab]; exact ⟨f, hf⟩
          · rw [if_neg htab] at hg'; exact ⟨g, hg'⟩
      · have hm' : r0.isMutation = false := by simpa using hm
        obtain ⟨c1, _⟩ := RedoLog_control hm' h1
        rcases List.mem_cons.1 hr with h3 | h3
        · rw [h3, hm'] at hmr; simp at hmr
        · rw [← c1]; exact htabs r h3 hmr

end RecoveryManager

section RecoveryUndo
open RecoveryManager

theorem analyze_ok {log : LogManager} {records : List LogRecord} {log1 : LogManager}
    (h : analyze log = Except.ok (records, log1)) :
    records = log.disk_log ∧ log1.records = log.records ∧
      ∀ r ∈ log.disk_log,
        r.log_type_ ≠ LogType.IX_INSERT ∧ r.log_type_ ≠ LogType.IX_DELETE := by
  unfold analyze at h
  split at h
  · simp at h
  · split at h
    · simp at h
    · rename_i _ hix
      simp only [Except.ok.injEq, Prod.mk.injEq] at h
      obtain ⟨h1, h2⟩ := h
      refine ⟨h1.symm, by rw [← h2]; simp only [LogManager.records], ?_⟩
      intro r hr
      simp only [List.any_eq_true, decide_eq_true_eq, not_exists, not_and, not_or] at hix
      exact hix r hr

theorem isolated_split (L : List Int) (pre : List LogRecord) (r : LogRecord)
    (post : List LogRecord) (h : isolated L (pre ++ r :: post) = true) :
    ∀ r' ∈ pre, r'.isMutation = true → r'.log_tid_ ∈ L →
      r.touches r'.table_name_ r'.rid_ = true → r.log_tid_ = r'.log_tid_ := by
  induction pre with
  | nil => intro r' hr'; simp at hr'
  | cons a rest ih =>
    intro r' hr' hm hL ht
    rw [List.cons_append] at h
    obtain ⟨h1, h2⟩ := (isolated_cons L a _).1 h
    rcases List.mem_cons.1 hr' with h3 | h3
    · subst h3
      exact h1 hm hL r (List.mem_append_right _ (List.mem_cons_self _ _)) ht
    · exact ih h2 r' h3 hm hL ht

theorem firstLoserRecord_split (L : List Int) (pre : List LogRecord) (r : LogRecord)
    (post : List LogRecord) (tab : String) (rid : Rid)
    (hr : r.touches tab rid = true ∧ r.log_tid_ ∈ L)
    (hpre : ∀ r' ∈ pre, ¬ (r'.touches tab rid = true ∧ r'.log_tid_ ∈ L)) :
    firstLoserRecord L (pre ++ r :: post) tab rid = some r := by
  induction pre with
  | nil => rw [List.nil_append, firstLoserRecord_cons, if_pos hr]
  | cons a rest ih =>
    rw [List.cons_append, firstLoserRecord_cons, if_neg (hpre a (List.mem_cons_self _ _))]
    exact ih (fun r' h => hpre r' (List.mem_cons_of_mem _ h))

theorem RedoLog_catalog {st st1 : RecoveryState} {r : LogRecord} {i : Int}
    (h : RedoLog st r i = Except.ok st1) :
    st1.sm.tab_indexes = st.sm.tab_indexes ∧ st1.sm.ihs_ = st.sm.ihs_ := by
  unfold RedoLog at h
  repeat' split at h
  all_goals first
    | (cases h; done)
    | (simp only [Except.ok.injEq] at h; subst h; exact ⟨rfl, rfl⟩)

theorem UndoLog_catalog {st st1 : RecoveryState} {r : LogRecord}
    (h : UndoLog st r = Except.ok st1) :
    st1.sm.tab_indexes = st.sm.tab_indexes ∧ st1.sm.ihs_ = st.sm.ihs_ := by
  unfold UndoLog at h
  repeat' split at h
  all_goals first
    | (cases h; done)
    | (simp only [Except.ok.injEq] at h; subst h; exact ⟨rfl, rfl⟩)

theorem redo_loop_catalog : ∀ (l : List LogRecord) (i : Int) (st st1 : RecoveryState),
    redo_loop l i st = Except.ok st1 →
    st1.sm.tab_indexes = st.sm.tab_indexes ∧ st1.sm.ihs_ = st.sm.ihs_ := by
  intro l
  induction l with
  | nil =>
    intro i st st1 h
    unfold redo_loop at h
    simp only [Except.ok.injEq] at h
    subst h
    exact ⟨rfl, rfl⟩
  | cons r rest ih =>
    intro i st st1 h
    unfold redo_loop at h
    cases hr : RedoLog st r i with
    | error e => rw [hr] at h; cases h
    | ok st2 =>
      rw [hr] at h
      obtain ⟨a, b⟩ := ih _ _ _ h
      obtain ⟨c, d⟩ := RedoLog_catalog hr
      exact ⟨a.trans c, b.trans d⟩

theorem undo_loop_catalog : ∀ (l : List LogRecord) (st st1 : RecoveryState),
    undo_loop l st = Except.ok st1 →
    st1.sm.tab_indexes = st.sm.tab_indexes ∧ st1.sm.ihs_ = st.sm.ihs_ := by
  intro l
  induction l with
  | nil =>
    intro st st1 h
    unfold undo_loop at h
    simp only [Except.ok.injEq] at h
    subst h
    exact ⟨rfl, rfl⟩
  | cons r rest ih =>
    intro st st1 h
    unfold undo_loop at h
    split at h
    · simp only [Except.ok.injEq] at h
      subst h
      exact ⟨rfl, rfl⟩
    · cases hr : UndoLog st r with
      | error e => rw [hr] at h; cases h
      | ok st2 =>
        rw [hr] at h
        obtain ⟨a, b⟩ := ih _ _ h
        obtain ⟨c, d⟩ := UndoLog_catalog hr
        exact ⟨a.trans c, b.trans d⟩

theorem mapFind_mem {α : Type} : ∀ (m : List (String × α)) (k : String) (v : α),
    mapFind m k = some v → (k, v) ∈ m := by
  intro m
  induction m with
  | nil => intro k v h; simp [mapFind] at h
  | cons e rest ih =>
    intro k v h
    obtain ⟨k1, v1⟩ := e
    unfold mapFind at h
    split at h
    · rename_i hk
      simp only [Option.some.injEq] at h
      subst h hk
      exact List.mem_cons_self _ _
    · exact List.mem_cons_of_mem _ (ih k v h)

/-- Where no table has an index the loop over the tables leaves the catalog
as it is. -/
theorem rebuild_loop_no_index (sm : SmManager) (hni : ∀ e ∈ sm.tab_indexes, e.2 = []) :
    ∀ names : List String, rebuild_loop names sm = Except.ok sm := by
  intro names
  induction names with
  | nil => rfl
  | cons n rest ih =>
    unfold rebuild_loop
    cases hf : mapFind sm.tab_indexes n with
    | none => exact ih
    | some l =>
      have : l = [] := hni (n, l) (mapFind_mem _ _ _ hf)
      subst this
      simp only [rebuild_table]
      exact ih

theorem rebuild_indexes_no_index (sm : SmManager) (hni : ∀ e ∈ sm.tab_indexes, e.2 = []) :
    rebuild_indexes sm = Except.ok sm :=
  rebuild_loop_no_index sm hni _

/-- Recovery where redo completes: let no table have an index, let the heap
pages be laid out by their file headers, let the INSERT records of the log
file name slots of a page, let `analyze` and `redo` complete on the heap,
and let the losers of the log (the undo set
after redo) be isolated (after a loser's record on a slot every later
record on that slot is its own) and begin before they write.  Let `T` have
a BEGIN record and no COMMIT or ABORT record.  Then `recover` completes; the
undo set is empty; the log has grown by records among which is an ABORT
record of `T`; and for the first record of `T` on a slot the heap holds the
undo image of that record: the slot of an INSERT is free, the slot of an
UPDATE is occupied and holds the old value of the record, the slot of a
DELETE is occupied and holds the deleted value (the first `record_size`
bytes of the value, with the `record_size` of the table's file). -/
theorem recover_undoes_uncommitted (sm : SmManager) (log : LogManager) (T : Int)
    (hni : ∀ e ∈ sm.tab_indexes, e.2 = [])
    (hshape : sm.HeapShape) (hvalid : ValidSlots sm log.disk_log)
    (hredo : (redoPhase sm log).isOk = true)
    (hiso : isolated (undoListOf log.disk_log) log.disk_log = true)
    (hbf : beginFirst (undoListOf log.disk_log) log.disk_log = true)
    (hT : ∃ r ∈ log.disk_log, r.isBeginOf T = true)
    (hnc : ∀ r ∈ log.disk_log, r.log_tid_ = T →
      r.log_type_ ≠ LogType.commit ∧ r.log_type_ ≠ LogType.ABORT) :
    ∃ st2, recover sm log = Except.ok st2 ∧ st2.undo_list = [] ∧
      (∃ extra lsn, st2.log.records = log.records ++ extra ∧
        { AbortLogRecord T with lsn_ := lsn } ∈ extra) ∧
      ∀ pre r post, log.disk_log = pre ++ r :: post → r.isMutation = true →
        r.log_tid_ = T →
        (∀ r' ∈ pre, r'.log_tid_ = T → r'.touches r.table_name_ r.rid_ = false) →
        ∃ fh, mapFind st2.sm.fhs_ r.table_name_ = some fh ∧ UndoImage fh r ∧
          ∀ f0, mapFind sm.fhs_ r.table_name_ = some f0 →
            fh.file_hdr_.record_size = f0.file_hdr_.record_size := by
  unfold redoPhase at hredo
  cases ha : analyze log with
  | error e => rw [ha] at hredo; simp [Except.isOk, Except.toBool] at hredo
  | ok p =>
    obtain ⟨records, log1⟩ := p
    rw [ha] at hredo
    simp only at hredo
    obtain ⟨hrec, hlog1, hix⟩ := analyze_ok ha
    subst hrec
    cases hr : redo log.disk_log ⟨sm, [], log1⟩ with
    | error e => rw [hr] at hredo; simp [Except.isOk, Except.toBool] at hredo
    | ok st1 =>
      have hr' : redo_loop log.disk_log 0 ⟨sm, [], log1⟩ = Except.ok st1 := hr
      have hL : st1.undo_list = undoListOf log.disk_log :=
        redo_loop_undoList _ _ _ _ hr'
      obtain ⟨l1, l2, l3⟩ := redo_loop_lists _ _ _ _ hr'
      obtain ⟨⟨v, hu, hinv⟩, htabs⟩ := undo_after_redo (undoListOf log.disk_log) log.disk_log 0
        ⟨sm, [], log1⟩ st1 hshape (le_refl 0) hix hvalid hiso hbf hr' hL
      unfold UndoInv at hinv
      obtain ⟨_, h2, h3, extra, h4, h5⟩ := hinv
      have hTL : T ∈ undoListOf log.disk_log := by
        rw [← hL]
        exact l3 T (Or.inr hT) hnc
      refine ⟨v, ?_, ?_, ?_, ?_⟩
      · have hcat := (undo_loop_catalog _ _ _ hu).1.trans (redo_loop_catalog _ _ _ _ hr').1
        have hni1 : ∀ e ∈ v.sm.tab_indexes, e.2 = [] := by rw [hcat]; exact hni
        unfold recover
        rw [ha]
        simp only
        rw [hr]
        simp only
        unfold undo
        rw [hu]
        simp only
        rw [rebuild_indexes_no_index v.sm hni1]
      · rw [List.eq_nil_iff_forall_not_mem]
        intro x hx
        obtain ⟨a, b⟩ := (h3 x).1 hx
        rw [← hL] at a
        rcases l2 x a with h | ⟨r, hr1, hr2⟩
        · simp at h
        · rw [b r hr1] at hr2; simp at hr2
      · obtain ⟨lsn, hl⟩ := h5 T hTL hT
        refine ⟨extra, lsn, ?_, hl⟩
        rw [h4, l1, hlog1]
      · intro pre r post hsplit hm hrT hfirst
        obtain ⟨f, hf⟩ := htabs r (by rw [hsplit]; simp) hm
        obtain ⟨fV, hfV, hrsV, hrel⟩ := h2 r.table_name_ f hf
        have key : ∀ L : List Int, T ∈ L → isolated L log.disk_log = true →
            firstLoserRecord L log.disk_log r.table_name_ r.rid_ = some r := by
          intro L hTL' hiso'
          rw [hsplit] at hiso' ⊢
          apply firstLoserRecord_split
          · exact ⟨(LogRecord.touches_iff _ _ _).2 ⟨hm, rfl, rfl⟩, by rw [hrT]; exact hTL'⟩
          · rintro r' hr'pre ⟨ht, hL'⟩
            have hm' := ((LogRecord.touches_iff _ _ _).1 ht).1
            have htab := ((LogRecord.touches_iff _ _ _).1 ht).2
            have hsame : r.log_tid_ = r'.log_tid_ := by
              apply isolated_split _ pre r post hiso' r' hr'pre hm' hL'
              rw [htab.1, htab.2]
              exact (LogRecord.touches_iff _ _ _).2 ⟨hm, rfl, rfl⟩
            have := hfirst r' hr'pre (by rw [← hsame]; exact hrT)
            rw [ht] at this
            simp at this
        refine ⟨fV, hfV, (hrel r.rid_).2.2 r (key _ hTL hiso), ?_⟩
        intro f0 hf0
        have hf' : mapFind sm.fhs_ r.table_name_ = some f := hf
        rw [hf0] at hf'
        simp only [Option.some.injEq] at hf'
        rw [hf']; exact hrsV

/-- An instance on `exampleHeap` and `exampleLog`, where no page had
reached the disk: recovery completes, the undo set is empty, and the row at
rid (1,0), which the unfinished transaction 1 had updated, is occupied and
holds `[2,0,0,0]` again. -/
theorem recover_undoes_uncommitted_witness :
    ∃ st2, recover exampleHeap exampleLog = Except.ok st2 ∧ st2.undo_list = [] ∧
      ∃ fh, mapFind st2.sm.fhs_ "t" = some fh ∧ fh.occupied ⟨1, 0⟩ = true ∧
        fh.bytes ⟨1, 0⟩ = [2, 0, 0, 0] := by
  have hshape : exampleHeap.HeapShape := by
    intro tab fh hf
    simp only [exampleHeap, mapFind] at hf
    split at hf
    · simp only [Option.some.injEq] at hf
      subst hf
      unfold RmFileHandle.Shape
      decide
    · simp at hf
  have hvalid : ValidSlots exampleHeap exampleLog.disk_log := by
    intro r hr ht fh hf
    have hnpp : fh.file_hdr_.num_records_per_page = 2 := by
      simp only [exampleHeap, mapFind] at hf
      split at hf
      · simp only [Option.some.injEq] at hf
        rw [← hf]
      · simp at hf
    rw [hnpp]
    clear hnpp hf
    revert r
    decide
  obtain ⟨st2, h1, h2, _, h4⟩ := recover_undoes_uncommitted exampleHeap exampleLog 1
    (by decide) hshape hvalid (by decide!) (by decide!) (by decide!) (by decide) (by decide)
  obtain ⟨fh, hfh, himg, hrs⟩ := h4 [{ BeginLogRecord 1 with lsn_ := 0 }]
    { UpdateLogRecord 1 [12, 0, 0, 0] [2, 0, 0, 0] ⟨1, 0⟩ "t" with lsn_ := 1 }
    [{ BeginLogRecord 2 with lsn_ := 2 },
     { InsertLogRecord 2 [9, 0, 0, 0] ⟨2, 0⟩ "t" with lsn_ := 3 },
     { CommitLogRecord 2 with lsn_ := 4 },
     { InsertLogRecord 1 [7, 0, 0, 0] ⟨1, 1⟩ "t" with lsn_ := 5 }]
    rfl (by decide) rfl (by decide)
  have hrs4 : fh.file_hdr_.record_size = 4 := hrs _ rfl
  have himg2 : fh.occupied ⟨1, 0⟩ = true ∧
      fh.bytes ⟨1, 0⟩ = List.take fh.file_hdr_.record_size [2, 0, 0, 0] := himg
  rw [hrs4] at himg2
  exact ⟨st2, h1, h2, fh, hfh, himg2.1, himg2.2⟩

/-- C6 (failing input): transaction 1 inserted the record `[7,0,0,0]` at
rid (1,0) of table "t" and did not end; the log file holds BEGIN and INSERT,
and the dirty heap page was written to disk before the crash.  Redo
re-applies the INSERT to the occupied slot (no heap operation sets
`page_lsn`, so `is_record_stroed` is false) and recovery dies on the
assertion of `insert_record(Rid&, char*)`: the slot is not freed, the undo
set is not emptied and no ABORT record is written.  In the same way
recovery dies on the assertion of `delete_record` when transaction 1 deleted
the row `[2,0,0,0]` at rid (1,0) and the page with the cleared bit reached
the disk.  Against the heap files as they were before the page was written
both logs recover: the inserted slot is free again, the deleted row is
present again, the undo set is empty and the compensation record and the
ABORT record are in the log buffer. -/
theorem recover_fails_on_flushed_uncommitted_write :
    recover
      ⟨[("t", ⟨3, ⟨4, 2, 2⟩,
          [⟨INVALID_LSN, 0, [false, false], [[0, 0, 0, 0], [0, 0, 0, 0]]⟩,
           ⟨INVALID_LSN, 1, [true, false], [[7, 0, 0, 0], [0, 0, 0, 0]]⟩], [1]⟩)],
        [("t", [])], []⟩
      ⟨0, -1, [], 0, 4096,
        [{ BeginLogRecord 1 with lsn_ := 0 },
         { InsertLogRecord 1 [7, 0, 0, 0] ⟨1, 0⟩ "t" with lsn_ := 1 }]⟩
      = Except.error DbError.AssertionFailed ∧
    recover
      ⟨[("t", ⟨3, ⟨4, 2, 2⟩,
          [⟨INVALID_LSN, 0, [false, false], [[0, 0, 0, 0], [0, 0, 0, 0]]⟩,
           ⟨INVALID_LSN, 0, [false, false], [[2, 0, 0, 0], [0, 0, 0, 0]]⟩], [1]⟩)],
        [("t", [])], []⟩
      ⟨0, -1, [], 0, 4096,
        [{ BeginLogRecord 1 with lsn_ := 0 },
         { DeleteLogRecord 1 [2, 0, 0, 0] ⟨1, 0⟩ "t" with lsn_ := 1 }]⟩
      = Except.error DbError.AssertionFailed ∧
    (recover
      ⟨[("t", ⟨3, ⟨4, 2, 2⟩,
          [⟨INVALID_LSN, 0, [false, false], [[0, 0, 0, 0], [0, 0, 0, 0]]⟩,
           ⟨INVALID_LSN, 0, [false, false], [[0, 0, 0, 0], [0, 0, 0, 0]]⟩], [1]⟩)],
        [("t", [])], []⟩
      ⟨0, -1, [], 0, 4096,
        [{ BeginLogRecord 1 with lsn_ := 0 },
         { InsertLogRecord 1 [7, 0, 0, 0] ⟨1, 0⟩ "t" with lsn_ := 1 }]⟩).map
      (fun st => (st.sm.occupied "t" ⟨1, 0⟩, st.undo_list,
        st.log.buffer_.map LogRecord.log_type_))
      = Except.ok (false, [], [LogType.DELETE, LogType.ABORT]) ∧
    (recover
      ⟨[("t", ⟨3, ⟨4, 2, 2⟩,
          [⟨INVALID_LSN, 0, [false, false], [[0, 0, 0, 0], [0, 0, 0, 0]]⟩,
           ⟨INVALID_LSN, 1, [true, false], [[2, 0, 0, 0], [0, 0, 0, 0]]⟩], [1]⟩)],
        [("t", [])], []⟩
      ⟨0, -1, [], 0, 4096,
        [{ BeginLogRecord 1 with lsn_ := 0 },
         { DeleteLogRecord 1 [2, 0, 0, 0] ⟨1, 0⟩ "t" with lsn_ := 1 }]⟩).map
      (fun st => (st.sm.occupied "t" ⟨1, 0⟩, st.sm.bytes "t" ⟨1, 0⟩, st.undo_list,
        st.log.buffer_.map LogRecord.log_type_))
      = Except.ok (true, [2, 0, 0, 0], [], [LogType.INSERT, LogType.ABORT]) := by
  decide!

/-- Recovery on `exampleIndexedHeap` and `exampleLog` rebuilds the index
from the heap as undo leaves it: the table keeps its index, and the index
holds the key 2 of the restored row at rid (1,0) and the key 9 of the
committed row at rid (2,0), and neither the key 5 of the old index file nor
the keys 12 and 7 of the unfinished transaction. -/
theorem recover_rebuilds_index :
    (recover exampleIndexedHeap exampleLog).map
      (fun st => (st.sm.tab_indexes, st.sm.ihs_.map Prod.fst))
      = Except.ok ([("t", [⟨"t_a", 0⟩])], ["t_a"]) ∧
    (recover exampleIndexedHeap exampleLog).map (fun st => st.sm.lookups "t_a" [2, 9, 5, 12, 7])
      = Except.ok [some (some ⟨1, 0⟩), some (some ⟨2, 0⟩), some none, some none, some none] ∧
    (recover exampleIndexedHeap exampleLog).map
      (fun st => (st.sm.bytes "t" ⟨1, 0⟩, st.sm.occupied "t" ⟨1, 1⟩))
      = Except.ok ([2, 0, 0, 0], false) := by
  decide!

/-- The result of recovery on `exampleHeap` and `exampleLog`, evaluated:
the row of transaction 1 at rid (1,0) holds `[2,0,0,0]`, its slot (1,1) is
free, the row of the committed transaction 2 at rid (2,0) is present, the
undo set is empty, and the log buffer holds the compensation records and
the ABORT record of transaction 1. -/
theorem recover_example :
    (match recover exampleHeap exampleLog with
      | Except.ok st2 =>
        some (st2.sm.bytes "t" ⟨1, 0⟩, st2.sm.occupied "t" ⟨1, 1⟩, st2.sm.bytes "t" ⟨2, 0⟩)
      | Except.error _ => none) = some ([2, 0, 0, 0], false, [9, 0, 0, 0]) ∧
    (match recover exampleHeap exampleLog with
      | Except.ok st2 =>
        some (st2.sm.occupied "t" ⟨2, 0⟩, st2.undo_list,
          st2.log.buffer_.map LogRecord.log_type_)
      | Except.error _ => none)
      = some (true, [], [LogType.DELETE, LogType.UPDATE, LogType.ABORT]) := by
  decide!

end RecoveryUndo

/-! ## Theorems: unlock and the transaction state -/

/-- C11 (amended): `LockManager::unlock` leaves the state of the transaction
as it is.  A lock request that a GROWING transaction makes after an unlock
is never rejected with LOCK_ON_SHIRINKING: when it is rejected, the reason
is DEADLOCK_PREVENTION and another transaction holds an incompatible
request on the object; and every lock request of a SHRINKING transaction
is rejected with LOCK_ON_SHIRINKING, with lock table and transaction left
as they were. -/
theorem unlock_keeps_state (lt : LockTable) (T : Transaction) (id : LockDataId) (c : LockCall)
    (hg : T.state = TransactionState.GROWING) :
    (c.run (unlock lt T id) T).result ≠ Except.error AbortReason.LOCK_ON_SHIRINKING ∧
    (∀ e, (c.run (unlock lt T id) T).result = Except.error e →
      e = AbortReason.DEADLOCK_PREVENTION ∧
        ConflictsWithOther (unlock lt T id) c.target T.txn_id c.mode) ∧
    (∀ T' : Transaction, T'.state = TransactionState.SHRINKING →
      (c.run (unlock lt T id) T').result = Except.error AbortReason.LOCK_ON_SHIRINKING ∧
      (c.run (unlock lt T id) T').table = unlock lt T id ∧
      (c.run (unlock lt T id) T').txn = T') := by
  have hs : T.state ≠ TransactionState.SHRINKING := by rw [hg]; decide
  have herr : ∀ e, (c.run (unlock lt T id) T).result = Except.error e →
      e = AbortReason.DEADLOCK_PREVENTION ∧
        ConflictsWithOther (unlock lt T id) c.target T.txn_id c.mode := by
    intro e he
    obtain ⟨conflicts, upgrade, R, hrun⟩ := c.run_eq (unlock lt T id) T
    rw [hrun] at he
    rcases lockWith_error R _ T e he with h | h
    · exact absurd h.1 hs
    · exact ⟨h.2.1, h.2.2⟩
  refine ⟨?_, herr, ?_⟩
  · intro h
    have := (herr _ h).1
    cases this
  · intro T' hT'
    obtain ⟨conflicts, upgrade, R, hrun⟩ := c.run_eq (unlock lt T id) T'
    rw [hrun]
    unfold lockWith
    rw [if_pos hT']
    exact ⟨rfl, rfl, rfl⟩

/-- Witness for C11 (amended): transaction 1 holds S on table 5, gives it
up and asks for X on table 6. -/
theorem unlock_keeps_state_witness :
    ((LockCall.exclusive_on_table 6).run
        (unlock [(LockDataId.ofTable 5, [⟨1, LockMode.SHARED⟩])]
          ⟨1, TransactionState.GROWING, [LockDataId.ofTable 5], []⟩ (LockDataId.ofTable 5))
        ⟨1, TransactionState.GROWING, [LockDataId.ofTable 5], []⟩).result
      ≠ Except.error AbortReason.LOCK_ON_SHIRINKING :=
  (unlock_keeps_state [(LockDataId.ofTable 5, [⟨1, LockMode.SHARED⟩])]
    ⟨1, TransactionState.GROWING, [LockDataId.ofTable 5], []⟩ (LockDataId.ofTable 5)
    (LockCall.exclusive_on_table 6) rfl).1

/-- C11 as stated fails: transaction 1 is GROWING and holds S on table 5;
after `unlock` of that lock its request for X on table 5 is granted, and
the lock table holds the new request. -/
theorem lock_granted_after_unlock :
    ((LockCall.exclusive_on_table 5).run
        (unlock [(LockDataId.ofTable 5, [⟨1, LockMode.SHARED⟩])]
          ⟨1, TransactionState.GROWING, [LockDataId.ofTable 5], []⟩ (LockDataId.ofTable 5))
        ⟨1, TransactionState.GROWING, [LockDataId.ofTable 5], []⟩).result = Except.ok true ∧
    ((LockCall.exclusive_on_table 5).run
        (unlock [(LockDataId.ofTable 5, [⟨1, LockMode.SHARED⟩])]
          ⟨1, TransactionState.GROWING, [LockDataId.ofTable 5], []⟩ (LockDataId.ofTable 5))
        ⟨1, TransactionState.GROWING, [LockDataId.ofTable 5], []⟩).table
      = [(LockDataId.ofTable 5, [⟨1, LockMode.EXLUCSIVE⟩])] := by
  decide

/-! ## Theorems: what a heap update records -/

section HeapUpdateRecords
open RmFileHandle

theorem LogManager.records_add_record (lm : LogManager) (r : LogRecord) :
    (lm.add_record r).records = lm.records ++ [{ r with lsn_ := lm.global_lsn_ }] := by
  unfold LogManager.add_record LogManager.add_log_to_buffer LogManager.records
  simp only
  split
  · simp [LogManager.flush_log_to_disk]
  · simp

/-- The first overload: a successful update grows the write set by one
UPDATE entry with the old bytes of the slot and the log by one UPDATE
record with the new and the old bytes. -/
theorem update_record_ctx_records {f f1 : RmFileHandle} {tab : String} {rid : Rid}
    {buf : List Nat} {ctx ctx1 : Context}
    (h : f.update_record_ctx tab rid buf ctx = Except.ok (f1, ctx1)) :
    ctx1.txn_.write_set = ctx.txn_.write_set ++
      [⟨WType.UPDATE_TUPLE, tab, rid, f.bytes rid⟩] ∧
    ctx1.log_mgr_.records = ctx.log_mgr_.records ++
      [{ UpdateLogRecord ctx.txn_.txn_id (buf.take f.file_hdr_.record_size) (f.bytes rid) rid tab
          with lsn_ := ctx.log_mgr_.global_lsn_ }] := by
  unfold update_record_ctx at h
  split at h
  · simp at h
  · rename_i p hp
    split at h
    · split at h
      · simp at h
      · rename_i ctxA hA
        simp only at h
        split at h
        · simp at h
        · rename_i ctxB hB
          simp only [Except.ok.injEq, Prod.mk.injEq] at h
          obtain ⟨_, hctx⟩ := h
          have a := withLock_run (c := LockCall.shared_on_record rid f.fd_) hA
          have b := withLock_run (c := LockCall.exclusive_on_record rid f.fd_) hB
          obtain ⟨_, a2, _⟩ := withLock_ok hA
          obtain ⟨_, b2, _⟩ := withLock_ok hB
          have hbytes : f.bytes rid = p.get_slot rid.slot_no := bytes_eq hp
          rw [← hctx]
          constructor
          · show (append_write_record ctxB.txn_ _).write_set = _
            unfold append_write_record
            simp only
            rw [b.1, a.1, hbytes]
          · show (LogManager.add_update_log_record ctxB.log_mgr_ _ _ _ _ _).records = _
            unfold LogManager.add_update_log_record
            have htid : ∀ w, (append_write_record ctxB.txn_ w).txn_id = ctx.txn_.txn_id := by
              intro w
              unfold append_write_record
              simp only
              rw [b.2.1, a.2.1]
            rw [LogManager.records_add_record, b2, a2, hbytes, htid]
    · simp at h

/-- The second overload without `is_add_lock`: a successful update grows the
write set by one UPDATE entry and leaves the log manager as it was. -/
theorem update_record_is_add_lock_false {f f1 : RmFileHandle} {tab : String} {rid : Rid}
    {buf : List Nat} {ctx ctx1 : Context}
    (h : f.update_record_is_add_lock tab rid buf false ctx = Except.ok (f1, ctx1)) :
    ctx1.txn_.write_set = ctx.txn_.write_set ++
      [⟨WType.UPDATE_TUPLE, tab, rid, f.bytes rid⟩] ∧
    ctx1.log_mgr_ = ctx.log_mgr_ := by
  unfold update_record_is_add_lock at h
  split at h
  · simp at h
  · rename_i p hp
    split at h
    · split at h
      · simp at h
      · rename_i ctxA hA
        simp only [Bool.false_eq_true, if_false] at h
        simp only [Except.ok.injEq, Prod.mk.injEq] at h
        obtain ⟨_, hctx⟩ := h
        have a := withLock_run (c := LockCall.shared_on_record rid f.fd_) hA
        obtain ⟨_, a2, _⟩ := withLock_ok hA
        have hbytes : f.bytes rid = p.get_slot rid.slot_no := bytes_eq hp
        rw [← hctx]
        constructor
        · show (append_write_record ctxA.txn_ _).write_set = _
          unfold append_write_record
          simp only
          rw [a.1, hbytes]
        · exact a2
    · simp at h

/-- C20 fails for `is_add_lock = false`: transaction 1 updates the row at
rid (1,0) of the example file from `[2,0,0,0]` to `[12,0,0,0]` through
`update_record(rid, buf, false, context)`.  The call succeeds, the slot
holds the new bytes and the write set has the UPDATE entry with the old
bytes, but the log holds the BEGIN record only; the same update through
`update_record(rid, buf, context)` appends the UPDATE record, and so does
the delete of the row through `delete_record(rid, false, context)` append
its DELETE record. -/
theorem update_without_log_record :
    (match exampleFile.update_record_is_add_lock "t" ⟨1, 0⟩ [12, 0, 0, 0] false exampleContext with
      | Except.ok (f1, ctx1) =>
        some (f1.bytes ⟨1, 0⟩, ctx1.txn_.write_set, ctx1.log_mgr_.records)
      | Except.error _ => none)
      = some ([12, 0, 0, 0], [⟨WType.UPDATE_TUPLE, "t", ⟨1, 0⟩, [2, 0, 0, 0]⟩],
          [{ BeginLogRecord 1 with lsn_ := 0 }]) ∧
    (match exampleFile.update_record_ctx "t" ⟨1, 0⟩ [12, 0, 0, 0] exampleContext with
      | Except.ok (_, ctx1) => some ctx1.log_mgr_.records
      | Except.error _ => none)
      = some [{ BeginLogRecord 1 with lsn_ := 0 },
          { UpdateLogRecord 1 [12, 0, 0, 0] [2, 0, 0, 0] ⟨1, 0⟩ "t" with lsn_ := 1 }] ∧
    (match exampleFile.delete_record_is_add_lock "t" ⟨1, 0⟩ false exampleContext with
      | Except.ok (_, ctx1) => some ctx1.log_mgr_.records
      | Except.error _ => none)
      = some [{ BeginLogRecord 1 with lsn_ := 0 },
          { DeleteLogRecord 1 [2, 0, 0, 0] ⟨1, 0⟩ "t" with lsn_ := 1 }] := by
  decide!

end HeapUpdateRecords

/-! ## Theorems: insertion into a heap file -/

section HeapInsert
open RmFileHandle

/-- The first clear bit: the bits below it are set. -/
theorem first_free_least (p : RmPage) (n i : Nat) (hi : i < p.first_free n) :
    p.bitmap.getD i false = true := by
  unfold RmPage.first_free at hi
  split at hi
  · rename_i j hj
    rw [List.find?_range_eq_some] at hj
    have := hj.2.2 i hi
    simpa using this
  · rename_i hnone
    rw [List.find?_range_eq_none] at hnone
    have := hnone i hi
    simpa using this

namespace RmFileHandle

/-- The page that `create_page_handle` hands out under the hypotheses of
the claim: the first page of the hint set, or a new blank page. -/
theorem create_page_handle_spec (f : RmFileHandle) (hsz : f.Sized) (hh : f.HintsFree) :
    ∃ pn fA p0, f.create_page_handle = Except.ok (pn, fA) ∧
      fA.fetch_page_handle pn = Except.ok p0 ∧ false ∈ p0.bitmap ∧
      p0.bitmap.length = f.file_hdr_.num_records_per_page ∧
      p0.slots.length = f.file_hdr_.num_records_per_page ∧
      fA.file_hdr_.record_size = f.file_hdr_.record_size ∧
      fA.file_hdr_.num_records_per_page = f.file_hdr_.num_records_per_page ∧ fA.fd_ = f.fd_ ∧
      (∀ pn', pn' ≠ pn → fA.fetch_page_handle pn' = f.fetch_page_handle pn') ∧
      (∀ s, f.occupied ⟨pn, s⟩ = p0.is_set s) ∧ f.numRecordsAt pn = p0.num_records ∧
      (∀ s, f.slotExists ⟨pn, s⟩ → f.bytes ⟨pn, s⟩ = p0.get_slot s) ∧
      pn = (match f.free_pageno_set with
            | [] => (f.pages.length : Int)
            | p :: _ => p) := by
  unfold create_page_handle
  cases hhint : f.free_pageno_set with
  | nil =>
    have hfetch : ∀ pn', (f.create_new_page_handle).2.fetch_page_handle pn' =
        if pn' = (f.pages.length : Int) then Except.ok (blankPage f.file_hdr_)
        else f.fetch_page_handle pn' := by
      intro pn'
      unfold create_new_page_handle fetch_page_handle
      by_cases hneg : pn' < 0
      · simp only [hneg, if_true]
        rw [if_neg (by omega)]
      · simp only [hneg, if_false]
        by_cases he : pn' = (f.pages.length : Int)
        · have : pn'.toNat = f.pages.length := by omega
          simp [he]
        · rw [if_neg he]
          by_cases hlt : pn'.toNat < f.pages.length
          · simp [List.getElem?_append_left hlt]
          · have hgt : f.pages.length < pn'.toNat := by omega
            have h1 : (f.pages ++ [blankPage f.file_hdr_]).get? pn'.toNat = none := by
              rw [List.get?_eq_none]; simp; omega
            have h2 : f.pages.get? pn'.toNat = none := by
              rw [List.get?_eq_none]; omega
            rw [h1, h2]
    have hnone : f.fetch_page_handle (f.pages.length : Int) = Except.error DbError.PageNotExist := by
      unfold fetch_page_handle
      rw [if_neg (by omega)]
      have : f.pages.get? ((f.pages.length : Int)).toNat = none := by
        rw [List.get?_eq_none]; simp
      rw [this]
    have hfetchA : ∀ pn', ((f.create_new_page_handle).2.hint_insert
        (f.create_new_page_handle).1).fetch_page_handle pn' =
        if pn' = (f.pages.length : Int) then Except.ok (blankPage f.file_hdr_)
        else f.fetch_page_handle pn' := by
      intro pn'
      rw [fetch_hint_insert]; exact hfetch pn'
    refine ⟨(f.create_new_page_handle).1, (f.create_new_page_handle).2.hint_insert
      (f.create_new_page_handle).1, blankPage f.file_hdr_, rfl, ?_, ?_, ?_, ?_, ?_, ?_, ?_,
      ?_, ?_, ?_, ?_, rfl⟩
    · rw [hfetchA]
      exact if_pos rfl
    · unfold blankPage
      simp only [List.mem_replicate]
      have := hsz.1
      simp
      omega
    · simp [blankPage]
    · simp [blankPage]
    · rw [hdr_hint_insert]; rfl
    · rw [hdr_hint_insert]; rfl
    · unfold hint_insert; split <;> rfl
    · intro pn' hne
      rw [hfetchA]
      exact if_neg hne
    · intro s
      show f.occupied ⟨(f.pages.length : Int), s⟩ = _
      unfold occupied
      simp only [hnone]
      rw [blankPage_is_set]
    · show f.numRecordsAt (f.pages.length : Int) = _
      unfold numRecordsAt
      rw [hnone]
      rfl
    · intro s hex
      obtain ⟨q, hq, _⟩ := hex
      have hq' : f.fetch_page_handle (f.pages.length : Int) = Except.ok q := hq
      rw [hnone] at hq'
      cases hq'
  | cons p rest =>
    obtain ⟨p0, hp0, hfalse⟩ := hh p (by rw [hhint]; exact List.mem_cons_self _ _)
    simp only [hp0]
    have hmem : p0 ∈ f.pages := by
      rw [fetch_ok_iff] at hp0
      exact List.get?_mem hp0.2
    refine ⟨p, f, p0, rfl, hp0, hfalse, (hsz.2 p0 hmem).1, (hsz.2 p0 hmem).2, rfl, rfl, rfl,
      fun _ _ => rfl, ?_, ?_, ?_, rfl⟩
    · intro s
      exact @occupied_eq f ⟨p, s⟩ p0 hp0
    · unfold numRecordsAt
      rw [hp0]
    · intro s _
      exact @bytes_eq f ⟨p, s⟩ p0 hp0

end RmFileHandle

/-- A request for the exclusive lock on a record is granted to a
transaction that is not SHRINKING when no other transaction holds a
conflicting request. -/
theorem lock_exclusive_on_record_granted (lt : LockTable) (txn : Transaction) (rid : Rid)
    (fd : Int) (hs : txn.state ≠ TransactionState.SHRINKING)
    (hc : ¬ ConflictsWithOther lt (LockDataId.ofRecord fd rid) txn.txn_id LockMode.EXLUCSIVE) :
    ∃ b, (lock_exclusive_on_record lt txn rid fd).result = Except.ok b := by
  cases hres : (lock_exclusive_on_record lt txn rid fd).result with
  | ok b => exact ⟨b, rfl⟩
  | error e =>
    exfalso
    obtain ⟨conflicts, upgrade, R, hrun⟩ := (LockCall.exclusive_on_record rid fd).run_eq lt txn
    have hrun' : lock_exclusive_on_record lt txn rid fd =
        lockWith conflicts upgrade LockMode.EXLUCSIVE lt txn (LockDataId.ofRecord fd rid) := hrun
    rw [hrun'] at hres
    rcases lockWith_error R lt txn e hres with h | h
    · exact hs h.1
    · exact hc h.2.2

/-- C18: in a heap file whose pages are laid out by the file header and
whose hint set names only pages with a clear bitmap bit, `insert_record`
under a transaction that is granted the record lock returns a Rid on the
first page of the hint set (on a new page if the set is empty) whose slot
was free, with every lower slot of the page occupied.  Afterwards the slot
is occupied, `get_record` of the Rid returns the first `record_size` bytes
of `buf`, `num_records` of the page has grown by one, every other slot has
the occupancy it had, and every other slot the file had holds the bytes it
held. -/
theorem insert_record_first_free_slot (f : RmFileHandle) (tab : String) (buf : List Nat)
    (ctx : Context) (hsz : f.Sized) (hh : f.HintsFree)
    (hs : ctx.txn_.state ≠ TransactionState.SHRINKING)
    (hc : ∀ rid, ¬ ConflictsWithOther ctx.lock_table_ (LockDataId.ofRecord f.fd_ rid)
      ctx.txn_.txn_id LockMode.EXLUCSIVE) :
    ∃ rid f1 ctx1, f.insert_record tab buf ctx = Except.ok (rid, f1, ctx1) ∧
      rid.page_no = (match f.free_pageno_set with
        | [] => (f.pages.length : Int)
        | p :: _ => p) ∧
      0 ≤ rid.slot_no ∧ rid.slot_no < f.file_hdr_.num_records_per_page ∧
      f.occupied rid = false ∧
      (∀ s, 0 ≤ s → s < rid.slot_no → f.occupied ⟨rid.page_no, s⟩ = true) ∧
      f1.occupied rid = true ∧
      f1.get_record rid = Except.ok (buf.take f.file_hdr_.record_size) ∧
      f1.numRecordsAt rid.page_no = f.numRecordsAt rid.page_no + 1 ∧
      (∀ r, r ≠ rid → f1.occupied r = f.occupied r) ∧
      (∀ r, r ≠ rid → f.slotExists r → f1.bytes r = f.bytes r) := by
  obtain ⟨pn, fA, p0, hcreate, hp0, hfalse, hbl, hsl, hrs, hnpp, hfd, hother, hocc, hnum, hby, hpn⟩ :=
    f.create_page_handle_spec hsz hh
  have hff := first_free_spec p0 fA.file_hdr_.num_records_per_page (by rw [hnpp]; exact hbl) hfalse
  obtain ⟨b, hb⟩ := lock_exclusive_on_record_granted ctx.lock_table_ ctx.txn_
    ⟨pn, (p0.first_free fA.file_hdr_.num_records_per_page : Int)⟩ fA.fd_ hs
    (by rw [hfd]; exact hc _)
  -- the page after the insertion
  let sl : Int := (p0.first_free fA.file_hdr_.num_records_per_page : Int)
  let p2 : RmPage :=
    { (p0.set_slot sl (buf.take fA.file_hdr_.record_size)).set_bit sl true with
      num_records := ((p0.set_slot sl (buf.take fA.file_hdr_.record_size)).set_bit sl
        true).num_records + 1 }
  have hsl0 : (0 : Int) ≤ sl := Int.ofNat_nonneg _
  have hslt : sl.toNat < f.file_hdr_.num_records_per_page := by
    show ((p0.first_free fA.file_hdr_.num_records_per_page : Nat) : Int).toNat < _
    rw [Int.toNat_ofNat, ← hnpp]; exact hff.1
  have hp2set : ∀ s, p2.is_set s = if s = sl then true else p0.is_set s := by
    intro s
    show ((p0.set_slot sl _).set_bit sl true).is_set s = _
    rw [RmPage.is_set_set_bit, RmPage.bitmap_set_slot, RmPage.is_set_set_slot]
    by_cases e : s = sl
    · rw [if_pos ⟨hsl0, e, by rw [hbl]; exact hslt⟩, if_pos e]
    · rw [if_neg (fun h => e h.2.1), if_neg e]
  have hp2slot : ∀ s, p2.get_slot s =
      if s = sl then buf.take fA.file_hdr_.record_size else p0.get_slot s := by
    intro s
    show ((p0.set_slot sl _).set_bit sl true).get_slot s = _
    rw [RmPage.get_slot_set_bit, RmPage.get_slot_set_slot]
    by_cases e : s = sl
    · rw [if_pos ⟨hsl0, e, by rw [hsl]; exact hslt⟩, if_pos e]
    · rw [if_neg (fun h => e h.2.1), if_neg e]
  have hp2num : p2.num_records = p0.num_records + 1 := by
    show ((p0.set_slot sl _).set_bit sl true).num_records + 1 = _
    unfold RmPage.set_bit RmPage.set_slot
    rw [if_neg (by omega), if_neg (by omega)]
  -- the run
  have hrun : ∃ f1 ctx1, f.insert_record tab buf ctx = Except.ok (⟨pn, sl⟩, f1, ctx1) ∧
      ∀ pn', f1.fetch_page_handle pn' =
        if pn' = pn then Except.ok p2 else fA.fetch_page_handle pn' := by
    unfold insert_record
    rw [hcreate]
    simp only [hp0]
    unfold withLock
    rw [hb]
    simp only
    refine ⟨_, _, rfl, ?_⟩
    intro pn'
    split
    · rw [fetch_hint_erase, fetch_store_page _ _ _ _ _ hp0]
    · rw [fetch_store_page _ _ _ _ _ hp0]
  obtain ⟨f1, ctx1, hins, hf1⟩ := hrun
  have hfetch1 : f1.fetch_page_handle pn = Except.ok p2 := by rw [hf1, if_pos rfl]
  have hfree : p0.is_set sl = false := by
    unfold RmPage.is_set
    rw [if_neg (by omega)]
    show p0.bitmap.getD ((p0.first_free fA.file_hdr_.num_records_per_page : Nat) : Int).toNat
      false = false
    rw [Int.toNat_ofNat]; exact hff.2
  refine ⟨⟨pn, sl⟩, f1, ctx1, hins, hpn, hsl0, ?_, ?_, ?_, ?_, ?_, ?_, ?_, ?_⟩
  · show sl < _
    omega
  · rw [hocc]; exact hfree
  · intro s h0 hlt
    rw [hocc]
    unfold RmPage.is_set
    rw [if_neg (by omega)]
    apply first_free_least p0 fA.file_hdr_.num_records_per_page
    show s.toNat < p0.first_free fA.file_hdr_.num_records_per_page
    have : s < ((p0.first_free fA.file_hdr_.num_records_per_page : Nat) : Int) := hlt
    omega
  · rw [@occupied_eq f1 ⟨pn, sl⟩ p2 hfetch1, hp2set, if_pos rfl]
  · unfold get_record
    simp only [hfetch1]
    rw [hp2slot, if_pos rfl, hrs]
  · have e1 : f1.numRecordsAt pn = p2.num_records := by
      unfold numRecordsAt; rw [hfetch1]
    show f1.numRecordsAt pn = f.numRecordsAt pn + 1
    rw [e1, hp2num, hnum]
  · intro r hr
    by_cases hpg : r.page_no = pn
    · have e1 : f1.fetch_page_handle r.page_no = Except.ok p2 := by rw [hpg]; exact hfetch1
      rw [occupied_eq e1, hp2set]
      have hne : r.slot_no ≠ sl := by
        intro h
        apply hr
        cases r
        simp only at hpg h
        rw [hpg, h]
      rw [if_neg hne]
      have := hocc r.slot_no
      rw [← this]
      cases r
      simp only at hpg
      rw [hpg]
    · unfold occupied
      rw [hf1, if_neg hpg, hother _ hpg]
  · intro r hr hex
    by_cases hpg : r.page_no = pn
    · have e1 : f1.fetch_page_handle r.page_no = Except.ok p2 := by rw [hpg]; exact hfetch1
      rw [bytes_eq e1, hp2slot]
      have hne : r.slot_no ≠ sl := by
        intro h
        apply hr
        cases r
        simp only at hpg h
        rw [hpg, h]
      rw [if_neg hne]
      have hr' : r = ⟨pn, r.slot_no⟩ := by
        cases r
        simp only at hpg
        rw [hpg]
      rw [hr'] at hex ⊢
      exact (hby _ hex).symm
    · unfold bytes
      rw [hf1, if_neg hpg, hother _ hpg]

/-- Witness for C18: the example file has the row `[2,0,0,0]` at rid (1,0)
and page 1 in its hint set; the insertion goes to rid (1,1). -/
theorem insert_record_first_free_slot_witness :
    ∃ rid f1 ctx1, exampleFile.insert_record "t" [7, 0, 0, 0] exampleContext =
        Except.ok (rid, f1, ctx1) ∧
      rid.page_no = 1 ∧ f1.get_record rid = Except.ok [7, 0, 0, 0] ∧
      f1.numRecordsAt rid.page_no = exampleFile.numRecordsAt rid.page_no + 1 := by
  obtain ⟨rid, f1, ctx1, h1, h2, _, _, _, _, _, h8, h9, _⟩ :=
    insert_record_first_free_slot exampleFile "t" [7, 0, 0, 0] exampleContext
      ⟨by decide, by decide⟩
      (by
        intro pn hpn
        have : pn = 1 := by simpa [exampleFile] using hpn
        subst this
        exact ⟨_, rfl, by decide⟩)
      (by decide)
      (by
        rintro rid ⟨q, r, hfind, _⟩
        simp [exampleContext, LockTable.find] at hfind)
  exact ⟨rid, f1, ctx1, h1, h2, h8, h9⟩

end HeapInsert

/-! ## Theorems: the heap scan -/

section HeapScan
open RmFileHandle

theorem find?_congr_mem {α : Type} {l : List α} {p q : α → Bool}
    (h : ∀ x ∈ l, p x = q x) : l.find? p = l.find? q := by
  induction l with
  | nil => rfl
  | cons a t ih =>
    rw [List.find?_cons, List.find?_cons, h a (List.mem_cons_self _ _),
      ih (fun x hx => h x (List.mem_cons_of_mem _ hx))]

theorem findSome?_congr_mem {α β : Type} {l : List α} {f g : α → Option β}
    (h : ∀ x ∈ l, f x = g x) : l.findSome? f = l.findSome? g := by
  induction l with
  | nil => rfl
  | cons a t ih =>
    rw [List.findSome?_cons, List.findSome?_cons, h a (List.mem_cons_self _ _),
      ih (fun x hx => h x (List.mem_cons_of_mem _ hx))]

theorem find?_all_true {α : Type} {l : List α} {p : α → Bool} (h : ∀ x ∈ l, p x = true) :
    l.find? p = l.head? := by
  cases l with
  | nil => rfl
  | cons a t => simp [List.find?_cons, h a (List.mem_cons_self _ _)]

theorem find?_all_false {α : Type} {l : List α} {p : α → Bool} (h : ∀ x ∈ l, p x = false) :
    l.find? p = none := by
  rw [List.find?_eq_none]
  intro x hx
  rw [h x hx]
  simp

theorem length_flatMap_le {α β : Type} (l : List α) (f : α → List β) (n : Nat)
    (h : ∀ x ∈ l, (f x).length ≤ n) : (l.flatMap f).length ≤ l.length * n := by
  induction l with
  | nil => simp
  | cons a t ih =>
    rw [List.flatMap_cons, List.length_append, List.length_cons, Nat.succ_mul]
    have := h a (List.mem_cons_self _ _)
    have := ih (fun x hx => h x (List.mem_cons_of_mem _ hx))
    omega

theorem mem_pageRange {lo hi q : Int} : q ∈ pageRange lo hi ↔ lo ≤ q ∧ q < hi := by
  unfold pageRange
  simp only [List.mem_map, List.mem_range]
  constructor
  · rintro ⟨i, hi', rfl⟩
    omega
  · rintro ⟨h1, h2⟩
    exact ⟨(q - lo).toNat, by omega, by omega⟩

theorem pageRange_nil {lo hi : Int} (h : hi ≤ lo) : pageRange lo hi = [] := by
  unfold pageRange
  have : (hi - lo).toNat = 0 := by omega
  rw [this]; rfl

theorem pageRange_cons {lo hi : Int} (h : lo < hi) :
    pageRange lo hi = lo :: pageRange (lo + 1) hi := by
  unfold pageRange
  have : (hi - lo).toNat = (hi - (lo + 1)).toNat + 1 := by omega
  rw [this, List.range_succ_eq_map, List.map_cons, List.map_map]
  congr 1
  · simp
  · apply List.map_congr_left
    intro i _
    simp only [Function.comp, Nat.succ_eq_add_one, Nat.cast_add, Nat.cast_one]
    omega

theorem length_pageRange (lo hi : Int) : (pageRange lo hi).length = (hi - lo).toNat := by
  unfold pageRange; simp

theorem pageRange_pairwise (lo hi : Int) : (pageRange lo hi).Pairwise (· < ·) := by
  unfold pageRange
  rw [List.pairwise_map]
  refine List.Pairwise.imp ?_ (List.pairwise_lt_range _)
  intro a b hab
  omega

theorem Rid.lt_irrefl (a : Rid) : ¬ Rid.lt a a := by
  unfold Rid.lt; omega

theorem Rid.lt_asymm {a b : Rid} (h : Rid.lt a b) : ¬ Rid.lt b a := by
  unfold Rid.lt at h ⊢; omega

theorem Rid.lt_trans {a b c : Rid} (h : Rid.lt a b) (h' : Rid.lt b c) : Rid.lt a c := by
  unfold Rid.lt at h h' ⊢; omega

namespace RmPage

theorem mem_setSlots {p : RmPage} {n s : Nat} :
    s ∈ p.setSlots n ↔ s < n ∧ p.bitmap.getD s false = true := by
  unfold setSlots
  simp only [List.mem_filter, List.mem_range]

theorem setSlots_pairwise (p : RmPage) (n : Nat) : (p.setSlots n).Pairwise (· < ·) :=
  List.Pairwise.filter _ (List.pairwise_lt_range n)

theorem length_setSlots (p : RmPage) (n : Nat) : (p.setSlots n).length ≤ n := by
  unfold setSlots
  have := List.length_filter_le (fun s => p.bitmap.getD s false) (List.range n)
  simpa using this

/-- `next_bit` finds the first occupied slot after `curr`. -/
theorem next_bit_spec (p : RmPage) (n : Nat) (curr : Int) :
    (p.setSlots n).find? (fun (s : Nat) => decide (curr < (s : Int))) =
      if p.next_bit n curr = n then none else some (p.next_bit n curr) := by
  unfold setSlots next_bit
  rw [List.find?_filter]
  have e : (fun (a : Nat) => decide (p.bitmap.getD a false = true ∧
      decide (curr < (a : Int)) = true)) =
      (fun (i : Nat) => decide (curr < (i : Int)) && p.bitmap.getD i false) := by
    funext a
    by_cases h1 : curr < (a : Int) <;> by_cases h2 : p.bitmap.getD a false = true <;>
      simp [h1, h2]
  rw [e]
  cases hf : (List.range n).find?
      (fun (i : Nat) => decide (curr < (i : Int)) && p.bitmap.getD i false) with
  | none => simp
  | some i =>
    have := List.mem_of_find?_eq_some hf
    rw [List.mem_range] at this
    simp only
    rw [if_neg (by omega)]

end RmPage

namespace RmFileHandle

theorem pageRids_ok {fh : RmFileHandle} {pn : Int} {p : RmPage}
    (h : fh.fetch_page_handle pn = Except.ok p) :
    fh.pageRids pn = (p.setSlots fh.file_hdr_.num_records_per_page).map
      (fun (s : Nat) => (⟨pn, (s : Int)⟩ : Rid)) := by
  unfold pageRids; rw [h]

theorem mem_pageRids {fh : RmFileHandle} {pn : Int} {r : Rid} :
    r ∈ fh.pageRids pn ↔ r.page_no = pn ∧ 0 ≤ r.slot_no ∧
      r.slot_no < fh.file_hdr_.num_records_per_page ∧ fh.occupied r = true := by
  unfold pageRids
  cases hp : fh.fetch_page_handle pn with
  | error e =>
    simp only [List.not_mem_nil, false_iff]
    rintro ⟨h1, _, _, h4⟩
    unfold occupied at h4
    rw [h1, hp] at h4
    simp at h4
  | ok p =>
    simp only [List.mem_map, RmPage.mem_setSlots]
    constructor
    · rintro ⟨s, ⟨h1, h2⟩, rfl⟩
      refine ⟨rfl, by simp, by simpa using h1, ?_⟩
      unfold occupied
      simp only [hp]
      unfold RmPage.is_set
      rw [if_neg (by simp)]
      simpa using h2
    · rintro ⟨h1, h2, h3, h4⟩
      unfold occupied at h4
      rw [h1, hp] at h4
      simp only at h4
      unfold RmPage.is_set at h4
      rw [if_neg (by omega)] at h4
      refine ⟨r.slot_no.toNat, ⟨by omega, h4⟩, ?_⟩
      cases r
      simp only at h1 h2 ⊢
      rw [h1]
      congr 1
      omega

theorem pageRids_pairwise (fh : RmFileHandle) (pn : Int) : (fh.pageRids pn).Pairwise Rid.lt := by
  unfold pageRids
  split
  · rw [List.pairwise_map]
    refine List.Pairwise.imp ?_ (RmPage.setSlots_pairwise _ _)
    intro a b hab
    unfold Rid.lt
    right
    exact ⟨rfl, by simpa using hab⟩
  · exact List.Pairwise.nil

theorem length_pageRids (fh : RmFileHandle) (pn : Int) :
    (fh.pageRids pn).length ≤ fh.file_hdr_.num_records_per_page := by
  unfold pageRids
  split
  · rw [List.length_map]; exact RmPage.length_setSlots _ _
  · simp

/-- The first Rid of a page after slot `tmp`, as the scan computes it. -/
theorem pageRids_find {fh : RmFileHandle} {pn : Int} {p : RmPage}
    (h : fh.fetch_page_handle pn = Except.ok p) (tmp : Int) :
    (fh.pageRids pn).find? (fun x => decide (tmp < x.slot_no)) =
      if p.next_bit fh.file_hdr_.num_records_per_page tmp = fh.file_hdr_.num_records_per_page
      then none
      else some ⟨pn, (p.next_bit fh.file_hdr_.num_records_per_page tmp : Int)⟩ := by
  rw [pageRids_ok h, List.find?_map]
  have e : ((fun (x : Rid) => decide (tmp < x.slot_no)) ∘ fun (s : Nat) => (⟨pn, (s : Int)⟩ : Rid))
      = fun (s : Nat) => decide (tmp < (s : Int)) := rfl
  rw [e, RmPage.next_bit_spec]
  split <;> rfl

/-- Membership in the list of occupied Rids. -/
theorem mem_occupiedRids {fh : RmFileHandle} {r : Rid} :
    r ∈ fh.occupiedRids ↔ 1 ≤ r.page_no ∧ r.page_no < fh.file_hdr_.num_pages ∧
      0 ≤ r.slot_no ∧ r.slot_no < fh.file_hdr_.num_records_per_page ∧ fh.occupied r = true := by
  unfold occupiedRids
  rw [List.mem_flatMap]
  constructor
  · rintro ⟨pn, hpn, hr⟩
    rw [mem_pageRange] at hpn
    rw [mem_pageRids] at hr
    obtain ⟨h1, h2, h3, h4⟩ := hr
    rw [h1]
    exact ⟨hpn.1, hpn.2, h2, h3, h4⟩
  · rintro ⟨h1, h2, h3, h4, h5⟩
    exact ⟨r.page_no, mem_pageRange.2 ⟨h1, h2⟩, mem_pageRids.2 ⟨rfl, h3, h4, h5⟩⟩

/-- The list of occupied Rids increases strictly. -/
theorem occupiedRids_pairwise (fh : RmFileHandle) : fh.occupiedRids.Pairwise Rid.lt := by
  unfold occupiedRids
  rw [List.pairwise_flatMap]
  refine ⟨fun pn _ => pageRids_pairwise fh pn, ?_⟩
  refine List.Pairwise.imp ?_ (pageRange_pairwise _ _)
  intro a b hab x hx y hy
  rw [mem_pageRids] at hx hy
  unfold Rid.lt
  left
  rw [hx.1, hy.1]; exact hab

theorem length_occupiedRids (fh : RmFileHandle) :
    fh.occupiedRids.length ≤ fh.file_hdr_.num_pages * fh.file_hdr_.num_records_per_page := by
  unfold occupiedRids
  have h := length_flatMap_le (pageRange 1 fh.file_hdr_.num_pages) fh.pageRids
    fh.file_hdr_.num_records_per_page (fun x _ => length_pageRids fh x)
  rw [length_pageRange] at h
  have : ((fh.file_hdr_.num_pages : Int) - 1).toNat ≤ fh.file_hdr_.num_pages := by omega
  exact le_trans h (Nat.mul_le_mul_right _ this)

end RmFileHandle

namespace RmScan

/-- What the loop over the pages returns. -/
theorem scan_loop_spec (fh : RmFileHandle) :
    ∀ (L : List Int) (tmp : Int), (∀ q ∈ L, ∃ p, fh.fetch_page_handle q = Except.ok p) →
      scan_loop fh L tmp = Except.ok
        (match L with
         | [] => none
         | q :: rest =>
           ((fh.pageRids q).find? (fun x => decide (tmp < x.slot_no))).or
             (rest.findSome? (fun q' => (fh.pageRids q').find?
               (fun x => decide ((-1 : Int) < x.slot_no))))) := by
  intro L
  induction L with
  | nil => intro tmp _; rfl
  | cons q rest ih =>
    intro tmp hex
    obtain ⟨p, hp⟩ := hex q (List.mem_cons_self _ _)
    unfold scan_loop
    simp only [hp]
    rw [pageRids_find hp]
    by_cases hn : p.next_bit fh.file_hdr_.num_records_per_page tmp =
        fh.file_hdr_.num_records_per_page
    · rw [if_pos hn, if_pos hn, ih (-1) (fun x hx => hex x (List.mem_cons_of_mem _ hx))]
      cases rest with
      | nil => rfl
      | cons q' rest' =>
        simp only [Option.none_or, List.findSome?_cons]
        cases (fh.pageRids q').find? (fun x => decide ((-1 : Int) < x.slot_no)) <;> rfl
    · rw [if_neg hn, if_neg hn]
      rfl

/-- On the pages from `pn` on, the loop returns the first occupied Rid after
`(pn, tmp)`. -/
theorem scan_loop_succ (fh : RmFileHandle)
    (hpages : fh.file_hdr_.num_pages ≤ fh.pages.length) (d : Nat) :
    ∀ (lo : Int) (r : Rid), 1 ≤ lo → lo ≤ r.page_no → (r.page_no - lo).toNat = d →
      ((pageRange lo fh.file_hdr_.num_pages).flatMap fh.pageRids).find?
          (fun x => decide (Rid.lt r x)) =
        (match scan_loop fh (pageRange r.page_no fh.file_hdr_.num_pages) r.slot_no with
         | Except.ok o => o
         | Except.error _ => none) := by
  have hex : ∀ lo : Int, 1 ≤ lo → ∀ q ∈ pageRange lo fh.file_hdr_.num_pages,
      ∃ p, fh.fetch_page_handle q = Except.ok p := by
    intro lo hlo q hq
    rw [mem_pageRange] at hq
    have hlt : q.toNat < fh.pages.length := by omega
    exact ⟨fh.pages[q.toNat], (fetch_ok_iff fh q _).2 ⟨by omega, by
      rw [List.get?_eq_getElem?, List.getElem?_eq_getElem hlt]⟩⟩
  induction d with
  | zero =>
    intro lo r hlo hle hd
    have e : lo = r.page_no := by omega
    subst e
    rw [scan_loop_spec fh _ _ (hex _ hlo)]
    simp only
    by_cases hlt : r.page_no < fh.file_hdr_.num_pages
    · rw [pageRange_cons hlt, List.flatMap_cons, List.find?_append, List.find?_flatMap]
      congr 1
      · apply find?_congr_mem
        intro x hx
        rw [mem_pageRids] at hx
        unfold Rid.lt
        exact decide_eq_decide.2 (by have := hx.1; constructor <;> intro h <;> omega)
      · apply findSome?_congr_mem
        intro q hq
        rw [mem_pageRange] at hq
        apply find?_congr_mem
        intro x hx
        rw [mem_pageRids] at hx
        unfold Rid.lt
        exact decide_eq_decide.2 (by
          have := hx.1
          have := hx.2.1
          constructor <;> intro h <;> omega)
    · rw [pageRange_nil (by omega)]
      rfl
  | succ d ih =>
    intro lo r hlo hle hd
    have hlt : lo < r.page_no := by omega
    by_cases hhi : lo < fh.file_hdr_.num_pages
    · rw [pageRange_cons hhi, List.flatMap_cons, List.find?_append]
      have : (fh.pageRids lo).find? (fun x => decide (Rid.lt r x)) = none := by
        apply find?_all_false
        intro x hx
        rw [mem_pageRids] at hx
        unfold Rid.lt
        exact decide_eq_false (by have := hx.1; omega)
      rw [this, Option.none_or]
      exact ih (lo + 1) r (by omega) (by omega) (by omega)
    · rw [pageRange_nil (by omega), pageRange_nil (by omega)]
      rfl

/-- The scan loop completes on a file that has the pages it counts. -/
theorem scan_loop_ok (fh : RmFileHandle) (hpages : fh.file_hdr_.num_pages ≤ fh.pages.length)
    (lo tmp : Int) (hlo : 1 ≤ lo) :
    ∃ o, scan_loop fh (pageRange lo fh.file_hdr_.num_pages) tmp = Except.ok o := by
  refine ⟨_, scan_loop_spec fh _ _ ?_⟩
  intro q hq
  rw [mem_pageRange] at hq
  have hlt : q.toNat < fh.pages.length := by omega
  exact ⟨fh.pages[q.toNat], (fetch_ok_iff fh q _).2 ⟨by omega, by
    rw [List.get?_eq_getElem?, List.getElem?_eq_getElem hlt]⟩⟩

/-- `RmScan::RmScan` stops at the first occupied Rid. -/
theorem init_spec (fh : RmFileHandle) (hpages : fh.file_hdr_.num_pages ≤ fh.pages.length) :
    init fh = Except.ok (fh.occupiedRids.head?.getD ⟨INVALID_PAGE_ID, 0⟩) := by
  have h := scan_loop_succ fh hpages 0 1 ⟨1, -1⟩ (le_refl _) (le_refl _) rfl
  have hall : fh.occupiedRids.find? (fun x => decide (Rid.lt ⟨1, -1⟩ x)) = fh.occupiedRids.head? := by
    apply find?_all_true
    intro x hx
    rw [mem_occupiedRids] at hx
    unfold Rid.lt
    simp only [decide_eq_true_eq]
    omega
  unfold occupiedRids at hall
  rw [hall] at h
  obtain ⟨o, ho⟩ := scan_loop_ok fh hpages 1 (-1) (le_refl _)
  rw [ho] at h
  simp only at h
  unfold init
  rw [ho]
  unfold occupiedRids
  rw [h]
  cases o <;> rfl

/-- `RmScan::next` moves to the next occupied Rid. -/
theorem next_spec (fh : RmFileHandle) (hpages : fh.file_hdr_.num_pages ≤ fh.pages.length)
    (r : Rid) (hr : 1 ≤ r.page_no) :
    next fh r = Except.ok ((fh.occupiedRids.find? (fun x => decide (Rid.lt r x))).getD
      { r with page_no := INVALID_PAGE_ID }) := by
  have h := scan_loop_succ fh hpages (r.page_no - 1).toNat 1 r (le_refl _) hr rfl
  obtain ⟨o, ho⟩ := scan_loop_ok fh hpages r.page_no r.slot_no hr
  rw [ho] at h
  simp only at h
  unfold next
  rw [if_neg (by unfold INVALID_PAGE_ID; omega), ho]
  unfold occupiedRids
  rw [h]
  cases o <;> rfl

/-- The successor of an element of a strictly increasing list. -/
theorem find_succ_sorted {E : List Rid} (hs : E.Pairwise Rid.lt) {A B : List Rid} {r : Rid}
    (hE : E = A ++ r :: B) : E.find? (fun x => decide (Rid.lt r x)) = B.head? := by
  subst hE
  rw [List.pairwise_append] at hs
  obtain ⟨_, hrB, hAB⟩ := hs
  rw [List.pairwise_cons] at hrB
  rw [List.find?_append, find?_all_false, Option.none_or, List.find?_cons]
  · have : decide (Rid.lt r r) = false := by simp [Rid.lt_irrefl]
    rw [this]
    simp only
    apply find?_all_true
    intro x hx
    simp [hrB.1 x hx]
  · intro x hx
    have := hAB x hx r (List.mem_cons_self _ _)
    simp [Rid.lt_asymm this]

/-- Driving the scan from an occupied Rid visits the Rids from it on. -/
theorem drive_spec (fh : RmFileHandle) (hpages : fh.file_hdr_.num_pages ≤ fh.pages.length) :
    ∀ (B A : List Rid) (r : Rid) (fuel : Nat), fh.occupiedRids = A ++ r :: B →
      B.length + 2 ≤ fuel → drive fh fuel r = Except.ok (r :: B) := by
  intro B
  induction B with
  | nil =>
    intro A r fuel hE hf
    have hmem : r ∈ fh.occupiedRids := by rw [hE]; simp
    rw [mem_occupiedRids] at hmem
    obtain ⟨f', rfl⟩ : ∃ f', fuel = f' + 2 := ⟨fuel - 2, by simp at hf; omega⟩
    have hnext := next_spec fh hpages r hmem.1
    rw [find_succ_sorted (occupiedRids_pairwise fh) hE] at hnext
    unfold drive
    have he : is_end r = false := by
      unfold is_end INVALID_PAGE_ID
      simp only [beq_eq_false_iff_ne, ne_eq]
      omega
    rw [he]
    simp only [Bool.false_eq_true, if_false, hnext, List.head?_nil, Option.getD_none]
    unfold drive
    have he2 : is_end { r with page_no := INVALID_PAGE_ID } = true := by
      unfold is_end; simp
    rw [he2]
    simp
  | cons b B ih =>
    intro A r fuel hE hf
    have hmem : r ∈ fh.occupiedRids := by rw [hE]; simp
    rw [mem_occupiedRids] at hmem
    obtain ⟨f', rfl⟩ : ∃ f', fuel = f' + 1 := ⟨fuel - 1, by omega⟩
    have hnext := next_spec fh hpages r hmem.1
    rw [find_succ_sorted (occupiedRids_pairwise fh) hE] at hnext
    have hrec := ih (A ++ [r]) b f' (by rw [hE]; simp) (by simp at hf ⊢; omega)
    unfold drive
    have he : is_end r = false := by
      unfold is_end INVALID_PAGE_ID
      simp only [beq_eq_false_iff_ne, ne_eq]
      omega
    rw [he]
    simp only [Bool.false_eq_true, if_false, hnext, List.head?_cons, Option.getD_some, hrec]

end RmScan

/-- C19: on a heap file that has the pages its header counts, an RmScan
driven from construction by `next()` until `is_end()` completes and visits
the list of occupied Rids; that list holds exactly the Rids `(p, s)` with
`1 <= p < num_pages`, `0 <= s < num_records_per_page` and bit `s` of page
`p` set, and it increases strictly in the order by page number and slot
number, so that every such Rid is visited once.  After construction
`is_end()` holds exactly when no slot is occupied. -/
theorem scan_visits_occupied_rids (fh : RmFileHandle)
    (hpages : fh.file_hdr_.num_pages ≤ fh.pages.length) :
    RmScan.run fh = Except.ok fh.occupiedRids ∧
    (∀ r, r ∈ fh.occupiedRids ↔ 1 ≤ r.page_no ∧ r.page_no < fh.file_hdr_.num_pages ∧
      0 ≤ r.slot_no ∧ r.slot_no < fh.file_hdr_.num_records_per_page ∧ fh.occupied r = true) ∧
    fh.occupiedRids.Pairwise Rid.lt ∧
    (∃ rid0, RmScan.init fh = Except.ok rid0 ∧
      (RmScan.is_end rid0 = true ↔ fh.occupiedRids = [])) := by
  have hinit := RmScan.init_spec fh hpages
  refine ⟨?_, fun r => mem_occupiedRids, occupiedRids_pairwise fh, _, hinit, ?_⟩
  · unfold RmScan.run
    rw [hinit]
    simp only
    cases hE : fh.occupiedRids with
    | nil =>
      simp only [List.head?_nil, Option.getD_none]
      unfold RmScan.drive
      have he2 : RmScan.is_end ⟨INVALID_PAGE_ID, 0⟩ = true := by
        unfold RmScan.is_end; simp
      rw [he2]
      simp
    | cons r B =>
      simp only [List.head?_cons, Option.getD_some]
      apply RmScan.drive_spec fh hpages B [] r _ (by rw [hE]; rfl)
      have := length_occupiedRids fh
      rw [hE, List.length_cons] at this
      omega
  · cases hE : fh.occupiedRids with
    | nil =>
      simp only [List.head?_nil, Option.getD_none, iff_true]
      unfold RmScan.is_end; simp
    | cons r B =>
      simp only [List.head?_cons, Option.getD_some]
      have hmem : r ∈ fh.occupiedRids := by rw [hE]; simp
      rw [mem_occupiedRids] at hmem
      constructor
      · intro h
        unfold RmScan.is_end INVALID_PAGE_ID at h
        simp only [beq_iff_eq] at h
        omega
      · intro h; cases h

/-- Witness for C19: the example file holds one record, at rid (1,0); the
scan yields that Rid and ends. -/
theorem scan_visits_occupied_rids_witness :
    RmScan.run exampleFile = Except.ok [⟨1, 0⟩] := by
  have h := (scan_visits_occupied_rids exampleFile (by decide)).1
  rw [h]
  decide

end HeapScan

/-! ## The LRU replacer against its specification -/

theorem oldestHeld_eq_getLast (held : List (Int × Nat))
    (hp : held.Pairwise (fun a b => b.2 < a.2)) : oldestHeld held = held.getLast? := by
  induction held with
  | nil => rfl
  | cons e rest ih =>
    rw [List.pairwise_cons] at hp
    rw [oldestHeld, ih hp.2]
    cases hr : rest.getLast? with
    | none =>
      have : rest = [] := by simpa using hr
      subst this; rfl
    | some m =>
      have hm : m ∈ rest := List.mem_of_getLast?_eq_some hr
      have hlt := hp.1 m hm
      have hne : rest ≠ [] := by intro h; subst h; simp at hr
      simp only []
      rw [if_neg (by omega)]
      obtain ⟨a, t, rfl⟩ := List.exists_cons_of_ne_nil hne
      rw [List.getLast?_cons_cons, hr]

theorem filter_ne_getLast {α : Type} [DecidableEq α] (l : List α) (x : α) (hn : l.Nodup)
    (hl : l.getLast? = some x) : l.filter (fun f => decide (f ≠ x)) = l.dropLast := by
  induction l with
  | nil => simp at hl
  | cons a rest ih =>
    cases rest with
    | nil =>
      simp at hl; subst hl; simp
    | cons b t =>
      rw [List.getLast?_cons_cons] at hl
      rw [List.nodup_cons] at hn
      have hx : x ∈ b :: t := List.mem_of_getLast?_eq_some hl
      have hax : a ≠ x := by intro h; subst h; exact hn.1 hx
      rw [List.filter_cons_of_pos (by simpa using hax), ih hn.2 hl, List.dropLast_cons₂]

theorem map_fst_filter (held : List (Int × Nat)) (p : Int → Bool) :
    (held.filter (fun e => p e.1)).map Prod.fst = (held.map Prod.fst).filter p := by
  induction held with
  | nil => rfl
  | cons e rest ih =>
    simp only [List.filter_cons, List.map_cons]
    split <;> simp [ih]

theorem heldStep_pin (held : List (Int × Nat)) (now : Nat) (f : Int) :
    heldStep held now (ReplacerCall.pin f) = held.filter (fun e => decide (e.1 ≠ f)) := rfl

theorem heldStep_unpin (held : List (Int × Nat)) (now : Nat) (f : Int) :
    heldStep held now (ReplacerCall.unpin f) =
      if held.any (fun e => decide (e.1 = f)) then held else (f, now) :: held := rfl

theorem heldStep_victim (held : List (Int × Nat)) (now : Nat) :
    heldStep held now ReplacerCall.victim =
      match oldestHeld held with
      | none => held
      | some m => held.filter (fun e => decide (e.1 ≠ m.1)) := rfl

theorem erase_eq_filter_ne (l : List Int) (f : Int) (hn : l.Nodup) :
    l.erase f = l.filter (fun g => decide (g ≠ f)) := by
  rw [hn.erase_eq_filter]
  apply List.filter_congr
  intro x _
  by_cases hx : x = f
  · subst hx; simp
  · simp [hx]

theorem LruRel.filter {r : LRUReplacer} {held : List (Int × Nat)} {now : Nat}
    (h : LruRel r held now) (f : Int) :
    LruRel { r with LRUlist_ := r.LRUlist_.filter (fun g => decide (g ≠ f)),
                    LRUhash_ := r.LRUhash_.filter (fun g => decide (g ≠ f)) }
      (held.filter (fun e => decide (e.1 ≠ f))) (now + 1) := by
  obtain ⟨h1, h2, h3, h4, h5⟩ := h
  refine ⟨?_, ?_, ?_, ?_, ?_⟩
  · show r.LRUlist_.filter _ = _
    rw [map_fst_filter held (fun g => decide (g ≠ f)), h1]
  · show r.LRUhash_.filter _ = r.LRUlist_.filter _
    rw [h2]
  · rw [map_fst_filter held (fun g => decide (g ≠ f))]
    exact h3.filter _
  · exact h4.filter _
  · intro e he
    have := h5 e (List.mem_of_mem_filter he)
    omega

theorem LruRel.mono {r : LRUReplacer} {held : List (Int × Nat)} {now : Nat}
    (h : LruRel r held now) : LruRel r held (now + 1) := by
  obtain ⟨h1, h2, h3, h4, h5⟩ := h
  exact ⟨h1, h2, h3, h4, fun e he => by have := h5 e he; omega⟩

theorem LruRel.nodup {r : LRUReplacer} {held : List (Int × Nat)} {now : Nat}
    (h : LruRel r held now) : r.LRUlist_.Nodup := by
  rw [h.1]; exact h.2.2.1

theorem LruRel.mem_iff {r : LRUReplacer} {held : List (Int × Nat)} {now : Nat}
    (h : LruRel r held now) (f : Int) : f ∈ r.LRUlist_ ↔ ∃ t, (f, t) ∈ held := by
  rw [h.1, List.mem_map]
  constructor
  · rintro ⟨⟨g, t⟩, he, rfl⟩; exact ⟨t, he⟩
  · rintro ⟨t, he⟩; exact ⟨(f, t), he, rfl⟩

theorem LruRel.getLast {r : LRUReplacer} {held : List (Int × Nat)} {now : Nat}
    (h : LruRel r held now) : r.LRUlist_.getLast? = (oldestHeld held).map Prod.fst := by
  rw [oldestHeld_eq_getLast held h.2.2.2.1, h.1, List.getLast?_map]

theorem LruRel.victim_fst {r : LRUReplacer} {held : List (Int × Nat)} {now : Nat}
    (h : LruRel r held now) : r.victim.1 = (oldestHeld held).map Prod.fst := by
  rw [← h.getLast]
  unfold LRUReplacer.victim
  cases r.LRUlist_.getLast? <;> rfl

theorem LruRel.victim_snd {r : LRUReplacer} {held : List (Int × Nat)} {now : Nat}
    (h : LruRel r held now) :
    LruRel r.victim.2 (heldStep held now ReplacerCall.victim) (now + 1) := by
  have hl := h.getLast
  rw [heldStep_victim]
  unfold LRUReplacer.victim
  cases ho : oldestHeld held with
  | none =>
    rw [ho] at hl
    simp only [Option.map_none'] at hl
    rw [hl]
    exact h.mono
  | some m =>
    rw [ho] at hl
    simp only [Option.map_some'] at hl
    rw [hl]
    simp only []
    have hf := h.filter m.1
    rw [filter_ne_getLast r.LRUlist_ m.1 h.nodup hl] at hf
    exact hf

theorem LruRel.pin {r : LRUReplacer} {held : List (Int × Nat)} {now : Nat}
    (h : LruRel r held now) (f : Int) :
    LruRel (r.pin f) (heldStep held now (ReplacerCall.pin f)) (now + 1) := by
  rw [heldStep_pin]
  unfold LRUReplacer.pin
  by_cases hf : f ∈ r.LRUhash_
  · rw [if_pos hf]
    have hfl : f ∈ r.LRUlist_ := by rw [← h.2.1]; exact hf
    have hne : r.LRUlist_.isEmpty = false := by
      cases hl : r.LRUlist_ with
      | nil => rw [hl] at hfl; simp at hfl
      | cons a t => rfl
    rw [hne]
    simp only [Bool.false_eq_true, if_false]
    have := h.filter f
    rw [← erase_eq_filter_ne _ f h.nodup] at this
    exact this
  · rw [if_neg hf]
    have hfl : f ∉ held.map Prod.fst := by rw [← h.1, ← h.2.1]; exact hf
    have : held.filter (fun e => decide (e.1 ≠ f)) = held := by
      rw [List.filter_eq_self]
      intro e he
      have : e.1 ≠ f := by
        intro hh; exact hfl (List.mem_map.2 ⟨e, he, hh⟩)
      simpa using this
    rw [this]
    exact h.mono

theorem LruRel.unpin {r : LRUReplacer} {held : List (Int × Nat)} {now : Nat}
    (h : LruRel r held now) (f : Int) :
    LruRel (r.unpin f) (heldStep held now (ReplacerCall.unpin f)) (now + 1) := by
  rw [heldStep_unpin]
  unfold LRUReplacer.unpin
  by_cases hf : f ∈ r.LRUhash_
  · rw [if_pos hf]
    have hfl : f ∈ held.map Prod.fst := by rw [← h.1, ← h.2.1]; exact hf
    obtain ⟨e, he, hef⟩ := List.mem_map.1 hfl
    have : held.any (fun e => decide (e.1 = f)) = true := by
      rw [List.any_eq_true]; exact ⟨e, he, by simpa using hef⟩
    rw [if_pos this]
    exact h.mono
  · rw [if_neg hf]
    have hfl : f ∉ held.map Prod.fst := by rw [← h.1, ← h.2.1]; exact hf
    have : ¬ held.any (fun e => decide (e.1 = f)) = true := by
      rw [List.any_eq_true]
      rintro ⟨e, he, hef⟩
      exact hfl (List.mem_map.2 ⟨e, he, by simpa using hef⟩)
    rw [if_neg this]
    obtain ⟨h1, h2, h3, h4, h5⟩ := h
    refine ⟨?_, ?_, ?_, ?_, ?_⟩
    · show f :: r.LRUlist_ = _
      rw [h1]; rfl
    · show f :: r.LRUhash_ = f :: r.LRUlist_
      rw [h2]
    · rw [List.map_cons, List.nodup_cons]; exact ⟨hfl, h3⟩
    · rw [List.pairwise_cons]; exact ⟨fun e he => h5 e he, h4⟩
    · intro e he
      rcases List.mem_cons.1 he with rfl | he
      · show now < now + 1; omega
      · have := h5 e he; omega

theorem LruRel.step {r : LRUReplacer} {held : List (Int × Nat)} {now : Nat}
    (h : LruRel r held now) (c : ReplacerCall) :
    LruRel (c.run r) (heldStep held now c) (now + 1) := by
  cases c with
  | pin f => exact h.pin f
  | unpin f => exact h.unpin f
  | victim => exact h.victim_snd

theorem LruRel.run (calls : List ReplacerCall) :
    ∀ (r : LRUReplacer) (held : List (Int × Nat)) (now : Nat), LruRel r held now →
      LruRel (runReplacerCalls calls r) (heldAfter calls now held) (now + calls.length) := by
  induction calls with
  | nil => intro r held now h; exact h
  | cons c rest ih =>
    intro r held now h
    have := ih _ _ _ (h.step c)
    rw [List.length_cons, show now + (rest.length + 1) = now + 1 + rest.length by omega]
    exact this

theorem LruRel.of_create (n : Nat) : LruRel (LRUReplacer.create n) [] 0 :=
  ⟨rfl, rfl, List.nodup_nil, List.Pairwise.nil, fun e he => by simp at he⟩

theorem oldestHeld_none (held : List (Int × Nat)) : oldestHeld held = none ↔ held = [] := by
  cases held with
  | nil => simp [oldestHeld]
  | cons e rest =>
    simp only [oldestHeld]
    cases oldestHeld rest with
    | none => simp
    | some m => simp only []; split <;> simp

theorem oldestHeld_least (held : List (Int × Nat)) (m : Int × Nat)
    (h : oldestHeld held = some m) : m ∈ held ∧ ∀ e ∈ held, m.2 ≤ e.2 := by
  induction held generalizing m with
  | nil => simp [oldestHeld] at h
  | cons e rest ih =>
    simp only [oldestHeld] at h
    cases ho : oldestHeld rest with
    | none =>
      rw [ho] at h
      simp only [Option.some.injEq] at h
      subst h
      have : rest = [] := (oldestHeld_none rest).1 ho
      subst this
      simp
    | some m0 =>
      rw [ho] at h
      obtain ⟨hm0, hle⟩ := ih m0 ho
      simp only [] at h
      by_cases hc : e.2 ≤ m0.2
      · rw [if_pos hc] at h
        simp only [Option.some.injEq] at h
        subst h
        refine ⟨List.mem_cons_self _ _, ?_⟩
        intro x hx
        rcases List.mem_cons.1 hx with rfl | hx
        · exact Nat.le_refl _
        · exact Nat.le_trans hc (hle x hx)
      · rw [if_neg hc] at h
        simp only [Option.some.injEq] at h
        subst h
        refine ⟨List.mem_cons_of_mem _ hm0, ?_⟩
        intro x hx
        rcases List.mem_cons.1 hx with rfl | hx
        · omega
        · exact hle x hx

/-- C16: after every sequence of pin, unpin and victim calls on a new
replacer, the replacer holds no frame twice and holds exactly the frames of
the specification (a frame enters at its first unpin since it was last
pinned or evicted); `victim` returns false exactly when no frame is held,
and otherwise returns the held frame whose entry time is the least (every
other held frame entered later) and removes that frame and no other; an
unpin of a held frame changes nothing. -/
theorem lru_victim_is_oldest_entry (calls : List ReplacerCall) (n : Nat) :
    (runReplacerCalls calls (LRUReplacer.create n)).LRUlist_.Nodup ∧
    (∀ f, f ∈ (runReplacerCalls calls (LRUReplacer.create n)).LRUlist_ ↔
      ∃ t, (f, t) ∈ heldAfter calls 0 []) ∧
    (∀ f t1 t2, (f, t1) ∈ heldAfter calls 0 [] → (f, t2) ∈ heldAfter calls 0 [] → t1 = t2) ∧
    ((runReplacerCalls calls (LRUReplacer.create n)).victim.1 = none ↔
      heldAfter calls 0 [] = []) ∧
    (∀ f, (runReplacerCalls calls (LRUReplacer.create n)).victim.1 = some f →
      ∃ t, (f, t) ∈ heldAfter calls 0 [] ∧
        (∀ e ∈ heldAfter calls 0 [], e ≠ (f, t) → t < e.2) ∧
        f ∉ (runReplacerCalls calls (LRUReplacer.create n)).victim.2.LRUlist_ ∧
        ∀ g, g ≠ f →
          (g ∈ (runReplacerCalls calls (LRUReplacer.create n)).victim.2.LRUlist_ ↔
            g ∈ (runReplacerCalls calls (LRUReplacer.create n)).LRUlist_)) ∧
    (∀ f, f ∈ (runReplacerCalls calls (LRUReplacer.create n)).LRUlist_ →
      (runReplacerCalls calls (LRUReplacer.create n)).unpin f =
        runReplacerCalls calls (LRUReplacer.create n)) := by
  have h := LruRel.run calls _ _ _ (LruRel.of_create n)
  generalize runReplacerCalls calls (LRUReplacer.create n) = r at h ⊢
  generalize heldAfter calls 0 [] = held at h ⊢
  generalize 0 + calls.length = now at h
  have hnd : ∀ f t1 t2, (f, t1) ∈ held → (f, t2) ∈ held → t1 = t2 := by
    intro f t1 t2 h1 h2
    have := List.inj_on_of_nodup_map h.2.2.1 h1 h2 rfl
    exact (Prod.mk.inj this).2
  refine ⟨h.nodup, h.mem_iff, hnd, ?_, ?_, ?_⟩
  · rw [h.victim_fst, Option.map_eq_none', oldestHeld_none]
  · intro f hf
    rw [h.victim_fst] at hf
    cases ho : oldestHeld held with
    | none => rw [ho] at hf; simp at hf
    | some m =>
      rw [ho] at hf
      simp only [Option.map_some', Option.some.injEq] at hf
      obtain ⟨hm, hle⟩ := oldestHeld_least held m ho
      obtain ⟨g, t⟩ := m
      simp only at hf
      subst hf
      have hv := h.victim_snd
      have hvl : r.victim.2.LRUlist_ = r.LRUlist_.filter (fun x => decide (x ≠ g)) := by
        rw [hv.1, heldStep_victim, ho]
        simp only []
        rw [map_fst_filter held (fun x => decide (x ≠ g)), h.1]
      refine ⟨t, hm, ?_, ?_, ?_⟩
      · intro e he hne
        have h1 := hle e he
        simp only at h1
        rcases Nat.lt_or_ge t e.2 with hlt | hge
        · exact hlt
        · exfalso
          have heq : e.2 = t := by omega
          have hpw : held.Pairwise (fun a b : Int × Nat => a.2 ≠ b.2) :=
            h.2.2.2.1.imp (fun hab => by omega)
          have hsym : Symmetric (fun a b : Int × Nat => a.2 ≠ b.2) := fun a b hab => hab.symm
          exact hpw.forall hsym he hm hne heq
      · rw [hvl]; simp
      · intro x hx
        rw [hvl, List.mem_filter]
        simp [hx]
  · intro f hf
    unfold LRUReplacer.unpin
    rw [if_pos (by rw [h.2.1]; exact hf)]

/-! ## Buffer pool: basic facts -/

namespace BufferPoolManager

@[simp] theorem setFrame_pool_size (bp : BufferPoolManager) (f : Int) (p : Page) :
    (bp.setFrame f p).pool_size_ = bp.pool_size_ := by unfold setFrame; split <;> rfl

@[simp] theorem setFrame_page_table (bp : BufferPoolManager) (f : Int) (p : Page) :
    (bp.setFrame f p).page_table_ = bp.page_table_ := by unfold setFrame; split <;> rfl

@[simp] theorem setFrame_free_list (bp : BufferPoolManager) (f : Int) (p : Page) :
    (bp.setFrame f p).free_list_ = bp.free_list_ := by unfold setFrame; split <;> rfl

@[simp] theorem setFrame_replacer (bp : BufferPoolManager) (f : Int) (p : Page) :
    (bp.setFrame f p).replacer_ = bp.replacer_ := by unfold setFrame; split <;> rfl

@[simp] theorem setFrame_disk_manager (bp : BufferPoolManager) (f : Int) (p : Page) :
    (bp.setFrame f p).disk_manager_ = bp.disk_manager_ := by unfold setFrame; split <;> rfl

@[simp] theorem setFrame_log_manager (bp : BufferPoolManager) (f : Int) (p : Page) :
    (bp.setFrame f p).log_manager_ = bp.log_manager_ := by unfold setFrame; split <;> rfl

@[simp] theorem setFrame_enable_lsn (bp : BufferPoolManager) (f : Int) (p : Page) :
    (bp.setFrame f p).ENABLE_LSN = bp.ENABLE_LSN := by unfold setFrame; split <;> rfl

@[simp] theorem setFrame_length (bp : BufferPoolManager) (f : Int) (p : Page) :
    (bp.setFrame f p).pages_.length = bp.pages_.length := by
  unfold setFrame; split
  · rfl
  · simp

@[simp] theorem setFrame_lookup (bp : BufferPoolManager) (f : Int) (p : Page) (id : PageId) :
    (bp.setFrame f p).lookup id = bp.lookup id := by
  unfold lookup; rw [setFrame_page_table]

theorem frame_setFrame (bp : BufferPoolManager) (f : Int) (p : Page) (g : Int) :
    (bp.setFrame f p).frame g =
      if g = f ∧ 0 ≤ f ∧ f < bp.pages_.length then p else bp.frame g := by
  by_cases hf : f < 0
  · have : bp.setFrame f p = bp := by unfold setFrame; rw [if_pos hf]
    rw [this, if_neg (by omega)]
  · have e : bp.setFrame f p = { bp with pages_ := bp.pages_.set f.toNat p } := by
      unfold setFrame; rw [if_neg hf]
    rw [e]
    unfold frame
    by_cases hg : g < 0
    · rw [if_pos hg, if_pos hg, if_neg (by omega)]
    · rw [if_neg hg, if_neg hg]
      simp only [List.getD_eq_getElem?_getD]
      by_cases hgf : g = f
      · subst hgf
        by_cases hl : g < bp.pages_.length
        · rw [if_pos ⟨rfl, by omega, hl⟩]
          have : g.toNat < bp.pages_.length := by omega
          simp [List.getElem?_set_self, this]
        · rw [if_neg (fun h => hl h.2.2)]
          have : bp.pages_.length ≤ g.toNat := by omega
          simp [List.getElem?_eq_none, this]
      · rw [if_neg (fun h => hgf h.1)]
        have : f.toNat ≠ g.toNat := by omega
        rw [List.getElem?_set_ne this]

theorem frame_setFrame_same (bp : BufferPoolManager) (f : Int) (p : Page) (h0 : 0 ≤ f)
    (h1 : f < bp.pages_.length) : (bp.setFrame f p).frame f = p := by
  rw [frame_setFrame, if_pos ⟨rfl, h0, h1⟩]

theorem frame_setFrame_ne (bp : BufferPoolManager) (f : Int) (p : Page) (g : Int) (h : g ≠ f) :
    (bp.setFrame f p).frame g = bp.frame g := by
  rw [frame_setFrame, if_neg (fun hh => h hh.1)]

theorem find_filter_ne (t : List (PageId × Int)) (id id1 : PageId) (h : id1 ≠ id) :
    (t.filter (fun e => decide (e.1 ≠ id))).find? (fun e => decide (e.1 = id1)) =
      t.find? (fun e => decide (e.1 = id1)) := by
  induction t with
  | nil => rfl
  | cons a rest ih =>
    by_cases ha : a.1 = id
    · have h1 : ¬ a.1 = id1 := by rw [ha]; exact fun hh => h hh.symm
      rw [List.filter_cons_of_neg (by simpa using ha), ih,
        List.find?_cons_of_neg _ (by simpa using h1)]
    · rw [List.filter_cons_of_pos (by simpa using ha)]
      by_cases h1 : a.1 = id1
      · rw [List.find?_cons_of_pos _ (by simpa using h1),
          List.find?_cons_of_pos _ (by simpa using h1)]
      · rw [List.find?_cons_of_neg _ (by simpa using h1),
          List.find?_cons_of_neg _ (by simpa using h1), ih]

theorem find_filter_same (t : List (PageId × Int)) (id : PageId) :
    (t.filter (fun e => decide (e.1 ≠ id))).find? (fun e => decide (e.1 = id)) = none := by
  rw [List.find?_eq_none]
  intro x hx
  have := (List.mem_filter.1 hx).2
  simpa using this

theorem lookup_store (t : List (PageId × Int)) (id : PageId) (f : Int) (id1 : PageId) :
    ((tableStore t id f).find? (fun e => decide (e.1 = id1))).map (fun e => e.2) =
      if id1 = id then some f else (t.find? (fun e => decide (e.1 = id1))).map (fun e => e.2) := by
  unfold tableStore
  rw [List.find?_append]
  by_cases h : id1 = id
  · subst h
    rw [if_pos rfl, find_filter_same]
    simp
  · rw [if_neg h, find_filter_ne t id id1 h]
    cases t.find? (fun e => decide (e.1 = id1)) with
    | some x => simp
    | none => simp [Ne.symm h]

theorem lookup_erase (t : List (PageId × Int)) (id : PageId) (id1 : PageId) :
    ((tableErase t id).find? (fun e => decide (e.1 = id1))).map (fun e => e.2) =
      if id1 = id then none else (t.find? (fun e => decide (e.1 = id1))).map (fun e => e.2) := by
  unfold tableErase
  by_cases h : id1 = id
  · subst h
    rw [if_pos rfl, find_filter_same]
    rfl
  · rw [if_neg h, find_filter_ne t id id1 h]

end BufferPoolManager

/-- The replacer keeps one list node per key of its hash table. -/
theorem LRUReplacer.pin_spec (r : LRUReplacer) (f : Int) (h1 : r.LRUhash_ = r.LRUlist_)
    (h2 : r.LRUlist_.Nodup) :
    (r.pin f).LRUhash_ = (r.pin f).LRUlist_ ∧ (r.pin f).LRUlist_.Nodup ∧
    (r.pin f).LRUlist_ = r.LRUlist_.filter (fun g => decide (g ≠ f)) ∧
    (r.pin f).max_size_ = r.max_size_ := by
  unfold LRUReplacer.pin
  by_cases hf : f ∈ r.LRUhash_
  · rw [if_pos hf]
    have hfl : f ∈ r.LRUlist_ := by rw [← h1]; exact hf
    have hne : r.LRUlist_.isEmpty = false := by
      cases hl : r.LRUlist_ with
      | nil => rw [hl] at hfl; simp at hfl
      | cons a t => rfl
    rw [hne]
    simp only [Bool.false_eq_true, if_false]
    rw [erase_eq_filter_ne _ f h2, h1]
    refine ⟨?_, ?_, ?_, ?_⟩ <;> first | trivial | rfl | exact h2.filter _
  · rw [if_neg hf]
    have : r.LRUlist_.filter (fun g => decide (g ≠ f)) = r.LRUlist_ := by
      rw [List.filter_eq_self]
      intro e he
      have : e ≠ f := by intro hh; subst hh; exact hf (by rw [h1]; exact he)
      simpa using this
    exact ⟨h1, h2, this.symm, rfl⟩

theorem LRUReplacer.pin_not_mem (r : LRUReplacer) (f : Int) (h1 : r.LRUhash_ = r.LRUlist_)
    (hf : f ∉ r.LRUlist_) : r.pin f = r := by
  unfold LRUReplacer.pin
  rw [if_neg (by rw [h1]; exact hf)]

theorem LRUReplacer.unpin_spec (r : LRUReplacer) (f : Int) (h1 : r.LRUhash_ = r.LRUlist_)
    (h2 : r.LRUlist_.Nodup) :
    (r.unpin f).LRUhash_ = (r.unpin f).LRUlist_ ∧ (r.unpin f).LRUlist_.Nodup ∧
    (r.unpin f).LRUlist_ = (if f ∈ r.LRUlist_ then r.LRUlist_ else f :: r.LRUlist_) := by
  unfold LRUReplacer.unpin
  by_cases hf : f ∈ r.LRUhash_
  · rw [if_pos hf, if_pos (by rw [← h1]; exact hf)]
    exact ⟨h1, h2, rfl⟩
  · have hfl : f ∉ r.LRUlist_ := by rw [← h1]; exact hf
    rw [if_neg hf, if_neg hfl]
    refine ⟨?_, ?_, rfl⟩
    · show f :: r.LRUhash_ = f :: r.LRUlist_
      rw [h1]
    · exact List.nodup_cons.2 ⟨hfl, h2⟩

theorem LRUReplacer.victim_none (r : LRUReplacer) (h : r.LRUlist_ = []) :
    r.victim = (none, r) := by
  unfold LRUReplacer.victim
  rw [h]; rfl

theorem LRUReplacer.victim_some (r : LRUReplacer) (f : Int) (h1 : r.LRUhash_ = r.LRUlist_)
    (h2 : r.LRUlist_.Nodup) (hl : r.LRUlist_.getLast? = some f) :
    r.victim.1 = some f ∧ r.victim.2.LRUhash_ = r.victim.2.LRUlist_ ∧
    r.victim.2.LRUlist_.Nodup ∧
    r.victim.2.LRUlist_ = r.LRUlist_.filter (fun g => decide (g ≠ f)) ∧
    r.victim.2.max_size_ = r.max_size_ := by
  unfold LRUReplacer.victim
  rw [hl]
  simp only []
  rw [h1, filter_ne_getLast r.LRUlist_ f h2 hl]
  refine ⟨?_, ?_, ?_, ?_, ?_⟩ <;> first | trivial | rfl | skip
  rw [← filter_ne_getLast r.LRUlist_ f h2 hl]
  exact h2.filter _

/-! ## Buffer pool: what each step does -/

namespace BufferPoolManager

theorem frame_of_pages {bp bp1 : BufferPoolManager} (h : bp1.pages_ = bp.pages_) (f : Int) :
    bp1.frame f = bp.frame f := by
  unfold frame; rw [h]

theorem lookup_of_table {bp bp1 : BufferPoolManager} (h : bp1.page_table_ = bp.page_table_)
    (id : PageId) : bp1.lookup id = bp.lookup id := by
  unfold lookup; rw [h]

theorem write_back_spec (bp bp1 : BufferPoolManager) (page : Page) (id : PageId)
    (h : bp.write_back page id = Except.ok bp1) :
    bp1.pool_size_ = bp.pool_size_ ∧ bp1.pages_ = bp.pages_ ∧
    bp1.page_table_ = bp.page_table_ ∧ bp1.free_list_ = bp.free_list_ ∧
    bp1.replacer_ = bp.replacer_ ∧ bp1.ENABLE_LSN = bp.ENABLE_LSN ∧
    bp1.log_manager_.global_lsn_ = bp.log_manager_.global_lsn_ ∧
    bp1.disk_manager_.writes = bp.disk_manager_.writes ++
      [⟨id, page.data_, page.page_lsn, bp1.log_manager_.persist_lsn_⟩] ∧
    (page.page_lsn ≤ bp.log_manager_.persist_lsn_ → bp1.log_manager_ = bp.log_manager_) ∧
    (bp.log_manager_.persist_lsn_ < page.page_lsn →
      bp.ENABLE_LSN = true ∧ bp1.log_manager_ = bp.log_manager_.flush_log_to_disk) := by
  unfold write_back at h
  by_cases hl : page.page_lsn > bp.log_manager_.persist_lsn_
  · rw [if_pos hl] at h
    by_cases he : bp.ENABLE_LSN = true
    · rw [if_pos he] at h
      simp only [Except.ok.injEq] at h
      subst h
      refine ⟨rfl, rfl, rfl, rfl, rfl, rfl, rfl, rfl, ?_, ?_⟩
      · intro h1; omega
      · intro _; exact ⟨he, rfl⟩
    · rw [if_neg he] at h
      cases h
  · rw [if_neg hl] at h
    simp only [Except.ok.injEq] at h
    subst h
    refine ⟨rfl, rfl, rfl, rfl, rfl, rfl, rfl, rfl, ?_, ?_⟩
    · intro _; rfl
    · intro h1; omega

theorem write_back_ok (bp : BufferPoolManager) (page : Page) (id : PageId)
    (h : page.page_lsn ≤ bp.log_manager_.persist_lsn_ ∨ bp.ENABLE_LSN = true) :
    ∃ bp1, bp.write_back page id = Except.ok bp1 := by
  unfold write_back
  by_cases hl : page.page_lsn > bp.log_manager_.persist_lsn_
  · rw [if_pos hl]
    rcases h with h | h
    · omega
    · rw [if_pos h]; exact ⟨_, rfl⟩
  · rw [if_neg hl]; exact ⟨_, rfl⟩

theorem write_back_error (bp : BufferPoolManager) (page : Page) (id : PageId) (e : DbError)
    (h : bp.write_back page id = Except.error e) : e = DbError.AssertionFailed := by
  unfold write_back at h
  split at h
  · split at h
    · cases h
    · cases h; rfl
  · cases h

/-- What `update_page` leaves when it returns. -/
theorem update_page_spec (bp bp2 : BufferPoolManager) (f : Int) (new_id : PageId)
    (h0 : 0 ≤ f) (h1 : f < bp.pages_.length)
    (h : bp.update_page f new_id = Except.ok bp2) :
    new_id.page_no ≠ INVALID_PAGE_ID ∧
    bp2.pool_size_ = bp.pool_size_ ∧ bp2.pages_.length = bp.pages_.length ∧
    bp2.free_list_ = bp.free_list_ ∧ bp2.replacer_ = bp.replacer_ ∧
    bp2.ENABLE_LSN = bp.ENABLE_LSN ∧
    (∀ id1, bp2.lookup id1 =
      if id1 = (bp.frame f).id_ then none else if id1 = new_id then some f else bp.lookup id1) ∧
    (∀ g, g ≠ f → bp2.frame g = bp.frame g) ∧
    bp2.frame f = { bp.frame f with id_ := new_id, data_ := List.replicate PAGE_SIZE 0,
                                     is_dirty_ := false, page_lsn := INVALID_LSN } ∧
    bp2.log_manager_.global_lsn_ = bp.log_manager_.global_lsn_ ∧
    ((bp.frame f).is_dirty_ = false →
      bp2.disk_manager_ = bp.disk_manager_ ∧ bp2.log_manager_ = bp.log_manager_) ∧
    ((bp.frame f).is_dirty_ = true →
      bp.write_back (bp.frame f) (bp.frame f).id_ =
        Except.ok { bp with log_manager_ := bp2.log_manager_,
                            disk_manager_ := bp2.disk_manager_ }) := by
  unfold update_page at h
  simp only [] at h
  have key : ∀ bp1 : BufferPoolManager, bp1.pages_ = bp.pages_ →
      bp1.page_table_ = bp.page_table_ →
      (if new_id.page_no = INVALID_PAGE_ID then Except.error DbError.AssertionFailed
        else Except.ok (BufferPoolManager.setFrame
          { bp1 with page_table_ :=
              tableErase (tableStore bp1.page_table_ new_id f) (bp.frame f).id_ } f
          { bp.frame f with id_ := new_id, data_ := List.replicate PAGE_SIZE 0,
                            is_dirty_ := false, page_lsn := INVALID_LSN })) = Except.ok bp2 →
      new_id.page_no ≠ INVALID_PAGE_ID ∧
      bp2.pool_size_ = bp1.pool_size_ ∧ bp2.pages_.length = bp.pages_.length ∧
      bp2.free_list_ = bp1.free_list_ ∧ bp2.replacer_ = bp1.replacer_ ∧
      bp2.ENABLE_LSN = bp1.ENABLE_LSN ∧
      (∀ id1, bp2.lookup id1 =
        if id1 = (bp.frame f).id_ then none else if id1 = new_id then some f
          else bp.lookup id1) ∧
      (∀ g, g ≠ f → bp2.frame g = bp.frame g) ∧
      bp2.frame f = { bp.frame f with id_ := new_id, data_ := List.replicate PAGE_SIZE 0,
                                       is_dirty_ := false, page_lsn := INVALID_LSN } ∧
      bp2.log_manager_ = bp1.log_manager_ ∧ bp2.disk_manager_ = bp1.disk_manager_ := by
    intro bp1 hp ht hh
    by_cases hn : new_id.page_no = INVALID_PAGE_ID
    · rw [if_pos hn] at hh; cases hh
    · rw [if_neg hn] at hh
      simp only [Except.ok.injEq] at hh
      subst hh
      refine ⟨hn, by simp, by simp [hp], by simp, by simp, by simp, ?_, ?_, ?_, by simp,
        by simp⟩
      · intro id1
        rw [setFrame_lookup]
        show ((tableErase (tableStore bp1.page_table_ new_id f) (bp.frame f).id_).find?
          (fun e => decide (e.1 = id1))).map (fun e => e.2) = _
        rw [lookup_erase, lookup_store, ht]
        rfl
      · intro g hg
        rw [frame_setFrame_ne _ _ _ _ hg]
        exact frame_of_pages hp g
      · rw [frame_setFrame_same _ _ _ h0 (by show f < (bp1.pages_.length : Int); rw [hp]; exact h1)]
  cases hd : (bp.frame f).is_dirty_ with
  | false =>
    rw [hd] at h
    simp only [Bool.false_eq_true, if_false] at h
    obtain ⟨a1, a2, a3, a4, a5, a6, a7, a8, a9, a10, a11⟩ := key bp rfl rfl h
    exact ⟨a1, a2, a3, a4, a5, a6, a7, a8, a9, by rw [a10], fun _ => ⟨a11, a10⟩,
      fun hh => by cases hh⟩
  | true =>
    rw [hd] at h
    simp only [if_true] at h
    cases hw : bp.write_back (bp.frame f) (bp.frame f).id_ with
    | error e => rw [hw] at h; cases h
    | ok bp1 =>
      rw [hw] at h
      simp only [] at h
      obtain ⟨w1, w2, w3, w4, w5, w6, w7, w8, w9, w10⟩ := write_back_spec _ _ _ _ hw
      obtain ⟨a1, a2, a3, a4, a5, a6, a7, a8, a9, a10, a11⟩ := key bp1 w2 w3 h
      refine ⟨a1, by rw [a2, w1], a3, by rw [a4, w4], by rw [a5, w5], by rw [a6, w6], a7, a8, a9,
        by rw [a10, w7], (fun hh => by cases hh), fun _ => ?_⟩
      rw [a10, a11]
      congr 1
      cases bp1
      simp only at w1 w2 w3 w4 w5 w6
      subst w1 w2 w3 w4 w5 w6
      rfl

theorem update_page_ok (bp : BufferPoolManager) (f : Int) (new_id : PageId)
    (hn : new_id.page_no ≠ INVALID_PAGE_ID)
    (hw : (bp.frame f).is_dirty_ = true →
      (bp.frame f).page_lsn ≤ bp.log_manager_.persist_lsn_ ∨ bp.ENABLE_LSN = true) :
    ∃ bp2, bp.update_page f new_id = Except.ok bp2 := by
  unfold update_page
  simp only []
  cases hd : (bp.frame f).is_dirty_ with
  | false =>
    simp only [Bool.false_eq_true, if_false]
    rw [if_neg hn]; exact ⟨_, rfl⟩
  | true =>
    simp only [if_true]
    obtain ⟨bp1, h1⟩ := write_back_ok bp (bp.frame f) (bp.frame f).id_ (hw hd)
    rw [h1]
    simp only []
    rw [if_neg hn]; exact ⟨_, rfl⟩

theorem update_page_error (bp : BufferPoolManager) (f : Int) (new_id : PageId) (e : DbError)
    (h : bp.update_page f new_id = Except.error e) : e = DbError.AssertionFailed := by
  unfold update_page at h
  simp only [] at h
  split at h
  · rename_i e1 he
    cases h
    split at he
    · exact write_back_error _ _ _ _ he
    · cases he
  · split at h
    · cases h; rfl
    · cases h

end BufferPoolManager

/-! ## Buffer pool: the invariant is kept -/

theorem PoolInv.table_not_free {bp : BufferPoolManager} (h : PoolInv bp) {id : PageId} {f : Int}
    (hl : bp.lookup id = some f) : f ∉ bp.free_list_ := by
  obtain ⟨_, i2, i3, _⟩ := h
  intro hf
  obtain ⟨_, _, e1, e2⟩ := i2 id f hl
  have := (i3 f hf).2.2
  rw [e1] at this
  exact e2 this

/-- Nothing that the invariant reads has changed. -/
theorem PoolInv.same {bp bp1 : BufferPoolManager} (h : PoolInv bp)
    (hps : bp1.pool_size_ = bp.pool_size_) (hlen : bp1.pages_.length = bp.pages_.length)
    (htab : bp1.page_table_ = bp.page_table_) (hfree : bp1.free_list_ = bp.free_list_)
    (hrep : bp1.replacer_ = bp.replacer_)
    (hfr : ∀ g, (bp1.frame g).id_ = (bp.frame g).id_ ∧
      (bp1.frame g).pin_count_ = (bp.frame g).pin_count_) : PoolInv bp1 := by
  obtain ⟨i1, i2, i3, i4, i5, i6, i7, i8, i9⟩ := h
  unfold PoolInv BufferPoolManager.inReplacer BufferPoolManager.inFreeList at *
  rw [hps, hlen, hfree, hrep]
  refine ⟨i1, ?_, ?_, i4, i5, i6, i7, ?_, i9⟩
  · intro id f hl
    rw [BufferPoolManager.lookup_of_table htab] at hl
    rw [(hfr f).1]
    exact i2 id f hl
  · intro f hf
    rw [(hfr f).1]
    exact i3 f hf
  · intro f h0 h1
    rw [(hfr f).2]
    exact i8 f h0 h1

/-- Frame `f` is taken (or stays) out of the replacer and the free list
and is pinned; it holds page `new_id`. -/
theorem PoolInv.acquire {bp bp1 : BufferPoolManager} (h : PoolInv bp) (f : Int)
    (new_id : PageId)
    (hps : bp1.pool_size_ = bp.pool_size_) (hlen : bp1.pages_.length = bp.pages_.length)
    (hf0 : 0 ≤ f) (hf1 : f < bp.pool_size_)
    (hfree : ∀ g, g ∈ bp1.free_list_ ↔ g ∈ bp.free_list_ ∧ g ≠ f)
    (hfnd : bp1.free_list_.Nodup)
    (hrh : bp1.replacer_.LRUhash_ = bp1.replacer_.LRUlist_)
    (hrn : bp1.replacer_.LRUlist_.Nodup)
    (hrm : ∀ g, g ∈ bp1.replacer_.LRUlist_ ↔ g ∈ bp.replacer_.LRUlist_ ∧ g ≠ f)
    (hfr : ∀ g, g ≠ f → (bp1.frame g).id_ = (bp.frame g).id_ ∧
      (bp1.frame g).pin_count_ = (bp.frame g).pin_count_)
    (hfid : (bp1.frame f).id_ = new_id) (hpin : 1 ≤ (bp1.frame f).pin_count_)
    (hnew : new_id.page_no ≠ INVALID_PAGE_ID)
    (htab : ∀ id1 g, bp1.lookup id1 = some g →
      (id1 = new_id ∧ g = f) ∨ (g ≠ f ∧ bp.lookup id1 = some g)) : PoolInv bp1 := by
  obtain ⟨i1, i2, i3, i4, i5, i6, i7, i8, i9⟩ := h
  unfold PoolInv BufferPoolManager.inReplacer BufferPoolManager.inFreeList at *
  rw [hps, hlen]
  refine ⟨i1, ?_, ?_, hfnd, hrn, hrh, ?_, ?_, ?_⟩
  · intro id g hl
    rcases htab id g hl with ⟨rfl, rfl⟩ | ⟨hg, hl0⟩
    · exact ⟨hf0, hf1, hfid, hnew⟩
    · rw [(hfr g hg).1]; exact i2 id g hl0
  · intro g hg
    obtain ⟨hg1, hg2⟩ := (hfree g).1 hg
    rw [(hfr g hg2).1]; exact i3 g hg1
  · intro g hg
    exact i7 g ((hrm g).1 hg).1
  · intro g h0 h1
    by_cases hg : g = f
    · subst hg
      refine ⟨by omega, ?_⟩
      constructor
      · intro hh; omega
      · rintro (hh | hh)
        · exact absurd rfl ((hrm g).1 hh).2
        · exact absurd rfl ((hfree g).1 hh).2
    · rw [(hfr g hg).2]
      obtain ⟨p0, p1⟩ := i8 g h0 h1
      refine ⟨p0, ?_⟩
      rw [p1, hrm g, hfree g]
      constructor
      · rintro (hh | hh)
        · exact Or.inl ⟨hh, hg⟩
        · exact Or.inr ⟨hh, hg⟩
      · rintro (hh | hh)
        · exact Or.inl hh.1
        · exact Or.inr hh.1
  · intro g hh
    exact i9 g ⟨((hrm g).1 hh.1).1, ((hfree g).1 hh.2).1⟩

/-- Frame `f`, which holds a page of the page table, has its last pin
removed and enters the replacer. -/
theorem PoolInv.release {bp bp1 : BufferPoolManager} (h : PoolInv bp) (f : Int)
    (hps : bp1.pool_size_ = bp.pool_size_) (hlen : bp1.pages_.length = bp.pages_.length)
    (hf0 : 0 ≤ f) (hf1 : f < bp.pool_size_) (hnf : f ∉ bp.free_list_)
    (htab : bp1.page_table_ = bp.page_table_) (hfree : bp1.free_list_ = bp.free_list_)
    (hrh : bp1.replacer_.LRUhash_ = bp1.replacer_.LRUlist_)
    (hrn : bp1.replacer_.LRUlist_.Nodup)
    (hrm : ∀ g, g ∈ bp1.replacer_.LRUlist_ ↔ g ∈ bp.replacer_.LRUlist_ ∨ g = f)
    (hid : ∀ g, (bp1.frame g).id_ = (bp.frame g).id_)
    (hfr : ∀ g, g ≠ f → (bp1.frame g).pin_count_ = (bp.frame g).pin_count_)
    (hpin : (bp1.frame f).pin_count_ = 0) : PoolInv bp1 := by
  obtain ⟨i1, i2, i3, i4, i5, i6, i7, i8, i9⟩ := h
  unfold PoolInv BufferPoolManager.inReplacer BufferPoolManager.inFreeList at *
  rw [hps, hlen, hfree]
  refine ⟨i1, ?_, ?_, i4, hrn, hrh, ?_, ?_, ?_⟩
  · intro id g hl
    rw [BufferPoolManager.lookup_of_table htab] at hl
    rw [hid g]; exact i2 id g hl
  · intro g hg
    rw [hid g]; exact i3 g hg
  · intro g hg
    rcases (hrm g).1 hg with hh | rfl
    · exact i7 g hh
    · exact ⟨hf0, hf1⟩
  · intro g h0 h1
    by_cases hg : g = f
    · subst hg
      rw [hpin]
      exact ⟨le_refl _, fun _ => Or.inl ((hrm g).2 (Or.inr rfl)), fun _ => rfl⟩
    · rw [hfr g hg]
      obtain ⟨p0, p1⟩ := i8 g h0 h1
      refine ⟨p0, ?_⟩
      rw [p1, hrm g]
      constructor
      · rintro (hh | hh)
        · exact Or.inl (Or.inl hh)
        · exact Or.inr hh
      · rintro ((hh | hh) | hh)
        · exact Or.inl hh
        · exact absurd hh hg
        · exact Or.inr hh
  · intro g hh
    rcases (hrm g).1 hh.1 with h1 | rfl
    · exact i9 g ⟨h1, hh.2⟩
    · exact hnf hh.2

/-- Frame `f` with no pin, which held page `page_id` of the page table,
is emptied and goes to the free list. -/
theorem PoolInv.discard {bp bp1 : BufferPoolManager} (h : PoolInv bp) (f : Int)
    (page_id : PageId) (hl : bp.lookup page_id = some f)
    (hps : bp1.pool_size_ = bp.pool_size_) (hlen : bp1.pages_.length = bp.pages_.length)
    (htab : ∀ id1, bp1.lookup id1 = if id1 = page_id then none else bp.lookup id1)
    (hfree : bp1.free_list_ = bp.free_list_ ++ [f])
    (hrh : bp1.replacer_.LRUhash_ = bp1.replacer_.LRUlist_)
    (hrn : bp1.replacer_.LRUlist_.Nodup)
    (hrm : ∀ g, g ∈ bp1.replacer_.LRUlist_ ↔ g ∈ bp.replacer_.LRUlist_ ∧ g ≠ f)
    (hid : ∀ g, g ≠ f → (bp1.frame g).id_ = (bp.frame g).id_)
    (hfr : ∀ g, (bp1.frame g).pin_count_ = (bp.frame g).pin_count_)
    (hfid : (bp1.frame f).id_.page_no = INVALID_PAGE_ID)
    (hpin : (bp.frame f).pin_count_ = 0) : PoolInv bp1 := by
  have hnf := h.table_not_free hl
  obtain ⟨i1, i2, i3, i4, i5, i6, i7, i8, i9⟩ := h
  obtain ⟨hf0, hf1, hfid0, hpn⟩ := i2 page_id f hl
  unfold PoolInv BufferPoolManager.inReplacer BufferPoolManager.inFreeList at *
  rw [hps, hlen, hfree]
  refine ⟨i1, ?_, ?_, ?_, hrn, hrh, ?_, ?_, ?_⟩
  · intro id g hg
    rw [htab id] at hg
    by_cases hi : id = page_id
    · rw [if_pos hi] at hg; cases hg
    · rw [if_neg hi] at hg
      obtain ⟨a, b, c, d⟩ := i2 id g hg
      have hgf : g ≠ f := by
        intro e; subst e; rw [hfid0] at c; exact hi c.symm
      rw [hid g hgf]; exact ⟨a, b, c, d⟩
  · intro g hg
    rcases List.mem_append.1 hg with hh | hh
    · have hgf : g ≠ f := by intro e; subst e; exact hnf hh
      rw [hid g hgf]; exact i3 g hh
    · have : g = f := by simpa using hh
      subst this; exact ⟨hf0, hf1, hfid⟩
  · rw [List.nodup_append]
    refine ⟨i4, List.nodup_singleton f, ?_⟩
    intro a ha hb
    have : a = f := by simpa using hb
    subst this; exact hnf ha
  · intro g hg
    exact i7 g ((hrm g).1 hg).1
  · intro g h0 h1
    rw [hfr g]
    obtain ⟨p0, p1⟩ := i8 g h0 h1
    refine ⟨p0, ?_⟩
    rw [hrm g, List.mem_append]
    by_cases hg : g = f
    · subst hg
      rw [hpin]
      exact ⟨fun _ => Or.inr (Or.inr (by simp)), fun _ => rfl⟩
    · rw [p1]
      constructor
      · rintro (hh | hh)
        · exact Or.inl ⟨hh, hg⟩
        · exact Or.inr (Or.inl hh)
      · rintro (hh | hh | hh)
        · exact Or.inl hh.1
        · exact Or.inr hh
        · exact absurd (by simpa using hh) hg
  · intro g hh
    rcases List.mem_append.1 hh.2 with h2 | h2
    · exact i9 g ⟨((hrm g).1 hh.1).1, h2⟩
    · have : g = f := by simpa using h2
      exact ((hrm g).1 hh.1).2 this

namespace BufferPoolManager

theorem find_victim_nil (bp : BufferPoolManager) (h : bp.free_list_ = []) :
    bp.find_victim_page =
      (bp.replacer_.victim.1, { bp with replacer_ := bp.replacer_.victim.2 }) := by
  unfold find_victim_page
  split
  · rename_i a rest hh; rw [h] at hh; cases hh
  · rfl

theorem find_victim_cons (bp : BufferPoolManager) (a : Int) (rest : List Int)
    (h : bp.free_list_ = a :: rest) :
    bp.find_victim_page = (some a, { bp with free_list_ := rest }) := by
  unfold find_victim_page
  split
  · rename_i a1 rest1 hh
    rw [h] at hh
    simp only [List.cons.injEq] at hh
    obtain ⟨rfl, rfl⟩ := hh
    rfl
  · rename_i hh; rw [h] at hh; cases hh

theorem find_victim_full (bp : BufferPoolManager) (h1 : bp.free_list_ = [])
    (h2 : bp.replacer_.LRUlist_ = []) : bp.find_victim_page = (none, bp) := by
  rw [find_victim_nil bp h1, LRUReplacer.victim_none bp.replacer_ h2]

theorem find_victim_none (bp bp1 : BufferPoolManager)
    (hv : bp.find_victim_page = (none, bp1)) :
    bp1 = bp ∧ bp.free_list_ = [] ∧ bp.replacer_.LRUlist_ = [] := by
  cases hfl : bp.free_list_ with
  | cons a rest => rw [find_victim_cons bp a rest hfl] at hv; cases hv
  | nil =>
    rw [find_victim_nil bp hfl] at hv
    cases hl : bp.replacer_.LRUlist_.getLast? with
    | some x =>
      have : bp.replacer_.victim.1 = some x := by
        unfold LRUReplacer.victim; rw [hl]
      have h1 := congrArg Prod.fst hv
      simp only [] at h1
      rw [this] at h1; cases h1
    | none =>
      have hnil : bp.replacer_.LRUlist_ = [] := by simpa using hl
      have hvv := find_victim_full bp hfl hnil
      rw [find_victim_nil bp hfl] at hvv
      rw [hvv] at hv
      simp only [Prod.mk.injEq, true_and] at hv
      exact ⟨hv.symm, rfl, hnil⟩

/-- The frame that `find_victim_page` hands out: the front of the free
list when there is one, the victim of the replacer only otherwise. -/
theorem find_victim_some (bp bp1 : BufferPoolManager) (f : Int) (hinv : PoolInv bp)
    (hv : bp.find_victim_page = (some f, bp1)) :
    bp1.pool_size_ = bp.pool_size_ ∧ bp1.pages_ = bp.pages_ ∧
    bp1.page_table_ = bp.page_table_ ∧ bp1.disk_manager_ = bp.disk_manager_ ∧
    bp1.log_manager_ = bp.log_manager_ ∧ bp1.ENABLE_LSN = bp.ENABLE_LSN ∧
    0 ≤ f ∧ f < bp.pool_size_ ∧ (bp.frame f).pin_count_ = 0 ∧
    bp1.free_list_.Nodup ∧ (∀ g, g ∈ bp1.free_list_ ↔ g ∈ bp.free_list_ ∧ g ≠ f) ∧
    bp1.replacer_.LRUhash_ = bp1.replacer_.LRUlist_ ∧ bp1.replacer_.LRUlist_.Nodup ∧
    (∀ g, g ∈ bp1.replacer_.LRUlist_ ↔ g ∈ bp.replacer_.LRUlist_ ∧ g ≠ f) ∧
    ((bp.free_list_ = f :: bp1.free_list_ ∧ bp1.replacer_ = bp.replacer_) ∨
      (bp.free_list_ = [] ∧ bp1.free_list_ = [] ∧
        bp.replacer_.LRUlist_.getLast? = some f ∧ bp1.replacer_ = bp.replacer_.victim.2)) := by
  obtain ⟨i1, i2, i3, i4, i5, i6, i7, i8, i9⟩ := hinv
  unfold BufferPoolManager.inReplacer BufferPoolManager.inFreeList at i8 i9
  cases hfl : bp.free_list_ with
  | cons a rest =>
    rw [find_victim_cons bp a rest hfl] at hv
    simp only [Prod.mk.injEq, Option.some.injEq] at hv
    obtain ⟨rfl, rfl⟩ := hv
    rw [hfl] at i4
    have hmem : a ∈ bp.free_list_ := by rw [hfl]; exact List.mem_cons_self _ _
    obtain ⟨a0, a1, _⟩ := i3 a hmem
    have hnr : a ∉ bp.replacer_.LRUlist_ := fun hh => i9 a ⟨hh, hmem⟩
    have hna : a ∉ rest := (List.nodup_cons.1 i4).1
    refine ⟨rfl, rfl, rfl, rfl, rfl, rfl, a0, a1, ?_, (List.nodup_cons.1 i4).2, ?_, i6, i5, ?_,
      Or.inl ⟨rfl, rfl⟩⟩
    · exact ((i8 a a0 a1).2).2 (Or.inr hmem)
    · intro g
      show g ∈ rest ↔ g ∈ a :: rest ∧ g ≠ a
      constructor
      · intro hg
        exact ⟨List.mem_cons_of_mem _ hg, fun e => hna (e ▸ hg)⟩
      · rintro ⟨hg, hne⟩
        rcases List.mem_cons.1 hg with e | e
        · exact absurd e hne
        · exact e
    · intro g
      show g ∈ bp.replacer_.LRUlist_ ↔ g ∈ bp.replacer_.LRUlist_ ∧ g ≠ a
      exact ⟨fun hg => ⟨hg, fun e => hnr (e ▸ hg)⟩, fun hg => hg.1⟩
  | nil =>
    rw [find_victim_nil bp hfl] at hv
    have hv1 : bp.replacer_.victim.1 = some f := by
      have := congrArg Prod.fst hv
      simpa using this
    have hv2 : bp1 = { bp with replacer_ := bp.replacer_.victim.2 } := by
      have := congrArg Prod.snd hv
      simpa using this.symm
    have hl : bp.replacer_.LRUlist_.getLast? = some f := by
      unfold LRUReplacer.victim at hv1
      cases hg : bp.replacer_.LRUlist_.getLast? with
      | none => rw [hg] at hv1; cases hv1
      | some x => rw [hg] at hv1; simpa using hv1
    obtain ⟨_, v2, v3, v4, _⟩ := LRUReplacer.victim_some bp.replacer_ f i6 i5 hl
    have hmem : f ∈ bp.replacer_.LRUlist_ := List.mem_of_getLast?_eq_some hl
    obtain ⟨a0, a1⟩ := i7 f hmem
    subst hv2
    refine ⟨rfl, rfl, rfl, rfl, rfl, rfl, a0, a1, ?_, ?_, ?_, v2, v3, ?_,
      Or.inr ⟨rfl, hfl, hl, rfl⟩⟩
    · exact ((i8 f a0 a1).2).2 (Or.inl hmem)
    · show bp.free_list_.Nodup
      exact i4
    · intro g
      show g ∈ bp.free_list_ ↔ g ∈ [] ∧ g ≠ f
      rw [hfl]; simp
    · intro g
      show g ∈ bp.replacer_.victim.2.LRUlist_ ↔ _
      rw [v4, List.mem_filter]
      simp

/-- The frame `f` that `find_victim_page` handed out is given to page
`id` by `update_page` and pinned: the end of `fetch_page` for a page that
is not resident and of `new_page`. -/
theorem install_spec (bp bp1 bpA bp2 : BufferPoolManager) (f : Int) (id : PageId) (p : Page)
    (hinv : PoolInv bp) (hv : bp.find_victim_page = (some f, bp1))
    (hA1 : bpA.pool_size_ = bp1.pool_size_) (hA2 : bpA.pages_ = bp1.pages_)
    (hA3 : bpA.page_table_ = bp1.page_table_) (hA4 : bpA.free_list_ = bp1.free_list_)
    (hA5 : bpA.replacer_ = bp1.replacer_)
    (hu : bpA.update_page f id = Except.ok bp2) (hpid : p.id_ = id) (hpp : p.pin_count_ = 1) :
    PoolInv { bp2.setFrame f p with replacer_ := (bp2.setFrame f p).replacer_.pin f } ∧
    (bp2.setFrame f p).replacer_.pin f = bp1.replacer_ ∧
    bp2.free_list_ = bp1.free_list_ ∧
    (bp2.setFrame f p).frame f = p ∧
    (∀ g, g ≠ f → (bp2.setFrame f p).frame g = bp.frame g) ∧
    (∀ id1, bp2.lookup id1 =
      if id1 = (bp.frame f).id_ then none else if id1 = id then some f else bp.lookup id1) := by
  obtain ⟨v1, v2, v3, v4, v5, v6, f0, f1, fpin, v7, v8, v9, v10, v11, v12⟩ :=
    find_victim_some bp bp1 f hinv hv
  have hlenA : (f : Int) < bpA.pages_.length := by
    rw [hA2, v2, hinv.1]; exact f1
  obtain ⟨u1, u2, u3, u4, u5, u6, u7, u8, u9, u10, u11, u12⟩ :=
    update_page_spec bpA bp2 f id f0 hlenA hu
  have hfA : ∀ g, bpA.frame g = bp.frame g := fun g =>
    (frame_of_pages hA2 g).trans (frame_of_pages v2 g)
  have hlA : ∀ i, bpA.lookup i = bp.lookup i := fun i =>
    (lookup_of_table hA3 i).trans (lookup_of_table v3 i)
  have hnr : f ∉ bp1.replacer_.LRUlist_ := fun hh => ((v11 f).1 hh).2 rfl
  have hpin : (bp2.setFrame f p).replacer_.pin f = bp1.replacer_ := by
    rw [setFrame_replacer, u5, hA5]
    exact LRUReplacer.pin_not_mem _ f v9 hnr
  have hlen2 : (f : Int) < bp2.pages_.length := by rw [u3]; exact hlenA
  have hff : (bp2.setFrame f p).frame f = p := frame_setFrame_same _ _ _ f0 hlen2
  have hfg : ∀ g, g ≠ f → (bp2.setFrame f p).frame g = bp.frame g := by
    intro g hg
    rw [frame_setFrame_ne _ _ _ _ hg, u8 g hg, hfA]
  have hlk : ∀ id1, bp2.lookup id1 =
      if id1 = (bp.frame f).id_ then none else if id1 = id then some f else bp.lookup id1 := by
    intro id1; rw [u7 id1, hfA, hlA]
  refine ⟨?_, hpin, by rw [u4, hA4], hff, hfg, hlk⟩
  rw [hpin]
  apply PoolInv.acquire hinv f id
  · show (bp2.setFrame f p).pool_size_ = _
    rw [setFrame_pool_size, u2, hA1, v1]
  · show (bp2.setFrame f p).pages_.length = _
    rw [setFrame_length, u3, hA2, v2]
  · exact f0
  · exact f1
  · intro g
    show g ∈ (bp2.setFrame f p).free_list_ ↔ _
    rw [setFrame_free_list, u4, hA4]; exact v8 g
  · show (bp2.setFrame f p).free_list_.Nodup
    rw [setFrame_free_list, u4, hA4]; exact v7
  · exact v9
  · exact v10
  · exact v11
  · intro g hg
    have : BufferPoolManager.frame
        { bp2.setFrame f p with replacer_ := bp1.replacer_ } g = bp.frame g := hfg g hg
    rw [this]; exact ⟨rfl, rfl⟩
  · have : BufferPoolManager.frame
        { bp2.setFrame f p with replacer_ := bp1.replacer_ } f = p := hff
    rw [this]; exact hpid
  · have : BufferPoolManager.frame
        { bp2.setFrame f p with replacer_ := bp1.replacer_ } f = p := hff
    rw [this, hpp]
  · exact u1
  · intro id1 g hl
    have hl2 : bp2.lookup id1 = some g := by
      have : BufferPoolManager.lookup
          { bp2.setFrame f p with replacer_ := bp1.replacer_ } id1 =
          (bp2.setFrame f p).lookup id1 := rfl
      rw [this, setFrame_lookup] at hl; exact hl
    rw [hlk id1] at hl2
    by_cases h1 : id1 = (bp.frame f).id_
    · rw [if_pos h1] at hl2; cases hl2
    · rw [if_neg h1] at hl2
      by_cases h2 : id1 = id
      · rw [if_pos h2] at hl2
        simp only [Option.some.injEq] at hl2
        exact Or.inl ⟨h2, hl2.symm⟩
      · rw [if_neg h2] at hl2
        refine Or.inr ⟨?_, hl2⟩
        intro e; subst e
        exact h1 (hinv.2.1 id1 g hl2).2.2.1.symm

end BufferPoolManager

namespace BufferPoolManager

theorem fetch_page_miss (bp bp1 : BufferPoolManager) (id : PageId) (f : Int)
    (hl : bp.lookup id = none) (hv : bp.find_victim_page = (some f, bp1)) :
    bp.fetch_page id =
      match bp1.update_page f id with
      | Except.error e => Except.error e
      | Except.ok bp2 =>
        Except.ok (some f,
          { bp2.setFrame f { bp2.frame f with data_ := bp2.disk_manager_.read_page id,
                                              pin_count_ := 1 } with
            replacer_ := (bp2.setFrame f { bp2.frame f with
              data_ := bp2.disk_manager_.read_page id, pin_count_ := 1 }).replacer_.pin f }) := by
  unfold fetch_page
  rw [hl]
  simp only []
  rw [hv]

theorem fetch_page_full (bp : BufferPoolManager) (id : PageId)
    (hl : bp.lookup id = none) (h1 : bp.free_list_ = []) (h2 : bp.replacer_.LRUlist_ = []) :
    bp.fetch_page id = Except.ok (none, bp) := by
  unfold fetch_page
  rw [hl]
  simp only []
  rw [find_victim_full bp h1 h2]

theorem fetch_page_hit (bp : BufferPoolManager) (id : PageId) (f : Int)
    (hl : bp.lookup id = some f) :
    bp.fetch_page id =
      Except.ok (some f,
        { bp.setFrame f { bp.frame f with pin_count_ := (bp.frame f).pin_count_ + 1 } with
          replacer_ := (bp.setFrame f { bp.frame f with
            pin_count_ := (bp.frame f).pin_count_ + 1 }).replacer_.pin f }) := by
  unfold fetch_page
  rw [hl]

theorem fetch_page_inv (bp bp1 : BufferPoolManager) (id : PageId) (r : Option Int)
    (hinv : PoolInv bp) (h : bp.fetch_page id = Except.ok (r, bp1)) : PoolInv bp1 := by
  cases hl : bp.lookup id with
  | some f =>
    rw [fetch_page_hit bp id f hl] at h
    simp only [Except.ok.injEq, Prod.mk.injEq] at h
    obtain ⟨_, rfl⟩ := h
    obtain ⟨f0, f1, fid, fno⟩ := hinv.2.1 id f hl
    have hlen : (f : Int) < bp.pages_.length := by rw [hinv.1]; exact f1
    have hnf := hinv.table_not_free hl
    obtain ⟨p1, p2, p3, _⟩ := LRUReplacer.pin_spec bp.replacer_ f hinv.2.2.2.2.2.1
      hinv.2.2.2.2.1
    set p : Page := { bp.frame f with pin_count_ := (bp.frame f).pin_count_ + 1 } with hp
    have hrep : (bp.setFrame f p).replacer_.pin f = bp.replacer_.pin f := by
      rw [setFrame_replacer]
    rw [hrep]
    have hff : (bp.setFrame f p).frame f = p := frame_setFrame_same _ _ _ f0 hlen
    apply PoolInv.acquire hinv f id
    · show (bp.setFrame f p).pool_size_ = _
      rw [setFrame_pool_size]
    · show (bp.setFrame f p).pages_.length = _
      rw [setFrame_length]
    · exact f0
    · exact f1
    · intro g
      show g ∈ (bp.setFrame f p).free_list_ ↔ _
      rw [setFrame_free_list]
      exact ⟨fun hg => ⟨hg, fun e => hnf (e ▸ hg)⟩, fun hg => hg.1⟩
    · show (bp.setFrame f p).free_list_.Nodup
      rw [setFrame_free_list]; exact hinv.2.2.2.1
    · exact p1
    · exact p2
    · intro g
      show g ∈ (bp.replacer_.pin f).LRUlist_ ↔ _
      rw [p3, List.mem_filter]; simp
    · intro g hg
      have : BufferPoolManager.frame
          { bp.setFrame f p with replacer_ := bp.replacer_.pin f } g = bp.frame g :=
        frame_setFrame_ne _ _ _ _ hg
      rw [this]; exact ⟨rfl, rfl⟩
    · have : BufferPoolManager.frame
          { bp.setFrame f p with replacer_ := bp.replacer_.pin f } f = p := hff
      rw [this]; exact fid
    · have : BufferPoolManager.frame
          { bp.setFrame f p with replacer_ := bp.replacer_.pin f } f = p := hff
      rw [this]
      have := (hinv.2.2.2.2.2.2.2.1 f f0 f1).1
      show 1 ≤ (bp.frame f).pin_count_ + 1
      omega
    · exact fno
    · intro id1 g hg
      have hg2 : bp.lookup id1 = some g := by
        have : BufferPoolManager.lookup
            { bp.setFrame f p with replacer_ := bp.replacer_.pin f } id1 =
            (bp.setFrame f p).lookup id1 := rfl
        rw [this, setFrame_lookup] at hg; exact hg
      by_cases e : g = f
      · subst e
        have := (hinv.2.1 id1 g hg2).2.2.1
        rw [fid] at this
        exact Or.inl ⟨this.symm, rfl⟩
      · exact Or.inr ⟨e, hg2⟩
  | none =>
    cases hv : bp.find_victim_page with
    | mk v bpv =>
      cases v with
      | none =>
        obtain ⟨e1, e2, e3⟩ := find_victim_none bp bpv hv
        rw [fetch_page_full bp id hl e2 e3] at h
        simp only [Except.ok.injEq, Prod.mk.injEq] at h
        rw [← h.2]; exact hinv
      | some f =>
        rw [fetch_page_miss bp bpv id f hl hv] at h
        cases hu : bpv.update_page f id with
        | error e => rw [hu] at h; cases h
        | ok bp2 =>
          rw [hu] at h
          simp only [Except.ok.injEq, Prod.mk.injEq] at h
          rw [← h.2]
          exact (install_spec bp bpv bpv bp2 f id _ hinv hv rfl rfl rfl rfl rfl hu
            (by
              have hinv1 := hinv
              obtain ⟨v1, v2, v3, v4, v5, v6, f0, f1, _⟩ := find_victim_some bp bpv f hinv hv
              have hlenA : (f : Int) < bpv.pages_.length := by rw [v2, hinv1.1]; exact f1
              have := (update_page_spec bpv bp2 f id f0 hlenA hu).2.2.2.2.2.2.2.2.1
              show (bp2.frame f).id_ = id
              rw [this])
            rfl).1

theorem new_page_some (bp bp1 : BufferPoolManager) (fd : Int) (f : Int)
    (hv : bp.find_victim_page = (some f, bp1)) :
    bp.new_page fd =
      match BufferPoolManager.update_page
          { bp1 with disk_manager_ := (bp1.disk_manager_.allocate_page fd).2 } f
          ⟨fd, (bp1.disk_manager_.allocate_page fd).1⟩ with
      | Except.error e => Except.error e
      | Except.ok bp3 =>
        Except.ok (some (⟨fd, (bp1.disk_manager_.allocate_page fd).1⟩, f),
          { bp3.setFrame f { bp3.frame f with is_dirty_ := true, pin_count_ := 1 } with
            replacer_ := (bp3.setFrame f { bp3.frame f with
              is_dirty_ := true, pin_count_ := 1 }).replacer_.pin f }) := by
  unfold new_page
  rw [hv]

theorem new_page_full (bp : BufferPoolManager) (fd : Int)
    (h1 : bp.free_list_ = []) (h2 : bp.replacer_.LRUlist_ = []) :
    bp.new_page fd = Except.ok (none, bp) := by
  unfold new_page
  rw [find_victim_full bp h1 h2]

theorem new_page_inv (bp bp1 : BufferPoolManager) (fd : Int) (r : Option (PageId × Int))
    (hinv : PoolInv bp) (h : bp.new_page fd = Except.ok (r, bp1)) : PoolInv bp1 := by
  cases hv : bp.find_victim_page with
  | mk v bpv =>
    cases v with
    | none =>
      obtain ⟨e1, e2, e3⟩ := find_victim_none bp bpv hv
      rw [new_page_full bp fd e2 e3] at h
      simp only [Except.ok.injEq, Prod.mk.injEq] at h
      rw [← h.2]; exact hinv
    | some f =>
      rw [new_page_some bp bpv fd f hv] at h
      cases hu : BufferPoolManager.update_page
          { bpv with disk_manager_ := (bpv.disk_manager_.allocate_page fd).2 } f
          ⟨fd, (bpv.disk_manager_.allocate_page fd).1⟩ with
      | error e => rw [hu] at h; cases h
      | ok bp3 =>
        rw [hu] at h
        simp only [Except.ok.injEq, Prod.mk.injEq] at h
        rw [← h.2]
        exact (install_spec bp bpv
          { bpv with disk_manager_ := (bpv.disk_manager_.allocate_page fd).2 } bp3 f
          ⟨fd, (bpv.disk_manager_.allocate_page fd).1⟩ _ hinv hv rfl rfl rfl rfl rfl hu
          (by
            have hinv1 := hinv
            obtain ⟨v1, v2, v3, v4, v5, v6, f0, f1, _⟩ := find_victim_some bp bpv f hinv hv
            have hlenA : (f : Int) < bpv.pages_.length := by rw [v2, hinv1.1]; exact f1
            have := (update_page_spec
              { bpv with disk_manager_ := (bpv.disk_manager_.allocate_page fd).2 } bp3 f
              ⟨fd, (bpv.disk_manager_.allocate_page fd).1⟩ f0 hlenA hu).2.2.2.2.2.2.2.2.1
            show (bp3.frame f).id_ = _
            rw [this])
          rfl).1

/-- What `unpin_page` does to a resident page with a pin. -/
theorem unpin_page_pinned (bp : BufferPoolManager) (id : PageId) (m : Bool) (f : Int)
    (hl : bp.lookup id = some f) (h0 : 0 ≤ f) (h1 : f < bp.pages_.length)
    (hp : 1 ≤ (bp.frame f).pin_count_) :
    ∃ bp1, bp.unpin_page id m = Except.ok (true, bp1) ∧
      bp1.pool_size_ = bp.pool_size_ ∧ bp1.pages_.length = bp.pages_.length ∧
      bp1.page_table_ = bp.page_table_ ∧ bp1.free_list_ = bp.free_list_ ∧
      bp1.disk_manager_ = bp.disk_manager_ ∧ bp1.log_manager_ = bp.log_manager_ ∧
      bp1.ENABLE_LSN = bp.ENABLE_LSN ∧
      bp1.replacer_ = (if (bp.frame f).pin_count_ - 1 = 0 then bp.replacer_.unpin f
        else bp.replacer_) ∧
      bp1.frame f = { bp.frame f with pin_count_ := (bp.frame f).pin_count_ - 1,
                                      is_dirty_ := ((bp.frame f).is_dirty_ || m) } ∧
      ∀ g, g ≠ f → bp1.frame g = bp.frame g := by
  unfold unpin_page
  rw [hl]
  simp only []
  rw [if_neg (by omega), if_pos (by omega)]
  refine ⟨_, rfl, ?_⟩
  by_cases hz : (bp.frame f).pin_count_ - 1 = 0
  · rw [if_pos hz, if_pos hz]
    cases m with
    | false =>
      simp only [Bool.false_eq_true, if_false, Bool.or_false]
      refine ⟨by simp, by simp, by simp, by simp, by simp, by simp, by simp, by simp, ?_, ?_⟩
      · exact frame_setFrame_same _ _ _ h0 h1
      · intro g hg; exact frame_setFrame_ne _ _ _ _ hg
    | true =>
      simp only [if_true, Bool.or_true]
      refine ⟨by simp, by simp, by simp, by simp, by simp, by simp, by simp, by simp, ?_, ?_⟩
      · exact frame_setFrame_same _ _ _ h0 (by simpa using h1)
      · intro g hg
        rw [frame_setFrame_ne _ _ _ _ hg]
        exact frame_setFrame_ne _ _ _ _ hg
  · rw [if_neg hz, if_neg hz]
    cases m with
    | false =>
      simp only [Bool.false_eq_true, if_false, Bool.or_false]
      refine ⟨by simp, by simp, by simp, by simp, by simp, by simp, by simp, by simp, ?_, ?_⟩
      · exact frame_setFrame_same _ _ _ h0 h1
      · intro g hg; exact frame_setFrame_ne _ _ _ _ hg
    | true =>
      simp only [if_true, Bool.or_true]
      refine ⟨by simp, by simp, by simp, by simp, by simp, by simp, by simp, by simp, ?_, ?_⟩
      · exact frame_setFrame_same _ _ _ h0 (by simpa using h1)
      · intro g hg
        rw [frame_setFrame_ne _ _ _ _ hg]
        exact frame_setFrame_ne _ _ _ _ hg

theorem unpin_page_absent (bp : BufferPoolManager) (id : PageId) (m : Bool)
    (hl : bp.lookup id = none) : bp.unpin_page id m = Except.ok (false, bp) := by
  unfold unpin_page
  rw [hl]

theorem unpin_page_zero (bp : BufferPoolManager) (id : PageId) (m : Bool) (f : Int)
    (hl : bp.lookup id = some f) (hp : (bp.frame f).pin_count_ = 0) :
    bp.unpin_page id m = Except.ok (false, bp) := by
  unfold unpin_page
  rw [hl]
  simp only []
  rw [if_pos hp]

theorem unpin_page_inv (bp bp1 : BufferPoolManager) (id : PageId) (m r : Bool)
    (hinv : PoolInv bp) (h : bp.unpin_page id m = Except.ok (r, bp1)) : PoolInv bp1 := by
  cases hl : bp.lookup id with
  | none =>
    rw [unpin_page_absent bp id m hl] at h
    simp only [Except.ok.injEq, Prod.mk.injEq] at h
    rw [← h.2]; exact hinv
  | some f =>
    obtain ⟨f0, f1, fid, fno⟩ := hinv.2.1 id f hl
    have hlen : (f : Int) < bp.pages_.length := by rw [hinv.1]; exact f1
    obtain ⟨p0, p1⟩ := hinv.2.2.2.2.2.2.2.1 f f0 f1
    by_cases hz : (bp.frame f).pin_count_ = 0
    · rw [unpin_page_zero bp id m f hl hz] at h
      simp only [Except.ok.injEq, Prod.mk.injEq] at h
      rw [← h.2]; exact hinv
    · obtain ⟨bp2, e, a1, a2, a3, a4, _, _, _, a5, a6, a7⟩ :=
        unpin_page_pinned bp id m f hl f0 hlen (by omega)
      rw [e] at h
      simp only [Except.ok.injEq, Prod.mk.injEq] at h
      rw [← h.2]
      have hnf := hinv.table_not_free hl
      have hnr : f ∉ bp.replacer_.LRUlist_ := fun hh => hz (p1.2 (Or.inl hh))
      by_cases hz1 : (bp.frame f).pin_count_ - 1 = 0
      · rw [if_pos hz1] at a5
        obtain ⟨u1, u2, u3⟩ := LRUReplacer.unpin_spec bp.replacer_ f hinv.2.2.2.2.2.1
          hinv.2.2.2.2.1
        rw [if_neg hnr] at u3
        apply PoolInv.release hinv f a1 a2 f0 f1 hnf a3 a4
        · rw [a5]; exact u1
        · rw [a5]; exact u2
        · intro g; rw [a5, u3, List.mem_cons]; tauto
        · intro g
          by_cases hg : g = f
          · subst hg; rw [a6]
          · rw [a7 g hg]
        · intro g hg; rw [a7 g hg]
        · rw [a6]; exact hz1
      · rw [if_neg hz1] at a5
        apply PoolInv.acquire hinv f id a1 a2 f0 f1
        · intro g; rw [a4]
          exact ⟨fun hg => ⟨hg, fun e => hnf (e ▸ hg)⟩, fun hg => hg.1⟩
        · rw [a4]; exact hinv.2.2.2.1
        · rw [a5]; exact hinv.2.2.2.2.2.1
        · rw [a5]; exact hinv.2.2.2.2.1
        · intro g; rw [a5]
          exact ⟨fun hg => ⟨hg, fun e => hnr (e ▸ hg)⟩, fun hg => hg.1⟩
        · intro g hg; rw [a7 g hg]; exact ⟨rfl, rfl⟩
        · rw [a6]; exact fid
        · rw [a6]; show 1 ≤ (bp.frame f).pin_count_ - 1; omega
        · exact fno
        · intro id1 g hg
          rw [lookup_of_table a3] at hg
          by_cases e : g = f
          · subst e
            have := (hinv.2.1 id1 g hg).2.2.1
            rw [fid] at this
            exact Or.inl ⟨this.symm, rfl⟩
          · exact Or.inr ⟨e, hg⟩

end BufferPoolManager

namespace BufferPoolManager

/-- A write-back followed by clearing the dirty flag of a frame, as
`flush_page` and `flush_all_pages` do it. -/
theorem flush_step_spec (bp bp1 : BufferPoolManager) (page : Page) (id : PageId) (f : Int)
    (h : bp.write_back page id = Except.ok bp1) :
    (bp1.setFrame f { bp1.frame f with is_dirty_ := false }).pool_size_ = bp.pool_size_ ∧
    (bp1.setFrame f { bp1.frame f with is_dirty_ := false }).pages_.length = bp.pages_.length ∧
    (bp1.setFrame f { bp1.frame f with is_dirty_ := false }).page_table_ = bp.page_table_ ∧
    (bp1.setFrame f { bp1.frame f with is_dirty_ := false }).free_list_ = bp.free_list_ ∧
    (bp1.setFrame f { bp1.frame f with is_dirty_ := false }).replacer_ = bp.replacer_ ∧
    (∀ g, ((bp1.setFrame f { bp1.frame f with is_dirty_ := false }).frame g).id_ =
        (bp.frame g).id_ ∧
      ((bp1.setFrame f { bp1.frame f with is_dirty_ := false }).frame g).pin_count_ =
        (bp.frame g).pin_count_ ∧
      ((bp1.setFrame f { bp1.frame f with is_dirty_ := false }).frame g).data_ =
        (bp.frame g).data_ ∧
      ((bp1.setFrame f { bp1.frame f with is_dirty_ := false }).frame g).page_lsn =
        (bp.frame g).page_lsn) := by
  obtain ⟨w1, w2, w3, w4, w5, _⟩ := write_back_spec bp bp1 page id h
  refine ⟨by simp [w1], by simp [w2], by simp [w3], by simp [w4], by simp [w5], ?_⟩
  intro g
  rw [frame_setFrame]
  have e : bp1.frame g = bp.frame g := frame_of_pages w2 g
  split
  · rename_i hh
    obtain ⟨rfl, _, _⟩ := hh
    rw [← e]
    exact ⟨rfl, rfl, rfl, rfl⟩
  · rw [e]; exact ⟨rfl, rfl, rfl, rfl⟩

theorem flush_page_inv (bp bp1 : BufferPoolManager) (id : PageId) (r : Bool)
    (hinv : PoolInv bp) (h : bp.flush_page id = Except.ok (r, bp1)) : PoolInv bp1 := by
  unfold flush_page at h
  cases hl : bp.lookup id with
  | none =>
    rw [hl] at h
    simp only [Except.ok.injEq, Prod.mk.injEq] at h
    rw [← h.2]; exact hinv
  | some f =>
    rw [hl] at h
    simp only [] at h
    split at h
    · cases h
    · cases hw : bp.write_back (bp.frame f) id with
      | error e => rw [hw] at h; cases h
      | ok bp2 =>
        rw [hw] at h
        simp only [Except.ok.injEq, Prod.mk.injEq] at h
        rw [← h.2]
        obtain ⟨a1, a2, a3, a4, a5, a6⟩ := flush_step_spec bp bp2 _ id f hw
        exact hinv.same a1 a2 a3 a4 a5 (fun g => ⟨(a6 g).1, (a6 g).2.1⟩)

theorem flush_frame_inv (fd : Int) (bp bp1 : BufferPoolManager) (i : Nat)
    (hinv : PoolInv bp) (h : flush_frame fd bp i = Except.ok bp1) : PoolInv bp1 := by
  unfold flush_frame at h
  simp only [] at h
  split at h
  · cases hw : bp.write_back (bp.frame i) (bp.frame i).id_ with
    | error e => rw [hw] at h; cases h
    | ok bp2 =>
      rw [hw] at h
      simp only [Except.ok.injEq] at h
      rw [← h]
      obtain ⟨a1, a2, a3, a4, a5, a6⟩ := flush_step_spec bp bp2 _ _ i hw
      exact hinv.same a1 a2 a3 a4 a5 (fun g => ⟨(a6 g).1, (a6 g).2.1⟩)
  · simp only [Except.ok.injEq] at h
    rw [← h]; exact hinv

theorem flush_loop_inv (fd : Int) (l : List Nat) :
    ∀ (bp bp1 : BufferPoolManager), PoolInv bp → flush_loop fd l bp = Except.ok bp1 →
      PoolInv bp1 := by
  induction l with
  | nil =>
    intro bp bp1 hinv h
    simp only [flush_loop, Except.ok.injEq] at h
    rw [← h]; exact hinv
  | cons i rest ih =>
    intro bp bp1 hinv h
    simp only [flush_loop] at h
    cases hf : flush_frame fd bp i with
    | error e => rw [hf] at h; cases h
    | ok bp2 =>
      rw [hf] at h
      exact ih bp2 bp1 (flush_frame_inv fd bp bp2 i hinv hf) h

theorem flush_all_pages_inv (bp bp1 : BufferPoolManager) (fd : Int)
    (hinv : PoolInv bp) (h : bp.flush_all_pages fd = Except.ok bp1) : PoolInv bp1 :=
  flush_loop_inv fd _ bp bp1 hinv h

theorem delete_page_absent (bp : BufferPoolManager) (id : PageId)
    (hl : bp.lookup id = none) : bp.delete_page id = Except.ok (true, bp) := by
  unfold delete_page
  rw [hl]

theorem delete_page_pinned (bp : BufferPoolManager) (id : PageId) (f : Int)
    (hl : bp.lookup id = some f) (hp : 0 < (bp.frame f).pin_count_) :
    bp.delete_page id = Except.ok (false, bp) := by
  unfold delete_page
  rw [hl]
  simp only []
  rw [if_pos hp]

theorem delete_page_zero (bp : BufferPoolManager) (id : PageId) (f : Int)
    (hl : bp.lookup id = some f) (hp : (bp.frame f).pin_count_ = 0) :
    bp.delete_page id =
      (let p : Page := ⟨⟨(bp.frame f).id_.fd, INVALID_PAGE_ID⟩, List.replicate PAGE_SIZE 0, false,
        (bp.frame f).pin_count_, INVALID_LSN⟩
       let bp1 := bp.setFrame f p
       Except.ok (true, ⟨bp1.pool_size_, bp1.pages_, tableErase bp1.page_table_ id,
        bp1.free_list_ ++ [f], bp1.replacer_.pin f, bp1.disk_manager_, bp1.log_manager_,
        bp1.ENABLE_LSN⟩)) := by
  unfold delete_page
  rw [hl]
  simp only []
  rw [if_neg (by omega), if_neg (by simp [hp])]

theorem delete_page_inv (bp bp1 : BufferPoolManager) (id : PageId) (r : Bool)
    (hinv : PoolInv bp) (h : bp.delete_page id = Except.ok (r, bp1)) : PoolInv bp1 := by
  cases hl : bp.lookup id with
  | none =>
    rw [delete_page_absent bp id hl] at h
    simp only [Except.ok.injEq, Prod.mk.injEq] at h
    rw [← h.2]; exact hinv
  | some f =>
    obtain ⟨f0, f1, fid, fno⟩ := hinv.2.1 id f hl
    have hlen : (f : Int) < bp.pages_.length := by rw [hinv.1]; exact f1
    obtain ⟨p0, p1⟩ := hinv.2.2.2.2.2.2.2.1 f f0 f1
    by_cases hz : (bp.frame f).pin_count_ = 0
    · rw [delete_page_zero bp id f hl hz] at h
      simp only [Except.ok.injEq, Prod.mk.injEq] at h
      rw [← h.2]
      obtain ⟨q1, q2, q3, _⟩ := LRUReplacer.pin_spec bp.replacer_ f hinv.2.2.2.2.2.1
        hinv.2.2.2.2.1
      set p : Page := ⟨⟨(bp.frame f).id_.fd, INVALID_PAGE_ID⟩, List.replicate PAGE_SIZE 0, false,
        (bp.frame f).pin_count_, INVALID_LSN⟩ with hp
      have hfr : ∀ g, BufferPoolManager.frame
          ⟨(bp.setFrame f p).pool_size_, (bp.setFrame f p).pages_,
            tableErase (bp.setFrame f p).page_table_ id, (bp.setFrame f p).free_list_ ++ [f],
            (bp.setFrame f p).replacer_.pin f, (bp.setFrame f p).disk_manager_,
            (bp.setFrame f p).log_manager_, (bp.setFrame f p).ENABLE_LSN⟩ g =
          (bp.setFrame f p).frame g := fun g => rfl
      apply PoolInv.discard hinv f id hl
      · show (bp.setFrame f p).pool_size_ = _
        rw [setFrame_pool_size]
      · show (bp.setFrame f p).pages_.length = _
        rw [setFrame_length]
      · intro id1
        show ((tableErase (bp.setFrame f p).page_table_ id).find?
          (fun e => decide (e.1 = id1))).map (fun e => e.2) = _
        rw [lookup_erase, setFrame_page_table]
        rfl
      · show (bp.setFrame f p).free_list_ ++ [f] = _
        rw [setFrame_free_list]
      · show ((bp.setFrame f p).replacer_.pin f).LRUhash_ = _
        rw [setFrame_replacer]; exact q1
      · show ((bp.setFrame f p).replacer_.pin f).LRUlist_.Nodup
        rw [setFrame_replacer]; exact q2
      · intro g
        show g ∈ ((bp.setFrame f p).replacer_.pin f).LRUlist_ ↔ _
        rw [setFrame_replacer, q3, List.mem_filter]; simp
      · intro g hg
        rw [hfr g, frame_setFrame_ne _ _ _ _ hg]
      · intro g
        rw [hfr g, frame_setFrame]
        split
        · rename_i hh; rw [hh.1]
        · rfl
      · rw [hfr f, frame_setFrame_same _ _ _ f0 hlen]
      · exact hz
    · rw [delete_page_pinned bp id f hl (by omega)] at h
      simp only [Except.ok.injEq, Prod.mk.injEq] at h
      rw [← h.2]; exact hinv

end BufferPoolManager

theorem PoolInv.of_create_pool (pool_size : Nat) (disk_manager : DiskManager)
    (log_manager : LogManager) (enable_lsn : Bool) :
    PoolInv (BufferPoolManager.create pool_size disk_manager log_manager enable_lsn) := by
  have hfr : ∀ f : Int,
      (BufferPoolManager.create pool_size disk_manager log_manager enable_lsn).frame f =
        Page.fresh := by
    intro f
    unfold BufferPoolManager.frame BufferPoolManager.create
    split
    · rfl
    · simp only [List.getD_eq_getElem?_getD]
      rw [List.getElem?_replicate]
      split <;> rfl
  have hmem : ∀ f : Int, f ∈ (List.range pool_size).map (fun (i : Nat) => (i : Int)) ↔
      0 ≤ f ∧ f < pool_size := by
    intro f
    rw [List.mem_map]
    constructor
    · rintro ⟨i, hi, rfl⟩
      rw [List.mem_range] at hi
      omega
    · rintro ⟨h0, h1⟩
      exact ⟨f.toNat, List.mem_range.2 (by omega), by omega⟩
  unfold PoolInv BufferPoolManager.inReplacer BufferPoolManager.inFreeList
  refine ⟨by simp [BufferPoolManager.create], ?_, ?_, ?_, ?_, rfl, ?_, ?_, ?_⟩
  · intro id f hl
    simp [BufferPoolManager.lookup, BufferPoolManager.create] at hl
  · intro f hf
    have := (hmem f).1 hf
    exact ⟨this.1, this.2, by rw [hfr f]; rfl⟩
  · show ((List.range pool_size).map (fun (i : Nat) => (i : Int))).Nodup
    exact (List.nodup_range pool_size).map (fun a b hab => by simpa using hab)
  · exact List.nodup_nil
  · intro f hf
    simp [BufferPoolManager.create, LRUReplacer.create] at hf
  · intro f h0 h1
    rw [hfr f]
    refine ⟨le_refl _, fun _ => Or.inr ((hmem f).2 ⟨h0, h1⟩), fun _ => rfl⟩
  · rintro f ⟨h1, _⟩
    simp [BufferPoolManager.create, LRUReplacer.create] at h1

/-- Every pool that the calls make of the initial pool satisfies the
invariant. -/
theorem PoolReachable.pool_inv {bp : BufferPoolManager} (h : PoolReachable bp) : PoolInv bp := by
  induction h with
  | init n d l e => exact PoolInv.of_create_pool n d l e
  | call bp bp1 c _ hrun ih =>
    cases c with
    | fetch_page id =>
      simp only [BufferPoolCall.run] at hrun
      cases hr : bp.fetch_page id with
      | error e => rw [hr] at hrun; cases hrun
      | ok v =>
        rw [hr] at hrun
        simp only [Except.map, Except.ok.injEq] at hrun
        subst hrun
        exact BufferPoolManager.fetch_page_inv bp v.2 id v.1 ih hr
    | new_page fd =>
      simp only [BufferPoolCall.run] at hrun
      cases hr : bp.new_page fd with
      | error e => rw [hr] at hrun; cases hrun
      | ok v =>
        rw [hr] at hrun
        simp only [Except.map, Except.ok.injEq] at hrun
        subst hrun
        exact BufferPoolManager.new_page_inv bp v.2 fd v.1 ih hr
    | unpin_page id d =>
      simp only [BufferPoolCall.run] at hrun
      cases hr : bp.unpin_page id d with
      | error e => rw [hr] at hrun; cases hrun
      | ok v =>
        rw [hr] at hrun
        simp only [Except.map, Except.ok.injEq] at hrun
        subst hrun
        exact BufferPoolManager.unpin_page_inv bp v.2 id d v.1 ih hr
    | flush_page id =>
      simp only [BufferPoolCall.run] at hrun
      cases hr : bp.flush_page id with
      | error e => rw [hr] at hrun; cases hrun
      | ok v =>
        rw [hr] at hrun
        simp only [Except.map, Except.ok.injEq] at hrun
        subst hrun
        exact BufferPoolManager.flush_page_inv bp v.2 id v.1 ih hr
    | flush_all_pages fd =>
      simp only [BufferPoolCall.run] at hrun
      exact BufferPoolManager.flush_all_pages_inv bp bp1 fd ih hrun
    | delete_page id =>
      simp only [BufferPoolCall.run] at hrun
      cases hr : bp.delete_page id with
      | error e => rw [hr] at hrun; cases hrun
      | ok v =>
        rw [hr] at hrun
        simp only [Except.map, Except.ok.injEq] at hrun
        subst hrun
        exact BufferPoolManager.delete_page_inv bp v.2 id v.1 ih hr
  | client bp f data dirty lsn _ ih =>
    apply ih.same (by simp) (by simp) (by simp) (by simp) (by simp)
    intro g
    rw [BufferPoolManager.frame_setFrame]
    split
    · rename_i hh; rw [hh.1]; exact ⟨rfl, rfl⟩
    · exact ⟨rfl, rfl⟩
  | log bp l _ ih =>
    exact ih.same rfl rfl rfl rfl rfl (fun g => ⟨rfl, rfl⟩)

theorem PoolReachable.runPoolCalls (cs : List BufferPoolCall) :
    ∀ (bp bp1 : BufferPoolManager), PoolReachable bp → runPoolCalls cs bp = Except.ok bp1 →
      PoolReachable bp1 := by
  induction cs with
  | nil =>
    intro bp bp1 h hr
    simp only [RMDB.runPoolCalls, Except.ok.injEq] at hr
    rw [← hr]; exact h
  | cons c rest ih =>
    intro bp bp1 h hr
    simp only [RMDB.runPoolCalls] at hr
    cases hc : c.run bp with
    | error e => rw [hc] at hr; cases hr
    | ok bp2 =>
      rw [hc] at hr
      exact ih bp2 bp1 (PoolReachable.call bp bp2 c h hc) hr

theorem PoolReachable.poolAfter (cs : List BufferPoolCall) (bp : BufferPoolManager)
    (h : PoolReachable bp) : PoolReachable (poolAfter cs bp) := by
  unfold RMDB.poolAfter
  cases hr : RMDB.runPoolCalls cs bp with
  | error e => exact h
  | ok bp1 => exact PoolReachable.runPoolCalls cs bp bp1 h hr

theorem examplePool_reachable : PoolReachable examplePool :=
  PoolReachable.init _ _ _ _

theorem examplePoolOne_reachable : PoolReachable examplePoolOne :=
  PoolReachable.poolAfter _ _ examplePool_reachable

theorem examplePoolFull_reachable : PoolReachable examplePoolFull :=
  PoolReachable.poolAfter _ _ examplePool_reachable

theorem examplePoolDirty_reachable : PoolReachable examplePoolDirty :=
  PoolReachable.client _ _ _ _ _ examplePoolOne_reachable

/-- C12: in every pool that calls of `fetch_page`, `new_page`,
`unpin_page`, `flush_page`, `flush_all_pages` and `delete_page` make of the
initial pool, a frame has pin count 0 exactly when it is in the replacer or
in the free list, no frame is in both, a frame with a pin is in neither, no
pin count is negative, and the replacer and the free list hold frames of
the pool only. -/
theorem pool_pin_zero_iff_evictable (bp : BufferPoolManager) (h : PoolReachable bp) :
    (∀ f : Int, 0 ≤ f → f < bp.pool_size_ →
      ((bp.frame f).pin_count_ = 0 ↔ (bp.inReplacer f ∨ bp.inFreeList f)) ∧
      (1 ≤ (bp.frame f).pin_count_ → ¬ bp.inReplacer f ∧ ¬ bp.inFreeList f) ∧
      0 ≤ (bp.frame f).pin_count_) ∧
    (∀ f : Int, ¬ (bp.inReplacer f ∧ bp.inFreeList f)) ∧
    (∀ f : Int, bp.inReplacer f ∨ bp.inFreeList f → 0 ≤ f ∧ f < bp.pool_size_) := by
  obtain ⟨i1, i2, i3, i4, i5, i6, i7, i8, i9⟩ := h.pool_inv
  refine ⟨?_, i9, ?_⟩
  · intro f h0 h1
    obtain ⟨p0, p1⟩ := i8 f h0 h1
    refine ⟨p1, ?_, p0⟩
    intro hp
    have hne : ¬ (bp.frame f).pin_count_ = 0 := by omega
    exact ⟨fun hh => hne (p1.2 (Or.inl hh)), fun hh => hne (p1.2 (Or.inr hh))⟩
  · rintro f (hh | hh)
    · exact i7 f hh
    · exact ⟨(i3 f hh).1, (i3 f hh).2.1⟩

theorem pool_pin_zero_iff_evictable_witness :
    (examplePoolOne.frame 0).pin_count_ = 1 ∧ ¬ examplePoolOne.inReplacer 0 ∧
      ¬ examplePoolOne.inFreeList 0 ∧ examplePoolOne.inFreeList 1 :=
  ⟨by decide,
    ((pool_pin_zero_iff_evictable examplePoolOne examplePoolOne_reachable).1 0
      (by decide) (by decide)).2.1 (by decide) |>.1,
    ((pool_pin_zero_iff_evictable examplePoolOne examplePoolOne_reachable).1 0
      (by decide) (by decide)).2.1 (by decide) |>.2,
    by show (1 : Int) ∈ examplePoolOne.free_list_; decide⟩

theorem find_victim_exists (bp : BufferPoolManager) (hinv : PoolInv bp)
    (h : bp.free_list_ ≠ [] ∨
      ∃ f : Int, 0 ≤ f ∧ f < bp.pool_size_ ∧ (bp.frame f).pin_count_ = 0) :
    ∃ f bp1, bp.find_victim_page = (some f, bp1) := by
  cases hv : bp.find_victim_page with
  | mk v bpv =>
    cases v with
    | some f => exact ⟨f, bpv, rfl⟩
    | none =>
      exfalso
      obtain ⟨_, e2, e3⟩ := BufferPoolManager.find_victim_none bp bpv hv
      rcases h with h | ⟨f, h0, h1, hp⟩
      · exact h e2
      · have := (hinv.2.2.2.2.2.2.2.1 f h0 h1).2.1 hp
        unfold BufferPoolManager.inReplacer BufferPoolManager.inFreeList at this
        rw [e2, e3] at this
        simp at this

/-- C13: `fetch_page` of a page that is not resident.  When the free list
is empty and every frame has a pin, it returns null and the pool is as it
was, and it returns null in no other state; when it returns a frame, that
frame is the front of the free list if the free list is not empty, and the
victim of the replacer (the least recently entered frame) only when the
free list is empty; the frame had no pin, now holds the page with pin count
1, clean, and every other frame is as it was.  It does return a frame when
a frame is free or unpinned, the page number is valid and no log flush is
asked for in a build without `ENABLE_LSN`; a failure is a failed
assertion. -/
theorem fetch_page_frame_choice (bp : BufferPoolManager) (h : PoolReachable bp)
    (id : PageId) (hl : bp.lookup id = none) :
    ((bp.free_list_ = [] ∧
        ∀ f : Int, 0 ≤ f → f < bp.pool_size_ → 1 ≤ (bp.frame f).pin_count_) →
      bp.fetch_page id = Except.ok (none, bp)) ∧
    (∀ bp1, bp.fetch_page id = Except.ok (none, bp1) →
      bp1 = bp ∧ bp.free_list_ = [] ∧
        ∀ f : Int, 0 ≤ f → f < bp.pool_size_ → 1 ≤ (bp.frame f).pin_count_) ∧
    (∀ f bp1, bp.fetch_page id = Except.ok (some f, bp1) →
      (bp.free_list_ ≠ [] →
        bp.free_list_ = f :: bp1.free_list_ ∧ bp1.replacer_ = bp.replacer_) ∧
      (bp.free_list_ = [] →
        bp.replacer_.LRUlist_.getLast? = some f ∧ bp1.free_list_ = [] ∧
        f ∉ bp1.replacer_.LRUlist_ ∧
        ∀ g, g ≠ f → (g ∈ bp1.replacer_.LRUlist_ ↔ g ∈ bp.replacer_.LRUlist_)) ∧
      (bp.frame f).pin_count_ = 0 ∧
      bp1.frame f = ⟨id, bp1.disk_manager_.read_page id, false, 1, INVALID_LSN⟩ ∧
      (∀ g, g ≠ f → bp1.frame g = bp.frame g) ∧
      ((bp.frame f).id_ ≠ id → bp1.lookup id = some f)) ∧
    (id.page_no ≠ INVALID_PAGE_ID →
      (bp.ENABLE_LSN = true ∨ ∀ f : Int, (bp.frame f).is_dirty_ = true →
        (bp.frame f).page_lsn ≤ bp.log_manager_.persist_lsn_) →
      (bp.free_list_ ≠ [] ∨
        ∃ f : Int, 0 ≤ f ∧ f < bp.pool_size_ ∧ (bp.frame f).pin_count_ = 0) →
      ∃ f bp1, bp.fetch_page id = Except.ok (some f, bp1)) ∧
    (∀ e, bp.fetch_page id = Except.error e → e = DbError.AssertionFailed) := by
  have hinv := h.pool_inv
  have hfull : bp.free_list_ = [] →
      (∀ f : Int, 0 ≤ f → f < bp.pool_size_ → 1 ≤ (bp.frame f).pin_count_) →
      bp.replacer_.LRUlist_ = [] := by
    intro _ hp
    cases hr : bp.replacer_.LRUlist_ with
    | nil => rfl
    | cons a t =>
      exfalso
      have hm : a ∈ bp.replacer_.LRUlist_ := by rw [hr]; exact List.mem_cons_self _ _
      obtain ⟨a0, a1⟩ := hinv.2.2.2.2.2.2.1 a hm
      have := (hinv.2.2.2.2.2.2.2.1 a a0 a1).2.2 (Or.inl hm)
      have := hp a a0 a1
      omega
  refine ⟨?_, ?_, ?_, ?_, ?_⟩
  · rintro ⟨h1, h2⟩
    exact BufferPoolManager.fetch_page_full bp id hl h1 (hfull h1 h2)
  · intro bp1 hf
    cases hv : bp.find_victim_page with
    | mk v bpv =>
      cases v with
      | some f =>
        rw [BufferPoolManager.fetch_page_miss bp bpv id f hl hv] at hf
        cases hu : bpv.update_page f id with
        | error e => rw [hu] at hf; cases hf
        | ok bp2 => rw [hu] at hf; cases hf
      | none =>
        obtain ⟨_, e2, e3⟩ := BufferPoolManager.find_victim_none bp bpv hv
        rw [BufferPoolManager.fetch_page_full bp id hl e2 e3] at hf
        simp only [Except.ok.injEq, Prod.mk.injEq, true_and] at hf
        refine ⟨hf.symm, e2, ?_⟩
        intro f h0 h1
        obtain ⟨p0, p1⟩ := hinv.2.2.2.2.2.2.2.1 f h0 h1
        by_contra hc
        have hz : (bp.frame f).pin_count_ = 0 := by omega
        have := p1.1 hz
        unfold BufferPoolManager.inReplacer BufferPoolManager.inFreeList at this
        rw [e2, e3] at this
        simp at this
  · intro f bp1 hf
    cases hv : bp.find_victim_page with
    | mk v bpv =>
      cases v with
      | none =>
        obtain ⟨_, e2, e3⟩ := BufferPoolManager.find_victim_none bp bpv hv
        rw [BufferPoolManager.fetch_page_full bp id hl e2 e3] at hf
        cases hf
      | some f1 =>
        rw [BufferPoolManager.fetch_page_miss bp bpv id f1 hl hv] at hf
        cases hu : bpv.update_page f1 id with
        | error e => rw [hu] at hf; cases hf
        | ok bp2 =>
          rw [hu] at hf
          simp only [Except.ok.injEq, Prod.mk.injEq, Option.some.injEq] at hf
          obtain ⟨rfl, rfl⟩ := hf
          obtain ⟨v1, v2, v3, v4, v5, v6, f0, f1', fpin, v7, v8, v9, v10, v11, v12⟩ :=
            BufferPoolManager.find_victim_some bp bpv f1 hinv hv
          have hlenA : (f1 : Int) < bpv.pages_.length := by rw [v2, hinv.1]; exact f1'
          obtain ⟨u1, u2, u3, u4, u5, u6, u7, u8, u9, u10, u11, u12⟩ :=
            BufferPoolManager.update_page_spec bpv bp2 f1 id f0 hlenA hu
          obtain ⟨s1, s2, s3, s4, s5, s6⟩ :=
            BufferPoolManager.install_spec bp bpv bpv bp2 f1 id
              { bp2.frame f1 with data_ := bp2.disk_manager_.read_page id, pin_count_ := 1 }
              hinv hv rfl rfl rfl rfl rfl hu (by show (bp2.frame f1).id_ = id; rw [u9]) rfl
          refine ⟨?_, ?_, fpin, ?_, ?_, ?_⟩
          · intro hne
            rcases v12 with ⟨a, b⟩ | ⟨a, _⟩
            · refine ⟨?_, ?_⟩
              · show bp.free_list_ = f1 :: (bp2.setFrame f1 _).free_list_
                rw [BufferPoolManager.setFrame_free_list, s3]; exact a
              · show (bp2.setFrame f1 _).replacer_.pin f1 = bp.replacer_
                rw [s2, b]
            · exact absurd a hne
          · intro hnil
            rcases v12 with ⟨a, _⟩ | ⟨_, b, c, d⟩
            · rw [hnil] at a; cases a
            · refine ⟨c, ?_, ?_, ?_⟩
              · show (bp2.setFrame f1 _).free_list_ = []
                rw [BufferPoolManager.setFrame_free_list, s3]; exact b
              · show f1 ∉ ((bp2.setFrame f1 _).replacer_.pin f1).LRUlist_
                rw [s2]
                exact fun hh => ((v11 f1).1 hh).2 rfl
              · intro g hg
                show g ∈ ((bp2.setFrame f1 _).replacer_.pin f1).LRUlist_ ↔ _
                rw [s2, v11 g]
                exact ⟨fun hh => hh.1, fun hh => ⟨hh, hg⟩⟩
          · show (bp2.setFrame f1 _).frame f1 =
              ⟨id, (bp2.setFrame f1 _).disk_manager_.read_page id, false, 1, INVALID_LSN⟩
            rw [BufferPoolManager.setFrame_disk_manager, s4, u9]
          · intro g hg
            exact s5 g hg
          · intro hne
            show (bp2.setFrame f1 _).lookup id = some f1
            rw [BufferPoolManager.setFrame_lookup, s6 id, if_neg (fun e => hne e.symm),
              if_pos rfl]
  · intro hid henable hfree
    obtain ⟨f, bp1, hv⟩ := find_victim_exists bp hinv hfree
    obtain ⟨v1, v2, v3, v4, v5, v6, _⟩ :=
      BufferPoolManager.find_victim_some bp bp1 f hinv hv
    have hfr : bp1.frame f = bp.frame f := BufferPoolManager.frame_of_pages v2 f
    obtain ⟨bp2, hu⟩ := BufferPoolManager.update_page_ok bp1 f id hid (by
      intro hd
      rw [v5, v6, hfr] at *
      rcases henable with he | he
      · exact Or.inr he
      · exact Or.inl (he f hd))
    rw [BufferPoolManager.fetch_page_miss bp bp1 id f hl hv, hu]
    exact ⟨f, _, rfl⟩
  · intro e he
    cases hv : bp.find_victim_page with
    | mk v bpv =>
      cases v with
      | none =>
        obtain ⟨_, e2, e3⟩ := BufferPoolManager.find_victim_none bp bpv hv
        rw [BufferPoolManager.fetch_page_full bp id hl e2 e3] at he
        cases he
      | some f1 =>
        rw [BufferPoolManager.fetch_page_miss bp bpv id f1 hl hv] at he
        cases hu : bpv.update_page f1 id with
        | error e1 =>
          rw [hu] at he
          simp only [Except.error.injEq] at he
          rw [← he]
          exact BufferPoolManager.update_page_error bpv f1 id e1 hu
        | ok bp2 => rw [hu] at he; cases he

theorem fetch_page_frame_choice_witness :
    examplePoolFull.fetch_page ⟨3, 2⟩ = Except.ok (none, examplePoolFull) :=
  (fetch_page_frame_choice examplePoolFull examplePoolFull_reachable ⟨3, 2⟩ (by decide)).1
    ⟨by decide, by
      intro f h0 h1
      have h2 : f < 2 := h1
      interval_cases f <;> decide⟩

/-- C14: `unpin_page(id, m)` in a pool that calls made of the initial pool.
For a resident page whose frame has pin count `p >= 1` it returns true, the
pin count becomes `p - 1`, the dirty flag becomes the old flag or `m`, the
frame is in the replacer afterwards exactly when `p - 1 = 0`, and the page
id, the bytes and the page LSN of the frame, every other frame, the page
table, the free list and the other replacer entries are as they were.  For
a page that is not resident or whose frame has pin count 0 it returns false
and the pool is as it was. -/
theorem unpin_page_contract (bp : BufferPoolManager) (h : PoolReachable bp) (id : PageId)
    (m : Bool) :
    (∀ f, bp.lookup id = some f → 1 ≤ (bp.frame f).pin_count_ →
      ∃ bp1, bp.unpin_page id m = Except.ok (true, bp1) ∧
        (bp1.frame f).pin_count_ = (bp.frame f).pin_count_ - 1 ∧
        (bp1.frame f).is_dirty_ = ((bp.frame f).is_dirty_ || m) ∧
        (bp1.inReplacer f ↔ (bp.frame f).pin_count_ - 1 = 0) ∧
        (bp1.frame f).id_ = (bp.frame f).id_ ∧ (bp1.frame f).data_ = (bp.frame f).data_ ∧
        (bp1.frame f).page_lsn = (bp.frame f).page_lsn ∧
        (∀ g, g ≠ f → bp1.frame g = bp.frame g ∧ (bp1.inReplacer g ↔ bp.inReplacer g)) ∧
        bp1.page_table_ = bp.page_table_ ∧ bp1.free_list_ = bp.free_list_ ∧
        bp1.disk_manager_ = bp.disk_manager_ ∧ bp1.log_manager_ = bp.log_manager_) ∧
    (bp.lookup id = none → bp.unpin_page id m = Except.ok (false, bp)) ∧
    (∀ f, bp.lookup id = some f → (bp.frame f).pin_count_ = 0 →
      bp.unpin_page id m = Except.ok (false, bp)) := by
  have hinv := h.pool_inv
  refine ⟨?_, BufferPoolManager.unpin_page_absent bp id m,
    fun f hl hp => BufferPoolManager.unpin_page_zero bp id m f hl hp⟩
  intro f hl hp
  obtain ⟨f0, f1, fid, fno⟩ := hinv.2.1 id f hl
  have hlen : (f : Int) < bp.pages_.length := by rw [hinv.1]; exact f1
  obtain ⟨p0, p1⟩ := hinv.2.2.2.2.2.2.2.1 f f0 f1
  have hnr : f ∉ bp.replacer_.LRUlist_ := fun hh => by
    have := p1.2 (Or.inl hh); omega
  obtain ⟨bp1, e, a1, a2, a3, a4, a5, a6, a7, a8, a9, a10⟩ :=
    BufferPoolManager.unpin_page_pinned bp id m f hl f0 hlen hp
  obtain ⟨u1, u2, u3⟩ := LRUReplacer.unpin_spec bp.replacer_ f hinv.2.2.2.2.2.1
    hinv.2.2.2.2.1
  rw [if_neg hnr] at u3
  refine ⟨bp1, e, by rw [a9], by rw [a9], ?_, by rw [a9], by rw [a9], by rw [a9], ?_, a3, a4,
    a5, a6⟩
  · unfold BufferPoolManager.inReplacer
    rw [a8]
    by_cases hz : (bp.frame f).pin_count_ - 1 = 0
    · rw [if_pos hz, u3]
      exact ⟨fun _ => hz, fun _ => List.mem_cons_self _ _⟩
    · rw [if_neg hz]
      exact ⟨fun hh => absurd hh hnr, fun hh => absurd hh hz⟩
  · intro g hg
    refine ⟨a10 g hg, ?_⟩
    unfold BufferPoolManager.inReplacer
    rw [a8]
    by_cases hz : (bp.frame f).pin_count_ - 1 = 0
    · rw [if_pos hz, u3, List.mem_cons]
      exact ⟨fun hh => hh.resolve_left hg, fun hh => Or.inr hh⟩
    · rw [if_neg hz]

theorem unpin_page_contract_witness :
    ∃ bp1, examplePoolDirty.unpin_page ⟨3, 0⟩ false = Except.ok (true, bp1) ∧
      (bp1.frame 0).pin_count_ = 0 ∧ (bp1.frame 0).is_dirty_ = true ∧ bp1.inReplacer 0 := by
  obtain ⟨bp1, h1, h2, h3, h4, _⟩ :=
    (unpin_page_contract examplePoolDirty examplePoolDirty_reachable ⟨3, 0⟩ false).1 0
      (by decide) (by decide)
  refine ⟨bp1, h1, ?_, ?_, ?_⟩
  · rw [h2]; decide
  · rw [h3]; decide
  · rw [h4]; decide

theorem WalWrites.of_same_writes (bp bp1 : BufferPoolManager)
    (h : bp1.disk_manager_.writes = bp.disk_manager_.writes) : WalWrites bp bp1 :=
  ⟨[], by rw [h, List.append_nil], fun w hw => by cases hw⟩

theorem SameBytes.same_refl (bp : BufferPoolManager) : SameBytes bp bp :=
  ⟨rfl, rfl, rfl, rfl, fun _ => ⟨rfl, rfl⟩⟩

theorem SameBytes.same_trans {a b c : BufferPoolManager} (h1 : SameBytes a b) (h2 : SameBytes b c) :
    SameBytes a c := by
  obtain ⟨a1, a2, a3, a4, a5⟩ := h1
  obtain ⟨b1, b2, b3, b4, b5⟩ := h2
  exact ⟨b1.trans a1, b2.trans a2, b3.trans a3, b4.trans a4,
    fun g => ⟨(b5 g).1.trans (a5 g).1, (b5 g).2.trans (a5 g).2⟩⟩

theorem WalWrites.wal_trans {a b c : BufferPoolManager} (h1 : WalWrites a b) (hs : SameBytes a b)
    (h2 : WalWrites b c) : WalWrites a c := by
  obtain ⟨ws1, e1, p1⟩ := h1
  obtain ⟨ws2, e2, p2⟩ := h2
  refine ⟨ws1 ++ ws2, by rw [e2, e1, List.append_assoc], ?_⟩
  intro w hw
  rcases List.mem_append.1 hw with hw | hw
  · exact p1 w hw
  · obtain ⟨q1, f, f0, f1, q2, q3⟩ := p2 w hw
    refine ⟨q1, f, f0, ?_, ?_, ?_⟩
    · rw [← hs.1]; exact f1
    · rw [q2, (hs.2.2.2.2 f).1]
    · rw [q3, (hs.2.2.2.2 f).2]

theorem write_back_wal (bp bp1 : BufferPoolManager) (f : Int) (id : PageId)
    (f0 : 0 ≤ f) (f1 : f < bp.pool_size_)
    (hlsn : (bp.frame f).page_lsn < bp.log_manager_.global_lsn_)
    (hg0 : -2147483648 < bp.log_manager_.global_lsn_)
    (hg1 : bp.log_manager_.global_lsn_ < 2147483648)
    (h : bp.write_back (bp.frame f) id = Except.ok bp1) :
    WalWrites bp bp1 ∧ SameBytes bp bp1 := by
  obtain ⟨w1, w2, w3, w4, w5, w6, w7, w8, w9, w10⟩ :=
    BufferPoolManager.write_back_spec bp bp1 _ id h
  refine ⟨⟨_, w8, ?_⟩, w1, by rw [w2], w6, w7, fun g => by
    rw [BufferPoolManager.frame_of_pages w2 g]; exact ⟨rfl, rfl⟩⟩
  intro w hw
  have : w = ⟨id, (bp.frame f).data_, (bp.frame f).page_lsn,
      bp1.log_manager_.persist_lsn_⟩ := by simpa using hw
  subst this
  refine ⟨?_, f, f0, f1, rfl, rfl⟩
  show (bp.frame f).page_lsn ≤ bp1.log_manager_.persist_lsn_
  by_cases hc : (bp.frame f).page_lsn ≤ bp.log_manager_.persist_lsn_
  · rw [w9 hc]; exact hc
  · rw [(w10 (by omega)).2]
    show (bp.frame f).page_lsn ≤ wrap32 (bp.log_manager_.global_lsn_ - 1)
    rw [wrap32_id (by omega) (by omega)]
    omega

theorem update_page_wal (bp bp2 : BufferPoolManager) (f : Int) (new_id : PageId)
    (f0 : 0 ≤ f) (f1 : f < bp.pool_size_) (hlen : bp.pages_.length = bp.pool_size_)
    (hlsn : (bp.frame f).page_lsn < bp.log_manager_.global_lsn_)
    (hg0 : -2147483648 < bp.log_manager_.global_lsn_)
    (hg1 : bp.log_manager_.global_lsn_ < 2147483648)
    (h : bp.update_page f new_id = Except.ok bp2) : WalWrites bp bp2 := by
  obtain ⟨u1, u2, u3, u4, u5, u6, u7, u8, u9, u10, u11, u12⟩ :=
    BufferPoolManager.update_page_spec bp bp2 f new_id f0 (by rw [hlen]; exact f1) h
  cases hd : (bp.frame f).is_dirty_ with
  | false => exact WalWrites.of_same_writes bp bp2 (by rw [(u11 hd).1])
  | true =>
    obtain ⟨⟨ws, e, p⟩, _⟩ := write_back_wal bp _ f _ f0 f1 hlsn hg0 hg1 (u12 hd)
    exact ⟨ws, e, p⟩

theorem allocate_page_writes (d : DiskManager) (fd : Int) :
    (d.allocate_page fd).2.writes = d.writes := by
  unfold DiskManager.allocate_page
  split <;> rfl

theorem flush_frame_wal (fd : Int) (bp bp1 : BufferPoolManager) (i : Nat)
    (hi : i < bp.pool_size_)
    (hlsn : ∀ f : Int, 0 ≤ f → f < bp.pool_size_ →
      (bp.frame f).page_lsn < bp.log_manager_.global_lsn_)
    (hg0 : -2147483648 < bp.log_manager_.global_lsn_)
    (hg1 : bp.log_manager_.global_lsn_ < 2147483648)
    (h : BufferPoolManager.flush_frame fd bp i = Except.ok bp1) :
    WalWrites bp bp1 ∧ SameBytes bp bp1 := by
  unfold BufferPoolManager.flush_frame at h
  simp only [] at h
  split at h
  · cases hw : bp.write_back (bp.frame i) (bp.frame i).id_ with
    | error e => rw [hw] at h; cases h
    | ok bp2 =>
      rw [hw] at h
      simp only [Except.ok.injEq] at h
      obtain ⟨⟨ws, e, p⟩, s1, s2, s3, s4, s5⟩ := write_back_wal bp bp2 i _ (by omega)
        (by exact_mod_cast hi) (hlsn i (by omega) (by exact_mod_cast hi)) hg0 hg1 hw
      obtain ⟨a1, a2, a3, a4, a5, a6⟩ := BufferPoolManager.flush_step_spec bp bp2 _ _ i hw
      rw [← h]
      refine ⟨⟨ws, by simp [e], p⟩, a1, a2, by simp [s3], by simp [s4], fun g =>
        ⟨(a6 g).2.2.2, (a6 g).2.2.1⟩⟩
  · simp only [Except.ok.injEq] at h
    rw [← h]
    exact ⟨WalWrites.of_same_writes bp bp rfl, SameBytes.same_refl bp⟩

theorem flush_loop_wal (fd : Int) (l : List Nat) :
    ∀ (bp bp1 : BufferPoolManager), (∀ i ∈ l, i < bp.pool_size_) →
      (∀ f : Int, 0 ≤ f → f < bp.pool_size_ →
        (bp.frame f).page_lsn < bp.log_manager_.global_lsn_) →
      -2147483648 < bp.log_manager_.global_lsn_ →
      bp.log_manager_.global_lsn_ < 2147483648 →
      BufferPoolManager.flush_loop fd l bp = Except.ok bp1 →
      WalWrites bp bp1 ∧ SameBytes bp bp1 := by
  induction l with
  | nil =>
    intro bp bp1 _ _ _ _ h
    simp only [BufferPoolManager.flush_loop, Except.ok.injEq] at h
    rw [← h]
    exact ⟨WalWrites.of_same_writes bp bp rfl, SameBytes.same_refl bp⟩
  | cons i rest ih =>
    intro bp bp1 hl hlsn hg0 hg1 h
    simp only [BufferPoolManager.flush_loop] at h
    cases hf : BufferPoolManager.flush_frame fd bp i with
    | error e => rw [hf] at h; cases h
    | ok bp2 =>
      rw [hf] at h
      obtain ⟨w1, s1⟩ := flush_frame_wal fd bp bp2 i (hl i (List.mem_cons_self _ _)) hlsn
        hg0 hg1 hf
      obtain ⟨w2, s2⟩ := ih bp2 bp1
        (fun j hj => by rw [s1.1]; exact hl j (List.mem_cons_of_mem _ hj))
        (fun f f0 f1 => by
          rw [(s1.2.2.2.2 f).1, s1.2.2.2.1]
          exact hlsn f f0 (by rw [← s1.1]; exact f1))
        (by rw [s1.2.2.2.1]; exact hg0) (by rw [s1.2.2.2.1]; exact hg1) h
      exact ⟨w1.wal_trans s1 w2, s1.same_trans s2⟩

/-- Every call writes frames to disk only after the log has reached their
page LSN. -/
theorem call_wal (bp bp1 : BufferPoolManager) (c : BufferPoolCall) (hinv : PoolInv bp)
    (hlsn : ∀ f : Int, 0 ≤ f → f < bp.pool_size_ →
      (bp.frame f).page_lsn < bp.log_manager_.global_lsn_)
    (hg0 : -2147483648 < bp.log_manager_.global_lsn_)
    (hg1 : bp.log_manager_.global_lsn_ < 2147483648)
    (hrun : c.run bp = Except.ok bp1) : WalWrites bp bp1 := by
  cases c with
  | fetch_page id =>
    simp only [BufferPoolCall.run] at hrun
    cases hr : bp.fetch_page id with
    | error e => rw [hr] at hrun; cases hrun
    | ok v =>
      rw [hr] at hrun
      simp only [Except.map, Except.ok.injEq] at hrun
      subst hrun
      cases hl : bp.lookup id with
      | some f =>
        rw [BufferPoolManager.fetch_page_hit bp id f hl] at hr
        simp only [Except.ok.injEq] at hr
        rw [← hr]
        exact WalWrites.of_same_writes _ _ (by simp)
      | none =>
        cases hv : bp.find_victim_page with
        | mk v1 bpv =>
          cases v1 with
          | none =>
            obtain ⟨_, e2, e3⟩ := BufferPoolManager.find_victim_none bp bpv hv
            rw [BufferPoolManager.fetch_page_full bp id hl e2 e3] at hr
            simp only [Except.ok.injEq] at hr
            rw [← hr]
            exact WalWrites.of_same_writes _ _ rfl
          | some f =>
            rw [BufferPoolManager.fetch_page_miss bp bpv id f hl hv] at hr
            cases hu : bpv.update_page f id with
            | error e => rw [hu] at hr; cases hr
            | ok bp2 =>
              rw [hu] at hr
              simp only [Except.ok.injEq] at hr
              rw [← hr]
              obtain ⟨v1, v2, v3, v4, v5, v6, f0, f1, _⟩ :=
                BufferPoolManager.find_victim_some bp bpv f hinv hv
              have hfr : ∀ g, bpv.frame g = bp.frame g :=
                fun g => BufferPoolManager.frame_of_pages v2 g
              obtain ⟨ws, e, p⟩ := update_page_wal bpv bp2 f id f0 (by rw [v1]; exact f1)
                (by rw [v2, v1]; exact hinv.1) (by rw [hfr, v5]; exact hlsn f f0 f1)
                (by rw [v5]; exact hg0) (by rw [v5]; exact hg1) hu
              refine ⟨ws, ?_, ?_⟩
              · show (bp2.setFrame f _).disk_manager_.writes = _
                rw [BufferPoolManager.setFrame_disk_manager, e, v4]
              · intro w hw
                obtain ⟨q1, g, g0, g1, q2, q3⟩ := p w hw
                exact ⟨q1, g, g0, by rw [← v1]; exact g1, by rw [q2, hfr], by rw [q3, hfr]⟩
  | new_page fd =>
    simp only [BufferPoolCall.run] at hrun
    cases hr : bp.new_page fd with
    | error e => rw [hr] at hrun; cases hrun
    | ok v =>
      rw [hr] at hrun
      simp only [Except.map, Except.ok.injEq] at hrun
      subst hrun
      cases hv : bp.find_victim_page with
      | mk v1 bpv =>
        cases v1 with
        | none =>
          obtain ⟨_, e2, e3⟩ := BufferPoolManager.find_victim_none bp bpv hv
          rw [BufferPoolManager.new_page_full bp fd e2 e3] at hr
          simp only [Except.ok.injEq] at hr
          rw [← hr]
          exact WalWrites.of_same_writes _ _ rfl
        | some f =>
          rw [BufferPoolManager.new_page_some bp bpv fd f hv] at hr
          cases hu : BufferPoolManager.update_page
              { bpv with disk_manager_ := (bpv.disk_manager_.allocate_page fd).2 } f
              ⟨fd, (bpv.disk_manager_.allocate_page fd).1⟩ with
          | error e => rw [hu] at hr; cases hr
          | ok bp3 =>
            rw [hu] at hr
            simp only [Except.ok.injEq] at hr
            rw [← hr]
            obtain ⟨v1, v2, v3, v4, v5, v6, f0, f1, _⟩ :=
              BufferPoolManager.find_victim_some bp bpv f hinv hv
            have hfr : ∀ g, BufferPoolManager.frame
                { bpv with disk_manager_ := (bpv.disk_manager_.allocate_page fd).2 } g =
                bp.frame g :=
              fun g => BufferPoolManager.frame_of_pages v2 g
            obtain ⟨ws, e, p⟩ := update_page_wal
              { bpv with disk_manager_ := (bpv.disk_manager_.allocate_page fd).2 } bp3 f _ f0
              (by show (f : Int) < bpv.pool_size_; rw [v1]; exact f1)
              (by show bpv.pages_.length = bpv.pool_size_; rw [v2, v1]; exact hinv.1)
              (by
                rw [hfr]
                show _ < bpv.log_manager_.global_lsn_
                rw [v5]; exact hlsn f f0 f1)
              (by show _ < bpv.log_manager_.global_lsn_; rw [v5]; exact hg0)
              (by show bpv.log_manager_.global_lsn_ < _; rw [v5]; exact hg1) hu
            refine ⟨ws, ?_, ?_⟩
            · show (bp3.setFrame f _).disk_manager_.writes = _
              rw [BufferPoolManager.setFrame_disk_manager, e]
              show (bpv.disk_manager_.allocate_page fd).2.writes ++ ws = _
              rw [allocate_page_writes, v4]
            · intro w hw
              obtain ⟨q1, g, g0, g1, q2, q3⟩ := p w hw
              refine ⟨q1, g, g0, ?_, by rw [q2, hfr], by rw [q3, hfr]⟩
              have : (g : Int) < bpv.pool_size_ := g1
              rw [← v1]; exact this
  | unpin_page id d =>
    simp only [BufferPoolCall.run] at hrun
    cases hr : bp.unpin_page id d with
    | error e => rw [hr] at hrun; cases hrun
    | ok v =>
      rw [hr] at hrun
      simp only [Except.map, Except.ok.injEq] at hrun
      subst hrun
      cases hl : bp.lookup id with
      | none =>
        rw [BufferPoolManager.unpin_page_absent bp id d hl] at hr
        simp only [Except.ok.injEq] at hr
        rw [← hr]
        exact WalWrites.of_same_writes _ _ rfl
      | some f =>
        obtain ⟨f0, f1, _, _⟩ := hinv.2.1 id f hl
        by_cases hz : (bp.frame f).pin_count_ = 0
        · rw [BufferPoolManager.unpin_page_zero bp id d f hl hz] at hr
          simp only [Except.ok.injEq] at hr
          rw [← hr]
          exact WalWrites.of_same_writes _ _ rfl
        · have p0 := (hinv.2.2.2.2.2.2.2.1 f f0 f1).1
          obtain ⟨bp2, e, _, _, _, _, a5, _⟩ :=
            BufferPoolManager.unpin_page_pinned bp id d f hl f0 (by rw [hinv.1]; exact f1)
              (by omega)
          rw [e] at hr
          simp only [Except.ok.injEq] at hr
          rw [← hr]
          exact WalWrites.of_same_writes _ _ (by rw [a5])
  | flush_page id =>
    simp only [BufferPoolCall.run] at hrun
    cases hr : bp.flush_page id with
    | error e => rw [hr] at hrun; cases hrun
    | ok v =>
      rw [hr] at hrun
      simp only [Except.map, Except.ok.injEq] at hrun
      subst hrun
      unfold BufferPoolManager.flush_page at hr
      cases hl : bp.lookup id with
      | none =>
        rw [hl] at hr
        simp only [Except.ok.injEq] at hr
        rw [← hr]
        exact WalWrites.of_same_writes _ _ rfl
      | some f =>
        rw [hl] at hr
        simp only [] at hr
        obtain ⟨f0, f1, _, _⟩ := hinv.2.1 id f hl
        split at hr
        · cases hr
        · cases hw : bp.write_back (bp.frame f) id with
          | error e => rw [hw] at hr; cases hr
          | ok bp2 =>
            rw [hw] at hr
            simp only [Except.ok.injEq] at hr
            rw [← hr]
            obtain ⟨⟨ws, e, p⟩, _⟩ :=
              write_back_wal bp bp2 f id f0 f1 (hlsn f f0 f1) hg0 hg1 hw
            exact ⟨ws, by simp [e], p⟩
  | flush_all_pages fd =>
    simp only [BufferPoolCall.run] at hrun
    exact (flush_loop_wal fd _ bp bp1 (fun i hi => List.mem_range.1 hi) hlsn hg0 hg1 hrun).1
  | delete_page id =>
    simp only [BufferPoolCall.run] at hrun
    cases hr : bp.delete_page id with
    | error e => rw [hr] at hrun; cases hrun
    | ok v =>
      rw [hr] at hrun
      simp only [Except.map, Except.ok.injEq] at hrun
      subst hrun
      cases hl : bp.lookup id with
      | none =>
        rw [BufferPoolManager.delete_page_absent bp id hl] at hr
        simp only [Except.ok.injEq] at hr
        rw [← hr]
        exact WalWrites.of_same_writes _ _ rfl
      | some f =>
        by_cases hz : (bp.frame f).pin_count_ = 0
        · rw [BufferPoolManager.delete_page_zero bp id f hl hz] at hr
          simp only [Except.ok.injEq] at hr
          rw [← hr]
          exact WalWrites.of_same_writes _ _ (by simp)
        · obtain ⟨f0, f1, _, _⟩ := hinv.2.1 id f hl
          have p0 := (hinv.2.2.2.2.2.2.2.1 f f0 f1).1
          rw [BufferPoolManager.delete_page_pinned bp id f hl (by omega)] at hr
          simp only [Except.ok.injEq] at hr
          rw [← hr]
          exact WalWrites.of_same_writes _ _ rfl

/-- C15: a call on a pool that calls made of the initial pool, in which
every page LSN is an LSN that the log manager has issued (below
`global_lsn_`, a 32-bit counter): every write of a frame to disk that the
call makes (the eviction of a dirty victim in `update_page`, `flush_page`,
`flush_all_pages`) writes the bytes of a frame at a moment when
`persist_lsn_` is at least the page LSN of that frame. -/
theorem page_write_after_log_flush (bp bp1 : BufferPoolManager) (c : BufferPoolCall)
    (h : PoolReachable bp)
    (hlsn : ∀ f : Int, 0 ≤ f → f < bp.pool_size_ →
      (bp.frame f).page_lsn < bp.log_manager_.global_lsn_)
    (hg0 : -2147483648 < bp.log_manager_.global_lsn_)
    (hg1 : bp.log_manager_.global_lsn_ < 2147483648)
    (hrun : c.run bp = Except.ok bp1) :
    bp1.disk_manager_.writes = bp.disk_manager_.writes ++ newWrites bp bp1 ∧
    ∀ w ∈ newWrites bp bp1, w.page_lsn ≤ w.persist_lsn ∧
      ∃ f : Int, 0 ≤ f ∧ f < bp.pool_size_ ∧ w.page_lsn = (bp.frame f).page_lsn ∧
        w.data = (bp.frame f).data_ := by
  obtain ⟨ws, e, p⟩ := call_wal bp bp1 c h.pool_inv hlsn hg0 hg1 hrun
  have : newWrites bp bp1 = ws := by
    unfold newWrites
    rw [e, List.drop_left]
  rw [this]
  exact ⟨e, p⟩

theorem page_write_after_log_flush_witness :
    newWrites examplePoolDirty (poolAfter [BufferPoolCall.flush_page ⟨3, 0⟩] examplePoolDirty) =
      [⟨⟨3, 0⟩, List.replicate PAGE_SIZE 7, 3, 4⟩] ∧
    ∀ w ∈ newWrites examplePoolDirty
        (poolAfter [BufferPoolCall.flush_page ⟨3, 0⟩] examplePoolDirty),
      w.page_lsn ≤ w.persist_lsn :=
  ⟨by rfl, fun w hw =>
    ((page_write_after_log_flush examplePoolDirty
      (poolAfter [BufferPoolCall.flush_page ⟨3, 0⟩] examplePoolDirty)
      (BufferPoolCall.flush_page ⟨3, 0⟩) examplePoolDirty_reachable
      (by
        intro f h0 h1
        have h2 : f < 2 := h1
        interval_cases f <;> decide)
      (by decide) (by decide) (by rfl)).2 w hw).1⟩

/-! ## Log records: bytes -/

theorem encodeInt32_length (x : Int) : (encodeInt32 x).length = 4 := rfl

theorem decodeInt32_encode (x : Int) (rest : List Nat) (h0 : -2147483648 ≤ x)
    (h1 : x < 2147483648) : decodeInt32 (encodeInt32 x ++ rest) = x := by
  unfold decodeInt32 encodeInt32
  simp only [List.cons_append, List.nil_append, List.getD_cons_zero, List.getD_cons_succ]
  generalize hu : (x % 4294967296).toNat = u
  have hu1 : (u : Int) = x % 4294967296 := by rw [← hu]; omega
  have hu2 : u < 4294967296 := by omega
  have e : u % 256 + 256 * (u / 256 % 256) + 65536 * (u / 65536 % 256) +
      16777216 * (u / 16777216 % 256) = u := by omega
  rw [e]
  split <;> omega

theorem decodeUInt32_encode (n : Nat) (rest : List Nat) (h1 : n < 4294967296) :
    decodeUInt32 (encodeInt32 n ++ rest) = n := by
  unfold decodeUInt32 encodeInt32
  simp only [List.cons_append, List.nil_append, List.getD_cons_zero, List.getD_cons_succ]
  generalize hu : ((n : Int) % 4294967296).toNat = u
  have hu1 : u = n := by omega
  omega

theorem encodeSize_length (n : Nat) : (encodeSize n).length = 8 := by
  unfold encodeSize; simp

theorem decodeSize_encode (n : Nat) (rest : List Nat) (h1 : n < 18446744073709551616) :
    decodeSize (encodeSize n ++ rest) = n := by
  unfold decodeSize encodeSize
  simp only [List.range, List.range.loop, List.map_cons, List.map_nil, List.cons_append,
    List.nil_append, List.getD_cons_zero, List.getD_cons_succ, List.sum_cons, List.sum_nil]
  norm_num
  omega

theorem encodeRid_length (rid : Rid) : (encodeRid rid).length = 8 := rfl

theorem decodeRid_encode (rid : Rid) (rest : List Nat)
    (h0 : -2147483648 ≤ rid.page_no) (h1 : rid.page_no < 2147483648)
    (h2 : -2147483648 ≤ rid.slot_no) (h3 : rid.slot_no < 2147483648) :
    decodeRid (encodeRid rid ++ rest) = rid := by
  unfold decodeRid encodeRid
  rw [List.append_assoc, decodeInt32_encode _ _ h0 h1]
  have : (encodeInt32 rid.page_no ++ (encodeInt32 rid.slot_no ++ rest)).drop 4 =
      encodeInt32 rid.slot_no ++ rest := by
    rw [List.drop_append_of_le_length (by rw [encodeInt32_length])]
    simp [encodeInt32]
  rw [this, decodeInt32_encode _ _ h2 h3]

theorem nameBytes_length (s : String) : (nameBytes s).length = s.length := by
  unfold nameBytes
  rw [List.length_map]
  rfl

theorem nameOfBytes_bytes (s : String) (rest : List Nat) :
    nameOfBytes (nameBytes s ++ rest) s.length = s := by
  have e : (List.take s.length (nameBytes s ++ rest)).map Char.ofNat = s.toList := by
    rw [← nameBytes_length s, List.take_left]
    unfold nameBytes
    rw [List.map_map]
    have : (Char.ofNat ∘ Char.toNat) = id := by
      funext c; simp
    rw [this, List.map_id]
  unfold nameOfBytes
  rw [e]
  cases s
  rfl

theorem memcpy_at (pre d src : List Nat) (off : Nat) (h : off = pre.length) :
    memcpy (pre ++ d) off src = (pre ++ src) ++ d.drop src.length := by
  subst h
  unfold memcpy
  rw [List.take_left, List.drop_append]

theorem memcpy_step (pre dest src : List Nat) (k off : Nat) (h : off = pre.length) :
    memcpy (pre ++ dest.drop k) off src = (pre ++ src) ++ dest.drop (k + src.length) := by
  rw [memcpy_at pre _ src off h, List.drop_drop]

theorem header_length (r : LogRecord) : r.header.length = 20 := by
  unfold LogRecord.header
  simp only [List.length_append, encodeInt32_length]

theorem serialize_header_eq (r : LogRecord) (dest : List Nat) :
    r.serialize_header dest = r.header ++ dest.drop 20 := by
  unfold LogRecord.serialize_header LogRecord.header
  simp only []
  have e0 : dest = [] ++ dest.drop 0 := by simp
  conv_lhs => rw [e0]
  rw [memcpy_step [] dest _ 0 OFFSET_LOG_TYPE rfl]
  rw [memcpy_step _ dest _ _ OFFSET_LSN (by rfl)]
  rw [memcpy_step _ dest _ _ OFFSET_LOG_TOT_LEN (by rfl)]
  rw [memcpy_step _ dest _ _ OFFSET_LOG_TID (by rfl)]
  rw [memcpy_step _ dest _ _ OFFSET_PREV_LSN (by rfl)]
  simp only [List.nil_append, encodeInt32_length]

theorem image_length (v : List Nat) : (LogRecord.image v).length = 4 + v.length := by
  unfold LogRecord.image
  rw [List.length_append, encodeInt32_length]

theorem serialize_image_eq (r : LogRecord) (dest : List Nat) :
    r.serialize_image (r.header ++ dest.drop 20) =
      (r.header ++ LogRecord.image r.value ++ encodeRid r.rid_ ++
        (encodeSize r.table_name_.length ++ nameBytes r.table_name_)) ++
      dest.drop (20 + (4 + r.value.length) + 8 + (8 + r.table_name_.length)) := by
  unfold LogRecord.serialize_image LogRecord.image
  simp only []
  rw [memcpy_step _ dest _ _ OFFSET_LOG_DATA (by rw [header_length]; rfl)]
  rw [memcpy_step _ dest _ _ _ (by
    simp only [List.length_append, header_length, encodeInt32_length]; rfl)]
  rw [memcpy_step _ dest _ _ _ (by
    simp only [List.length_append, header_length, encodeInt32_length]; rfl)]
  rw [memcpy_step _ dest _ _ _ (by
    simp only [List.length_append, header_length, encodeInt32_length, encodeRid_length]; rfl)]
  rw [memcpy_step _ dest _ _ _ (by
    simp only [List.length_append, header_length, encodeInt32_length, encodeRid_length,
      encodeSize_length]; rfl)]
  simp only [encodeInt32_length, encodeRid_length, encodeSize_length, nameBytes_length,
    List.append_assoc]
  rw [show 20 + 4 + r.value.length + 8 + 8 + r.table_name_.length =
    20 + (4 + r.value.length) + 8 + (8 + r.table_name_.length) from by omega]

theorem serialize_images_eq (r : LogRecord) (dest : List Nat) :
    r.serialize_images (r.header ++ dest.drop 20) =
      (r.header ++ LogRecord.image r.old_value ++ LogRecord.image r.value ++
        encodeRid r.rid_ ++ (encodeSize r.table_name_.length ++ nameBytes r.table_name_)) ++
      dest.drop (20 + (4 + r.old_value.length) + (4 + r.value.length) + 8 +
        (8 + r.table_name_.length)) := by
  unfold LogRecord.serialize_images LogRecord.image
  simp only []
  rw [memcpy_step _ dest _ _ OFFSET_LOG_DATA (by rw [header_length]; rfl)]
  rw [memcpy_step _ dest _ _ _ (by
    simp only [List.length_append, header_length, encodeInt32_length]; rfl)]
  rw [memcpy_step _ dest _ _ _ (by
    simp only [List.length_append, header_length, encodeInt32_length]; rfl)]
  rw [memcpy_step _ dest _ _ _ (by
    simp only [List.length_append, header_length, encodeInt32_length]; rfl)]
  rw [memcpy_step _ dest _ _ _ (by
    simp only [List.length_append, header_length, encodeInt32_length]; rfl)]
  rw [memcpy_step _ dest _ _ _ (by
    simp only [List.length_append, header_length, encodeInt32_length, encodeRid_length]; rfl)]
  rw [memcpy_step _ dest _ _ _ (by
    simp only [List.length_append, header_length, encodeInt32_length, encodeRid_length,
      encodeSize_length]; rfl)]
  simp only [encodeInt32_length, encodeRid_length, encodeSize_length, nameBytes_length,
    List.append_assoc]
  rw [show 20 + 4 + r.old_value.length + 4 + r.value.length + 8 + 8 + r.table_name_.length =
    20 + (4 + r.old_value.length) + (4 + r.value.length) + 8 + (8 + r.table_name_.length)
    from by omega]

theorem layout_length (r : LogRecord) (h : r.Encodable) :
    r.layout.length = r.log_tot_len_ := by
  obtain ⟨h, _⟩ := h
  unfold LogRecord.layout
  cases ht : r.log_type_ <;> rw [ht] at h <;> simp only [] at h
  all_goals first
    | exact absurd h id
    | (rw [h]
       simp only [List.length_append, header_length, image_length, encodeRid_length,
         encodeSize_length, nameBytes_length, InsertLogRecord, DeleteLogRecord,
         UpdateLogRecord, BeginLogRecord, CommitLogRecord, AbortLogRecord, LOG_HEADER_SIZE]
       try omega)

theorem serialize_eq (r : LogRecord) (dest : List Nat) (h : r.Encodable) :
    r.serialize dest = r.layout ++ dest.drop r.log_tot_len_ := by
  have hl := layout_length r h
  obtain ⟨h, _⟩ := h
  unfold LogRecord.serialize
  unfold LogRecord.layout at hl ⊢
  cases ht : r.log_type_ <;> rw [ht] at h hl <;> simp only [] at h hl ⊢
  · rw [serialize_header_eq, serialize_images_eq, ← hl]
    simp only [List.length_append, header_length, image_length, encodeRid_length,
      encodeSize_length, nameBytes_length]
  · rw [serialize_header_eq, serialize_image_eq, ← hl]
    simp only [List.length_append, header_length, image_length, encodeRid_length,
      encodeSize_length, nameBytes_length]
  · rw [serialize_header_eq, serialize_image_eq, ← hl]
    simp only [List.length_append, header_length, image_length, encodeRid_length,
      encodeSize_length, nameBytes_length]
  · rw [serialize_header_eq, ← hl, header_length]
  · rw [serialize_header_eq, ← hl, header_length]
  · rw [serialize_header_eq, ← hl, header_length]

theorem bytes_eq_layout (r : LogRecord) (h : r.Encodable) : r.bytes = r.layout := by
  unfold LogRecord.bytes
  rw [serialize_eq r _ h]
  simp

theorem LogType.ofInt_toInt (t : LogType) : LogType.ofInt t.toInt = some t := by
  cases t <;> rfl

theorem LogType.toInt_range (t : LogType) : -2147483648 ≤ t.toInt ∧ t.toInt < 2147483648 := by
  cases t <;> decide

theorem deserialize_header_eq (r : LogRecord) (tail : List Nat) (h : r.Encodable) :
    LogRecord.deserialize_header (r.header ++ tail) =
      (some r.log_type_, r.lsn_, r.log_tot_len_, r.log_tid_, r.prev_lsn_) := by
  obtain ⟨_, a1, a2, a3, a4, a5, a6, _, _, _, _, a7⟩ := h
  unfold LogRecord.deserialize_header
  have e0 : (r.header ++ tail).drop OFFSET_LOG_TYPE = encodeInt32 r.log_type_.toInt ++
      (encodeInt32 r.lsn_ ++ (encodeInt32 r.log_tot_len_ ++ (encodeInt32 r.log_tid_ ++
        (encodeInt32 r.prev_lsn_ ++ tail)))) := rfl
  have e1 : (r.header ++ tail).drop OFFSET_LSN =
      (encodeInt32 r.lsn_ ++ (encodeInt32 r.log_tot_len_ ++ (encodeInt32 r.log_tid_ ++
        (encodeInt32 r.prev_lsn_ ++ tail)))) := rfl
  have e2 : (r.header ++ tail).drop OFFSET_LOG_TOT_LEN =
      (encodeInt32 r.log_tot_len_ ++ (encodeInt32 r.log_tid_ ++
        (encodeInt32 r.prev_lsn_ ++ tail))) := rfl
  have e3 : (r.header ++ tail).drop OFFSET_LOG_TID =
      (encodeInt32 r.log_tid_ ++ (encodeInt32 r.prev_lsn_ ++ tail)) := rfl
  have e4 : (r.header ++ tail).drop OFFSET_PREV_LSN = (encodeInt32 r.prev_lsn_ ++ tail) := rfl
  rw [e0, e1, e2, e3, e4, decodeInt32_encode _ _ (LogType.toInt_range _).1
    (LogType.toInt_range _).2, decodeInt32_encode _ _ a1 a2,
    decodeUInt32_encode _ _ (by omega), decodeInt32_encode _ _ a3 a4,
    decodeInt32_encode _ _ a5 a6, LogType.ofInt_toInt]

theorem drop_header (r : LogRecord) (tail : List Nat) :
    (r.header ++ tail).drop OFFSET_LOG_DATA = tail := rfl

theorem deserialize_value_image (v rest : List Nat) (h : v.length < 2147483648) :
    LogRecord.deserialize_value (LogRecord.image v ++ rest) = v := by
  unfold LogRecord.deserialize_value LogRecord.image
  rw [List.append_assoc, decodeInt32_encode _ _ (by omega) (by omega)]
  have : (encodeInt32 v.length ++ (v ++ rest)).drop 4 = v ++ rest := rfl
  rw [this]
  simp

theorem deserialize_plain_eq (r : LogRecord) (rest : List Nat) (h : r.Encodable)
    (ht : r.log_type_ = LogType.begin ∨ r.log_type_ = LogType.commit ∨
      r.log_type_ = LogType.ABORT) :
    LogRecord.deserialize_plain r.log_type_ (r.layout ++ rest) = r := by
  have hh := deserialize_header_eq r rest h
  obtain ⟨h1, _⟩ := h
  have hl : r.layout = r.header := by
    unfold LogRecord.layout
    rcases ht with e | e | e <;> rw [e]
  unfold LogRecord.deserialize_plain
  rw [hl, hh]
  simp only []
  rcases ht with e | e | e <;> rw [e] at h1 <;> simp only [] at h1 <;>
    (cases r; simp only [BeginLogRecord, CommitLogRecord, AbortLogRecord,
      LogRecord.mk.injEq] at h1 ⊢; simp only at e; subst e; tauto)

theorem deserialize_image_eq (r : LogRecord) (rest : List Nat) (h : r.Encodable)
    (ht : r.log_type_ = LogType.INSERT ∨ r.log_type_ = LogType.DELETE) :
    LogRecord.deserialize_image r.log_type_ (r.layout ++ rest) = r := by
  have hlen := layout_length r h
  have hl : r.layout = r.header ++ (LogRecord.image r.value ++ (encodeRid r.rid_ ++
      (encodeSize r.table_name_.length ++ nameBytes r.table_name_))) := by
    unfold LogRecord.layout
    rcases ht with e | e <;> rw [e] <;> simp only [List.append_assoc]
  rw [hl] at hlen
  simp only [List.length_append, header_length, image_length, encodeRid_length,
    encodeSize_length, nameBytes_length] at hlen
  have hh := deserialize_header_eq r ((LogRecord.image r.value ++ (encodeRid r.rid_ ++
      (encodeSize r.table_name_.length ++ nameBytes r.table_name_))) ++ rest) h
  obtain ⟨h1, _, _, _, _, _, _, b1, b2, b3, b4, b5⟩ := h
  unfold LogRecord.deserialize_image
  rw [hl, List.append_assoc, hh]
  simp only []
  rw [drop_header]
  have hv : LogRecord.deserialize_value (LogRecord.image r.value ++ (encodeRid r.rid_ ++
      (encodeSize r.table_name_.length ++ nameBytes r.table_name_)) ++ rest) = r.value := by
    rw [List.append_assoc]
    exact deserialize_value_image _ _ (by omega)
  rw [hv]
  have d1 : (r.header ++ (LogRecord.image r.value ++ (encodeRid r.rid_ ++
      (encodeSize r.table_name_.length ++ nameBytes r.table_name_)) ++ rest)).drop
      (OFFSET_LOG_DATA + r.value.length + 4) =
      encodeRid r.rid_ ++ ((encodeSize r.table_name_.length ++ nameBytes r.table_name_) ++
        rest) := by
    rw [show r.header ++ (LogRecord.image r.value ++ (encodeRid r.rid_ ++
      (encodeSize r.table_name_.length ++ nameBytes r.table_name_)) ++ rest) =
      (r.header ++ LogRecord.image r.value) ++ (encodeRid r.rid_ ++
        ((encodeSize r.table_name_.length ++ nameBytes r.table_name_) ++ rest)) from by
      simp only [List.append_assoc]]
    apply List.drop_left'
    simp only [List.length_append, header_length, image_length, OFFSET_LOG_DATA]
    omega
  have d2 : (r.header ++ (LogRecord.image r.value ++ (encodeRid r.rid_ ++
      (encodeSize r.table_name_.length ++ nameBytes r.table_name_)) ++ rest)).drop
      (OFFSET_LOG_DATA + r.value.length + 4 + 8) =
      encodeSize r.table_name_.length ++ (nameBytes r.table_name_ ++ rest) := by
    rw [show r.header ++ (LogRecord.image r.value ++ (encodeRid r.rid_ ++
      (encodeSize r.table_name_.length ++ nameBytes r.table_name_)) ++ rest) =
      (r.header ++ LogRecord.image r.value ++ encodeRid r.rid_) ++
        (encodeSize r.table_name_.length ++ (nameBytes r.table_name_ ++ rest)) from by
      simp only [List.append_assoc]]
    apply List.drop_left'
    simp only [List.length_append, header_length, image_length, encodeRid_length,
      OFFSET_LOG_DATA]
    omega
  have d3 : (r.header ++ (LogRecord.image r.value ++ (encodeRid r.rid_ ++
      (encodeSize r.table_name_.length ++ nameBytes r.table_name_)) ++ rest)).drop
      (OFFSET_LOG_DATA + r.value.length + 4 + 8 + 8) = nameBytes r.table_name_ ++ rest := by
    rw [show r.header ++ (LogRecord.image r.value ++ (encodeRid r.rid_ ++
      (encodeSize r.table_name_.length ++ nameBytes r.table_name_)) ++ rest) =
      (r.header ++ LogRecord.image r.value ++ encodeRid r.rid_ ++
        encodeSize r.table_name_.length) ++ (nameBytes r.table_name_ ++ rest) from by
      simp only [List.append_assoc]]
    apply List.drop_left'
    simp only [List.length_append, header_length, image_length, encodeRid_length,
      encodeSize_length, OFFSET_LOG_DATA]
    omega
  rw [d1, d2, d3, decodeRid_encode _ _ b1 b2 b3 b4, decodeSize_encode _ _ (by omega),
    nameOfBytes_bytes]
  rcases ht with e | e <;> rw [e] at h1 <;> simp only [] at h1 <;>
    (cases r; simp only [InsertLogRecord, DeleteLogRecord,
      LogRecord.mk.injEq] at h1 ⊢; simp only at e; subst e; tauto)

theorem deserialize_images_eq (r : LogRecord) (rest : List Nat) (h : r.Encodable)
    (ht : r.log_type_ = LogType.UPDATE) :
    LogRecord.deserialize_images (r.layout ++ rest) = r := by
  have hlen := layout_length r h
  have hl : r.layout = r.header ++ (LogRecord.image r.old_value ++ (LogRecord.image r.value ++
      (encodeRid r.rid_ ++
      (encodeSize r.table_name_.length ++ nameBytes r.table_name_)))) := by
    unfold LogRecord.layout
    rw [ht]; simp only [List.append_assoc]
  rw [hl] at hlen
  simp only [List.length_append, header_length, image_length, encodeRid_length,
    encodeSize_length, nameBytes_length] at hlen
  have hh := deserialize_header_eq r ((LogRecord.image r.old_value ++
      (LogRecord.image r.value ++ (encodeRid r.rid_ ++
      (encodeSize r.table_name_.length ++ nameBytes r.table_name_)))) ++ rest) h
  obtain ⟨h1, _, _, _, _, _, _, b1, b2, b3, b4, b5⟩ := h
  unfold LogRecord.deserialize_images
  rw [hl, List.append_assoc, hh]
  simp only []
  rw [drop_header]
  have hv : LogRecord.deserialize_value (LogRecord.image r.old_value ++
      (LogRecord.image r.value ++ (encodeRid r.rid_ ++
      (encodeSize r.table_name_.length ++ nameBytes r.table_name_))) ++ rest) =
      r.old_value := by
    rw [List.append_assoc]
    exact deserialize_value_image _ _ (by omega)
  rw [hv]
  have d0 : (r.header ++ (LogRecord.image r.old_value ++
      (LogRecord.image r.value ++ (encodeRid r.rid_ ++
      (encodeSize r.table_name_.length ++ nameBytes r.table_name_))) ++ rest)).drop
      (OFFSET_LOG_DATA + r.old_value.length + 4) =
      LogRecord.image r.value ++ ((encodeRid r.rid_ ++
        (encodeSize r.table_name_.length ++ nameBytes r.table_name_)) ++ rest) := by
    rw [show r.header ++ (LogRecord.image r.old_value ++
      (LogRecord.image r.value ++ (encodeRid r.rid_ ++
      (encodeSize r.table_name_.length ++ nameBytes r.table_name_))) ++ rest) =
      (r.header ++ LogRecord.image r.old_value) ++ (LogRecord.image r.value ++
        ((encodeRid r.rid_ ++
        (encodeSize r.table_name_.length ++ nameBytes r.table_name_)) ++ rest)) from by
      simp only [List.append_assoc]]
    apply List.drop_left'
    simp only [List.length_append, header_length, image_length, OFFSET_LOG_DATA]
    omega
  rw [d0, deserialize_value_image _ _ (by omega)]
  have d1 : (r.header ++ (LogRecord.image r.old_value ++
      (LogRecord.image r.value ++ (encodeRid r.rid_ ++
      (encodeSize r.table_name_.length ++ nameBytes r.table_name_))) ++ rest)).drop
      (OFFSET_LOG_DATA + r.old_value.length + 4 + (r.value.length + 4)) =
      encodeRid r.rid_ ++ ((encodeSize r.table_name_.length ++ nameBytes r.table_name_) ++
        rest) := by
    rw [show r.header ++ (LogRecord.image r.old_value ++
      (LogRecord.image r.value ++ (encodeRid r.rid_ ++
      (encodeSize r.table_name_.length ++ nameBytes r.table_name_))) ++ rest) =
      (r.header ++ LogRecord.image r.old_value ++ LogRecord.image r.value) ++
        (encodeRid r.rid_ ++
        ((encodeSize r.table_name_.length ++ nameBytes r.table_name_) ++ rest)) from by
      simp only [List.append_assoc]]
    apply List.drop_left'
    simp only [List.length_append, header_length, image_length, OFFSET_LOG_DATA]
    omega
  have d2 : (r.header ++ (LogRecord.image r.old_value ++
      (LogRecord.image r.value ++ (encodeRid r.rid_ ++
      (encodeSize r.table_name_.length ++ nameBytes r.table_name_))) ++ rest)).drop
      (OFFSET_LOG_DATA + r.old_value.length + 4 + (r.value.length + 4) + 8) =
      encodeSize r.table_name_.length ++ (nameBytes r.table_name_ ++ rest) := by
    rw [show r.header ++ (LogRecord.image r.old_value ++
      (LogRecord.image r.value ++ (encodeRid r.rid_ ++
      (encodeSize r.table_name_.length ++ nameBytes r.table_name_))) ++ rest) =
      (r.header ++ LogRecord.image r.old_value ++ LogRecord.image r.value ++
        encodeRid r.rid_) ++
        (encodeSize r.table_name_.length ++ (nameBytes r.table_name_ ++ rest)) from by
      simp only [List.append_assoc]]
    apply List.drop_left'
    simp only [List.length_append, header_length, image_length, encodeRid_length,
      OFFSET_LOG_DATA]
    omega
  have d3 : (r.header ++ (LogRecord.image r.old_value ++
      (LogRecord.image r.value ++ (encodeRid r.rid_ ++
      (encodeSize r.table_name_.length ++ nameBytes r.table_name_))) ++ rest)).drop
      (OFFSET_LOG_DATA + r.old_value.length + 4 + (r.value.length + 4) + 8 + 8) =
      nameBytes r.table_name_ ++ rest := by
    rw [show r.header ++ (LogRecord.image r.old_value ++
      (LogRecord.image r.value ++ (encodeRid r.rid_ ++
      (encodeSize r.table_name_.length ++ nameBytes r.table_name_))) ++ rest) =
      (r.header ++ LogRecord.image r.old_value ++ LogRecord.image r.value ++
        encodeRid r.rid_ ++ encodeSize r.table_name_.length) ++
        (nameBytes r.table_name_ ++ rest) from by
      simp only [List.append_assoc]]
    apply List.drop_left'
    simp only [List.length_append, header_length, image_length, encodeRid_length,
      encodeSize_length, OFFSET_LOG_DATA]
    omega
  rw [d1, d2, d3, decodeRid_encode _ _ b1 b2 b3 b4, decodeSize_encode _ _ (by omega),
    nameOfBytes_bytes]
  rw [ht] at h1
  simp only [] at h1
  cases r
  simp only [UpdateLogRecord, LogRecord.mk.injEq] at h1 ⊢
  simp only at ht
  subst ht
  tauto

/-- One round of the loop of `parseLog` at a record of the file. -/
theorem parseLog_loop_step (r : LogRecord) (rest pre : List Nat) (file_size fuel : Nat)
    (acc : List LogRecord) (h : r.Encodable) (hfs : file_size ≠ 0) :
    RecoveryManager.parseLog_loop (pre ++ (r.layout ++ rest)) file_size (fuel + 1) pre.length
        acc =
      if pre.length + r.log_tot_len_ ≥ file_size then Except.ok (acc ++ [r])
      else RecoveryManager.parseLog_loop (pre ++ (r.layout ++ rest)) file_size fuel
        (pre.length + r.log_tot_len_) (acc ++ [r]) := by
  have hlen := layout_length r h
  have hpos : r.log_tot_len_ ≠ 0 := by
    rw [← hlen]
    have : r.header.length ≤ r.layout.length := by
      unfold LogRecord.layout
      split <;> (try simp only [List.length_append]) <;> omega
    rw [header_length] at this
    omega
  have hsrc : (pre ++ (r.layout ++ rest)).drop pre.length = r.layout ++ rest :=
    List.drop_left' rfl
  have hhd : LogRecord.deserialize_header (r.layout ++ rest) =
      (some r.log_type_, r.lsn_, r.log_tot_len_, r.log_tid_, r.prev_lsn_) := by
    have : ∃ tail, r.layout ++ rest = r.header ++ tail := by
      unfold LogRecord.layout
      split <;> (try simp only [List.append_assoc]) <;> exact ⟨_, rfl⟩
    obtain ⟨tail, e⟩ := this
    rw [e]
    exact deserialize_header_eq r tail h
  rw [RecoveryManager.parseLog_loop]
  rw [if_neg hfs]
  simp only []
  rw [hsrc, hhd]
  simp only []
  rw [if_neg hpos]
  have h1 := h.1
  cases ht : r.log_type_ <;> rw [ht] at h1 <;> simp only [] at h1 ⊢
  · have := deserialize_images_eq r rest h ht
    rw [this]
  · have := deserialize_image_eq r rest h (Or.inl ht)
    rw [ht] at this; rw [this]
  · have := deserialize_image_eq r rest h (Or.inr ht)
    rw [ht] at this; rw [this]
  · have := deserialize_plain_eq r rest h (Or.inl ht)
    rw [ht] at this; rw [this]
  · have := deserialize_plain_eq r rest h (Or.inr (Or.inl ht))
    rw [ht] at this; rw [this]
  · have := deserialize_plain_eq r rest h (Or.inr (Or.inr ht))
    rw [ht] at this; rw [this]

theorem layout_pos (r : LogRecord) (h : r.Encodable) : 20 ≤ r.log_tot_len_ := by
  rw [← layout_length r h]
  have : r.header.length ≤ r.layout.length := by
    unfold LogRecord.layout
    split <;> (try simp only [List.length_append]) <;> omega
  rw [header_length] at this
  exact this

theorem logFile_eq (rs : List LogRecord) (h : ∀ r ∈ rs, r.Encodable) :
    logFile rs = rs.flatMap (fun r => r.layout) := by
  unfold logFile
  induction rs with
  | nil => rfl
  | cons r rest ih =>
    rw [List.flatMap_cons, List.flatMap_cons, bytes_eq_layout r (h r (List.mem_cons_self _ _)),
      ih (fun x hx => h x (List.mem_cons_of_mem _ hx))]

theorem length_le_flatMap_layout (rs : List LogRecord) (h : ∀ r ∈ rs, r.Encodable) :
    rs.length ≤ (rs.flatMap (fun r => r.layout)).length := by
  induction rs with
  | nil => simp
  | cons r rest ih =>
    rw [List.flatMap_cons, List.length_append, List.length_cons,
      layout_length r (h r (List.mem_cons_self _ _))]
    have := layout_pos r (h r (List.mem_cons_self _ _))
    have := ih (fun x hx => h x (List.mem_cons_of_mem _ hx))
    omega

theorem parseLog_loop_spec (rs : List LogRecord) :
    ∀ (pre : List Nat) (acc : List LogRecord) (fuel : Nat), (∀ r ∈ rs, r.Encodable) →
      rs ≠ [] → rs.length ≤ fuel →
      RecoveryManager.parseLog_loop (pre ++ rs.flatMap (fun r => r.layout))
        (pre ++ rs.flatMap (fun r => r.layout)).length fuel pre.length acc =
        Except.ok (acc ++ rs) := by
  induction rs with
  | nil => intro _ _ _ _ hne; exact absurd rfl hne
  | cons r rest ih =>
    intro pre acc fuel h _ hfuel
    have hr := h r (List.mem_cons_self _ _)
    have hrest : ∀ x ∈ rest, x.Encodable := fun x hx => h x (List.mem_cons_of_mem _ hx)
    have hlen := layout_length r hr
    have hpos := layout_pos r hr
    cases fuel with
    | zero => simp at hfuel
    | succ fuel =>
      rw [List.flatMap_cons]
      rw [parseLog_loop_step r _ pre _ fuel acc hr (by
        simp only [List.length_append, hlen]; omega)]
      cases rest with
      | nil =>
        rw [if_pos (by simp [hlen])]
      | cons r2 rest2 =>
        have hr2 := layout_pos r2 (hrest r2 (List.mem_cons_self _ _))
        have hl2 := layout_length r2 (hrest r2 (List.mem_cons_self _ _))
        rw [if_neg (by
          simp only [List.flatMap_cons, List.length_append, hlen, hl2]
          omega)]
        have e : pre ++ (r.layout ++ (r2 :: rest2).flatMap (fun (r : LogRecord) => r.layout)) =
            (pre ++ r.layout) ++ (r2 :: rest2).flatMap (fun (r : LogRecord) => r.layout) := by
          rw [List.append_assoc]
        have e2 : pre.length + r.log_tot_len_ = (pre ++ r.layout).length := by
          rw [List.length_append, hlen]
        rw [e, e2, ih (pre ++ r.layout) (acc ++ [r]) fuel hrest (by simp)
          (by simp only [List.length_cons] at hfuel ⊢; omega)]
        simp

/-- C17: a log file that holds records made by the six record
constructors (each number within its C++ type, the file shorter than
`2^31` bytes): `parseLog`, which decodes the record at the offset and
advances by the total length of its header, returns the records of the
file in their order, each with the type, lsn, total length, transaction
id, previous lsn, record images, rid and table name it had.  The bytes of
a record are the layout of the specification, their number is the total
length of the record, the first 20 of them are the header, and `serialize`
writes these bytes and no others into the buffer. -/
theorem parseLog_round_trip (rs : List LogRecord) (h : ∀ r ∈ rs, r.Encodable)
    (hsize : (logFile rs).length < 2147483648) :
    RecoveryManager.parseLog (logFile rs) = Except.ok rs ∧
    ∀ r ∈ rs, r.bytes = r.layout ∧ r.bytes.length = r.log_tot_len_ ∧
      r.bytes.take 20 = r.header ∧
      ∀ dest : List Nat, r.serialize dest = r.bytes ++ dest.drop r.log_tot_len_ := by
  refine ⟨?_, ?_⟩
  · rw [logFile_eq rs h]
    unfold RecoveryManager.parseLog
    cases rs with
    | nil => rfl
    | cons r rest =>
      have := parseLog_loop_spec (r :: rest) [] []
        (((r :: rest).flatMap (fun (r : LogRecord) => r.layout)).length + 1) h (by simp)
        (by have := length_le_flatMap_layout (r :: rest) h; omega)
      simpa using this
  · intro r hr
    have e := bytes_eq_layout r (h r hr)
    refine ⟨e, by rw [e]; exact layout_length r (h r hr), ?_, ?_⟩
    · rw [e]
      have : ∃ tail, r.layout = r.header ++ tail := by
        unfold LogRecord.layout
        split <;> (try simp only [List.append_assoc]) <;> exact ⟨_, rfl⟩
      obtain ⟨tail, e2⟩ := this
      rw [e2, ← header_length r, List.take_left]
    · intro dest
      rw [e]
      exact serialize_eq r dest (h r hr)

theorem parseLog_round_trip_witness :
    RecoveryManager.parseLog (logFile exampleLogRecords) = Except.ok exampleLogRecords :=
  (parseLog_round_trip exampleLogRecords (by
    intro r hr
    simp only [exampleLogRecords, List.mem_cons, List.mem_singleton, List.not_mem_nil,
      or_false] at hr
    rcases hr with rfl | rfl | rfl <;>
      exact ⟨rfl, by decide, by decide, by decide, by decide, by decide, by decide, by decide,
        by decide, by decide, by decide, by decide⟩)
    (by
      have : (logFile exampleLogRecords).length = 85 := by rfl
      omega)).1

/-! ## Aggregation: the running values -/

theorem memcpy_length_le (dest src : List Nat) (off : Nat) (h : off + src.length ≤ dest.length) :
    (memcpy dest off src).length = dest.length := by
  unfold memcpy
  simp only [List.length_append, List.length_take, List.length_drop]
  omega

theorem zeroBytes_length (n : Nat) : (zeroBytes n).length = n := by
  unfold zeroBytes
  simp

theorem takeD_length4 (l : List Nat) : (l.takeD 4 0).length = 4 := by
  simp

theorem slotBytes_length {c a : ColMeta} {v : AgreValue} (n : Int) (h : SlotOK c a v) :
    (slotBytes n a v).length = a.len := by
  unfold slotBytes
  rcases h with ⟨hc, hl, _⟩ | ⟨hm, hl, _, _, ht⟩
  · rw [if_pos (by tauto), hl]
    rfl
  · have hnc : ¬ (v.agre_type = AgreType.AGRE_TYPE_COUNT_ALL ∨
        v.agre_type = AgreType.AGRE_TYPE_COUNT) := by
      rcases hm with h | h | h <;> rw [h] <;> decide
    rw [if_neg hnc]
    unfold AgreValue.get_value
    rw [if_pos hm]
    rcases ht with ⟨hi, h4⟩ | ⟨hf, h4⟩ | ⟨hs, hns, hsl, s, hsv, hslen⟩
    · rw [if_pos hi, hl, h4]
      rfl
    · rw [if_neg (by rw [hf]; decide), if_pos hf, hl, h4]
      simp
    · rw [if_neg (by rw [hs]; decide), if_neg (by rw [hs]; decide), if_pos hs, if_neg hns, hsv]
      simp only
      rw [List.length_take, memcpy_length_le, zeroBytes_length, hsl, hl]
      · simp
      · rw [zeroBytes_length, List.length_take]
        omega

theorem stepValue_ok {c a : ColMeta} {v : AgreValue} (t : List Nat) (h : SlotOK c a v) :
    SlotOK c a (stepValue t c v) ∧ (stepValue t c v).agre_type = v.agre_type ∧
    (stepValue t c v).type = v.type ∧
    ((v.agre_type ≠ AgreType.AGRE_TYPE_COUNT_ALL ∧ v.agre_type ≠ AgreType.AGRE_TYPE_COUNT) →
      v.add_value (t.drop c.offset) c.len = Except.ok (stepValue t c v)) := by
  unfold stepValue
  rcases h with ⟨hc, hl, hty⟩ | ⟨hm, hl, hty, hvt, ht⟩
  · have : ¬ (v.agre_type ≠ AgreType.AGRE_TYPE_COUNT_ALL ∧
        v.agre_type ≠ AgreType.AGRE_TYPE_COUNT) := by tauto
    rw [if_neg this]
    exact ⟨Or.inl ⟨hc, hl, hty⟩, rfl, rfl, fun h => absurd h this⟩
  · have hnc : v.agre_type ≠ AgreType.AGRE_TYPE_COUNT_ALL ∧
        v.agre_type ≠ AgreType.AGRE_TYPE_COUNT := by
      rcases hm with h | h | h <;> rw [h] <;> decide
    rw [if_pos hnc]
    have key : ∃ v1, v.add_value (t.drop c.offset) c.len = Except.ok v1 ∧
        SlotOK c a v1 ∧ v1.agre_type = v.agre_type ∧ v1.type = v.type := by
      obtain ⟨agt, ty, iv, fv, sv, sl⟩ := v
      simp only at hm ht hvt hnc ⊢
      rcases ht with ⟨hi, h4⟩ | ⟨hf, h4⟩ | ⟨hs, hns, hsl, s, hsv, hslen⟩
      · subst hi
        rcases hm with h | h | h <;> subst h <;>
          simp only [AgreValue.add_value, h4, if_true, ne_eq, not_true_eq_false, if_false]
        · refine ⟨_, rfl, ?_, ?_, ?_⟩ <;> split <;>
            simp [SlotOK, hl, hty, hvt, h4]
        · refine ⟨_, rfl, ?_, ?_, ?_⟩ <;> split <;>
            simp [SlotOK, hl, hty, hvt, h4]
        · refine ⟨_, rfl, ?_, ?_, ?_⟩ <;>
            simp [SlotOK, hl, hty, hvt, h4]
      · subst hf
        rcases hm with h | h | h <;> subst h <;>
          simp only [AgreValue.add_value, h4, if_true, ne_eq, not_true_eq_false, if_false,
            reduceCtorEq]
        · refine ⟨_, rfl, ?_, ?_, ?_⟩ <;> split <;>
            simp [SlotOK, hl, hty, hvt, h4]
        · refine ⟨_, rfl, ?_, ?_, ?_⟩ <;> split <;>
            simp [SlotOK, hl, hty, hvt, h4]
        · refine ⟨_, rfl, ?_, ?_, ?_⟩ <;>
            simp [SlotOK, hl, hty, hvt, h4]
      · subst hs hsv
        have hlen : ∀ w : List Nat, (memcpy s 0 (w.take c.len)).length = c.len := by
          intro w
          rw [memcpy_length_le, hslen]
          rw [List.length_take, hslen]
          omega
        rcases hm with h | h | h
        · subst h
          simp only [AgreValue.add_value, if_true, ne_eq, not_true_eq_false, if_false,
            reduceCtorEq]
          refine ⟨_, rfl, ?_, ?_, ?_⟩ <;> split <;>
            simp [SlotOK, hl, hty, hvt, hsl, hslen, hlen]
        · subst h
          simp only [AgreValue.add_value, if_true, ne_eq, not_true_eq_false, if_false,
            reduceCtorEq]
          refine ⟨_, rfl, ?_, ?_, ?_⟩ <;> split <;>
            simp [SlotOK, hl, hty, hvt, hsl, hslen, hlen]
        · exact absurd h hns
    obtain ⟨v1, h1, h2, h3, h4⟩ := key
    rw [h1]
    exact ⟨h2, h3, h4, fun _ => rfl⟩

/-- The running values after the tuples `ts`. -/
theorem AgreInv.zipWith_step {cs as : List ColMeta} {vs : List AgreValue} (t : List Nat)
    (h : AgreInv cs as vs) :
    AggregationExecutor.add_values t cs vs = Except.ok (List.zipWith (stepValue t) cs vs) ∧
    AgreInv cs as (List.zipWith (stepValue t) cs vs) := by
  induction h with
  | nil => exact ⟨rfl, AgreInv.nil⟩
  | @cons c a v cs as vs hs _ ih =>
    obtain ⟨h1, h2, _, h3⟩ := stepValue_ok t hs
    refine ⟨?_, AgreInv.cons h1 ih.2⟩
    unfold AggregationExecutor.add_values
    rw [ih.1]
    by_cases hc : v.agre_type ≠ AgreType.AGRE_TYPE_COUNT_ALL ∧
        v.agre_type ≠ AgreType.AGRE_TYPE_COUNT
    · simp only [hc, ne_eq, not_false_eq_true, and_self, if_true, h3 hc, List.zipWith_cons_cons]
    · have : stepValue t c v = v := by
        unfold stepValue
        rw [if_neg hc]
      simp only [hc, if_false, List.zipWith_cons_cons, this]

/-- The running values after a list of tuples. -/
theorem AgreInv.foldl_step {cs as : List ColMeta} (ts : List (List Nat)) :
    ∀ {vs : List AgreValue}, AgreInv cs as vs →
      AgreInv cs as (ts.foldl (fun vs t => List.zipWith (stepValue t) cs vs) vs) := by
  induction ts with
  | nil => intro vs h; exact h
  | cons t ts ih => intro vs h; exact ih (h.zipWith_step t).2

theorem wrap32_add_wrap32 (a b : Int) : wrap32 (wrap32 a + b) = wrap32 (a + b) := by
  unfold wrap32
  omega

theorem wrap32_idem (a : Int) : wrap32 (wrap32 a) = wrap32 a := by
  unfold wrap32
  omega

theorem beginTuple_loop_spec : ∀ (fuel : Nat) (ex : AggregationExecutor),
    ex.prev_.tuples.length - ex.prev_.pos < fuel → ex.prev_.pos ≤ ex.prev_.tuples.length →
    AgreInv ex.cols_ ex.ans_ ex.agre_values_ → wrap32 ex.all_count = ex.all_count →
    AggregationExecutor.beginTuple_loop fuel ex = Except.ok
      { ex with prev_ := { ex.prev_ with pos := ex.prev_.tuples.length },
                all_count := wrap32 (ex.all_count +
                  ((ex.prev_.tuples.length - ex.prev_.pos : Nat) : Int)),
                agre_values_ := (ex.prev_.tuples.drop ex.prev_.pos).foldl
                  (fun vs t => List.zipWith (stepValue t) ex.cols_ vs) ex.agre_values_ } := by
  intro fuel
  induction fuel with
  | zero => intro ex h; omega
  | succ fuel ih =>
    intro ex hf hp hinv hw
    unfold AggregationExecutor.beginTuple_loop
    by_cases he : ex.prev_.is_end = true
    · rw [if_pos he]
      unfold Child.is_end at he
      simp only [decide_eq_true_eq] at he
      have hpe : ex.prev_.pos = ex.prev_.tuples.length := by omega
      rw [hpe, List.drop_length]
      simp only [Nat.sub_self, Nat.cast_zero, add_zero, List.foldl_nil, hw]
      obtain ⟨⟨c, l, ts, p⟩, cs, as, vs, ln, ac, ef⟩ := ex
      simp only at hpe
      subst hpe
      rfl
    · rw [if_neg he]
      unfold Child.is_end at he
      simp only [decide_eq_true_eq, not_le] at he
      have hnext : ex.prev_.Next = Except.ok (ex.prev_.tuples[ex.prev_.pos]) := by
        unfold Child.Next
        rw [List.get?_eq_getElem?, List.getElem?_eq_getElem he]
      have hnt : ex.prev_.nextTuple = Except.ok { ex.prev_ with pos := ex.prev_.pos + 1 } := by
        unfold Child.nextTuple Child.is_end
        rw [if_neg (by simp; omega)]
      obtain ⟨hadd, hinv1⟩ := hinv.zipWith_step (ex.prev_.tuples[ex.prev_.pos])
      rw [hnext]
      simp only [hadd, hnt]
      have hrec := ih ⟨{ ex.prev_ with pos := ex.prev_.pos + 1 }, ex.cols_, ex.ans_,
        List.zipWith (stepValue ex.prev_.tuples[ex.prev_.pos]) ex.cols_ ex.agre_values_,
        ex.len_, wrap32 (ex.all_count + 1), ex.end_flag⟩
        (by simp only; omega) (by simp only; omega) hinv1 (wrap32_idem _)
      rw [hrec]
      simp only [wrap32_add_wrap32]
      have hd : ex.prev_.tuples.drop ex.prev_.pos =
          ex.prev_.tuples[ex.prev_.pos] :: ex.prev_.tuples.drop (ex.prev_.pos + 1) :=
        List.drop_eq_getElem_cons he
      rw [hd, List.foldl_cons]
      have harith : ex.all_count + 1 + ((ex.prev_.tuples.length - (ex.prev_.pos + 1) : Nat) : Int)
          = ex.all_count + ((ex.prev_.tuples.length - ex.prev_.pos : Nat) : Int) := by
        omega
      rw [harith]

theorem foldl_zipWith_getElem {cs : List ColMeta} (ts : List (List Nat)) :
    ∀ {vs : List AgreValue} {i : Nat} {c : ColMeta} {v : AgreValue},
      cs[i]? = some c → vs[i]? = some v →
      (ts.foldl (fun vs t => List.zipWith (stepValue t) cs vs) vs)[i]? =
        some (ts.foldl (fun v t => stepValue t c v) v) := by
  induction ts with
  | nil => intro vs i c v _ hv; exact hv
  | cons t ts ih =>
    intro vs i c v hc hv
    rw [List.foldl_cons, List.foldl_cons]
    apply ih hc
    rw [List.getElem?_zipWith, hc, hv]

theorem get_value_ok {c a : ColMeta} {v : AgreValue} (n : Int) (h : SlotOK c a v)
    (hnc : ¬ (v.agre_type = AgreType.AGRE_TYPE_COUNT_ALL ∨
      v.agre_type = AgreType.AGRE_TYPE_COUNT)) :
    ∃ r, v.get_value = Except.ok r ∧ slotBytes n a v = r.take a.len := by
  unfold slotBytes
  rw [if_neg hnc]
  rcases h with ⟨hc, _⟩ | ⟨hm, hl, _, _, ht⟩
  · exact absurd (by tauto) hnc
  · unfold AgreValue.get_value
    rw [if_pos hm]
    rcases ht with ⟨hi, h4⟩ | ⟨hf, h4⟩ | ⟨hs, hns, hsl, s, hsv, hslen⟩
    · rw [if_pos hi]
      exact ⟨_, rfl, rfl⟩
    · rw [if_neg (by rw [hf]; decide), if_pos hf]
      exact ⟨_, rfl, rfl⟩
    · rw [if_neg (by rw [hs]; decide), if_neg (by rw [hs]; decide), if_pos hs, if_neg hns, hsv]
      exact ⟨_, rfl, rfl⟩

theorem Next_loop_cons {c a : ColMeta} {v : AgreValue} (n : Int) (h : SlotOK c a v)
    (as : List ColMeta) (vs : List AgreValue) (ret : List Nat) (off : Nat) :
    AggregationExecutor.Next_loop n (a :: as) (v :: vs) ret off =
      AggregationExecutor.Next_loop n as vs (memcpy ret off (slotBytes n a v)) (off + a.len) := by
  rw [AggregationExecutor.Next_loop]
  by_cases hc : v.agre_type = AgreType.AGRE_TYPE_COUNT_ALL ∨
      v.agre_type = AgreType.AGRE_TYPE_COUNT
  · rw [if_pos hc]
    unfold slotBytes
    rw [if_pos hc]
  · rw [if_neg hc]
    obtain ⟨r, hr, hs⟩ := get_value_ok n h hc
    rw [hr, hs]

theorem memcpy_take_drop (ret src : List Nat) (off s : Nat) (h : off ≤ ret.length) :
    (memcpy ret off src).take (off + src.length) = ret.take off ++ src ∧
    (memcpy ret off src).drop (off + src.length + s) = ret.drop (off + src.length + s) := by
  unfold memcpy
  have hl : (ret.take off ++ src).length = off + src.length := by
    rw [List.length_append, List.length_take, Nat.min_eq_left h]
  constructor
  · rw [← hl, List.take_left]
  · rw [← hl, List.drop_append, List.drop_drop, hl]

theorem Next_loop_spec (n : Int) {cs as : List ColMeta} {vs : List AgreValue}
    (h : AgreInv cs as vs) :
    ∀ (ret : List Nat) (off : Nat), off + (as.map ColMeta.len).sum ≤ ret.length →
      AggregationExecutor.Next_loop n as vs ret off = Except.ok
        (ret.take off ++ (List.zipWith (slotBytes n) as vs).flatten ++
          ret.drop (off + (as.map ColMeta.len).sum)) := by
  induction h with
  | nil =>
    intro ret off _
    rw [AggregationExecutor.Next_loop]
    simp
  | @cons c a v cs as vs hs _ ih =>
    intro ret off hle
    rw [Next_loop_cons n hs]
    simp only [List.map_cons, List.sum_cons] at hle ⊢
    have hsl := slotBytes_length n hs
    have hlen : (memcpy ret off (slotBytes n a v)).length = ret.length :=
      memcpy_length_le _ _ _ (by rw [hsl]; omega)
    rw [ih _ _ (by rw [hlen]; omega)]
    obtain ⟨h1, h2⟩ := memcpy_take_drop ret (slotBytes n a v) off (as.map ColMeta.len).sum
      (by omega)
    rw [hsl] at h1 h2
    rw [h1, ← Nat.add_assoc, h2, List.zipWith_cons_cons, List.flatten_cons]
    simp only [List.append_assoc]

theorem Next_spec {ex : AggregationExecutor} (h : AgreInv ex.cols_ ex.ans_ ex.agre_values_)
    (hl : ex.len_ = (ex.ans_.map ColMeta.len).sum) :
    ex.Next = Except.ok (List.zipWith (slotBytes ex.all_count) ex.ans_ ex.agre_values_).flatten := by
  unfold AggregationExecutor.Next
  rw [Next_loop_spec _ h _ _ (by rw [zeroBytes_length, hl]; omega)]
  rw [List.take_zero, Nat.zero_add, ← hl, List.drop_of_length_le (by rw [zeroBytes_length])]
  simp

theorem AgreInv.lengths {cs as : List ColMeta} {vs : List AgreValue} (h : AgreInv cs as vs) :
    cs.length = as.length ∧ vs.length = as.length := by
  induction h with
  | nil => exact ⟨rfl, rfl⟩
  | cons _ _ ih => simp [ih.1, ih.2]

theorem AgreInv.getElem {cs as : List ColMeta} {vs : List AgreValue} (h : AgreInv cs as vs) :
    ∀ {i : Nat} {c a : ColMeta} {v : AgreValue}, cs[i]? = some c → as[i]? = some a →
      vs[i]? = some v → SlotOK c a v := by
  induction h with
  | nil => intro i c a v hc; simp at hc
  | @cons c0 a0 v0 cs as vs hs _ ih =>
    intro i c a v hc ha hv
    cases i with
    | zero =>
      simp only [List.getElem?_cons_zero, Option.some.injEq] at hc ha hv
      subst hc ha hv
      exact hs
    | succ i =>
      simp only [List.getElem?_cons_succ] at hc ha hv
      exact ih hc ha hv

/-- The slot of output column `i` in the flattened row. -/
theorem slotAt_flatten {cs as : List ColMeta} {vs : List AgreValue} (n : Int)
    (h : AgreInv cs as vs) :
    ∀ {i : Nat} {a : ColMeta} {v : AgreValue}, as[i]? = some a → vs[i]? = some v →
      slotAt (List.zipWith (slotBytes n) as vs).flatten (prefixOffset as i) a.len =
        slotBytes n a v := by
  induction h with
  | nil => intro i a v ha; simp at ha
  | @cons c0 a0 v0 cs as vs hs hrest ih =>
    intro i a v ha hv
    have hsl := slotBytes_length n hs
    cases i with
    | zero =>
      simp only [List.getElem?_cons_zero, Option.some.injEq] at ha hv
      subst ha hv
      unfold slotAt prefixOffset
      simp only [List.take_zero, List.map_nil, List.sum_nil, List.drop_zero,
        List.zipWith_cons_cons, List.flatten_cons]
      rw [← hsl, List.take_left]
    | succ i =>
      simp only [List.getElem?_cons_succ] at ha hv
      have := ih ha hv
      unfold slotAt prefixOffset at this ⊢
      simp only [List.take_succ_cons, List.map_cons, List.sum_cons, List.zipWith_cons_cons,
        List.flatten_cons]
      rw [← hsl, List.drop_append]
      exact this

theorem init_agre_raw_spec {ty : ColType} {t : AgreType} {len : Nat} {v : AgreValue}
    (h : AgreValue.fresh.init_agre_raw ty t len = Except.ok v) :
    v.agre_type = t ∧ v.type = ty ∧
    ((t = AgreType.AGRE_TYPE_MAX ∨ t = AgreType.AGRE_TYPE_MIN ∨ t = AgreType.AGRE_TYPE_SUM) →
      (ty = ColType.TYPE_INT ∧ len = 4 ∧ v.int_val = initInt t) ∨
      (ty = ColType.TYPE_FLOAT ∧ len = 4) ∨
      (ty = ColType.TYPE_STRING ∧ t ≠ AgreType.AGRE_TYPE_SUM ∧ v.str_len = len ∧
        ∃ s, v.str_val = some s ∧ s.length = len)) := by
  unfold AgreValue.init_agre_raw at h
  cases ty <;> cases t <;> simp only [ne_eq, not_true_eq_false, false_and, and_false, and_self,
    not_false_eq_true, if_true, if_false, reduceCtorEq] at h <;>
    (try split at h) <;> cases h <;> simp_all [initInt]

theorem ctor_spec (pc : List ColMeta) : ∀ (ts : List AgreType) (tgs : List TabCol) (off : Nat)
    (cols ans : List ColMeta) (len : Nat) (vs : List AgreValue),
    AggregationExecutor.ctor_cols pc ts tgs off = Except.ok (cols, ans, len) →
    AggregationExecutor.ctor_values ts cols = Except.ok vs →
    AgreInv cols ans vs ∧ len = off + (ans.map ColMeta.len).sum ∧
    (∀ (i : Nat) (a : ColMeta), ans[i]? = some a → a.offset = off + prefixOffset ans i) ∧
    (∀ (i : Nat) (t : AgreType) (tg : TabCol), ts[i]? = some t → tgs[i]? = some tg →
      ∃ (c a : ColMeta) (v : AgreValue), cols[i]? = some c ∧ ans[i]? = some a ∧ vs[i]? = some v ∧ v.agre_type = t ∧
        (t ≠ AgreType.AGRE_TYPE_COUNT_ALL →
          AggregationExecutor.get_col_meta pc tg = Except.ok c ∧ v.type = c.type ∧
          (c.type = ColType.TYPE_INT → (t = AgreType.AGRE_TYPE_MAX ∨ t = AgreType.AGRE_TYPE_MIN ∨
            t = AgreType.AGRE_TYPE_SUM) → v.int_val = initInt t))) := by
  intro ts
  induction ts with
  | nil =>
    intro tgs off cols ans len vs h1 h2
    rw [AggregationExecutor.ctor_cols] at h1
    · cases h1
      rw [AggregationExecutor.ctor_values] at h2
      · cases h2
        exact ⟨AgreInv.nil, by simp, by intro i a h; simp at h, by intro i t tg h; simp at h⟩
      · intro t ts c cs h; cases h
    · intro t ts tg tgs h; cases h
  | cons t ts ih =>
    intro tgs off cols ans len vs h1 h2
    cases tgs with
    | nil =>
      rw [AggregationExecutor.ctor_cols] at h1
      · cases h1
        rw [AggregationExecutor.ctor_values] at h2
        · cases h2
          exact ⟨AgreInv.nil, by simp, by intro i a h; simp at h,
            by intro i t tg _ h; simp at h⟩
        · intro t ts c cs _ h; cases h
      · intro t ts tg tgs _ h; cases h
    | cons tg tgs =>
      rw [AggregationExecutor.ctor_cols] at h1
      simp only at h1
      generalize hcol : (if t ≠ AgreType.AGRE_TYPE_COUNT_ALL then
        AggregationExecutor.get_col_meta pc tg else Except.ok ColMeta.zero) = col at h1
      cases col with
      | error e => cases h1
      | ok c =>
        simp only at h1
        generalize ha : (if t = AgreType.AGRE_TYPE_COUNT ∨ t = AgreType.AGRE_TYPE_COUNT_ALL then
          (⟨"", "", ColType.TYPE_INT, 4, off, false⟩ : ColMeta)
          else ⟨"", "", c.type, c.len, off, false⟩) = a at h1
        generalize hrec : AggregationExecutor.ctor_cols pc ts tgs (off + a.len) = r at h1
        cases r with
        | error e => cases h1
        | ok r =>
          obtain ⟨cols1, ans1, len1⟩ := r
          simp only [Except.ok.injEq, Prod.mk.injEq] at h1
          obtain ⟨rfl, rfl, rfl⟩ := h1
          rw [AggregationExecutor.ctor_values] at h2
          generalize hv : (if t ≠ AgreType.AGRE_TYPE_COUNT_ALL then
            AgreValue.fresh.init_agre_raw c.type t c.len
            else AgreValue.fresh.init_agre_raw ColType.TYPE_INT t 4) = v at h2
          cases v with
          | error e => cases h2
          | ok v =>
            simp only at h2
            generalize hrec2 : AggregationExecutor.ctor_values ts cols1 = r2 at h2
            cases r2 with
            | error e => cases h2
            | ok vs1 =>
              simp only [Except.ok.injEq] at h2
              subst h2
              obtain ⟨i1, i2, i3, i4⟩ := ih tgs (off + a.len) cols1 ans1 len1 vs1 hrec hrec2
              have haoff : a.offset = off := by
                rw [← ha]; split <;> rfl
              have hslot : SlotOK c a v ∧ v.agre_type = t ∧
                  (t ≠ AgreType.AGRE_TYPE_COUNT_ALL →
                    AggregationExecutor.get_col_meta pc tg = Except.ok c ∧ v.type = c.type ∧
                    (c.type = ColType.TYPE_INT → (t = AgreType.AGRE_TYPE_MAX ∨
                      t = AgreType.AGRE_TYPE_MIN ∨ t = AgreType.AGRE_TYPE_SUM) →
                      v.int_val = initInt t)) := by
                by_cases hca : t = AgreType.AGRE_TYPE_COUNT_ALL
                · subst hca
                  simp only [ne_eq, not_true_eq_false, if_false] at hv
                  obtain ⟨e1, e2, _⟩ := init_agre_raw_spec hv
                  refine ⟨Or.inl ⟨Or.inr e1, ?_, ?_⟩, e1, fun h => absurd rfl h⟩
                  · rw [← ha]; rfl
                  · rw [← ha]; rfl
                · rw [if_pos hca] at hv hcol
                  obtain ⟨e1, e2, e3⟩ := init_agre_raw_spec hv
                  refine ⟨?_, e1, fun _ => ⟨hcol, e2, ?_⟩⟩
                  · by_cases hco : t = AgreType.AGRE_TYPE_COUNT
                    · refine Or.inl ⟨Or.inl (e1.trans hco), ?_, ?_⟩
                      · rw [← ha, if_pos (Or.inl hco)]
                      · rw [← ha, if_pos (Or.inl hco)]
                    · have hm : t = AgreType.AGRE_TYPE_MAX ∨ t = AgreType.AGRE_TYPE_MIN ∨
                          t = AgreType.AGRE_TYPE_SUM := by
                        cases t <;> simp at hca hco ⊢
                      have hal : a.len = c.len ∧ a.type = c.type := by
                        rw [← ha, if_neg (by tauto)]
                        exact ⟨rfl, rfl⟩
                      refine Or.inr ⟨by rw [e1]; exact hm, hal.1, hal.2, e2, ?_⟩
                      rcases e3 hm with ⟨x1, x2, _⟩ | ⟨x1, x2⟩ | ⟨x1, x2, x3, x4⟩
                      · exact Or.inl ⟨by rw [e2]; exact x1, x2⟩
                      · exact Or.inr (Or.inl ⟨by rw [e2]; exact x1, x2⟩)
                      · exact Or.inr (Or.inr ⟨by rw [e2]; exact x1, by rw [e1]; exact x2, x3, x4⟩)
                  · intro hint hm
                    rcases e3 hm with ⟨_, _, x3⟩ | ⟨x1, _⟩ | ⟨x1, _⟩
                    · exact x3
                    · rw [hint] at x1; cases x1
                    · rw [hint] at x1; cases x1
              refine ⟨AgreInv.cons hslot.1 i1, ?_, ?_, ?_⟩
              · rw [i2, List.map_cons, List.sum_cons]
                omega
              · intro i b hb
                cases i with
                | zero =>
                  simp only [List.getElem?_cons_zero, Option.some.injEq] at hb
                  subst hb
                  unfold prefixOffset
                  simp [haoff]
                | succ i =>
                  simp only [List.getElem?_cons_succ] at hb
                  rw [i3 i b hb]
                  unfold prefixOffset
                  simp only [List.take_succ_cons, List.map_cons, List.sum_cons]
                  omega
              · intro i t1 tg1 ht1 htg1
                cases i with
                | zero =>
                  simp only [List.getElem?_cons_zero, Option.some.injEq] at ht1 htg1
                  subst ht1 htg1
                  exact ⟨c, a, v, List.getElem?_cons_zero, List.getElem?_cons_zero,
                    List.getElem?_cons_zero, hslot.2⟩
                | succ i =>
                  simp only [List.getElem?_cons_succ] at ht1 htg1 ⊢
                  exact i4 i t1 tg1 ht1 htg1

theorem init_agre_raw_ok (ty : ColType) (t : AgreType) (len : Nat)
    (h : (ty = ColType.TYPE_INT ∧ len = 4) ∨ (ty = ColType.TYPE_FLOAT ∧ len = 4) ∨
      (ty = ColType.TYPE_STRING ∧ t ≠ AgreType.AGRE_TYPE_SUM)) :
    ∃ v, AgreValue.fresh.init_agre_raw ty t len = Except.ok v := by
  unfold AgreValue.init_agre_raw
  rcases h with ⟨rfl, rfl⟩ | ⟨rfl, rfl⟩ | ⟨rfl, h⟩ <;> cases t <;>
    simp only [ne_eq, not_true_eq_false, false_and, and_false, and_self,
      not_false_eq_true, if_true, if_false, reduceCtorEq] <;>
    first
    | exact ⟨_, rfl⟩
    | exact absurd rfl h

theorem ctor_ok (pc : List ColMeta) : ∀ (ts : List AgreType) (tgs : List TabCol) (off : Nat),
    (∀ (i : Nat) (t : AgreType) (tg : TabCol), ts[i]? = some t → tgs[i]? = some tg →
      AgreSupported pc t tg) →
    ∃ cols ans len vs, AggregationExecutor.ctor_cols pc ts tgs off = Except.ok (cols, ans, len) ∧
      AggregationExecutor.ctor_values ts cols = Except.ok vs ∧
      ans.length = min ts.length tgs.length := by
  intro ts
  induction ts with
  | nil =>
    intro tgs off _
    refine ⟨[], [], off, [], ?_, ?_, by simp⟩
    · rw [AggregationExecutor.ctor_cols]
      intro t ts tg tgs h; cases h
    · rw [AggregationExecutor.ctor_values]
      intro t ts c cs h; cases h
  | cons t ts ih =>
    intro tgs off hs
    cases tgs with
    | nil =>
      refine ⟨[], [], off, [], ?_, ?_, by simp⟩
      · rw [AggregationExecutor.ctor_cols]
        intro t ts tg tgs _ h; cases h
      · rw [AggregationExecutor.ctor_values]
        intro t ts c cs _ h; cases h
    | cons tg tgs =>
      have h0 := hs 0 t tg List.getElem?_cons_zero List.getElem?_cons_zero
      have hcol : ∃ c, (if t ≠ AgreType.AGRE_TYPE_COUNT_ALL then
          AggregationExecutor.get_col_meta pc tg else Except.ok ColMeta.zero) = Except.ok c ∧
          ∃ v, (if t ≠ AgreType.AGRE_TYPE_COUNT_ALL then
            AgreValue.fresh.init_agre_raw c.type t c.len
            else AgreValue.fresh.init_agre_raw ColType.TYPE_INT t 4) = Except.ok v := by
        by_cases hca : t = AgreType.AGRE_TYPE_COUNT_ALL
        · subst hca
          simp only [ne_eq, not_true_eq_false, if_false]
          exact ⟨_, rfl, init_agre_raw_ok _ _ _ (Or.inl ⟨rfl, rfl⟩)⟩
        · rcases h0 with h0 | ⟨c, hc, hsup⟩
          · exact absurd h0 hca
          · rw [if_pos hca]
            refine ⟨c, hc, ?_⟩
            rw [if_pos hca]
            exact init_agre_raw_ok _ _ _ hsup
      obtain ⟨c, hc, v, hv⟩ := hcol
      generalize ha : (if t = AgreType.AGRE_TYPE_COUNT ∨ t = AgreType.AGRE_TYPE_COUNT_ALL then
          (⟨"", "", ColType.TYPE_INT, 4, off, false⟩ : ColMeta)
          else ⟨"", "", c.type, c.len, off, false⟩) = a
      obtain ⟨cols, ans, len, vs, h1, h2, h3⟩ := ih tgs (off + a.len)
        (fun i t1 tg1 ht htg => hs (i + 1) t1 tg1
          (by rw [List.getElem?_cons_succ]; exact ht) (by rw [List.getElem?_cons_succ]; exact htg))
      refine ⟨c :: cols, a :: ans, len, v :: vs, ?_, ?_, ?_⟩
      · rw [AggregationExecutor.ctor_cols, hc]
        simp only [ha, h1]
      · rw [AggregationExecutor.ctor_values, hv]
        simp only [h2]
      · simp only [List.length_cons, h3]
        omega

theorem encodeInt32_wrap32 (x : Int) : encodeInt32 (wrap32 x) = encodeInt32 x := by
  have h : wrap32 x % 4294967296 = x % 4294967296 := by
    unfold wrap32
    omega
  unfold encodeInt32
  simp only [h]

theorem flatten_slots_length (n : Int) {cs as : List ColMeta} {vs : List AgreValue}
    (h : AgreInv cs as vs) :
    (List.zipWith (slotBytes n) as vs).flatten.length = (as.map ColMeta.len).sum := by
  induction h with
  | nil => rfl
  | @cons c a v cs as vs hs _ ih =>
    simp only [List.zipWith_cons_cons, List.flatten_cons, List.length_append, List.map_cons,
      List.sum_cons, ih, slotBytes_length n hs]

theorem foldl_stepValue_inv {c a : ColMeta} (ts : List (List Nat)) :
    ∀ {v : AgreValue}, SlotOK c a v →
      SlotOK c a (ts.foldl (fun v t => stepValue t c v) v) ∧
      (ts.foldl (fun v t => stepValue t c v) v).agre_type = v.agre_type ∧
      (ts.foldl (fun v t => stepValue t c v) v).type = v.type := by
  induction ts with
  | nil => intro v h; exact ⟨h, rfl, rfl⟩
  | cons t ts ih =>
    intro v h
    obtain ⟨h1, h2, h3, _⟩ := stepValue_ok t h
    obtain ⟨i1, i2, i3⟩ := ih h1
    exact ⟨i1, i2.trans h2, i3.trans h3⟩

/-- What the constructor builds for a supported list of aggregates. -/
theorem create_spec (prev : Child) (agre_types : List AgreType)
    (agre_cols target_cols : List TabCol)
    (hlen1 : agre_types.length = agre_cols.length)
    (hlen2 : target_cols.length = agre_cols.length)
    (hs : ∀ (i : Nat) (t : AgreType) (tg : TabCol), agre_types[i]? = some t →
      target_cols[i]? = some tg → AgreSupported prev.cols t tg) :
    ∃ ex, AggregationExecutor.create prev agre_types agre_cols target_cols = Except.ok ex ∧
      ex.prev_ = prev ∧ ex.all_count = 0 ∧ ex.end_flag = false ∧
      AgreInv ex.cols_ ex.ans_ ex.agre_values_ ∧
      ex.ans_.length = agre_cols.length ∧
      ex.len_ = (ex.ans_.map ColMeta.len).sum ∧
      (∀ (i : Nat) (a : ColMeta), ex.ans_[i]? = some a → a.offset = prefixOffset ex.ans_ i) ∧
      (∀ (i : Nat) (t : AgreType) (tg : TabCol), agre_types[i]? = some t →
        target_cols[i]? = some tg →
        ∃ (c a : ColMeta) (v : AgreValue), ex.cols_[i]? = some c ∧ ex.ans_[i]? = some a ∧
          ex.agre_values_[i]? = some v ∧ v.agre_type = t ∧
          (t ≠ AgreType.AGRE_TYPE_COUNT_ALL →
            AggregationExecutor.get_col_meta prev.cols tg = Except.ok c ∧ v.type = c.type ∧
            (c.type = ColType.TYPE_INT → (t = AgreType.AGRE_TYPE_MAX ∨
              t = AgreType.AGRE_TYPE_MIN ∨ t = AgreType.AGRE_TYPE_SUM) →
              v.int_val = initInt t))) := by
  obtain ⟨cols, ans, len, vs, h1, h2, h3⟩ := ctor_ok prev.cols agre_types target_cols 0 hs
  obtain ⟨i1, i2, i3, i4⟩ := ctor_spec prev.cols agre_types target_cols 0 cols ans len vs h1 h2
  have ht1 : agre_types.take agre_cols.length = agre_types := by
    rw [← hlen1, List.take_length]
  have ht2 : target_cols.take agre_cols.length = target_cols := by
    rw [← hlen2, List.take_length]
  refine ⟨⟨prev, cols, ans, vs, len, 0, false⟩, ?_, rfl, rfl, rfl, i1, ?_, ?_, ?_, i4⟩
  · unfold AggregationExecutor.create
    rw [if_neg (by omega), ht1, ht2, h1]
    simp only [h2]
  · simp only [h3]
    omega
  · simp only [i2]
    omega
  · intro i a ha
    rw [i3 i a ha, Nat.zero_add]

/-- What `beginTuple` leaves behind. -/
theorem beginTuple_spec (ex : AggregationExecutor)
    (hinv : AgreInv ex.cols_ ex.ans_ ex.agre_values_) (hac : ex.all_count = 0) :
    ex.beginTuple = Except.ok
      { ex with prev_ := { ex.prev_ with pos := ex.prev_.tuples.length },
                all_count := wrap32 (ex.prev_.tuples.length : Int),
                agre_values_ := ex.prev_.tuples.foldl
                  (fun vs t => List.zipWith (stepValue t) ex.cols_ vs) ex.agre_values_ } := by
  unfold AggregationExecutor.beginTuple
  have h := beginTuple_loop_spec (ex.prev_.tuples.length + 1)
    { ex with prev_ := ex.prev_.beginTuple }
    (by simp only [Child.beginTuple]; omega) (by simp only [Child.beginTuple]; omega) hinv
    (by simp only [hac]; rfl)
  rw [h]
  simp only [Child.beginTuple, Nat.sub_zero, List.drop_zero, hac, zero_add]

/-- The row of a constructed executor. -/
theorem aggregation_row (ex : AggregationExecutor)
    (hinv : AgreInv ex.cols_ ex.ans_ ex.agre_values_) (hac : ex.all_count = 0)
    (hend : ex.end_flag = false) (hl : ex.len_ = (ex.ans_.map ColMeta.len).sum) :
    ∃ ex1 row, ex.beginTuple = Except.ok ex1 ∧ ex1.is_end = false ∧ ex1.Next = Except.ok row ∧
      ex1.nextTuple.is_end = true ∧ (∀ fuel, 2 ≤ fuel → ex.run fuel = Except.ok [row]) ∧
      ex1.ans_ = ex.ans_ ∧ ex1.len_ = ex.len_ ∧ row.length = ex.len_ ∧
      ∀ (i : Nat) (c a : ColMeta) (v : AgreValue), ex.cols_[i]? = some c → ex.ans_[i]? = some a →
        ex.agre_values_[i]? = some v →
        slotAt row (prefixOffset ex.ans_ i) a.len =
          slotBytes (wrap32 (ex.prev_.tuples.length : Int)) a
            (ex.prev_.tuples.foldl (fun v t => stepValue t c v) v) := by
  obtain ⟨ex1, hb, f1, f2, f3, f4, f5, f6⟩ : ∃ ex1, ex.beginTuple = Except.ok ex1 ∧
      ex1.cols_ = ex.cols_ ∧ ex1.ans_ = ex.ans_ ∧
      ex1.agre_values_ = ex.prev_.tuples.foldl
        (fun vs t => List.zipWith (stepValue t) ex.cols_ vs) ex.agre_values_ ∧
      ex1.len_ = ex.len_ ∧ ex1.all_count = wrap32 (ex.prev_.tuples.length : Int) ∧
      ex1.end_flag = ex.end_flag :=
    ⟨_, beginTuple_spec ex hinv hac, rfl, rfl, rfl, rfl, rfl, rfl⟩
  have hinv1 := AgreInv.foldl_step ex.prev_.tuples hinv
  have hnext : ex1.Next = Except.ok (List.zipWith (slotBytes ex1.all_count) ex1.ans_
      ex1.agre_values_).flatten := by
    apply Next_spec
    · rw [f1, f2, f3]; exact hinv1
    · rw [f2, f4]; exact hl
  have he1 : ex1.is_end = false := by
    unfold AggregationExecutor.is_end
    rw [f6]; exact hend
  have he2 : ex1.nextTuple.is_end = true := by
    unfold AggregationExecutor.nextTuple AggregationExecutor.is_end
    unfold AggregationExecutor.is_end at he1
    rw [he1]
    rfl
  refine ⟨ex1, _, hb, he1, hnext, he2, ?_, f2, f4, ?_, ?_⟩
  · intro fuel hf
    obtain ⟨k, rfl⟩ : ∃ k, fuel = k + 2 := ⟨fuel - 2, by omega⟩
    unfold AggregationExecutor.run
    rw [hb]
    simp only
    rw [drainExecutor, if_neg (by rw [he1]; decide), hnext]
    simp only
    rw [drainExecutor, if_pos he2]
  · rw [f2, f3, flatten_slots_length _ hinv1, hl]
  · intro i c a v hc ha hv
    have hv1 := foldl_zipWith_getElem ex.prev_.tuples hc hv
    have := slotAt_flatten (wrap32 (ex.prev_.tuples.length : Int)) hinv1 ha hv1
    rw [f2, f3, f5]
    exact this

theorem decodeInt32_range (l : List Nat) (h : ∀ b ∈ l, b < 256) :
    -2147483648 ≤ decodeInt32 l ∧ decodeInt32 l < 2147483648 := by
  have hb : ∀ i, l.getD i 0 < 256 := by
    intro i
    rw [List.getD_eq_getElem?_getD]
    cases hi : l[i]? with
    | none => simp
    | some x => exact h x (List.mem_iff_getElem?.2 ⟨i, hi⟩)
  have h0 := hb 0
  have h1 := hb 1
  have h2 := hb 2
  have h3 := hb 3
  unfold decodeInt32
  simp only
  split <;> omega

theorem decodeInt32_ge (l : List Nat) : -2147483648 ≤ decodeInt32 l := by
  unfold decodeInt32
  simp only
  split <;> omega

theorem stepValue_int {c : ColMeta} {v : AgreValue} (t : List Nat)
    (hi : v.type = ColType.TYPE_INT) (h4 : c.len = 4) :
    (stepValue t c v).int_val = intStep v.agre_type v.int_val (decodeInt32 (t.drop c.offset)) ∧
    (stepValue t c v).type = ColType.TYPE_INT ∧
    (stepValue t c v).agre_type = v.agre_type := by
  obtain ⟨agt, ty, iv, fv, sv, sl⟩ := v
  simp only at hi
  subst hi
  cases agt <;>
    simp only [stepValue, AgreValue.add_value, intStep, h4, ne_eq, not_true_eq_false,
      not_false_eq_true, and_self, and_false, false_and, if_true, if_false, reduceCtorEq] <;>
    (try split) <;> simp_all

theorem foldl_stepValue_int {c : ColMeta} (h4 : c.len = 4) (ts : List (List Nat)) :
    ∀ {v : AgreValue}, v.type = ColType.TYPE_INT →
      (ts.foldl (fun v t => stepValue t c v) v).int_val =
        (intColumn ts c.offset).foldl (intStep v.agre_type) v.int_val := by
  induction ts with
  | nil => intro v _; rfl
  | cons t ts ih =>
    intro v hi
    obtain ⟨h1, h2, h3⟩ := stepValue_int t hi h4
    rw [List.foldl_cons, ih h2, h1, h3]
    rfl

theorem foldl_intStep_max (l : List Int) : ∀ (a : Int),
    a ≤ l.foldl (intStep AgreType.AGRE_TYPE_MAX) a ∧
    (∀ x ∈ l, x ≤ l.foldl (intStep AgreType.AGRE_TYPE_MAX) a) ∧
    (l.foldl (intStep AgreType.AGRE_TYPE_MAX) a = a ∨
      l.foldl (intStep AgreType.AGRE_TYPE_MAX) a ∈ l) := by
  induction l with
  | nil => intro a; simp
  | cons x l ih =>
    intro a
    obtain ⟨h1, h2, h3⟩ := ih (intStep AgreType.AGRE_TYPE_MAX a x)
    have hs : a ≤ intStep AgreType.AGRE_TYPE_MAX a x ∧ x ≤ intStep AgreType.AGRE_TYPE_MAX a x ∧
        (intStep AgreType.AGRE_TYPE_MAX a x = a ∨ intStep AgreType.AGRE_TYPE_MAX a x = x) := by
      unfold intStep
      simp only
      split <;> omega
    rw [List.foldl_cons]
    refine ⟨by omega, ?_, ?_⟩
    · intro y hy
      rcases List.mem_cons.1 hy with rfl | hy
      · omega
      · exact h2 y hy
    · rcases h3 with h3 | h3
      · rcases hs.2.2 with h | h
        · left; rw [h3, h]
        · right; rw [h3, h]; exact List.mem_cons_self _ _
      · right; exact List.mem_cons_of_mem _ h3

theorem foldl_intStep_min (l : List Int) : ∀ (a : Int),
    l.foldl (intStep AgreType.AGRE_TYPE_MIN) a ≤ a ∧
    (∀ x ∈ l, l.foldl (intStep AgreType.AGRE_TYPE_MIN) a ≤ x) ∧
    (l.foldl (intStep AgreType.AGRE_TYPE_MIN) a = a ∨
      l.foldl (intStep AgreType.AGRE_TYPE_MIN) a ∈ l) := by
  induction l with
  | nil => intro a; simp
  | cons x l ih =>
    intro a
    obtain ⟨h1, h2, h3⟩ := ih (intStep AgreType.AGRE_TYPE_MIN a x)
    have hs : intStep AgreType.AGRE_TYPE_MIN a x ≤ a ∧ intStep AgreType.AGRE_TYPE_MIN a x ≤ x ∧
        (intStep AgreType.AGRE_TYPE_MIN a x = a ∨ intStep AgreType.AGRE_TYPE_MIN a x = x) := by
      unfold intStep
      simp only
      split <;> omega
    rw [List.foldl_cons]
    refine ⟨by omega, ?_, ?_⟩
    · intro y hy
      rcases List.mem_cons.1 hy with rfl | hy
      · omega
      · exact h2 y hy
    · rcases h3 with h3 | h3
      · rcases hs.2.2 with h | h
        · left; rw [h3, h]
        · right; rw [h3, h]; exact List.mem_cons_self _ _
      · right; exact List.mem_cons_of_mem _ h3

theorem foldl_intStep_sum (l : List Int) : ∀ (a : Int), wrap32 a = a →
    l.foldl (intStep AgreType.AGRE_TYPE_SUM) a = wrap32 (a + l.sum) := by
  induction l with
  | nil => intro a h; simp [h]
  | cons x l ih =>
    intro a _
    rw [List.foldl_cons, List.sum_cons]
    have : intStep AgreType.AGRE_TYPE_SUM a x = wrap32 (a + x) := rfl
    rw [this, ih _ (wrap32_idem _), wrap32_add_wrap32, add_assoc]

theorem wrap32_range (x : Int) : -2147483648 ≤ wrap32 x ∧ wrap32 x < 2147483648 := by
  unfold wrap32
  omega

theorem intColumn_range {tuples : List (List Nat)} (hb : AllBytes tuples) (off : Nat) :
    ∀ x ∈ intColumn tuples off, -2147483648 ≤ x ∧ x < 2147483648 := by
  intro x hx
  unfold intColumn at hx
  obtain ⟨t, ht, rfl⟩ := List.mem_map.1 hx
  exact decodeInt32_range _ (fun b hbm => hb t ht b (List.mem_of_mem_drop hbm))

theorem slotBytes_int {a : ColMeta} {v : AgreValue} (n : Int)
    (hm : v.agre_type = AgreType.AGRE_TYPE_MAX ∨ v.agre_type = AgreType.AGRE_TYPE_MIN ∨
      v.agre_type = AgreType.AGRE_TYPE_SUM) (hi : v.type = ColType.TYPE_INT) (h4 : a.len = 4) :
    slotBytes n a v = encodeInt32 v.int_val := by
  unfold slotBytes AgreValue.get_value
  have hnc : ¬ (v.agre_type = AgreType.AGRE_TYPE_COUNT_ALL ∨
      v.agre_type = AgreType.AGRE_TYPE_COUNT) := by
    rcases hm with h | h | h <;> rw [h] <;> decide
  rw [if_neg hnc, if_pos hm, if_pos hi, h4]
  rfl

theorem slotBytes_count {a : ColMeta} {v : AgreValue} (n : Int)
    (hc : v.agre_type = AgreType.AGRE_TYPE_COUNT_ALL ∨ v.agre_type = AgreType.AGRE_TYPE_COUNT)
    (h4 : a.len = 4) : slotBytes n a v = encodeInt32 n := by
  unfold slotBytes
  rw [if_pos hc, h4]
  rfl

/-- The slot of an INT aggregate in the row of the executor. -/
theorem int_slot (prev : Child) (agre_types : List AgreType)
    (agre_cols target_cols : List TabCol)
    (hlen1 : agre_types.length = agre_cols.length)
    (hlen2 : target_cols.length = agre_cols.length)
    (hs : ∀ (i : Nat) (t : AgreType) (tg : TabCol), agre_types[i]? = some t →
      target_cols[i]? = some tg → AgreSupported prev.cols t tg)
    (i : Nat) (t : AgreType) (tg : TabCol) (c : ColMeta)
    (hti : agre_types[i]? = some t) (htg : target_cols[i]? = some tg)
    (hc : AggregationExecutor.get_col_meta prev.cols tg = Except.ok c)
    (hint : c.type = ColType.TYPE_INT) :
    ∃ ex ex1 row a,
      AggregationExecutor.create prev agre_types agre_cols target_cols = Except.ok ex ∧
      ex.beginTuple = Except.ok ex1 ∧ ex1.Next = Except.ok row ∧ ex1.ans_[i]? = some a ∧
      ((t = AgreType.AGRE_TYPE_MAX ∨ t = AgreType.AGRE_TYPE_MIN ∨ t = AgreType.AGRE_TYPE_SUM) →
        a.type = ColType.TYPE_INT ∧ a.len = 4 ∧
        slotAt row a.offset 4 = encodeInt32
          ((intColumn prev.tuples c.offset).foldl (intStep t) (initInt t))) := by
  obtain ⟨ex, hcr, hprev, hac, hend, hinv, _, hlen, hoff, hidx⟩ :=
    create_spec prev agre_types agre_cols target_cols hlen1 hlen2 hs
  obtain ⟨ex1, row, hb, _, hn, _, _, hans, _, _, hslot⟩ := aggregation_row ex hinv hac hend hlen
  obtain ⟨c1, a, v, hc1, ha, hv, hvt, hrest⟩ := hidx i t tg hti htg
  refine ⟨ex, ex1, row, a, hcr, hb, hn, by rw [hans]; exact ha, ?_⟩
  intro hm
  have hnca : t ≠ AgreType.AGRE_TYPE_COUNT_ALL := by
    rcases hm with h | h | h <;> rw [h] <;> decide
  obtain ⟨hgc, hvty, hinit⟩ := hrest hnca
  rw [hc] at hgc
  cases hgc
  have hso := hinv.getElem hc1 ha hv
  have hvi : v.type = ColType.TYPE_INT := hvty.trans hint
  have hal : a.len = 4 ∧ a.type = ColType.TYPE_INT := by
    rcases hso with ⟨hcnt, _⟩ | ⟨_, h1, h2, _, h3⟩
    · rw [hvt] at hcnt
      rcases hm with h | h | h <;> rw [h] at hcnt <;> simp at hcnt
    · rcases h3 with ⟨_, h4⟩ | ⟨hf, _⟩ | ⟨hf, _⟩
      · exact ⟨h1.trans h4, h2.trans hint⟩
      · rw [hvi] at hf; cases hf
      · rw [hvi] at hf; cases hf
  have hc4 : c.len = 4 := by
    rcases hso with ⟨hcnt, _⟩ | ⟨_, h1, _, _, _⟩
    · rw [hvt] at hcnt
      rcases hm with h | h | h <;> rw [h] at hcnt <;> simp at hcnt
    · rw [← h1]; exact hal.1
  refine ⟨hal.2, hal.1, ?_⟩
  have h1 := hslot i c a v hc1 ha hv
  rw [← hoff i a ha, hal.1, hprev] at h1
  rw [h1]
  obtain ⟨_, f2, f3⟩ := foldl_stepValue_inv (c := c) (a := a) prev.tuples hso
  rw [slotBytes_int _ (by rw [f2, hvt]; exact hm) (f3.trans hvi) hal.1,
    foldl_stepValue_int hc4 prev.tuples hvi, hvt, hinit hint hm]

theorem exampleAgre_supported : ∀ (i : Nat) (t : AgreType) (tg : TabCol),
    exampleAgreTypes[i]? = some t → exampleTargetCols[i]? = some tg →
    AgreSupported exampleIntChild.cols t tg := by
  intro i t tg h1 h2
  have hcol : AggregationExecutor.get_col_meta exampleIntChild.cols ⟨"t", "a"⟩ =
      Except.ok ⟨"t", "a", ColType.TYPE_INT, 4, 0, false⟩ := by decide
  rcases i with _ | _ | _ | i
  · cases h1; cases h2
    exact Or.inr ⟨_, hcol, Or.inl ⟨rfl, rfl⟩⟩
  · cases h1
    exact Or.inl rfl
  · cases h1; cases h2
    exact Or.inr ⟨_, hcol, Or.inl ⟨rfl, rfl⟩⟩
  · cases h1

/-- C24 (amended): for every child producing n tuples and every list of
aggregates that the constructor accepts (`COUNT(*)`, or an aggregate, `COUNT`
included, over a 4-byte INT or FLOAT column or a STRING column of the child,
`SUM` over STRING excepted), the AggregationExecutor is constructed and
yields exactly one row: `is_end()` is false after `beginTuple` and true after
one `nextTuple`, a consumer's loop produces the one record that `Next`
returns, the row has one output column per aggregate, its length is the sum
of the output column lengths and `tupleLen()`, every output column sits at
the prefix sum of the lengths before it, and every `COUNT(*)` and
`COUNT(col)` slot is a 4-byte INT column that holds n as a 32-bit integer. -/
theorem aggregation_one_row_count_slots (prev : Child) (agre_types : List AgreType)
    (agre_cols target_cols : List TabCol)
    (hlen1 : agre_types.length = agre_cols.length)
    (hlen2 : target_cols.length = agre_cols.length)
    (hs : ∀ (i : Nat) (t : AgreType) (tg : TabCol), agre_types[i]? = some t →
      target_cols[i]? = some tg → AgreSupported prev.cols t tg) :
    ∃ ex ex1 row,
      AggregationExecutor.create prev agre_types agre_cols target_cols = Except.ok ex ∧
      ex.beginTuple = Except.ok ex1 ∧ ex1.is_end = false ∧ ex1.Next = Except.ok row ∧
      ex1.nextTuple.is_end = true ∧ (∀ fuel, 2 ≤ fuel → ex.run fuel = Except.ok [row]) ∧
      ex1.ans_.length = agre_cols.length ∧
      row.length = (ex1.ans_.map ColMeta.len).sum ∧ ex1.len_ = row.length ∧
      (∀ (i : Nat) (a : ColMeta), ex1.ans_[i]? = some a → a.offset = prefixOffset ex1.ans_ i) ∧
      (∀ (i : Nat) (t : AgreType), agre_types[i]? = some t →
        (t = AgreType.AGRE_TYPE_COUNT ∨ t = AgreType.AGRE_TYPE_COUNT_ALL) →
        ∃ a, ex1.ans_[i]? = some a ∧ a.type = ColType.TYPE_INT ∧ a.len = 4 ∧
          slotAt row a.offset a.len = encodeInt32 (prev.tuples.length : Int)) := by
  obtain ⟨ex, hcr, hprev, hac, hend, hinv, hal, hlen, hoff, hidx⟩ :=
    create_spec prev agre_types agre_cols target_cols hlen1 hlen2 hs
  obtain ⟨ex1, row, hb, he1, hn, he2, hrun, hans, hl1, hrl, hslot⟩ :=
    aggregation_row ex hinv hac hend hlen
  refine ⟨ex, ex1, row, hcr, hb, he1, hn, he2, hrun, by rw [hans]; exact hal,
    by rw [hans, hrl]; exact hlen, by rw [hl1, hrl], by rw [hans]; exact hoff, ?_⟩
  intro i t hti hcnt
  have hi : i < target_cols.length := by
    have := (List.getElem?_eq_some_iff.1 hti).1
    omega
  obtain ⟨c, a, v, hc1, ha, hv, hvt, _⟩ := hidx i t _ hti (List.getElem?_eq_getElem hi)
  have hso := hinv.getElem hc1 ha hv
  have hal4 : a.len = 4 ∧ a.type = ColType.TYPE_INT := by
    rcases hso with ⟨_, h1, h2⟩ | ⟨hm, _⟩
    · exact ⟨h1, h2⟩
    · rw [hvt] at hm
      rcases hcnt with h | h <;> rw [h] at hm <;> simp at hm
  refine ⟨a, by rw [hans]; exact ha, hal4.2, hal4.1, ?_⟩
  have h1 := hslot i c a v hc1 ha hv
  rw [← hoff i a ha, hprev] at h1
  rw [h1]
  obtain ⟨_, f2, _⟩ := foldl_stepValue_inv (c := c) (a := a) prev.tuples hso
  rw [slotBytes_count _ (by rw [f2, hvt]; tauto) hal4.1, encodeInt32_wrap32]

/-- Witness for C24: over the four rows of `t(a)` the aggregates `MAX(a)`,
`COUNT(*)`, `SUM(a)` give the one row (9, 4, 18). -/
theorem aggregation_one_row_count_slots_witness :
    ∃ ex, AggregationExecutor.create exampleIntChild exampleAgreTypes exampleAgreCols
        exampleTargetCols = Except.ok ex ∧
      ex.run 2 = Except.ok [encodeInt32 9 ++ encodeInt32 4 ++ encodeInt32 18] := by
  obtain ⟨ex, ex1, row, hc, hb, _, hn, _, hrun, _⟩ :=
    aggregation_one_row_count_slots exampleIntChild exampleAgreTypes exampleAgreCols
      exampleTargetCols rfl rfl exampleAgre_supported
  refine ⟨ex, hc, ?_⟩
  have hc2 : AggregationExecutor.create exampleIntChild exampleAgreTypes exampleAgreCols
      exampleTargetCols = Except.ok ⟨exampleIntChild,
        [⟨"t", "a", ColType.TYPE_INT, 4, 0, false⟩, ColMeta.zero,
         ⟨"t", "a", ColType.TYPE_INT, 4, 0, false⟩],
        [⟨"", "", ColType.TYPE_INT, 4, 0, false⟩, ⟨"", "", ColType.TYPE_INT, 4, 4, false⟩,
         ⟨"", "", ColType.TYPE_INT, 4, 8, false⟩],
        [⟨AgreType.AGRE_TYPE_MAX, ColType.TYPE_INT, INT_MIN, [0, 0, 0, 0], none, 0⟩,
         ⟨AgreType.AGRE_TYPE_COUNT_ALL, ColType.TYPE_INT, 0, [0, 0, 0, 0], none, 0⟩,
         ⟨AgreType.AGRE_TYPE_SUM, ColType.TYPE_INT, 0, [0, 0, 0, 0], none, 0⟩],
        12, 0, false⟩ := by decide
  rw [hc2] at hc
  cases hc
  decide

/-- Counterexample for C24: `COUNT(b)` over a BIGINT column `b` makes the
constructor fail the assertion of `init_agre_raw`, so that no row is
yielded. -/
theorem aggregation_count_bigint_fails :
    AggregationExecutor.create exampleBigintChild [AgreType.AGRE_TYPE_COUNT]
      [⟨"t", "c"⟩] [⟨"t", "b"⟩] = Except.error ExecError.AssertionFailed ∧
    ¬ ∃ ex, AggregationExecutor.create exampleBigintChild [AgreType.AGRE_TYPE_COUNT]
      [⟨"t", "c"⟩] [⟨"t", "b"⟩] = Except.ok ex := by
  have h : AggregationExecutor.create exampleBigintChild [AgreType.AGRE_TYPE_COUNT]
      [⟨"t", "c"⟩] [⟨"t", "b"⟩] = Except.error ExecError.AssertionFailed := by decide
  refine ⟨h, ?_⟩
  rintro ⟨ex, hex⟩
  rw [h] at hex
  cases hex

/-- C25: for every child whose records are bytes, every accepted list of
aggregates and every aggregate of it over an INT column, the row that the
AggregationExecutor returns holds at the aggregate's output column, a 4-byte
INT column: for MAX the largest value of the column, for MIN the smallest,
and for SUM the sum of the values reduced modulo 2^32 to a two's-complement
32-bit integer; on an empty child MAX holds INT_MIN, MIN holds INT_MAX and
SUM holds 0. -/
theorem aggregation_int_max_min_sum (prev : Child) (agre_types : List AgreType)
    (agre_cols target_cols : List TabCol)
    (hlen1 : agre_types.length = agre_cols.length)
    (hlen2 : target_cols.length = agre_cols.length)
    (hs : ∀ (i : Nat) (t : AgreType) (tg : TabCol), agre_types[i]? = some t →
      target_cols[i]? = some tg → AgreSupported prev.cols t tg)
    (hbytes : AllBytes prev.tuples)
    (i : Nat) (t : AgreType) (tg : TabCol) (c : ColMeta)
    (hti : agre_types[i]? = some t) (htg : target_cols[i]? = some tg)
    (hc : AggregationExecutor.get_col_meta prev.cols tg = Except.ok c)
    (hint : c.type = ColType.TYPE_INT) :
    ∃ ex ex1 row a,
      AggregationExecutor.create prev agre_types agre_cols target_cols = Except.ok ex ∧
      ex.beginTuple = Except.ok ex1 ∧ ex1.Next = Except.ok row ∧ ex1.ans_[i]? = some a ∧
      (t = AgreType.AGRE_TYPE_MAX → a.type = ColType.TYPE_INT ∧ a.len = 4 ∧
        (prev.tuples = [] → slotAt row a.offset 4 = encodeInt32 INT_MIN) ∧
        (prev.tuples ≠ [] → ∃ m ∈ intColumn prev.tuples c.offset,
          (∀ x ∈ intColumn prev.tuples c.offset, x ≤ m) ∧
          slotAt row a.offset 4 = encodeInt32 m ∧ decodeInt32 (slotAt row a.offset 4) = m)) ∧
      (t = AgreType.AGRE_TYPE_MIN → a.type = ColType.TYPE_INT ∧ a.len = 4 ∧
        (prev.tuples = [] → slotAt row a.offset 4 = encodeInt32 INT_MAX) ∧
        (prev.tuples ≠ [] → ∃ m ∈ intColumn prev.tuples c.offset,
          (∀ x ∈ intColumn prev.tuples c.offset, m ≤ x) ∧
          slotAt row a.offset 4 = encodeInt32 m ∧ decodeInt32 (slotAt row a.offset 4) = m)) ∧
      (t = AgreType.AGRE_TYPE_SUM → a.type = ColType.TYPE_INT ∧ a.len = 4 ∧
        slotAt row a.offset 4 = encodeInt32 (intColumn prev.tuples c.offset).sum ∧
        decodeInt32 (slotAt row a.offset 4) = wrap32 (intColumn prev.tuples c.offset).sum ∧
        (prev.tuples = [] → slotAt row a.offset 4 = encodeInt32 0)) := by
  obtain ⟨ex, ex1, row, a, hcr, hb, hn, ha, hslot⟩ :=
    int_slot prev agre_types agre_cols target_cols hlen1 hlen2 hs i t tg c hti htg hc hint
  have hrange := intColumn_range hbytes c.offset
  refine ⟨ex, ex1, row, a, hcr, hb, hn, ha, ?_, ?_, ?_⟩
  · intro ht
    subst ht
    obtain ⟨h1, h2, h3⟩ := hslot (Or.inl rfl)
    refine ⟨h1, h2, ?_, ?_⟩
    · intro he
      rw [h3, he]
      rfl
    · intro hne
      obtain ⟨g1, g2, g3⟩ := foldl_intStep_max (intColumn prev.tuples c.offset)
        (initInt AgreType.AGRE_TYPE_MAX)
      have hmem : (intColumn prev.tuples c.offset).foldl (intStep AgreType.AGRE_TYPE_MAX)
          (initInt AgreType.AGRE_TYPE_MAX) ∈ intColumn prev.tuples c.offset := by
        rcases g3 with g3 | g3
        · obtain ⟨r, rs, hr⟩ := List.exists_cons_of_ne_nil hne
          have hx : decodeInt32 (r.drop c.offset) ∈ intColumn prev.tuples c.offset := by
            rw [hr]; exact List.mem_cons_self _ _
          have hle := g2 _ hx
          have hge := (hrange _ hx).1
          rw [g3] at hle
          have : decodeInt32 (r.drop c.offset) = initInt AgreType.AGRE_TYPE_MAX := by
            have e : initInt AgreType.AGRE_TYPE_MAX = -2147483648 := rfl
            omega
          rw [g3, ← this]
          exact hx
        · exact g3
      refine ⟨_, hmem, g2, h3, ?_⟩
      rw [h3]
      have := decodeInt32_encode _ [] (hrange _ hmem).1 (hrange _ hmem).2
      rw [List.append_nil] at this
      exact this
  · intro ht
    subst ht
    obtain ⟨h1, h2, h3⟩ := hslot (Or.inr (Or.inl rfl))
    refine ⟨h1, h2, ?_, ?_⟩
    · intro he
      rw [h3, he]
      rfl
    · intro hne
      obtain ⟨g1, g2, g3⟩ := foldl_intStep_min (intColumn prev.tuples c.offset)
        (initInt AgreType.AGRE_TYPE_MIN)
      have hmem : (intColumn prev.tuples c.offset).foldl (intStep AgreType.AGRE_TYPE_MIN)
          (initInt AgreType.AGRE_TYPE_MIN) ∈ intColumn prev.tuples c.offset := by
        rcases g3 with g3 | g3
        · obtain ⟨r, rs, hr⟩ := List.exists_cons_of_ne_nil hne
          have hx : decodeInt32 (r.drop c.offset) ∈ intColumn prev.tuples c.offset := by
            rw [hr]; exact List.mem_cons_self _ _
          have hle := g2 _ hx
          have hge := (hrange _ hx).2
          rw [g3] at hle
          have : decodeInt32 (r.drop c.offset) = initInt AgreType.AGRE_TYPE_MIN := by
            have e : initInt AgreType.AGRE_TYPE_MIN = 2147483647 := rfl
            omega
          rw [g3, ← this]
          exact hx
        · exact g3
      refine ⟨_, hmem, g2, h3, ?_⟩
      rw [h3]
      have := decodeInt32_encode _ [] (hrange _ hmem).1 (hrange _ hmem).2
      rw [List.append_nil] at this
      exact this
  · intro ht
    subst ht
    obtain ⟨h1, h2, h3⟩ := hslot (Or.inr (Or.inr rfl))
    have hsum := foldl_intStep_sum (intColumn prev.tuples c.offset)
      (initInt AgreType.AGRE_TYPE_SUM) rfl
    have e0 : initInt AgreType.AGRE_TYPE_SUM = 0 := rfl
    rw [e0, zero_add] at hsum
    rw [e0, hsum] at h3
    refine ⟨h1, h2, by rw [h3, encodeInt32_wrap32], ?_, ?_⟩
    · rw [h3]
      have := decodeInt32_encode _ [] (wrap32_range (intColumn prev.tuples c.offset).sum).1
        (wrap32_range (intColumn prev.tuples c.offset).sum).2
      rw [List.append_nil] at this
      exact this
    · intro he
      rw [h3, he]
      rfl

/-- Witness for C25: over the rows a in {-5, 7, 7, 9} the slot of `MAX(a)`
holds 9 and the slot of `SUM(a)` holds 18. -/
theorem aggregation_int_max_min_sum_witness :
    ∃ ex ex1 row, AggregationExecutor.create exampleIntChild exampleAgreTypes exampleAgreCols
        exampleTargetCols = Except.ok ex ∧
      ex.beginTuple = Except.ok ex1 ∧ ex1.Next = Except.ok row ∧
      decodeInt32 (slotAt row 0 4) = 9 ∧ decodeInt32 (slotAt row 8 4) = 18 := by
  have hb : AllBytes exampleIntChild.tuples := by
    intro r hr b hb
    revert b hb
    revert r hr
    decide
  have hcol : AggregationExecutor.get_col_meta exampleIntChild.cols ⟨"t", "a"⟩ =
      Except.ok ⟨"t", "a", ColType.TYPE_INT, 4, 0, false⟩ := by decide
  obtain ⟨ex, ex1, row, a, hc, hbt, hn, ha, hmax, _, _⟩ :=
    aggregation_int_max_min_sum exampleIntChild exampleAgreTypes exampleAgreCols
      exampleTargetCols rfl rfl exampleAgre_supported hb 0 AgreType.AGRE_TYPE_MAX ⟨"t", "a"⟩
      ⟨"t", "a", ColType.TYPE_INT, 4, 0, false⟩ rfl rfl hcol rfl
  obtain ⟨ex', ex1', row', a', hc', hbt', hn', ha', _, _, hsum⟩ :=
    aggregation_int_max_min_sum exampleIntChild exampleAgreTypes exampleAgreCols
      exampleTargetCols rfl rfl exampleAgre_supported hb 2 AgreType.AGRE_TYPE_SUM ⟨"t", "a"⟩
      ⟨"t", "a", ColType.TYPE_INT, 4, 0, false⟩ rfl rfl hcol rfl
  rw [hc] at hc'
  cases hc'
  rw [hbt] at hbt'
  cases hbt'
  rw [hn] at hn'
  cases hn'
  refine ⟨ex, ex1, row, hc, hbt, hn, ?_, ?_⟩
  · obtain ⟨_, _, _, h⟩ := hmax rfl
    obtain ⟨m, hm, hle, _, hd⟩ := h (by decide)
    have e : a.offset = 0 := by
      have hc2 : (AggregationExecutor.create exampleIntChild exampleAgreTypes exampleAgreCols
          exampleTargetCols).map (fun e => e.beginTuple.map (fun e1 => e1.ans_[0]?)) =
          Except.ok (Except.ok (some ⟨"", "", ColType.TYPE_INT, 4, 0, false⟩)) := by decide
      rw [hc] at hc2
      simp only [Except.map, hbt, ha, Except.ok.injEq, Option.some.injEq] at hc2
      rw [hc2]
    rw [e] at hd
    rw [hd]
    have h9 : (9 : Int) ∈ intColumn exampleIntChild.tuples 0 := by decide
    have hm' : m ∈ ([-5, 7, 7, 9] : List Int) := hm
    have := hle 9 h9
    simp only [List.mem_cons, List.mem_singleton, List.not_mem_nil, or_false] at hm'
    omega
  · obtain ⟨_, _, _, hd, _⟩ := hsum rfl
    have e : a'.offset = 8 := by
      have hc2 : (AggregationExecutor.create exampleIntChild exampleAgreTypes exampleAgreCols
          exampleTargetCols).map (fun e => e.beginTuple.map (fun e1 => e1.ans_[2]?)) =
          Except.ok (Except.ok (some ⟨"", "", ColType.TYPE_INT, 4, 8, false⟩)) := by decide
      rw [hc] at hc2
      simp only [Except.map, hbt, ha', Except.ok.injEq, Option.some.injEq] at hc2
      rw [hc2]
    rw [e] at hd
    rw [hd]
    decide

/-! ## Projection: column lookup -/

theorem lookup_cons_pair (k a : String) (b : Nat) (m : List (String × Nat)) :
    List.lookup k ((a, b) :: m) = if k = a then some b else List.lookup k m := by
  rw [List.lookup_cons]
  by_cases h : k = a
  · rw [if_pos h, h]
    simp
  · rw [if_neg h]
    have : (k == a) = false := by simpa using h
    rw [this]

theorem init_hash_cols_from_keep (k : String) : ∀ (cols : List ColMeta) (i0 : Nat)
    (m : List (String × Nat)) (x : Nat), List.lookup k m = some x →
    ∃ i, List.lookup k (init_hash_cols_from cols i0 m) = some i := by
  intro cols
  induction cols with
  | nil => intro i0 m x h; exact ⟨x, h⟩
  | cons c rest ih =>
    intro i0 m x h
    rw [init_hash_cols_from]
    by_cases hk : k = get_hash_key c.tab_name c.name
    · exact ih (i0 + 1) _ i0 (by rw [lookup_cons_pair, if_pos hk])
    · exact ih (i0 + 1) _ x (by rw [lookup_cons_pair, if_neg hk]; exact h)

theorem init_hash_cols_from_some (k : String) : ∀ (cols : List ColMeta) (i0 : Nat)
    (m : List (String × Nat)) (i : Nat),
    List.lookup k (init_hash_cols_from cols i0 m) = some i →
    (∃ (j : Nat) (c : ColMeta), i = i0 + j ∧ cols[j]? = some c ∧
      get_hash_key c.tab_name c.name = k) ∨ List.lookup k m = some i := by
  intro cols
  induction cols with
  | nil => intro i0 m i h; exact Or.inr h
  | cons c rest ih =>
    intro i0 m i h
    rw [init_hash_cols_from] at h
    rcases ih (i0 + 1) _ i h with ⟨j, c1, h1, h2, h3⟩ | h1
    · exact Or.inl ⟨j + 1, c1, by omega, by rw [List.getElem?_cons_succ]; exact h2, h3⟩
    · rw [lookup_cons_pair] at h1
      by_cases hk : k = get_hash_key c.tab_name c.name
      · rw [if_pos hk] at h1
        cases h1
        exact Or.inl ⟨0, c, rfl, List.getElem?_cons_zero, hk.symm⟩
      · rw [if_neg hk] at h1
        exact Or.inr h1

theorem init_hash_cols_from_mem (k : String) : ∀ (cols : List ColMeta) (i0 : Nat)
    (m : List (String × Nat)), (∃ c ∈ cols, get_hash_key c.tab_name c.name = k) →
    ∃ i, List.lookup k (init_hash_cols_from cols i0 m) = some i := by
  intro cols
  induction cols with
  | nil => intro i0 m h; obtain ⟨c, hc, _⟩ := h; cases hc
  | cons c rest ih =>
    intro i0 m h
    rw [init_hash_cols_from]
    by_cases hr : ∃ c ∈ rest, get_hash_key c.tab_name c.name = k
    · exact ih (i0 + 1) _ hr
    · obtain ⟨c1, hc1, hk⟩ := h
      rcases List.mem_cons.1 hc1 with rfl | hc1
      · exact init_hash_cols_from_keep k rest (i0 + 1) _ i0
          (by rw [lookup_cons_pair, if_pos hk.symm])
      · exact absurd ⟨c1, hc1, hk⟩ hr

/-- What `get_col` returns: a column of the list with the key of the
target, and its index. -/
theorem get_col_ok {cols : List ColMeta} {target : TabCol} {i : Nat} {c : ColMeta}
    (h : get_col cols target = Except.ok (i, c)) :
    cols[i]? = some c ∧
    get_hash_key c.tab_name c.name = get_hash_key target.tab_name target.col_name := by
  unfold get_col at h
  cases hl : (init_hash_cols cols).lookup (get_hash_key target.tab_name target.col_name) with
  | none => rw [hl] at h; cases h
  | some j =>
    rw [hl] at h
    simp only at h
    rw [List.get?_eq_getElem?] at h
    cases hc : cols[j]? with
    | none => rw [hc] at h; cases h
    | some c1 =>
      rw [hc] at h
      simp only [Except.ok.injEq, Prod.mk.injEq] at h
      obtain ⟨rfl, rfl⟩ := h
      refine ⟨hc, ?_⟩
      unfold init_hash_cols at hl
      rcases init_hash_cols_from_some _ cols 0 [] j hl with ⟨j1, c2, h1, h2, h3⟩ | h1
      · rw [Nat.zero_add] at h1
        subst h1
        rw [hc] at h2
        cases h2
        exact h3
      · cases h1

/-- `get_col` finds every key that a column of the list has. -/
theorem get_col_of_mem {cols : List ColMeta} {target : TabCol}
    (h : ∃ c ∈ cols, get_hash_key c.tab_name c.name =
      get_hash_key target.tab_name target.col_name) :
    ∃ p, get_col cols target = Except.ok p := by
  obtain ⟨j, hj⟩ := init_hash_cols_from_mem _ cols 0 [] h
  unfold get_col
  unfold init_hash_cols
  rw [hj]
  simp only
  rcases init_hash_cols_from_some _ cols 0 [] j hj with ⟨j1, c2, h1, h2, _⟩ | h1
  · rw [Nat.zero_add] at h1
    subst h1
    rw [List.get?_eq_getElem?, h2]
    exact ⟨_, rfl⟩
  · cases h1

/-- `get_col` reads the target through its key only. -/
theorem get_col_congr (cols : List ColMeta) {t1 t2 : TabCol}
    (h : get_hash_key t1.tab_name t1.col_name = get_hash_key t2.tab_name t2.col_name) :
    get_col cols t1 = get_col cols t2 := by
  unfold get_col
  rw [h]

/-! ## Projection: constructor and `project` -/

theorem slotAt_length {r : List Nat} {off len : Nat} (h : off + len ≤ r.length) :
    (slotAt r off len).length = len := by
  unfold slotAt
  rw [List.length_take, List.length_drop]
  omega

theorem ctor_loop_spec (pc : List ColMeta) : ∀ (sels : List TabCol) (off : Nat)
    (idxs : List Nat) (cols : List ColMeta) (len : Nat),
    ProjectionExecutor.ctor_loop pc sels off = Except.ok (idxs, cols, len) →
    ProjRel pc idxs cols off ∧ len = off + (cols.map ColMeta.len).sum ∧
    idxs.length = sels.length ∧ cols.length = sels.length ∧
    (∀ (i : Nat) (s : TabCol), sels[i]? = some s →
      ∃ (idx : Nat) (b : ColMeta), get_col pc s = Except.ok (idx, b) ∧ idxs[i]? = some idx ∧
        cols[i]? = some { b with offset := off + prefixOffset cols i }) := by
  intro sels
  induction sels with
  | nil =>
    intro off idxs cols len h
    rw [ProjectionExecutor.ctor_loop] at h
    cases h
    exact ⟨ProjRel.nil off, by simp, rfl, rfl, by intro i s h; simp at h⟩
  | cons s sels ih =>
    intro off idxs cols len h
    rw [ProjectionExecutor.ctor_loop] at h
    cases hg : get_col pc s with
    | error e => rw [hg] at h; cases h
    | ok p =>
      obtain ⟨idx, b⟩ := p
      rw [hg] at h
      simp only at h
      cases hr : ProjectionExecutor.ctor_loop pc sels (off + b.len) with
      | error e => rw [hr] at h; cases h
      | ok q =>
        obtain ⟨idxs1, cols1, len1⟩ := q
        rw [hr] at h
        simp only [Except.ok.injEq, Prod.mk.injEq] at h
        obtain ⟨rfl, rfl, rfl⟩ := h
        obtain ⟨i1, i2, i3, i4, i5⟩ := ih _ _ _ _ hr
        refine ⟨ProjRel.cons off (get_col_ok hg).1 i1, ?_, by simp [i3], by simp [i4], ?_⟩
        · simp only [i2, List.map_cons, List.sum_cons]
          omega
        · intro i s1 hs1
          cases i with
          | zero =>
            simp only [List.getElem?_cons_zero, Option.some.injEq] at hs1
            subst hs1
            refine ⟨idx, b, hg, List.getElem?_cons_zero, ?_⟩
            rw [List.getElem?_cons_zero]
            simp [prefixOffset]
          | succ i =>
            simp only [List.getElem?_cons_succ] at hs1 ⊢
            obtain ⟨idx1, b1, g1, g2, g3⟩ := i5 i s1 hs1
            refine ⟨idx1, b1, g1, g2, ?_⟩
            rw [g3]
            simp only [prefixOffset, List.take_succ_cons, List.map_cons, List.sum_cons,
              Option.some.injEq, ColMeta.mk.injEq, true_and, and_true]
            omega

theorem ctor_loop_ok (pc : List ColMeta) : ∀ (sels : List TabCol) (off : Nat),
    (∀ s ∈ sels, ∃ p, get_col pc s = Except.ok p) →
    ∃ q, ProjectionExecutor.ctor_loop pc sels off = Except.ok q := by
  intro sels
  induction sels with
  | nil => intro off _; exact ⟨_, rfl⟩
  | cons s sels ih =>
    intro off h
    obtain ⟨⟨idx, b⟩, hp⟩ := h s (List.mem_cons_self _ _)
    obtain ⟨⟨idxs, cols, len⟩, hq⟩ := ih (off + b.len)
      (fun s1 hs1 => h s1 (List.mem_cons_of_mem _ hs1))
    rw [ProjectionExecutor.ctor_loop, hp]
    simp only [hq]
    exact ⟨_, rfl⟩

theorem ProjRel.offsets {pc : List ColMeta} {idxs : List Nat} {cols : List ColMeta} {off : Nat}
    (h : ProjRel pc idxs cols off) :
    ∀ (i : Nat) (a : ColMeta), cols[i]? = some a → a.offset = off + prefixOffset cols i := by
  induction h with
  | nil off => intro i a h; simp at h
  | @cons idx b idxs cols off hb _ ih =>
    intro i a ha
    cases i with
    | zero =>
      simp only [List.getElem?_cons_zero, Option.some.injEq] at ha
      subst ha
      simp [prefixOffset]
    | succ i =>
      simp only [List.getElem?_cons_succ] at ha
      rw [ih i a ha]
      simp only [prefixOffset, List.take_succ_cons, List.map_cons, List.sum_cons]
      omega

theorem ProjRel.project_spec {pc : List ColMeta} {idxs : List Nat} {cols : List ColMeta}
    {off : Nat} (h : ProjRel pc idxs cols off) (r : List Nat)
    (hfit : ∀ c ∈ pc, c.offset + c.len ≤ r.length) :
    ∀ (ret : List Nat), off + (cols.map ColMeta.len).sum ≤ ret.length →
      ProjectionExecutor.project_loop pc r idxs cols ret = Except.ok
        (ret.take off ++ projectRecord pc idxs r ++ ret.drop (off + (cols.map ColMeta.len).sum)) := by
  induction h with
  | nil off =>
    intro ret _
    rw [ProjectionExecutor.project_loop]
    simp [projectRecord]
  | @cons idx b idxs cols off hb _ ih =>
    intro ret hle
    simp only [List.map_cons, List.sum_cons] at hle ⊢
    rw [ProjectionExecutor.project_loop, List.get?_eq_getElem?, hb]
    simp only [ne_eq, not_true_eq_false, if_false]
    have hbm : b ∈ pc := List.mem_iff_getElem?.2 ⟨idx, hb⟩
    have hsl : (slotAt r b.offset b.len).length = b.len := slotAt_length (hfit b hbm)
    have hlen : (memcpy ret off (slotAt r b.offset b.len)).length = ret.length :=
      memcpy_length_le _ _ _ (by rw [hsl]; omega)
    rw [ih _ (by rw [hlen]; omega)]
    obtain ⟨h1, h2⟩ := memcpy_take_drop ret (slotAt r b.offset b.len) off
      (cols.map ColMeta.len).sum (by omega)
    rw [hsl] at h1 h2
    rw [h1, ← Nat.add_assoc, h2]
    simp only [projectRecord, List.map_cons, List.flatten_cons, hb, List.append_assoc]

theorem ProjRel.projectRecord_length {pc : List ColMeta} {idxs : List Nat}
    {cols : List ColMeta} {off : Nat} (h : ProjRel pc idxs cols off) (r : List Nat)
    (hfit : ∀ c ∈ pc, c.offset + c.len ≤ r.length) :
    (projectRecord pc idxs r).length = (cols.map ColMeta.len).sum := by
  induction h with
  | nil off => rfl
  | @cons idx b idxs cols off hb _ ih =>
    have hbm : b ∈ pc := List.mem_iff_getElem?.2 ⟨idx, hb⟩
    simp only [projectRecord, List.map_cons, List.flatten_cons, hb, List.length_append,
      List.sum_cons, slotAt_length (hfit b hbm)]
    rw [← ih]
    rfl

/-- The slot of output column `i` in the projected record. -/
theorem ProjRel.slot {pc : List ColMeta} {idxs : List Nat} {cols : List ColMeta} {off : Nat}
    (h : ProjRel pc idxs cols off) (r : List Nat)
    (hfit : ∀ c ∈ pc, c.offset + c.len ≤ r.length) :
    ∀ (i idx : Nat) (b : ColMeta), idxs[i]? = some idx → pc[idx]? = some b →
      slotAt (projectRecord pc idxs r) (prefixOffset cols i) b.len = slotAt r b.offset b.len := by
  induction h with
  | nil off => intro i idx b h; simp at h
  | @cons idx0 b0 idxs cols off hb0 _ ih =>
    intro i idx b hi hb
    have hbm : b0 ∈ pc := List.mem_iff_getElem?.2 ⟨idx0, hb0⟩
    have hsl := slotAt_length (hfit b0 hbm)
    cases i with
    | zero =>
      simp only [List.getElem?_cons_zero, Option.some.injEq] at hi
      subst hi
      rw [hb0] at hb
      cases hb
      simp only [projectRecord, List.map_cons, List.flatten_cons, hb0, prefixOffset,
        List.take_zero, List.map_nil, List.sum_nil]
      generalize slotAt r b0.offset b0.len = S at hsl ⊢
      unfold slotAt
      rw [List.drop_zero, ← hsl, List.take_left]
    | succ i =>
      simp only [List.getElem?_cons_succ] at hi
      have := ih i idx b hi hb
      simp only [projectRecord, List.map_cons, List.flatten_cons, hb0, prefixOffset,
        List.take_succ_cons, List.sum_cons] at this ⊢
      rw [← this]
      generalize slotAt r b0.offset b0.len = S at hsl ⊢
      unfold slotAt
      rw [← hsl, List.drop_append]

/-- An executor that yields `f r` for every record `r` of its child. -/
theorem drainExecutor_map {σ : Type} (is_end : σ → Bool)
    (Next : σ → Except ExecError (List Nat)) (nextTuple : σ → Except ExecError σ)
    (child : σ → Child) (f : List Nat → List Nat) (P : σ → Prop)
    (h_end : ∀ s, is_end s = (child s).is_end)
    (h_next : ∀ s r, P s → (child s).tuples[(child s).pos]? = some r → Next s = Except.ok (f r))
    (h_nt : ∀ s, P s → (child s).is_end = false → ∃ s', nextTuple s = Except.ok s' ∧ P s' ∧
      (child s').tuples = (child s).tuples ∧ (child s').pos = (child s).pos + 1) :
    ∀ (fuel : Nat) (s : σ), P s → (child s).tuples.length - (child s).pos < fuel →
      drainExecutor is_end Next nextTuple fuel s =
        Except.ok (((child s).tuples.drop (child s).pos).map f) := by
  intro fuel
  induction fuel with
  | zero => intro s _ h; omega
  | succ fuel ih =>
    intro s hP hf
    rw [drainExecutor, h_end]
    by_cases he : (child s).is_end = true
    · rw [if_pos he]
      unfold Child.is_end at he
      simp only [decide_eq_true_eq] at he
      rw [List.drop_of_length_le he]
      rfl
    · rw [if_neg he]
      have he' : (child s).is_end = false := by simpa using he
      unfold Child.is_end at he
      simp only [decide_eq_true_eq, not_le] at he
      have hr := List.getElem?_eq_getElem he
      rw [h_next s _ hP hr]
      obtain ⟨s', h1, h2, h3, h4⟩ := h_nt s hP he'
      simp only [h1]
      rw [ih s' h2 (by rw [h3, h4]; omega), h3, h4, List.drop_eq_getElem_cons he]
      rfl

/-- What the constructor and a run of the projection give. -/
theorem projection_spec (prev : Child) (sel_cols : List TabCol)
    (hfit : ColsFit prev.cols prev.tuples)
    (hsel : ∀ s ∈ sel_cols, ∃ p, get_col prev.cols s = Except.ok p) :
    ∃ ex, ProjectionExecutor.create prev sel_cols = Except.ok ex ∧ ex.prev_ = prev ∧
      ProjRel prev.cols ex.sel_idxs_ ex.cols_ 0 ∧
      ex.len_ = (ex.cols_.map ColMeta.len).sum ∧
      ex.sel_idxs_.length = sel_cols.length ∧ ex.cols_.length = sel_cols.length ∧
      (∀ (i : Nat) (s : TabCol), sel_cols[i]? = some s →
        ∃ (idx : Nat) (b : ColMeta), get_col prev.cols s = Except.ok (idx, b) ∧
          ex.sel_idxs_[i]? = some idx ∧
          ex.cols_[i]? = some { b with offset := prefixOffset ex.cols_ i }) ∧
      (∀ fuel, prev.tuples.length < fuel →
        ex.run fuel = Except.ok (prev.tuples.map (projectRecord prev.cols ex.sel_idxs_))) := by
  obtain ⟨⟨idxs, cols, len⟩, hq⟩ := ctor_loop_ok prev.cols sel_cols 0 hsel
  obtain ⟨h1, h2, h3, h4, h5⟩ := ctor_loop_spec prev.cols sel_cols 0 idxs cols len hq
  rw [Nat.zero_add] at h2
  refine ⟨⟨prev, cols, len, idxs⟩, ?_, rfl, h1, h2, h3, h4, ?_, ?_⟩
  · unfold ProjectionExecutor.create
    rw [hq]
  · intro i s hs
    obtain ⟨idx, b, g1, g2, g3⟩ := h5 i s hs
    rw [Nat.zero_add] at g3
    exact ⟨idx, b, g1, g2, g3⟩
  · intro fuel hf
    unfold ProjectionExecutor.run
    have := drainExecutor_map ProjectionExecutor.is_end ProjectionExecutor.Next
      ProjectionExecutor.nextTuple (fun s => s.prev_) (projectRecord prev.cols idxs)
      (fun s => s.cols_ = cols ∧ s.sel_idxs_ = idxs ∧ s.len_ = len ∧ s.prev_.cols = prev.cols ∧
        s.prev_.tuples = prev.tuples)
      (fun s => rfl)
      (by
        intro s r ⟨p1, p2, p3, p4, p5⟩ hr
        have hne : s.is_end = false := by
          unfold ProjectionExecutor.is_end Child.is_end
          have := (List.getElem?_eq_some_iff.1 hr).1
          simp only [decide_eq_false_iff_not, not_le]
          exact this
        unfold ProjectionExecutor.Next
        rw [hne]
        simp only [Bool.false_eq_true, if_false]
        unfold Child.Next
        rw [List.get?_eq_getElem?, hr]
        simp only
        unfold ProjectionExecutor.project
        rw [p1, p2, p3, p4]
        have hr' : r ∈ prev.tuples := by
          rw [← p5]; exact List.mem_iff_getElem?.2 ⟨_, hr⟩
        rw [h1.project_spec r (hfit r hr') _ (by rw [zeroBytes_length, h2]; omega)]
        rw [List.take_zero, Nat.zero_add, ← h2,
          List.drop_of_length_le (by rw [zeroBytes_length])]
        simp)
      (by
        intro s ⟨p1, p2, p3, p4, p5⟩ he
        have hne : s.is_end = false := he
        unfold ProjectionExecutor.nextTuple Child.nextTuple
        rw [hne, he]
        simp only [Bool.false_eq_true, if_false]
        exact ⟨_, rfl, ⟨p1, p2, p3, p4, p5⟩, rfl, rfl⟩)
      fuel (ProjectionExecutor.beginTuple ⟨prev, cols, len, idxs⟩)
      ⟨rfl, rfl, rfl, rfl, rfl⟩
      (by simp only [ProjectionExecutor.beginTuple, Child.beginTuple]; omega)
    rw [this]
    rfl

theorem prefixOffset_le {cols : List ColMeta} {i : Nat} {c : ColMeta} (h : cols[i]? = some c) :
    prefixOffset cols i + c.len ≤ (cols.map ColMeta.len).sum := by
  induction cols generalizing i with
  | nil => simp at h
  | cons a cols ih =>
    cases i with
    | zero =>
      simp only [List.getElem?_cons_zero, Option.some.injEq] at h
      subst h
      simp [prefixOffset]
    | succ i =>
      simp only [List.getElem?_cons_succ] at h
      have := ih h
      simp only [prefixOffset, List.take_succ_cons, List.map_cons, List.sum_cons] at this ⊢
      omega

/-- Looking a selected column up in the output columns of the projection
finds a copy of the same child column. -/
theorem second_lookup {pc : List ColMeta} {sels : List TabCol} {idxs : List Nat}
    {cols : List ColMeta}
    (hlen : cols.length = sels.length)
    (hidx : ∀ (i : Nat) (s : TabCol), sels[i]? = some s →
      ∃ (idx : Nat) (b : ColMeta), get_col pc s = Except.ok (idx, b) ∧ idxs[i]? = some idx ∧
        cols[i]? = some { b with offset := prefixOffset cols i })
    (i : Nat) (s : TabCol) (hs : sels[i]? = some s) :
    ∃ (idx : Nat) (b : ColMeta) (j : Nat), get_col pc s = Except.ok (idx, b) ∧
      pc[idx]? = some b ∧ idxs[i]? = some idx ∧
      cols[i]? = some { b with offset := prefixOffset cols i } ∧
      get_col cols s = Except.ok (j, { b with offset := prefixOffset cols j }) ∧
      idxs[j]? = some idx := by
  obtain ⟨idx, b, g1, g2, g3⟩ := hidx i s hs
  have hk := (get_col_ok g1).2
  obtain ⟨⟨j, a⟩, hp⟩ := @get_col_of_mem cols s
    ⟨_, List.mem_iff_getElem?.2 ⟨i, g3⟩, hk⟩
  obtain ⟨ha, hka⟩ := get_col_ok hp
  have hj : j < sels.length := by
    rw [← hlen]; exact (List.getElem?_eq_some_iff.1 ha).1
  obtain ⟨idx1, b1, f1, f2, f3⟩ := hidx j _ (List.getElem?_eq_getElem hj)
  rw [f3] at ha
  cases ha
  have hk1 := (get_col_ok f1).2
  simp only at hka
  have hcongr := get_col_congr pc (hk1.symm.trans hka)
  rw [f1, g1] at hcongr
  cases hcongr
  exact ⟨idx, b, j, g1, (get_col_ok g1).1, g2, g3, hp, f2⟩

/-- C26: for every child whose records hold its columns and every list of
selected columns that `get_col` finds in the child, the ProjectionExecutor
is constructed with one output column per selected column, each at the
prefix sum of the lengths before it, and `tupleLen()` the sum of the
lengths; a consumer's loop yields one record per child record, of length
`tupleLen()`, whose bytes at output column i are the child record's bytes at
the offset and length of the selected child column, the output column being
that child column moved to the new offset; and a second projection with the
same column list over the first one has the same columns and yields the same
records. -/
theorem projection_layout_idempotent (prev : Child) (sel_cols : List TabCol)
    (hfit : ColsFit prev.cols prev.tuples)
    (hsel : ∀ s ∈ sel_cols, ∃ p, get_col prev.cols s = Except.ok p) :
    ∃ ex out, ProjectionExecutor.create prev sel_cols = Except.ok ex ∧
      ex.cols_.length = sel_cols.length ∧
      (∀ (i : Nat) (a : ColMeta), ex.cols_[i]? = some a → a.offset = prefixOffset ex.cols_ i) ∧
      ex.len_ = (ex.cols_.map ColMeta.len).sum ∧
      (∀ fuel, prev.tuples.length < fuel → ex.run fuel = Except.ok out) ∧
      out.length = prev.tuples.length ∧
      (∀ (k : Nat) (r o : List Nat), prev.tuples[k]? = some r → out[k]? = some o →
        o.length = ex.len_ ∧
        ∀ (i : Nat) (s : TabCol) (a : ColMeta), sel_cols[i]? = some s → ex.cols_[i]? = some a →
          ∃ (idx : Nat) (b : ColMeta), get_col prev.cols s = Except.ok (idx, b) ∧
            prev.cols[idx]? = some b ∧ a = { b with offset := a.offset } ∧
            slotAt o a.offset a.len = slotAt r b.offset b.len) ∧
      ∃ ex2, ProjectionExecutor.create (ex.asChild out) sel_cols = Except.ok ex2 ∧
        ex2.cols_ = ex.cols_ ∧ ex2.len_ = ex.len_ ∧
        (∀ fuel, out.length < fuel → ex2.run fuel = Except.ok out) := by
  obtain ⟨ex, hcr, hprev, hrel, hlen, hil, hcl, hidx, hrun⟩ :=
    projection_spec prev sel_cols hfit hsel
  have hoff := hrel.offsets
  simp only [Nat.zero_add] at hoff
  have hrec : ∀ r ∈ prev.tuples,
      (projectRecord prev.cols ex.sel_idxs_ r).length = ex.len_ := by
    intro r hr
    rw [hrel.projectRecord_length r (hfit r hr), hlen]
  have hslot : ∀ r ∈ prev.tuples, ∀ (i : Nat) (s : TabCol) (a : ColMeta),
      sel_cols[i]? = some s → ex.cols_[i]? = some a →
      ∃ (idx : Nat) (b : ColMeta), get_col prev.cols s = Except.ok (idx, b) ∧
        prev.cols[idx]? = some b ∧ a = { b with offset := a.offset } ∧
        slotAt (projectRecord prev.cols ex.sel_idxs_ r) a.offset a.len =
          slotAt r b.offset b.len := by
    intro r hr i s a hs ha
    obtain ⟨idx, b, g1, g2, g3⟩ := hidx i s hs
    rw [ha] at g3
    cases g3
    exact ⟨idx, b, g1, (get_col_ok g1).1, rfl,
      hrel.slot r (hfit r hr) i idx b g2 (get_col_ok g1).1⟩
  refine ⟨ex, prev.tuples.map (projectRecord prev.cols ex.sel_idxs_), hcr, hcl, hoff, hlen,
    hrun, by simp, ?_, ?_⟩
  · intro k r o hr ho
    rw [List.getElem?_map, hr] at ho
    cases ho
    have hrm : r ∈ prev.tuples := List.mem_iff_getElem?.2 ⟨k, hr⟩
    exact ⟨hrec r hrm, hslot r hrm⟩
  · -- the second projection
    have hfit2 : ColsFit (ex.asChild (prev.tuples.map
        (projectRecord prev.cols ex.sel_idxs_))).cols (ex.asChild (prev.tuples.map
        (projectRecord prev.cols ex.sel_idxs_))).tuples := by
      intro o ho c hc
      obtain ⟨r, hr, rfl⟩ := List.mem_map.1 ho
      obtain ⟨i, hi⟩ := List.mem_iff_getElem?.1 hc
      have h1 : ex.cols_[i]? = some c := hi
      rw [hrec r hr, hlen, hoff i c h1]
      exact prefixOffset_le h1
    have hsel2 : ∀ s ∈ sel_cols, ∃ p, get_col (ex.asChild (prev.tuples.map
        (projectRecord prev.cols ex.sel_idxs_))).cols s = Except.ok p := by
      intro s hs
      obtain ⟨i, hi⟩ := List.mem_iff_getElem?.1 hs
      obtain ⟨idx, b, j, _, _, _, _, g5, _⟩ := second_lookup hcl hidx i s hi
      exact ⟨_, g5⟩
    obtain ⟨ex2, hcr2, _, hrel2, hlen2, hil2, hcl2, hidx2, hrun2⟩ :=
      projection_spec _ sel_cols hfit2 hsel2
    have hc2 : ∀ (i : Nat) (s : TabCol), sel_cols[i]? = some s →
        ∃ (idx : Nat) (b : ColMeta) (j : Nat), prev.cols[idx]? = some b ∧
          ex.sel_idxs_[i]? = some idx ∧ ex.sel_idxs_[j]? = some idx ∧
          ex.cols_[i]? = some { b with offset := prefixOffset ex.cols_ i } ∧
          ex.cols_[j]? = some { b with offset := prefixOffset ex.cols_ j } ∧
          ex2.sel_idxs_[i]? = some j ∧
          ex2.cols_[i]? = some { b with offset := prefixOffset ex2.cols_ i } := by
      intro i s hs
      obtain ⟨idx, b, j, g1, g2, g3, g4, g5, g6⟩ := second_lookup hcl hidx i s hs
      obtain ⟨j2, a2, f1, f2, f3⟩ := hidx2 i s hs
      have f1' : get_col ex.cols_ s = Except.ok (j2, a2) := f1
      rw [g5] at f1'
      cases f1'
      exact ⟨idx, b, j, g2, g3, g6, g4, (get_col_ok g5).1, f2, f3⟩
    have htake : ∀ n, ex2.cols_.take n = ex.cols_.take n := by
      intro n
      induction n with
      | zero => rfl
      | succ n ih =>
        rw [List.take_succ, List.take_succ, ih]
        congr 1
        by_cases hn : n < sel_cols.length
        · obtain ⟨idx, b, j, _, _, _, e1, _, _, e2⟩ := hc2 n _ (List.getElem?_eq_getElem hn)
          rw [e1, e2]
          unfold prefixOffset
          rw [ih]
        · rw [List.getElem?_eq_none (by omega), List.getElem?_eq_none (by omega)]
    have hcols : ex2.cols_ = ex.cols_ := by
      have := htake sel_cols.length
      rw [← hcl2, List.take_length, hcl2, ← hcl, List.take_length] at this
      exact this
    refine ⟨ex2, hcr2, hcols, by rw [hlen2, hcols, hlen], ?_⟩
    intro fuel hf
    have := hrun2 fuel hf
    rw [this]
    congr 1
    show (List.map (projectRecord prev.cols ex.sel_idxs_) prev.tuples).map
      (projectRecord ex.cols_ ex2.sel_idxs_) = _
    rw [List.map_map]
    apply List.map_congr_left
    intro r hr
    show projectRecord ex.cols_ ex2.sel_idxs_ (projectRecord prev.cols ex.sel_idxs_ r) =
      projectRecord prev.cols ex.sel_idxs_ r
    unfold projectRecord
    congr 1
    apply List.ext_getElem?
    intro i
    rw [List.getElem?_map, List.getElem?_map]
    by_cases hn : i < sel_cols.length
    · obtain ⟨idx, b, j, e0, e1, e2, e3, e4, e5, e6⟩ := hc2 i _ (List.getElem?_eq_getElem hn)
      rw [e5, e1]
      simp only [Option.map_some', e4, e0]
      have := hrel.slot r (hfit r hr) j idx b e2 e0
      unfold projectRecord at this
      rw [this]
    · rw [List.getElem?_eq_none (by omega), List.getElem?_eq_none (by omega)]
      rfl

/-- Witness for C26: projecting `t(a INT, s CHAR(2))` on (s, a, s) gives
records of 8 bytes, and projecting those on (s, a, s) again gives the same
records. -/
theorem projection_layout_idempotent_witness :
    ∃ ex ex2, ProjectionExecutor.create exampleTwoColChild
        [⟨"t", "s"⟩, ⟨"t", "a"⟩, ⟨"t", "s"⟩] = Except.ok ex ∧
      ex.run 3 = Except.ok [[97, 98, 1, 0, 0, 0, 97, 98], [99, 100, 2, 0, 0, 0, 99, 100]] ∧
      ProjectionExecutor.create
        (ex.asChild [[97, 98, 1, 0, 0, 0, 97, 98], [99, 100, 2, 0, 0, 0, 99, 100]])
        [⟨"t", "s"⟩, ⟨"t", "a"⟩, ⟨"t", "s"⟩] = Except.ok ex2 ∧
      ex2.run 3 = Except.ok [[97, 98, 1, 0, 0, 0, 97, 98], [99, 100, 2, 0, 0, 0, 99, 100]] := by
  have hfit : ColsFit exampleTwoColChild.cols exampleTwoColChild.tuples := by
    unfold ColsFit
    decide
  have hsel : ∀ s ∈ ([⟨"t", "s"⟩, ⟨"t", "a"⟩, ⟨"t", "s"⟩] : List TabCol),
      ∃ p, get_col exampleTwoColChild.cols s = Except.ok p := by
    intro s hs
    simp only [List.mem_cons, List.mem_singleton, List.not_mem_nil, or_false] at hs
    rcases hs with rfl | rfl | rfl
    · exact ⟨(1, ⟨"t", "s", ColType.TYPE_STRING, 2, 4, false⟩), by decide⟩
    · exact ⟨(0, ⟨"t", "a", ColType.TYPE_INT, 4, 0, false⟩), by decide⟩
    · exact ⟨(1, ⟨"t", "s", ColType.TYPE_STRING, 2, 4, false⟩), by decide⟩
  obtain ⟨ex, out, hc, _, _, _, hrun, _, _, ex2, hc2, _, _, hrun2⟩ :=
    projection_layout_idempotent exampleTwoColChild _ hfit hsel
  have hr := hrun 3 (by decide)
  have hout : (ProjectionExecutor.create exampleTwoColChild
      [⟨"t", "s"⟩, ⟨"t", "a"⟩, ⟨"t", "s"⟩]).bind (fun e => e.run 3) =
      Except.ok [[97, 98, 1, 0, 0, 0, 97, 98], [99, 100, 2, 0, 0, 0, 99, 100]] := by decide
  rw [hc] at hout
  simp only [Except.bind] at hout
  rw [hr] at hout
  cases hout
  exact ⟨ex, ex2, hc, hr, hc2, hrun2 3 (by decide)⟩

/-! ## Sort: the comparator -/

theorem ordOfInt_eq_lt (x : Int) : ordOfInt x = Ordering.lt ↔ x < 0 := by
  unfold ordOfInt
  split
  · simp [*]
  · split <;> simp [*]

theorem ordOfInt_eq_gt (x : Int) : ordOfInt x = Ordering.gt ↔ x > 0 := by
  unfold ordOfInt
  split
  · simp only [reduceCtorEq, false_iff]; omega
  · split <;> simp [*]

theorem ordOfInt_eq_eq (x : Int) : ordOfInt x = Ordering.eq ↔ x = 0 := by
  unfold ordOfInt
  split
  · simp only [reduceCtorEq, false_iff]; omega
  · split
    · simp only [reduceCtorEq, false_iff]; omega
    · simp only [true_iff]; omega

theorem ordOfInt_neg (x : Int) : ordOfInt (-x) = (ordOfInt x).swap := by
  cases hx : ordOfInt x with
  | lt =>
    rw [ordOfInt_eq_lt] at hx
    exact (ordOfInt_eq_gt _).2 (by omega)
  | eq =>
    rw [ordOfInt_eq_eq] at hx
    exact (ordOfInt_eq_eq _).2 (by omega)
  | gt =>
    rw [ordOfInt_eq_gt] at hx
    exact (ordOfInt_eq_lt _).2 (by omega)

theorem transCmp_of_int {α : Type} (f : α → α → Int) (hs : ∀ a b, f b a = - f a b)
    (ht : ∀ a b c, f a b ≤ 0 → f b c ≤ 0 → f a c ≤ 0) :
    Batteries.TransCmp (fun a b => ordOfInt (f a b)) where
  symm a b := by
    simp only [hs a b, ordOfInt_neg]
  le_trans {a b c} h1 h2 := by
    simp only [ne_eq, ordOfInt_eq_gt, not_lt] at h1 h2 ⊢
    exact ht a b c h1 h2

theorem memcmp_symm : ∀ (n : Nat) (a b : List Nat), memcmp b a n = - memcmp a b n := by
  intro n
  induction n with
  | zero => intro a b; simp [memcmp]
  | succ n ih =>
    intro a b
    rw [memcmp, memcmp]
    have := ih a.tail b.tail
    split <;> split <;> omega

theorem memcmp_range : ∀ (n : Nat) (a b : List Nat), -1 ≤ memcmp a b n ∧ memcmp a b n ≤ 1 := by
  intro n
  induction n with
  | zero => intro a b; simp [memcmp]
  | succ n ih =>
    intro a b
    rw [memcmp]
    have := ih a.tail b.tail
    split <;> (try split) <;> omega

theorem memcmp_trans : ∀ (n : Nat) (a b c : List Nat),
    memcmp a b n ≤ 0 → memcmp b c n ≤ 0 → memcmp a c n ≤ 0 := by
  intro n
  induction n with
  | zero => intro a b c _ _; simp [memcmp]
  | succ n ih =>
    intro a b c h1 h2
    rw [memcmp] at h1 h2 ⊢
    have := ih a.tail b.tail c.tail
    split at h1 <;> split at h2 <;> (try split at h1) <;> (try split at h2) <;>
      split <;> (try split) <;> omega

theorem colOrd_int {c : ColMeta} (h : c.type = ColType.TYPE_INT) (a b : List Nat) :
    colOrd c a b = ordOfInt (decodeInt32 (a.drop c.offset) - decodeInt32 (b.drop c.offset)) := by
  unfold colOrd ix_compare_raw
  rw [h]
  simp only
  cases hx : ordOfInt (decodeInt32 (a.drop c.offset) - decodeInt32 (b.drop c.offset)) with
  | lt =>
    rw [ordOfInt_eq_lt] at hx ⊢
    rw [if_pos (by omega)]; omega
  | eq =>
    rw [ordOfInt_eq_eq] at hx ⊢
    rw [if_neg (by omega), if_neg (by omega)]
  | gt =>
    rw [ordOfInt_eq_gt] at hx ⊢
    rw [if_neg (by omega), if_pos (by omega)]; omega

theorem colOrd_string {c : ColMeta} (h : c.type = ColType.TYPE_STRING) (a b : List Nat) :
    colOrd c a b = ordOfInt (memcmp (a.drop c.offset) (b.drop c.offset) c.len) := by
  unfold colOrd ix_compare_raw
  rw [h]

theorem colOrd_transCmp {c : ColMeta} (h : SortableCol c) : Batteries.TransCmp (colOrd c) := by
  rcases h with h | h
  · have : colOrd c = fun a b =>
        ordOfInt (decodeInt32 (a.drop c.offset) - decodeInt32 (b.drop c.offset)) := by
      funext a b; exact colOrd_int h a b
    rw [this]
    exact transCmp_of_int _ (fun a b => by omega) (fun a b c h1 h2 => by omega)
  · have : colOrd c = fun a b =>
        ordOfInt (memcmp (a.drop c.offset) (b.drop c.offset) c.len) := by
      funext a b; exact colOrd_string h a b
    rw [this]
    exact transCmp_of_int
      (fun (a b : List Nat) => memcmp (a.drop c.offset) (b.drop c.offset) c.len)
      (fun a b => memcmp_symm _ _ _)
      (fun x y z h1 h2 => memcmp_trans c.len (x.drop c.offset) (y.drop c.offset)
        (z.drop c.offset) h1 h2)

theorem const_transCmp {α : Type} : Batteries.TransCmp (fun (_ _ : α) => Ordering.eq) :=
  { symm := fun _ _ => rfl, le_trans := fun _ _ => by simp }

theorem swap_transCmp {α : Type} {cmp : α → α → Ordering} (h : Batteries.TransCmp cmp) :
    Batteries.TransCmp (fun a b => (cmp a b).swap) := by
  have : (fun a b => (cmp a b).swap) = flip cmp := by
    funext a b
    exact h.symm a b
  rw [this]
  exact inferInstance

theorem recordOrd_transCmp : ∀ (cols : List ColMeta) (descs : List Bool),
    (∀ c ∈ cols, SortableCol c) → Batteries.TransCmp (recordOrd cols descs) := by
  intro cols
  induction cols with
  | nil =>
    intro descs _
    have : recordOrd [] descs = fun _ _ => Ordering.eq := by
      funext a b; rw [recordOrd]; intro _ _ _ _ h; cases h
    rw [this]
    exact const_transCmp
  | cons c cols ih =>
    intro descs hs
    cases descs with
    | nil =>
      have : recordOrd (c :: cols) [] = fun _ _ => Ordering.eq := by
        funext a b; rw [recordOrd]; intro _ _ _ _ _ h; cases h
      rw [this]
      exact const_transCmp
    | cons d descs =>
      have hc := colOrd_transCmp (hs c (List.mem_cons_self _ _))
      have hr := ih descs (fun c1 h1 => hs c1 (List.mem_cons_of_mem _ h1))
      have hd : Batteries.TransCmp (fun a b => if d = true then (colOrd c a b).swap else colOrd c a b) := by
        cases d
        · simpa using hc
        · simpa using swap_transCmp hc
      have : recordOrd (c :: cols) (d :: descs) = compareLex
          (fun a b => if d = true then (colOrd c a b).swap else colOrd c a b)
          (recordOrd cols descs) := by
        funext a b
        rw [recordOrd, compareLex]
      rw [this]
      exact inferInstance

theorem compare_loop_spec : ∀ (cols : List ColMeta) (descs : List Bool) (a b : List Nat),
    (∀ c ∈ cols, c.type ≠ ColType.TYPE_UNUSE) → cols.length ≤ descs.length →
    SortExecutor.compare_loop cols descs a b =
      Except.ok (decide (recordOrd cols descs a b = Ordering.lt)) := by
  intro cols
  induction cols with
  | nil =>
    intro descs a b _ _
    rw [SortExecutor.compare_loop, recordOrd]
    · rfl
    · intro _ _ _ _ h; cases h
  | cons c cols ih =>
    intro descs a b ht hl
    cases descs with
    | nil => simp at hl
    | cons d descs =>
      rw [SortExecutor.compare_loop, recordOrd]
      have hne := ht c (List.mem_cons_self _ _)
      have hok : ∃ x, ix_compare_raw (a.drop c.offset) (b.drop c.offset) c.type c.len =
          Except.ok x := by
        unfold ix_compare_raw
        cases hty : c.type <;> first | exact ⟨_, rfl⟩ | exact absurd hty hne
      obtain ⟨x, hx⟩ := hok
      have hco : colOrd c a b = ordOfInt x := by
        unfold colOrd; rw [hx]
      rw [hx, hco]
      simp only [List.head?_cons, List.tail_cons]
      have hrec := ih descs a b (fun c1 h1 => ht c1 (List.mem_cons_of_mem _ h1))
        (by simpa using hl)
      cases ho : ordOfInt x with
      | lt =>
        rw [ordOfInt_eq_lt] at ho
        rw [if_pos ho]
        cases d <;> simp [Ordering.swap, Ordering.then]
      | eq =>
        rw [ordOfInt_eq_eq] at ho
        rw [if_neg (by omega), if_neg (by omega), hrec]
        cases d <;> simp [Ordering.swap, Ordering.then]
      | gt =>
        rw [ordOfInt_eq_gt] at ho
        rw [if_neg (by omega), if_pos ho]
        cases d <;> simp [Ordering.swap, Ordering.then]

theorem cmp_eq_gt_of {α : Type} (cmp : α → α → Ordering) [Batteries.OrientedCmp cmp] (x y : α) :
    cmp x y = Ordering.gt ↔ cmp y x = Ordering.lt :=
  Batteries.OrientedCmp.cmp_eq_gt

theorem cmp_eq_eq_symm_of {α : Type} (cmp : α → α → Ordering) [Batteries.OrientedCmp cmp]
    (x y : α) : cmp x y = Ordering.eq ↔ cmp y x = Ordering.eq :=
  Batteries.OrientedCmp.cmp_eq_eq_symm

theorem cmp_ge_trans_of {α : Type} (cmp : α → α → Ordering) [Batteries.TransCmp cmp] {x y z : α}
    (h1 : cmp x y ≠ Ordering.lt) (h2 : cmp y z ≠ Ordering.lt) : cmp x z ≠ Ordering.lt :=
  Batteries.TransCmp.ge_trans h1 h2

theorem cmp_congr_left_of {α : Type} (cmp : α → α → Ordering) [Batteries.TransCmp cmp] {x y : α}
    (h : cmp x y = Ordering.eq) (z : α) : cmp x z = cmp y z :=
  Batteries.TransCmp.cmp_congr_left h

theorem takeD_succ_eq (a : List Nat) (n : Nat) :
    a.takeD (n + 1) 0 = a.headD 0 :: a.tail.takeD n 0 := by
  cases a <;> simp [List.takeD]

/-- `memcmp` is the lexicographic comparison of the `n` bytes. -/
theorem memcmp_spec : ∀ (n : Nat) (a b : List Nat),
    (memcmp a b n < 0 ↔ strLt (a.takeD n 0) (b.takeD n 0) = true) ∧
    (memcmp a b n = 0 ↔ a.takeD n 0 = b.takeD n 0) := by
  intro n
  induction n with
  | zero => intro a b; simp [memcmp, strLt, List.takeD]
  | succ n ih =>
    intro a b
    obtain ⟨h1, h2⟩ := ih a.tail b.tail
    rw [memcmp, takeD_succ_eq, takeD_succ_eq, strLt]
    by_cases hlt : a.headD 0 < b.headD 0
    · simp only [hlt, if_true]
      refine ⟨by simp, ?_⟩
      simp only [List.cons.injEq]
      constructor
      · intro h; omega
      · intro h; omega
    · by_cases hgt : a.headD 0 > b.headD 0
      · simp only [hlt, hgt, if_true, if_false]
        refine ⟨by simp, ?_⟩
        simp only [List.cons.injEq]
        constructor
        · intro h; omega
        · intro h; omega
      · have he : a.headD 0 = b.headD 0 := by omega
        have hgt' : ¬ b.headD 0 < a.headD 0 := hgt
        rw [if_neg hlt, if_neg hgt, if_neg hlt, if_neg hgt', h1, h2]
        simp only [List.cons.injEq, he, true_and]

theorem colOrd_lt_iff {c : ColMeta} (h : SortableCol c) (a b : List Nat) :
    colOrd c a b = Ordering.lt ↔ colValueLt c a b := by
  unfold colValueLt
  rcases h with h | h
  · rw [colOrd_int h, ordOfInt_eq_lt, if_pos h]
    omega
  · rw [colOrd_string h, ordOfInt_eq_lt, if_neg (by rw [h]; decide)]
    exact (memcmp_spec _ _ _).1

theorem colOrd_eq_iff {c : ColMeta} (h : SortableCol c) (a b : List Nat) :
    colOrd c a b = Ordering.eq ↔ colValueEq c a b := by
  unfold colValueEq
  rcases h with h | h
  · rw [colOrd_int h, ordOfInt_eq_eq, if_pos h]
    omega
  · rw [colOrd_string h, ordOfInt_eq_eq, if_neg (by rw [h]; decide)]
    exact (memcmp_spec _ _ _).2

theorem colOrd_gt_iff {c : ColMeta} (h : SortableCol c) (a b : List Nat) :
    colOrd c a b = Ordering.gt ↔ colValueLt c b a := by
  have := colOrd_transCmp h
  rw [cmp_eq_gt_of (colOrd c), colOrd_lt_iff h]

/-- What the order of the sort means in the words of the claim. -/
theorem SortLe.orderedAt : ∀ (cols : List ColMeta) (descs : List Bool) (a b : List Nat),
    (∀ c ∈ cols, SortableCol c) → SortLe cols descs a b → OrderedAt cols descs a b := by
  intro cols
  induction cols with
  | nil =>
    intro descs a b _ _
    rw [OrderedAt]
    · exact trivial
    · intro _ _ _ _ h; cases h
  | cons c cols ih =>
    intro descs a b hs hle
    cases descs with
    | nil =>
      rw [OrderedAt]
      · exact trivial
      · intro _ _ _ _ _ h; cases h
    | cons d descs =>
      have hc := hs c (List.mem_cons_self _ _)
      have htc := colOrd_transCmp hc
      unfold SortLe at hle
      rw [recordOrd] at hle
      rw [OrderedAt]
      cases ho : colOrd c b a with
      | eq =>
        have he : colValueEq c a b := by
          rw [← colOrd_eq_iff hc, cmp_eq_eq_symm_of (colOrd c)]
          exact ho
        rw [if_pos he]
        rw [ho] at hle
        apply ih descs a b (fun c1 h1 => hs c1 (List.mem_cons_of_mem _ h1))
        unfold SortLe
        cases d <;> simpa [Ordering.swap, Ordering.then] using hle
      | lt =>
        have hne : ¬ colValueEq c a b := by
          rw [← colOrd_eq_iff hc, cmp_eq_eq_symm_of (colOrd c), ho]
          simp
        rw [if_neg hne]
        rw [ho] at hle
        cases d
        · simp [Ordering.swap, Ordering.then] at hle
        · rw [if_pos rfl]
          exact (colOrd_lt_iff hc b a).1 ho
      | gt =>
        have hne : ¬ colValueEq c a b := by
          rw [← colOrd_eq_iff hc, cmp_eq_eq_symm_of (colOrd c), ho]
          simp
        rw [if_neg hne]
        rw [ho] at hle
        cases d
        · rw [if_neg (by simp)]
          exact (colOrd_gt_iff hc b a).1 ho
        · simp [Ordering.swap, Ordering.then] at hle

theorem recordOrd_eq_iff : ∀ (cols : List ColMeta) (descs : List Bool) (a b : List Nat),
    (∀ c ∈ cols, SortableCol c) → cols.length ≤ descs.length →
    (recordOrd cols descs a b = Ordering.eq ↔ agreeOn cols a b = true) := by
  intro cols
  induction cols with
  | nil =>
    intro descs a b _ _
    rw [recordOrd]
    · simp [agreeOn]
    · intro _ _ _ _ h; cases h
  | cons c cols ih =>
    intro descs a b hs hl
    cases descs with
    | nil => simp at hl
    | cons d descs =>
      have hc := hs c (List.mem_cons_self _ _)
      have := ih descs a b (fun c1 h1 => hs c1 (List.mem_cons_of_mem _ h1)) (by simpa using hl)
      rw [recordOrd, Ordering.then_eq_eq, this]
      unfold agreeOn
      rw [List.all_cons, Bool.and_eq_true, decide_eq_true_eq, ← colOrd_eq_iff hc]
      cases d <;> cases colOrd c a b <;> simp [Ordering.swap]

theorem ordered_insert_eq {α : Type} (comp : α → α → Except ExecError Bool) (lt : α → α → Bool)
    (r : α → α → Prop) [DecidableRel r] (hr : ∀ x y, r x y ↔ lt y x = false)
    (hcomp : ∀ a b, comp a b = Except.ok (lt a b)) (x : α) :
    ∀ l : List α, ordered_insert comp x l = Except.ok (List.orderedInsert r x l) := by
  intro l
  induction l with
  | nil => rfl
  | cons y l ih =>
    rw [ordered_insert, hcomp, List.orderedInsert]
    cases hl : lt y x with
    | false =>
      simp only
      rw [if_pos ((hr x y).2 hl)]
    | true =>
      simp only
      rw [ih, if_neg (by rw [hr, hl]; simp)]

theorem stable_sort_eq {α : Type} (comp : α → α → Except ExecError Bool) (lt : α → α → Bool)
    (r : α → α → Prop) [DecidableRel r] (hr : ∀ x y, r x y ↔ lt y x = false)
    (hcomp : ∀ a b, comp a b = Except.ok (lt a b)) :
    ∀ l : List α, stable_sort comp l = Except.ok (List.insertionSort r l) := by
  intro l
  induction l with
  | nil => rfl
  | cons x l ih =>
    rw [stable_sort, ih]
    simp only
    rw [ordered_insert_eq comp lt r hr hcomp, List.insertionSort]

/-- The sort of `beginTuple` is the insertion sort by `SortLe`. -/
theorem stable_sort_compare_loop (cols : List ColMeta) (descs : List Bool)
    (ht : ∀ c ∈ cols, c.type ≠ ColType.TYPE_UNUSE) (hl : cols.length ≤ descs.length)
    (l : List (List Nat)) :
    stable_sort (SortExecutor.compare_loop cols descs) l =
      Except.ok (List.insertionSort (SortLe cols descs) l) := by
  apply stable_sort_eq _ (fun a b => decide (recordOrd cols descs a b = Ordering.lt))
  · intro x y
    unfold SortLe
    simp
  · intro a b
    exact compare_loop_spec cols descs a b ht hl

theorem SortLe.total (cols : List ColMeta) (descs : List Bool)
    (hs : ∀ c ∈ cols, SortableCol c) : IsTotal (List Nat) (SortLe cols descs) := by
  have := recordOrd_transCmp cols descs hs
  refine ⟨fun a b => ?_⟩
  unfold SortLe
  by_cases h : recordOrd cols descs b a = Ordering.lt
  · right
    rw [← cmp_eq_gt_of (recordOrd cols descs)] at h
    rw [h]
    simp
  · left; exact h

theorem SortLe.trans (cols : List ColMeta) (descs : List Bool)
    (hs : ∀ c ∈ cols, SortableCol c) : IsTrans (List Nat) (SortLe cols descs) := by
  have := recordOrd_transCmp cols descs hs
  refine ⟨fun a b c h1 h2 => ?_⟩
  unfold SortLe at h1 h2 ⊢
  exact cmp_ge_trans_of (recordOrd cols descs) h2 h1

theorem sortable_ne_unuse {c : ColMeta} (h : SortableCol c) : c.type ≠ ColType.TYPE_UNUSE := by
  rcases h with h | h <;> rw [h] <;> decide

/-- The insertion sort keeps the records that agree with `t` on the order
columns in their order. -/
theorem insertionSort_stable (cols : List ColMeta) (descs : List Bool)
    (hs : ∀ c ∈ cols, SortableCol c) (hl : cols.length ≤ descs.length)
    (l : List (List Nat)) (t : List Nat) :
    (List.insertionSort (SortLe cols descs) l).filter (agreeOn cols t) =
      l.filter (agreeOn cols t) := by
  have htc := recordOrd_transCmp cols descs hs
  have hpw : (l.filter (agreeOn cols t)).Pairwise (SortLe cols descs) := by
    rw [List.pairwise_iff_forall_sublist]
    intro a b hab
    have ha : a ∈ l.filter (agreeOn cols t) := hab.subset (by simp)
    have hb : b ∈ l.filter (agreeOn cols t) := hab.subset (by simp)
    have ha' := (List.mem_filter.1 ha).2
    have hb' := (List.mem_filter.1 hb).2
    rw [← recordOrd_eq_iff cols descs t a hs hl] at ha'
    rw [← recordOrd_eq_iff cols descs t b hs hl] at hb'
    unfold SortLe
    have h1 : recordOrd cols descs b a = recordOrd cols descs t a :=
      cmp_congr_left_of (recordOrd cols descs)
        ((cmp_eq_eq_symm_of (recordOrd cols descs) t b).1 hb') a
    rw [h1, ha']
    simp
  have hsub := List.sublist_insertionSort (r := SortLe cols descs) hpw (List.filter_sublist l)
  have hsub2 := hsub.filter (agreeOn cols t)
  rw [List.filter_filter] at hsub2
  simp only [Bool.and_self] at hsub2
  have hperm : ((List.insertionSort (SortLe cols descs) l).filter (agreeOn cols t)).Perm
      (l.filter (agreeOn cols t)) := (List.perm_insertionSort _ l).filter _
  exact (hsub2.eq_of_length hperm.length_eq.symm).symm

/-- The loop over a child from its position visits the records from there
on and leaves the child at its end. -/
theorem Child.child_drain_spec : ∀ (k fuel : Nat) (c : Child), c.pos + k = c.tuples.length → k < fuel →
    Child.drain fuel c = Except.ok (c.tuples.drop c.pos, { c with pos := c.tuples.length }) := by
  intro k
  induction k with
  | zero =>
    intro fuel c hk hf
    obtain ⟨f, rfl⟩ : ∃ f, fuel = f + 1 := ⟨fuel - 1, by omega⟩
    have he : c.is_end = true := by simp [Child.is_end]; omega
    rw [Child.drain, if_pos he]
    have hp : c.pos = c.tuples.length := by omega
    rw [List.drop_eq_nil_of_le (by omega), ← hp]
  | succ k ih =>
    intro fuel c hk hf
    obtain ⟨f, rfl⟩ : ∃ f, fuel = f + 1 := ⟨fuel - 1, by omega⟩
    have hlt : c.pos < c.tuples.length := by omega
    have he : c.is_end = false := by simp [Child.is_end]; omega
    have hn : c.Next = Except.ok (c.tuples[c.pos]) := by
      simp [Child.Next, List.get?_eq_getElem?, List.getElem?_eq_getElem hlt]
    have hnt : c.nextTuple = Except.ok { c with pos := c.pos + 1 } := by
      simp [Child.nextTuple, he]
    rw [Child.drain, he, hn, hnt]
    simp only [Bool.false_eq_true, if_false]
    rw [ih f { c with pos := c.pos + 1 } (by simp only; omega) (by omega)]
    simp only
    rw [List.drop_eq_getElem_cons hlt]

theorem Child.drain_begin (c : Child) :
    Child.drain (c.tuples.length + 1) c.beginTuple =
      Except.ok (c.tuples, { c with pos := c.tuples.length }) := by
  have := Child.child_drain_spec c.tuples.length (c.tuples.length + 1) c.beginTuple
    (by simp [Child.beginTuple]) (by omega)
  rw [this]
  simp [Child.beginTuple]

/-- The consumer's loop over a sort executor yields the records of the
sorted vector from `now_ptr` to the smaller of its size and the limit. -/
theorem SortExecutor.sort_drain_spec : ∀ (k fuel : Nat) (ex : SortExecutor),
    ex.now_ptr + k = min ex.sorted_tuples.length ex.limit_cnt_ → k < fuel →
    ex.sorted_tuples.length < 18446744073709551616 →
    drainExecutor SortExecutor.is_end SortExecutor.Next (fun s => Except.ok s.nextTuple) fuel ex =
      Except.ok ((ex.sorted_tuples.take (min ex.sorted_tuples.length ex.limit_cnt_)).drop
        ex.now_ptr) := by
  intro k
  induction k with
  | zero =>
    intro fuel ex hk hf hn
    obtain ⟨f, rfl⟩ : ∃ f, fuel = f + 1 := ⟨fuel - 1, by omega⟩
    have he : ex.is_end = true := by
      simp only [SortExecutor.is_end, ge_iff_le, Nat.zero_le, decide_True, Bool.true_and,
        Bool.or_eq_true, decide_eq_true_eq]
      omega
    rw [drainExecutor, if_pos he, List.drop_eq_nil_of_le]
    rw [List.length_take]
    omega
  | succ k ih =>
    intro fuel ex hk hf hn
    obtain ⟨f, rfl⟩ : ∃ f, fuel = f + 1 := ⟨fuel - 1, by omega⟩
    have hlt : ex.now_ptr < ex.sorted_tuples.length := by omega
    have hlt2 : ex.now_ptr < ex.limit_cnt_ := by omega
    have he : ex.is_end = false := by
      simp only [SortExecutor.is_end, ge_iff_le, Nat.zero_le, decide_True, Bool.true_and,
        Bool.or_eq_false_iff, decide_eq_false_iff_not, not_le]
      exact ⟨hlt, hlt2⟩
    have hnx : ex.Next = Except.ok (ex.sorted_tuples[ex.now_ptr]) := by
      simp [SortExecutor.Next, List.get?_eq_getElem?, List.getElem?_eq_getElem hlt]
    have hmod : (ex.now_ptr + 1) % 18446744073709551616 = ex.now_ptr + 1 :=
      Nat.mod_eq_of_lt (by omega)
    rw [drainExecutor, he, hnx]
    simp only [Bool.false_eq_true, if_false]
    rw [ih f ex.nextTuple (by simp only [SortExecutor.nextTuple, hmod]; omega) (by omega)
      (by simpa [SortExecutor.nextTuple] using hn)]
    simp only [SortExecutor.nextTuple, hmod]
    have hlt3 : ex.now_ptr < (ex.sorted_tuples.take
        (min ex.sorted_tuples.length ex.limit_cnt_)).length := by
      rw [List.length_take]; omega
    rw [List.drop_eq_getElem_cons hlt3, List.getElem_take]

/-- The limit as the constructor stores it. -/
theorem limit_store (n : Nat) (limit_cnt : Int) (hlo : -2147483648 ≤ limit_cnt)
    (hhi : limit_cnt < 2147483648) (hn : n < 9223372036854775808) :
    min n (limit_cnt % 18446744073709551616).toNat = limitCount n limit_cnt := by
  unfold limitCount
  split
  · rename_i h
    rw [Int.emod_eq_of_lt h (by omega)]
  · rename_i h
    have : limit_cnt % 18446744073709551616 = limit_cnt + 18446744073709551616 := by
      rw [← Int.add_emod_self]
      exact Int.emod_eq_of_lt (by omega) (by omega)
    rw [this]
    omega

/-- The run of a sort executor whose comparator cannot fail: the insertion
sort of the child's tuples, cut at the limit. -/
theorem SortExecutor.run_spec (prev : Child) (order_cols : List TabCol) (is_descs : List Bool)
    (limit_cnt : Int) (fuel : Nat)
    (ht : ∀ oc ∈ order_cols, (get_col_offset prev.cols oc).type ≠ ColType.TYPE_UNUSE)
    (hl : order_cols.length ≤ is_descs.length)
    (hlo : -2147483648 ≤ limit_cnt) (hhi : limit_cnt < 2147483648)
    (hn : prev.tuples.length < 9223372036854775808) (hf : prev.tuples.length < fuel) :
    (SortExecutor.create prev order_cols is_descs limit_cnt).run fuel =
      Except.ok ((List.insertionSort
        (SortLe (order_cols.map (get_col_offset prev.cols)) is_descs) prev.tuples).take
          (limitCount prev.tuples.length limit_cnt)) := by
  have hsort := stable_sort_compare_loop (order_cols.map (get_col_offset prev.cols)) is_descs
    (by
      intro c hc
      obtain ⟨oc, hoc, rfl⟩ := List.mem_map.1 hc
      exact ht oc hoc)
    (by simpa using hl) prev.tuples
  unfold SortExecutor.run SortExecutor.beginTuple
  simp only [SortExecutor.create, Child.drain_begin, List.nil_append, hsort]
  have hlen : (List.insertionSort (SortLe (order_cols.map (get_col_offset prev.cols)) is_descs)
      prev.tuples).length = prev.tuples.length := List.length_insertionSort _ _
  have hK := limit_store prev.tuples.length limit_cnt hlo hhi hn
  have hle : limitCount prev.tuples.length limit_cnt ≤ prev.tuples.length := by
    rw [← hK]; omega
  rw [SortExecutor.sort_drain_spec (limitCount prev.tuples.length limit_cnt) fuel _
    (by simp only [hlen, hK]; omega) (by omega) (by simp only [hlen]; omega)]
  simp only [hlen, hK, List.drop_zero]

/-- C22: for every child and every list of order columns that are INT or
STRING columns, with one descending flag each and a negative `limit_cnt`
(no limit), a consumer's loop over the SortExecutor returns: its output is
a permutation of the child's tuples; any two consecutive output tuples are
ordered on the first order column on which they differ, increasing for an
ascending flag and decreasing for a descending one; and the tuples that
agree with any given tuple on every order column appear in the order they
have in the child. -/
theorem sort_output_stable_ordered_permutation (prev : Child) (order_cols : List TabCol)
    (is_descs : List Bool) (limit_cnt : Int) (fuel : Nat)
    (hs : ∀ oc ∈ order_cols, SortableCol (get_col_offset prev.cols oc))
    (hl : is_descs.length = order_cols.length)
    (hlo : -2147483648 ≤ limit_cnt) (hneg : limit_cnt < 0)
    (hn : prev.tuples.length < 9223372036854775808) (hf : prev.tuples.length < fuel) :
    ∃ out, (SortExecutor.create prev order_cols is_descs limit_cnt).run fuel = Except.ok out ∧
      out.Perm prev.tuples ∧
      out.Chain' (OrderedAt (order_cols.map (get_col_offset prev.cols)) is_descs) ∧
      ∀ t, out.filter (agreeOn (order_cols.map (get_col_offset prev.cols)) t) =
        prev.tuples.filter (agreeOn (order_cols.map (get_col_offset prev.cols)) t) := by
  have hs2 : ∀ c ∈ order_cols.map (get_col_offset prev.cols), SortableCol c := by
    intro c hc
    obtain ⟨oc, hoc, rfl⟩ := List.mem_map.1 hc
    exact hs oc hoc
  have hl2 : (order_cols.map (get_col_offset prev.cols)).length ≤ is_descs.length := by
    rw [List.length_map, hl]
  have hrun := SortExecutor.run_spec prev order_cols is_descs limit_cnt fuel
    (fun oc hoc => sortable_ne_unuse (hs oc hoc)) (by omega) hlo (by omega) hn hf
  have hlc : limitCount prev.tuples.length limit_cnt = prev.tuples.length := by
    unfold limitCount
    rw [if_neg (by omega)]
  rw [hlc] at hrun
  have hlen : (List.insertionSort (SortLe (order_cols.map (get_col_offset prev.cols)) is_descs)
      prev.tuples).length = prev.tuples.length := List.length_insertionSort _ _
  rw [← hlen, List.take_length] at hrun
  haveI := SortLe.total (order_cols.map (get_col_offset prev.cols)) is_descs hs2
  haveI := SortLe.trans (order_cols.map (get_col_offset prev.cols)) is_descs hs2
  have hsorted := List.sorted_insertionSort
    (SortLe (order_cols.map (get_col_offset prev.cols)) is_descs) prev.tuples
  refine ⟨_, hrun, List.perm_insertionSort _ _, ?_, ?_⟩
  · have hch := List.Pairwise.chain' hsorted
    exact hch.imp (fun {a b} h => SortLe.orderedAt _ _ a b hs2 h)
  · intro t
    exact insertionSort_stable _ _ hs2 hl2 _ t

/-- Witness for C22: the four rows (2,"ab"), (1,"zz"), (2,"aa"), (1,"ab")
sorted by `a` descending and `s` ascending with the limit -1000. -/
theorem sort_output_stable_ordered_permutation_witness :
    ∃ out, (SortExecutor.create exampleSortChild [⟨"t", "a"⟩, ⟨"t", "s"⟩] [true, false]
        (-1000)).run 5 = Except.ok out ∧
      out = [encodeInt32 2 ++ [97, 97], encodeInt32 2 ++ [97, 98], encodeInt32 1 ++ [97, 98],
        encodeInt32 1 ++ [122, 122]] ∧
      out.Perm exampleSortChild.tuples ∧
      out.Chain' (OrderedAt
        ([⟨"t", "a"⟩, ⟨"t", "s"⟩].map (get_col_offset exampleSortChild.cols)) [true, false]) ∧
      ∀ t, out.filter (agreeOn
          ([⟨"t", "a"⟩, ⟨"t", "s"⟩].map (get_col_offset exampleSortChild.cols)) t) =
        exampleSortChild.tuples.filter (agreeOn
          ([⟨"t", "a"⟩, ⟨"t", "s"⟩].map (get_col_offset exampleSortChild.cols)) t) := by
  have hs : ∀ oc ∈ ([⟨"t", "a"⟩, ⟨"t", "s"⟩] : List TabCol),
      SortableCol (get_col_offset exampleSortChild.cols oc) := by
    intro oc hoc
    simp only [List.mem_cons, List.mem_singleton, List.not_mem_nil, or_false] at hoc
    rcases hoc with rfl | rfl
    · exact Or.inl (by decide)
    · exact Or.inr (by decide)
  obtain ⟨out, hrun, hp, hc, hst⟩ := sort_output_stable_ordered_permutation exampleSortChild
    [⟨"t", "a"⟩, ⟨"t", "s"⟩] [true, false] (-1000) 5 hs (by decide) (by decide) (by decide)
    (by decide) (by decide)
  have hout : (SortExecutor.create exampleSortChild [⟨"t", "a"⟩, ⟨"t", "s"⟩] [true, false]
      (-1000)).run 5 = Except.ok [encodeInt32 2 ++ [97, 97], encodeInt32 2 ++ [97, 98],
        encodeInt32 1 ++ [97, 98], encodeInt32 1 ++ [122, 122]] := by decide
  have he := hrun.symm.trans hout
  cases he
  exact ⟨_, hrun, rfl, hp, hc, hst⟩

/-- C23: for every child with n tuples (n below 2^63), every list of order
columns whose types `ix_compare` knows, with a descending flag each, and
every `int` value `limit_cnt`, a consumer's loop over the SortExecutor
returns `limitCount n limit_cnt` tuples, which is min(n, limit_cnt) for
`limit_cnt >= 0` and n for `limit_cnt < 0`, and they are the first ones of
the vector that `beginTuple` sorted, a permutation of the child's tuples. -/
theorem sort_limit_yields_first_tuples (prev : Child) (order_cols : List TabCol)
    (is_descs : List Bool) (limit_cnt : Int) (fuel : Nat)
    (ht : ∀ oc ∈ order_cols, (get_col_offset prev.cols oc).type ≠ ColType.TYPE_UNUSE)
    (hl : order_cols.length ≤ is_descs.length)
    (hlo : -2147483648 ≤ limit_cnt) (hhi : limit_cnt < 2147483648)
    (hn : prev.tuples.length < 9223372036854775808) (hf : prev.tuples.length < fuel) :
    ∃ ex1 out, (SortExecutor.create prev order_cols is_descs limit_cnt).beginTuple =
        Except.ok ex1 ∧
      ex1.sorted_tuples.Perm prev.tuples ∧
      (SortExecutor.create prev order_cols is_descs limit_cnt).run fuel = Except.ok out ∧
      out = ex1.sorted_tuples.take (limitCount prev.tuples.length limit_cnt) ∧
      out.length = limitCount prev.tuples.length limit_cnt ∧
      (0 ≤ limit_cnt → out.length = min prev.tuples.length limit_cnt.toNat) ∧
      (limit_cnt = 0 → out = []) ∧
      ((prev.tuples.length : Int) ≤ limit_cnt → out = ex1.sorted_tuples) ∧
      (limit_cnt < 0 → out = ex1.sorted_tuples) := by
  have hsort := stable_sort_compare_loop (order_cols.map (get_col_offset prev.cols)) is_descs
    (by
      intro c hc
      obtain ⟨oc, hoc, rfl⟩ := List.mem_map.1 hc
      exact ht oc hoc)
    (by simpa using hl) prev.tuples
  have hrun := SortExecutor.run_spec prev order_cols is_descs limit_cnt fuel ht hl hlo hhi hn hf
  have hlen : (List.insertionSort (SortLe (order_cols.map (get_col_offset prev.cols)) is_descs)
      prev.tuples).length = prev.tuples.length := List.length_insertionSort _ _
  have hle : limitCount prev.tuples.length limit_cnt ≤ prev.tuples.length := by
    unfold limitCount
    split <;> omega
  have hb : (SortExecutor.create prev order_cols is_descs limit_cnt).beginTuple =
      Except.ok ⟨{ prev with pos := prev.tuples.length },
        order_cols.map (get_col_offset prev.cols), is_descs,
        (limit_cnt % 18446744073709551616).toNat,
        List.insertionSort (SortLe (order_cols.map (get_col_offset prev.cols)) is_descs)
          prev.tuples, 0⟩ := by
    unfold SortExecutor.beginTuple
    simp only [SortExecutor.create, Child.drain_begin, List.nil_append, hsort]
  refine ⟨_, _, hb, List.perm_insertionSort _ _, hrun, rfl, ?_, ?_, ?_, ?_, ?_⟩
  · rw [List.length_take, hlen]
    omega
  · intro h0
    rw [List.length_take, hlen]
    unfold limitCount
    rw [if_pos h0]
    omega
  · intro h0
    subst h0
    simp [limitCount]
  · intro hge
    have : limitCount prev.tuples.length limit_cnt = prev.tuples.length := by
      unfold limitCount
      split <;> omega
    simp only [this]
    rw [← hlen, List.take_length]
  · intro hneg
    have : limitCount prev.tuples.length limit_cnt = prev.tuples.length := by
      unfold limitCount
      rw [if_neg (by omega)]
    simp only [this]
    rw [← hlen, List.take_length]

/-- Witness for C23: of the four rows sorted by `a` descending and `s`
ascending, the limit 3 yields the first three. -/
theorem sort_limit_yields_first_tuples_witness :
    (SortExecutor.create exampleSortChild [⟨"t", "a"⟩, ⟨"t", "s"⟩] [true, false] 3).run 5 =
      Except.ok [encodeInt32 2 ++ [97, 97], encodeInt32 2 ++ [97, 98],
        encodeInt32 1 ++ [97, 98]] ∧
    limitCount exampleSortChild.tuples.length 3 = 3 := by
  have ht : ∀ oc ∈ ([⟨"t", "a"⟩, ⟨"t", "s"⟩] : List TabCol),
      (get_col_offset exampleSortChild.cols oc).type ≠ ColType.TYPE_UNUSE := by
    intro oc hoc
    simp only [List.mem_cons, List.mem_singleton, List.not_mem_nil, or_false] at hoc
    rcases hoc with rfl | rfl <;> decide
  obtain ⟨ex1, out, hb, _, hrun, _, hlen, _⟩ := sort_limit_yields_first_tuples exampleSortChild
    [⟨"t", "a"⟩, ⟨"t", "s"⟩] [true, false] 3 5 ht (by decide) (by decide) (by decide)
    (by decide) (by decide)
  have hout : (SortExecutor.create exampleSortChild [⟨"t", "a"⟩, ⟨"t", "s"⟩] [true, false]
      3).run 5 = Except.ok [encodeInt32 2 ++ [97, 97], encodeInt32 2 ++ [97, 98],
        encodeInt32 1 ++ [97, 98]] := by decide
  have he := hrun.symm.trans hout
  cases he
  exact ⟨hrun, by decide⟩

theorem eval_cond_total {cols : List ColMeta} {cond : Condition} (h : CondOver cols cond)
    (rec : List Nat) : ∃ b, eval_cond cols cond rec = Except.ok b := by
  obtain ⟨i, lhs, hl, ht, hr⟩ := h
  have hcmp : ∀ a b, ∃ x, ix_compare_raw a b lhs.type lhs.len = Except.ok x := by
    intro a b
    unfold ix_compare_raw
    cases hty : lhs.type <;> first | exact ⟨_, rfl⟩ | exact absurd hty ht
  unfold eval_cond
  rw [hl]
  simp only
  by_cases hv : cond.is_rhs_val = true
  · rw [if_pos hv] at hr
    obtain ⟨hraw, hty, hdt⟩ := hr
    obtain ⟨data, hdata⟩ := Option.ne_none_iff_exists'.1 hraw
    rw [if_pos hv, hdata]
    simp only
    rw [if_neg (by simp [hty])]
    rw [if_neg (by
      rintro ⟨_, h2, h3⟩
      rw [hty] at h2
      rw [hdt h2] at h3
      cases h3)]
    rw [hty]
    obtain ⟨x, hx⟩ := hcmp (rec.drop lhs.offset) data
    rw [hx]
    cases cond.op <;> exact ⟨_, rfl⟩
  · rw [if_neg hv] at hr
    obtain ⟨j, rhs, hrc, hty⟩ := hr
    rw [if_neg hv, hrc]
    simp only
    rw [if_neg (by simp [hty])]
    rw [if_neg (by
      rintro ⟨h1, _⟩
      exact hv h1)]
    rw [hty]
    obtain ⟨x, hx⟩ := hcmp (rec.drop lhs.offset) (rec.drop rhs.offset)
    rw [hx]
    cases cond.op <;> exact ⟨_, rfl⟩

theorem eval_conds_satisfies {cols : List ColMeta} :
    ∀ {conds : List Condition}, (∀ cond ∈ conds, CondOver cols cond) → ∀ rec : List Nat,
      eval_conds cols conds rec = Except.ok (satisfies cols conds rec) := by
  intro conds
  induction conds with
  | nil => intro _ rec; rfl
  | cons c cs ih =>
    intro h rec
    obtain ⟨b, hb⟩ := eval_cond_total (h c (List.mem_cons_self _ _)) rec
    rw [eval_conds, hb]
    cases b with
    | false => simp [satisfies, hb]
    | true =>
      simp only
      rw [ih (fun x hx => h x (List.mem_cons_of_mem _ hx)) rec]
      simp [satisfies, hb]

theorem satisfies_iff {cols : List ColMeta} {conds : List Condition} {rec : List Nat} :
    satisfies cols conds rec = true ↔ ∀ cond ∈ conds, eval_cond cols cond rec = Except.ok true := by
  simp [satisfies]

theorem filter_dropWhile_not {α : Type} (p : α → Bool) (l : List α) :
    l.filter p = (l.dropWhile (fun x => !p x)).filter p := by
  induction l with
  | nil => rfl
  | cons a t ih =>
    cases h : p a with
    | true => simp [List.dropWhile, h]
    | false => simp [List.dropWhile, List.filter, h, ih]

theorem dropWhile_not_cons {α : Type} (p : α → Bool) :
    ∀ (l : List α) (a : α) (t : List α), l.dropWhile (fun x => !p x) = a :: t →
      p a = true ∧ ∃ pre, l = pre ++ a :: t := by
  intro l
  induction l with
  | nil => intro a t h; cases h
  | cons b s ih =>
    intro a t h
    cases hb : p b with
    | true =>
      simp only [List.dropWhile, hb, Bool.not_true] at h
      cases h
      exact ⟨hb, [], rfl⟩
    | false =>
      simp only [List.dropWhile, hb, Bool.not_false] at h
      obtain ⟨h1, pre, h2⟩ := ih a t h
      exact ⟨h1, b :: pre, by rw [h2]; rfl⟩

theorem dropWhile_not_nil {α : Type} (p : α → Bool) (l : List α)
    (h : l.dropWhile (fun x => !p x) = []) : l.filter p = [] := by
  rw [filter_dropWhile_not, h]
  rfl

theorem get_now_record_occupied {fh : RmFileHandle} {r : Rid} (hr : r ∈ fh.occupiedRids)
    (ctx : Context) :
    RmScan.is_end r = false ∧
      RmScan.get_now_record fh r false ctx = Except.ok (fh.bytes r, ctx) := by
  rw [RmFileHandle.mem_occupiedRids] at hr
  obtain ⟨h1, _, _, _, h5⟩ := hr
  have he : RmScan.is_end r = false := by
    unfold RmScan.is_end INVALID_PAGE_ID
    simp only [beq_eq_false_iff_ne, ne_eq]
    omega
  refine ⟨he, ?_⟩
  unfold RmScan.get_now_record
  rw [he]
  simp only [Bool.false_eq_true, if_false]
  have hrec : fh.is_record r = true := h5
  rw [if_pos hrec]
  unfold RmFileHandle.bytes
  unfold RmFileHandle.is_record at hrec
  cases hp : fh.fetch_page_handle r.page_no with
  | error e => rw [hp] at hrec; cases hrec
  | ok p => rfl

theorem next_occupied {fh : RmFileHandle} (hpages : fh.file_hdr_.num_pages ≤ fh.pages.length)
    {A B : List Rid} {r : Rid} (hE : fh.occupiedRids = A ++ r :: B) :
    RmScan.next fh r = Except.ok (B.head?.getD { r with page_no := INVALID_PAGE_ID }) := by
  have hr : r ∈ fh.occupiedRids := by rw [hE]; simp
  rw [RmFileHandle.mem_occupiedRids] at hr
  rw [RmScan.next_spec fh hpages r hr.1,
    RmScan.find_succ_sorted (RmFileHandle.occupiedRids_pairwise fh) hE]

/-- The loop of `beginTuple` and `nextTuple` stops at the first occupied
record from the position of the scan on that satisfies the conditions. -/
theorem SeqScanExecutor.seek_loop_spec (fh : RmFileHandle)
    (hpages : fh.file_hdr_.num_pages ≤ fh.pages.length) (cols : List ColMeta)
    (conds : List Condition) (hc : ∀ cond ∈ conds, CondOver cols cond) :
    ∀ (rest A : List Rid) (pos : Rid) (ex : SeqScanExecutor) (fuel : Nat),
      ex.fh_ = fh → ex.cols_ = cols → ex.fed_conds_ = conds →
      fh.occupiedRids = A ++ rest →
      (rest = [] → RmScan.is_end pos = true) → (∀ r B, rest = r :: B → pos = r) →
      rest.length < fuel →
      ∃ ex1, SeqScanExecutor.seek_loop fuel ex pos = Except.ok ex1 ∧ ex1.fh_ = fh ∧
        ex1.cols_ = cols ∧ ex1.fed_conds_ = conds ∧ ex1.tab_name_ = ex.tab_name_ ∧
        ((rest.dropWhile (fun r => !satisfies cols conds (fh.bytes r)) = [] ∧
            ∃ p, ex1.scan_ = some p ∧ RmScan.is_end p = true) ∨
         (∃ r B, rest.dropWhile (fun r => !satisfies cols conds (fh.bytes r)) = r :: B ∧
            ex1.scan_ = some r ∧ ex1.record_buffer = some (fh.bytes r))) := by
  intro rest
  induction rest with
  | nil =>
    intro A pos ex fuel h1 h2 h3 _ hend _ hf
    obtain ⟨f, rfl⟩ : ∃ f, fuel = f + 1 := ⟨fuel - 1, by simp at hf; omega⟩
    rw [SeqScanExecutor.seek_loop, if_pos (hend rfl)]
    exact ⟨_, rfl, h1, h2, h3, rfl, Or.inl ⟨rfl, pos, rfl, hend rfl⟩⟩
  | cons r B ih =>
    intro A pos ex fuel h1 h2 h3 hE _ hpos hf
    obtain ⟨f, rfl⟩ : ∃ f, fuel = f + 1 := ⟨fuel - 1, by simp at hf; omega⟩
    obtain ⟨tn, cs, fh1, cols1, len1, fed1, rid1, sc1, rb1, ctx1⟩ := ex
    simp only at h1 h2 h3
    subst h1 h2 h3
    have hp := hpos r B rfl
    subst hp
    have hr : pos ∈ fh1.occupiedRids := by rw [hE]; simp
    obtain ⟨he, hg⟩ := get_now_record_occupied hr ctx1
    rw [SeqScanExecutor.seek_loop, he]
    simp only [Bool.false_eq_true, if_false]
    rw [hg]
    simp only
    rw [eval_conds_satisfies hc]
    cases hs : satisfies cols1 fed1 (fh1.bytes pos) with
    | true =>
      simp only
      refine ⟨_, rfl, rfl, rfl, rfl, rfl, Or.inr ⟨pos, B, ?_, rfl, rfl⟩⟩
      simp [List.dropWhile, hs]
    | false =>
      simp only
      rw [next_occupied hpages hE]
      simp only
      obtain ⟨ex1, g1, g2, g3, g4, g5, g6⟩ := ih (A ++ [pos])
        (B.head?.getD { pos with page_no := INVALID_PAGE_ID })
        (⟨tn, cs, fh1, cols1, len1, fed1, pos, some pos, some (fh1.bytes pos), ctx1⟩ :
          SeqScanExecutor) f rfl rfl rfl
        (by rw [hE]; simp)
        (by
          intro hB
          subst hB
          rfl)
        (by
          intro r1 B1 hB
          subst hB
          rfl)
        (by simp at hf; omega)
      refine ⟨ex1, g1, g2, g3, g4, g5, ?_⟩
      simpa [List.dropWhile, hs] using g6

theorem SeqScanExecutor.check_runtime_conds_ok (ex : SeqScanExecutor)
    (hck : ∀ cond ∈ ex.fed_conds_, cond.lhs_col.tab_name = ex.tab_name_ ∧
      (cond.is_rhs_val = false → cond.rhs_col.tab_name = ex.tab_name_)) :
    ex.check_runtime_conds = Except.ok () := by
  unfold SeqScanExecutor.check_runtime_conds
  rw [if_pos]
  rw [List.all_eq_true]
  intro cond hcond
  obtain ⟨h1, h2⟩ := hck cond hcond
  simp only [Bool.and_eq_true, decide_eq_true_eq, Bool.or_eq_true]
  refine ⟨h1, ?_⟩
  cases hv : cond.is_rhs_val with
  | true => exact Or.inl rfl
  | false => exact Or.inr (h2 hv)

/-- `nextTuple` at an occupied record moves to the next occupied record
that satisfies the conditions. -/
theorem SeqScanExecutor.nextTuple_spec (fh : RmFileHandle)
    (hpages : fh.file_hdr_.num_pages ≤ fh.pages.length) (cols : List ColMeta)
    (conds : List Condition) (hc : ∀ cond ∈ conds, CondOver cols cond) (tab : String)
    (hck : ∀ cond ∈ conds, cond.lhs_col.tab_name = tab ∧
      (cond.is_rhs_val = false → cond.rhs_col.tab_name = tab))
    (A B : List Rid) (r : Rid) (ex : SeqScanExecutor)
    (h1 : ex.fh_ = fh) (h2 : ex.cols_ = cols) (h3 : ex.fed_conds_ = conds)
    (h4 : ex.tab_name_ = tab) (hE : fh.occupiedRids = A ++ r :: B) (h5 : ex.scan_ = some r) :
    ∃ ex1, ex.nextTuple = Except.ok ex1 ∧ ex1.fh_ = fh ∧
      ex1.cols_ = cols ∧ ex1.fed_conds_ = conds ∧ ex1.tab_name_ = tab ∧
      ((B.dropWhile (fun r => !satisfies cols conds (fh.bytes r)) = [] ∧
          ∃ p, ex1.scan_ = some p ∧ RmScan.is_end p = true) ∨
       (∃ r1 B1, B.dropWhile (fun r => !satisfies cols conds (fh.bytes r)) = r1 :: B1 ∧
          ex1.scan_ = some r1 ∧ ex1.record_buffer = some (fh.bytes r1))) := by
  have hr : r ∈ fh.occupiedRids := by rw [hE]; simp
  have he := (get_now_record_occupied hr ex.context_).1
  have hlen := RmFileHandle.length_occupiedRids fh
  rw [hE] at hlen
  simp only [List.length_append, List.length_cons] at hlen
  obtain ⟨ex1, g1, g2, g3, g4, g5, g6⟩ := SeqScanExecutor.seek_loop_spec fh hpages cols conds hc B
    (A ++ [r]) (B.head?.getD { r with page_no := INVALID_PAGE_ID }) ex
    (SeqScanExecutor.scanFuel fh) h1 h2 h3 (by rw [hE]; simp)
    (by
      intro hB
      subst hB
      rfl)
    (by
      intro r1 B1 hB
      subst hB
      rfl)
    (by unfold SeqScanExecutor.scanFuel; omega)
  refine ⟨ex1, ?_, g2, g3, g4, g5.trans h4, g6⟩
  unfold SeqScanExecutor.nextTuple
  rw [SeqScanExecutor.check_runtime_conds_ok ex (by rw [h3, h4]; exact hck)]
  simp only [SeqScanExecutor.is_end, h5, he]
  rw [h1, next_occupied hpages hE]
  exact g1

/-- The consumer's loop from an occupied record that satisfies the
conditions yields it and the later occupied records that satisfy them. -/
theorem SeqScanExecutor.run_loop_spec (fh : RmFileHandle)
    (hpages : fh.file_hdr_.num_pages ≤ fh.pages.length) (cols : List ColMeta)
    (conds : List Condition) (hc : ∀ cond ∈ conds, CondOver cols cond) (tab : String)
    (hck : ∀ cond ∈ conds, cond.lhs_col.tab_name = tab ∧
      (cond.is_rhs_val = false → cond.rhs_col.tab_name = tab)) :
    ∀ (n : Nat) (B A : List Rid) (r : Rid) (ex : SeqScanExecutor) (fuel : Nat), B.length = n →
      ex.fh_ = fh → ex.cols_ = cols → ex.fed_conds_ = conds → ex.tab_name_ = tab →
      fh.occupiedRids = A ++ r :: B → ex.scan_ = some r →
      ex.record_buffer = some (fh.bytes r) → B.length + 2 ≤ fuel →
      SeqScanExecutor.run_loop fuel ex = Except.ok (fh.bytes r ::
        (B.filter (fun x => satisfies cols conds (fh.bytes x))).map fh.bytes) := by
  intro n
  induction n using Nat.strong_induction_on with
  | _ n ih =>
    intro B A r ex fuel hn h1 h2 h3 h4 hE h5 h6 hf
    obtain ⟨f, rfl⟩ : ∃ f, fuel = f + 1 := ⟨fuel - 1, by omega⟩
    have hr : r ∈ fh.occupiedRids := by rw [hE]; simp
    have he := (get_now_record_occupied hr ex.context_).1
    obtain ⟨tn, cs, fh1, cols1, len1, fed1, rid1, sc, rb, ctx⟩ := ex
    simp only at h1 h2 h3 h4 h5 h6
    subst h5 h6
    obtain ⟨ex1, g1, g2, g3, g4, g5, g6⟩ := SeqScanExecutor.nextTuple_spec fh hpages cols conds
      hc tab hck A B r ⟨tn, cs, fh1, cols1, len1, fed1, rid1, some r, none, ctx⟩ h1 h2 h3 h4 hE rfl
    rw [SeqScanExecutor.run_loop]
    simp only [SeqScanExecutor.is_end, SeqScanExecutor.Next, he, g1]
    rcases g6 with ⟨hd, p, hp, hpe⟩ | ⟨r1, B1, hd, hs, hb⟩
    · obtain ⟨f1, rfl⟩ : ∃ f1, f = f1 + 1 := ⟨f - 1, by omega⟩
      rw [SeqScanExecutor.run_loop]
      simp only [SeqScanExecutor.is_end, hp, hpe]
      rw [dropWhile_not_nil _ _ hd]
      rfl
    · obtain ⟨hsat, pre, hpre⟩ := dropWhile_not_cons _ _ _ _ hd
      have hlen : B.length = pre.length + 1 + B1.length := by
        rw [hpre]; simp; omega
      rw [ih B1.length (by omega) B1 (A ++ r :: pre) r1 ex1 f rfl g2 g3 g4 g5
        (by rw [hE, hpre]; simp) hs hb (by omega)]
      simp only
      rw [filter_dropWhile_not _ B, hd, List.filter_cons, hsat]
      simp

/-- `beginTuple` stops at the first occupied record that satisfies the
conditions. -/
theorem SeqScanExecutor.seq_beginTuple_spec (fh : RmFileHandle)
    (hpages : fh.file_hdr_.num_pages ≤ fh.pages.length) (cols : List ColMeta)
    (conds : List Condition) (hc : ∀ cond ∈ conds, CondOver cols cond) (tab : String)
    (hck : ∀ cond ∈ conds, cond.lhs_col.tab_name = tab ∧
      (cond.is_rhs_val = false → cond.rhs_col.tab_name = tab))
    (ex : SeqScanExecutor)
    (h1 : ex.fh_ = fh) (h2 : ex.cols_ = cols) (h3 : ex.fed_conds_ = conds)
    (h4 : ex.tab_name_ = tab)
    (hlock : ∃ b, (lock_shared_on_table ex.context_.lock_table_ ex.context_.txn_ fh.fd_).result =
      Except.ok b) :
    ∃ ex1, ex.beginTuple = Except.ok ex1 ∧ ex1.fh_ = fh ∧
      ex1.cols_ = cols ∧ ex1.fed_conds_ = conds ∧ ex1.tab_name_ = tab ∧
      ((fh.occupiedRids.dropWhile (fun r => !satisfies cols conds (fh.bytes r)) = [] ∧
          ∃ p, ex1.scan_ = some p ∧ RmScan.is_end p = true) ∨
       (∃ r1 B1, fh.occupiedRids.dropWhile (fun r => !satisfies cols conds (fh.bytes r)) =
            r1 :: B1 ∧
          ex1.scan_ = some r1 ∧ ex1.record_buffer = some (fh.bytes r1))) := by
  obtain ⟨b, hb⟩ := hlock
  have hlen := RmFileHandle.length_occupiedRids fh
  obtain ⟨tn, cs, fh1, cols1, len1, fed1, rid1, sc, rb, ctx⟩ := ex
  simp only at h1 h2 h3 h4 hb
  subst h1 h2 h3 h4
  obtain ⟨ex1, g1, g2, g3, g4, g5, g6⟩ := SeqScanExecutor.seek_loop_spec fh1 hpages cols1 fed1 hc
    fh1.occupiedRids [] (fh1.occupiedRids.head?.getD ⟨INVALID_PAGE_ID, 0⟩)
    ⟨tn, cs, fh1, cols1, len1, fed1, rid1, sc, rb,
      ⟨(lock_shared_on_table ctx.lock_table_ ctx.txn_ fh1.fd_).table, ctx.log_mgr_,
        (lock_shared_on_table ctx.lock_table_ ctx.txn_ fh1.fd_).txn⟩⟩
    (SeqScanExecutor.scanFuel fh1) rfl rfl rfl rfl
    (by
      intro hB
      rw [hB]
      rfl)
    (by
      intro r1 B1 hB
      rw [hB]
      rfl)
    (by unfold SeqScanExecutor.scanFuel; omega)
  refine ⟨ex1, ?_, g2, g3, g4, g5, g6⟩
  unfold SeqScanExecutor.beginTuple
  rw [SeqScanExecutor.check_runtime_conds_ok _ hck]
  simp only [RmFileHandle.withLock, hb, RmScan.init_spec fh1 hpages]
  exact g1

/-- C21: for every heap file that has the pages its header counts, every
non-empty column list and every list of conditions over these columns
(`CondOver`) that name the table, when the shared table lock is granted, the
consumer's loop over the SeqScanExecutor returns, and the records it yields
are the records of the occupied Rids in scan order for which every
condition evaluates to true: every yielded record satisfies every
condition, the record of every occupied Rid that satisfies them all is
yielded, and with no condition every occupied record is yielded. -/
theorem seq_scan_yields_satisfying_records (tab_name : String) (fh : RmFileHandle)
    (cols : List ColMeta) (conds : List Condition) (context : Context)
    (hpages : fh.file_hdr_.num_pages ≤ fh.pages.length) (hcols : cols ≠ [])
    (hc : ∀ cond ∈ conds, CondOver cols cond)
    (hck : ∀ cond ∈ conds, cond.lhs_col.tab_name = tab_name ∧
      (cond.is_rhs_val = false → cond.rhs_col.tab_name = tab_name))
    (hlock : ∃ b, (lock_shared_on_table context.lock_table_ context.txn_ fh.fd_).result =
      Except.ok b) :
    ∃ ex out, SeqScanExecutor.create tab_name fh cols conds context = Except.ok ex ∧
      ex.run = Except.ok out ∧
      out = (fh.occupiedRids.map fh.bytes).filter (satisfies cols conds) ∧
      (∀ rec ∈ out, eval_conds cols conds rec = Except.ok true ∧
        ∀ cond ∈ conds, eval_cond cols cond rec = Except.ok true) ∧
      (∀ rid ∈ fh.occupiedRids,
        (∀ cond ∈ conds, eval_cond cols cond (fh.bytes rid) = Except.ok true) →
          fh.bytes rid ∈ out) ∧
      (conds = [] → out = fh.occupiedRids.map fh.bytes) := by
  obtain ⟨back, hback⟩ : ∃ back, cols.getLast? = some back := by
    cases hl : cols.getLast? with
    | none => exact absurd (List.getLast?_eq_none_iff.1 hl) hcols
    | some b => exact ⟨b, rfl⟩
  have hcr : SeqScanExecutor.create tab_name fh cols conds context = Except.ok
      ⟨tab_name, conds, fh, cols, back.offset + back.len, conds, ⟨0, 0⟩, none, none, context⟩ := by
    unfold SeqScanExecutor.create
    rw [hback]
  have hfm : (fh.occupiedRids.map fh.bytes).filter (satisfies cols conds) =
      (fh.occupiedRids.filter (fun x => satisfies cols conds (fh.bytes x))).map fh.bytes := by
    rw [List.filter_map]
    rfl
  have hrun : SeqScanExecutor.run ⟨tab_name, conds, fh, cols, back.offset + back.len, conds,
      ⟨0, 0⟩, none, none, context⟩ =
      Except.ok ((fh.occupiedRids.map fh.bytes).filter (satisfies cols conds)) := by
    obtain ⟨ex1, g1, g2, g3, g4, g5, g6⟩ := SeqScanExecutor.seq_beginTuple_spec fh hpages cols conds hc
      tab_name hck ⟨tab_name, conds, fh, cols, back.offset + back.len, conds, ⟨0, 0⟩, none, none,
        context⟩ rfl rfl rfl rfl hlock
    unfold SeqScanExecutor.run
    rw [g1]
    simp only
    rw [hfm]
    rcases g6 with ⟨hd, p, hp, hpe⟩ | ⟨r1, B1, hd, hs, hb⟩
    · rw [SeqScanExecutor.scanFuel, SeqScanExecutor.run_loop]
      simp only [SeqScanExecutor.is_end, hp, hpe]
      rw [dropWhile_not_nil _ _ hd]
      rfl
    · obtain ⟨hsat, pre, hpre⟩ := dropWhile_not_cons _ _ _ _ hd
      have hlen := RmFileHandle.length_occupiedRids fh
      rw [hpre] at hlen
      simp only [List.length_append, List.length_cons] at hlen
      rw [SeqScanExecutor.run_loop_spec fh hpages cols conds hc tab_name hck B1.length B1 pre r1
        ex1 (SeqScanExecutor.scanFuel fh) rfl g2 g3 g4 g5 hpre hs hb
        (by unfold SeqScanExecutor.scanFuel; omega)]
      rw [filter_dropWhile_not _ fh.occupiedRids, hd, List.filter_cons, hsat]
      simp
  refine ⟨_, _, hcr, hrun, rfl, ?_, ?_, ?_⟩
  · intro rec hrec
    have hs := (List.mem_filter.1 hrec).2
    refine ⟨?_, satisfies_iff.1 hs⟩
    rw [eval_conds_satisfies hc, hs]
  · intro rid hrid hall
    exact List.mem_filter.2 ⟨List.mem_map.2 ⟨rid, hrid, rfl⟩, satisfies_iff.2 hall⟩
  · intro hnil
    subst hnil
    rw [List.filter_eq_self]
    intro _ _
    rfl

/-- Witness for C21: the scan of the example file with the condition
`t.a > 2` yields the rows (5,"zz") and (3,"cd"), in Rid order. -/
theorem seq_scan_yields_satisfying_records_witness :
    ∃ ex, SeqScanExecutor.create "t" exampleScanFile exampleScanCols [exampleScanCond]
        exampleContext = Except.ok ex ∧
      ex.run = Except.ok [encodeInt32 5 ++ [122, 122], encodeInt32 3 ++ [99, 100]] := by
  have hc : ∀ cond ∈ [exampleScanCond], CondOver exampleScanCols cond := by
    intro cond hcond
    rw [List.mem_singleton] at hcond
    subst hcond
    refine ⟨0, ⟨"t", "a", ColType.TYPE_INT, 4, 0, false⟩, by decide, by decide, ?_⟩
    rw [if_pos (by decide)]
    exact ⟨by decide, by decide, by decide⟩
  have hck : ∀ cond ∈ [exampleScanCond], cond.lhs_col.tab_name = "t" ∧
      (cond.is_rhs_val = false → cond.rhs_col.tab_name = "t") := by
    intro cond hcond
    rw [List.mem_singleton] at hcond
    subst hcond
    exact ⟨by decide, by decide⟩
  obtain ⟨ex, out, h1, h2, h3, _⟩ := seq_scan_yields_satisfying_records "t" exampleScanFile
    exampleScanCols [exampleScanCond] exampleContext (by decide) (by decide) hc hck
    ⟨true, by decide⟩
  have hout : (exampleScanFile.occupiedRids.map exampleScanFile.bytes).filter
      (satisfies exampleScanCols [exampleScanCond]) =
      [encodeInt32 5 ++ [122, 122], encodeInt32 3 ++ [99, 100]] := by decide
  rw [hout] at h3
  subst h3
  exact ⟨ex, h1, h2⟩

theorem merge_record_append (len_ : Nat) (o i : List Nat) (h : o.length + i.length = len_) :
    merge_record len_ o i = Except.ok (o ++ i) := by
  unfold merge_record
  rw [if_pos (by omega)]
  congr 1
  unfold memcpy
  have hz : (zeroBytes len_).length = len_ := zeroBytes_length len_
  simp only [List.take_zero, List.nil_append, Nat.zero_add]
  rw [List.take_append_of_le_length (by omega), List.take_length, List.drop_append_eq_append_drop,
    List.drop_eq_nil_of_le (by omega : o.length ≤ o.length + i.length), List.nil_append,
    List.drop_drop, List.drop_eq_nil_of_le (by rw [hz]; omega)]
  simp

theorem dropWhile_not_head {α : Type} (p : α → Bool) (a : α) (l : List α) (h : p a = true) :
    (a :: l).dropWhile (fun x => !p x) = a :: l := by
  simp [List.dropWhile, h]

theorem dropWhile_not_tail {α : Type} (p : α → Bool) (a : α) (l : List α) (h : p a = false) :
    (a :: l).dropWhile (fun x => !p x) = l.dropWhile (fun x => !p x) := by
  simp [List.dropWhile, h]

theorem length_dropWhile_le {α : Type} (p : α → Bool) (l : List α) :
    (l.dropWhile p).length ≤ l.length := by
  induction l with
  | nil => simp
  | cons a t ih =>
    rw [List.dropWhile_cons]
    split
    · simp only [List.length_cons]; omega
    · exact le_refl _

/-- A consumer's loop over an executor whose state stands at the first of
the remaining candidates, which satisfies the predicate, and whose
`nextTuple` moves to the next candidate that satisfies it, yields the
candidates that satisfy the predicate. -/
theorem drainExecutor_filter {σ : Type} (is_end : σ → Bool)
    (Next : σ → Except ExecError (List Nat)) (nextTuple : σ → Except ExecError σ)
    (Cur : σ → List (List Nat) → Prop) (sat : List Nat → Bool)
    (h_end : ∀ s, Cur s [] → is_end s = true)
    (h_cur : ∀ s r R, Cur s (r :: R) → is_end s = false ∧ Next s = Except.ok r ∧ sat r = true ∧
      ∃ s1, nextTuple s = Except.ok s1 ∧ Cur s1 (R.dropWhile (fun x => !sat x))) :
    ∀ (n : Nat) (s : σ) (R : List (List Nat)) (fuel : Nat), R.length = n → Cur s R →
      R.length < fuel → drainExecutor is_end Next nextTuple fuel s = Except.ok (R.filter sat) := by
  intro n
  induction n using Nat.strong_induction_on with
  | _ n ih =>
    intro s R fuel hn hc hf
    obtain ⟨f, rfl⟩ : ∃ f, fuel = f + 1 := ⟨fuel - 1, by omega⟩
    cases R with
    | nil =>
      rw [drainExecutor, if_pos (h_end s hc)]
      rfl
    | cons r R =>
      obtain ⟨h1, h2, h3, s1, h4, h5⟩ := h_cur s r R hc
      have hle := length_dropWhile_le (fun x => !sat x) R
      simp only [List.length_cons] at hn hf
      rw [drainExecutor, h1]
      simp only [Bool.false_eq_true, if_false]
      rw [h2]
      simp only
      rw [h4]
      simp only
      rw [ih _ (by omega) s1 _ f rfl h5 (by omega), List.filter_cons, h3, ← filter_dropWhile_not]
      rfl

theorem blockPairs_nil_inner (block : List (List Nat)) : blockPairs block [] = [] := rfl

theorem blockPairs_cons_inner (block : List (List Nat)) (i : List Nat) (I2 : List (List Nat)) :
    blockPairs block (i :: I2) = block.map (fun o => o ++ i) ++ blockPairs block I2 := rfl

theorem length_blockPairs (block inner : List (List Nat)) :
    (blockPairs block inner).length = block.length * inner.length := by
  induction inner with
  | nil => rfl
  | cons i I2 ih =>
    rw [blockPairs_cons_inner, List.length_append, List.length_map, ih, List.length_cons,
      Nat.mul_succ]
    omega

theorem bnljPairs_nil (k : Nat) (inner : List (List Nat)) (fuel : Nat) :
    bnljPairs k inner fuel [] = [] := by
  cases fuel <;> rfl

/-- With blocks of at least one tuple, fuel beyond the number of outer
tuples does not change the pairs. -/
theorem bnljPairs_fuel (k : Nat) (hk : 0 < k) (inner : List (List Nat)) :
    ∀ (n : Nat) (rest : List (List Nat)) (f1 f2 : Nat), rest.length = n → n ≤ f1 → n ≤ f2 →
      bnljPairs k inner f1 rest = bnljPairs k inner f2 rest := by
  intro n
  induction n using Nat.strong_induction_on with
  | _ n ih =>
    intro rest f1 f2 hn h1 h2
    cases rest with
    | nil => rw [bnljPairs_nil, bnljPairs_nil]
    | cons o rest =>
      simp only [List.length_cons] at hn
      obtain ⟨g1, rfl⟩ : ∃ g, f1 = g + 1 := ⟨f1 - 1, by omega⟩
      obtain ⟨g2, rfl⟩ : ∃ g, f2 = g + 1 := ⟨f2 - 1, by omega⟩
      rw [bnljPairs, bnljPairs]
      congr 1
      have hl : ((o :: rest).drop k).length < n := by
        rw [List.length_drop, List.length_cons]; omega
      exact ih _ hl _ g1 g2 rfl (by omega) (by omega)

theorem bnljPairs_cons (k : Nat) (hk : 0 < k) (inner : List (List Nat)) (fuel : Nat)
    (o : List Nat) (rest : List (List Nat)) (hf : rest.length + 1 ≤ fuel) :
    bnljPairs k inner fuel (o :: rest) =
      blockPairs ((o :: rest).take k) inner ++ bnljPairs k inner fuel ((o :: rest).drop k) := by
  obtain ⟨g, rfl⟩ : ∃ g, fuel = g + 1 := ⟨fuel - 1, by omega⟩
  rw [bnljPairs]
  congr 1
  have hl : ((o :: rest).drop k).length ≤ rest.length := by
    rw [List.length_drop, List.length_cons]; omega
  exact bnljPairs_fuel k hk inner _ _ g (g + 1) rfl (by omega) (by omega)

theorem length_bnljPairs (k : Nat) (hk : 0 < k) (inner : List (List Nat)) :
    ∀ (n : Nat) (rest : List (List Nat)) (fuel : Nat), rest.length = n → n ≤ fuel →
      (bnljPairs k inner fuel rest).length = rest.length * inner.length := by
  intro n
  induction n using Nat.strong_induction_on with
  | _ n ih =>
    intro rest fuel hn hf
    cases rest with
    | nil => rw [bnljPairs_nil]; simp
    | cons o rest =>
      simp only [List.length_cons] at hn
      rw [bnljPairs_cons k hk inner fuel o rest (by omega), List.length_append, length_blockPairs]
      have hl : ((o :: rest).drop k).length < n := by
        rw [List.length_drop, List.length_cons]; omega
      rw [ih _ hl _ fuel rfl (by omega), ← Nat.add_mul, List.length_take, List.length_drop]
      congr 1
      omega

theorem bnljPairs_empty_inner (k : Nat) : ∀ (fuel : Nat) (rest : List (List Nat)),
    bnljPairs k [] fuel rest = [] := by
  intro fuel
  induction fuel with
  | zero => intro rest; cases rest <;> rfl
  | succ f ih =>
    intro rest
    cases rest with
    | nil => rfl
    | cons o rest => rw [bnljPairs, ih]; rfl

theorem drop_eq_cons_get {α : Type} {l : List α} {n : Nat} {a : α} {t : List α}
    (h : l.drop n = a :: t) : n < l.length ∧ l.get? n = some a ∧ l.drop (n + 1) = t := by
  have hlt : n < l.length := by
    by_contra hc
    rw [List.drop_eq_nil_of_le (by omega)] at h
    cases h
  rw [List.drop_eq_getElem_cons hlt] at h
  cases h
  exact ⟨hlt, by rw [List.get?_eq_getElem?, List.getElem?_eq_getElem hlt], rfl⟩

theorem Child.Next_of_drop {c : Child} {a : List Nat} {t : List (List Nat)}
    (h : c.tuples.drop c.pos = a :: t) :
    c.is_end = false ∧ c.Next = Except.ok a ∧
      c.nextTuple = Except.ok { c with pos := c.pos + 1 } ∧
      c.tuples.drop (c.pos + 1) = t := by
  obtain ⟨h1, h2, h3⟩ := drop_eq_cons_get h
  have he : c.is_end = false := by simp [Child.is_end]; omega
  refine ⟨he, ?_, ?_, h3⟩
  · unfold Child.Next
    rw [h2]
  · unfold Child.nextTuple
    rw [he]
    rfl

theorem Child.is_end_of_drop_nil {c : Child} (h : c.tuples.drop c.pos = []) :
    c.is_end = true := by
  simp only [Child.is_end, decide_eq_true_eq]
  exact List.drop_eq_nil_iff.1 h

theorem Child.drop_nil_of_is_end {c : Child} (h : c.is_end = true) :
    c.tuples.drop c.pos = [] := by
  simp only [Child.is_end, decide_eq_true_eq] at h
  exact List.drop_eq_nil_of_le h

theorem dropWhile_map_not {α β : Type} (f : α → β) (p : β → Bool) (l : List α) :
    (l.map f).dropWhile (fun x => !p x) = (l.dropWhile (fun a => !p (f a))).map f := by
  induction l with
  | nil => rfl
  | cons a t ih =>
    rw [List.map_cons, List.dropWhile_cons, List.dropWhile_cons]
    cases h : p (f a) with
    | true => simp
    | false => simpa using ih

theorem nljPairs_cons (o : List Nat) (O2 I : List (List Nat)) :
    nljPairs (o :: O2) I = I.map (fun x => o ++ x) ++ nljPairs O2 I := rfl

theorem length_nljPairs (O I : List (List Nat)) : (nljPairs O I).length = O.length * I.length := by
  induction O with
  | nil => simp [nljPairs]
  | cons o O2 ih =>
    rw [nljPairs_cons, List.length_append, List.length_map, ih, List.length_cons, Nat.succ_mul]
    omega

theorem store_slot_take (buffer : List (List Nat)) (c : Nat) (rec : List Nat) (pre : List (List Nat))
    (h1 : buffer.take c = pre) (h2 : pre.length = c) :
    (store_slot buffer c rec).take (c + 1) = pre ++ [rec] := by
  unfold store_slot
  rw [h1, List.take_append_eq_append_take, h2, List.take_of_length_le (by omega)]
  have : c + 1 - c = 1 := by omega
  rw [this]
  rfl

namespace BlockNestedLoopJoinExecutor

/-- The loop of `prefetch` stores the next outer tuples in the buffer until
the buffer is full or no outer tuple is left. -/
theorem prefetch_loop_spec (L k : Nat) :
    ∀ (rest : List (List Nat)) (outer : Child) (buffer : List (List Nat)) (c : Nat)
      (pre : List (List Nat)) (fuel : Nat),
      outer.tuples.drop outer.pos = rest → (∀ o ∈ rest, o.length = L) →
      buffer.take c = pre → pre.length = c → rest.length < fuel →
      ∃ buffer1, prefetch_loop L k fuel outer buffer c =
          Except.ok ({ outer with pos := outer.pos + min (k - c) rest.length }, buffer1,
            c + min (k - c) rest.length) ∧
        buffer1.take (c + min (k - c) rest.length) = pre ++ rest.take (k - c) := by
  intro rest
  induction rest with
  | nil =>
    intro outer buffer c pre fuel hd _ hb hp hf
    obtain ⟨f, rfl⟩ : ∃ f, fuel = f + 1 := ⟨fuel - 1, by simp at hf; omega⟩
    have he : outer.is_end = true := Child.is_end_of_drop_nil hd
    rw [prefetch_loop, he]
    simp only [Bool.true_or, if_true, List.length_nil, Nat.min_zero, Nat.add_zero,
      List.take_nil, List.append_nil]
    exact ⟨buffer, rfl, hb⟩
  | cons o rest ih =>
    intro outer buffer c pre fuel hd hL hb hp hf
    obtain ⟨f, rfl⟩ : ∃ f, fuel = f + 1 := ⟨fuel - 1, by simp at hf; omega⟩
    obtain ⟨he, hn, hnt, hd1⟩ := Child.Next_of_drop hd
    rw [prefetch_loop, he]
    by_cases hck : c ≥ k
    · have h0 : k - c = 0 := by omega
      simp only [Bool.false_or, decide_eq_true_eq, if_pos hck, h0, Nat.zero_min, Nat.add_zero,
        List.take_zero, List.append_nil]
      exact ⟨buffer, rfl, hb⟩
    · simp only [Bool.false_or, decide_eq_true_eq, if_neg hck]
      rw [hn]
      simp only
      rw [if_neg (by rw [hL o (List.mem_cons_self _ _)]; omega), hnt]
      simp only
      have hto : o.take L = o := List.take_of_length_le (by rw [hL o (List.mem_cons_self _ _)])
      rw [hto]
      obtain ⟨buffer1, g1, g2⟩ := ih { outer with pos := outer.pos + 1 }
        (store_slot buffer c o) (c + 1) (pre ++ [o]) f hd1
        (fun x hx => hL x (List.mem_cons_of_mem _ hx))
        (store_slot_take buffer c o pre hb hp) (by simp; omega) (by simp at hf; omega)
      have hmin : c + 1 + min (k - (c + 1)) rest.length = c + min (k - c) (o :: rest).length := by
        simp only [List.length_cons]
        omega
      have hpos : outer.pos + 1 + min (k - (c + 1)) rest.length =
          outer.pos + min (k - c) (o :: rest).length := by
        simp only [List.length_cons]
        omega
      have hkc : k - c = (k - (c + 1)) + 1 := by omega
      refine ⟨buffer1, ?_, ?_⟩
      · rw [g1, hmin]
        simp only [hpos]
      · rw [← hmin, g2, hkc, List.take_succ_cons]
        simp

/-- `prefetch` at the end of the outer child fetches nothing. -/
theorem prefetch_end (ex : BlockNestedLoopJoinExecutor) (hL : 0 < ex.outer_len_)
    (he : ex.outer_.is_end = true) : ex.prefetch = Except.ok (false, ex) := by
  unfold prefetch
  rw [if_neg (by omega), if_pos he]

/-- `prefetch` before the end of the outer child fetches the next block. -/
theorem prefetch_block (ex : BlockNestedLoopJoinExecutor) (hL : 0 < ex.outer_len_)
    (o : List Nat) (rest : List (List Nat))
    (hd : ex.outer_.tuples.drop ex.outer_.pos = o :: rest)
    (hlen : ∀ x ∈ ex.outer_.tuples, x.length = ex.outer_len_)
    (c : Nat) (hc : c = min (BUFFER_JOIN_SIZE / ex.outer_len_) (rest.length + 1)) :
    ∃ buffer1, ex.prefetch = Except.ok (true,
        { ex with outer_ := { ex.outer_ with pos := ex.outer_.pos + c },
                  buffer_join := buffer1, buffer_stored_cnt := some c }) ∧
      buffer1.take c = (o :: rest).take (BUFFER_JOIN_SIZE / ex.outer_len_) := by
  obtain ⟨he, _, _, _⟩ := Child.Next_of_drop hd
  have hlt := (drop_eq_cons_get hd).1
  have hrl : rest.length + 1 ≤ ex.outer_.tuples.length := by
    have : (ex.outer_.tuples.drop ex.outer_.pos).length = rest.length + 1 := by rw [hd]; rfl
    rw [List.length_drop] at this
    omega
  obtain ⟨buffer1, g1, g2⟩ := prefetch_loop_spec ex.outer_len_ (BUFFER_JOIN_SIZE / ex.outer_len_)
    (o :: rest) ex.outer_ ex.buffer_join 0 [] (ex.outer_.tuples.length + 1) hd
    (fun x hx => hlen x (List.mem_of_mem_drop (by rw [hd]; exact hx))) rfl rfl
    (by simp only [List.length_cons]; omega)
  simp only [Nat.sub_zero, Nat.zero_add, List.length_cons, List.nil_append, ← hc] at g1 g2
  refine ⟨buffer1, ?_, g2⟩
  unfold prefetch
  rw [if_neg (by omega), if_neg (by rw [he]; simp), g1]

end BlockNestedLoopJoinExecutor

theorem take_get_mid {α : Type} {l : List α} {n : Nat} {a b : List α} {x : α}
    (h : l.take n = a ++ x :: b) : l.get? a.length = some x := by
  have h1 : (l.take n).get? a.length = some x := by
    rw [h, List.get?_eq_getElem?, List.getElem?_append_right (le_refl _)]
    simp
  rw [List.get?_eq_getElem?] at h1 ⊢
  rw [List.getElem?_take] at h1
  split at h1
  · exact h1
  · cases h1

namespace BlockNestedLoopJoinExecutor

/-- The merged record at the pair the state stands at. -/
theorem bnlj_merge_at {O I : List (List Nat)} {len Lo Li k : Nat} {cols : List ColMeta}
    {conds : List Condition} (hO : ∀ o ∈ O, o.length = Lo) (hI : ∀ i ∈ I, i.length = Li)
    (hlen : len = Lo + Li) (hc : ∀ cond ∈ conds, CondOver cols cond)
    (ex : BlockNestedLoopJoinExecutor) (hof : BnljOf O I len cols conds Lo ex)
    (r : List Nat) (R : List (List Nat)) (hat : BnljAt O I k ex (r :: R)) :
    ex.is_end_ = false ∧ ex.inner_.is_end = false ∧ ex.assert_ptr = Except.ok () ∧
    ex.merge_now = Except.ok ({ ex with merged_rec := some r }, satisfies cols conds r) := by
  rcases hat with ⟨_, h⟩ | ⟨he, blk, o, blk2, i, I2, h1, h2, h3, h4, h5, h6, _, hR⟩
  · cases h
  obtain ⟨f1, f2, f3, f4, f5, f6⟩ := hof
  rw [List.map_cons, List.cons_append, List.cons_append] at hR
  cases hR
  have hi2 : ex.inner_.tuples.drop ex.inner_.pos = i :: I2 := by rw [f2]; exact h6
  have him : i ∈ I := List.mem_of_mem_drop (by rw [h6]; simp)
  have hom : o ∈ O := h3 o (by simp)
  refine ⟨he, (Child.Next_of_drop hi2).1, ?_, ?_⟩
  · unfold assert_ptr
    rw [h1, h4]
    simp only
    rw [if_pos (by omega)]
  · unfold merge_now
    rw [h4, take_get_mid h2, h5]
    simp only
    rw [f3, merge_record_append len o i (by rw [hO o hom, hI i him, hlen])]
    simp only
    rw [f4, f5, eval_conds_satisfies hc]

theorem assert_ptr_ok (ex : BlockNestedLoopJoinExecutor) (c : Nat)
    (h1 : ex.buffer_stored_cnt = some c) (h2 : ex.buffer_join_ptr < c) :
    ex.assert_ptr = Except.ok () := by
  unfold assert_ptr
  rw [h1]
  simp only
  rw [if_pos h2]

/-- The move to the next pair leads from a pair to the next one. -/
theorem advance_spec {O I : List (List Nat)} {len Lo : Nat} {cols : List ColMeta}
    {conds : List Condition} (hO : ∀ o ∈ O, o.length = Lo) (hL : 0 < Lo)
    (hk : 0 < BUFFER_JOIN_SIZE / Lo)
    (ex : BlockNestedLoopJoinExecutor) (hof : BnljOf O I len cols conds Lo ex)
    (r : List Nat) (R : List (List Nat))
    (hat : BnljAt O I (BUFFER_JOIN_SIZE / Lo) ex (r :: R)) :
    ∃ ex1, ex.advance = Except.ok ex1 ∧ BnljOf O I len cols conds Lo ex1 ∧
      ex1.merged_rec = ex.merged_rec ∧ ex1.assert_ptr = Except.ok () ∧
      BnljAt O I (BUFFER_JOIN_SIZE / Lo) ex1 R := by
  rcases hat with ⟨_, h⟩ | ⟨he, blk, o, blk2, i, I2, h1, h2, h3, h4, h5, h6, h7, hR⟩
  · cases h
  obtain ⟨f1, f2, f3, f4, f5, f6⟩ := hof
  rw [List.map_cons, List.cons_append, List.cons_append] at hR
  cases hR
  obtain ⟨⟨oc, olen, ot, op⟩, ⟨ic, il, it, ip⟩, len1, ol, cols1, mr, fc, bi, bj, ie, ptr, cnt⟩ := ex
  simp only at he h1 h2 h4 h5 h6 h7 f1 f2 f3 f4 f5 f6
  subst he h1 h4 h5 f1 f2 f6
  obtain ⟨_, _, hnti, hdi⟩ := Child.Next_of_drop (c := ⟨ic, il, it, ip⟩) h6
  simp only at hnti hdi
  unfold advance
  simp only
  cases blk2 with
  | cons o2 blk3 =>
    rw [if_neg (by simp only [List.length_cons]; omega)]
    refine ⟨_, rfl, ⟨rfl, rfl, f3, f4, f5, rfl⟩, rfl,
      assert_ptr_ok _ _ rfl (by simp only [List.length_cons]; omega),
      Or.inr ⟨rfl, blk ++ [o], o2, blk3, i, I2, ?_, ?_, ?_, ?_, rfl, h6, h7, ?_⟩⟩
    · show some _ = some _
      simp only [List.length_append, List.length_cons, List.length_nil]
      congr 1
      omega
    · have : (blk ++ [o]).length + 1 + blk3.length = blk.length + 1 + (o2 :: blk3).length := by
        simp only [List.length_append, List.length_cons, List.length_nil]
        omega
      show bj.take ((blk ++ [o]).length + 1 + blk3.length) = _
      rw [this, h2]
      simp
    · intro x hx
      exact h3 x (by simpa using hx)
    · show blk.length + 1 = (blk ++ [o]).length
      simp
    · show _ = _
      simp
  | nil =>
    rw [if_pos (by simp)]
    rw [hnti]
    simp only
    cases I2 with
    | cons i2 I3 =>
      have hie : (⟨ic, il, it, ip + 1⟩ : Child).is_end = false :=
        (Child.Next_of_drop (c := ⟨ic, il, it, ip + 1⟩) hdi).1
      have hin : (⟨ic, il, it, ip + 1⟩ : Child).Next = Except.ok i2 :=
        (Child.Next_of_drop (c := ⟨ic, il, it, ip + 1⟩) hdi).2.1
      rw [if_neg (by rw [hie]; simp), hin]
      simp only
      obtain ⟨o1, blk1, hb⟩ : ∃ o1 blk1, blk ++ [o] = o1 :: blk1 := by
        cases blk with
        | nil => exact ⟨o, [], rfl⟩
        | cons b bs => exact ⟨b, bs ++ [o], rfl⟩
      have hbl : blk.length + 1 = blk1.length + 1 := by
        have := congrArg List.length hb
        simpa using this
      refine ⟨_, rfl, ⟨rfl, rfl, f3, f4, f5, rfl⟩, rfl,
        assert_ptr_ok _ _ rfl (by simp only; omega),
        Or.inr ⟨rfl, [], o1, blk1, i2, I3, ?_, ?_, ?_, rfl, rfl, hdi, h7, ?_⟩⟩
      · show some _ = some _
        simp only [List.length_nil]
        congr 1
        omega
      · show bj.take ([].length + 1 + blk1.length) = _
        have : ([] : List (List Nat)).length + 1 + blk1.length =
            blk.length + 1 + ([] : List (List Nat)).length := by
          simp only [List.length_nil]
          omega
        rw [this, h2, List.nil_append, ← hb]
      · intro x hx
        rw [List.nil_append, ← hb] at hx
        exact h3 x hx
      · rw [List.nil_append, ← hb, blockPairs_cons_inner]
        simp
    | nil =>
      have hie : (⟨ic, il, it, ip + 1⟩ : Child).is_end = true :=
        Child.is_end_of_drop_nil hdi
      rw [if_pos hie]
      cases hrest : ot.drop op with
      | nil =>
        have hoe : (⟨oc, olen, ot, op⟩ : Child).is_end = true := Child.is_end_of_drop_nil hrest
        rw [prefetch_end _ hL hoe]
        refine ⟨_, rfl, ⟨rfl, rfl, f3, f4, f5, rfl⟩, rfl,
          assert_ptr_ok _ _ rfl (by simp only; omega), Or.inl ⟨rfl, ?_⟩⟩
        simp [blockPairs_nil_inner, bnljPairs_nil, hrest]
      | cons o1 rest =>
        have hrl : rest.length + 1 + op = ot.length := by
          have := congrArg List.length hrest
          rw [List.length_drop, List.length_cons] at this
          omega
        obtain ⟨buffer1, g1, g2⟩ := prefetch_block
          ⟨⟨oc, olen, ot, op⟩, ⟨ic, il, it, ip + 1⟩, len1, ol, cols1, mr, fc, some i, bj, false, 0,
            some (blk.length + 1 + ([] : List (List Nat)).length)⟩
          hL o1 rest hrest hO _ rfl
        simp only at g1 g2
        rw [g1]
        simp only
        cases hI : it with
        | nil => rw [hI] at h6; simp at h6
        | cons i0 I1 =>
          have hin : (Child.beginTuple ⟨ic, il, i0 :: I1, ip + 1⟩).Next = Except.ok i0 := rfl
          rw [hin]
          simp only
          have hmin : min (BUFFER_JOIN_SIZE / ol) (rest.length + 1) =
              0 + 1 + (rest.take (BUFFER_JOIN_SIZE / ol - 1)).length := by
            rw [List.length_take]
            omega
          have htk : (o1 :: rest).take (BUFFER_JOIN_SIZE / ol) =
              o1 :: rest.take (BUFFER_JOIN_SIZE / ol - 1) := by
            obtain ⟨k1, hk1⟩ : ∃ k1, BUFFER_JOIN_SIZE / ol = k1 + 1 :=
              ⟨BUFFER_JOIN_SIZE / ol - 1, by omega⟩
            rw [hk1]
            rfl
          have hdrop : ot.drop (op + min (BUFFER_JOIN_SIZE / ol) (rest.length + 1)) =
              (o1 :: rest).drop (BUFFER_JOIN_SIZE / ol) := by
            rw [← List.drop_drop, hrest]
            by_cases hle : BUFFER_JOIN_SIZE / ol ≤ rest.length + 1
            · rw [Nat.min_eq_left hle]
            · rw [Nat.min_eq_right (by omega), List.drop_eq_nil_of_le (by simp),
                List.drop_eq_nil_of_le (by simp only [List.length_cons]; omega)]
          refine ⟨_, rfl, ⟨rfl, hI.symm ▸ rfl, f3, f4, f5, rfl⟩, rfl,
            assert_ptr_ok _ _ rfl (by simp only; omega), Or.inr ⟨rfl, [], o1,
            rest.take (BUFFER_JOIN_SIZE / ol - 1), i0, I1, ?_, ?_, ?_, rfl, rfl, ?_, ?_, ?_⟩⟩
          · show some _ = some _
            rw [hmin]
            rfl
          · show buffer1.take (0 + 1 + _) = o1 :: _
            rw [← hmin, ← htk]
            exact g2
          · intro x hx
            rw [List.nil_append, ← htk] at hx
            exact List.mem_of_mem_drop (n := op) (by
              rw [hrest]
              exact List.mem_of_mem_take hx)
          · show (i0 :: I1).drop 0 = _
            rfl
          · show op + _ ≤ (ot).length
            omega
          · show _ = _ ++ bnljPairs _ (i0 :: I1) ot.length (ot.drop (op + _))
            rw [hdrop, List.nil_append, ← htk, blockPairs_nil_inner]
            simp only [List.map_nil, List.nil_append, List.append_nil]
            rw [bnljPairs_cons _ hk _ _ o1 rest (by omega), blockPairs_cons_inner]

end BlockNestedLoopJoinExecutor

namespace BlockNestedLoopJoinExecutor

theorem at_nil_is_end {O I : List (List Nat)} {k : Nat} {ex : BlockNestedLoopJoinExecutor}
    (hat : BnljAt O I k ex []) : ex.is_end_ = true := by
  rcases hat with ⟨h, _⟩ | ⟨_, blk, o, blk2, i, I2, _, _, _, _, _, _, _, hR⟩
  · exact h
  · simp at hR

/-- The loop of `beginTuple` stops at the first of the remaining pairs that
satisfies the conditions. -/
theorem bnlj_begin_loop_spec {O I : List (List Nat)} {len Lo Li : Nat} {cols : List ColMeta}
    {conds : List Condition} (hO : ∀ o ∈ O, o.length = Lo) (hI : ∀ i ∈ I, i.length = Li)
    (hlen : len = Lo + Li) (hc : ∀ cond ∈ conds, CondOver cols cond) (hL : 0 < Lo)
    (hk : 0 < BUFFER_JOIN_SIZE / Lo) :
    ∀ (R : List (List Nat)) (ex : BlockNestedLoopJoinExecutor) (fuel : Nat),
      BnljOf O I len cols conds Lo ex → BnljAt O I (BUFFER_JOIN_SIZE / Lo) ex R →
      R.length < fuel →
      ∃ ex1, begin_loop fuel ex = Except.ok ex1 ∧ BnljOf O I len cols conds Lo ex1 ∧
        BnljAt O I (BUFFER_JOIN_SIZE / Lo) ex1 (R.dropWhile (fun x => !satisfies cols conds x)) ∧
        ∀ r1 R1, R.dropWhile (fun x => !satisfies cols conds x) = r1 :: R1 →
          ex1.merged_rec = some r1 := by
  intro R
  induction R with
  | nil =>
    intro ex fuel hof hat hf
    obtain ⟨f, rfl⟩ : ∃ f, fuel = f + 1 := ⟨fuel - 1, by simp at hf; omega⟩
    rw [begin_loop]
    simp only [is_end, at_nil_is_end hat, if_true]
    refine ⟨ex, rfl, hof, hat, ?_⟩
    intro r1 R1 h
    cases h
  | cons r R ih =>
    intro ex fuel hof hat hf
    obtain ⟨f, rfl⟩ : ∃ f, fuel = f + 1 := ⟨fuel - 1, by simp at hf; omega⟩
    obtain ⟨h1, _, h3, h4⟩ := bnlj_merge_at hO hI hlen hc ex hof r R hat
    have hie : ex.is_end = false := h1
    rw [begin_loop, if_neg (by rw [hie]; simp), h3]
    simp only
    rw [h4]
    cases hs : satisfies cols conds r with
    | true =>
      simp only
      rw [dropWhile_not_head (satisfies cols conds) r R hs]
      refine ⟨_, rfl, hof, hat, ?_⟩
      intro r1 R1 h
      cases h
      rfl
    | false =>
      simp only
      obtain ⟨ex2, g1, g2, _, _, g5⟩ := advance_spec hO hL hk { ex with merged_rec := some r }
        hof r R hat
      rw [g1]
      simp only
      rw [dropWhile_not_tail (satisfies cols conds) r R hs]
      exact ih ex2 f g2 g5 (by simp at hf; omega)

/-- The loop of `nextTuple` stops at the next pair that satisfies the
conditions. -/
theorem bnlj_next_loop_spec {O I : List (List Nat)} {len Lo Li : Nat} {cols : List ColMeta}
    {conds : List Condition} (hO : ∀ o ∈ O, o.length = Lo) (hI : ∀ i ∈ I, i.length = Li)
    (hlen : len = Lo + Li) (hc : ∀ cond ∈ conds, CondOver cols cond) (hL : 0 < Lo)
    (hk : 0 < BUFFER_JOIN_SIZE / Lo) :
    ∀ (R : List (List Nat)) (ex : BlockNestedLoopJoinExecutor) (fuel : Nat) (r : List Nat),
      BnljOf O I len cols conds Lo ex → BnljAt O I (BUFFER_JOIN_SIZE / Lo) ex (r :: R) →
      R.length < fuel →
      ∃ ex1, next_loop fuel ex = Except.ok ex1 ∧ BnljOf O I len cols conds Lo ex1 ∧
        BnljAt O I (BUFFER_JOIN_SIZE / Lo) ex1 (R.dropWhile (fun x => !satisfies cols conds x)) ∧
        ∀ r1 R1, R.dropWhile (fun x => !satisfies cols conds x) = r1 :: R1 →
          ex1.merged_rec = some r1 := by
  intro R
  induction R with
  | nil =>
    intro ex fuel r hof hat hf
    obtain ⟨f, rfl⟩ : ∃ f, fuel = f + 1 := ⟨fuel - 1, by simp at hf; omega⟩
    obtain ⟨h1, h2, _, _⟩ := bnlj_merge_at hO hI hlen hc ex hof r [] hat
    obtain ⟨ex1, g1, g2, _, g4, g5⟩ := advance_spec hO hL hk ex hof r [] hat
    have hie : ex.is_end = false := h1
    have hie1 : ex1.is_end = true := at_nil_is_end g5
    rw [next_loop, if_neg (by rw [hie]; simp), if_neg (by rw [h2]; simp), g1]
    simp only
    rw [g4]
    simp only
    rw [if_pos hie1]
    refine ⟨ex1, rfl, g2, g5, ?_⟩
    intro r1 R1 h
    cases h
  | cons r1 R1 ih =>
    intro ex fuel r hof hat hf
    obtain ⟨f, rfl⟩ : ∃ f, fuel = f + 1 := ⟨fuel - 1, by simp at hf; omega⟩
    obtain ⟨h1, h2, _, _⟩ := bnlj_merge_at hO hI hlen hc ex hof r (r1 :: R1) hat
    obtain ⟨ex1, g1, g2, _, g4, g5⟩ := advance_spec hO hL hk ex hof r (r1 :: R1) hat
    obtain ⟨k1, _, _, k4⟩ := bnlj_merge_at hO hI hlen hc ex1 g2 r1 R1 g5
    have hie : ex.is_end = false := h1
    have hie1 : ex1.is_end = false := k1
    rw [next_loop, if_neg (by rw [hie]; simp), if_neg (by rw [h2]; simp), g1]
    simp only
    rw [g4]
    simp only
    rw [if_neg (by rw [hie1]; simp), k4]
    cases hs : satisfies cols conds r1 with
    | true =>
      simp only
      rw [dropWhile_not_head (satisfies cols conds) r1 R1 hs]
      refine ⟨_, rfl, g2, g5, ?_⟩
      intro r2 R2 h
      cases h
      rfl
    | false =>
      simp only
      rw [dropWhile_not_tail (satisfies cols conds) r1 R1 hs]
      exact ih { ex1 with merged_rec := some r1 } f r1 g2 g5 (by simp at hf; omega)

/-- `beginTuple` after construction stops at the first pair that satisfies
the conditions. -/
theorem bnlj_beginTuple_spec (left right : Child) (conds : List Condition)
    (hO : ∀ o ∈ left.tuples, o.length = left.len) (hI : ∀ i ∈ right.tuples, i.length = right.len)
    (hc : ∀ cond ∈ conds, CondOver (join_cols left right) cond) (hL : 0 < left.len)
    (hk : 0 < BUFFER_JOIN_SIZE / left.len) :
    ∃ ex1, (create left right conds).beginTuple = Except.ok ex1 ∧
      BnljOf left.tuples right.tuples (left.len + right.len) (join_cols left right) conds
        left.len ex1 ∧
      BnljAt left.tuples right.tuples (BUFFER_JOIN_SIZE / left.len) ex1
        ((bnljPairs (BUFFER_JOIN_SIZE / left.len) right.tuples left.tuples.length
          left.tuples).dropWhile (fun x => !satisfies (join_cols left right) conds x)) ∧
      ∀ r1 R1, (bnljPairs (BUFFER_JOIN_SIZE / left.len) right.tuples left.tuples.length
          left.tuples).dropWhile (fun x => !satisfies (join_cols left right) conds x) =
            r1 :: R1 → ex1.merged_rec = some r1 := by
  obtain ⟨oc, olen, ot, op⟩ := left
  obtain ⟨ic, il, it, ip⟩ := right
  simp only at hO hI hL hk
  unfold beginTuple create
  simp only [Child.beginTuple]
  cases ot with
  | nil =>
    have hp := prefetch_end ⟨⟨oc, olen, [], 0⟩, ⟨ic, il, it, ip⟩, olen + il, olen,
      join_cols ⟨oc, olen, [], op⟩ ⟨ic, il, it, ip⟩, none, conds, none, [], false, 0, none⟩ hL
      (by simp [Child.is_end])
    rw [hp]
    simp only [Bool.not_false]
    cases it with
    | nil =>
      have he : (⟨ic, il, [], 0⟩ : Child).is_end = true := by simp [Child.is_end]
      rw [if_pos he]
      refine ⟨_, rfl, ⟨rfl, rfl, rfl, rfl, rfl, rfl⟩, Or.inl ⟨rfl, rfl⟩, ?_⟩
      intro r1 R1 h
      cases h
    | cons i0 I1 =>
      rw [if_neg (by simp [Child.is_end])]
      have hn : (⟨ic, il, i0 :: I1, 0⟩ : Child).Next = Except.ok i0 := rfl
      rw [hn]
      simp only [List.length_nil, Nat.zero_mul, Nat.zero_add]
      rw [begin_loop]
      simp only [is_end, if_true]
      refine ⟨_, rfl, ⟨rfl, rfl, rfl, rfl, rfl, rfl⟩, Or.inl ⟨rfl, rfl⟩, ?_⟩
      intro r1 R1 h
      cases h
  | cons o1 rest =>
    obtain ⟨buffer1, g1, g2⟩ := prefetch_block
      ⟨⟨oc, olen, o1 :: rest, 0⟩, ⟨ic, il, it, ip⟩, olen + il, olen,
        join_cols ⟨oc, olen, o1 :: rest, op⟩ ⟨ic, il, it, ip⟩, none, conds, none, [], false, 0,
        none⟩ hL o1 rest rfl hO _ rfl
    simp only at g1 g2
    rw [g1]
    simp only [Bool.not_true]
    cases it with
    | nil =>
      have he : (⟨ic, il, [], 0⟩ : Child).is_end = true := by simp [Child.is_end]
      rw [if_pos he]
      rw [bnljPairs_empty_inner]
      refine ⟨_, rfl, ⟨rfl, rfl, rfl, rfl, rfl, rfl⟩, Or.inl ⟨rfl, rfl⟩, ?_⟩
      intro r1 R1 h
      cases h
    | cons i0 I1 =>
      rw [if_neg (by simp [Child.is_end])]
      have hn : (⟨ic, il, i0 :: I1, 0⟩ : Child).Next = Except.ok i0 := rfl
      rw [hn]
      simp only
      have hmin : min (BUFFER_JOIN_SIZE / olen) (rest.length + 1) =
          0 + 1 + (rest.take (BUFFER_JOIN_SIZE / olen - 1)).length := by
        rw [List.length_take]
        omega
      have htk : (o1 :: rest).take (BUFFER_JOIN_SIZE / olen) =
          o1 :: rest.take (BUFFER_JOIN_SIZE / olen - 1) := by
        obtain ⟨k1, hk1⟩ : ∃ k1, BUFFER_JOIN_SIZE / olen = k1 + 1 :=
          ⟨BUFFER_JOIN_SIZE / olen - 1, by omega⟩
        rw [hk1]
        rfl
      have hdrop : (o1 :: rest).drop (0 + min (BUFFER_JOIN_SIZE / olen) (rest.length + 1)) =
          (o1 :: rest).drop (BUFFER_JOIN_SIZE / olen) := by
        rw [Nat.zero_add]
        by_cases hle : BUFFER_JOIN_SIZE / olen ≤ rest.length + 1
        · rw [Nat.min_eq_left hle]
        · rw [Nat.min_eq_right (by omega), List.drop_eq_nil_of_le (by simp),
            List.drop_eq_nil_of_le (by simp only [List.length_cons]; omega)]
      refine bnlj_begin_loop_spec hO hI rfl hc hL hk _ _ _ ⟨rfl, rfl, rfl, rfl, rfl, rfl⟩
        (Or.inr ⟨rfl, [], o1, rest.take (BUFFER_JOIN_SIZE / olen - 1), i0, I1,
          ?_, ?_, ?_, rfl, rfl, rfl, ?_, ?_⟩) ?_
      · show some _ = some _
        rw [hmin]
        rfl
      · show buffer1.take (0 + 1 + _) = o1 :: _
        rw [← hmin, ← htk]
        exact g2
      · intro x hx
        rw [List.nil_append, ← htk] at hx
        exact List.mem_of_mem_take hx
      · show 0 + _ ≤ (o1 :: rest).length
        simp only [List.length_cons]
        omega
      · show _ = _ ++ bnljPairs _ (i0 :: I1) (o1 :: rest).length ((o1 :: rest).drop (0 + _))
        rw [hdrop, List.nil_append, ← htk,
          bnljPairs_cons _ hk _ _ o1 rest (by simp), blockPairs_cons_inner]
      · rw [length_bnljPairs _ hk _ _ _ _ rfl (le_refl _)]
        omega

end BlockNestedLoopJoinExecutor

theorem flatMap_cons_perm {α β : Type} (f : α → β) (g : α → List β) (l : List α) :
    (l.flatMap (fun a => f a :: g a)).Perm (l.map f ++ l.flatMap g) := by
  induction l with
  | nil => exact List.Perm.refl _
  | cons a t ih =>
    simp only [List.flatMap_cons, List.map_cons, List.cons_append]
    refine List.Perm.cons _ ?_
    refine (List.Perm.append_left _ ih).trans ?_
    rw [← List.append_assoc, ← List.append_assoc]
    exact List.Perm.append_right _ List.perm_append_comm

/-- The pairs of a block, inner tuple by inner tuple, are a permutation of
its pairs outer tuple by outer tuple. -/
theorem blockPairs_perm (block inner : List (List Nat)) :
    (blockPairs block inner).Perm (nljPairs block inner) := by
  induction block with
  | nil =>
    have : blockPairs [] inner = [] := by
      unfold blockPairs
      induction inner with
      | nil => rfl
      | cons i I2 ih => simp [List.flatMap_cons]
    rw [this]
    exact List.Perm.refl _
  | cons o blk ih =>
    rw [nljPairs_cons]
    have h := flatMap_cons_perm (fun i => o ++ i) (fun i => blk.map (fun x => x ++ i)) inner
    exact h.trans (List.Perm.append_left _ ih)

theorem nljPairs_append (A B I : List (List Nat)) :
    nljPairs (A ++ B) I = nljPairs A I ++ nljPairs B I := by
  unfold nljPairs
  rw [List.flatMap_append]

/-- The pairs of a block nested-loop join are a permutation of the pairs of
a nested-loop join. -/
theorem bnljPairs_perm (k : Nat) (hk : 0 < k) (inner : List (List Nat)) :
    ∀ (n : Nat) (rest : List (List Nat)) (fuel : Nat), rest.length = n → n ≤ fuel →
      (bnljPairs k inner fuel rest).Perm (nljPairs rest inner) := by
  intro n
  induction n using Nat.strong_induction_on with
  | _ n ih =>
    intro rest fuel hn hf
    cases rest with
    | nil => rw [bnljPairs_nil]; exact List.Perm.refl _
    | cons o rest =>
      simp only [List.length_cons] at hn
      rw [bnljPairs_cons k hk inner fuel o rest (by omega)]
      have hl : ((o :: rest).drop k).length < n := by
        rw [List.length_drop, List.length_cons]; omega
      have h1 := ih _ hl ((o :: rest).drop k) fuel rfl (by omega)
      have h2 := blockPairs_perm ((o :: rest).take k) inner
      have h3 := nljPairs_append ((o :: rest).take k) ((o :: rest).drop k) inner
      rw [List.take_append_drop] at h3
      rw [h3]
      exact List.Perm.append h2 h1

theorem bnljPairs_one_block (k : Nat) (inner rest : List (List Nat)) (h : rest.length ≤ k) :
    bnljPairs k inner rest.length rest = blockPairs rest inner := by
  cases rest with
  | nil =>
    rw [bnljPairs_nil]
    unfold blockPairs
    induction inner with
    | nil => rfl
    | cons i I2 ih => simp [List.flatMap_cons]
  | cons o rest =>
    simp only [List.length_cons] at h ⊢
    rw [bnljPairs, List.take_of_length_le (by simp only [List.length_cons]; omega),
      List.drop_eq_nil_of_le (by simp only [List.length_cons]; omega), bnljPairs_nil,
      List.append_nil]

namespace BlockNestedLoopJoinExecutor

/-- The run of a block nested-loop join: the pairs that satisfy the
conditions, block by block and in a block inner tuple by inner tuple. -/
theorem bnlj_run_spec (left right : Child) (conds : List Condition) (fuel : Nat)
    (hO : ∀ o ∈ left.tuples, o.length = left.len) (hI : ∀ i ∈ right.tuples, i.length = right.len)
    (hc : ∀ cond ∈ conds, CondOver (join_cols left right) cond) (hL : 0 < left.len)
    (hk : 0 < BUFFER_JOIN_SIZE / left.len)
    (hf : left.tuples.length * right.tuples.length < fuel) :
    (create left right conds).run fuel = Except.ok
      ((bnljPairs (BUFFER_JOIN_SIZE / left.len) right.tuples left.tuples.length
        left.tuples).filter (satisfies (join_cols left right) conds)) := by
  obtain ⟨ex1, h1, h2, h3, h4⟩ := bnlj_beginTuple_spec left right conds hO hI hc hL hk
  have hlenR := length_bnljPairs (BUFFER_JOIN_SIZE / left.len) hk right.tuples _ left.tuples
    left.tuples.length rfl (le_refl _)
  have hrun := drainExecutor_filter is_end Next nextTuple
    (fun s R => BnljOf left.tuples right.tuples (left.len + right.len) (join_cols left right)
        conds left.len s ∧
      BnljAt left.tuples right.tuples (BUFFER_JOIN_SIZE / left.len) s R ∧
      R.length ≤ left.tuples.length * right.tuples.length ∧
      ∀ r R1, R = r :: R1 → s.merged_rec = some r ∧
        satisfies (join_cols left right) conds r = true)
    (satisfies (join_cols left right) conds)
    (by
      rintro s ⟨_, hat, _⟩
      exact at_nil_is_end hat)
    (by
      rintro s r R ⟨k1, k2, k3, k4⟩
      obtain ⟨hm, hs⟩ := k4 r R rfl
      obtain ⟨he, _, _, _⟩ := bnlj_merge_at hO hI rfl hc s k1 r R k2
      simp only [List.length_cons] at k3
      obtain ⟨s1, g1, g2, g3, g4⟩ := bnlj_next_loop_spec hO hI rfl hc hL hk R s
        (left.tuples.length * right.tuples.length + 1) r k1 k2 (by omega)
      have hle := length_dropWhile_le (fun x => !satisfies (join_cols left right) conds x) R
      refine ⟨he, by simp [Next, hm], hs, s1, ?_, g2, g3, by omega, ?_⟩
      · unfold nextTuple
        rw [k1.1, k1.2.1]
        exact g1
      · intro r1 R1 hd
        exact ⟨g4 r1 R1 hd, (dropWhile_not_cons _ _ _ _ hd).1⟩)
    _ ex1 _ fuel rfl
    ⟨h2, h3, by
      have := length_dropWhile_le (fun x => !satisfies (join_cols left right) conds x)
        (bnljPairs (BUFFER_JOIN_SIZE / left.len) right.tuples left.tuples.length left.tuples)
      rw [hlenR] at this
      exact this, fun r R1 hd => ⟨h4 r R1 hd, (dropWhile_not_cons _ _ _ _ hd).1⟩⟩
    (by
      have := length_dropWhile_le (fun x => !satisfies (join_cols left right) conds x)
        (bnljPairs (BUFFER_JOIN_SIZE / left.len) right.tuples left.tuples.length left.tuples)
      rw [hlenR] at this
      omega)
  unfold run
  rw [h1]
  simp only
  rw [hrun, ← filter_dropWhile_not]

end BlockNestedLoopJoinExecutor

namespace NestedLoopJoinExecutor

/-- The merged record at a pair of cursors whose records were not handed
out before. -/
theorem nlj_merge_now_fresh {O I : List (List Nat)} {len Lo Li : Nat} {cols : List ColMeta}
    {conds : List Condition} (hO : ∀ o ∈ O, o.length = Lo) (hI : ∀ i ∈ I, i.length = Li)
    (hlen : len = Lo + Li) (hc : ∀ cond ∈ conds, CondOver cols cond)
    (ex : NestedLoopJoinExecutor) (hof : NljOf O I len cols conds ex)
    (o i : List Nat) (O2 I2 : List (List Nat))
    (ho : O.drop ex.outer_.child.pos = o :: O2) (hi : I.drop ex.inner_.child.pos = i :: I2)
    (hmo : ex.outer_.moved = false) (hmi : ex.inner_.moved = false) :
    ex.merge_now = Except.ok (⟨⟨ex.outer_.child, true⟩, ⟨ex.inner_.child, true⟩, ex.len_,
        ex.cols_, some (o ++ i), ex.fed_conds_⟩, satisfies cols conds (o ++ i)) := by
  obtain ⟨h1, h2, h3, h4, h5⟩ := hof
  have hom : o ∈ O := List.mem_of_mem_drop (by rw [ho]; simp)
  have him : i ∈ I := List.mem_of_mem_drop (by rw [hi]; simp)
  rw [← h1] at ho
  rw [← h2] at hi
  unfold merge_now MovingChild.Next
  rw [(Child.Next_of_drop ho).2.1, (Child.Next_of_drop hi).2.1, hmo, hmi]
  simp only [Bool.false_eq_true, if_false]
  rw [h3, merge_record_append len o i (by rw [hO o hom, hI i him, hlen])]
  simp only
  rw [h4, h5, eval_conds_satisfies hc]

/-- The second `outer_->Next()` at a position returns a null pointer, which
`merge_record` reads through. -/
theorem nlj_merge_now_moved (ex : NestedLoopJoinExecutor) (o i : List Nat)
    (O2 I2 : List (List Nat))
    (ho : ex.outer_.child.tuples.drop ex.outer_.child.pos = o :: O2)
    (hi : ex.inner_.child.tuples.drop ex.inner_.child.pos = i :: I2)
    (hmo : ex.outer_.moved = true) :
    ex.merge_now = Except.error ExecError.Undefined := by
  unfold merge_now MovingChild.Next
  rw [(Child.Next_of_drop ho).2.1, (Child.Next_of_drop hi).2.1, hmo]
  simp only [if_true]
  cases ex.inner_.moved <;> rfl

/-- A nested-loop join over a non-empty outer child and an inner child of
two or more tuples fails: after the first pair the inner cursor moves on and
`outer_->Next()` is called again at the same outer position. -/
theorem nlj_run_fails (left right : Child) (conds : List Condition) (fuel : Nat)
    (hO : ∀ o ∈ left.tuples, o.length = left.len) (hI : ∀ i ∈ right.tuples, i.length = right.len)
    (hc : ∀ cond ∈ conds, CondOver (join_cols left right) cond)
    (ho : left.tuples ≠ []) (hi : 2 ≤ right.tuples.length) (hf : 0 < fuel) :
    (create left right conds).run fuel = Except.error ExecError.Undefined := by
  obtain ⟨lc, ll, lt, lp⟩ := left
  obtain ⟨rc, rl, rt, rp⟩ := right
  simp only at hO hI ho hi
  obtain ⟨o, O2, rfl⟩ : ∃ o O2, lt = o :: O2 := by
    cases lt with
    | nil => exact absurd rfl ho
    | cons a t => exact ⟨a, t, rfl⟩
  obtain ⟨i1, i2, I2, rfl⟩ : ∃ i1 i2 I2, rt = i1 :: i2 :: I2 := by
    cases rt with
    | nil => simp at hi
    | cons a t =>
      cases t with
      | nil => simp at hi
      | cons b t => exact ⟨a, b, t, rfl⟩
  obtain ⟨f, rfl⟩ : ∃ f, fuel = f + 1 := ⟨fuel - 1, by omega⟩
  have hof : ∀ (po pi : Nat) (mo mi : Bool) (m : Option (List Nat)),
      NljOf (o :: O2) (i1 :: i2 :: I2) (ll + rl)
        (join_cols ⟨lc, ll, o :: O2, lp⟩ ⟨rc, rl, i1 :: i2 :: I2, rp⟩) conds
        ⟨⟨⟨lc, ll, o :: O2, po⟩, mo⟩, ⟨⟨rc, rl, i1 :: i2 :: I2, pi⟩, mi⟩, ll + rl,
          join_cols ⟨lc, ll, o :: O2, lp⟩ ⟨rc, rl, i1 :: i2 :: I2, rp⟩, m, conds⟩ :=
    fun _ _ _ _ _ => ⟨rfl, rfl, rfl, rfl, rfl⟩
  have hfresh := nlj_merge_now_fresh hO hI rfl hc _ (hof 0 0 false false none)
    o i1 O2 (i2 :: I2) rfl rfl rfl rfl
  have hmoved : ∀ (m : Option (List Nat)) (mi : Bool),
      merge_now ⟨⟨⟨lc, ll, o :: O2, 0⟩, true⟩, ⟨⟨rc, rl, i1 :: i2 :: I2, 1⟩, mi⟩, ll + rl,
          join_cols ⟨lc, ll, o :: O2, lp⟩ ⟨rc, rl, i1 :: i2 :: I2, rp⟩, m, conds⟩ =
        Except.error ExecError.Undefined :=
    fun m mi => nlj_merge_now_moved _ o i2 O2 I2 rfl rfl rfl
  unfold run beginTuple create
  simp only [MovingChild.beginTuple, Child.beginTuple, List.length_cons]
  rw [begin_loop]
  simp only [is_end, MovingChild.is_end, Child.is_end, List.length_cons, MovingChild.beginTuple,
    Child.beginTuple]
  rw [if_neg (by simp)]
  rw [begin_inner_loop]
  simp only [MovingChild.is_end, Child.is_end, List.length_cons]
  rw [if_neg (by simp)]
  rw [hfresh]
  cases hs : satisfies (join_cols ⟨lc, ll, o :: O2, lp⟩ ⟨rc, rl, i1 :: i2 :: I2, rp⟩) conds
      (o ++ i1) with
  | false =>
    have h0 : decide (I2.length + 1 + 1 ≤ 0) = false := by simp
    have h1 : decide (I2.length + 1 + 1 ≤ 1) = false := by simp
    simp only [MovingChild.nextTuple, Child.nextTuple, Child.is_end, List.length_cons, h0,
      Bool.false_eq_true, if_false, Nat.zero_add]
    rw [begin_inner_loop]
    simp only [MovingChild.is_end, Child.is_end, List.length_cons, h1, Bool.false_eq_true,
      if_false]
    rw [hmoved]
  | true =>
    have h0 : decide (I2.length + 1 + 1 ≤ 0) = false := by simp
    have h1 : decide (I2.length + 1 + 1 ≤ 1) = false := by simp
    have h2 : decide (O2.length + 1 ≤ 0) = false := by simp
    simp only
    rw [drainExecutor]
    simp only [is_end, MovingChild.is_end, Child.is_end, List.length_cons, h2,
      Bool.false_eq_true, if_false, Next]
    unfold nextTuple
    simp only [List.length_cons]
    rw [next_loop]
    simp only [is_end, MovingChild.is_end, Child.is_end, List.length_cons, h2,
      Bool.false_eq_true, if_false, move_next, MovingChild.nextTuple, Child.nextTuple, h0, h1,
      Nat.zero_add]
    rw [hmoved]

end NestedLoopJoinExecutor

theorem nljPairs_nil_inner (O : List (List Nat)) : nljPairs O [] = [] := by
  unfold nljPairs
  induction O with
  | nil => rfl
  | cons o O ih => rw [List.flatMap_cons, ih]; rfl

theorem nljPairs_single_inner (O : List (List Nat)) (i : List Nat) :
    nljPairs O [i] = O.map (fun o => o ++ i) := by
  unfold nljPairs
  induction O with
  | nil => rfl
  | cons o O ih => rw [List.flatMap_cons, ih]; rfl

namespace NestedLoopJoinExecutor

/-- With an empty inner child the loop of `beginTuple` runs to the end of
the outer child. -/
theorem begin_loop_empty_inner : ∀ (rest : List (List Nat)) (ex : NestedLoopJoinExecutor)
    (fuel : Nat), ex.inner_.child.tuples = [] →
    ex.outer_.child.tuples.drop ex.outer_.child.pos = rest → rest.length < fuel →
    ∃ ex1, begin_loop fuel ex = Except.ok ex1 ∧ ex1.is_end = true := by
  intro rest
  induction rest with
  | nil =>
    intro ex fuel hI hd hf
    obtain ⟨f, rfl⟩ : ∃ f, fuel = f + 1 := ⟨fuel - 1, by omega⟩
    have he : ex.is_end = true := Child.is_end_of_drop_nil hd
    rw [begin_loop]
    simp only [he, if_true]
    exact ⟨_, rfl, he⟩
  | cons o rest ih =>
    intro ex fuel hI hd hf
    obtain ⟨f, rfl⟩ : ∃ f, fuel = f + 1 := ⟨fuel - 1, by omega⟩
    obtain ⟨he, _, hnt, hd2⟩ := Child.Next_of_drop hd
    have he' : ex.is_end = false := he
    rw [begin_loop]
    simp only [he', Bool.false_eq_true, if_false, MovingChild.beginTuple, Child.beginTuple, hI,
      List.length_nil, Nat.zero_add]
    rw [begin_inner_loop]
    simp only [MovingChild.is_end, Child.is_end, hI, List.length_nil, Nat.zero_le, decide_True,
      if_true, MovingChild.nextTuple, hnt]
    exact ih _ f rfl hd2 (by simp at hf; omega)

theorem nlj_run_empty_inner (left right : Child) (conds : List Condition) (fuel : Nat)
    (hI : right.tuples = []) (hf : 0 < fuel) :
    (create left right conds).run fuel = Except.ok [] := by
  obtain ⟨ex1, h1, h2⟩ := begin_loop_empty_inner (left.tuples.drop 0)
    { create left right conds with outer_ := (create left right conds).outer_.beginTuple }
    (left.tuples.length + 1) hI rfl (by simp)
  obtain ⟨f, rfl⟩ : ∃ f, fuel = f + 1 := ⟨fuel - 1, by omega⟩
  unfold run beginTuple
  have : (create left right conds).outer_.child.tuples.length = left.tuples.length := rfl
  rw [this, h1]
  simp only
  rw [drainExecutor, if_pos h2]

theorem begin_loop_single {O : List (List Nat)} {i : List Nat} {len Lo Li : Nat}
    {cols : List ColMeta} {conds : List Condition} (hO : ∀ o ∈ O, o.length = Lo)
    (hI : ∀ x ∈ [i], x.length = Li) (hlen : len = Lo + Li)
    (hc : ∀ cond ∈ conds, CondOver cols cond) :
    ∀ (rest : List (List Nat)) (ex : NestedLoopJoinExecutor) (fuel : Nat),
      NljOf O [i] len cols conds ex → O.drop ex.outer_.child.pos = rest →
      ex.outer_.moved = false → rest.length < fuel →
      ∃ ex1, begin_loop fuel ex = Except.ok ex1 ∧ NljOf O [i] len cols conds ex1 ∧
        SingleAt O i (satisfies cols conds) ex1
          ((rest.map (fun x => x ++ i)).dropWhile (fun x => !satisfies cols conds x)) := by
  intro rest
  induction rest with
  | nil =>
    intro ex fuel hof hd hm hf
    obtain ⟨f, rfl⟩ : ∃ f, fuel = f + 1 := ⟨fuel - 1, by omega⟩
    have he : ex.is_end = true := Child.is_end_of_drop_nil (by rw [hof.1]; exact hd)
    rw [begin_loop]
    simp only [he, if_true]
    exact ⟨_, rfl, ⟨hof.1, hof.2.1, hof.2.2.1, hof.2.2.2.1, hof.2.2.2.2⟩, Or.inl ⟨he, rfl⟩⟩
  | cons o rest ih =>
    intro ex fuel hof hd hm hf
    obtain ⟨f, rfl⟩ : ∃ f, fuel = f + 1 := ⟨fuel - 1, by omega⟩
    have hd' : ex.outer_.child.tuples.drop ex.outer_.child.pos = o :: rest := by
      rw [hof.1]; exact hd
    obtain ⟨he, _, hnt, hd2⟩ := Child.Next_of_drop hd'
    have he' : ex.is_end = false := he
    obtain ⟨e1, e2, e3, e4, e5, e6⟩ := ex
    obtain ⟨⟨c1, c2, c3, c4⟩, c5⟩ := e1
    obtain ⟨⟨d1, d2, d3, d4⟩, d5⟩ := e2
    obtain ⟨k1, k2, k3, k4, k5⟩ := hof
    simp only at k1 k2 k3 k4 k5 hm hd hd' hnt hd2
    subst k1 k2 k3 k4 k5 hm
    have hfresh := nlj_merge_now_fresh hO hI hlen hc
      ⟨⟨⟨c1, c2, c3, c4⟩, false⟩, ⟨⟨d1, d2, [i], 0⟩, false⟩, e3, e4, e5, e6⟩
      ⟨rfl, rfl, rfl, rfl, rfl⟩ o i rest [] hd rfl rfl rfl
    rw [begin_loop]
    simp only [he', Bool.false_eq_true, if_false, MovingChild.beginTuple, Child.beginTuple,
      List.length_singleton]
    rw [begin_inner_loop]
    simp only [MovingChild.is_end, Child.is_end, List.length_singleton]
    have h10 : decide (1 ≤ 0) = false := by decide
    simp only [h10, Bool.false_eq_true, if_false]
    rw [hfresh]
    cases hs : satisfies e4 e6 (o ++ i) with
    | true =>
      simp only
      refine ⟨_, rfl, ⟨rfl, rfl, rfl, rfl, rfl⟩, Or.inr ⟨o, rest, hd, ?_, rfl, hs, rfl⟩⟩
      rw [List.map_cons]
      exact dropWhile_not_head (satisfies e4 e6) _ _ hs
    | false =>
      simp only [MovingChild.nextTuple, Child.nextTuple, Child.is_end, List.length_singleton, h10,
        Bool.false_eq_true, if_false, Nat.zero_add]
      rw [begin_inner_loop]
      simp only [MovingChild.is_end, Child.is_end, List.length_singleton, le_refl, decide_True,
        if_true]
      have hnt' : (if decide (c3.length ≤ c4) = true then
          (Except.error ExecError.AssertionFailed : Except ExecError Child)
          else Except.ok ⟨c1, c2, c3, c4 + 1⟩) = Except.ok ⟨c1, c2, c3, c4 + 1⟩ := hnt
      rw [hnt']
      simp only
      obtain ⟨ex1, g1, g2, g3⟩ := ih
        ⟨⟨⟨c1, c2, c3, c4 + 1⟩, false⟩, ⟨⟨d1, d2, [i], 0⟩, false⟩, e3, e4, some (o ++ i), e6⟩
        f ⟨rfl, rfl, rfl, rfl, rfl⟩ hd2 rfl (by simp at hf; omega)
      refine ⟨ex1, g1, g2, ?_⟩
      rw [List.map_cons, dropWhile_not_tail (satisfies e4 e6) _ _ hs]
      exact g3

theorem next_loop_single {O : List (List Nat)} {i : List Nat} {len Lo Li : Nat}
    {cols : List ColMeta} {conds : List Condition} (hO : ∀ o ∈ O, o.length = Lo)
    (hI : ∀ x ∈ [i], x.length = Li) (hlen : len = Lo + Li)
    (hc : ∀ cond ∈ conds, CondOver cols cond) :
    ∀ (rest : List (List Nat)) (ex : NestedLoopJoinExecutor) (fuel : Nat) (o : List Nat),
      NljOf O [i] len cols conds ex → O.drop ex.outer_.child.pos = o :: rest →
      ex.inner_.child.pos = 0 → rest.length < fuel →
      ∃ ex1, next_loop fuel ex = Except.ok ex1 ∧ NljOf O [i] len cols conds ex1 ∧
        SingleAt O i (satisfies cols conds) ex1
          ((rest.map (fun x => x ++ i)).dropWhile (fun x => !satisfies cols conds x)) := by
  intro rest
  induction rest with
  | nil =>
    intro ex fuel o hof hd hp hf
    obtain ⟨f, rfl⟩ : ∃ f, fuel = f + 1 := ⟨fuel - 1, by omega⟩
    have hd' : ex.outer_.child.tuples.drop ex.outer_.child.pos = [o] := by
      rw [hof.1]; exact hd
    obtain ⟨he, _, hnt, hd2⟩ := Child.Next_of_drop hd'
    have he' : ex.is_end = false := he
    obtain ⟨e1, e2, e3, e4, e5, e6⟩ := ex
    obtain ⟨⟨c1, c2, c3, c4⟩, c5⟩ := e1
    obtain ⟨⟨d1, d2, d3, d4⟩, d5⟩ := e2
    obtain ⟨k1, k2, k3, k4, k5⟩ := hof
    simp only at k1 k2 k3 k4 k5 hp hd hd' hnt hd2
    subst k1 k2 k3 k4 k5 hp
    have hend : Child.is_end ⟨c1, c2, c3, c4 + 1⟩ = true := Child.is_end_of_drop_nil hd2
    have h10 : decide (1 ≤ 0) = false := by decide
    rw [next_loop]
    simp only [he', Bool.false_eq_true, if_false, move_next, MovingChild.nextTuple,
      Child.nextTuple, Child.is_end, List.length_singleton, h10, Nat.zero_add, MovingChild.is_end,
      le_refl, decide_True, if_true]
    have hnt' : (if decide (c3.length ≤ c4) = true then
        (Except.error ExecError.AssertionFailed : Except ExecError Child)
        else Except.ok ⟨c1, c2, c3, c4 + 1⟩) = Except.ok ⟨c1, c2, c3, c4 + 1⟩ := hnt
    rw [hnt']
    simp only [is_end, MovingChild.is_end, hend, if_true]
    exact ⟨_, rfl, ⟨rfl, rfl, rfl, rfl, rfl⟩, Or.inl ⟨hend, rfl⟩⟩
  | cons o1 rest ih =>
    intro ex fuel o hof hd hp hf
    obtain ⟨f, rfl⟩ : ∃ f, fuel = f + 1 := ⟨fuel - 1, by omega⟩
    have hd' : ex.outer_.child.tuples.drop ex.outer_.child.pos = o :: o1 :: rest := by
      rw [hof.1]; exact hd
    obtain ⟨he, _, hnt, hd2⟩ := Child.Next_of_drop hd'
    have he' : ex.is_end = false := he
    obtain ⟨e1, e2, e3, e4, e5, e6⟩ := ex
    obtain ⟨⟨c1, c2, c3, c4⟩, c5⟩ := e1
    obtain ⟨⟨d1, d2, d3, d4⟩, d5⟩ := e2
    obtain ⟨k1, k2, k3, k4, k5⟩ := hof
    simp only at k1 k2 k3 k4 k5 hp hd hd' hnt hd2
    subst k1 k2 k3 k4 k5 hp
    have hne : Child.is_end ⟨c1, c2, c3, c4 + 1⟩ = false := (Child.Next_of_drop hd2).1
    have h10 : decide (1 ≤ 0) = false := by decide
    have hfresh := nlj_merge_now_fresh hO hI hlen hc
      ⟨⟨⟨c1, c2, c3, c4 + 1⟩, false⟩, ⟨⟨d1, d2, [i], 0⟩, false⟩, e3, e4, e5, e6⟩
      ⟨rfl, rfl, rfl, rfl, rfl⟩ o1 i rest [] hd2 rfl rfl rfl
    rw [next_loop]
    simp only [he', Bool.false_eq_true, if_false, move_next, MovingChild.nextTuple,
      Child.nextTuple, Child.is_end, List.length_singleton, h10, Nat.zero_add, MovingChild.is_end,
      le_refl, decide_True, if_true]
    have hnt' : (if decide (c3.length ≤ c4) = true then
        (Except.error ExecError.AssertionFailed : Except ExecError Child)
        else Except.ok ⟨c1, c2, c3, c4 + 1⟩) = Except.ok ⟨c1, c2, c3, c4 + 1⟩ := hnt
    rw [hnt']
    simp only [is_end, MovingChild.is_end, hne, Bool.false_eq_true, if_false,
      MovingChild.beginTuple, Child.beginTuple]
    rw [hfresh]
    cases hs : satisfies e4 e6 (o1 ++ i) with
    | true =>
      simp only
      refine ⟨_, rfl, ⟨rfl, rfl, rfl, rfl, rfl⟩, Or.inr ⟨o1, rest, hd2, ?_, rfl, hs, rfl⟩⟩
      rw [List.map_cons]
      exact dropWhile_not_head (satisfies e4 e6) _ _ hs
    | false =>
      simp only
      obtain ⟨ex1, g1, g2, g3⟩ := ih
        ⟨⟨⟨c1, c2, c3, c4 + 1⟩, true⟩, ⟨⟨d1, d2, [i], 0⟩, true⟩, e3, e4, some (o1 ++ i), e6⟩
        f o1 ⟨rfl, rfl, rfl, rfl, rfl⟩ hd2 rfl (by simp at hf; omega)
      refine ⟨ex1, g1, g2, ?_⟩
      rw [List.map_cons, dropWhile_not_tail (satisfies e4 e6) _ _ hs]
      exact g3

end NestedLoopJoinExecutor

namespace NestedLoopJoinExecutor

/-- The run of a nested-loop join over an inner child of at most one tuple:
every outer position is read once, and the run yields the pairs that
satisfy the conditions. -/
theorem nlj_run_single (left right : Child) (conds : List Condition) (fuel : Nat)
    (hO : ∀ o ∈ left.tuples, o.length = left.len) (hI : ∀ i ∈ right.tuples, i.length = right.len)
    (hc : ∀ cond ∈ conds, CondOver (join_cols left right) cond)
    (hi : right.tuples.length ≤ 1) (hf : left.tuples.length * right.tuples.length < fuel) :
    (create left right conds).run fuel = Except.ok
      ((nljPairs left.tuples right.tuples).filter (satisfies (join_cols left right) conds)) := by
  cases hr : right.tuples with
  | nil =>
    rw [nljPairs_nil_inner]
    exact nlj_run_empty_inner left right conds fuel hr (by omega)
  | cons i rest =>
    have hrest : rest = [] := by
      rw [hr] at hi
      cases rest with
      | nil => rfl
      | cons a t => simp at hi
    subst hrest
    rw [hr] at hI
    rw [hr, List.length_singleton, Nat.mul_one] at hf
    have hof0 : NljOf left.tuples [i] (left.len + right.len) (join_cols left right) conds
        { create left right conds with outer_ := (create left right conds).outer_.beginTuple } :=
      ⟨rfl, hr, rfl, rfl, rfl⟩
    obtain ⟨ex1, h1, h2, h3⟩ := begin_loop_single hO hI rfl hc (left.tuples.drop 0)
      { create left right conds with outer_ := (create left right conds).outer_.beginTuple }
      (left.tuples.length + 1) hof0 rfl rfl (by simp)
    rw [List.drop_zero] at h3
    have hrun := drainExecutor_filter is_end Next nextTuple
      (fun s R => NljOf left.tuples [i] (left.len + right.len) (join_cols left right) conds s ∧
        SingleAt left.tuples i (satisfies (join_cols left right) conds) s R)
      (satisfies (join_cols left right) conds)
      (by
        rintro s ⟨_, hat⟩
        rcases hat with ⟨he, _⟩ | ⟨o, O2, _, hR, _⟩
        · exact he
        · cases hR)
      (by
        rintro s r R ⟨k1, hat⟩
        rcases hat with ⟨_, hR⟩ | ⟨o, O2, hd, hR, hm, hs, hp⟩
        · cases hR
        · simp only [List.cons.injEq] at hR
          obtain ⟨rfl, rfl⟩ := hR
          have hd' : s.outer_.child.tuples.drop s.outer_.child.pos = o :: O2 := by
            rw [k1.1]; exact hd
          have hlt := (drop_eq_cons_get hd).1
          have hO2 : O2.length < left.tuples.length := by
            have := congrArg List.length hd
            simp only [List.length_drop, List.length_cons] at this
            omega
          obtain ⟨s1, g1, g2, g3⟩ := next_loop_single hO hI rfl hc O2 s
            (left.tuples.length * 1 + 1) o k1 hd hp (by omega)
          refine ⟨(Child.Next_of_drop hd').1, by simp [Next, hm], hs, s1, ?_, g2, g3⟩
          unfold nextTuple
          rw [k1.1, k1.2.1]
          exact g1)
      _ ex1 _ fuel rfl ⟨h2, h3⟩
      (by
        have := length_dropWhile_le (fun x => !satisfies (join_cols left right) conds x)
          (left.tuples.map (fun x => x ++ i))
        rw [List.length_map] at this
        omega)
    have hb : (create left right conds).beginTuple = Except.ok ex1 := h1
    unfold run
    rw [hb]
    simp only
    rw [hrun, ← filter_dropWhile_not, nljPairs_single_inner]

end NestedLoopJoinExecutor

namespace NestedLoopJoinExecutor

/-- A nested-loop join over an empty outer child yields nothing. -/
theorem nlj_run_empty_outer (left right : Child) (conds : List Condition) (fuel : Nat)
    (hO : left.tuples = []) (hf : 0 < fuel) :
    (create left right conds).run fuel = Except.ok [] := by
  obtain ⟨lc, ll, lt, lp⟩ := left
  simp only at hO
  subst hO
  obtain ⟨f, rfl⟩ : ∃ f, fuel = f + 1 := ⟨fuel - 1, by omega⟩
  unfold run beginTuple create
  simp only [MovingChild.beginTuple, Child.beginTuple, List.length_nil, Nat.zero_add]
  rw [begin_loop]
  simp only [is_end, MovingChild.is_end, Child.is_end, List.length_nil, Nat.le_refl,
    decide_True, if_true]
  rw [drainExecutor]
  simp [is_end, MovingChild.is_end, Child.is_end]

end NestedLoopJoinExecutor

/-- C28: for every outer and inner child whose records have their tuple
lengths, with outer records of 1 to `BUFFER_JOIN_SIZE` bytes, and every
list of conditions over the joined columns, a consumer's loop over the
BlockNestedLoopJoinExecutor returns, and it yields the concatenations
outer ++ inner that satisfy every condition, each pair once (a permutation
of the satisfying pairs taken outer tuple by outer tuple), block of outer
tuples by block and within a block inner tuple by inner tuple (with one
block when the outer tuples fit in the buffer), and nothing when a child is
empty.  The NestedLoopJoinExecutor does not yield that multiset: over a
non-empty outer child and an inner child of two or more tuples it calls
`outer_->Next()` a second time at one outer position, gets the null pointer
its first call left behind, and `merge_record` reads through it; it yields
the satisfying pairs only when the inner child has at most one tuple or the
outer child is empty. -/
theorem block_join_yields_pairs_nested_loop_fails (left right : Child) (conds : List Condition)
    (fuel : Nat)
    (hL : 0 < left.len) (hmax : left.len ≤ BUFFER_JOIN_SIZE)
    (hO : ∀ o ∈ left.tuples, o.length = left.len) (hI : ∀ i ∈ right.tuples, i.length = right.len)
    (hc : ∀ cond ∈ conds, CondOver (join_cols left right) cond)
    (hf : left.tuples.length * right.tuples.length < fuel) :
    ∃ out, (BlockNestedLoopJoinExecutor.create left right conds).run fuel = Except.ok out ∧
      out = (bnljPairs (BUFFER_JOIN_SIZE / left.len) right.tuples left.tuples.length
        left.tuples).filter (satisfies (join_cols left right) conds) ∧
      out.Perm ((nljPairs left.tuples right.tuples).filter
        (satisfies (join_cols left right) conds)) ∧
      (left.tuples.length ≤ BUFFER_JOIN_SIZE / left.len →
        out = (blockPairs left.tuples right.tuples).filter
          (satisfies (join_cols left right) conds)) ∧
      (left.tuples = [] ∨ right.tuples = [] → out = []) ∧
      (left.tuples ≠ [] → 2 ≤ right.tuples.length →
        (NestedLoopJoinExecutor.create left right conds).run fuel =
          Except.error ExecError.Undefined) ∧
      (left.tuples = [] ∨ right.tuples.length ≤ 1 →
        (NestedLoopJoinExecutor.create left right conds).run fuel = Except.ok
          ((nljPairs left.tuples right.tuples).filter
            (satisfies (join_cols left right) conds))) := by
  have hk : 0 < BUFFER_JOIN_SIZE / left.len := Nat.div_pos hmax hL
  have hf0 : 0 < fuel := by omega
  refine ⟨_, BlockNestedLoopJoinExecutor.bnlj_run_spec left right conds fuel hO hI hc hL hk hf,
    rfl, ?_, ?_, ?_, ?_, ?_⟩
  · exact (bnljPairs_perm _ hk _ _ _ _ rfl (le_refl _)).filter _
  · intro h
    rw [bnljPairs_one_block _ _ _ h]
  · rintro (h | h)
    · rw [h, bnljPairs_nil]
      rfl
    · rw [h, bnljPairs_empty_inner]
      rfl
  · intro ho hi
    exact NestedLoopJoinExecutor.nlj_run_fails left right conds fuel hO hI hc ho hi hf0
  · rintro (h | h)
    · rw [NestedLoopJoinExecutor.nlj_run_empty_outer left right conds fuel h hf0, h]
      rfl
    · exact NestedLoopJoinExecutor.nlj_run_single left right conds fuel hO hI hc h hf

/-- Witness for C28: the join of the rows 1, 2, 3 with the rows 2, 3, 1, 3
on `t.a <= u.b`: the block join yields the nine pairs inner tuple by inner
tuple, the nested-loop join fails on the null outer record. -/
theorem block_join_yields_pairs_nested_loop_fails_witness :
    (BlockNestedLoopJoinExecutor.create exampleOuterChild exampleInnerChild
        [exampleJoinCond]).run 13 =
      Except.ok [encodeInt32 1 ++ encodeInt32 2, encodeInt32 2 ++ encodeInt32 2,
        encodeInt32 1 ++ encodeInt32 3, encodeInt32 2 ++ encodeInt32 3,
        encodeInt32 3 ++ encodeInt32 3, encodeInt32 1 ++ encodeInt32 1,
        encodeInt32 1 ++ encodeInt32 3, encodeInt32 2 ++ encodeInt32 3,
        encodeInt32 3 ++ encodeInt32 3] ∧
    (NestedLoopJoinExecutor.create exampleOuterChild exampleInnerChild
        [exampleJoinCond]).run 13 = Except.error ExecError.Undefined := by
  have hc : ∀ cond ∈ [exampleJoinCond],
      CondOver (join_cols exampleOuterChild exampleInnerChild) cond := by
    intro cond hcond
    rw [List.mem_singleton] at hcond
    subst hcond
    refine ⟨0, ⟨"t", "a", ColType.TYPE_INT, 4, 0, false⟩, by decide, by decide, ?_⟩
    rw [if_neg (by decide)]
    exact ⟨1, ⟨"u", "b", ColType.TYPE_INT, 4, 4, false⟩, by decide, by decide⟩
  obtain ⟨out, h1, _, _, _, _, h6, _⟩ := block_join_yields_pairs_nested_loop_fails
    exampleOuterChild exampleInnerChild [exampleJoinCond] 13 (by decide) (by decide) (by decide)
    (by decide) hc (by decide)
  have e2 : (BlockNestedLoopJoinExecutor.create exampleOuterChild exampleInnerChild
        [exampleJoinCond]).run 13 =
      Except.ok [encodeInt32 1 ++ encodeInt32 2, encodeInt32 2 ++ encodeInt32 2,
        encodeInt32 1 ++ encodeInt32 3, encodeInt32 2 ++ encodeInt32 3,
        encodeInt32 3 ++ encodeInt32 3, encodeInt32 1 ++ encodeInt32 1,
        encodeInt32 1 ++ encodeInt32 3, encodeInt32 2 ++ encodeInt32 3,
        encodeInt32 3 ++ encodeInt32 3] := by decide
  exact ⟨e2, h6 (by decide) (by decide)⟩

/-- C32 (divergence): `Value::operator<` asserts that the types of its
operands differ, so on every two values of the same type the comparison
fails on the assertion, where the claim has it return the order of the
payloads. -/
theorem value_lt_same_type_fails (a b : Value) (h : a.type = b.type) :
    Value.lt a b = Except.error ExecError.AssertionFailed := by
  unfold Value.lt
  rw [if_pos (by simp [h])]

/-- Witness for C32: the comparison of the INT values 1 and 2 fails, where
the order of the payloads is true. -/
theorem value_lt_same_type_fails_witness :
    Value.lt (Value.ofInt 1) (Value.ofInt 2) = Except.error ExecError.AssertionFailed ∧
      payloadLt (Value.ofInt 1) (Value.ofInt 2) = true :=
  ⟨value_lt_same_type_fails (Value.ofInt 1) (Value.ofInt 2) rfl, by decide⟩

/-- C34 (failing input): transaction 1 begins on the example heap, inserts
the record `[7,0,0,0]` into table "t" and commits; the heap holds the
record and the log file BEGIN, INSERT and COMMIT.  Recovery on this heap
and log dies on the assertion of `insert_record(Rid&, char*)`, as redo
applies the INSERT to the slot that already holds the record; the same
happens after a committed delete, whose redo deletes an empty slot.  After
a committed update recovery completes and leaves the heap as it is. -/
theorem recover_after_committed_run_fails :
    recoverAfterRun 1 [HeapOp.insert "t" [7, 0, 0, 0]] exampleHeap [] emptyLog =
      Except.error DbError.AssertionFailed ∧
    recoverAfterRun 1 [HeapOp.delete "t" ⟨1, 0⟩] exampleHeap [] emptyLog =
      Except.error DbError.AssertionFailed ∧
    (recoverAfterRun 1 [HeapOp.update "t" ⟨1, 0⟩ [7, 0, 0, 0]] exampleHeap [] emptyLog).map
        (fun st => st.sm) =
      (runThenCommit 1 [HeapOp.update "t" ⟨1, 0⟩ [7, 0, 0, 0]] exampleHeap [] emptyLog).map
        (fun p => p.1) := by
  decide!

/-- `lockLub` is the least upper bound in the order `lockLe`. -/
theorem lockLub_is_least_upper_bound :
    ∀ a b : LockMode, lockLe a (lockLub a b) = true ∧ lockLe b (lockLub a b) = true ∧
      ∀ c, lockLe a c = true → lockLe b c = true → lockLe (lockLub a b) c = true := by
  decide

theorem LockTable.find_assign {lt : LockTable} {id : LockDataId} {q q1 : RequestQueue}
    (h : lt.find id = some q) : (lt.assign id q1).find id = some q1 := by
  induction lt with
  | nil => simp [LockTable.find] at h
  | cons e rest ih =>
    obtain ⟨k, q0⟩ := e
    simp only [LockTable.find] at h
    simp only [LockTable.assign]
    split at h
    · rename_i hk
      rw [if_pos hk]
      simp [LockTable.find, hk]
    · rename_i hk
      rw [if_neg hk]
      simp only [LockTable.find, if_neg hk]
      exact ih h

theorem rewriteOwn_append {tid : Int} {f : LockMode → LockMode} {pre post : RequestQueue}
    {r : LockRequest} (hpre : ∀ x ∈ pre, x.txn_id ≠ tid) (hr : r.txn_id = tid) :
    rewriteOwn tid f (pre ++ r :: post) = some (pre ++ { r with lock_mode := f r.lock_mode } :: post) := by
  induction pre with
  | nil => simp [rewriteOwn, hr]
  | cons a t ih =>
    have h1 := ih (fun x hx => hpre x (List.mem_cons_of_mem _ hx))
    rw [List.cons_append, rewriteOwn, if_neg (hpre a (List.mem_cons_self _ _)), h1]
    rfl

/-- The rewrite of a granted request of a transaction that holds a request. -/
theorem lockWith_upgrade {conflicts : LockMode → Bool} {upgrade : LockMode → LockMode}
    {mode : LockMode} {lock_id : LockDataId} (lt : LockTable) (txn : Transaction)
    (pre post : RequestQueue) (r : LockRequest)
    (hfind : lt.find lock_id = some (pre ++ r :: post))
    (hpre : ∀ x ∈ pre, x.txn_id ≠ txn.txn_id) (hr : r.txn_id = txn.txn_id) (b : Bool)
    (hok : (lockWith conflicts upgrade mode lt txn lock_id).result = Except.ok b) :
    (lockWith conflicts upgrade mode lt txn lock_id).table.find lock_id =
        some (pre ++ { r with lock_mode := upgrade r.lock_mode } :: post) ∧
      (lockWith conflicts upgrade mode lt txn lock_id).txn = txn := by
  unfold lockWith at hok ⊢
  split at hok
  · cases hok
  · rename_i hs
    rw [if_neg hs]
    rw [hfind] at hok ⊢
    simp only at hok ⊢
    split at hok
    · cases hok
    · rename_i hany
      rw [if_neg hany, rewriteOwn_append hpre hr]
      exact ⟨LockTable.find_assign hfind, rfl⟩

/-- C38: in a lock table built by lock and unlock calls, when a transaction
that has a request in the queue of an object asks for a lock on the object
and is not rejected, the mode of its request becomes the least upper bound
of the mode it had and the mode asked for, in the order IS < {IX, S} < SIX
< X; the other requests of the queue stay as they are and no request is
added, and the lock set of the transaction stays as it is. -/
theorem lock_upgrade_is_least_upper_bound (lt : LockTable) (h : LockReachable lt)
    (c : LockCall) (txn : Transaction) (pre post : RequestQueue) (r : LockRequest) (b : Bool)
    (hfind : lt.find c.target = some (pre ++ r :: post)) (hr : r.txn_id = txn.txn_id)
    (hok : (c.run lt txn).result = Except.ok b) :
    (c.run lt txn).table.find c.target =
        some (pre ++ { r with lock_mode := lockLub r.lock_mode c.mode } :: post) ∧
      (c.run lt txn).txn = txn ∧
      (∀ x ∈ pre ++ post, x.txn_id ≠ txn.txn_id) := by
  obtain ⟨hn, _, hm⟩ := h.inv _ (LockTable.find_some_mem hfind)
  simp only at hn hm
  have hnd : ∀ x ∈ pre ++ post, x.txn_id ≠ txn.txn_id := by
    intro x hx
    rw [List.map_append, List.map_cons, List.nodup_append] at hn
    obtain ⟨_, h2, h3⟩ := hn
    rw [← hr]
    rcases List.mem_append.1 hx with hx | hx
    · intro he
      exact h3 (List.mem_map_of_mem _ hx) (by rw [he]; exact List.mem_cons_self _ _)
    · intro he
      exact (List.nodup_cons.1 h2).1 (by rw [← he]; exact List.mem_map_of_mem _ hx)
  have hpre : ∀ x ∈ pre, x.txn_id ≠ txn.txn_id := fun x hx => hnd x (List.mem_append_left _ hx)
  have hmr := hm r (by simp)
  refine ⟨?_, ?_, hnd⟩
  · cases c with
    | shared_on_record rid fd =>
      have := (lockWith_upgrade lt txn pre post r hfind hpre hr b hok).1
      refine Eq.trans this ?_
      have hS : r.lock_mode = LockMode.SHARED ∨ r.lock_mode = LockMode.EXLUCSIVE := by
        simpa [modeAllowed, LockCall.target, LockDataId.ofRecord] using hmr
      rcases hS with hS | hS <;> rw [hS] <;> rfl
    | exclusive_on_record rid fd =>
      have := (lockWith_upgrade lt txn pre post r hfind hpre hr b hok).1
      refine Eq.trans this ?_
      have hS : r.lock_mode = LockMode.SHARED ∨ r.lock_mode = LockMode.EXLUCSIVE := by
        simpa [modeAllowed, LockCall.target, LockDataId.ofRecord] using hmr
      rcases hS with hS | hS <;> rw [hS] <;> rfl
    | shared_on_table fd =>
      have := (lockWith_upgrade lt txn pre post r hfind hpre hr b hok).1
      refine Eq.trans this ?_
      cases hS : r.lock_mode <;> rfl
    | exclusive_on_table fd =>
      have := (lockWith_upgrade lt txn pre post r hfind hpre hr b hok).1
      refine Eq.trans this ?_
      cases hS : r.lock_mode <;> rfl
    | IS_on_table fd =>
      have := (lockWith_upgrade lt txn pre post r hfind hpre hr b hok).1
      refine Eq.trans this ?_
      cases hS : r.lock_mode <;> rfl
    | IX_on_table fd =>
      have := (lockWith_upgrade lt txn pre post r hfind hpre hr b hok).1
      refine Eq.trans this ?_
      cases hS : r.lock_mode <;> rfl
  · cases c <;> exact (lockWith_upgrade lt txn pre post r hfind hpre hr b hok).2

/-- Witness for C38: transaction 1 holds S on table 3 beside an IS request
of transaction 2 and asks for IX; its request becomes SIX and the queue
keeps its two requests. -/
theorem lock_upgrade_is_least_upper_bound_witness :
    ((LockCall.IX_on_table 3).run
        ((LockCall.shared_on_table 3).run
          ((LockCall.IS_on_table 3).run [] ⟨2, TransactionState.GROWING, [], []⟩).table
          ⟨1, TransactionState.GROWING, [], []⟩).table
        ⟨1, TransactionState.GROWING, [LockDataId.ofTable 3], []⟩).table.find
          (LockDataId.ofTable 3) =
      some [⟨2, LockMode.INTENTION_SHARED⟩, ⟨1, LockMode.S_IX⟩] :=
  (lock_upgrade_is_least_upper_bound _
    (LockReachable.lock _ _ _ (LockReachable.lock _ _ _ LockReachable.empty))
    (LockCall.IX_on_table 3) ⟨1, TransactionState.GROWING, [LockDataId.ofTable 3], []⟩
    [⟨2, LockMode.INTENTION_SHARED⟩] [] ⟨1, LockMode.SHARED⟩ true (by decide) rfl (by decide)).1

theorem check_column_loop_none (col_name : String) :
    ∀ (l : List ColMeta) (tab : String), (∀ x ∈ l, x.name ≠ col_name) →
      check_column_loop l col_name tab = Except.ok tab := by
  intro l
  induction l with
  | nil => intro tab _; rfl
  | cons c rest ih =>
    intro tab h
    rw [check_column_loop, if_neg (h c (List.mem_cons_self _ _))]
    exact ih tab (fun x hx => h x (List.mem_cons_of_mem _ hx))

theorem check_column_loop_second (col_name : String) :
    ∀ (l : List ColMeta) (tab : String), tab ≠ "" → (∃ x ∈ l, x.name = col_name) →
      check_column_loop l col_name tab = Except.error AnalyzeError.AmbiguousColumn := by
  intro l
  induction l with
  | nil => intro tab _ h; obtain ⟨x, hx, _⟩ := h; cases hx
  | cons c rest ih =>
    intro tab ht h
    rw [check_column_loop]
    by_cases hc : c.name = col_name
    · rw [if_pos hc, if_pos ht]
    · rw [if_neg hc]
      obtain ⟨x, hx, hxn⟩ := h
      rcases List.mem_cons.1 hx with rfl | hx
      · exact absurd hxn hc
      · exact ih tab ht ⟨x, hx, hxn⟩

theorem check_column_loop_first (col_name : String) (pre post : List ColMeta) (c : ColMeta)
    (hpre : ∀ x ∈ pre, x.name ≠ col_name) (hc : c.name = col_name) :
    check_column_loop (pre ++ c :: post) col_name "" =
      check_column_loop post col_name c.tab_name := by
  induction pre with
  | nil =>
    rw [List.nil_append, check_column_loop, if_pos hc, if_neg (by simp)]
  | cons a t ih =>
    rw [List.cons_append, check_column_loop, if_neg (hpre a (List.mem_cons_self _ _))]
    exact ih (fun x hx => hpre x (List.mem_cons_of_mem _ hx))
/-- C35 (amended): for every list of column metadata whose table names are
not empty and every target: with an empty `tab_name`, `check_column`
returns the target completed with the table of the column when exactly one
column of the list has the name, raises AmbiguousColumnError when two
columns of the list have it (columns of two tables among them), and raises
ColumnNotFoundError when none has it; with a non-empty `tab_name` it returns
the target unchanged when the list has the column of that table and raises
ColumnNotFoundError otherwise. -/
theorem check_column_resolves (all_cols : List ColMeta) (target : TabCol)
    (hne : ∀ c ∈ all_cols, c.tab_name ≠ "") :
    (target.tab_name = "" →
      (∀ pre c post, all_cols = pre ++ c :: post → c.name = target.col_name →
        (∀ x ∈ pre ++ post, x.name ≠ target.col_name) →
        check_column all_cols target = Except.ok ⟨c.tab_name, target.col_name⟩) ∧
      (∀ c1 ∈ all_cols, ∀ c2 ∈ all_cols, c1.name = target.col_name → c2.name = target.col_name →
        c1.tab_name ≠ c2.tab_name →
        check_column all_cols target = Except.error AnalyzeError.AmbiguousColumn) ∧
      ((∀ x ∈ all_cols, x.name ≠ target.col_name) →
        check_column all_cols target = Except.error AnalyzeError.ColumnNotFound)) ∧
    (target.tab_name ≠ "" →
      ((∃ c ∈ all_cols, c.tab_name = target.tab_name ∧ c.name = target.col_name) →
        check_column all_cols target = Except.ok target) ∧
      ((¬ ∃ c ∈ all_cols, c.tab_name = target.tab_name ∧ c.name = target.col_name) →
        check_column all_cols target = Except.error AnalyzeError.ColumnNotFound)) := by
  constructor
  · intro ht
    refine ⟨?_, ?_, ?_⟩
    · intro pre c post hl hc hno
      unfold check_column
      rw [if_pos ht, hl, check_column_loop_first _ pre post c
        (fun x hx => hno x (List.mem_append_left _ hx)) hc,
        check_column_loop_none _ post _ (fun x hx => hno x (List.mem_append_right _ hx))]
      simp only
      rw [if_neg (hne c (by rw [hl]; simp))]
    · intro c1 h1 c2 h2 hn1 hn2 hdiff
      have hex : ∃ x ∈ all_cols, x.name = target.col_name := ⟨c1, h1, hn1⟩
      obtain ⟨pre, c, post, hl, hc, hpre⟩ : ∃ pre c post, all_cols = pre ++ c :: post ∧
          c.name = target.col_name ∧ ∀ x ∈ pre, x.name ≠ target.col_name := by
        clear h1 h2 hne
        induction all_cols with
        | nil => obtain ⟨x, hx, _⟩ := hex; cases hx
        | cons a t ih =>
          by_cases ha : a.name = target.col_name
          · exact ⟨[], a, t, rfl, ha, by simp⟩
          · obtain ⟨x, hx, hxn⟩ := hex
            rcases List.mem_cons.1 hx with rfl | hx
            · exact absurd hxn ha
            · obtain ⟨pre, c, post, hl, hc, hpre⟩ := ih ⟨x, hx, hxn⟩
              refine ⟨a :: pre, c, post, by rw [hl]; rfl, hc, ?_⟩
              intro y hy
              rcases List.mem_cons.1 hy with rfl | hy
              · exact ha
              · exact hpre y hy
      have hpost : ∃ x ∈ post, x.name = target.col_name := by
        rw [hl] at h1 h2
        have m1 : c1 ∈ pre ∨ c1 = c ∨ c1 ∈ post := by simpa using h1
        have m2 : c2 ∈ pre ∨ c2 = c ∨ c2 ∈ post := by simpa using h2
        rcases m1 with m1 | m1 | m1
        · exact absurd hn1 (hpre c1 m1)
        · rcases m2 with m2 | m2 | m2
          · exact absurd hn2 (hpre c2 m2)
          · exact absurd (by rw [m1, m2]) hdiff
          · exact ⟨c2, m2, hn2⟩
        · exact ⟨c1, m1, hn1⟩
      unfold check_column
      rw [if_pos ht, hl, check_column_loop_first _ pre post c hpre hc,
        check_column_loop_second _ post _ (hne c (by rw [hl]; simp)) hpost]
    · intro hno
      unfold check_column
      rw [if_pos ht, check_column_loop_none _ _ _ hno]
      simp
  · intro ht
    refine ⟨?_, ?_⟩
    · rintro ⟨c, hc, h1, h2⟩
      unfold check_column
      rw [if_neg ht, if_pos]
      rw [List.any_eq_true]
      exact ⟨c, hc, by simp [h1, h2]⟩
    · intro hno
      unfold check_column
      rw [if_neg ht, if_neg]
      rw [List.any_eq_true]
      rintro ⟨c, hc, h⟩
      simp only [Bool.and_eq_true, decide_eq_true_eq] at h
      exact hno ⟨c, hc, h.1.symm, h.2⟩

/-- Witness for C35: in the columns `t.a`, `t.s`, `u.b`, `u.s`, the name `a`
resolves to `t.a`, the name `s` is ambiguous, the name `z` is not found,
`u.s` is found and `u.a` is not. -/
theorem check_column_resolves_witness :
    check_column [⟨"t", "a", ColType.TYPE_INT, 4, 0, false⟩,
        ⟨"t", "s", ColType.TYPE_STRING, 2, 4, false⟩, ⟨"u", "b", ColType.TYPE_INT, 4, 0, false⟩,
        ⟨"u", "s", ColType.TYPE_STRING, 2, 4, false⟩] ⟨"", "a"⟩ = Except.ok ⟨"t", "a"⟩ ∧
    check_column [⟨"t", "a", ColType.TYPE_INT, 4, 0, false⟩,
        ⟨"t", "s", ColType.TYPE_STRING, 2, 4, false⟩, ⟨"u", "b", ColType.TYPE_INT, 4, 0, false⟩,
        ⟨"u", "s", ColType.TYPE_STRING, 2, 4, false⟩] ⟨"", "s"⟩ =
      Except.error AnalyzeError.AmbiguousColumn :=
  ⟨((check_column_resolves _ ⟨"", "a"⟩ (by decide)).1 rfl).1 [] _ _ rfl rfl (by decide),
   ((check_column_resolves _ ⟨"", "s"⟩ (by decide)).1 rfl).2.1
     ⟨"t", "s", ColType.TYPE_STRING, 2, 4, false⟩ (by decide)
     ⟨"u", "s", ColType.TYPE_STRING, 2, 4, false⟩ (by decide) rfl rfl (by decide)⟩

/-- C35 (counterexample): the one column named `a` of the list belongs to a
table whose name is the empty string; `check_column` takes the empty name
for "no column found" and raises ColumnNotFoundError, where the claim has
it return the completed target. -/
theorem check_column_empty_table_name :
    check_column [⟨"", "a", ColType.TYPE_INT, 4, 0, false⟩] ⟨"", "a"⟩ =
      Except.error AnalyzeError.ColumnNotFound := by
  decide

theorem lit_lower : lit "1000-01-01 00:00:00" =
    [49, 48, 48, 48, 45, 48, 49, 45, 48, 49, 32, 48, 48, 58, 48, 48, 58, 48, 48] := by decide

theorem lit_upper : lit "9999-12-31 23:59:59" =
    [57, 57, 57, 57, 45, 49, 50, 45, 51, 49, 32, 50, 51, 58, 53, 57, 58, 53, 57] := by decide

theorem strlen_of_no_nul (s : List Nat) (h : ∀ c ∈ s, c ≠ 0) : strlen s = s.length := by
  unfold strlen
  rw [List.takeWhile_eq_self_iff.2]
  intro c hc
  simpa using h c hc

theorem length19 (s : List Nat) (h : s.length = 19) :
    ∃ c0 c1 c2 c3 c4 c5 c6 c7 c8 c9 c10 c11 c12 c13 c14 c15 c16 c17 c18,
      s = [c0, c1, c2, c3, c4, c5, c6, c7, c8, c9, c10, c11, c12, c13, c14, c15, c16, c17, c18] := by
  rcases s with _ | ⟨c0, _ | ⟨c1, _ | ⟨c2, _ | ⟨c3, _ | ⟨c4, _ | ⟨c5, _ | ⟨c6, _ | ⟨c7, _ | ⟨c8,
    _ | ⟨c9, _ | ⟨c10, _ | ⟨c11, _ | ⟨c12, _ | ⟨c13, _ | ⟨c14, _ | ⟨c15, _ | ⟨c16, _ | ⟨c17,
    _ | ⟨c18, _ | ⟨c19, t⟩⟩⟩⟩⟩⟩⟩⟩⟩⟩⟩⟩⟩⟩⟩⟩⟩⟩⟩⟩ <;> simp at h
  exact ⟨c0, c1, c2, c3, c4, c5, c6, c7, c8, c9, c10, c11, c12, c13, c14, c15, c16, c17, c18, rfl⟩

theorem ite_false_eq_true (c : Prop) [Decidable c] (b : Bool) :
    ((if c then false else b) = true) ↔ (¬ c ∧ b = true) := by
  by_cases h : c <;> simp [h]

theorem isDigitAt_iff (s : List Nat) (i : Nat) :
    isDigitAt s i = true ↔ 48 ≤ s.getD i 0 ∧ s.getD i 0 ≤ 57 := by
  simp [isDigitAt]

theorem check_datetime_true_iff (s : List Nat) :
    check_datetime_ s = true ↔
      strlen s = 19 ∧ strLt s (lit "1000-01-01 00:00:00") = false ∧
      strLt (lit "9999-12-31 23:59:59") s = false ∧
      isDigitAt s 0 = true ∧ isDigitAt s 1 = true ∧ isDigitAt s 2 = true ∧ isDigitAt s 3 = true ∧
      s.getD 4 0 = 45 ∧ isDigitAt s 5 = true ∧ isDigitAt s 6 = true ∧ s.getD 7 0 = 45 ∧
      isDigitAt s 8 = true ∧ isDigitAt s 9 = true ∧ s.getD 10 0 = 32 ∧
      isDigitAt s 11 = true ∧ isDigitAt s 12 = true ∧ s.getD 13 0 = 58 ∧
      isDigitAt s 14 = true ∧ isDigitAt s 15 = true ∧ s.getD 16 0 = 58 ∧
      isDigitAt s 17 = true ∧ isDigitAt s 18 = true ∧
      1 ≤ stoi2 s 5 ∧ stoi2 s 5 ≤ 12 ∧ 1 ≤ stoi2 s 8 ∧ stoi2 s 8 ≤ 31 ∧
      ¬ (stoi2 s 5 = 2 ∧ stoi2 s 8 = 30) ∧ stoi2 s 11 ≤ 23 ∧ stoi2 s 14 ≤ 59 ∧
      stoi2 s 17 ≤ 59 := by
  unfold check_datetime_
  generalize lit "1000-01-01 00:00:00" = lo
  generalize lit "9999-12-31 23:59:59" = hi
  simp only [ite_false_eq_true, Bool.or_eq_true, not_or, Bool.not_eq_true, Bool.not_eq_true',
    Bool.and_eq_true, Bool.not_eq_false, not_not, ne_eq, gt_iff_lt, not_lt, and_true,
    Nat.lt_one_iff, and_assoc, Nat.one_le_iff_ne_zero]

theorem strLt_cons (x y : Nat) (a b : List Nat) :
    strLt (x :: a) (y :: b) = if x < y then true else if y < x then false else strLt a b := by
  rw [strLt]

theorem strLt_nil_nil : strLt [] [] = false := by rw [strLt]

theorem strLt_cons_gt (x y : Nat) (a b : List Nat) (h : y < x) : strLt (x :: a) (y :: b) = false := by
  rw [strLt_cons, if_neg (by omega), if_pos h]

theorem strLt_cons_eq (x : Nat) (a b : List Nat) : strLt (x :: a) (x :: b) = strLt a b := by
  rw [strLt_cons, if_neg (by omega), if_neg (by omega)]

theorem strLt_cons_ge (x y : Nat) (a b : List Nat) (h : y ≤ x) (h2 : y = x → strLt a b = false) :
    strLt (x :: a) (y :: b) = false := by
  rcases Nat.lt_or_eq_of_le h with h | h
  · exact strLt_cons_gt x y a b h
  · subst h; rw [strLt_cons_eq]; exact h2 rfl

theorem not_strLt_lower (c0 c1 c2 c3 c5 c6 c8 c9 c11 c12 c14 c15 c17 c18 : Nat)
    (h0 : 49 ≤ c0) (h1 : 48 ≤ c1) (h2 : 48 ≤ c2) (h3 : 48 ≤ c3)
    (h5 : 48 ≤ c5) (h6 : 48 ≤ c6) (hm : 1 ≤ (c5 - 48) * 10 + (c6 - 48))
    (h8 : 48 ≤ c8) (h9 : 48 ≤ c9) (hd : 1 ≤ (c8 - 48) * 10 + (c9 - 48))
    (h11 : 48 ≤ c11) (h12 : 48 ≤ c12) (h14 : 48 ≤ c14) (h15 : 48 ≤ c15)
    (h17 : 48 ≤ c17) (h18 : 48 ≤ c18) :
    strLt [c0, c1, c2, c3, 45, c5, c6, 45, c8, c9, 32, c11, c12, 58, c14, c15, 58, c17, c18]
      (lit "1000-01-01 00:00:00") = false := by
  rw [lit_lower]
  iterate 19 refine strLt_cons_ge _ _ _ _ (by omega) (fun _ => ?_)
  exact strLt_nil_nil

theorem not_strLt_upper (c0 c1 c2 c3 c5 c6 c8 c9 c11 c12 c14 c15 c17 c18 : Nat)
    (h0 : c0 ≤ 57) (h1 : c1 ≤ 57) (h2 : c2 ≤ 57) (h3 : c3 ≤ 57)
    (h6 : 48 ≤ c6) (hm : (c5 - 48) * 10 + (c6 - 48) ≤ 12)
    (h8 : 48 ≤ c8) (h9 : 48 ≤ c9) (hd : (c8 - 48) * 10 + (c9 - 48) ≤ 31)
    (h11 : 48 ≤ c11) (h12 : 48 ≤ c12) (hh : (c11 - 48) * 10 + (c12 - 48) ≤ 23)
    (h14 : 48 ≤ c14) (h15 : 48 ≤ c15) (hmi : (c14 - 48) * 10 + (c15 - 48) ≤ 59)
    (h17 : 48 ≤ c17) (h18 : 48 ≤ c18) (hs : (c17 - 48) * 10 + (c18 - 48) ≤ 59)
    (g6 : c6 ≤ 57) (g9 : c9 ≤ 57) (g12 : c12 ≤ 57) (g15 : c15 ≤ 57) (g18 : c18 ≤ 57) :
    strLt (lit "9999-12-31 23:59:59")
      [c0, c1, c2, c3, 45, c5, c6, 45, c8, c9, 32, c11, c12, 58, c14, c15, 58, c17, c18]
      = false := by
  rw [lit_upper]
  iterate 19 refine strLt_cons_ge _ _ _ _ (by omega) (fun _ => ?_)
  exact strLt_nil_nil

theorem lower_first (c0 : Nat) (t : List Nat)
    (h : strLt (c0 :: t) (lit "1000-01-01 00:00:00") = false) : 49 ≤ c0 := by
  rw [lit_lower, strLt_cons] at h
  by_contra hc
  rw [if_pos (by omega)] at h
  cases h

theorem getD19 (c0 c1 c2 c3 c4 c5 c6 c7 c8 c9 c10 c11 c12 c13 c14 c15 c16 c17 c18 : Nat) :
    let s := [c0, c1, c2, c3, c4, c5, c6, c7, c8, c9, c10, c11, c12, c13, c14, c15, c16, c17, c18]
    s.getD 0 0 = c0 ∧ s.getD 1 0 = c1 ∧ s.getD 2 0 = c2 ∧ s.getD 3 0 = c3 ∧ s.getD 4 0 = c4 ∧
    s.getD 5 0 = c5 ∧ s.getD 6 0 = c6 ∧ s.getD 7 0 = c7 ∧ s.getD 8 0 = c8 ∧ s.getD 9 0 = c9 ∧
    s.getD 10 0 = c10 ∧ s.getD 11 0 = c11 ∧ s.getD 12 0 = c12 ∧ s.getD 13 0 = c13 ∧
    s.getD 14 0 = c14 ∧ s.getD 15 0 = c15 ∧ s.getD 16 0 = c16 ∧ s.getD 17 0 = c17 ∧
    s.getD 18 0 = c18 := by
  intro s
  refine ⟨rfl, rfl, rfl, rfl, rfl, rfl, rfl, rfl, rfl, rfl, rfl, rfl, rfl, rfl, rfl, rfl, rfl, rfl, rfl⟩

theorem check_datetime_iff_aux (s : List Nat) (hnul : ∀ c ∈ s, c ≠ 0) :
    check_datetime_ s = true ↔ DatetimeForm s := by
  rw [check_datetime_true_iff, strlen_of_no_nul s hnul]
  unfold DatetimeForm
  constructor
  · rintro ⟨hlen, hlo, hhi, d0, d1, d2, d3, e4, d5, d6, e7, d8, d9, e10, d11, d12, e13, d14, d15,
      e16, d17, d18, m1, m2, a1, a2, hf, hh, hmi, hs⟩
    obtain ⟨c0, c1, c2, c3, c4, c5, c6, c7, c8, c9, c10, c11, c12, c13, c14, c15, c16, c17, c18,
      rfl⟩ := length19 s hlen
    have h0 := lower_first _ _ hlo
    obtain ⟨g0, g1, g2, g3, g4, g5, g6, g7, g8, g9, g10, g11, g12, g13, g14, g15, g16, g17, g18⟩ :=
      getD19 c0 c1 c2 c3 c4 c5 c6 c7 c8 c9 c10 c11 c12 c13 c14 c15 c16 c17 c18
    simp only [isDigitAt_iff, stoi2, g0, g1, g2, g3, g4, g5, g6, g7, g8, g9, g10, g11, g12, g13,
      g14, g15, g16, g17, g18] at d0 d1 d2 d3 e4 d5 d6 e7 d8 d9 e10 d11 d12 e13 d14 d15 e16 d17 d18
    simp only [stoi2, g5, g6, g8, g9, g11, g12, g14, g15, g17, g18] at m1 m2 a1 a2 hf hh hmi hs
    simp only [digitsAt, List.mem_cons, List.mem_singleton, List.not_mem_nil, or_false,
      forall_eq_or_imp, forall_eq, Nat.add_zero, Nat.zero_mul, Nat.zero_add,
      g0, g1, g2, g3, g4, g5, g6, g7, g8, g9, g10, g11, g12, g13,
      g14, g15, g16, g17, g18]
    refine ⟨hlen, ⟨d0, d1, d2, d3, d5, d6, d8, d9, d11, d12, d14, d15, d17, d18⟩, e4, e7, e10, e13,
      e16, ?_, ?_, m1, m2, a1, a2, hh, hmi, hs, hf⟩
    · omega
    · omega
  · rintro ⟨hlen, hd, e4, e7, e10, e13, e16, y1, y2, m1, m2, a1, a2, hh, hmi, hs, hf⟩
    obtain ⟨c0, c1, c2, c3, c4, c5, c6, c7, c8, c9, c10, c11, c12, c13, c14, c15, c16, c17, c18,
      rfl⟩ := length19 s hlen
    obtain ⟨g0, g1, g2, g3, g4, g5, g6, g7, g8, g9, g10, g11, g12, g13, g14, g15, g16, g17, g18⟩ :=
      getD19 c0 c1 c2 c3 c4 c5 c6 c7 c8 c9 c10 c11 c12 c13 c14 c15 c16 c17 c18
    simp only [digitsAt, List.mem_cons, List.mem_singleton, List.not_mem_nil, or_false,
      forall_eq_or_imp, forall_eq, Nat.add_zero, Nat.zero_mul, Nat.zero_add,
      g0, g1, g2, g3, g4, g5, g6, g7, g8, g9, g10, g11, g12, g13,
      g14, g15, g16, g17, g18] at hd e4 e7 e10 e13 e16 y1 y2 m1 m2 a1 a2 hh hmi hs hf
    obtain ⟨d0, d1, d2, d3, d5, d6, d8, d9, d11, d12, d14, d15, d17, d18⟩ := hd
    subst e4 e7 e10 e13 e16
    simp only [isDigitAt_iff, stoi2, g0, g1, g2, g3, g4, g5, g6, g7, g8, g9, g10, g11, g12, g13,
      g14, g15, g16, g17, g18]
    refine ⟨hlen, ?_, ?_, d0, d1, d2, d3, trivial, d5, d6, trivial, d8, d9, trivial, d11, d12,
      trivial, d14, d15, trivial, d17, d18, m1, m2, a1, a2, hf, hh, hmi, hs⟩
    · exact not_strLt_lower c0 c1 c2 c3 c5 c6 c8 c9 c11 c12 c14 c15 c17 c18 (by omega) d1.1 d2.1
        d3.1 d5.1 d6.1 m1 d8.1 d9.1 a1 d11.1 d12.1 d14.1 d15.1 d17.1 d18.1
    · exact not_strLt_upper c0 c1 c2 c3 c5 c6 c8 c9 c11 c12 c14 c15 c17 c18 d0.2 d1.2 d2.2 d3.2
        d6.1 m2 d8.1 d9.1 a2 d11.1 d12.1 hh d14.1 d15.1 hmi d17.1 d18.1 hs
        d6.2 d9.2 d12.2 d15.2 d18.2

theorem lit_feb29 : lit "-02-29 00:00:00" =
    [45, 48, 50, 45, 50, 57, 32, 48, 48, 58, 48, 48, 58, 48, 48] := by decide

theorem feb29_any_year (y0 y1 y2 y3 : Nat) (h0 : 49 ≤ y0 ∧ y0 ≤ 57) (h1 : 48 ≤ y1 ∧ y1 ≤ 57)
    (h2 : 48 ≤ y2 ∧ y2 ≤ 57) (h3 : 48 ≤ y3 ∧ y3 ≤ 57) :
    check_datetime_ ([y0, y1, y2, y3] ++ lit "-02-29 00:00:00") = true := by
  rw [lit_feb29]
  refine (check_datetime_iff_aux _ ?_).2 ?_
  · intro c hc
    simp only [List.cons_append, List.nil_append, List.mem_cons, List.mem_singleton,
      List.not_mem_nil, or_false] at hc
    omega
  · unfold DatetimeForm
    obtain ⟨g0, g1, g2, g3, g4, g5, g6, g7, g8, g9, g10, g11, g12, g13, g14, g15, g16, g17, g18⟩ :=
      getD19 y0 y1 y2 y3 45 48 50 45 50 57 32 48 48 58 48 48 58 48 48
    simp only [List.cons_append, List.nil_append, digitsAt, List.mem_cons, List.mem_singleton,
      List.not_mem_nil, or_false,
      forall_eq_or_imp, forall_eq, Nat.add_zero, Nat.zero_mul, Nat.zero_add,
      g0, g1, g2, g3, g4, g5, g6, g7, g8, g9, g10, g11, g12, g13,
      g14, g15, g16, g17, g18]
    refine ⟨rfl, ⟨?_, ?_, ?_, ?_, ?_, ?_, ?_, ?_, ?_, ?_, ?_, ?_, ?_, ?_⟩, trivial, trivial, trivial, trivial, trivial,
      ?_, ?_, ?_, ?_, ?_, ?_, ?_, ?_, ?_, ?_⟩ <;> omega

/-- C31 (amended): for every string without a NUL character,
`SmManager::check_datetime_(s)` returns true if and only if `s` has exactly
19 characters of the form `DDDD-DD-DD DD:DD:DD` with the separators at
positions 4, 7, 10, 13, 16, its year is in 1000..9999, month in 1..12, day
in 1..31, hour in 0..23, minute and second in 0..59, and it is not the 30th
of month 02. In particular Feb-29 in any year, Feb-31 and Apr-31 are
accepted. -/
theorem check_datetime_accepts_exactly_form (s : List Nat) (hnul : ∀ c ∈ s, c ≠ 0) :
    (check_datetime_ s = true ↔ DatetimeForm s) ∧
    (∀ y0 y1 y2 y3 : Nat, 49 ≤ y0 ∧ y0 ≤ 57 → 48 ≤ y1 ∧ y1 ≤ 57 → 48 ≤ y2 ∧ y2 ≤ 57 →
      48 ≤ y3 ∧ y3 ≤ 57 →
      check_datetime_ ([y0, y1, y2, y3] ++ lit "-02-29 00:00:00") = true) ∧
    check_datetime_ (lit "2023-02-31 00:00:00") = true ∧
    check_datetime_ (lit "2023-04-31 00:00:00") = true ∧
    check_datetime_ (lit "2023-02-30 00:00:00") = false :=
  ⟨check_datetime_iff_aux s hnul, feb29_any_year, by decide, by decide, by decide⟩

theorem check_datetime_accepts_exactly_form_witness :
    (∀ c ∈ lit "2023-02-29 12:34:56", c ≠ 0) ∧
    check_datetime_ (lit "2023-02-29 12:34:56") = true ∧
    DatetimeForm (lit "2023-02-29 12:34:56") :=
  ⟨by decide, by decide,
    (check_datetime_accepts_exactly_form (lit "2023-02-29 12:34:56") (by decide)).1.1 (by decide)⟩

/-- C31 (counterexample): a string of 21 characters, whose first 19 are a
well-formed DATETIME and whose 20th is NUL, is accepted: the length test of
`check_datetime_` is `strlen(s.c_str()) != 19`, which stops at the first
NUL, and the comparison against the upper bound `"9999-12-31 23:59:59"`
does not reject it. -/
theorem check_datetime_embedded_nul :
    check_datetime_ (lit "2023-01-01 00:00:00" ++ [0, 120]) = true ∧
    (lit "2023-01-01 00:00:00" ++ [0, 120]).length = 21 ∧
    ¬ DatetimeForm (lit "2023-01-01 00:00:00" ++ [0, 120]) := by
  refine ⟨by decide, by decide, ?_⟩
  intro h
  have := h.1
  revert this
  decide

theorem parseLog_loop_zero (buffer_ : List Nat) (file_size fuel offset : Nat)
    (acc : List LogRecord) (hfs : file_size ≠ 0)
    (hz : decodeUInt32 ((buffer_.drop offset).drop OFFSET_LOG_TOT_LEN) = 0) :
    RecoveryManager.parseLog_loop buffer_ file_size (fuel + 1) offset acc =
      Except.error DbError.Exit := by
  rw [RecoveryManager.parseLog_loop, if_neg hfs]
  simp only []
  rw [if_pos (by simpa [LogRecord.deserialize_header] using hz)]

theorem parseLog_loop_prefix (rs : List LogRecord) (rest : List Nat) (hrest : rest ≠ []) :
    ∀ (pre : List Nat) (acc : List LogRecord) (fuel : Nat), (∀ r ∈ rs, r.Encodable) →
      RecoveryManager.parseLog_loop (pre ++ (rs.flatMap (fun r => r.layout) ++ rest))
        (pre ++ (rs.flatMap (fun r => r.layout) ++ rest)).length (rs.length + fuel) pre.length acc =
      RecoveryManager.parseLog_loop (pre ++ (rs.flatMap (fun r => r.layout) ++ rest))
        (pre ++ (rs.flatMap (fun r => r.layout) ++ rest)).length fuel
        (pre ++ rs.flatMap (fun r => r.layout)).length (acc ++ rs) := by
  induction rs with
  | nil => intro pre acc fuel _; simp
  | cons r rs ih =>
    intro pre acc fuel h
    have hr := h r (List.mem_cons_self _ _)
    have hrs : ∀ x ∈ rs, x.Encodable := fun x hx => h x (List.mem_cons_of_mem _ hx)
    have hlen := layout_length r hr
    have hpos : 0 < rest.length := List.length_pos.2 hrest
    have e1 : (r :: rs).length + fuel = (rs.length + fuel) + 1 := by
      simp only [List.length_cons]; omega
    rw [e1, List.flatMap_cons, List.append_assoc]
    rw [parseLog_loop_step r _ pre _ _ acc hr (by
      simp only [List.length_append, hlen]; omega)]
    rw [if_neg (by simp only [List.length_append, hlen]; omega)]
    have e : pre ++ (r.layout ++ (rs.flatMap (fun (r : LogRecord) => r.layout) ++ rest)) =
        (pre ++ r.layout) ++ (rs.flatMap (fun (r : LogRecord) => r.layout) ++ rest) := by
      rw [List.append_assoc]
    have e2 : pre.length + r.log_tot_len_ = (pre ++ r.layout).length := by
      rw [List.length_append, hlen]
    rw [e, e2, ih (pre ++ r.layout) (acc ++ [r]) fuel hrs]
    simp

/-- C36 (amended): `parseLog` aborts recovery (`exit(1)`) whenever it
reaches a record whose header `log_tot_len_` is 0 (the field is unsigned,
so `<= 0` is `== 0`): in every state of its loop over a non-empty file, and
in particular after any sequence of well-formed records that is followed by
such a header. -/
theorem parseLog_aborts_on_zero_length (rs : List LogRecord) (rest : List Nat)
    (h : ∀ r ∈ rs, r.Encodable) (hrest : rest ≠ [])
    (hz : decodeUInt32 (rest.drop OFFSET_LOG_TOT_LEN) = 0) :
    RecoveryManager.parseLog (logFile rs ++ rest) = Except.error DbError.Exit ∧
    ∀ (buffer_ : List Nat) (file_size fuel offset : Nat) (acc : List LogRecord),
      file_size ≠ 0 →
      decodeUInt32 ((buffer_.drop offset).drop OFFSET_LOG_TOT_LEN) = 0 →
      RecoveryManager.parseLog_loop buffer_ file_size (fuel + 1) offset acc =
        Except.error DbError.Exit := by
  refine ⟨?_, fun buffer_ file_size fuel offset acc hfs hz2 =>
    parseLog_loop_zero buffer_ file_size fuel offset acc hfs hz2⟩
  rw [logFile_eq rs h]
  unfold RecoveryManager.parseLog
  have hpos : 0 < rest.length := List.length_pos.2 hrest
  have hle := length_le_flatMap_layout rs h
  obtain ⟨k, hk⟩ : ∃ k, (rs.flatMap (fun r => r.layout) ++ rest).length + 1 =
      rs.length + (k + 1) := by
    refine ⟨(rs.flatMap (fun r => r.layout) ++ rest).length - rs.length, ?_⟩
    simp only [List.length_append]
    omega
  rw [hk]
  have hp := parseLog_loop_prefix rs rest hrest [] [] (k + 1) h
  simp only [List.nil_append, List.length_nil] at hp
  rw [hp]
  refine parseLog_loop_zero _ _ k _ _ ?_ ?_
  · simp only [List.length_append]; omega
  · rw [List.drop_left]
    exact hz

theorem parseLog_aborts_on_zero_length_witness :
    RecoveryManager.parseLog (logFile exampleLogRecords ++ List.replicate 20 0) =
      Except.error DbError.Exit :=
  (parseLog_aborts_on_zero_length exampleLogRecords (List.replicate 20 0) (by
    intro r hr
    simp only [exampleLogRecords, List.mem_cons, List.mem_singleton, List.not_mem_nil,
      or_false] at hr
    rcases hr with rfl | rfl | rfl <;>
      exact ⟨rfl, by decide, by decide, by decide, by decide, by decide, by decide, by decide,
        by decide, by decide, by decide, by decide⟩) (by decide) (by decide)).1

/-- C36 (counterexample): a log file of 45 bytes that holds one INSERT
record whose header says `log_tot_len_ = 1000`.  The extent of the record
exceeds the file size, and `parseLog` does not abort: it decodes the
record, appends it to `read_log_records` and leaves the loop because the
offset has passed the end of the file. -/
theorem parseLog_accepts_record_past_eof :
    corruptLog.length = 45 ∧
    decodeUInt32 (corruptLog.drop OFFSET_LOG_TOT_LEN) = 1000 ∧
    RecoveryManager.parseLog corruptLog =
      Except.ok [{ InsertLogRecord 1 [2, 0, 0, 0] ⟨1, 0⟩ "t" with log_tot_len_ := 1000 }] := by
  decide!

/-- C37 (divergence): on the example file (one record on page 1, the last
page) and a pool in which page 1 is pinned once by another holder, an
`RmScan` that is constructed, driven to the end and destroyed leaves the
pin count of page 1 at 0: the page that `next` has unpinned at the end of
the scan is unpinned a second time by the destructor, because
`update_page_buffer(INVALID_PAGE_ID)` does not reset `page_buffer.page`.
In a pool where nobody else holds the page the second `unpin_page` finds
the pin count 0 and does nothing. -/
theorem rm_scan_unpins_last_page_twice :
    examplePoolHeld.pinCount ⟨3, 1⟩ = 1 ∧
    (PinnedScan.run exampleFile examplePoolHeld).toOption.map
      (fun bp => bp.pinCount ⟨3, 1⟩) = some 0 ∧
    ((PinnedScan.create exampleFile examplePoolHeld).toOption.map
      (fun r => (r.1.rid_, r.2.pinCount ⟨3, 1⟩))) = some (⟨1, 0⟩, 2) ∧
    ((PinnedScan.create exampleFile examplePoolHeld).toOption.bind
      (fun r => (PinnedScan.next exampleFile r.1 r.2).toOption.map
        (fun r1 => (r1.1.is_end, r1.2.pinCount ⟨3, 1⟩)))) = some (true, 1) ∧
    examplePool.pinCount ⟨3, 1⟩ = 0 ∧
    (PinnedScan.run exampleFile examplePool).toOption.map
      (fun bp => bp.pinCount ⟨3, 1⟩) = some 0 := by
  decide!

theorem check_record_flag (sm : SmManager) (update_record : List Nat) :
    ∀ (l : List IndexMetaCols) (is_failed : Bool) (vis : List (List Nat)),
      (∀ ix ∈ l, ∃ b, sm.is_key_exists ix.index_name (decodeInt32 (ix.key update_record)) =
        Except.ok b) →
      ∃ f vis1, UpdateExecutor.check_record sm update_record l is_failed vis = Except.ok (f, vis1) ∧
        (is_failed = true → f = true) ∧
        (∀ ix ∈ l, sm.is_key_exists ix.index_name (decodeInt32 (ix.key update_record)) =
          Except.ok true → f = true) ∧
        (∀ ix ∈ l, ix.key update_record ∈ vis → f = true) := by
  intro l
  induction l with
  | nil =>
    intro is_failed vis _
    exact ⟨is_failed, vis, rfl, fun h => h, fun ix h => absurd h (List.not_mem_nil _),
      fun ix h => absurd h (List.not_mem_nil _)⟩
  | cons index rest ih =>
    intro is_failed vis h
    obtain ⟨b, hb⟩ := h index (List.mem_cons_self _ _)
    obtain ⟨f, vis1, h1, h2, h3, h4⟩ := ih
      (is_failed || (b || decide (index.key update_record ∈ vis)))
      (if index.key update_record ∈ vis then vis else vis ++ [index.key update_record])
      (fun ix hix => h ix (List.mem_cons_of_mem _ hix))
    refine ⟨f, vis1, ?_, ?_, ?_, ?_⟩
    · rw [UpdateExecutor.check_record, hb]
      exact h1
    · intro hf
      exact h2 (by simp [hf])
    · intro ix hix hp
      rcases List.mem_cons.1 hix with e | e
      · subst e
        rw [hb] at hp
        cases hp
        exact h2 (by simp)
      · exact h3 ix e hp
    · intro ix hix hv
      rcases List.mem_cons.1 hix with e | e
      · subst e
        exact h2 (by simp [hv])
      · refine h4 ix e ?_
        split
        · exact hv
        · exact List.mem_append_left _ hv

theorem check_unique_present (sm : SmManager) (ix_metas : List IndexMetaCols)
    (update_record : List Nat) (rest vis : List (List Nat))
    (hprobe : ∀ ix ∈ ix_metas, ∃ b,
      sm.is_key_exists ix.index_name (decodeInt32 (ix.key update_record)) = Except.ok b)
    (index : IndexMetaCols) (hin : index ∈ ix_metas)
    (hp : sm.is_key_exists index.index_name (decodeInt32 (index.key update_record)) =
      Except.ok true) :
    UpdateExecutor.check_unique sm ix_metas (update_record :: rest) vis =
      Except.error ExecError.Internal := by
  obtain ⟨f, vis1, h1, _, h3, _⟩ := check_record_flag sm update_record ix_metas false vis hprobe
  have hf := h3 index hin hp
  rw [UpdateExecutor.check_unique, h1]
  simp only []
  rw [if_pos hf]

theorem check_unique_no_index (sm : SmManager) :
    ∀ (update_records vis : List (List Nat)),
      UpdateExecutor.check_unique sm [] update_records vis = Except.ok () := by
  intro l
  induction l with
  | nil => intro vis; rfl
  | cons r rest ih =>
    intro vis
    rw [UpdateExecutor.check_unique, UpdateExecutor.check_record]
    simp only []
    exact ih vis

/-- C30 (amended): the uniqueness check of `UpdateExecutor::Next` does not
set aside the index entries of the rows being updated.  For every table,
every single-row update and every index of the table that has a column
named by a set clause: when the key of the post-image for that index is the
key of the row's current image and the index holds that key (the entry of
the row itself), the check fails with `InternalError` before the last loop
of `Next`, so the update is not applied; the part of `Next` in front of the
last loop writes neither to the heap file nor to an index.  The check
passes trivially only when no set clause names a column of an index. -/
theorem update_to_own_key_is_rejected (ex : UpdateExecutor) (sm : SmManager)
    (ctx ctx1 ctx2 : Context) (fh : RmFileHandle) (rid : Rid) (set_clauses : List SetClause)
    (data update_record : List Nat) (index : IndexMetaCols)
    (hrids : ex.rids_ = [rid])
    (hfile : sm.file ex.tab_name_ = Except.ok fh)
    (hlock : RmFileHandle.withLock (lock_IX_on_table ctx.lock_table_ ctx.txn_ fh.fd_)
      ctx.log_mgr_ = Except.ok ctx1)
    (hwiden : UpdateExecutor.widen_set_clauses ex.tab_ ex.set_clauses_ = Except.ok set_clauses)
    (hcollect : UpdateExecutor.collect_update_records ex.tab_ fh true [rid] set_clauses ctx1 =
      Except.ok ([update_record], ctx2))
    (hdata : fh.get_record rid = Except.ok data)
    (hin : index ∈ UpdateExecutor.find_ix_metas ex.tab_ set_clauses)
    (hsame : index.key update_record = index.key data)
    (hpresent : sm.is_key_exists index.index_name (decodeInt32 (index.key data)) = Except.ok true)
    (hprobe : ∀ ix ∈ UpdateExecutor.find_ix_metas ex.tab_ set_clauses, ∃ b,
      sm.is_key_exists ix.index_name (decodeInt32 (ix.key update_record)) = Except.ok b) :
    ex.prepare sm ctx = Except.error ExecError.Internal ∧
    ex.Next sm ctx = Except.error ExecError.Internal ∧
    ∀ update_records vis : List (List Nat),
      UpdateExecutor.check_unique sm [] update_records vis = Except.ok () := by
  have hp : ex.prepare sm ctx = Except.error ExecError.Internal := by
    unfold UpdateExecutor.prepare
    rw [hfile]
    simp only []
    rw [hrids]
    simp only [List.length_singleton, if_true]
    rw [hlock]
    simp only []
    rw [hwiden]
    simp only []
    rw [hcollect]
    simp only []
    rw [check_unique_present sm _ update_record [] [] hprobe index hin (by rw [hsame]; exact hpresent)]
  refine ⟨hp, ?_, check_unique_no_index sm⟩
  unfold UpdateExecutor.Next
  rw [hp]

theorem update_to_own_key_is_rejected_witness :
    UpdateExecutor.Next ⟨exampleUpdTab, [⟨1, 0⟩], "t", [setInt "a" 1]⟩ exampleUpdHeap
      exampleContext = Except.error ExecError.Internal :=
  (update_to_own_key_is_rejected ⟨exampleUpdTab, [⟨1, 0⟩], "t", [setInt "a" 1]⟩ exampleUpdHeap
    exampleContext
    ((RmFileHandle.withLock (lock_IX_on_table exampleContext.lock_table_ exampleContext.txn_ 3)
      exampleContext.log_mgr_).toOption.getD exampleContext)
    ((RmFileHandle.withLock (lock_shared_on_record
      ((RmFileHandle.withLock (lock_IX_on_table exampleContext.lock_table_ exampleContext.txn_ 3)
        exampleContext.log_mgr_).toOption.getD exampleContext).lock_table_
      ((RmFileHandle.withLock (lock_IX_on_table exampleContext.lock_table_ exampleContext.txn_ 3)
        exampleContext.log_mgr_).toOption.getD exampleContext).txn_ ⟨1, 0⟩ 3)
      exampleContext.log_mgr_).toOption.getD exampleContext)
    ((exampleUpdHeap.file "t").toOption.getD exampleFile)
    ⟨1, 0⟩ [setInt "a" 1] [1, 0, 0, 0, 2, 0, 0, 0] [1, 0, 0, 0, 2, 0, 0, 0]
    ⟨"t_a", [⟨"t", "a", ColType.TYPE_INT, 4, 0, true⟩]⟩
    (by decide!) (by decide!) (by decide!) (by decide!) (by decide!) (by decide!) (by decide!)
    (by decide!) (by decide!) (by decide!)).2.1

/-- C30 (counterexample): on the table `t (a INT, b INT)` with an index on
`a` and the one row `(1, 2)`, the single-row updates `SET a = a + 0` and
`SET a = 1`, whose post-image has the value of `a` that the row has, are
rejected with `InternalError`: the check finds the row's own entry in the
index. -/
theorem update_same_value_rejected :
    UpdateExecutor.Next ⟨exampleUpdTab, [⟨1, 0⟩], "t", [setIntPlus "a" 0]⟩ exampleUpdHeap
      exampleContext = Except.error ExecError.Internal ∧
    UpdateExecutor.Next ⟨exampleUpdTab, [⟨1, 0⟩], "t", [setInt "a" 1]⟩ exampleUpdHeap
      exampleContext = Except.error ExecError.Internal ∧
    (exampleUpdHeap.file "t").toOption.bind (fun fh => (fh.get_record ⟨1, 0⟩).toOption) =
      some [1, 0, 0, 0, 2, 0, 0, 0] := by
  decide!

/-- C40 (divergence): on the table `t (a INT, b INT)` with one index on `a`
and one on `b` and the one row `(1, 2)`, the single-row update
`SET a = 5, b = 5` is rejected with `InternalError`, although 5 is a key of
neither index: the post-image keys of the two indexes have the same four
bytes, and the map `vis` of the uniqueness check is keyed by the key bytes
alone and shared by all indexes.  The update `SET a = 5, b = 6` of the same
row is applied. -/
theorem update_rejects_equal_keys_of_two_indexes :
    UpdateExecutor.Next ⟨exampleUpdTab, [⟨1, 0⟩], "t", [setInt "a" 5, setInt "b" 5]⟩
      exampleUpdHeap exampleContext = Except.error ExecError.Internal ∧
    exampleUpdHeap.is_key_exists "t_a" 5 = Except.ok false ∧
    exampleUpdHeap.is_key_exists "t_b" 5 = Except.ok false ∧
    UpdateExecutor.find_ix_metas exampleUpdTab [setInt "a" 5, setInt "b" 5] =
      exampleUpdTab.indexes ∧
    exampleUpdTab.indexes.map (fun ix => ix.key [5, 0, 0, 0, 5, 0, 0, 0]) =
      [[5, 0, 0, 0], [5, 0, 0, 0]] ∧
    ((UpdateExecutor.Next ⟨exampleUpdTab, [⟨1, 0⟩], "t", [setInt "a" 5, setInt "b" 6]⟩
      exampleUpdHeap exampleContext).toOption.bind
        (fun r => (r.1.file "t").toOption.bind (fun fh => (fh.get_record ⟨1, 0⟩).toOption)))
      = some [5, 0, 0, 0, 6, 0, 0, 0] ∧
    ((UpdateExecutor.Next ⟨exampleUpdTab, [⟨1, 0⟩], "t", [setInt "a" 5, setInt "b" 6]⟩
      exampleUpdHeap exampleContext).toOption.map
        (fun r => (r.1.is_key_exists "t_a" 5, r.1.is_key_exists "t_b" 6,
          r.1.is_key_exists "t_a" 1))) =
      some (Except.ok true, Except.ok true, Except.ok false) := by
  decide!

open IxIndexHandle

open IxIndexHandle

open IxIndexHandle

namespace HashJoinExecutor

end HashJoinExecutor

namespace HashJoinExecutor

end HashJoinExecutor

theorem getD_set_eq' {α : Type} (l : List α) (i j : Nat) (a d : α) :
    (l.set i a).getD j d = if j = i ∧ i < l.length then a else l.getD j d := by
  by_cases hji : j = i
  · subst hji
    by_cases hlt : j < l.length
    · simp [List.getD_eq_getElem?_getD, hlt]
    · rw [List.set_eq_of_length_le (by omega)]
      simp [hlt]
  · have : i ≠ j := fun h => hji h.symm
    simp [List.getD_eq_getElem?_getD, List.getElem?_set_ne this, hji]

theorem length_lswap {α : Type} (d : α) (l : List α) (a b : Nat) :
    (lswap d l a b).length = l.length := by
  simp [lswap]

theorem getD_lswap {α : Type} (d : α) (l : List α) (a b j : Nat)
    (ha : a < l.length) (hb : b < l.length) :
    (lswap d l a b).getD j d =
      if j = b then l.getD a d else if j = a then l.getD b d else l.getD j d := by
  unfold lswap
  rw [getD_set_eq', getD_set_eq']
  simp only [List.length_set]
  by_cases h1 : j = b
  · simp [h1, hb]
  · by_cases h2 : j = a
    · subst h2
      simp [h1, ha]
    · simp [h1, h2]

theorem length_foldl_lswap {α : Type} (d : α) (f g : Nat → Nat) (is : List Nat) (l : List α) :
    (is.foldl (fun l i => lswap d l (f i) (g i)) l).length = l.length := by
  induction is generalizing l with
  | nil => rfl
  | cons a t ih => simp only [List.foldl_cons]; rw [ih, length_lswap]

theorem length_lshiftUp {α : Type} (d : α) (l : List α) (lo cnt n : Nat) :
    (lshiftUp d l lo cnt n).length = l.length :=
  length_foldl_lswap d (fun i => i) (fun i => i + n) _ l

theorem getD_lshiftUp {α : Type} (d : α) (lo n : Nat) (cnt : Nat) :
    ∀ (l : List α), lo + cnt + n ≤ l.length → ∀ j,
      (j < lo → (lshiftUp d l lo cnt n).getD j d = l.getD j d) ∧
      (lo + n ≤ j → j < lo + cnt + n → (lshiftUp d l lo cnt n).getD j d = l.getD (j - n) d) ∧
      (lo + cnt + n ≤ j → (lshiftUp d l lo cnt n).getD j d = l.getD j d) := by
  induction cnt with
  | zero =>
    intro l _ j
    simp only [lshiftUp, List.range'_zero, List.reverse_nil, List.foldl_nil]
    refine ⟨fun _ => trivial, fun h1 h2 => ?_, fun _ => trivial⟩
    omega
  | succ k ih =>
    intro l hlen j
    have hstep : lshiftUp d l lo (k + 1) n = lshiftUp d (lswap d l (lo + k) (lo + k + n)) lo k n := by
      unfold lshiftUp
      rw [List.range'_concat, List.reverse_append]
      simp
    rw [hstep]
    have hl1 : lo + k + n ≤ (lswap d l (lo + k) (lo + k + n)).length := by
      rw [length_lswap]; omega
    obtain ⟨i1, i2, i3⟩ := ih (lswap d l (lo + k) (lo + k + n)) hl1 j
    have hg := fun j' => getD_lswap d l (lo + k) (lo + k + n) j' (by omega) (by omega)
    refine ⟨?_, ?_, ?_⟩
    · intro hj
      rw [i1 hj, hg]
      rw [if_neg (by omega), if_neg (by omega)]
    · intro h1 h2
      by_cases hlast : j = lo + k + n
      · rw [i3 (by omega), hg, if_pos hlast]
        congr 1; omega
      · rw [i2 h1 (by omega), hg, if_neg (by omega), if_neg (by omega)]
    · intro h1
      rw [i3 (by omega), hg, if_neg (by omega), if_neg (by omega)]

theorem length_lshiftDown {α : Type} (d : α) (l : List α) (lo cnt n : Nat) :
    (lshiftDown d l lo cnt n).length = l.length :=
  length_foldl_lswap d (fun i => i) (fun i => i - n) _ l

theorem getD_lshiftDown {α : Type} (d : α) (n : Nat) (cnt : Nat) :
    ∀ (lo : Nat) (l : List α), n ≤ lo → lo + cnt ≤ l.length → ∀ j,
      (j < lo - n → (lshiftDown d l lo cnt n).getD j d = l.getD j d) ∧
      (lo - n ≤ j → j < lo + cnt - n → cnt ≠ 0 →
        (lshiftDown d l lo cnt n).getD j d = l.getD (j + n) d) ∧
      (lo + cnt ≤ j → (lshiftDown d l lo cnt n).getD j d = l.getD j d) := by
  induction cnt with
  | zero =>
    intro lo l _ _ j
    simp only [lshiftDown, List.range'_zero, List.foldl_nil]
    exact ⟨fun _ => trivial, fun _ _ h => absurd rfl h, fun _ => trivial⟩
  | succ k ih =>
    intro lo l hn hlen j
    have hstep : lshiftDown d l lo (k + 1) n = lshiftDown d (lswap d l lo (lo - n)) (lo + 1) k n := by
      unfold lshiftDown
      rw [List.range'_succ]
      simp
    rw [hstep]
    have hl1 : lo + 1 + k ≤ (lswap d l lo (lo - n)).length := by
      rw [length_lswap]; omega
    obtain ⟨i1, i2, i3⟩ := ih (lo + 1) (lswap d l lo (lo - n)) (by omega) hl1 j
    have hg := fun j' => getD_lswap d l lo (lo - n) j' (by omega) (by omega)
    refine ⟨?_, ?_, ?_⟩
    · intro hj
      rw [i1 (by omega), hg, if_neg (by omega), if_neg (by omega)]
    · intro h1 h2 _
      by_cases hfirst : j = lo - n
      · rw [i1 (by omega), hg, if_pos hfirst]
        congr 1; omega
      · have hk : k ≠ 0 := by omega
        rw [i2 (by omega) (by omega) hk, hg]
        by_cases hn0 : n = 0
        · subst hn0
          simp only [Nat.add_zero, Nat.sub_zero]
          rw [if_neg (by omega)]
          simp only [Nat.sub_zero] at hfirst
          rw [if_neg hfirst]
        · rw [if_neg (by omega), if_neg (by omega)]
    · intro h1
      rw [i3 (by omega), hg, if_neg (by omega), if_neg (by omega)]

theorem ix_compare_lt (a b : Int) : ix_compare a b < 0 ↔ a < b := by
  unfold ix_compare
  split
  · simp; assumption
  · split <;> simp <;> omega

theorem ix_compare_le (a b : Int) : ix_compare a b ≤ 0 ↔ a ≤ b := by
  unfold ix_compare
  split
  · simp; omega
  · split <;> simp <;> omega

theorem ix_compare_eq (a b : Int) : ix_compare a b = 0 ↔ a = b := by
  unfold ix_compare
  split
  · simp; omega
  · split <;> simp <;> omega

namespace IxNode

theorem bsearchLoop_spec (n : IxNode) (goLeft : Int → Bool) (sz : Int) (fuel : Nat) :
    ∀ (l r : Int), -1 ≤ l → l < r → r - l ≤ fuel →
      (0 ≤ l → goLeft (n.get_key l.toNat) = true) →
      (r < sz → goLeft (n.get_key r.toNat) = false) →
      l < bsearchLoop n goLeft fuel l r ∧ bsearchLoop n goLeft fuel l r ≤ r ∧
      (0 < bsearchLoop n goLeft fuel l r →
        goLeft (n.get_key (bsearchLoop n goLeft fuel l r - 1).toNat) = true) ∧
      (bsearchLoop n goLeft fuel l r < sz →
        goLeft (n.get_key (bsearchLoop n goLeft fuel l r).toNat) = false) := by
  induction fuel with
  | zero =>
    intro l r _ h2 h3 _ _
    omega
  | succ k ih =>
    intro l r h1 h2 h3 hL hR
    unfold bsearchLoop
    by_cases hgap : r - l > 1
    · simp only [hgap, if_true]
      have hmid1 : l < l + (r - l) / 2 := by omega
      have hmid2 : l + (r - l) / 2 < r := by omega
      by_cases hg : goLeft (n.get_key (l + (r - l) / 2).toNat) = true
      · simp only [hg, if_true]
        obtain ⟨a, b, c, d⟩ := ih (l + (r - l) / 2) r (by omega) hmid2 (by omega)
          (fun _ => hg) hR
        exact ⟨by omega, b, c, d⟩
      · have hg' : goLeft (n.get_key (l + (r - l) / 2).toNat) = false := by simpa using hg
        simp only [hg', Bool.false_eq_true, if_false]
        obtain ⟨a, b, c, d⟩ := ih l (l + (r - l) / 2) h1 hmid1 (by omega) hL (fun _ => hg')
        exact ⟨a, by omega, c, d⟩
    · simp only [hgap, if_false]
      have hr : r = l + 1 := by omega
      refine ⟨h2, le_refl _, ?_, hR⟩
      intro hpos
      have : r - 1 = l := by omega
      rw [this]
      exact hL (by omega)

theorem get_key_live (n : IxNode) (j : Nat) (h : j < n.num_key) :
    n.liveKeys.getD j 0 = n.get_key j := by
  unfold liveKeys get_key
  simp only [List.getD_eq_getElem?_getD, List.getElem?_take, h, if_true]

theorem lower_bound_le (n : IxNode) (t : Int) : n.lower_bound t ≤ n.num_key := by
  unfold lower_bound
  have := (bsearchLoop_spec n (fun k => decide (ix_compare k t < 0)) n.num_key (n.num_key + 1)
    (-1) n.num_key (le_refl _) (by omega) (by omega) (by intro h; omega) (by intro h; omega))
  omega

theorem upper_bound_le (n : IxNode) (t : Int) : n.upper_bound t ≤ n.num_key := by
  unfold upper_bound
  have := (bsearchLoop_spec n (fun k => decide (ix_compare k t ≤ 0)) n.num_key (n.num_key + 1)
    (-1) n.num_key (le_refl _) (by omega) (by omega) (by intro h; omega) (by intro h; omega))
  omega

theorem lower_bound_spec (n : IxNode) (t : Int) (hs : n.KeysSorted) :
    (∀ j, j < n.lower_bound t → n.get_key j < t) ∧
    (∀ j, n.lower_bound t ≤ j → j < n.num_key → t ≤ n.get_key j) := by
  have h := (bsearchLoop_spec n (fun k => decide (ix_compare k t < 0)) n.num_key (n.num_key + 1)
    (-1) n.num_key (le_refl _) (by omega) (by omega) (by intro h; omega) (by intro h; omega))
  have hle := lower_bound_le n t
  unfold lower_bound at hle ⊢
  generalize bsearchLoop n (fun k => decide (ix_compare k t < 0)) (n.num_key + 1) (-1) n.num_key
    = res at h hle ⊢
  obtain ⟨h1, h2, h3, h4⟩ := h
  simp only [decide_eq_true_eq, decide_eq_false_iff_not, ix_compare_lt, not_lt] at h3 h4
  constructor
  · intro j hj
    have hpos : 0 < res := by omega
    have hb := h3 hpos
    have e : (res - 1).toNat = res.toNat - 1 := by omega
    rw [e] at hb
    by_cases hjj : j = res.toNat - 1
    · rw [hjj]; exact hb
    · exact lt_trans (hs j (res.toNat - 1) (by omega) (by omega)) hb
  · intro j hj hjn
    have hb := h4 (by omega)
    by_cases hjj : j = res.toNat
    · rw [hjj]; exact hb
    · exact le_of_lt (lt_of_le_of_lt hb (hs res.toNat j (by omega) hjn))

theorem upper_bound_spec (n : IxNode) (t : Int) (hs : n.KeysSorted) :
    (∀ j, j < n.upper_bound t → n.get_key j ≤ t) ∧
    (∀ j, n.upper_bound t ≤ j → j < n.num_key → t < n.get_key j) := by
  have h := (bsearchLoop_spec n (fun k => decide (ix_compare k t ≤ 0)) n.num_key (n.num_key + 1)
    (-1) n.num_key (le_refl _) (by omega) (by omega) (by intro h; omega) (by intro h; omega))
  have hle := upper_bound_le n t
  unfold upper_bound at hle ⊢
  generalize bsearchLoop n (fun k => decide (ix_compare k t ≤ 0)) (n.num_key + 1) (-1) n.num_key
    = res at h hle ⊢
  obtain ⟨h1, h2, h3, h4⟩ := h
  simp only [decide_eq_true_eq, decide_eq_false_iff_not, ix_compare_le, not_le] at h3 h4
  constructor
  · intro j hj
    have hpos : 0 < res := by omega
    have hb := h3 hpos
    have e : (res - 1).toNat = res.toNat - 1 := by omega
    rw [e] at hb
    by_cases hjj : j = res.toNat - 1
    · rw [hjj]; exact hb
    · exact le_of_lt (lt_of_lt_of_le (hs j (res.toNat - 1) (by omega) (by omega)) hb)
  · intro j hj hjn
    have hb := h4 (by omega)
    by_cases hjj : j = res.toNat
    · rw [hjj]; exact hb
    · exact lt_trans hb (hs res.toNat j (by omega) hjn)

/-- The index that `lower_bound` returns is the only one that splits the
keys into those below the target and those not below it. -/
theorem lower_bound_unique (n : IxNode) (t : Int) (hs : n.KeysSorted) (c : Nat)
    (hc : c ≤ n.num_key) (h1 : ∀ j, j < c → n.get_key j < t)
    (h2 : ∀ j, c ≤ j → j < n.num_key → t ≤ n.get_key j) : n.lower_bound t = c := by
  obtain ⟨a, b⟩ := lower_bound_spec n t hs
  have hle := lower_bound_le n t
  by_contra hne
  rcases Nat.lt_or_gt_of_ne hne with h | h
  · have := h1 (n.lower_bound t) h
    have := b (n.lower_bound t) (le_refl _) (by omega)
    omega
  · have := a c h
    have := h2 c (le_refl _) (by omega)
    omega

theorem upper_bound_unique (n : IxNode) (t : Int) (hs : n.KeysSorted) (c : Nat)
    (hc : c ≤ n.num_key) (h1 : ∀ j, j < c → n.get_key j ≤ t)
    (h2 : ∀ j, c ≤ j → j < n.num_key → t < n.get_key j) : n.upper_bound t = c := by
  obtain ⟨a, b⟩ := upper_bound_spec n t hs
  have hle := upper_bound_le n t
  by_contra hne
  rcases Nat.lt_or_gt_of_ne hne with h | h
  · have := h1 (n.upper_bound t) h
    have := b (n.upper_bound t) (le_refl _) (by omega)
    omega
  · have := a c h
    have := h2 c (le_refl _) (by omega)
    omega

end IxNode

namespace IxNode

theorem key_swap_eq (n : IxNode) (a b : Nat) :
    n.key_swap a b = { n with keys := lswap 0 n.keys a b } := rfl

theorem rid_swap_eq (n : IxNode) (a b : Nat) :
    n.rid_swap a b = { n with rids := lswap ⟨0, 0⟩ n.rids a b } := rfl

theorem foldl_key_swap (f g : Nat → Nat) (is : List Nat) (n : IxNode) :
    is.foldl (fun nd i => nd.key_swap (f i) (g i)) n =
      { n with keys := is.foldl (fun l i => lswap 0 l (f i) (g i)) n.keys } := by
  induction is generalizing n with
  | nil => rfl
  | cons a t ih =>
    simp only [List.foldl_cons]
    rw [ih, key_swap_eq]

theorem foldl_rid_swap (f g : Nat → Nat) (is : List Nat) (n : IxNode) :
    is.foldl (fun nd i => nd.rid_swap (f i) (g i)) n =
      { n with rids := is.foldl (fun l i => lswap ⟨0, 0⟩ l (f i) (g i)) n.rids } := by
  induction is generalizing n with
  | nil => rfl
  | cons a t ih =>
    simp only [List.foldl_cons]
    rw [ih, rid_swap_eq]

theorem shiftUp_key (n : IxNode) (lo hi m : Nat) :
    shiftUp key_swap n lo hi m = { n with keys := lshiftUp 0 n.keys lo (hi - lo) m } := by
  unfold shiftUp lshiftUp
  exact foldl_key_swap (fun i => i) (fun i => i + m) _ n

theorem shiftUp_rid (n : IxNode) (lo hi m : Nat) :
    shiftUp rid_swap n lo hi m = { n with rids := lshiftUp ⟨0, 0⟩ n.rids lo (hi - lo) m } := by
  unfold shiftUp lshiftUp
  exact foldl_rid_swap (fun i => i) (fun i => i + m) _ n

theorem shiftDown_key (n : IxNode) (lo hi m : Nat) :
    shiftDown key_swap n lo hi m = { n with keys := lshiftDown 0 n.keys lo (hi - lo) m } := by
  unfold shiftDown lshiftDown
  exact foldl_key_swap (fun i => i) (fun i => i - m) _ n

theorem shiftDown_rid (n : IxNode) (lo hi m : Nat) :
    shiftDown rid_swap n lo hi m = { n with rids := lshiftDown ⟨0, 0⟩ n.rids lo (hi - lo) m } := by
  unfold shiftDown lshiftDown
  exact foldl_rid_swap (fun i => i) (fun i => i - m) _ n

end IxNode

/-- The loop `for (i = hi; i > lo; i--) swap(i - 1, i)` is the upward shift
by one slot. -/
theorem foldl_swap_pred {α : Type} (d : α) (l : List α) (lo cnt : Nat) :
    ((List.range' (lo + 1) cnt).reverse).foldl (fun l i => lswap d l (i - 1) i) l =
      lshiftUp d l lo cnt 1 := by
  unfold lshiftUp
  have : ∀ (c a : Nat), List.range' (a + 1) c = (List.range' a c).map (· + 1) := by
    intro c
    induction c with
    | zero => intro a; rfl
    | succ k ih => intro a; rw [List.range'_succ, List.range'_succ, List.map_cons, ih (a + 1)]
  have := this cnt lo
  rw [this, ← List.map_reverse, List.foldl_map]
  rfl

/-- The loop `for (i = lo; i < lo + cnt; i++) swap(i, i - 1)` is the
downward shift by one slot. -/
theorem foldl_swap_down {α : Type} (d : α) (l : List α) (lo cnt : Nat) :
    (List.range' lo cnt).foldl (fun l i => lswap d l i (i - 1)) l = lshiftDown d l lo cnt 1 :=
  rfl

/-- Insertion of `x` at slot `pos` of an array whose slots `[0, size)` are
in use: what the slots `[0, size]` hold afterwards. -/
theorem getD_insert_slot {α : Type} (d : α) (l : List α) (pos size : Nat) (x : α)
    (hp : pos ≤ size) (hs : size < l.length) (j : Nat) (hj : j ≤ size) :
    ((lshiftUp d l pos (size - pos) 1).set pos x).getD j d =
      if j < pos then l.getD j d else if j = pos then x else l.getD (j - 1) d := by
  rw [getD_set_eq', length_lshiftUp]
  obtain ⟨h1, h2, _⟩ := getD_lshiftUp d pos 1 (size - pos) l (by omega) j
  by_cases hjp : j = pos
  · rw [if_pos ⟨hjp, by omega⟩, if_neg (by omega), if_pos hjp]
  · rw [if_neg (by intro h; exact hjp h.1)]
    by_cases hlt : j < pos
    · rw [if_pos hlt, h1 hlt]
    · rw [if_neg hlt, if_neg hjp, h2 (by omega) (by omega)]

/-- Removal of slot `pos` from an array whose slots `[0, size)` are in use:
what the slots `[0, size - 1)` hold afterwards. -/
theorem getD_erase_slot {α : Type} (d : α) (l : List α) (pos size : Nat)
    (hp : pos < size) (hs : size ≤ l.length) (j : Nat) (hj : j + 1 < size) :
    (lshiftDown d l (pos + 1) (size - (pos + 1)) 1).getD j d =
      if j < pos then l.getD j d else l.getD (j + 1) d := by
  obtain ⟨h1, h2, _⟩ := getD_lshiftDown d 1 (size - (pos + 1)) (pos + 1) l (by omega) (by omega) j
  by_cases hlt : j < pos
  · rw [if_pos hlt, h1 (by omega)]
  · rw [if_neg hlt, h2 (by omega) (by omega) (by omega)]

theorem length_lwrite {α : Type} (d : α) (l : List α) (pos : Nat) (src : List α) :
    (lwrite d l pos src).length = l.length := by
  unfold lwrite
  generalize List.range src.length = is
  induction is generalizing l with
  | nil => rfl
  | cons a t ih => simp only [List.foldl_cons]; rw [ih]; simp

theorem getD_lwrite_aux {α : Type} (d : α) (pos : Nat) (src : List α) (m : Nat) :
    ∀ (l : List α), pos + m ≤ l.length → ∀ j,
      ((List.range m).foldl (fun l i => l.set (pos + i) (src.getD i d)) l).getD j d =
        if pos ≤ j ∧ j < pos + m then src.getD (j - pos) d else l.getD j d := by
  induction m with
  | zero =>
    intro l _ j
    simp only [List.range_zero, List.foldl_nil]
    rw [if_neg (by omega)]
  | succ k ih =>
    intro l hl j
    rw [List.range_succ, List.foldl_append]
    simp only [List.foldl_cons, List.foldl_nil]
    rw [getD_set_eq']
    have hlen : ((List.range k).foldl (fun l i => l.set (pos + i) (src.getD i d)) l).length
        = l.length := by
      generalize List.range k = is
      induction is generalizing l with
      | nil => rfl
      | cons a t ih2 => simp only [List.foldl_cons]; rw [ih2]; simp; simp; omega
    rw [hlen, ih l (by omega) j]
    by_cases h1 : j = pos + k
    · rw [if_pos ⟨h1, by omega⟩, if_pos ⟨by omega, by omega⟩]
      congr 1; omega
    · rw [if_neg (by intro h; exact h1 h.1)]
      by_cases h2 : pos ≤ j ∧ j < pos + k
      · rw [if_pos h2, if_pos ⟨h2.1, by omega⟩]
      · rw [if_neg h2, if_neg (by omega)]

theorem getD_lwrite {α : Type} (d : α) (l : List α) (pos : Nat) (src : List α)
    (h : pos + src.length ≤ l.length) (j : Nat) :
    (lwrite d l pos src).getD j d =
      if pos ≤ j ∧ j < pos + src.length then src.getD (j - pos) d else l.getD j d :=
  getD_lwrite_aux d pos src src.length l h j

namespace IxNode

theorem writeKeys_eq (n : IxNode) (pos : Nat) (src : List Int) :
    writeKeys n pos src = { n with keys := lwrite 0 n.keys pos src } := by
  unfold writeKeys lwrite
  generalize List.range src.length = is
  induction is generalizing n with
  | nil => rfl
  | cons a t ih => simp only [List.foldl_cons]; rw [ih]; rfl

theorem writeRids_eq (n : IxNode) (pos : Nat) (src : List Rid) :
    writeRids n pos src = { n with rids := lwrite ⟨0, 0⟩ n.rids pos src } := by
  unfold writeRids lwrite
  generalize List.range src.length = is
  induction is generalizing n with
  | nil => rfl
  | cons a t ih => simp only [List.foldl_cons]; rw [ih]; rfl

/-- `insert_pairs` when its guards pass. -/
theorem insert_pairs_eq (order : Nat) (n : IxNode) (kp rp : Nat) (key : List Int)
    (rid : List Rid) (m : Nat) (h1 : kp ≤ n.num_key) (h2 : rp ≤ n.get_num_vals)
    (h3 : n.num_key + m ≤ order) :
    insert_pairs order n kp rp key rid m = Except.ok
      { n with keys := lwrite 0 (lshiftUp 0 n.keys kp (n.num_key - kp) m) kp (key.take m),
               rids := lwrite ⟨0, 0⟩ (lshiftUp ⟨0, 0⟩ n.rids rp (n.get_num_vals - rp) m) rp
                 (rid.take m),
               num_key := n.num_key + m } := by
  unfold insert_pairs
  simp only [get_size]
  rw [if_neg (by omega), if_neg (by omega)]
  have h4 : ¬ ((n.is_leaf && decide (n.num_key + m > order + 1)) = true) := by
    simp only [Bool.and_eq_true, decide_eq_true_eq, not_and]
    intro _; omega
  rw [if_neg h4, if_neg (by omega)]
  rw [shiftUp_key, shiftUp_rid, writeKeys_eq, writeRids_eq]
  rfl

/-- What `insert_pairs` leaves in the slots in use. -/
theorem insert_pairs_spec (order : Nat) (n : IxNode) (kp rp : Nat) (key : List Int)
    (rid : List Rid) (m : Nat) (hok : n.keys.length = order + 2 ∧ n.rids.length = order + 2)
    (h1 : kp ≤ n.num_key) (h2 : rp ≤ n.get_num_vals)
    (h3 : n.num_key + m ≤ order) (hk : m ≤ key.length) (hr : m ≤ rid.length) :
    ∃ n', insert_pairs order n kp rp key rid m = Except.ok n' ∧
      n'.num_key = n.num_key + m ∧ n.SameMeta n' ∧
      (∀ j, j < n.num_key + m → n'.get_key j =
        if j < kp then n.get_key j else if j < kp + m then key.getD (j - kp) 0
        else n.get_key (j - m)) ∧
      (∀ j, j < n.get_num_vals + m → n'.get_rid j =
        if j < rp then n.get_rid j else if j < rp + m then rid.getD (j - rp) ⟨0, 0⟩
        else n.get_rid (j - m)) := by
  have hv : n.get_num_vals ≤ n.num_key + 1 := by unfold get_num_vals; split <;> omega
  refine ⟨_, insert_pairs_eq order n kp rp key rid m h1 h2 h3, rfl, ?_, ?_, ?_⟩
  · refine ⟨rfl, rfl, rfl, rfl, ?_, ?_⟩
    · show (lwrite _ _ _ _).length = _
      rw [length_lwrite, length_lshiftUp]
    · show (lwrite _ _ _ _).length = _
      rw [length_lwrite, length_lshiftUp]
  · intro j hj
    show (lwrite 0 (lshiftUp 0 n.keys kp (n.num_key - kp) m) kp (key.take m)).getD j 0 = _
    have hlen : (key.take m).length = m := by simp; omega
    rw [getD_lwrite _ _ _ _ (by rw [hlen, length_lshiftUp]; omega), hlen]
    obtain ⟨a, b, _⟩ := getD_lshiftUp 0 kp m (n.num_key - kp) n.keys (by omega) j
    by_cases hj1 : j < kp
    · rw [if_neg (by omega), if_pos hj1, a hj1]; rfl
    · rw [if_neg hj1]
      by_cases hj2 : j < kp + m
      · rw [if_pos ⟨by omega, hj2⟩, if_pos hj2]
        simp only [List.getD_eq_getElem?_getD, List.getElem?_take]
        rw [if_pos (by omega)]
      · rw [if_neg (by omega), if_neg hj2, b (by omega) (by omega)]; rfl
  · intro j hj
    show (lwrite ⟨0, 0⟩ (lshiftUp ⟨0, 0⟩ n.rids rp (n.get_num_vals - rp) m) rp
      (rid.take m)).getD j ⟨0, 0⟩ = _
    have hlen : (rid.take m).length = m := by simp; omega
    rw [getD_lwrite _ _ _ _ (by rw [hlen, length_lshiftUp]; omega), hlen]
    obtain ⟨a, b, _⟩ := getD_lshiftUp (⟨0, 0⟩ : Rid) rp m (n.get_num_vals - rp) n.rids
      (by omega) j
    by_cases hj1 : j < rp
    · rw [if_neg (by omega), if_pos hj1, a hj1]; rfl
    · rw [if_neg hj1]
      by_cases hj2 : j < rp + m
      · rw [if_pos ⟨by omega, hj2⟩, if_pos hj2]
        simp only [List.getD_eq_getElem?_getD, List.getElem?_take]
        rw [if_pos (by omega)]
      · rw [if_neg (by omega), if_neg hj2, b (by omega) (by omega)]; rfl

end IxNode

namespace IxNode

theorem get_num_vals_leaf {n : IxNode} (h : n.is_leaf = true) : n.get_num_vals = n.num_key := by
  unfold get_num_vals; rw [if_pos h]

theorem get_num_vals_internal {n : IxNode} (h : n.is_leaf = false) :
    n.get_num_vals = n.num_key + 1 := by
  unfold get_num_vals; rw [h]; simp

/-- `insert` of a key that the node does not hold. -/
theorem insert_eq (n : IxNode) (key : Int) (value : Rid)
    (hnd : ∀ j, j < n.num_key → n.get_key j ≠ key) :
    n.insert key value = Except.ok
      ({ n with
          keys := (lshiftUp 0 n.keys (n.lower_bound key) (n.num_key - n.lower_bound key) 1).set
            (n.lower_bound key) key,
          rids := if n.is_leaf then
              (lshiftUp ⟨0, 0⟩ n.rids (n.lower_bound key) (n.num_key - n.lower_bound key) 1).set
                (n.lower_bound key) value
            else
              (lshiftUp ⟨0, 0⟩ n.rids (n.lower_bound key + 1)
                (n.num_key - n.lower_bound key) 1).set (n.lower_bound key + 1) value,
          num_key := n.num_key + 1 }, n.num_key + 1) := by
  unfold insert
  have hdup : ¬ (n.lower_bound key ≠ n.num_key ∧
      ix_compare key (n.get_key (n.lower_bound key)) = 0) := by
    rintro ⟨h1, h2⟩
    rw [ix_compare_eq] at h2
    have := lower_bound_le n key
    exact hnd _ (by omega) h2.symm
  simp only [hdup, if_false, get_size]
  rw [foldl_key_swap (fun i => i - 1) (fun i => i)]
  simp only [set_key]
  rw [foldl_swap_pred]
  cases hl : n.is_leaf with
  | true =>
    simp only [if_true]
    rw [foldl_rid_swap (fun i => i - 1) (fun i => i)]
    simp only [set_rid]
    rw [foldl_swap_pred]
  | false =>
    simp only [Bool.false_eq_true, if_false]
    rw [foldl_rid_swap (fun i => i - 1) (fun i => i)]
    simp only [set_rid]
    have e : n.num_key + 1 - (n.lower_bound key + 1) = n.num_key - n.lower_bound key := by omega
    rw [e, show n.lower_bound key + 2 = (n.lower_bound key + 1) + 1 from rfl, foldl_swap_pred]

/-- What `insert` leaves in the slots in use. -/
theorem insert_spec (order : Nat) (n : IxNode) (key : Int) (value : Rid)
    (hok : n.NodeOK order) (hnd : ∀ j, j < n.num_key → n.get_key j ≠ key) :
    ∃ n', n.insert key value = Except.ok (n', n.num_key + 1) ∧
      n'.num_key = n.num_key + 1 ∧ n.SameMeta n' ∧
      (∀ j, j ≤ n.num_key → n'.get_key j =
        if j < n.lower_bound key then n.get_key j
        else if j = n.lower_bound key then key else n.get_key (j - 1)) ∧
      (n.is_leaf = true → ∀ j, j ≤ n.num_key → n'.get_rid j =
        if j < n.lower_bound key then n.get_rid j
        else if j = n.lower_bound key then value else n.get_rid (j - 1)) ∧
      (n.is_leaf = false → ∀ j, j ≤ n.num_key + 1 → n'.get_rid j =
        if j < n.lower_bound key + 1 then n.get_rid j
        else if j = n.lower_bound key + 1 then value else n.get_rid (j - 1)) := by
  obtain ⟨hk, hr, hv⟩ := hok
  have hle := lower_bound_le n key
  refine ⟨_, insert_eq n key value hnd, rfl, ?_, ?_, ?_, ?_⟩
  · refine ⟨rfl, rfl, rfl, rfl, ?_, ?_⟩
    · show (List.set _ _ _).length = _
      rw [List.length_set, length_lshiftUp]
    · show (ite _ _ _ : List Rid).length = _
      split <;> rw [List.length_set, length_lshiftUp]
  · intro j hj
    have hnk : n.num_key < n.keys.length := by
      unfold get_num_vals at hv; split at hv <;> omega
    exact getD_insert_slot 0 n.keys (n.lower_bound key) n.num_key key hle hnk j hj
  · intro hl j hj
    have hnk : n.num_key < n.rids.length := by
      rw [get_num_vals_leaf hl] at hv; omega
    show (ite _ _ _ : List Rid).getD j ⟨0, 0⟩ = _
    rw [if_pos hl]
    exact getD_insert_slot ⟨0, 0⟩ n.rids (n.lower_bound key) n.num_key value hle hnk j hj
  · intro hl j hj
    have hnk : n.num_key + 1 < n.rids.length := by
      rw [get_num_vals_internal hl] at hv; omega
    show (ite _ _ _ : List Rid).getD j ⟨0, 0⟩ = _
    rw [if_neg (by rw [hl]; simp)]
    have e : n.num_key - n.lower_bound key = (n.num_key + 1) - (n.lower_bound key + 1) := by
      omega
    rw [e]
    exact getD_insert_slot ⟨0, 0⟩ n.rids (n.lower_bound key + 1) (n.num_key + 1) value
      (by omega) hnk j hj

/-- `erase_pair` of a slot in use. -/
theorem erase_pair_eq (n : IxNode) (pos : Nat) (h : pos < n.num_key) :
    n.erase_pair pos =
      { n with
          keys := lshiftDown 0 (n.keys.set pos 0) (pos + 1) (n.num_key - (pos + 1)) 1,
          rids := if n.is_leaf then
              lshiftDown ⟨0, 0⟩ n.rids (pos + 1) (n.get_num_vals - (pos + 1)) 1
            else lshiftDown ⟨0, 0⟩ n.rids (pos + 2) (n.get_num_vals - (pos + 2)) 1,
          num_key := n.num_key - 1 } := by
  unfold erase_pair
  simp only [get_size]
  rw [if_neg (by omega)]
  simp only [set_key]
  rw [shiftDown_key]
  cases hl : n.is_leaf with
  | true =>
    simp only [if_true]
    rw [shiftDown_rid]
    simp only [get_num_vals, hl, if_true]
  | false =>
    simp only [Bool.false_eq_true, if_false]
    rw [shiftDown_rid]
    simp only [get_num_vals, hl, Bool.false_eq_true, if_false]

/-- What `erase_pair` leaves in the slots in use. -/
theorem erase_pair_spec (order : Nat) (n : IxNode) (pos : Nat) (hok : n.NodeOK order)
    (h : pos < n.num_key) :
    (n.erase_pair pos).num_key = n.num_key - 1 ∧ n.SameMeta (n.erase_pair pos) ∧
      (∀ j, j + 1 < n.num_key → (n.erase_pair pos).get_key j =
        if j < pos then n.get_key j else n.get_key (j + 1)) ∧
      (n.is_leaf = true → ∀ j, j + 1 < n.num_key → (n.erase_pair pos).get_rid j =
        if j < pos then n.get_rid j else n.get_rid (j + 1)) ∧
      (n.is_leaf = false → ∀ j, j < n.num_key → (n.erase_pair pos).get_rid j =
        if j < pos + 1 then n.get_rid j else n.get_rid (j + 1)) := by
  obtain ⟨hk, hr, hv⟩ := hok
  rw [erase_pair_eq n pos h]
  refine ⟨rfl, ?_, ?_, ?_, ?_⟩
  · refine ⟨rfl, rfl, rfl, rfl, ?_, ?_⟩
    · show (lshiftDown _ _ _ _ _).length = _
      rw [length_lshiftDown, List.length_set]
    · show (ite _ _ _ : List Rid).length = _
      split <;> rw [length_lshiftDown]
  · intro j hj
    have hnk : n.num_key ≤ (n.keys.set pos 0).length := by
      rw [List.length_set]
      unfold get_num_vals at hv; split at hv <;> omega
    show (lshiftDown 0 (n.keys.set pos 0) (pos + 1) (n.num_key - (pos + 1)) 1).getD j 0 = _
    rw [getD_erase_slot 0 (n.keys.set pos 0) pos n.num_key h hnk j hj]
    rw [getD_set_eq', getD_set_eq']
    by_cases hlt : j < pos
    · rw [if_pos hlt, if_neg (by omega), if_pos hlt]; rfl
    · rw [if_neg hlt, if_neg (by omega), if_neg hlt]; rfl
  · intro hl j hj
    have hnv := get_num_vals_leaf hl
    show (ite _ _ _ : List Rid).getD j ⟨0, 0⟩ = _
    rw [if_pos hl, hnv]
    exact getD_erase_slot ⟨0, 0⟩ n.rids pos n.num_key h (by omega) j hj
  · intro hl j hj
    have hnv := get_num_vals_internal hl
    show (ite _ _ _ : List Rid).getD j ⟨0, 0⟩ = _
    rw [if_neg (by rw [hl]; simp), hnv]
    exact getD_erase_slot ⟨0, 0⟩ n.rids (pos + 1) (n.num_key + 1) (by omega) (by omega) j
      (by omega)

end IxNode

namespace IxIndexHandle

theorem bind_run {α β : Type} {x : IxM α} {f : α → IxM β} {s s1 : IxIndexHandle} {a : α}
    (h : x s = (Except.ok a, s1)) : (x >>= f) s = f a s1 := by
  show IxM.bind x f s = _
  unfold IxM.bind
  rw [h]

theorem bind_err {α β : Type} {x : IxM α} {f : α → IxM β} {s s1 : IxIndexHandle} {e : IxError}
    (h : x s = (Except.error e, s1)) : (x >>= f) s = (Except.error e, s1) := by
  show IxM.bind x f s = _
  unfold IxM.bind
  rw [h]

theorem pure_run {α : Type} (a : α) (s : IxIndexHandle) :
    (Pure.pure a : IxM α) s = (Except.ok a, s) := rfl

theorem getHdr_run (s : IxIndexHandle) : IxM.getHdr s = (Except.ok s.file_hdr_, s) := rfl

theorem setHdr_run (h : IxFileHdr) (s : IxIndexHandle) :
    IxM.setHdr h s = (Except.ok (), { s with file_hdr_ := h }) := rfl

theorem lift_run {α : Type} (r : Except IxError α) (s : IxIndexHandle) :
    IxM.lift r s = (r, s) := rfl

theorem getP_some_iff {s : IxIndexHandle} {p : Int} {n : IxNode} :
    s.getP p = some n ↔ 0 ≤ p ∧ s.pages.get? p.toNat = some n := by
  unfold getP
  split
  · constructor
    · intro h; simp at h
    · intro h; omega
  · constructor
    · intro h; exact ⟨by omega, h⟩
    · intro h; exact h.2

theorem getP_lt {s : IxIndexHandle} {p : Int} {n : IxNode} (h : s.getP p = some n) :
    0 ≤ p ∧ p < s.pages.length := by
  rw [getP_some_iff] at h
  have := (List.get?_eq_some.1 h.2).1
  omega

theorem fetch_run {s : IxIndexHandle} {p : Int} {n : IxNode} (h : s.getP p = some n) :
    fetch_node p s = (Except.ok n, s) := by
  rw [getP_some_iff] at h
  unfold fetch_node
  rw [if_neg (by omega), h.2]

theorem fetch_none {s : IxIndexHandle} {p : Int} (h : s.getP p = none) :
    fetch_node p s = (Except.error IxError.PageNotExist, s) := by
  unfold getP at h
  unfold fetch_node
  split
  · rfl
  · rename_i hp
    rw [if_neg hp] at h
    rw [h]

theorem store_run {s : IxIndexHandle} {p : Int} (n : IxNode) (h : 0 ≤ p) :
    store_node p n s = (Except.ok (), s.put p n) := by
  unfold store_node put
  rw [if_neg (by omega)]

theorem getP_put {s : IxIndexHandle} {p : Int} {n0 : IxNode} (n : IxNode)
    (h : s.getP p = some n0) (q : Int) :
    (s.put p n).getP q = if q = p then some n else s.getP q := by
  have hlt := getP_lt h
  unfold getP put
  by_cases hq : q < 0
  · rw [if_pos hq, if_pos hq, if_neg (by omega)]
  · rw [if_neg hq, if_neg hq]
    simp only [List.get?_eq_getElem?]
    by_cases hqp : q = p
    · subst hqp
      rw [if_pos rfl, List.getElem?_set_self (by omega)]
    · rw [if_neg hqp, List.getElem?_set_ne (by omega)]

theorem hdr_put (s : IxIndexHandle) (p : Int) (n : IxNode) :
    (s.put p n).file_hdr_ = s.file_hdr_ := rfl

theorem length_put (s : IxIndexHandle) (p : Int) (n : IxNode) :
    (s.put p n).pages.length = s.pages.length := by
  unfold put; simp

theorem getP_setHdr (s : IxIndexHandle) (h : IxFileHdr) (q : Int) :
    ({ s with file_hdr_ := h } : IxIndexHandle).getP q = s.getP q := rfl

theorem new_page_run (s : IxIndexHandle) :
    new_page s = (Except.ok (s.pages.length : Int), s.grow) := rfl

theorem getP_grow (s : IxIndexHandle) (q : Int) :
    s.grow.getP q = if q = s.pages.length then some (blankNode s.file_hdr_.btree_order_)
      else s.getP q := by
  unfold getP grow
  by_cases hq : q < 0
  · rw [if_pos hq, if_pos hq, if_neg (by omega)]
  · rw [if_neg hq, if_neg hq]
    simp only [List.get?_eq_getElem?]
    by_cases hqp : q = s.pages.length
    · rw [if_pos hqp, List.getElem?_append_right (by omega)]
      have : q.toNat - s.pages.length = 0 := by omega
      rw [this]; rfl
    · rw [if_neg hqp]
      by_cases hlt : q.toNat < s.pages.length
      · rw [List.getElem?_append_left hlt]
      · rw [List.getElem?_eq_none (by simp only [List.length_append, List.length_singleton]; omega),
          List.getElem?_eq_none (by omega)]

theorem getP_ge_none {s : IxIndexHandle} {q : Int} (h : (s.pages.length : Int) ≤ q) :
    s.getP q = none := by
  unfold getP
  rw [if_neg (by omega)]
  simp only [List.get?_eq_getElem?]
  exact List.getElem?_eq_none (by omega)

theorem length_grow (s : IxIndexHandle) : s.grow.pages.length = s.pages.length + 1 := by
  unfold grow; simp

theorem hdr_grow (s : IxIndexHandle) : s.grow.file_hdr_ = s.file_hdr_ := rfl

end IxIndexHandle

namespace IxIndexHandle

theorem root_find_leaf (s : IxIndexHandle) (n : IxNode)
    (h : s.getP s.file_hdr_.root_page_ = some n) (hl : n.is_leaf = true) (k : Int) :
    find_leaf_page k s = (Except.ok s.file_hdr_.root_page_, s) := by
  unfold find_leaf_page
  rw [bind_run (getHdr_run s)]
  show find_leaf_loop k (s.pages.length + 1) s.file_hdr_.root_page_ s = _
  rw [find_leaf_loop, bind_run (fetch_run h)]
  simp only [hl, if_true]
  rfl

theorem root_maintain_parent (s : IxIndexHandle) (n : IxNode)
    (h : s.getP s.file_hdr_.root_page_ = some n) (a b : Int) :
    maintain_parent s.file_hdr_.root_page_ a b s = (Except.ok (), s) := by
  unfold maintain_parent
  rw [bind_run (fetch_run h)]
  show maintain_parent_loop a b (s.pages.length + 1) s.file_hdr_.root_page_ n.parent s = _
  rw [maintain_parent_loop, bind_run (getHdr_run s)]
  simp only [ne_eq, not_true_eq_false, if_false]
  rfl

theorem root_insert_entry (s : IxIndexHandle) (n n1 : IxNode) (k : Int) (r : Rid) (m : Nat)
    (h : s.getP s.file_hdr_.root_page_ = some n) (hl : n.is_leaf = true)
    (hins : n.insert k r = Except.ok (n1, m)) (hm : m ≤ s.file_hdr_.btree_order_) :
    insert_entry k r s = (Except.ok s.file_hdr_.root_page_, s.put s.file_hdr_.root_page_ n1) := by
  have h0 := (getP_lt h).1
  have h1 : (s.put s.file_hdr_.root_page_ n1).getP
      (s.put s.file_hdr_.root_page_ n1).file_hdr_.root_page_ = some n1 := by
    rw [hdr_put, getP_put n1 h, if_pos rfl]
  unfold insert_entry
  rw [bind_run (root_find_leaf s n h hl k), bind_run (fetch_run h)]
  simp only []
  rw [bind_run (show IxM.lift (n.insert k r) s = (Except.ok (n1, m), s) by rw [lift_run, hins])]
  simp only []
  rw [bind_run (store_run n1 h0)]
  have hmp : ∀ a b, maintain_parent s.file_hdr_.root_page_ a b
      (s.put s.file_hdr_.root_page_ n1) = (Except.ok (), s.put s.file_hdr_.root_page_ n1) := by
    intro a b
    have := root_maintain_parent (s.put s.file_hdr_.root_page_ n1) n1 h1 a b
    rw [hdr_put] at this
    exact this
  split
  · rw [bind_run (hmp _ _), bind_run (getHdr_run _), hdr_put, if_neg (by omega)]
    rfl
  · rw [bind_run (pure_run _ _), bind_run (getHdr_run _), hdr_put, if_neg (by omega)]
    rfl

end IxIndexHandle

namespace IxIndexHandle

theorem root_adjust (s : IxIndexHandle) (n : IxNode)
    (h : s.getP s.file_hdr_.root_page_ = some n) (hl : n.is_leaf = true)
    (hp : n.parent = INVALID_PAGE_ID) (fuel : Nat) :
    coalesce_or_redistribute (fuel + 1) s.file_hdr_.root_page_ s = (Except.ok false, s) := by
  rw [coalesce_or_redistribute, bind_run (fetch_run h)]
  have hr : n.is_root_page = true := by
    unfold IxNode.is_root_page
    rw [hp]
    rfl
  simp only [hr, if_true]
  unfold adjust_root
  rw [bind_run (fetch_run h)]
  simp only [hl, Bool.not_true, Bool.false_and, Bool.false_eq_true, if_false]
  rfl

theorem root_delete_entry (s : IxIndexHandle) (n n2 : IxNode) (k : Int) (r : Rid) (m : Nat)
    (h : s.getP s.file_hdr_.root_page_ = some n) (hl : n.is_leaf = true)
    (hrem : n.remove k = Except.ok (n2, m)) (hl2 : n2.is_leaf = true)
    (hp2 : n2.parent = INVALID_PAGE_ID) :
    delete_entry k r s = (Except.ok false, s.put s.file_hdr_.root_page_ n2) := by
  have h0 := (getP_lt h).1
  have h1 : (s.put s.file_hdr_.root_page_ n2).getP
      (s.put s.file_hdr_.root_page_ n2).file_hdr_.root_page_ = some n2 := by
    rw [hdr_put, getP_put n2 h, if_pos rfl]
  have hmp : ∀ a b, maintain_parent s.file_hdr_.root_page_ a b
      (s.put s.file_hdr_.root_page_ n2) = (Except.ok (), s.put s.file_hdr_.root_page_ n2) := by
    intro a b
    have := root_maintain_parent (s.put s.file_hdr_.root_page_ n2) n2 h1 a b
    rw [hdr_put] at this
    exact this
  have hco : coalesce_or_redistribute ((s.put s.file_hdr_.root_page_ n2).pages.length + 1)
      s.file_hdr_.root_page_ (s.put s.file_hdr_.root_page_ n2) =
      (Except.ok false, s.put s.file_hdr_.root_page_ n2) := by
    have := root_adjust (s.put s.file_hdr_.root_page_ n2) n2 h1 hl2 hp2
      (s.put s.file_hdr_.root_page_ n2).pages.length
    rw [hdr_put] at this
    exact this
  unfold delete_entry
  dsimp only
  rw [bind_run (root_find_leaf s n h hl k), bind_run (fetch_run h)]
  rw [bind_run (show IxM.lift (n.remove k) s = (Except.ok (n2, m), s) by rw [lift_run, hrem])]
  dsimp only
  rw [bind_run (store_run n2 h0)]
  by_cases hd : decide (ix_compare k (n.get_key 0) = 0) = true
  · rw [if_pos hd, bind_run (hmp _ _), @bind_run Bool Unit (fun (s_1 : IxIndexHandle) =>
      coalesce_or_redistribute (s_1.pages.length + 1) s.file_hdr_.root_page_ s_1) _ _ _ _ hco]
    rfl
  · rw [if_neg hd, bind_run (pure_run _ _), @bind_run Bool Unit (fun (s_1 : IxIndexHandle) =>
      coalesce_or_redistribute (s_1.pages.length + 1) s.file_hdr_.root_page_ s_1) _ _ _ _ hco]
    rfl

end IxIndexHandle

theorem take_eq_of_getD {α : Type} (d : α) (m : Nat) :
    ∀ (l1 l2 : List α), m ≤ l1.length → m ≤ l2.length →
      (∀ j, j < m → l1.getD j d = l2.getD j d) → l1.take m = l2.take m := by
  induction m with
  | zero => intro l1 l2 _ _ _; simp
  | succ m ih =>
    intro l1 l2 h1 h2 h
    cases l1 with
    | nil => simp at h1
    | cons a t1 =>
      cases l2 with
      | nil => simp at h2
      | cons b t2 =>
        simp only [List.length_cons] at h1 h2
        have h0 := h 0 (by omega)
        simp only [List.getD_cons_zero] at h0
        rw [List.take_succ_cons, List.take_succ_cons, h0,
          ih t1 t2 (by omega) (by omega) (fun j hj => by
            have := h (j + 1) (by omega)
            simpa using this)]

namespace IxNode

theorem leaf_insert_remove (order : Nat) (n : IxNode) (k : Int) (r : Rid)
    (hl : n.is_leaf = true) (hok : n.NodeOK order) (hs : n.KeysSorted)
    (hroom : n.num_key < order) (hnd : ∀ j, j < n.num_key → n.get_key j ≠ k) :
    ∃ n1 n2, n.insert k r = Except.ok (n1, n.num_key + 1) ∧ n1.is_leaf = true ∧
      n1.parent = n.parent ∧
      n1.remove k = Except.ok (n2, n.num_key) ∧ n2.num_key = n.num_key ∧ n.SameMeta n2 ∧
      n2.liveKeys = n.liveKeys ∧ n2.liveRids = n.liveRids := by
  obtain ⟨n1, hins, hnum, hmeta, hkeys, hrids, _⟩ := insert_spec order n k r hok hnd
  have hle := lower_bound_le n k
  obtain ⟨hlo, hhi⟩ := lower_bound_spec n k hs
  have hl1 : n1.is_leaf = true := by rw [hmeta.1]; exact hl
  have hok1 : n1.NodeOK order := by
    refine ⟨by rw [hmeta.2.2.2.2.1]; exact hok.1, by rw [hmeta.2.2.2.2.2]; exact hok.2.1, ?_⟩
    rw [get_num_vals_leaf hl1, hnum]
    omega
  have hgt : ∀ j, n.lower_bound k ≤ j → j < n.num_key → k < n.get_key j := by
    intro j h1 h2
    have := hhi j h1 h2
    have := hnd j h2
    omega
  have hk1 : ∀ j, j ≤ n.num_key → n1.get_key j =
      if j < n.lower_bound k then n.get_key j
      else if j = n.lower_bound k then k else n.get_key (j - 1) := hkeys
  have hs1 : n1.KeysSorted := by
    intro i j hij hj
    rw [hnum] at hj
    have hjn : j ≤ n.num_key := by omega
    have hin : i ≤ n.num_key := by omega
    rw [hk1 i hin, hk1 j hjn]
    by_cases hi : i < n.lower_bound k
    · rw [if_pos hi]
      by_cases hjl : j < n.lower_bound k
      · rw [if_pos hjl]; exact hs i j hij (by omega)
      · rw [if_neg hjl]
        by_cases hje : j = n.lower_bound k
        · rw [if_pos hje]; exact hlo i hi
        · rw [if_neg hje]
          have := hlo i hi
          have := hgt (j - 1) (by omega) (by omega)
          omega
    · have hjl : ¬ j < n.lower_bound k := by omega
      have hje : ¬ j = n.lower_bound k := by omega
      rw [if_neg hi, if_neg hjl, if_neg hje]
      by_cases hie : i = n.lower_bound k
      · rw [if_pos hie]
        exact hgt (j - 1) (by omega) (by omega)
      · rw [if_neg hie]
        exact hs (i - 1) (j - 1) (by omega) (by omega)
  have hlb : n1.lower_bound k = n.lower_bound k := by
    apply lower_bound_unique n1 k hs1 _ (by rw [hnum]; omega)
    · intro j hj
      rw [hk1 j (by omega), if_pos hj]
      exact hlo j hj
    · intro j hj hjn
      rw [hnum] at hjn
      rw [hk1 j (by omega), if_neg (by omega)]
      by_cases hje : j = n.lower_bound k
      · rw [if_pos hje]
      · rw [if_neg hje]
        exact le_of_lt (hgt (j - 1) (by omega) (by omega))
  have hkp : n1.get_key (n.lower_bound k) = k := by
    rw [hk1 _ hle, if_neg (by omega), if_pos rfl]
  have hrem : n1.remove k = Except.ok (n1.erase_pair (n.lower_bound k),
      (n1.erase_pair (n.lower_bound k)).num_key) := by
    unfold remove
    simp only [hlb]
    rw [if_neg (by rw [hnum]; omega), if_neg (by rw [hkp]; simp [ix_compare])]
  obtain ⟨e1, e2, e3, e4, _⟩ := erase_pair_spec order n1 (n.lower_bound k) hok1
    (by rw [hnum]; omega)
  have hn2 : (n1.erase_pair (n.lower_bound k)).num_key = n.num_key := by rw [e1, hnum]; omega
  have hmeta2 : n.SameMeta (n1.erase_pair (n.lower_bound k)) := by
    obtain ⟨a1, a2, a3, a4, a5, a6⟩ := hmeta
    obtain ⟨b1, b2, b3, b4, b5, b6⟩ := e2
    exact ⟨by rw [b1, a1], by rw [b2, a2], by rw [b3, a3], by rw [b4, a4], by rw [b5, a5],
      by rw [b6, a6]⟩
  have hnk : n.num_key ≤ n.keys.length := by rw [hok.1]; omega
  have hnr : n.num_key ≤ n.rids.length := by rw [hok.2.1]; omega
  refine ⟨n1, n1.erase_pair (n.lower_bound k), hins, hl1, hmeta.2.1, ?_, hn2, hmeta2, ?_, ?_⟩
  · rw [hrem, hn2]
  · unfold liveKeys
    rw [hn2]
    apply take_eq_of_getD 0 _ _ _ (by rw [hmeta2.2.2.2.2.1]; exact hnk) hnk
    intro j hj
    have := e3 j (by rw [hnum]; omega)
    unfold get_key at this hk1
    rw [this]
    by_cases hjl : j < n.lower_bound k
    · rw [if_pos hjl, hk1 j (by omega), if_pos hjl]
    · rw [if_neg hjl, hk1 (j + 1) (by omega), if_neg (by omega), if_neg (by omega)]
      rfl
  · unfold liveRids
    rw [get_num_vals_leaf (by rw [hmeta2.1]; exact hl), get_num_vals_leaf hl, hn2]
    apply take_eq_of_getD ⟨0, 0⟩ _ _ _ (by rw [hmeta2.2.2.2.2.2]; exact hnr) hnr
    intro j hj
    have := e4 hl1 j (by rw [hnum]; omega)
    have hr1 := hrids hl
    unfold get_rid at this hr1
    rw [this]
    by_cases hjl : j < n.lower_bound k
    · rw [if_pos hjl, hr1 j (by omega), if_pos hjl]
    · rw [if_neg hjl, hr1 (j + 1) (by omega), if_neg (by omega), if_neg (by omega)]
      rfl

end IxNode

namespace IxIndexHandle

theorem shape_put (s : IxIndexHandle) (n n2 : IxNode) (p : Int) (h : s.getP p = some n)
    (h1 : n2.is_leaf = n.is_leaf) (h2 : n2.num_key = n.num_key) (h3 : n2.parent = n.parent)
    (h4 : n2.prev_leaf = n.prev_leaf) (h5 : n2.next_leaf = n.next_leaf)
    (h6 : n2.liveKeys = n.liveKeys) (h7 : n2.liveRids = n.liveRids) :
    (s.put p n2).shape = s.shape := by
  unfold shape
  rw [hdr_put]
  congr 1
  unfold put
  simp only
  rw [getP_some_iff] at h
  apply List.ext_get?
  intro i
  simp only [List.get?_eq_getElem?, List.getElem?_map, List.getElem?_set]
  by_cases hi : p.toNat = i
  · subst hi
    have h8 := h.2
    rw [List.get?_eq_getElem?] at h8
    rw [if_pos rfl, h8]
    have hlt := (List.getElem?_eq_some_iff.1 h8).1
    rw [if_pos hlt]
    simp only [Option.map_some', IxNode.shape, h1, h2, h3, h4, h5, h6, h7]
  · rw [if_neg hi]

end IxIndexHandle

open IxIndexHandle

/-- The round trip on a tree of one level, whatever the leaf links and the
header say: in a tree whose root is a leaf with room for one more key,
inserting an absent key and then deleting it succeeds in both calls and leaves
the file header and, in every page, the kind of the node, its number of keys,
its parent and sibling links and its keys and rids in use as they were. -/
theorem insert_then_delete_restores_root_leaf (s : IxIndexHandle) (n : IxNode) (k : Int)
    (r : Rid) (h : s.getP s.file_hdr_.root_page_ = some n) (hl : n.is_leaf = true)
    (hp : n.parent = INVALID_PAGE_ID) (hok : n.NodeOK s.file_hdr_.btree_order_)
    (hs : n.KeysSorted) (hroom : n.num_key < s.file_hdr_.btree_order_)
    (hnd : ∀ j, j < n.num_key → n.get_key j ≠ k) :
    ∃ s1 s2, insert_entry k r s = (Except.ok s.file_hdr_.root_page_, s1) ∧
      delete_entry k r s1 = (Except.ok false, s2) ∧ s2.shape = s.shape := by
  obtain ⟨n1, n2, hins, hl1, hp1, hrem, hnum, hmeta, hk, hr⟩ :=
    IxNode.leaf_insert_remove s.file_hdr_.btree_order_ n k r hl hok hs hroom hnd
  have h1 : (s.put s.file_hdr_.root_page_ n1).getP
      (s.put s.file_hdr_.root_page_ n1).file_hdr_.root_page_ = some n1 := by
    rw [hdr_put, getP_put n1 h, if_pos rfl]
  have hl2 : n2.is_leaf = true := by rw [hmeta.1]; exact hl
  have hp2 : n2.parent = INVALID_PAGE_ID := by rw [hmeta.2.1]; exact hp
  have hdel := root_delete_entry (s.put s.file_hdr_.root_page_ n1) n1 n2 k r n.num_key h1 hl1
    hrem hl2 hp2
  rw [hdr_put] at hdel
  refine ⟨s.put s.file_hdr_.root_page_ n1,
    (s.put s.file_hdr_.root_page_ n1).put s.file_hdr_.root_page_ n2,
    root_insert_entry s n n1 k r (n.num_key + 1) h hl hins (by omega), hdel, ?_⟩
  have hpp : (s.put s.file_hdr_.root_page_ n1).put s.file_hdr_.root_page_ n2 =
      s.put s.file_hdr_.root_page_ n2 := by
    unfold put
    simp only [List.set_set]
  rw [hpp]
  exact shape_put s n n2 _ h hmeta.1 hnum hmeta.2.1 hmeta.2.2.1 hmeta.2.2.2.1 hk hr

theorem insert_then_delete_restores_root_leaf_witness :
    ∃ s1 s2, insert_entry 25 ⟨25, 0⟩ (treeOfKeys [10, 20, 30]) =
        (Except.ok (treeOfKeys [10, 20, 30]).file_hdr_.root_page_, s1) ∧
      delete_entry 25 ⟨25, 0⟩ s1 = (Except.ok false, s2) ∧
      s2.shape = (treeOfKeys [10, 20, 30]).shape := by
  have hn : ((treeOfKeys [10, 20, 30]).pages.getD 2 (blankNode 4)).num_key = 3 := by decide!
  refine insert_then_delete_restores_root_leaf (treeOfKeys [10, 20, 30])
    ((treeOfKeys [10, 20, 30]).pages.getD 2 (blankNode 4)) 25 ⟨25, 0⟩ (by decide!) (by decide!)
    (by decide!) (by unfold IxNode.NodeOK; decide!) ?_ (by decide!) ?_
  · intro i j hij hj
    rw [hn] at hj
    interval_cases j <;> interval_cases i <;> decide!
  · intro j hj
    rw [hn] at hj
    interval_cases j <;> decide!

/-- C33 (counterexample): the leaf `10, 20, 30, 40` is the whole tree of order
4 and holds no key 25. Inserting 25 splits it, and deleting 25 again leaves two
leaves under a new root: the root page is 4 instead of 2 and the file has 5
pages instead of 3. -/
theorem insert_then_delete_after_split_keeps_two_leaves :
    (get_value 25 (treeOfKeys [10, 20, 30, 40])).1 = Except.ok none ∧
    (insert_entry 25 ⟨25, 0⟩ (treeOfKeys [10, 20, 30, 40])).1 = Except.ok 2 ∧
    (delete_entry 25 ⟨25, 0⟩ (insert_entry 25 ⟨25, 0⟩ (treeOfKeys [10, 20, 30, 40])).2).1 =
      Except.ok false ∧
    (treeOfKeys [10, 20, 30, 40]).shape =
      ⟨⟨3, 2, 4, 2, 2⟩,
       [⟨false, 0, 0, 0, 0, [], [⟨0, 0⟩]⟩, ⟨true, 0, -1, 2, 2, [], []⟩,
        ⟨true, 4, -1, 1, 1, [10, 20, 30, 40], [⟨10, 0⟩, ⟨20, 0⟩, ⟨30, 0⟩, ⟨40, 0⟩]⟩]⟩ ∧
    (delete_entry 25 ⟨25, 0⟩
        (insert_entry 25 ⟨25, 0⟩ (treeOfKeys [10, 20, 30, 40])).2).2.shape =
      ⟨⟨5, 4, 4, 2, 3⟩,
       [⟨false, 0, 0, 0, 0, [], [⟨0, 0⟩]⟩, ⟨true, 0, -1, 2, 2, [], []⟩,
        ⟨true, 2, 4, 1, 3, [10, 20], [⟨10, 0⟩, ⟨20, 0⟩]⟩,
        ⟨true, 2, 4, 2, 1, [30, 40], [⟨30, 0⟩, ⟨40, 0⟩]⟩,
        ⟨false, 1, -1, 0, 0, [30], [⟨2, 0⟩, ⟨3, 0⟩]⟩]⟩ ∧
    (delete_entry 25 ⟨25, 0⟩
        (insert_entry 25 ⟨25, 0⟩ (treeOfKeys [10, 20, 30, 40])).2).2.shape ≠
      (treeOfKeys [10, 20, 30, 40]).shape ∧
    (delete_entry 25 ⟨25, 0⟩
        (insert_entry 25 ⟨25, 0⟩ (treeOfKeys [10, 20, 30, 40])).2).2.file_hdr_.root_page_ = 4 ∧
    (delete_entry 25 ⟨25, 0⟩
        (insert_entry 25 ⟨25, 0⟩ (treeOfKeys [10, 20, 30, 40])).2).2.pages.length = 5 := by
  decide!

/-! ## Theorems: the tree of an index and the insert/delete round trip in it -/

theorem ltHi_of_le {a b : Int} {hi : Option Int} (h : a ≤ b) (hb : ltHi b hi) : ltHi a hi := by
  cases hi with
  | none => trivial
  | some x => exact lt_of_le_of_lt h hb

namespace IxNode

theorem Same.node_refl (a : IxNode) : a.Same a := ⟨rfl, rfl, rfl, rfl, rfl⟩

theorem Same.get_key {a b : IxNode} (h : a.Same b) (i : Nat) : a.get_key i = b.get_key i := by
  unfold IxNode.get_key; rw [h.2.2.2.1]

theorem Same.get_rid {a b : IxNode} (h : a.Same b) (i : Nat) : a.get_rid i = b.get_rid i := by
  unfold IxNode.get_rid; rw [h.2.2.2.2]

theorem Same.child {a b : IxNode} (h : a.Same b) (i : Nat) : a.child i = b.child i := by
  unfold IxNode.child; rw [h.get_rid]

theorem Same.get_num_vals {a b : IxNode} (h : a.Same b) : a.get_num_vals = b.get_num_vals := by
  unfold IxNode.get_num_vals; rw [h.1, h.2.1]

theorem Same.children {a b : IxNode} (h : a.Same b) : a.children = b.children := by
  unfold IxNode.children
  rw [h.get_num_vals]
  apply List.map_congr_left
  intro i _
  exact h.child i

theorem Same.leafEntries {a b : IxNode} (h : a.Same b) : a.leafEntries = b.leafEntries := by
  unfold IxNode.leafEntries
  rw [h.2.1]
  apply List.map_congr_left
  intro i _
  rw [h.get_key, h.get_rid]

theorem Same.NodeOK {a b : IxNode} (h : a.Same b) {order : Nat} (hb : b.NodeOK order) :
    a.NodeOK order := by
  unfold IxNode.NodeOK at hb ⊢
  rw [h.get_num_vals, h.2.2.2.1, h.2.2.2.2]; exact hb

theorem Same.Occ {a b : IxNode} (h : a.Same b) {order : Nat} (hb : b.Occ order) :
    a.Occ order := by
  unfold IxNode.Occ at hb ⊢
  rw [h.get_num_vals]; exact hb

theorem Same.KeysSorted {a b : IxNode} (h : a.Same b) (hb : b.KeysSorted) : a.KeysSorted := by
  intro i j hij hj
  rw [h.get_key, h.get_key]
  exact hb i j hij (by rw [← h.2.1]; exact hj)

theorem Same.lob {a b : IxNode} (h : a.Same b) (i : Nat) (lo : Option Int) :
    a.lob i lo = b.lob i lo := by
  unfold IxNode.lob; rw [h.get_key]

theorem Same.hib {a b : IxNode} (h : a.Same b) (i : Nat) (hi : Option Int) :
    a.hib i hi = b.hib i hi := by
  unfold IxNode.hib; rw [h.get_key, h.2.1]

theorem mem_children {n : IxNode} {c : Int} :
    c ∈ n.children ↔ ∃ i, i < n.get_num_vals ∧ n.child i = c := by
  unfold children
  simp only [List.mem_map, List.mem_range]

end IxNode

namespace IxIndexHandle

theorem Sub_zero {s : IxIndexHandle} {order : Nat} {b : Bool} {p : Int} {lo hi : Option Int} :
    Sub s order b 0 p lo hi ↔
      ∃ n, s.getP p = some n ∧ n.is_leaf = true ∧ n.NodeOK order ∧ n.KeysSorted ∧
        (∀ j, j < n.num_key → ltHi (n.get_key j) hi) ∧
        (∀ K, lo = some K → 0 < n.num_key ∧ n.get_key 0 = K) ∧ 2 ≤ p := by
  unfold Sub; rfl

theorem Sub_succ {s : IxIndexHandle} {order h : Nat} {b : Bool} {p : Int}
    {lo hi : Option Int} :
    Sub s order b (h + 1) p lo hi ↔
      ∃ n, s.getP p = some n ∧ n.is_leaf = false ∧ n.NodeOK order ∧
        ∀ i, i ≤ n.num_key → ∃ c, s.getP (n.child i) = some c ∧ c.parent = p ∧
          (b = true → c.Occ order) ∧
          Sub s order b h (n.child i) (n.lob i lo) (n.hib i hi) := by
  conv => lhs; unfold Sub

theorem walk_succ {α : Type} (s : IxIndexHandle) (gl gi : Int → IxNode → List α) (f : Nat)
    (p : Int) :
    walk s gl gi (f + 1) p =
      match s.getP p with
      | none => []
      | some n => if n.is_leaf then gl p n else gi p n ++ n.children.flatMap (walk s gl gi f) :=
  rfl

theorem walk_leaf {α : Type} {s : IxIndexHandle} (gl gi : Int → IxNode → List α) (f : Nat)
    {p : Int} {n : IxNode} (hp : s.getP p = some n) (hl : n.is_leaf = true) :
    walk s gl gi (f + 1) p = gl p n := by
  rw [walk_succ, hp]; simp only [hl, if_true]

theorem walk_internal {α : Type} {s : IxIndexHandle} (gl gi : Int → IxNode → List α) (f : Nat)
    {p : Int} {n : IxNode} (hp : s.getP p = some n) (hl : n.is_leaf = false) :
    walk s gl gi (f + 1) p = gi p n ++ n.children.flatMap (walk s gl gi f) := by
  rw [walk_succ, hp]; simp only [hl, Bool.false_eq_true, if_false]

/-- The least key of a subtree lies below its upper bound; the separators
of an internal node increase and lie between the bounds. -/
theorem Sub_lo_lt_hi {s : IxIndexHandle} {order : Nat} {b : Bool} (h : Nat) :
    ∀ {p : Int} {K : Int} {hi : Option Int}, Sub s order b h p (some K) hi → ltHi K hi := by
  induction h with
  | zero =>
    intro p K hi hs
    obtain ⟨n, _, _, _, _, h5, h6, _⟩ := Sub_zero.1 hs
    obtain ⟨a, b⟩ := h6 K rfl
    rw [← b]; exact h5 0 a
  | succ k ih =>
    intro p K hi hs
    obtain ⟨n, _, _, _, hc⟩ := Sub_succ.1 hs
    -- every separator lies below the upper bound
    have hsep : ∀ d i, i + d + 1 = n.num_key → ltHi (n.get_key i) hi := by
      intro d
      induction d with
      | zero =>
        intro i hi'
        obtain ⟨c, _, _, _, hsub⟩ := hc (i + 1) (by omega)
        have := @ih (n.child (i + 1)) (n.get_key i) (n.hib (i + 1) hi)
          (by simpa [IxNode.lob] using hsub)
        unfold IxNode.hib at this
        rw [if_neg (by omega)] at this
        exact this
      | succ d ihd =>
        intro i hi'
        obtain ⟨c, _, _, _, hsub⟩ := hc (i + 1) (by omega)
        have := @ih (n.child (i + 1)) (n.get_key i) (n.hib (i + 1) hi)
          (by simpa [IxNode.lob] using hsub)
        unfold IxNode.hib at this
        rw [if_pos (by omega)] at this
        exact ltHi_of_le (le_of_lt this) (ihd (i + 1) (by omega))
    obtain ⟨c, _, _, _, hsub⟩ := hc 0 (by omega)
    have h0 := @ih (n.child 0) K (n.hib 0 hi) (by simpa [IxNode.lob] using hsub)
    unfold IxNode.hib at h0
    by_cases hz : 0 < n.num_key
    · rw [if_pos hz] at h0
      exact ltHi_of_le (le_of_lt h0) (hsep (n.num_key - 1) 0 (by omega))
    · rw [if_neg hz] at h0; exact h0

theorem Sub_internal_keys {s : IxIndexHandle} {order h : Nat} {b : Bool} {p : Int} {lo hi : Option Int}
    {n : IxNode} (hs : Sub s order b (h + 1) p lo hi) (hp : s.getP p = some n) :
    n.KeysSorted ∧ (∀ i, i < n.num_key → ltHi (n.get_key i) hi) ∧
      (∀ K, lo = some K → ∀ i, i < n.num_key → K < n.get_key i) := by
  obtain ⟨n', hp', _, _, hc⟩ := Sub_succ.1 hs
  rw [hp] at hp'
  simp only [Option.some.injEq] at hp'
  subst hp'
  have hstep : ∀ i, i + 1 < n.num_key → n.get_key i < n.get_key (i + 1) := by
    intro i hi'
    obtain ⟨c, _, _, _, hsub⟩ := hc (i + 1) (by omega)
    have := @Sub_lo_lt_hi _ _ _ h (n.child (i + 1)) (n.get_key i) (n.hib (i + 1) hi)
      (by simpa [IxNode.lob] using hsub)
    unfold IxNode.hib at this
    rw [if_pos (by omega)] at this
    exact this
  have hsorted : n.KeysSorted := by
    intro i j hij hj
    induction j with
    | zero => omega
    | succ m ihm =>
      by_cases him : i = m
      · subst him; exact hstep i hj
      · exact lt_trans (ihm (by omega) (by omega)) (hstep m hj)
  refine ⟨hsorted, ?_, ?_⟩
  · intro i hi'
    obtain ⟨c, _, _, _, hsub⟩ := hc (n.num_key) (le_refl _)
    have := @Sub_lo_lt_hi _ _ _ h (n.child n.num_key) (n.get_key (n.num_key - 1))
      (n.hib n.num_key hi)
      (by
        have e : n.lob n.num_key lo = some (n.get_key (n.num_key - 1)) := by
          unfold IxNode.lob; rw [if_neg (by omega)]
        rw [← e]; exact hsub)
    unfold IxNode.hib at this
    rw [if_neg (by omega)] at this
    by_cases hlast : i = n.num_key - 1
    · rw [hlast]; exact this
    · exact ltHi_of_le (le_of_lt (hsorted i (n.num_key - 1) (by omega) (by omega))) this
  · intro K hK i hi'
    subst hK
    obtain ⟨c, _, _, _, hsub⟩ := hc 0 (by omega)
    have := @Sub_lo_lt_hi _ _ _ h (n.child 0) K (n.hib 0 hi)
      (by simpa [IxNode.lob] using hsub)
    unfold IxNode.hib at this
    rw [if_pos (by omega)] at this
    by_cases hz : i = 0
    · rw [hz]; exact this
    · exact lt_trans this (hsorted 0 i (by omega) hi')

/-- Widening the upper bound. -/
theorem Sub_widen_hi {s : IxIndexHandle} {order : Nat} {b : Bool} (h : Nat) :
    ∀ {p : Int} {lo hi hi' : Option Int}, (∀ k, ltHi k hi → ltHi k hi') →
      Sub s order b h p lo hi → Sub s order b h p lo hi' := by
  induction h with
  | zero =>
    intro p lo hi hi' hw hs
    obtain ⟨n, h1, h2, h3, h4, h5, h6, h7⟩ := Sub_zero.1 hs
    exact Sub_zero.2 ⟨n, h1, h2, h3, h4, fun j hj => hw _ (h5 j hj), h6, h7⟩
  | succ k ih =>
    intro p lo hi hi' hw hs
    obtain ⟨n, h1, h2, h3, hc⟩ := Sub_succ.1 hs
    refine Sub_succ.2 ⟨n, h1, h2, h3, ?_⟩
    intro i hi2
    obtain ⟨c, c1, c2, c3, c4⟩ := hc i hi2
    refine ⟨c, c1, c2, c3, ?_⟩
    unfold IxNode.hib at c4 ⊢
    by_cases hlt : i < n.num_key
    · rw [if_pos hlt] at c4 ⊢; exact c4
    · rw [if_neg hlt] at c4 ⊢; exact ih hw c4

end IxIndexHandle

namespace IxIndexHandle

theorem Sub_mono {s : IxIndexHandle} {order : Nat} {b b' : Bool} (hb : b' = true → b = true)
    (h : Nat) : ∀ {p : Int} {lo hi : Option Int}, Sub s order b h p lo hi →
      Sub s order b' h p lo hi := by
  induction h with
  | zero =>
    intro p lo hi hs
    exact Sub_zero.2 (Sub_zero.1 hs)
  | succ k ih =>
    intro p lo hi hs
    obtain ⟨n, h1, h2, h3, hc⟩ := Sub_succ.1 hs
    refine Sub_succ.2 ⟨n, h1, h2, h3, ?_⟩
    intro i hi2
    obtain ⟨c, c1, c2, c3, c4⟩ := hc i hi2
    exact ⟨c, c1, c2, fun h => c3 (hb h), ih c4⟩

theorem Sub_weak {s : IxIndexHandle} {order : Nat} {b : Bool} {h : Nat} {p : Int}
    {lo hi : Option Int} (hs : Sub s order b h p lo hi) : Sub s order false h p lo hi :=
  Sub_mono (by intro h; cases h) h hs

theorem Sub_getP {s : IxIndexHandle} {order : Nat} {b : Bool} {h : Nat} {p : Int}
    {lo hi : Option Int} (hs : Sub s order b h p lo hi) :
    ∃ n, s.getP p = some n ∧ n.is_leaf = decide (h = 0) ∧ n.NodeOK order := by
  cases h with
  | zero =>
    obtain ⟨n, h1, h2, h3, _⟩ := Sub_zero.1 hs
    exact ⟨n, h1, by simpa using h2, h3⟩
  | succ k =>
    obtain ⟨n, h1, h2, h3, _⟩ := Sub_succ.1 hs
    exact ⟨n, h1, by simpa using h2, h3⟩

/-- A page is the root of subtrees of one height only. -/
theorem Sub_height_unique {s : IxIndexHandle} {order : Nat} {b b' : Bool} (h : Nat) :
    ∀ {h' : Nat} {p : Int} {lo hi lo' hi' : Option Int}, Sub s order b h p lo hi →
      Sub s order b' h' p lo' hi' → h = h' := by
  induction h with
  | zero =>
    intro h' p lo hi lo' hi' hs hs'
    obtain ⟨n, h1, h2, _⟩ := Sub_getP hs
    obtain ⟨n', h1', h2', _⟩ := Sub_getP hs'
    rw [h1] at h1'
    simp only [Option.some.injEq] at h1'
    subst h1'
    rw [h2] at h2'
    have : h' = 0 := by simpa using h2'
    exact this.symm
  | succ k ih =>
    intro h' p lo hi lo' hi' hs hs'
    cases h' with
    | zero =>
      obtain ⟨n, h1, h2, _⟩ := Sub_getP hs
      obtain ⟨n', h1', h2', _⟩ := Sub_getP hs'
      rw [h1] at h1'
      simp only [Option.some.injEq] at h1'
      subst h1'
      rw [h2] at h2'
      simp at h2'
    | succ k' =>
      obtain ⟨n, h1, _, _, hc⟩ := Sub_succ.1 hs
      obtain ⟨n', h1', _, _, hc'⟩ := Sub_succ.1 hs'
      rw [h1] at h1'
      simp only [Option.some.injEq] at h1'
      subst h1'
      obtain ⟨_, _, _, _, c4⟩ := hc 0 (Nat.zero_le _)
      obtain ⟨_, _, _, _, c4'⟩ := hc' 0 (Nat.zero_le _)
      have := ih c4 c4'
      omega

theorem mem_pagesOf_succ {s : IxIndexHandle} {f : Nat} {p q : Int} :
    q ∈ s.pagesOf (f + 1) p ↔
      ∃ n, s.getP p = some n ∧
        (q = p ∨ (n.is_leaf = false ∧ ∃ i, i < n.get_num_vals ∧ q ∈ s.pagesOf f (n.child i))) := by
  unfold pagesOf
  cases hp : s.getP p with
  | none => rw [walk_succ, hp]; simp
  | some n =>
    by_cases hl : n.is_leaf = true
    · rw [walk_leaf _ _ _ hp hl]
      simp [hl]
    · have hl' : n.is_leaf = false := by simpa using hl
      rw [walk_internal _ _ _ hp hl']
      simp only [List.singleton_append, List.mem_cons,
        List.mem_flatMap, IxNode.mem_children, Option.some.injEq, exists_eq_left', hl', true_and]
      constructor
      · rintro (h | ⟨c, ⟨i, hi, rfl⟩, hq⟩)
        · exact Or.inl h
        · exact Or.inr ⟨i, hi, hq⟩
      · rintro (h | ⟨i, hi, hq⟩)
        · exact Or.inl h
        · exact Or.inr ⟨_, ⟨i, hi, rfl⟩, hq⟩

theorem pagesOf_zero {s : IxIndexHandle} {p : Int} : s.pagesOf 0 p = [] := rfl

theorem self_mem_pagesOf {s : IxIndexHandle} {f : Nat} {p : Int} {n : IxNode}
    (hp : s.getP p = some n) : p ∈ s.pagesOf (f + 1) p :=
  mem_pagesOf_succ.2 ⟨n, hp, Or.inl rfl⟩

theorem child_mem_pagesOf {s : IxIndexHandle} {f : Nat} {p q : Int} {n : IxNode}
    (hp : s.getP p = some n) (hl : n.is_leaf = false) {i : Nat} (hi : i ≤ n.num_key)
    (hq : q ∈ s.pagesOf f (n.child i)) : q ∈ s.pagesOf (f + 1) p :=
  mem_pagesOf_succ.2 ⟨n, hp, Or.inr ⟨hl, i, by
    rw [IxNode.get_num_vals_internal hl]; omega, hq⟩⟩

/-- Every page of a subtree is the root of a subtree of its own. -/
theorem Sub_mem {s : IxIndexHandle} {order : Nat} {b : Bool} (h : Nat) :
    ∀ {p q : Int} {lo hi : Option Int}, Sub s order b h p lo hi → q ∈ s.pagesOf (h + 1) p →
      q = p ∨ ∃ h' lo' hi', h' < h ∧ Sub s order b h' q lo' hi' := by
  induction h with
  | zero =>
    intro p q lo hi hs hq
    obtain ⟨n, h1, h2, _⟩ := Sub_zero.1 hs
    obtain ⟨n', h1', h | ⟨hl, _⟩⟩ := mem_pagesOf_succ.1 hq
    · exact Or.inl h
    · rw [h1] at h1'
      simp only [Option.some.injEq] at h1'
      subst h1'
      rw [h2] at hl; cases hl
  | succ k ih =>
    intro p q lo hi hs hq
    obtain ⟨n, h1, h2, h3, hc⟩ := Sub_succ.1 hs
    obtain ⟨n', h1', h | ⟨hl, i, hi', hq'⟩⟩ := mem_pagesOf_succ.1 hq
    · exact Or.inl h
    · rw [h1] at h1'
      simp only [Option.some.injEq] at h1'
      subst h1'
      rw [IxNode.get_num_vals_internal h2] at hi'
      obtain ⟨c, c1, c2, c3, c4⟩ := hc i (by omega)
      rcases ih c4 hq' with h | ⟨h', lo', hi2, hlt, hs'⟩
      · exact Or.inr ⟨k, _, _, by omega, h ▸ c4⟩
      · exact Or.inr ⟨h', lo', hi2, by omega, hs'⟩

theorem Sub_root_not_below {s : IxIndexHandle} {order : Nat} {b : Bool} {h : Nat} {p : Int}
    {lo hi : Option Int} {n : IxNode} (hs : Sub s order b (h + 1) p lo hi)
    (hp : s.getP p = some n) {i : Nat} (hi' : i ≤ n.num_key) :
    p ∉ s.pagesOf (h + 1) (n.child i) := by
  intro hmem
  obtain ⟨n', h1, h2, h3, hc⟩ := Sub_succ.1 hs
  rw [hp] at h1
  simp only [Option.some.injEq] at h1
  subst h1
  obtain ⟨c, c1, c2, c3, c4⟩ := hc i hi'
  rcases Sub_mem h c4 hmem with e | ⟨h', lo', hi2, hlt, hs'⟩
  · have := Sub_height_unique _ hs (e ▸ c4)
    omega
  · have := Sub_height_unique _ hs hs'
    omega

/-- The least key of a subtree lies below every upper bound of it. -/
theorem Sub_min_lt {s : IxIndexHandle} {order : Nat} {b b' : Bool} (h : Nat) :
    ∀ {p : Int} {K H : Int} {hi lo' : Option Int}, Sub s order b h p (some K) hi →
      Sub s order b' h p lo' (some H) → K < H := by
  induction h with
  | zero =>
    intro p K H hi lo' hs hs'
    obtain ⟨n, h1, _, _, _, _, h6, _⟩ := Sub_zero.1 hs
    obtain ⟨n', h1', _, _, _, h5', _, _⟩ := Sub_zero.1 hs'
    rw [h1] at h1'
    simp only [Option.some.injEq] at h1'
    subst h1'
    obtain ⟨a, e⟩ := h6 K rfl
    rw [← e]; exact h5' 0 a
  | succ k ih =>
    intro p K H hi lo' hs hs'
    obtain ⟨n, h1, _, _, hc⟩ := Sub_succ.1 hs
    have hk' := Sub_internal_keys hs' h1
    obtain ⟨n', h1', _, _, hc'⟩ := Sub_succ.1 hs'
    rw [h1] at h1'
    simp only [Option.some.injEq] at h1'
    subst h1'
    obtain ⟨_, _, _, _, c4⟩ := hc 0 (Nat.zero_le _)
    obtain ⟨_, _, _, _, c4'⟩ := hc' 0 (Nat.zero_le _)
    have e : n.lob 0 (some K) = some K := by simp [IxNode.lob]
    rw [e] at c4
    unfold IxNode.hib at c4'
    by_cases hz : 0 < n.num_key
    · rw [if_pos hz] at c4'
      exact lt_trans (ih c4 c4') (hk'.2.1 0 hz)
    · rw [if_neg hz] at c4'
      exact ih c4 c4'

/-- Subtrees over key ranges that do not meet share no page. -/
theorem Sub_disjoint {s : IxIndexHandle} {order : Nat} {b b' : Bool} (h : Nat) :
    ∀ {c1 c2 q : Int} {lo1 hi2 : Option Int} {H K : Int},
      Sub s order b h c1 lo1 (some H) → Sub s order b' h c2 (some K) hi2 → H ≤ K →
      q ∈ s.pagesOf (h + 1) c1 → q ∈ s.pagesOf (h + 1) c2 → False := by
  induction h with
  | zero =>
    intro c1 c2 q lo1 hi2 H K hs1 hs2 hHK hq1 hq2
    rcases Sub_mem 0 hs1 hq1 with e1 | ⟨h', _, _, hlt, _⟩
    · rcases Sub_mem 0 hs2 hq2 with e2 | ⟨h', _, _, hlt, _⟩
      · subst e1; subst e2
        have := Sub_min_lt 0 hs2 hs1
        omega
      · omega
    · omega
  | succ k ih =>
    intro c1 c2 q lo1 hi2 H K hs1 hs2 hHK hq1 hq2
    obtain ⟨n1, g1, l1, _, hc1⟩ := Sub_succ.1 hs1
    obtain ⟨n2, g2, l2, _, hc2⟩ := Sub_succ.1 hs2
    have hk1 := Sub_internal_keys hs1 g1
    have hk2 := Sub_internal_keys hs2 g2
    obtain ⟨n1', g1', e1 | ⟨_, i, hi1, hq1'⟩⟩ := mem_pagesOf_succ.1 hq1
    · -- q = c1
      subst e1
      rcases Sub_mem _ hs2 hq2 with e2 | ⟨h', _, _, hlt, hs'⟩
      · subst e2
        have := Sub_min_lt _ hs2 hs1
        omega
      · have := Sub_height_unique _ hs1 hs'
        omega
    · rw [g1] at g1'
      simp only [Option.some.injEq] at g1'
      subst g1'
      rw [IxNode.get_num_vals_internal l1] at hi1
      obtain ⟨n2', g2', e2 | ⟨_, j, hj2, hq2'⟩⟩ := mem_pagesOf_succ.1 hq2
      · subst e2
        obtain ⟨_, _, _, _, c4⟩ := hc1 i (by omega)
        rcases Sub_mem _ c4 hq1' with e | ⟨h', _, _, hlt, hs'⟩
        · have := Sub_height_unique _ hs2 (e ▸ c4)
          omega
        · have := Sub_height_unique _ hs2 hs'
          omega
      · rw [g2] at g2'
        simp only [Option.some.injEq] at g2'
        subst g2'
        rw [IxNode.get_num_vals_internal l2] at hj2
        obtain ⟨_, _, _, _, c4⟩ := hc1 i (by omega)
        obtain ⟨_, _, _, _, d4⟩ := hc2 j (by omega)
        -- bounds of the two children
        have hH : ∃ H', n1.hib i (some H) = some H' ∧ H' ≤ H := by
          unfold IxNode.hib
          by_cases hlt : i < n1.num_key
          · rw [if_pos hlt]
            exact ⟨_, rfl, le_of_lt (hk1.2.1 i hlt)⟩
          · rw [if_neg hlt]; exact ⟨_, rfl, le_refl _⟩
        have hK : ∃ K', n2.lob j (some K) = some K' ∧ K ≤ K' := by
          unfold IxNode.lob
          by_cases hz : j = 0
          · rw [if_pos hz]; exact ⟨_, rfl, le_refl _⟩
          · rw [if_neg hz]
            exact ⟨_, rfl, le_of_lt (hk2.2.2 K rfl (j - 1) (by omega))⟩
        obtain ⟨H', eH, hH'⟩ := hH
        obtain ⟨K', eK, hK'⟩ := hK
        rw [eH] at c4
        rw [eK] at d4
        exact ih c4 d4 (by omega) hq1' hq2'

/-- Two children of a node share no page. -/
theorem Sub_children_disjoint {s : IxIndexHandle} {order : Nat} {b : Bool} {h : Nat}
    {p : Int} {lo hi : Option Int} {n : IxNode} (hs : Sub s order b (h + 1) p lo hi)
    (hp : s.getP p = some n) {i j : Nat} (hi' : i ≤ n.num_key) (hj : j ≤ n.num_key)
    (hij : i ≠ j) {q : Int} (hq1 : q ∈ s.pagesOf (h + 1) (n.child i))
    (hq2 : q ∈ s.pagesOf (h + 1) (n.child j)) : False := by
  have hk := Sub_internal_keys hs hp
  obtain ⟨n', h1, h2, h3, hc⟩ := Sub_succ.1 hs
  rw [hp] at h1
  simp only [Option.some.injEq] at h1
  subst h1
  have key : ∀ i j, i < j → j ≤ n.num_key → ∀ q, q ∈ s.pagesOf (h + 1) (n.child i) →
      q ∈ s.pagesOf (h + 1) (n.child j) → False := by
    intro i j hij hj q hq1 hq2
    obtain ⟨_, _, _, _, c4⟩ := hc i (by omega)
    obtain ⟨_, _, _, _, d4⟩ := hc j hj
    have e1 : n.hib i hi = some (n.get_key i) := by
      unfold IxNode.hib; rw [if_pos (by omega)]
    have e2 : n.lob j lo = some (n.get_key (j - 1)) := by
      unfold IxNode.lob; rw [if_neg (by omega)]
    rw [e1] at c4
    rw [e2] at d4
    refine Sub_disjoint h c4 d4 ?_ hq1 hq2
    by_cases e : i = j - 1
    · rw [e]
    · exact le_of_lt (hk.1 i (j - 1) (by omega) (by omega))
  rcases Nat.lt_or_gt_of_ne hij with h' | h'
  · exact key i j h' hj q hq1 hq2
  · exact key j i h' hi' q hq2 hq1

end IxIndexHandle

namespace IxIndexHandle

theorem SameAt.at_refl (s : IxIndexHandle) (q : Int) : SameAt s s q :=
  fun b hb => ⟨b, hb, IxNode.Same.node_refl b⟩

theorem Same.symm {a b : IxNode} (h : a.Same b) : b.Same a :=
  ⟨h.1.symm, h.2.1.symm, h.2.2.1.symm, h.2.2.2.1.symm, h.2.2.2.2.symm⟩

theorem Same.node_trans {a b c : IxNode} (h : a.Same b) (h' : b.Same c) : a.Same c :=
  ⟨h.1.trans h'.1, h.2.1.trans h'.2.1, h.2.2.1.trans h'.2.2.1, h.2.2.2.1.trans h'.2.2.2.1,
    h.2.2.2.2.trans h'.2.2.2.2⟩

theorem SameAt.at_trans {s t u : IxIndexHandle} {q : Int} (h1 : SameAt t s q) (h2 : SameAt u t q) :
    SameAt u s q := by
  intro b hb
  obtain ⟨a, ha, hab⟩ := h1 b hb
  obtain ⟨c, hc, hca⟩ := h2 a ha
  exact ⟨c, hc, Same.node_trans hca hab⟩

/-- A walk reads the pages of the subtree only, and of them nothing but
what `Same` keeps. -/
theorem walk_frame {α : Type} {s t : IxIndexHandle} {order : Nat} {b : Bool}
    (gl gi : Int → IxNode → List α)
    (hgl : ∀ p a b, IxNode.Same a b → gl p a = gl p b)
    (hgi : ∀ p a b, IxNode.Same a b → gi p a = gi p b) (h : Nat) :
    ∀ {p : Int} {lo hi : Option Int}, Sub s order b h p lo hi →
      (∀ q, q ∈ s.pagesOf (h + 1) p → SameAt t s q) →
      walk t gl gi (h + 1) p = walk s gl gi (h + 1) p := by
  induction h with
  | zero =>
    intro p lo hi hs hsame
    obtain ⟨n, hp, hl, _⟩ := Sub_zero.1 hs
    obtain ⟨a, ha, hab⟩ := hsame p (self_mem_pagesOf hp) n hp
    rw [walk_leaf _ _ _ hp hl, walk_leaf _ _ _ ha (by rw [hab.1]; exact hl)]
    exact hgl p a n hab
  | succ k ih =>
    intro p lo hi hs hsame
    obtain ⟨n, hp, hl, _, hc⟩ := Sub_succ.1 hs
    obtain ⟨a, ha, hab⟩ := hsame p (self_mem_pagesOf hp) n hp
    rw [walk_internal _ _ _ hp hl, walk_internal _ _ _ ha (by rw [hab.1]; exact hl)]
    rw [hgi p a n hab, hab.children]
    congr 1
    apply List.flatMap_congr
    intro c hcm
    obtain ⟨i, hi, rfl⟩ := IxNode.mem_children.1 hcm
    rw [IxNode.get_num_vals_internal hl] at hi
    obtain ⟨_, _, _, _, c4⟩ := hc i (by omega)
    apply ih c4
    intro q hq
    exact hsame q (child_mem_pagesOf hp hl (by omega) hq)

/-- Pages outside a subtree, and the leaf links of all pages, do not matter
to it. -/
theorem Sub_frame {s t : IxIndexHandle} {order : Nat} {b : Bool} (h : Nat) :
    ∀ {p : Int} {lo hi : Option Int}, Sub s order b h p lo hi →
      (∀ q, q ∈ s.pagesOf (h + 1) p → SameAt t s q) → Sub t order b h p lo hi := by
  induction h with
  | zero =>
    intro p lo hi hs hsame
    obtain ⟨n, hp, hl, h3, h4, h5, h6, h7⟩ := Sub_zero.1 hs
    obtain ⟨a, ha, hab⟩ := hsame p (self_mem_pagesOf hp) n hp
    refine Sub_zero.2 ⟨a, ha, by rw [hab.1]; exact hl, hab.NodeOK h3, hab.KeysSorted h4, ?_, ?_, h7⟩
    · intro j hj
      rw [hab.get_key]; exact h5 j (by rw [← hab.2.1]; exact hj)
    · intro K hK
      rw [hab.get_key, hab.2.1]; exact h6 K hK
  | succ k ih =>
    intro p lo hi hs hsame
    obtain ⟨n, hp, hl, h3, hc⟩ := Sub_succ.1 hs
    obtain ⟨a, ha, hab⟩ := hsame p (self_mem_pagesOf hp) n hp
    refine Sub_succ.2 ⟨a, ha, by rw [hab.1]; exact hl, hab.NodeOK h3, ?_⟩
    intro i hi'
    rw [hab.2.1] at hi'
    obtain ⟨c, c1, c2, c3, c4⟩ := hc i hi'
    have hcm : n.child i ∈ s.pagesOf (k + 1 + 1) p :=
      child_mem_pagesOf hp hl hi' (self_mem_pagesOf c1)
    obtain ⟨c', c1', hcc⟩ := hsame _ hcm c c1
    rw [hab.child, hab.lob, hab.hib]
    refine ⟨c', c1', by rw [hcc.2.2.1]; exact c2, fun hb => hcc.Occ (c3 hb), ?_⟩
    apply ih c4
    intro q hq
    exact hsame q (child_mem_pagesOf hp hl hi' hq)

theorem pagesOf_frame {s t : IxIndexHandle} {order : Nat} {b : Bool} {h : Nat} {p : Int}
    {lo hi : Option Int} (hs : Sub s order b h p lo hi)
    (hsame : ∀ q, q ∈ s.pagesOf (h + 1) p → SameAt t s q) :
    t.pagesOf (h + 1) p = s.pagesOf (h + 1) p := by
  unfold pagesOf
  exact walk_frame (fun p _ => [p]) (fun p _ => [p]) (fun _ _ _ _ => rfl) (fun _ _ _ _ => rfl) h hs hsame

theorem leavesOf_frame {s t : IxIndexHandle} {order : Nat} {b : Bool} {h : Nat} {p : Int}
    {lo hi : Option Int} (hs : Sub s order b h p lo hi)
    (hsame : ∀ q, q ∈ s.pagesOf (h + 1) p → SameAt t s q) :
    t.leavesOf (h + 1) p = s.leavesOf (h + 1) p := by
  unfold leavesOf
  exact walk_frame (fun p _ => [p]) (fun _ _ => []) (fun _ _ _ _ => rfl) (fun _ _ _ _ => rfl) h hs hsame

theorem entriesOf_frame {s t : IxIndexHandle} {order : Nat} {b : Bool} {h : Nat} {p : Int}
    {lo hi : Option Int} (hs : Sub s order b h p lo hi)
    (hsame : ∀ q, q ∈ s.pagesOf (h + 1) p → SameAt t s q) :
    t.entriesOf (h + 1) p = s.entriesOf (h + 1) p := by
  unfold entriesOf
  exact walk_frame (fun _ n => n.leafEntries) (fun _ _ => []) (fun _ _ _ hab => hab.leafEntries) (fun _ _ _ _ => rfl) h hs hsame

/-- More fuel than the height does not change a walk. -/
theorem walk_fuel {α : Type} {s : IxIndexHandle} {order : Nat} {b : Bool}
    (gl gi : Int → IxNode → List α) (h : Nat) :
    ∀ {p : Int} {lo hi : Option Int} (f : Nat), Sub s order b h p lo hi → h + 1 ≤ f →
      walk s gl gi f p = walk s gl gi (h + 1) p := by
  induction h with
  | zero =>
    intro p lo hi f hs hf
    obtain ⟨n, hp, hl, _⟩ := Sub_zero.1 hs
    obtain ⟨f', rfl⟩ : ∃ f', f = f' + 1 := ⟨f - 1, by omega⟩
    rw [walk_leaf _ _ _ hp hl, walk_leaf _ _ _ hp hl]
  | succ k ih =>
    intro p lo hi f hs hf
    obtain ⟨n, hp, hl, _, hc⟩ := Sub_succ.1 hs
    obtain ⟨f', rfl⟩ : ∃ f', f = f' + 1 := ⟨f - 1, by omega⟩
    rw [walk_internal _ _ _ hp hl, walk_internal _ _ _ hp hl]
    congr 1
    apply List.flatMap_congr
    intro c hcm
    obtain ⟨i, hi, rfl⟩ := IxNode.mem_children.1 hcm
    rw [IxNode.get_num_vals_internal hl] at hi
    obtain ⟨_, _, _, _, c4⟩ := hc i (by omega)
    exact ih f' c4 (by omega)

/-- The leaves of a subtree are among its pages. -/
theorem leavesOf_sub_pagesOf {s : IxIndexHandle} (f : Nat) :
    ∀ {p q : Int}, q ∈ s.leavesOf f p → q ∈ s.pagesOf f p := by
  induction f with
  | zero => intro p q hq; exact hq
  | succ k ih =>
    intro p q hq
    unfold leavesOf at hq
    cases hp : s.getP p with
    | none => rw [walk_succ, hp] at hq; cases hq
    | some n =>
      by_cases hl : n.is_leaf = true
      · rw [walk_leaf _ _ _ hp hl] at hq
        simp only [List.mem_singleton] at hq
        exact mem_pagesOf_succ.2 ⟨n, hp, Or.inl hq⟩
      · have hl' : n.is_leaf = false := by simpa using hl
        rw [walk_internal _ _ _ hp hl'] at hq
        simp only [List.nil_append, List.mem_flatMap] at hq
        obtain ⟨c, hcm, hq'⟩ := hq
        obtain ⟨i, hi, rfl⟩ := IxNode.mem_children.1 hcm
        exact mem_pagesOf_succ.2 ⟨n, hp, Or.inr ⟨hl', i, hi, ih hq'⟩⟩

/-- The pages of a subtree are visited once. -/
theorem Sub_pages_nodup {s : IxIndexHandle} {order : Nat} {b : Bool} (h : Nat) :
    ∀ {p : Int} {lo hi : Option Int}, Sub s order b h p lo hi →
      (s.pagesOf (h + 1) p).Nodup := by
  induction h with
  | zero =>
    intro p lo hi hs
    obtain ⟨n, hp, hl, _⟩ := Sub_zero.1 hs
    unfold pagesOf
    rw [walk_leaf _ _ _ hp hl]
    exact List.nodup_singleton _
  | succ k ih =>
    intro p lo hi hs
    obtain ⟨n, hp, hl, _, hc⟩ := Sub_succ.1 hs
    have e : s.pagesOf (k + 1 + 1) p = p :: n.children.flatMap (s.pagesOf (k + 1)) := by
      unfold pagesOf
      rw [walk_internal _ _ _ hp hl]; rfl
    rw [e, List.nodup_cons]
    constructor
    · intro hmem
      obtain ⟨c, hcm, hq⟩ := List.mem_flatMap.1 hmem
      obtain ⟨i, hi, rfl⟩ := IxNode.mem_children.1 hcm
      rw [IxNode.get_num_vals_internal hl] at hi
      exact Sub_root_not_below hs hp (by omega) hq
    · unfold IxNode.children
      rw [List.flatMap_map, List.nodup_flatMap]
      constructor
      · intro i hi
        rw [List.mem_range, IxNode.get_num_vals_internal hl] at hi
        obtain ⟨_, _, _, _, c4⟩ := hc i (by omega)
        exact ih c4
      · refine List.Pairwise.imp_of_mem ?_ (List.pairwise_lt_range _)
        intro i j hi hj hij
        rw [List.mem_range, IxNode.get_num_vals_internal hl] at hi hj
        simp only [Function.onFun]
        rw [List.disjoint_left]
        intro q hq1 hq2
        exact Sub_children_disjoint hs hp (by omega) (by omega) (by omega) hq1 hq2

end IxIndexHandle

theorem head_le_of_pairwise {E : List Int} {K : Int} (hp : E.Pairwise (· < ·))
    (hh : E.head? = some K) : ∀ y ∈ E, K ≤ y := by
  cases E with
  | nil => cases hh
  | cons a t =>
    simp only [List.head?_cons, Option.some.injEq] at hh
    subst hh
    intro y hy
    rcases List.mem_cons.1 hy with e | e
    · rw [e]
    · exact le_of_lt (List.rel_of_pairwise_cons hp e)

namespace IxNode

theorem leafEntries_keys (n : IxNode) :
    n.leafEntries.map Prod.fst = (List.range n.num_key).map n.get_key := by
  unfold leafEntries
  rw [List.map_map]
  rfl

theorem children_internal {n : IxNode} (hl : n.is_leaf = false) :
    n.children = n.child 0 :: (List.range n.num_key).map (fun i => n.child (i + 1)) := by
  unfold children
  rw [get_num_vals_internal hl, List.range_succ_eq_map, List.map_cons, List.map_map]
  rfl

end IxNode

namespace IxIndexHandle

theorem entriesOf_leaf {s : IxIndexHandle} {f : Nat} {p : Int} {n : IxNode}
    (hp : s.getP p = some n) (hl : n.is_leaf = true) :
    s.entriesOf (f + 1) p = n.leafEntries := by
  unfold entriesOf; rw [walk_leaf _ _ _ hp hl]

theorem entriesOf_internal {s : IxIndexHandle} {f : Nat} {p : Int} {n : IxNode}
    (hp : s.getP p = some n) (hl : n.is_leaf = false) :
    s.entriesOf (f + 1) p = (List.range (n.num_key + 1)).flatMap
      (fun i => s.entriesOf f (n.child i)) := by
  unfold entriesOf
  rw [walk_internal _ _ _ hp hl, List.nil_append]
  unfold IxNode.children
  rw [List.flatMap_map, IxNode.get_num_vals_internal hl]

theorem leavesOf_leaf {s : IxIndexHandle} {f : Nat} {p : Int} {n : IxNode}
    (hp : s.getP p = some n) (hl : n.is_leaf = true) :
    s.leavesOf (f + 1) p = [p] := by
  unfold leavesOf; rw [walk_leaf _ _ _ hp hl]

theorem leavesOf_internal {s : IxIndexHandle} {f : Nat} {p : Int} {n : IxNode}
    (hp : s.getP p = some n) (hl : n.is_leaf = false) :
    s.leavesOf (f + 1) p = (List.range (n.num_key + 1)).flatMap
      (fun i => s.leavesOf f (n.child i)) := by
  unfold leavesOf
  rw [walk_internal _ _ _ hp hl, List.nil_append]
  unfold IxNode.children
  rw [List.flatMap_map, IxNode.get_num_vals_internal hl]

/-- The keys of a subtree, read from left to right, increase strictly, lie
below the upper bound, and begin with the lower bound if one is given. -/
theorem Sub_entries {s : IxIndexHandle} {order : Nat} {b : Bool} (h : Nat) :
    ∀ {p : Int} {lo hi : Option Int}, Sub s order b h p lo hi →
      ((s.entriesOf (h + 1) p).map Prod.fst).Pairwise (· < ·) ∧
      (∀ k ∈ (s.entriesOf (h + 1) p).map Prod.fst, ltHi k hi) ∧
      (∀ K, lo = some K → ((s.entriesOf (h + 1) p).map Prod.fst).head? = some K) := by
  induction h with
  | zero =>
    intro p lo hi hs
    obtain ⟨n, hp, hl, h3, h4, h5, h6, _⟩ := Sub_zero.1 hs
    rw [entriesOf_leaf hp hl, IxNode.leafEntries_keys]
    refine ⟨?_, ?_, ?_⟩
    · rw [List.pairwise_map]
      refine List.Pairwise.imp_of_mem ?_ (List.pairwise_lt_range _)
      intro i j hi' hj hij
      rw [List.mem_range] at hj
      exact h4 i j hij hj
    · intro k hk
      obtain ⟨i, hi', rfl⟩ := List.mem_map.1 hk
      exact h5 i (List.mem_range.1 hi')
    · intro K hK
      obtain ⟨a, e⟩ := h6 K hK
      obtain ⟨m, hm⟩ : ∃ m, n.num_key = m + 1 := ⟨n.num_key - 1, by omega⟩
      rw [hm, List.range_succ_eq_map, List.map_cons, List.head?_cons, e]
  | succ k ih =>
    intro p lo hi hs
    have hs0 := hs
    obtain ⟨n, hp, hl, h3, hc⟩ := Sub_succ.1 hs
    have hk := Sub_internal_keys hs0 hp
    rw [entriesOf_internal hp hl, List.map_flatMap]
    have hch : ∀ i, i ≤ n.num_key → Sub s order b k (n.child i) (n.lob i lo) (n.hib i hi) := by
      intro i hi'
      obtain ⟨_, _, _, _, c4⟩ := hc i hi'
      exact c4
    refine ⟨?_, ?_, ?_⟩
    · rw [List.pairwise_flatMap]
      constructor
      · intro i hi'
        rw [List.mem_range] at hi'
        exact (ih (hch i (by omega))).1
      · refine List.Pairwise.imp_of_mem ?_ (List.pairwise_lt_range _)
        intro i j hi' hj hij x hx y hy
        rw [List.mem_range] at hi' hj
        have h1 := (ih (hch i (by omega))).2.1 x hx
        have e1 : n.hib i hi = some (n.get_key i) := by
          unfold IxNode.hib; rw [if_pos (by omega)]
        rw [e1] at h1
        have hj' := ih (hch j (by omega))
        have e2 : n.lob j lo = some (n.get_key (j - 1)) := by
          unfold IxNode.lob; rw [if_neg (by omega)]
        have h2 := head_le_of_pairwise hj'.1 (hj'.2.2 _ e2) y hy
        have h3 : n.get_key i ≤ n.get_key (j - 1) := by
          by_cases e : i = j - 1
          · rw [e]
          · exact le_of_lt (hk.1 i (j - 1) (by omega) (by omega))
        exact lt_of_lt_of_le h1 (le_trans h3 h2)
    · intro x hx
      obtain ⟨i, hi', hx'⟩ := List.mem_flatMap.1 hx
      rw [List.mem_range] at hi'
      have h1 := (ih (hch i (by omega))).2.1 x hx'
      unfold IxNode.hib at h1
      by_cases hlt : i < n.num_key
      · rw [if_pos hlt] at h1
        exact ltHi_of_le (le_of_lt h1) (hk.2.1 i hlt)
      · rw [if_neg hlt] at h1; exact h1
    · intro K hK
      rw [List.range_succ_eq_map, List.flatMap_cons, List.head?_append]
      have h0 := (ih (hch 0 (Nat.zero_le _))).2.2 K (by unfold IxNode.lob; rw [if_pos rfl]; exact hK)
      rw [h0]; rfl

theorem Sub_entries_ge {s : IxIndexHandle} {order : Nat} {b : Bool} {h : Nat} {p : Int}
    {K : Int} {hi : Option Int} (hs : Sub s order b h p (some K) hi) :
    ∀ k ∈ (s.entriesOf (h + 1) p).map Prod.fst, K ≤ k :=
  head_le_of_pairwise (Sub_entries h hs).1 ((Sub_entries h hs).2.2 K rfl)

end IxIndexHandle

/-! ### The lookup in a list of entries -/

theorem lookup_append (k : Int) (a b : List (Int × Rid)) :
    lookup k (a ++ b) = (lookup k a).or (lookup k b) := by
  unfold lookup
  rw [List.find?_append]
  cases List.find? (fun e => decide (e.1 = k)) a <;> simp

theorem lookup_eq_none {k : Int} {a : List (Int × Rid)} :
    lookup k a = none ↔ k ∉ a.map Prod.fst := by
  unfold lookup
  simp only [Option.map_eq_none', List.find?_eq_none, decide_eq_true_eq, List.mem_map,
    Prod.exists, exists_and_right, exists_eq_right, not_exists]
  constructor
  · intro h r hr
    exact h (k, r) hr rfl
  · intro h e he hk
    exact h e.2 (by rw [← hk]; exact he)

theorem lookup_of_mem {k : Int} {r : Rid} {a : List (Int × Rid)}
    (hs : (a.map Prod.fst).Pairwise (· < ·)) (hm : (k, r) ∈ a) : lookup k a = some r := by
  induction a with
  | nil => cases hm
  | cons e t ih =>
    rw [List.map_cons, List.pairwise_cons] at hs
    rcases List.mem_cons.1 hm with h | h
    · subst h
      simp [lookup]
    · have hne : e.1 ≠ k := by
        have := hs.1 k (List.mem_map.2 ⟨(k, r), h, rfl⟩)
        omega
      have := ih hs.2 h
      unfold lookup at this ⊢
      rw [List.find?_cons_of_neg _ (by simpa using hne)]
      exact this

theorem lookup_some_mem {k : Int} {r : Rid} {a : List (Int × Rid)} (h : lookup k a = some r) :
    (k, r) ∈ a := by
  unfold lookup at h
  rw [Option.map_eq_some'] at h
  obtain ⟨e, he, rfl⟩ := h
  have h1 := List.find?_some he
  have h2 := List.mem_of_find?_eq_some he
  simp only [decide_eq_true_eq] at h1
  rw [← h1]; exact h2

namespace IxIndexHandle

theorem InCtx_nil {s : IxIndexHandle} {order h : Nat} {p : Int} {lo hi : Option Int} :
    InCtx s order [] h p lo hi ↔ s.file_hdr_.root_page_ = p ∧ lo = none ∧ hi = none := by
  unfold InCtx; rfl

theorem InCtx_cons {s : IxIndexHandle} {order h : Nat} {A : Int} {i : Nat}
    {fr : List (Int × Nat)} {p : Int} {lo hi : Option Int} :
    InCtx s order ((A, i) :: fr) h p lo hi ↔
      ∃ n loA hiA, s.getP A = some n ∧ n.is_leaf = false ∧ n.NodeOK order ∧ i ≤ n.num_key ∧
        n.child i = p ∧ lo = n.lob i loA ∧ hi = n.hib i hiA ∧
        (∀ j, j ≤ n.num_key → j ≠ i → ∃ c, s.getP (n.child j) = some c ∧ c.parent = A ∧
          c.Occ order ∧ Sub s order true h (n.child j) (n.lob j loA) (n.hib j hiA)) ∧
        UpOK order fr n ∧ InCtx s order fr (h + 1) A loA hiA := by
  conv => lhs; unfold InCtx

theorem UpOK.upW {order : Nat} {fr : List (Int × Nat)} {n : IxNode} (h : UpOK order fr n) :
    UpW fr n := by
  cases fr with
  | nil => exact h.1
  | cons a t => exact h.1

/-- One step down: the context of a child. -/
theorem InCtx_down {s : IxIndexHandle} {order h : Nat} {fr : List (Int × Nat)} {p : Int}
    {lo hi : Option Int} {n : IxNode} (hc : InCtx s order fr (h + 1) p lo hi)
    (hs : Sub s order true (h + 1) p lo hi) (hp : s.getP p = some n) (hu : UpOK order fr n)
    {i : Nat} (hi' : i ≤ n.num_key) :
    InCtx s order ((p, i) :: fr) h (n.child i) (n.lob i lo) (n.hib i hi) := by
  obtain ⟨n', h1, h2, h3, hch⟩ := Sub_succ.1 hs
  rw [hp] at h1
  simp only [Option.some.injEq] at h1
  subst h1
  refine InCtx_cons.2 ⟨n, lo, hi, hp, h2, h3, hi', rfl, rfl, rfl, ?_, hu, hc⟩
  intro j hj _
  obtain ⟨c, c1, c2, c3, c4⟩ := hch j hj
  exact ⟨c, c1, c2, c3 rfl, c4⟩

/-- A node whose children are all roots of subtrees is one itself. -/
theorem Sub_plug_one {s : IxIndexHandle} {order h : Nat} {b : Bool} {A : Int} {i : Nat}
    {p : Int} {loA hiA : Option Int} {n c : IxNode}
    (h1 : s.getP A = some n) (h2 : n.is_leaf = false) (h3 : n.NodeOK order)
    (h5 : n.child i = p)
    (h8 : ∀ j, j ≤ n.num_key → j ≠ i → ∃ c, s.getP (n.child j) = some c ∧ c.parent = A ∧
      c.Occ order ∧ Sub s order true h (n.child j) (n.lob j loA) (n.hib j hiA))
    (hs : Sub s order b h p (n.lob i loA) (n.hib i hiA))
    (hp : s.getP p = some c) (hpar : c.parent = A) (hocc : b = true → c.Occ order) :
    Sub s order b (h + 1) A loA hiA := by
  refine Sub_succ.2 ⟨n, h1, h2, h3, ?_⟩
  intro j hj
  by_cases e : j = i
  · subst e
    rw [h5]
    exact ⟨c, hp, hpar, hocc, hs⟩
  · obtain ⟨c', c1, c2, c3, c4⟩ := h8 j hj e
    exact ⟨c', c1, c2, fun _ => c3, Sub_mono (fun _ => rfl) h c4⟩

/-- One step up: with the subtree in focus plugged in, the parent is the
root of a subtree. -/
theorem InCtx_up {s : IxIndexHandle} {order h : Nat} {b : Bool} {A : Int} {i : Nat}
    {fr : List (Int × Nat)} {p : Int} {lo hi : Option Int} {c : IxNode}
    (hc : InCtx s order ((A, i) :: fr) h p lo hi) (hs : Sub s order b h p lo hi)
    (hp : s.getP p = some c) (hpar : c.parent = A) (hocc : b = true → c.Occ order) :
    ∃ n loA hiA, s.getP A = some n ∧ n.is_leaf = false ∧ i ≤ n.num_key ∧ n.child i = p ∧
      lo = n.lob i loA ∧ hi = n.hib i hiA ∧ Sub s order b (h + 1) A loA hiA ∧
      InCtx s order fr (h + 1) A loA hiA ∧ UpOK order fr n := by
  obtain ⟨n, loA, hiA, h1, h2, h3, h4, h5, h6, h7, h8, h9, h10⟩ := InCtx_cons.1 hc
  subst h6; subst h7
  exact ⟨n, loA, hiA, h1, h2, h4, h5, rfl, rfl,
    Sub_plug_one h1 h2 h3 h5 h8 hs hp hpar hocc, h10, h9⟩

/-- All the way up: the whole tree. -/
theorem InCtx_plug {s : IxIndexHandle} {order : Nat} {b : Bool} (fr : List (Int × Nat)) :
    ∀ {h : Nat} {p : Int} {lo hi : Option Int} {c : IxNode},
      InCtx s order fr h p lo hi → Sub s order b h p lo hi → s.getP p = some c →
      (b = true → UpOK order fr c) → UpW fr c →
      Sub s order b (h + fr.length) s.file_hdr_.root_page_ none none ∧
        ∃ n, s.getP s.file_hdr_.root_page_ = some n ∧ n.parent = INVALID_PAGE_ID ∧
          (fr ≠ [] → n.is_leaf = false) := by
  induction fr with
  | nil =>
    intro h p lo hi c hc hs hp _ hw
    obtain ⟨e1, e2, e3⟩ := InCtx_nil.1 hc
    subst e1; subst e2; subst e3
    exact ⟨hs, c, hp, hw, fun h => absurd rfl h⟩
  | cons a t ih =>
    intro h p lo hi c hc hs hp hu hw
    obtain ⟨A, i⟩ := a
    obtain ⟨n, loA, hiA, h1, h2, h3, h4, h5, h6, h7, h8, h9⟩ :=
      InCtx_up hc hs hp hw (fun hb => (hu hb).2)
    have := ih h8 h7 h1 (fun _ => h9) h9.upW
    rw [List.length_cons, show h + (t.length + 1) = h + 1 + t.length by omega]
    refine ⟨this.1, ?_⟩
    obtain ⟨m, m1, m2, m3⟩ := this.2
    refine ⟨m, m1, m2, fun _ => ?_⟩
    cases t with
    | nil =>
      obtain ⟨e1, _, _⟩ := InCtx_nil.1 h8
      rw [e1, h1] at m1
      simp only [Option.some.injEq] at m1
      rw [← m1]; exact h2
    | cons x y => exact m3 (by simp)

/-- The pages of the subtree in focus are pages of its parent. -/
theorem pagesOf_sub_parent {s : IxIndexHandle} {f : Nat} {A p q : Int} {n : IxNode} {i : Nat}
    (hA : s.getP A = some n) (hl : n.is_leaf = false) (hi' : i ≤ n.num_key)
    (hch : n.child i = p) (hq : q ∈ s.pagesOf f p) : q ∈ s.pagesOf (f + 1) A :=
  child_mem_pagesOf hA hl hi' (hch ▸ hq)

/-- The context of a subtree does not read the pages of the subtree, nor
any leaf link. -/
theorem InCtx_frame {s t : IxIndexHandle} {order : Nat} (fr : List (Int × Nat)) :
    ∀ {h : Nat} {p : Int} {lo hi : Option Int} {c : IxNode},
      InCtx s order fr h p lo hi → Sub s order false h p lo hi → s.getP p = some c → UpW fr c →
      (∀ q, q ∉ s.pagesOf (h + 1) p → SameAt t s q) →
      t.file_hdr_.root_page_ = s.file_hdr_.root_page_ → InCtx t order fr h p lo hi := by
  induction fr with
  | nil =>
    intro h p lo hi c hc hs hp hw hsame hroot
    obtain ⟨e1, e2, e3⟩ := InCtx_nil.1 hc
    exact InCtx_nil.2 ⟨hroot.trans e1, e2, e3⟩
  | cons a fr ih =>
    intro h p lo hi c hc hs hp hw hsame hroot
    obtain ⟨A, i⟩ := a
    obtain ⟨n, loA, hiA, h1, h2, g3, h4, h5, g6, g7, g8, h9, h10⟩ := InCtx_cons.1 hc
    subst g6; subst g7
    have hsA : Sub s order false (h + 1) A loA hiA :=
      Sub_plug_one h1 h2 g3 h5 g8 hs hp hw (fun hb => by cases hb)
    have hAnot : A ∉ s.pagesOf (h + 1) p := by
      rw [← h5]; exact Sub_root_not_below hsA h1 h4
    obtain ⟨a, ha, hab⟩ := hsame A hAnot n h1
    refine InCtx_cons.2 ⟨a, loA, hiA, ha, by rw [hab.1]; exact h2, hab.NodeOK g3,
      by rw [hab.2.1]; exact h4, by rw [hab.child]; exact h5, by rw [hab.lob],
      by rw [hab.hib], ?_, ?_, ?_⟩
    · intro j hj hji
      rw [hab.2.1] at hj
      obtain ⟨c', c1, c2, c3, c4⟩ := g8 j hj hji
      have hdis : ∀ q, q ∈ s.pagesOf (h + 1) (n.child j) → q ∉ s.pagesOf (h + 1) p := by
        intro q hq1 hq2
        rw [← h5] at hq2
        exact Sub_children_disjoint hsA h1 hj h4 hji hq1 hq2
      obtain ⟨c'', d1, d2⟩ := hsame _ (hdis _ (self_mem_pagesOf c1)) c' c1
      rw [hab.child, hab.lob, hab.hib]
      exact ⟨c'', d1, by rw [d2.2.2.1]; exact c2, d2.Occ c3,
        Sub_frame h c4 (fun q hq => hsame q (hdis q hq))⟩
    · cases fr with
      | nil =>
        exact ⟨hab.2.2.1.trans h9.1, by rw [hab.get_num_vals]; exact h9.2.1,
          fun hl => by rw [hab.2.1]; exact h9.2.2 (by rw [← hab.1]; exact hl)⟩
      | cons x y => exact ⟨hab.2.2.1.trans h9.1, hab.Occ h9.2⟩
    · refine ih h10 hsA h1 h9.upW ?_ hroot
      intro q hq
      apply hsame
      intro hq'
      exact hq (pagesOf_sub_parent h1 h2 h4 h5 hq')

end IxIndexHandle

theorem mem_drop_range {i j m : Nat} : j ∈ (List.range m).drop i ↔ i ≤ j ∧ j < m := by
  rw [List.mem_iff_getElem?]
  constructor
  · rintro ⟨k, hk⟩
    rw [List.getElem?_drop, List.getElem?_eq_some_iff] at hk
    obtain ⟨h1, h2⟩ := hk
    rw [List.getElem_range] at h2
    rw [List.length_range] at h1
    omega
  · rintro ⟨h1, h2⟩
    refine ⟨j - i, ?_⟩
    rw [List.getElem?_drop, List.getElem?_eq_some_iff]
    refine ⟨by rw [List.length_range]; omega, ?_⟩
    rw [List.getElem_range]; omega

namespace IxNode

theorem length_children (n : IxNode) : n.children.length = n.get_num_vals := by
  unfold children; simp

theorem getElem_children (n : IxNode) (i : Nat) (h : i < n.children.length) :
    n.children[i] = n.child i := by
  unfold children; simp

theorem children_split {n : IxNode} {i : Nat} (hi : i < n.get_num_vals) :
    n.children = n.children.take i ++ n.child i :: n.children.drop (i + 1) := by
  have h : i < n.children.length := by rw [length_children]; exact hi
  conv => lhs; rw [← List.take_append_drop i n.children]
  rw [List.drop_eq_getElem_cons h, getElem_children]

theorem mem_take_children {n : IxNode} {i : Nat} {c : Int} (hi : i ≤ n.get_num_vals) :
    c ∈ n.children.take i ↔ ∃ j, j < i ∧ n.child j = c := by
  unfold children
  rw [← List.map_take, List.take_range, Nat.min_eq_left hi]
  simp only [List.mem_map, List.mem_range]

theorem mem_drop_children {n : IxNode} {i : Nat} {c : Int} :
    c ∈ n.children.drop i ↔ ∃ j, i ≤ j ∧ j < n.get_num_vals ∧ n.child j = c := by
  unfold children
  rw [← List.map_drop, List.mem_map]
  constructor
  · rintro ⟨j, hj, rfl⟩
    have := mem_drop_range.1 hj
    exact ⟨j, this.1, this.2, rfl⟩
  · rintro ⟨j, h1, h2, rfl⟩
    exact ⟨j, mem_drop_range.2 ⟨h1, h2⟩, rfl⟩

end IxNode

namespace IxIndexHandle

theorem walk_split_child {α : Type} {s : IxIndexHandle} (gl : Int → IxNode → List α) (f : Nat)
    {A : Int} {n : IxNode} (hA : s.getP A = some n) (hl : n.is_leaf = false) {i : Nat}
    (hi : i ≤ n.num_key) :
    walk s gl (fun _ _ => []) (f + 1) A =
      (n.children.take i).flatMap (walk s gl (fun _ _ => []) f) ++
        walk s gl (fun _ _ => []) f (n.child i) ++
        (n.children.drop (i + 1)).flatMap (walk s gl (fun _ _ => []) f) := by
  rw [walk_internal _ _ _ hA hl, List.nil_append]
  conv => lhs; rw [IxNode.children_split (show i < n.get_num_vals by
    rw [IxNode.get_num_vals_internal hl]; omega)]
  rw [List.flatMap_append, List.flatMap_cons, List.append_assoc]

/-- The walk over the whole tree is the walk over the subtree in focus
between what the context gives on the left and on the right. -/
theorem walk_zip {α : Type} {s : IxIndexHandle} {order : Nat} (gl : Int → IxNode → List α)
    (fr : List (Int × Nat)) :
    ∀ {h : Nat} {p : Int} {lo hi : Option Int},
      InCtx s order fr h p lo hi →
      walk s gl (fun _ _ => []) (h + fr.length + 1) s.file_hdr_.root_page_ =
        ctxL s gl fr h ++ walk s gl (fun _ _ => []) (h + 1) p ++ ctxR s gl fr h := by
  induction fr with
  | nil =>
    intro h p lo hi hc
    obtain ⟨e1, _, _⟩ := InCtx_nil.1 hc
    rw [e1]
    simp [ctxL, ctxR]
  | cons a fr ih =>
    intro h p lo hi hc
    obtain ⟨A, i⟩ := a
    obtain ⟨n, loA, hiA, h1, h2, g3, h4, h5, g6, g7, g8, h9, h10⟩ := InCtx_cons.1 hc
    have := ih h10
    rw [List.length_cons, show h + (fr.length + 1) + 1 = h + 1 + fr.length + 1 by omega, this,
      walk_split_child gl (h + 1) h1 h2 h4, h5]
    simp only [ctxL, ctxR, h1, List.append_assoc]

theorem ctxL_frame {α : Type} {s t : IxIndexHandle} {order : Nat}
    (gl : Int → IxNode → List α) (hgl : ∀ p a b, IxNode.Same a b → gl p a = gl p b)
    (fr : List (Int × Nat)) :
    ∀ {h : Nat} {p : Int} {lo hi : Option Int} {c : IxNode},
      InCtx s order fr h p lo hi → Sub s order false h p lo hi → s.getP p = some c → UpW fr c →
      (∀ q, q ∉ s.pagesOf (h + 1) p → SameAt t s q) →
      ctxL t gl fr h = ctxL s gl fr h ∧ ctxR t gl fr h = ctxR s gl fr h := by
  induction fr with
  | nil =>
    intro h p lo hi c hc hs hp hw hsame
    exact ⟨rfl, rfl⟩
  | cons a fr ih =>
    intro h p lo hi c hc hs hp hw hsame
    obtain ⟨A, i⟩ := a
    obtain ⟨n, loA, hiA, h1, h2, g3, h4, h5, g6, g7, g8, h9, h10⟩ := InCtx_cons.1 hc
    subst g6; subst g7
    have hsA : Sub s order false (h + 1) A loA hiA :=
      Sub_plug_one h1 h2 g3 h5 g8 hs hp hw (fun hb => by cases hb)
    have hAnot : A ∉ s.pagesOf (h + 1) p := by
      rw [← h5]; exact Sub_root_not_below hsA h1 h4
    obtain ⟨a, ha, hab⟩ := hsame A hAnot n h1
    have hrec := ih h10 hsA h1 h9.upW (by
      intro q hq
      apply hsame
      intro hq'
      exact hq (pagesOf_sub_parent h1 h2 h4 h5 hq'))
    have hsib : ∀ j, j ≤ n.num_key → j ≠ i →
        walk t gl (fun _ _ => []) (h + 1) (n.child j) =
          walk s gl (fun _ _ => []) (h + 1) (n.child j) := by
      intro j hj hji
      obtain ⟨c', c1, c2, c3, c4⟩ := g8 j hj hji
      apply walk_frame gl (fun _ _ => []) hgl (fun _ _ _ _ => rfl) h c4
      intro q hq
      apply hsame
      intro hq2
      rw [← h5] at hq2
      exact Sub_children_disjoint hsA h1 hj h4 hji hq hq2
    have hnv : n.get_num_vals = n.num_key + 1 := IxNode.get_num_vals_internal h2
    constructor
    · simp only [ctxL, h1, ha, hrec.1, hab.children]
      congr 1
      apply List.flatMap_congr
      intro x hx
      obtain ⟨j, hj, rfl⟩ := (IxNode.mem_take_children (by omega)).1 hx
      exact hsib j (by omega) (by omega)
    · simp only [ctxR, h1, ha, hrec.2, hab.children]
      congr 1
      apply List.flatMap_congr
      intro x hx
      obtain ⟨j, hj1, hj2, rfl⟩ := IxNode.mem_drop_children.1 hx
      exact hsib j (by omega) (by omega)

/-- The keys that the context holds to the left of the subtree in focus lie
below its lower bound, those to the right at or above its upper bound. -/
theorem ctx_bounds {s : IxIndexHandle} {order : Nat} (fr : List (Int × Nat)) :
    ∀ {h : Nat} {p : Int} {lo hi : Option Int} {c : IxNode},
      InCtx s order fr h p lo hi → Sub s order false h p lo hi → s.getP p = some c → UpW fr c →
      (∀ k ∈ (ctxL s (fun _ n => n.leafEntries) fr h).map Prod.fst, ∃ K, lo = some K ∧ k < K) ∧
      (∀ k ∈ (ctxR s (fun _ n => n.leafEntries) fr h).map Prod.fst, ∃ H, hi = some H ∧ H ≤ k) := by
  induction fr with
  | nil =>
    intro h p lo hi c hc hs hp hw
    simp [ctxL, ctxR]
  | cons a fr ih =>
    intro h p lo hi c hc hs hp hw
    obtain ⟨A, i⟩ := a
    obtain ⟨n, loA, hiA, h1, h2, g3, h4, h5, g6, g7, g8, h9, h10⟩ := InCtx_cons.1 hc
    subst g6; subst g7
    have hsA : Sub s order false (h + 1) A loA hiA :=
      Sub_plug_one h1 h2 g3 h5 g8 hs hp hw (fun hb => by cases hb)
    have hk := Sub_internal_keys hsA h1
    have hrec := ih h10 hsA h1 h9.upW
    have hnv : n.get_num_vals = n.num_key + 1 := IxNode.get_num_vals_internal h2
    have hch : ∀ j, j ≤ n.num_key →
        Sub s order false h (n.child j) (n.lob j loA) (n.hib j hiA) := by
      obtain ⟨_, e1, _, _, hall⟩ := Sub_succ.1 hsA
      rw [h1] at e1
      simp only [Option.some.injEq] at e1
      subst e1
      intro j hj
      obtain ⟨_, _, _, _, c4⟩ := hall j hj
      exact c4
    constructor
    · intro k hk'
      simp only [ctxL, h1, List.map_append, List.mem_append] at hk'
      rcases hk' with hk' | hk'
      · obtain ⟨K, eK, hK⟩ := hrec.1 k hk'
        unfold IxNode.lob
        by_cases hz : i = 0
        · rw [if_pos hz]; exact ⟨K, eK, hK⟩
        · rw [if_neg hz]
          exact ⟨_, rfl, lt_trans hK (hk.2.2 K eK (i - 1) (by omega))⟩
      · rw [List.map_flatMap] at hk'
        obtain ⟨x, hx, hkx⟩ := List.mem_flatMap.1 hk'
        obtain ⟨j, hj, rfl⟩ := (IxNode.mem_take_children (by omega)).1 hx
        have hb := (Sub_entries h (hch j (by omega))).2.1 k hkx
        have e1 : n.hib j hiA = some (n.get_key j) := by
          unfold IxNode.hib; rw [if_pos (by omega)]
        rw [e1] at hb
        unfold IxNode.lob
        rw [if_neg (by omega)]
        refine ⟨_, rfl, ?_⟩
        by_cases e : j = i - 1
        · rw [← e]; exact hb
        · exact lt_trans hb (hk.1 j (i - 1) (by omega) (by omega))
    · intro k hk'
      simp only [ctxR, h1, List.map_append, List.mem_append] at hk'
      rcases hk' with hk' | hk'
      · rw [List.map_flatMap] at hk'
        obtain ⟨x, hx, hkx⟩ := List.mem_flatMap.1 hk'
        obtain ⟨j, hj1, hj2, rfl⟩ := IxNode.mem_drop_children.1 hx
        have e2 : n.lob j loA = some (n.get_key (j - 1)) := by
          unfold IxNode.lob; rw [if_neg (by omega)]
        have hj' := hch j (by omega)
        rw [e2] at hj'
        have hb := Sub_entries_ge hj' k hkx
        unfold IxNode.hib
        rw [if_pos (by omega)]
        refine ⟨_, rfl, ?_⟩
        by_cases e : i = j - 1
        · rw [e]; exact hb
        · exact le_trans (le_of_lt (hk.1 i (j - 1) (by omega) (by omega))) hb
      · obtain ⟨H, eH, hH⟩ := hrec.2 k hk'
        unfold IxNode.hib
        by_cases hlt : i < n.num_key
        · rw [if_pos hlt]
          have := hk.2.1 i hlt
          rw [eH] at this
          exact ⟨_, rfl, le_trans (le_of_lt this) hH⟩
        · rw [if_neg hlt]; exact ⟨H, eH, hH⟩

end IxIndexHandle

theorem geLo_of_le {a b : Int} {lo : Option Int} (h : a ≤ b) (ha : geLo a lo) : geLo b lo := by
  cases lo with
  | none => trivial
  | some x => exact le_trans ha h

namespace IxNode

/-- `internal_lookup` returns the child whose key range holds the key. -/
theorem internal_lookup_spec (n : IxNode) (k : Int) (hs : n.KeysSorted) :
    ∃ i, n.internal_lookup k = Except.ok (n.child i) ∧ i ≤ n.num_key ∧
      (∀ j, j < i → n.get_key j ≤ k) ∧ (∀ j, i ≤ j → j < n.num_key → k < n.get_key j) := by
  obtain ⟨a, b⟩ := lower_bound_spec n k hs
  have hle := lower_bound_le n k
  unfold internal_lookup
  simp only [get_size]
  by_cases h1 : n.lower_bound k = n.num_key
  · rw [if_pos h1]
    refine ⟨n.lower_bound k, rfl, hle, fun j hj => le_of_lt (a j hj), fun j hj hj' => by omega⟩
  · rw [if_neg h1]
    have hge := b (n.lower_bound k) (le_refl _) (by omega)
    by_cases h2 : k = n.get_key (n.lower_bound k)
    · rw [if_pos ((ix_compare_eq _ _).2 h2)]
      refine ⟨n.lower_bound k + 1, rfl, by omega, ?_, ?_⟩
      · intro j hj
        by_cases e : j = n.lower_bound k
        · rw [e, ← h2]
        · exact le_of_lt (a j (by omega))
      · intro j hj hj'
        rw [h2]
        exact hs _ _ (by omega) hj'
    · rw [if_neg (by rw [ix_compare_eq]; exact h2),
        if_pos ((ix_compare_lt _ _).2 (lt_of_le_of_ne hge h2))]
      refine ⟨n.lower_bound k, rfl, hle, fun j hj => le_of_lt (a j hj), ?_⟩
      intro j hj hj'
      by_cases e : j = n.lower_bound k
      · rw [e]; exact lt_of_le_of_ne hge h2
      · exact lt_trans (lt_of_le_of_ne hge h2) (hs _ j (by omega) hj')

/-- `father_lookup` returns the child slot whose key range holds the key. -/
theorem father_lookup_spec (n : IxNode) (k : Int) (hs : n.KeysSorted) :
    ∃ i, n.father_lookup k = Except.ok i ∧ i ≤ n.num_key ∧
      (∀ j, j < i → n.get_key j ≤ k) ∧ (∀ j, i ≤ j → j < n.num_key → k < n.get_key j) := by
  obtain ⟨a, b⟩ := lower_bound_spec n k hs
  have hle := lower_bound_le n k
  unfold father_lookup
  simp only [get_size]
  by_cases h1 : n.lower_bound k = n.num_key
  · rw [if_pos h1]
    refine ⟨n.lower_bound k, rfl, hle, fun j hj => le_of_lt (a j hj), fun j hj hj' => by omega⟩
  · rw [if_neg h1]
    have hge := b (n.lower_bound k) (le_refl _) (by omega)
    by_cases h2 : k = n.get_key (n.lower_bound k)
    · rw [if_pos ((ix_compare_eq _ _).2 h2)]
      refine ⟨n.lower_bound k + 1, rfl, by omega, ?_, ?_⟩
      · intro j hj
        by_cases e : j = n.lower_bound k
        · rw [e, ← h2]
        · exact le_of_lt (a j (by omega))
      · intro j hj hj'
        rw [h2]
        exact hs _ _ (by omega) hj'
    · rw [if_neg (by rw [ix_compare_eq]; exact h2),
        if_pos ((ix_compare_lt _ _).2 (lt_of_le_of_ne hge h2))]
      refine ⟨n.lower_bound k, rfl, hle, fun j hj => le_of_lt (a j hj), ?_⟩
      intro j hj hj'
      by_cases e : j = n.lower_bound k
      · rw [e]; exact lt_of_le_of_ne hge h2
      · exact lt_trans (lt_of_le_of_ne hge h2) (hs _ j (by omega) hj')

/-- The slot of a key range is determined by the keys. -/
theorem slot_unique (n : IxNode) (k : Int) {i i' : Nat} (hi : i ≤ n.num_key)
    (hi' : i' ≤ n.num_key)
    (h1 : ∀ j, j < i → n.get_key j ≤ k) (h2 : ∀ j, i ≤ j → j < n.num_key → k < n.get_key j)
    (h1' : ∀ j, j < i' → n.get_key j ≤ k)
    (h2' : ∀ j, i' ≤ j → j < n.num_key → k < n.get_key j) : i = i' := by
  by_contra hne
  rcases Nat.lt_or_gt_of_ne hne with h | h
  · have := h2 i (le_refl _) (by omega)
    have := h1' i h
    omega
  · have := h2' i' (le_refl _) (by omega)
    have := h1 i' h
    omega

theorem lookup_leafEntries_aux (g : Nat → Int) (r : Nat → Rid) (k : Int) (m : Nat) :
    ∀ (pos : Nat), pos < m → (∀ j, j < pos → g j ≠ k) → g pos = k →
      lookup k ((List.range m).map (fun i => (g i, r i))) = some (r pos) := by
  induction m with
  | zero => intro pos h; omega
  | succ m ih =>
    intro pos hpos hne heq
    rw [List.range_succ, List.map_append, lookup_append]
    by_cases e : pos = m
    · subst e
      have : lookup k ((List.range pos).map (fun i => (g i, r i))) = none := by
        rw [lookup_eq_none]
        simp only [List.map_map, List.mem_map, List.mem_range, Function.comp, not_exists, not_and]
        intro j hj
        exact hne j hj
      rw [this]
      simp [lookup, heq]
    · rw [ih pos (by omega) hne heq]; rfl

/-- `leaf_lookup` is the lookup among the entries of the leaf. -/
theorem leaf_lookup_spec (n : IxNode) (k : Int) (hl : n.is_leaf = true) (hs : n.KeysSorted) :
    n.leaf_lookup k = Except.ok (lookup k n.leafEntries) := by
  obtain ⟨a, b⟩ := lower_bound_spec n k hs
  have hle := lower_bound_le n k
  have hnone : (∀ j, j < n.num_key → n.get_key j ≠ k) → lookup k n.leafEntries = none := by
    intro h
    rw [lookup_eq_none, leafEntries_keys]
    simp only [List.mem_map, List.mem_range, not_exists, not_and]
    exact h
  unfold leaf_lookup
  simp only [hl, Bool.not_true, Bool.false_eq_true, if_false, get_size]
  by_cases h1 : n.lower_bound k = n.num_key
  · rw [if_pos h1, hnone]
    intro j hj
    have := a j (by omega)
    omega
  · rw [if_neg h1]
    have hge := b (n.lower_bound k) (le_refl _) (by omega)
    by_cases h2 : n.get_key (n.lower_bound k) = k
    · rw [if_neg (by rw [not_not, ix_compare_eq]; exact h2)]
      unfold leafEntries
      rw [lookup_leafEntries_aux n.get_key n.get_rid k n.num_key (n.lower_bound k) (by omega)
        (fun j hj => by have := a j hj; omega) h2]
    · rw [if_pos (by intro hh; rw [ix_compare_eq] at hh; exact h2 hh), hnone]
      intro j hj
      by_cases hjl : j < n.lower_bound k
      · have := a j hjl; omega
      · by_cases e : j = n.lower_bound k
        · rw [e]; exact h2
        · have := hs (n.lower_bound k) j (by omega) hj
          omega

end IxNode

namespace IxIndexHandle

/-- The search for the leaf of a key goes down the tree to a leaf whose key
range holds the key. -/
theorem find_leaf_loop_spec {s : IxIndexHandle} {order : Nat} (k : Int) (h : Nat) :
    ∀ {fuel : Nat} {p : Int} {lo hi : Option Int} {fr : List (Int × Nat)} {n : IxNode},
      InCtx s order fr h p lo hi → Sub s order true h p lo hi → s.getP p = some n →
      UpOK order fr n → geLo k lo → ltHi k hi → h + 1 ≤ fuel →
      ∃ fr' leaf lo' hi' c, find_leaf_loop k fuel p s = (Except.ok leaf, s) ∧
        InCtx s order fr' 0 leaf lo' hi' ∧ Sub s order true 0 leaf lo' hi' ∧
        s.getP leaf = some c ∧ UpOK order fr' c ∧ geLo k lo' ∧ ltHi k hi' ∧
        fr'.length = fr.length + h := by
  induction h with
  | zero =>
    intro fuel p lo hi fr n hc hs hp hu hlo hhi hf
    obtain ⟨n', h1, h2, _⟩ := Sub_zero.1 hs
    rw [hp] at h1
    simp only [Option.some.injEq] at h1
    subst h1
    obtain ⟨f', rfl⟩ : ∃ f', fuel = f' + 1 := ⟨fuel - 1, by omega⟩
    refine ⟨fr, p, lo, hi, n, ?_, hc, hs, hp, hu, hlo, hhi, rfl⟩
    unfold find_leaf_loop
    rw [bind_run (fetch_run hp)]
    simp only [h2, if_true]
    rfl
  | succ m ih =>
    intro fuel p lo hi fr n hc hs hp hu hlo hhi hf
    obtain ⟨n', h1, h2, h3, hch⟩ := Sub_succ.1 hs
    rw [hp] at h1
    simp only [Option.some.injEq] at h1
    subst h1
    obtain ⟨f', rfl⟩ : ∃ f', fuel = f' + 1 := ⟨fuel - 1, by omega⟩
    have hk := Sub_internal_keys hs hp
    obtain ⟨i, e, hi', ha, hb⟩ := n.internal_lookup_spec k hk.1
    obtain ⟨c, c1, c2, c3, c4⟩ := hch i hi'
    have hctx := InCtx_down hc hs hp hu hi'
    have hlo' : geLo k (n.lob i lo) := by
      unfold IxNode.lob
      by_cases hz : i = 0
      · rw [if_pos hz]; exact hlo
      · rw [if_neg hz]; exact ha (i - 1) (by omega)
    have hhi' : ltHi k (n.hib i hi) := by
      unfold IxNode.hib
      by_cases hlt : i < n.num_key
      · rw [if_pos hlt]; exact hb i (le_refl _) hlt
      · rw [if_neg hlt]; exact hhi
    obtain ⟨fr', leaf, lo', hi2, d, r1, r2, r3, r4, r5, r6, r7, r8⟩ :=
      @ih f' _ _ _ _ _ hctx c4 c1 ⟨c2, c3 rfl⟩ hlo' hhi' (by omega)
    refine ⟨fr', leaf, lo', hi2, d, ?_, r2, r3, r4, r5, r6, r7, ?_⟩
    · unfold find_leaf_loop
      rw [bind_run (fetch_run hp)]
      simp only [h2, Bool.false_eq_true, if_false]
      rw [bind_run (show IxM.lift (n.internal_lookup k) s = (Except.ok (n.child i), s) by
        rw [lift_run, e])]
      exact r1
    · rw [r8, List.length_cons]; omega

/-- What `find_leaf_page` returns on a tree. -/
theorem find_leaf_page_spec {s : IxIndexHandle} {order H : Nat} (k : Int)
    (hinv : TreeInv s order H) :
    ∃ fr leaf lo hi c, find_leaf_page k s = (Except.ok leaf, s) ∧
      InCtx s order fr 0 leaf lo hi ∧ Sub s order true 0 leaf lo hi ∧
      s.getP leaf = some c ∧ UpOK order fr c ∧ geLo k lo ∧ ltHi k hi ∧ fr.length = H := by
  obtain ⟨_, hsub, ⟨n, hn, hpar⟩, hlen, _⟩ := hinv
  obtain ⟨fr', leaf, lo', hi2, d, r1, r2, r3, r4, r5, r6, r7, r8⟩ :=
    @find_leaf_loop_spec _ _ k H (s.pages.length + 1) _ _ _ [] _
      (InCtx_nil.2 ⟨rfl, rfl, rfl⟩) hsub hn hpar trivial trivial (by omega)
  refine ⟨fr', leaf, lo', hi2, d, ?_, r2, r3, r4, r5, r6, r7, by simpa using r8⟩
  unfold find_leaf_page
  rw [bind_run (getHdr_run s)]
  exact r1

/-- The entries of the whole tree around the leaf of a key. -/
theorem allEntries_eq {s : IxIndexHandle} {order H : Nat} (hinv : TreeInv s order H) :
    s.allEntries = s.entriesOf (H + 1) s.file_hdr_.root_page_ := by
  obtain ⟨_, hsub, _, hlen, _⟩ := hinv
  unfold allEntries entriesOf
  exact walk_fuel _ _ H _ hsub (by omega)

theorem allLeaves_eq {s : IxIndexHandle} {order H : Nat} (hinv : TreeInv s order H) :
    s.allLeaves = s.leavesOf (H + 1) s.file_hdr_.root_page_ := by
  obtain ⟨_, hsub, _, hlen, _⟩ := hinv
  unfold allLeaves leavesOf
  exact walk_fuel _ _ H _ hsub (by omega)

theorem allPages_eq {s : IxIndexHandle} {order H : Nat} (hinv : TreeInv s order H) :
    s.allPages = s.pagesOf (H + 1) s.file_hdr_.root_page_ := by
  obtain ⟨_, hsub, _, hlen, _⟩ := hinv
  unfold allPages pagesOf
  exact walk_fuel _ _ H _ hsub (by omega)

/-- A lookup in the tree is a lookup in the leaf of the key. -/
theorem lookup_zip {s : IxIndexHandle} {order : Nat} {fr : List (Int × Nat)} {leaf : Int}
    {lo hi : Option Int} {c : IxNode} (k : Int)
    (hc : InCtx s order fr 0 leaf lo hi) (hs : Sub s order false 0 leaf lo hi)
    (hp : s.getP leaf = some c) (hw : UpW fr c) (hlo : geLo k lo) (hhi : ltHi k hi) :
    lookup k (s.entriesOf (fr.length + 1) s.file_hdr_.root_page_) = lookup k c.leafEntries := by
  obtain ⟨_, _, hl, _⟩ := Sub_zero.1 hs
  have hz := walk_zip (fun _ n => n.leafEntries) fr hc
  rw [Nat.zero_add] at hz
  obtain ⟨bl, br⟩ := ctx_bounds fr hc hs hp hw
  unfold entriesOf
  rw [hz, lookup_append, lookup_append]
  have e1 : lookup k (ctxL s (fun _ n => n.leafEntries) fr 0) = none := by
    rw [lookup_eq_none]
    intro hmem
    obtain ⟨K, eK, hK⟩ := bl k hmem
    rw [eK] at hlo
    exact absurd hlo (not_le.2 hK)
  have e2 : lookup k (ctxR s (fun _ n => n.leafEntries) fr 0) = none := by
    rw [lookup_eq_none]
    intro hmem
    obtain ⟨Hb, eH, hH⟩ := br k hmem
    rw [eH] at hhi
    exact absurd hhi (not_lt.2 hH)
  rw [e1, e2]
  have : walk s (fun _ n => n.leafEntries) (fun _ _ => []) (0 + 1) leaf = c.leafEntries := by
    obtain ⟨n', h1, h2, _⟩ := Sub_zero.1 hs
    rw [hp] at h1
    simp only [Option.some.injEq] at h1
    subst h1
    exact walk_leaf _ _ _ hp h2
  rw [this]
  cases lookup k c.leafEntries <;> rfl

/-- `get_value` returns what the entries of the tree hold for the key, and
leaves the index as it is. -/
theorem get_value_spec {s : IxIndexHandle} {order H : Nat} (k : Int)
    (hinv : TreeInv s order H) :
    get_value k s = (Except.ok (lookup k s.allEntries), s) := by
  obtain ⟨fr, leaf, lo, hi, c, r1, r2, r3, r4, r5, r6, r7, r8⟩ := find_leaf_page_spec k hinv
  obtain ⟨_, _, hl, _, hsort, _⟩ := Sub_zero.1 r3
  have := lookup_zip k r2 (Sub_weak r3) r4 r5.upW r6 r7
  rw [r8] at this
  rw [allEntries_eq hinv, this]
  obtain ⟨n', h1, h2, _, h4, _⟩ := Sub_zero.1 r3
  rw [r4] at h1
  simp only [Option.some.injEq] at h1
  subst h1
  unfold get_value
  rw [bind_run r1, bind_run (fetch_run r4), lift_run, IxNode.leaf_lookup_spec c k h2 h4]

end IxIndexHandle

namespace IxIndexHandle

theorem binary_search_absent (n : IxNode) (x : Int)
    (h : ∀ j, j < n.num_key → n.get_key j ≠ x) : n.binary_search x = -1 := by
  unfold IxNode.binary_search
  simp only
  have hle := IxNode.lower_bound_le n x
  by_cases he : n.lower_bound x = n.get_size
  · rw [if_pos (Or.inl he)]
  · have hlt : n.lower_bound x < n.num_key := by
      unfold IxNode.get_size at he
      omega
    rw [if_pos (Or.inr (by
      rw [Ne, ix_compare_eq]
      exact h _ hlt))]

/-- In a tree no ancestor of a node holds a key that lies strictly inside
the bounds of the node. -/
theorem ancFree_of_ctx {s : IxIndexHandle} {order : Nat} (x : Int) (fr : List (Int × Nat)) :
    ∀ {h : Nat} {p : Int} {lo hi : Option Int} {c : IxNode},
      InCtx s order fr h p lo hi → Sub s order false h p lo hi → s.getP p = some c → UpW fr c →
      (∀ K, lo = some K → K < x) → ltHi x hi → AncFree s x fr p c.parent := by
  induction fr with
  | nil =>
    intro h p lo hi c hc _ _ _ _ _
    exact (InCtx_nil.1 hc).1.symm
  | cons f fr ih =>
    intro h p lo hi c hc hs hp hw hlo hhi
    obtain ⟨A, i⟩ := f
    have hpar : c.parent = A := hw
    obtain ⟨hroot, nr, hnr, hnrp, _⟩ :=
      InCtx_plug ((A, i) :: fr) hc hs hp (fun hb => by cases hb) hw
    obtain ⟨n, loA, hiA, h1, h2, h3, h4, h5, h6, h7, h8, h9⟩ :=
      InCtx_up hc hs hp hpar (fun hb => by cases hb)
    obtain ⟨k1, k2, k3⟩ := Sub_internal_keys h7 h1
    have hA0 := (getP_lt h1).1
    refine ⟨?_, hpar, n, h1, h2, ?_, ?_⟩
    · intro hpr
      rw [hpr, hnr] at hp
      simp only [Option.some.injEq] at hp
      rw [← hp, hnrp] at hpar
      unfold INVALID_PAGE_ID at hpar
      omega
    · apply binary_search_absent
      intro j hj
      by_cases hji : j < i
      · have hi0 : i ≠ 0 := by omega
        have hK := hlo (n.get_key (i - 1)) (by rw [h5]; unfold IxNode.lob; rw [if_neg hi0])
        have : n.get_key j ≤ n.get_key (i - 1) := by
          by_cases hje : j = i - 1
          · rw [hje]
          · exact le_of_lt (k1 j (i - 1) (by omega) (by omega))
        omega
      · have hin : i < n.num_key := by omega
        have hH : x < n.get_key i := by
          have := hhi
          rw [h6] at this
          unfold IxNode.hib at this
          rw [if_pos hin] at this
          exact this
        have : n.get_key i ≤ n.get_key j := by
          by_cases hje : j = i
          · rw [hje]
          · exact le_of_lt (k1 i j (by omega) hj)
        omega
    · apply ih h8 h7 h1 h9.upW
      · intro K hK
        by_cases hi0 : i = 0
        · apply hlo K
          rw [h5]; unfold IxNode.lob; rw [if_pos hi0]; exact hK
        · have h10 := hlo (n.get_key (i - 1)) (by rw [h5]; unfold IxNode.lob; rw [if_neg hi0])
          have := k3 K hK (i - 1) (by omega)
          omega
      · by_cases hin : i < n.num_key
        · have hH : x < n.get_key i := by
            have := hhi
            rw [h6] at this
            unfold IxNode.hib at this
            rw [if_pos hin] at this
            exact this
          exact ltHi_of_le (le_of_lt hH) (k2 i hin)
        · have := hhi
          rw [h6] at this
          unfold IxNode.hib at this
          rw [if_neg hin] at this
          exact this

/-- The walk of `maintain_parent` up a chain of ancestors none of which
holds the old key changes nothing. -/
theorem maintain_parent_loop_free (x y : Int) (fr : List (Int × Nat)) :
    ∀ (fuel : Nat) (p par : Int) (s : IxIndexHandle), AncFree s x fr p par → fr.length < fuel →
      maintain_parent_loop x y fuel p par s = (Except.ok (), s) := by
  induction fr with
  | nil =>
    intro fuel p par s h hf
    obtain ⟨f, rfl⟩ : ∃ f, fuel = f + 1 := ⟨fuel - 1, by omega⟩
    have hp : p = s.file_hdr_.root_page_ := h
    rw [maintain_parent_loop, bind_run (getHdr_run s)]
    simp only [hp, ne_eq, not_true_eq_false, if_false]
    rfl
  | cons f0 fr ih =>
    intro fuel p par s h hf
    obtain ⟨A, i⟩ := f0
    obtain ⟨f, rfl⟩ : ∃ f, fuel = f + 1 := ⟨fuel - 1, by omega⟩
    obtain ⟨h1, h2, a, h3, _, h5, h6⟩ := h
    subst h2
    rw [maintain_parent_loop, bind_run (getHdr_run s)]
    simp only [ne_eq, h1, not_false_eq_true, if_true]
    rw [bind_run (fetch_run h3)]
    simp only [h5, not_true_eq_false, if_false]
    exact ih f par a.parent s h6 (by simpa using hf)

/-- A chain of ancestors is not touched by a write to a leaf. -/
theorem AncFree_put {s : IxIndexHandle} (x : Int) {L : Int} {n : IxNode} (n1 : IxNode)
    (hL : s.getP L = some n) (hl : n.is_leaf = true) (fr : List (Int × Nat)) :
    ∀ (p par : Int), AncFree s x fr p par → AncFree (s.put L n1) x fr p par := by
  induction fr with
  | nil =>
    intro p par h
    exact h
  | cons f0 fr ih =>
    intro p par h
    obtain ⟨A, i⟩ := f0
    obtain ⟨h1, h2, a, h3, h4, h5, h6⟩ := h
    refine ⟨h1, h2, a, ?_, h4, h5, ih _ _ h6⟩
    rw [getP_put n1 hL, if_neg]
    · exact h3
    · intro hAL
      rw [hAL, hL] at h3
      simp only [Option.some.injEq] at h3
      rw [h3, h4] at hl
      cases hl

end IxIndexHandle

namespace IxIndexHandle

/-- The descent to a leaf reads internal nodes only: a write to a leaf that
leaves it a leaf does not change where the descent ends. -/
theorem find_leaf_loop_put {s : IxIndexHandle} (k : Int) {L : Int} {n : IxNode} (n1 : IxNode)
    (hL : s.getP L = some n) (hl : n.is_leaf = true) (hl1 : n1.is_leaf = true) :
    ∀ (fuel : Nat) (p leaf : Int), find_leaf_loop k fuel p s = (Except.ok leaf, s) →
      find_leaf_loop k fuel p (s.put L n1) = (Except.ok leaf, s.put L n1) := by
  intro fuel
  induction fuel with
  | zero =>
    intro p leaf h
    simp [find_leaf_loop, IxM.throw] at h
  | succ f ih =>
    intro p leaf h
    rw [find_leaf_loop] at h ⊢
    cases hp : s.getP p with
    | none =>
      rw [bind_err (fetch_none hp)] at h
      simp at h
    | some c =>
      rw [bind_run (fetch_run hp)] at h
      by_cases hc : c.is_leaf = true
      · simp only [hc, if_true] at h
        have hpl : leaf = p := by
          have := congrArg Prod.fst h
          simp only [pure_run] at this
          injection this with h'
          exact h'.symm
        subst hpl
        by_cases hpL : leaf = L
        · have hg : (s.put L n1).getP leaf = some n1 := by
            rw [getP_put n1 hL, if_pos hpL]
          rw [bind_run (fetch_run hg)]
          simp only [hl1, if_true]
          rfl
        · have hg : (s.put L n1).getP leaf = some c := by
            rw [getP_put n1 hL, if_neg hpL]; exact hp
          rw [bind_run (fetch_run hg)]
          simp only [hc, if_true]
          rfl
      · have hpL : p ≠ L := by
          intro e
          rw [e, hL] at hp
          simp only [Option.some.injEq] at hp
          rw [hp] at hl
          exact hc hl
        have hg : (s.put L n1).getP p = some c := by
          rw [getP_put n1 hL, if_neg hpL]; exact hp
        rw [bind_run (fetch_run hg)]
        simp only [hc, Bool.false_eq_true, if_false] at h ⊢
        cases hlk : c.internal_lookup k with
        | error e =>
          rw [bind_err (show IxM.lift (c.internal_lookup k) s = (Except.error e, s) by
            rw [lift_run, hlk])] at h
          simp at h
        | ok child =>
          rw [bind_run (show IxM.lift (c.internal_lookup k) s = (Except.ok child, s) by
            rw [lift_run, hlk])] at h
          rw [bind_run (show IxM.lift (Except.ok child : Except IxError Int) (s.put L n1) =
            (Except.ok child, s.put L n1) by rw [lift_run])]
          exact ih child leaf h

theorem find_leaf_page_put {s : IxIndexHandle} (k : Int) {L : Int} {n : IxNode} (n1 : IxNode)
    (hL : s.getP L = some n) (hl : n.is_leaf = true) (hl1 : n1.is_leaf = true) (leaf : Int)
    (h : find_leaf_page k s = (Except.ok leaf, s)) :
    find_leaf_page k (s.put L n1) = (Except.ok leaf, s.put L n1) := by
  unfold find_leaf_page at h ⊢
  rw [bind_run (getHdr_run s)] at h
  rw [bind_run (getHdr_run _), hdr_put]
  show find_leaf_loop k ((s.put L n1).pages.length + 1) s.file_hdr_.root_page_ (s.put L n1) = _
  rw [length_put]
  exact find_leaf_loop_put k n1 hL hl hl1 _ _ _ h

/-- `coalesce_or_redistribute` on a leaf that is the root page or holds at
least the minimum and at most the maximum number of keys returns false and
changes nothing. -/
theorem coalesce_noop (t : IxIndexHandle) (L : Int) (n2 : IxNode) (h : t.getP L = some n2)
    (hl : n2.is_leaf = true)
    (hocc : n2.is_root_page = false →
      (t.file_hdr_.btree_order_ + 1) / 2 ≤ n2.get_num_vals ∧
        n2.get_num_vals < t.file_hdr_.btree_order_ + 1) (fuel : Nat) :
    coalesce_or_redistribute (fuel + 1) L t = (Except.ok false, t) := by
  rw [coalesce_or_redistribute, bind_run (fetch_run h)]
  by_cases hr : n2.is_root_page = true
  · simp only [hr, if_true]
    unfold adjust_root
    rw [bind_run (fetch_run h)]
    simp only [hl, Bool.not_true, Bool.false_and, Bool.false_eq_true, if_false]
    rfl
  · have hr' : n2.is_root_page = false := by
      cases hv : n2.is_root_page with
      | true => exact absurd hv hr
      | false => rfl
    simp only [hr', Bool.false_eq_true, if_false]
    rw [bind_run (getHdr_run t)]
    have := hocc hr'
    simp only [ge_iff_le]
    rw [if_pos this]
    rfl

end IxIndexHandle

namespace IxIndexHandle

theorem maintain_parent_free (t : IxIndexHandle) (L : Int) (c : IxNode) (x y : Int)
    (fr : List (Int × Nat)) (h : t.getP L = some c) (ha : AncFree t x fr L c.parent)
    (hf : fr.length < t.pages.length + 1) :
    maintain_parent L x y t = (Except.ok (), t) := by
  unfold maintain_parent
  rw [bind_run (fetch_run h)]
  exact maintain_parent_loop_free x y fr _ L c.parent t ha hf

/-- `insert_entry` where the leaf has room and `maintain_parent`, if it is
called, changes nothing: the key goes into the leaf and nothing else is
written. -/
theorem leaf_insert_entry (s : IxIndexHandle) (L : Int) (n n1 : IxNode) (k : Int) (r : Rid)
    (m : Nat) (hfind : find_leaf_page k s = (Except.ok L, s)) (h : s.getP L = some n)
    (hins : n.insert k r = Except.ok (n1, m)) (hm : m ≤ s.file_hdr_.btree_order_)
    (hmp : decide (ix_compare k (n.get_key 0) < 0) = true →
      maintain_parent L (n.get_key 0) (n1.get_key 0) (s.put L n1) =
        (Except.ok (), s.put L n1)) :
    insert_entry k r s = (Except.ok L, s.put L n1) := by
  have h0 := (getP_lt h).1
  unfold insert_entry
  rw [bind_run hfind, bind_run (fetch_run h)]
  simp only []
  rw [bind_run (show IxM.lift (n.insert k r) s = (Except.ok (n1, m), s) by rw [lift_run, hins])]
  simp only []
  rw [bind_run (store_run n1 h0)]
  split
  · rename_i hd
    rw [bind_run (hmp hd), bind_run (getHdr_run _), hdr_put, if_neg (by omega)]
    rfl
  · rw [bind_run (pure_run _ _), bind_run (getHdr_run _), hdr_put, if_neg (by omega)]
    rfl

/-- `delete_entry` where `maintain_parent`, if it is called, and
`coalesce_or_redistribute` change nothing: the key leaves the leaf and
nothing else is written. -/
theorem leaf_delete_entry (s : IxIndexHandle) (L : Int) (n n2 : IxNode) (k : Int) (r : Rid)
    (m : Nat) (hfind : find_leaf_page k s = (Except.ok L, s)) (h : s.getP L = some n)
    (hrem : n.remove k = Except.ok (n2, m))
    (hmp : decide (ix_compare k (n.get_key 0) = 0) = true →
      maintain_parent L (n.get_key 0) (n2.get_key 0) (s.put L n2) =
        (Except.ok (), s.put L n2))
    (hco : coalesce_or_redistribute ((s.put L n2).pages.length + 1) L (s.put L n2) =
      (Except.ok false, s.put L n2)) :
    delete_entry k r s = (Except.ok false, s.put L n2) := by
  have h0 := (getP_lt h).1
  unfold delete_entry
  dsimp only
  rw [bind_run hfind, bind_run (fetch_run h)]
  rw [bind_run (show IxM.lift (n.remove k) s = (Except.ok (n2, m), s) by rw [lift_run, hrem])]
  dsimp only
  rw [bind_run (store_run n2 h0)]
  by_cases hd : decide (ix_compare k (n.get_key 0) = 0) = true
  · rw [if_pos hd, bind_run (hmp hd), @bind_run Bool Unit (fun (s_1 : IxIndexHandle) =>
      coalesce_or_redistribute (s_1.pages.length + 1) L s_1) _ _ _ _ hco]
    rfl
  · rw [if_neg hd, bind_run (pure_run _ _), @bind_run Bool Unit (fun (s_1 : IxIndexHandle) =>
      coalesce_or_redistribute (s_1.pages.length + 1) L s_1) _ _ _ _ hco]
    rfl

end IxIndexHandle

open IxIndexHandle

/-- C33 (amended): in a B+tree of any height that satisfies the invariant of
the index (sorted leaves, separators equal to the least key of the subtree
to their right, occupancy, parent and leaf links), for a key that
`get_value` does not find and a leaf of the key that holds fewer than
`btree_order` keys, so that the insert does not split it, `insert_entry` and
then `delete_entry` of the key both return and leave the file header and, in
every page, the kind of the node, its number of keys, its parent and sibling
links and its keys and rids in use as they were. -/
theorem insert_then_delete_restores_tree (s : IxIndexHandle) (order H : Nat) (k : Int)
    (r : Rid) (hinv : TreeInv s order H)
    (habs : (get_value k s).1 = Except.ok none)
    (hroom : ∀ L n, (find_leaf_page k s).1 = Except.ok L → s.getP L = some n →
      n.num_key < order) :
    ∃ L s1 s2, insert_entry k r s = (Except.ok L, s1) ∧
      delete_entry k r s1 = (Except.ok false, s2) ∧ s2.shape = s.shape := by
  obtain ⟨fr, L, lo, hi, c, hfind, hctx, hsub, hc, hup, hlo, hhi, hlen⟩ :=
    find_leaf_page_spec k hinv
  have hord : s.file_hdr_.btree_order_ = order := hinv.1
  have hpages : H + 2 ≤ s.pages.length := hinv.2.2.2.1
  obtain ⟨c', hc', hl, hok, hs, hkhi, hklo, _⟩ := Sub_zero.1 hsub
  rw [hc] at hc'
  simp only [Option.some.injEq] at hc'
  subst hc'
  have hrm : c.num_key < order := hroom L c (by rw [hfind]) hc
  -- the key is not in the leaf
  have hnd : ∀ j, j < c.num_key → c.get_key j ≠ k := by
    have h1 := get_value_spec k hinv
    rw [h1] at habs
    simp only [Except.ok.injEq] at habs
    rw [allEntries_eq hinv, ← hlen, lookup_zip k hctx (Sub_weak hsub) hc hup.upW hlo hhi,
      lookup_eq_none, IxNode.leafEntries_keys] at habs
    intro j hj hjk
    apply habs
    rw [List.mem_map]
    exact ⟨j, List.mem_range.2 hj, hjk⟩
  obtain ⟨n1, n2, hins, hl1, hp1, hrem, hnum, hmeta, hk, hr⟩ :=
    IxNode.leaf_insert_remove order c k r hl hok hs hrm hnd
  have hl2 : n2.is_leaf = true := by rw [hmeta.1]; exact hl
  have hp2 : n2.parent = c.parent := hmeta.2.1
  -- no ancestor holds the key, nor the first key of the leaf when the key goes before it
  have hancK : AncFree s k fr L c.parent := by
    apply ancFree_of_ctx k fr hctx (Sub_weak hsub) hc hup.upW _ hhi
    intro K hK
    obtain ⟨h0, hk0⟩ := hklo K hK
    have h2 : K ≤ k := by rw [hK] at hlo; exact hlo
    have := hnd 0 h0
    omega
  have hancO : k < c.get_key 0 → AncFree s (c.get_key 0) fr L c.parent := by
    intro hlt
    cases fr with
    | nil => exact (InCtx_nil.1 hctx).1.symm
    | cons f0 fr0 =>
      have hocc : c.Occ order := hup.2
      have hpos : 0 < c.num_key := by
        have := hocc.1
        rw [IxNode.get_num_vals_leaf hl] at this
        have : 1 ≤ (order + 1) / 2 := by omega
        omega
      apply ancFree_of_ctx (c.get_key 0) _ hctx (Sub_weak hsub) hc hup.upW _ (hkhi 0 hpos)
      intro K hK
      obtain ⟨_, hk0⟩ := hklo K hK
      have h2 : K ≤ k := by rw [hK] at hlo; exact hlo
      omega
  have hg1 : (s.put L n1).getP L = some n1 := by rw [getP_put n1 hc, if_pos rfl]
  have hg2 : ((s.put L n1).put L n2).getP L = some n2 := by rw [getP_put n2 hg1, if_pos rfl]
  have hfl : fr.length < s.pages.length + 1 := by omega
  -- the insert
  have hinsE : insert_entry k r s = (Except.ok L, s.put L n1) := by
    apply leaf_insert_entry s L c n1 k r (c.num_key + 1) hfind hc hins (by omega)
    intro hd
    have hlt : k < c.get_key 0 := by
      simp only [decide_eq_true_eq] at hd
      exact (ix_compare_lt _ _).1 hd
    apply maintain_parent_free _ L n1 _ _ fr hg1 _ (by rw [length_put]; exact hfl)
    rw [hp1]
    exact AncFree_put _ n1 hc hl fr _ _ (hancO hlt)
  -- the delete
  have hdelE : delete_entry k r (s.put L n1) = (Except.ok false, (s.put L n1).put L n2) := by
    apply leaf_delete_entry (s.put L n1) L n1 n2 k r c.num_key
      (find_leaf_page_put k n1 hc hl hl1 L hfind) hg1 hrem
    · intro hd
      have heq : k = n1.get_key 0 := by
        simp only [decide_eq_true_eq] at hd
        exact (ix_compare_eq _ _).1 hd
      apply maintain_parent_free _ L n2 _ _ fr hg2 _
        (by rw [length_put, length_put]; exact hfl)
      rw [hp2, ← heq]
      exact AncFree_put _ n2 hg1 hl1 fr _ _ (AncFree_put _ n1 hc hl fr _ _ hancK)
    · apply coalesce_noop _ L n2 hg2 hl2
      intro hroot
      rw [hdr_put, hdr_put, hord, IxNode.get_num_vals_leaf hl2, hnum]
      cases fr with
      | nil =>
        have hpar : c.parent = INVALID_PAGE_ID := hup.1
        unfold IxNode.is_root_page at hroot
        rw [hp2, hpar] at hroot
        simp at hroot
      | cons f0 fr0 =>
        have hocc : c.Occ order := hup.2
        have h1 := hocc.1
        rw [IxNode.get_num_vals_leaf hl] at h1
        exact ⟨h1, by omega⟩
  refine ⟨L, s.put L n1, (s.put L n1).put L n2, hinsE, hdelE, ?_⟩
  have hpp : (s.put L n1).put L n2 = s.put L n2 := by
    unfold put
    simp only [List.set_set]
  rw [hpp]
  exact shape_put s c n2 _ hc hmeta.1 hnum hmeta.2.1 hmeta.2.2.1 hmeta.2.2.2.1 hk hr

open IxIndexHandle

/-- The example tree of two levels satisfies the invariant of the index. -/
theorem exampleTwoLevelTree_inv : TreeInv exampleTwoLevelTree 4 1 := by
  have hR : exampleTwoLevelTree.getP 4 =
      some (exampleTwoLevelTree.pages.getD 4 (blankNode 4)) := by decide!
  have h2 : exampleTwoLevelTree.getP 2 =
      some (exampleTwoLevelTree.pages.getD 2 (blankNode 4)) := by decide!
  have h3 : exampleTwoLevelTree.getP 3 =
      some (exampleTwoLevelTree.pages.getD 3 (blankNode 4)) := by decide!
  have hroot : exampleTwoLevelTree.file_hdr_.root_page_ = 4 := by decide!
  have hRk : (exampleTwoLevelTree.pages.getD 4 (blankNode 4)).num_key = 1 := by decide!
  have h2k : (exampleTwoLevelTree.pages.getD 2 (blankNode 4)).num_key = 3 := by decide!
  have h3k : (exampleTwoLevelTree.pages.getD 3 (blankNode 4)).num_key = 2 := by decide!
  have hlv : exampleTwoLevelTree.leavesOf 2 exampleTwoLevelTree.file_hdr_.root_page_ = [2, 3] := by
    decide!
  refine ⟨by decide!, ?_, ⟨_, by rw [hroot]; exact hR, by decide!, by decide!, fun _ => by decide!⟩,
    by decide!, ?_, by rw [hlv]; decide!, by rw [hlv]; decide!⟩
  · rw [hroot]
    refine Sub_succ.2 ⟨_, hR, by decide!, by unfold IxNode.NodeOK; decide!, ?_⟩
    intro i hi
    rw [hRk] at hi
    interval_cases i
    · have e0 : (exampleTwoLevelTree.pages.getD 4 (blankNode 4)).child 0 = 2 := by decide!
      have e1 : (exampleTwoLevelTree.pages.getD 4 (blankNode 4)).lob 0 none = none := by decide!
      have e2 : (exampleTwoLevelTree.pages.getD 4 (blankNode 4)).hib 0 none = some 40 := by
        decide!
      rw [e0, e1, e2]
      refine ⟨_, h2, by decide!, fun _ => by unfold IxNode.Occ; decide!, ?_⟩
      refine Sub_zero.2 ⟨_, h2, by decide!, by unfold IxNode.NodeOK; decide!, ?_, ?_, ?_,
        by decide⟩
      · intro i j hij hj
        rw [h2k] at hj
        interval_cases j <;> interval_cases i <;> decide!
      · intro j hj
        rw [h2k] at hj
        interval_cases j <;> (show _ < (40 : Int); decide!)
      · intro K hK
        cases hK
    · have e0 : (exampleTwoLevelTree.pages.getD 4 (blankNode 4)).child 1 = 3 := by decide!
      have e1 : (exampleTwoLevelTree.pages.getD 4 (blankNode 4)).lob 1 none = some 40 := by
        decide!
      have e2 : (exampleTwoLevelTree.pages.getD 4 (blankNode 4)).hib 1 none = none := by decide!
      rw [e0, e1, e2]
      refine ⟨_, h3, by decide!, fun _ => by unfold IxNode.Occ; decide!, ?_⟩
      refine Sub_zero.2 ⟨_, h3, by decide!, by unfold IxNode.NodeOK; decide!, ?_, ?_, ?_,
        by decide⟩
      · intro i j hij hj
        rw [h3k] at hj
        interval_cases j
        · omega
        · interval_cases i
          decide!
      · intro j _
        trivial
      · intro K hK
        simp only [Option.some.injEq] at hK
        subst hK
        decide!
  · rw [hlv]
    refine ⟨⟨_, h2, by decide!, ?_⟩, ⟨_, h3, by decide!, ?_⟩, trivial⟩
    · intro q hq
      simp only [List.head?_cons, Option.or_some, Option.some.injEq] at hq
      subst hq
      decide!
    · intro q hq
      simp at hq

/-- Witness for C33 on the tree of two levels with the leaves `10, 20, 30`
and `40, 50` under the root with the key 40: the key 5 goes in front of the
first key of the leftmost leaf and the key 45 between the keys of the second
leaf; both leaves have room, and after the insert and the delete the tree is
as it was. -/
theorem insert_then_delete_restores_tree_witness :
    TreeInv exampleTwoLevelTree 4 1 ∧
    (∃ L s1 s2, insert_entry 5 ⟨5, 0⟩ exampleTwoLevelTree = (Except.ok L, s1) ∧
      delete_entry 5 ⟨5, 0⟩ s1 = (Except.ok false, s2) ∧
      s2.shape = exampleTwoLevelTree.shape) ∧
    (∃ L s1 s2, insert_entry 45 ⟨45, 0⟩ exampleTwoLevelTree = (Except.ok L, s1) ∧
      delete_entry 45 ⟨45, 0⟩ s1 = (Except.ok false, s2) ∧
      s2.shape = exampleTwoLevelTree.shape) := by
  have h2 : exampleTwoLevelTree.getP 2 =
      some (exampleTwoLevelTree.pages.getD 2 (blankNode 4)) := by decide!
  have h3 : exampleTwoLevelTree.getP 3 =
      some (exampleTwoLevelTree.pages.getD 3 (blankNode 4)) := by decide!
  refine ⟨exampleTwoLevelTree_inv, ?_, ?_⟩
  · apply insert_then_delete_restores_tree exampleTwoLevelTree 4 1 5 ⟨5, 0⟩
      exampleTwoLevelTree_inv (by decide!)
    intro L n hL hn
    have e : (find_leaf_page 5 exampleTwoLevelTree).1 = Except.ok 2 := by decide!
    rw [e] at hL
    simp only [Except.ok.injEq] at hL
    subst hL
    rw [h2] at hn
    simp only [Option.some.injEq] at hn
    subst hn
    decide!
  · apply insert_then_delete_restores_tree exampleTwoLevelTree 4 1 45 ⟨45, 0⟩
      exampleTwoLevelTree_inv (by decide!)
    intro L n hL hn
    have e : (find_leaf_page 45 exampleTwoLevelTree).1 = Except.ok 3 := by decide!
    rw [e] at hL
    simp only [Except.ok.injEq] at hL
    subst hL
    rw [h3] at hn
    simp only [Option.some.injEq] at hn
    subst hn
    decide!

theorem two_int_order (x y x2 y2 : Int) (hx2 : -2147483648 ≤ x2 ∧ x2 < 2147483648)
    (hy2 : -2147483648 ≤ y2 ∧ y2 < 2147483648) :
    (if (if x < y then (-1 : Int) else if x > y then 1 else 0) ≠ 0 then
        (Except.ok (if x < y then -1 else if x > y then 1 else 0) : Except ExecError Int)
      else if (if x2 < y2 then (-1 : Int) else if x2 > y2 then 1 else 0) ≠ 0 then
        Except.ok (if x2 < y2 then -1 else if x2 > y2 then 1 else 0)
      else Except.ok 0) =
    Except.ok (ix_compare (x * 4294967296 + (x2 + 2147483648))
      (y * 4294967296 + (y2 + 2147483648))) := by
  unfold ix_compare
  split_ifs <;> first | rfl | (exfalso; omega)

/-- The integers of the tree order two keys of an index on two INT columns
as `ix_compare` orders their bytes. -/
theorem ix_compare_cols_two_int (a b : List Nat) (ha : ∀ x ∈ a, x < 256)
    (hb : ∀ x ∈ b, x < 256) (c1 c2 : ColMeta) (h1 : c1.len = 4) :
    ix_compare_cols a b [ColType.TYPE_INT, ColType.TYPE_INT] [4, 4] =
      Except.ok (ix_compare (ixKeyOfBytes [c1, c2] a) (ixKeyOfBytes [c1, c2] b)) := by
  have ra2 := decodeInt32_range (a.drop 4) (fun x hx => ha x (List.mem_of_mem_drop hx))
  have rb2 := decodeInt32_range (b.drop 4) (fun x hx => hb x (List.mem_of_mem_drop hx))
  simp only [ix_compare_cols, ix_compare_raw, List.headD_cons, List.tail_cons, ixKeyOfBytes,
    keyInts, ixKeyOfInts, List.foldl_cons, List.foldl_nil, h1]
  exact two_int_order _ _ _ _ ra2 rb2

/-- C39 (failing input): the table `t(a INT, b INT)` holds the rows (4, 0)
and (6, 0), and its index on `(a, b)` holds one entry for each of them.
With the conditions `a >= 5 AND a <= 3` the sequential scan yields no record,
while the index scan starts at the entry of (6, 0), behind the end position
of its `IxScan`, runs past the last entry of the last leaf and fails the
assertion `iid_.slot_no < node_buffer->get_num_vals()` of `IxScan::next`.
For `a >= 3 AND a <= 5` and for `a >= 5` both scans yield the same
records. -/
theorem index_scan_inverted_range_fails :
    exampleSeqScan [] = Except.ok [encodeInt32 4 ++ encodeInt32 0, encodeInt32 6 ++ encodeInt32 0] ∧
    (IxIndexHandle.get_value (ixKeyOfBytes exampleIxCols (encodeInt32 4 ++ encodeInt32 0))
      exampleIxIndex).1 = Except.ok (some ⟨1, 0⟩) ∧
    (IxIndexHandle.get_value (ixKeyOfBytes exampleIxCols (encodeInt32 6 ++ encodeInt32 0))
      exampleIxIndex).1 = Except.ok (some ⟨1, 1⟩) ∧
    (exampleIxIndex.pages.map IxNode.liveKeys).flatten.length = 2 ∧
    exampleSeqScan [condA CompOp.OP_GE 5, condA CompOp.OP_LE 3] = Except.ok [] ∧
    exampleSeqScan [condA CompOp.OP_GE 5, condA CompOp.OP_LE 3] ≠
      exampleIndexScan [condA CompOp.OP_GE 5, condA CompOp.OP_LE 3] ∧
    exampleIndexScan [condA CompOp.OP_GE 5, condA CompOp.OP_LE 3] =
      Except.error ExecError.AssertionFailed ∧
    exampleIndexScan [condA CompOp.OP_GE 3, condA CompOp.OP_LE 5] =
      exampleSeqScan [condA CompOp.OP_GE 3, condA CompOp.OP_LE 5] ∧
    exampleIndexScan [condA CompOp.OP_GE 3, condA CompOp.OP_LE 5] =
      Except.ok [encodeInt32 4 ++ encodeInt32 0] ∧
    exampleIndexScan [condA CompOp.OP_GE 5] = exampleSeqScan [condA CompOp.OP_GE 5] ∧
    exampleIndexScan [condA CompOp.OP_GE 5] = Except.ok [encodeInt32 6 ++ encodeInt32 0] := by
  decide!

end RMDB
